import Mathlib

namespace CppBtree

/-- Compile-time parameters of a tree (`Params` template argument): the value-to-key projection
`params_type::key`, the node capacity `kNodeValues` and the `is_key_compare_to` switch. -/
structure Params (K V : Type) where
  key : V → K
  kNodeValues : Nat
  is_key_compare_to : Bool

/-- A node (`btree_node`). Only the live values `values_[0 .. count_)` and the live children
`children_ptr_[0 .. count_]` are recorded, so `count()` is the length of `values`. A leaf carries
the capacity `max_count()` it was allocated with (`new_leaf_root_node(max_count)`); an internal
node always has capacity `kNodeValues`. The `parent_` and `position_` fields are not stored:
a node is named by the chain of `position()` values read along its `parent()` links. -/
inductive Node (V : Type) where
  | leaf_node (max_count : Nat) (values : List V)
  | internal_node (values : List V) (children : List (Node V))
deriving Repr

namespace Node

variable {K V : Type}

/-- The placeholder standing for a null child slot (and for reading a slot that holds no node). -/
def null : Node V := leaf_node 0 []

instance : Inhabited (Node V) := ⟨null⟩

/-- `leaf()`: a node without a children array is a leaf. -/
def leaf : Node V → Bool
  | leaf_node _ _ => true
  | internal_node _ _ => false

/-- The live values of the node. -/
def values : Node V → List V
  | leaf_node _ vs => vs
  | internal_node vs _ => vs

/-- The live children of the node (none for a leaf). -/
def children : Node V → List (Node V)
  | leaf_node _ _ => []
  | internal_node _ cs => cs

/-- `count()`. -/
def count (n : Node V) : Nat := n.values.length

/-- `max_count()` as the engine reads it: the allocated capacity of a leaf, `kNodeValues` for an
internal node. -/
def max_count (B : Nat) : Node V → Nat
  | leaf_node m _ => m
  | internal_node _ _ => B

/-- `children_count()`: `leaf() ? 0 : count() + 1`. -/
def children_count (n : Node V) : Nat := if n.leaf then 0 else n.count + 1

/-- `max_children_count()`: `leaf() ? 0 : max_count() + 1`, with `max_count()` the constant
`kNodeValues` of the node header. -/
def max_children_count (B : Nat) (n : Node V) : Nat := if n.leaf then 0 else B + 1

/-- `value(i)`. -/
def value [Inhabited V] (n : Node V) (i : Nat) : V := n.values.getD i default

/-- `borrow_child(i)` / `child(i)`. -/
def child (n : Node V) (i : Nat) : Node V := n.children.getD i null

/-- Overwrite the live values (the node keeps its kind, capacity and children). -/
def with_values : Node V → List V → Node V
  | leaf_node m _, vs => leaf_node m vs
  | internal_node _ cs, vs => internal_node vs cs

/-- Overwrite the live children of an internal node. -/
def with_children : Node V → List (Node V) → Node V
  | leaf_node m vs, _ => leaf_node m vs
  | internal_node vs _, cs => internal_node vs cs

/-- `set_child(i, c)`: store `c` in child slot `i` (the parent and position fields of `c`
are implied by the slot). -/
def set_child (n : Node V) (i : Nat) (c : Node V) : Node V :=
  n.with_children (n.children.set i c)

/-- Store `x` in value slot `i` (one half of a `value_swap`). -/
def set_value (n : Node V) (i : Nat) (x : V) : Node V :=
  n.with_values (n.values.set i x)

/-- Result of a node-level search (`btree_node_search_result`). -/
structure search_result where
  index : Nat
  is_exact_match : Bool
deriving DecidableEq, Repr

/-- `binary_search_compare<WithEqual>(k, s, e, comp)`. The `while (s != e)` loop is unrolled
`fuel` times; every round shrinks `e - s`, so `e - s + 1` rounds reach the exit. -/
def binary_search_compare [Inhabited V] (key : V → K) (comp : K → K → Int) (WithEqual : Bool)
    (n : Node V) (k : K) : Nat → Nat → Nat → search_result
  | 0, s, _ => ⟨s, false⟩
  | fuel + 1, s, e =>
    if s ≠ e then
      let mid := (s + e) / 2
      let c := comp (key (n.value mid)) k
      if c < 0 then
        binary_search_compare key comp WithEqual n k fuel (mid + 1) e
      else if c > 0 then
        binary_search_compare key comp WithEqual n k fuel s mid
      else if WithEqual then
        ⟨(binary_search_compare key comp true n k fuel s mid).index, true⟩
      else
        binary_search_compare key comp WithEqual n k fuel (mid + 1) e
    else ⟨s, false⟩

/-- `lower_bound(k, comp)`: `binary_search_compare(k, 0, count(), comp)`. -/
def lower_bound [Inhabited V] (key : V → K) (comp : K → K → Int) (n : Node V) (k : K) :
    search_result :=
  binary_search_compare key comp true n k (n.count + 1) 0 n.count

/-- `upper_bound(k, comp)`: `binary_search_compare<false>(k, 0, count(), comp)`. -/
def upper_bound [Inhabited V] (key : V → K) (comp : K → K → Int) (n : Node V) (k : K) :
    search_result :=
  binary_search_compare key comp false n k (n.count + 1) 0 n.count

/-- `rotate_values(first, middle, last)`: `std::rotate` on the value array, so that the value
at `middle` becomes the one at `first`. -/
def rotate_values (vs : List V) (first middle last : Nat) : List V :=
  vs.take first ++ (vs.drop middle).take (last - middle)
    ++ (vs.drop first).take (middle - first) ++ vs.drop last

/-- `shift_children_right(first, last, shift)`: children `[first, last)` move up by `shift`
slots and the vacated slots `[first, first + shift)` become null. -/
def shift_children_right (cs : List (Node V)) (first last shift : Nat) : List (Node V) :=
  cs.take first ++ List.replicate shift null ++ (cs.drop first).take (last - first)

/-- `shift_children_left(first, last, shift)`: children `[first, last)` move down by `shift`
slots; the vacated slots `[last - shift, last)` become null and fall outside the live range. -/
def shift_children_left (cs : List (Node V)) (first last shift : Nat) : List (Node V) :=
  cs.take (first - shift) ++ (cs.drop first).take (last - first)

/-- `rotate_back_to(i)` after `value_init(values_count(), x)`: the value written in slot
`count()` is rotated to slot `i`, the count grows by one and, on an internal node, the children
after slot `i` move one slot to the right. -/
def rotate_back_to (n : Node V) (i : Nat) (x : V) : Node V :=
  match n with
  | leaf_node m vs => leaf_node m (rotate_values (vs ++ [x]) i vs.length (vs.length + 1))
  | internal_node vs cs =>
    internal_node (rotate_values (vs ++ [x]) i vs.length (vs.length + 1))
      (shift_children_right cs (i + 1) (vs.length + 1 + 1 - 1) 1)

/-- `insert_value(i, x)`. -/
def insert_value (n : Node V) (i : Nat) (x : V) : Node V := n.rotate_back_to i x

/-- `emplace_value(i)` without arguments: a default-constructed value is inserted at `i`. -/
def emplace_value [Inhabited V] (n : Node V) (i : Nat) : Node V := n.rotate_back_to i default

/-- `remove_value(i)`. -/
def remove_value (n : Node V) (i : Nat) : Node V :=
  match n with
  | leaf_node m vs =>
    leaf_node m
      ((if i + 1 < vs.length then rotate_values vs i (i + 1) vs.length else vs).take
        (vs.length - 1))
  | internal_node vs cs =>
    internal_node
      ((if i + 1 < vs.length then rotate_values vs i (i + 1) vs.length else vs).take
        (vs.length - 1))
      ((if i + 2 < vs.length + 1 then shift_children_left cs (i + 2) (vs.length + 1) 1
        else cs).take (vs.length - 1 + 1))

/-- `left->rebalance_right_to_left(src, to_move)` where `left` is child `position` of `parent`
and `src` is child `position + 1`: the delimiting value goes down to the end of `left`, value
`to_move - 1` of `src` becomes the new delimiter, the `to_move - 1` values before it follow the
old delimiter onto `left`, and for internal nodes the first `to_move` children of `src` are
appended to the children of `left`. -/
def rebalance_right_to_left [Inhabited V] (parent : Node V) (position to_move : Nat) : Node V :=
  let left := parent.child position
  let src := parent.child (position + 1)
  let left1 := left.with_values
    (left.values ++ [parent.value position] ++ src.values.take (to_move - 1))
  let parent1 := parent.set_value position (src.value (to_move - 1))
  let src1 := src.with_values (rotate_values src.values 0 to_move src.count)
  let left2 := left1.with_children (left.children ++ src.children.take to_move)
  let src2 := src1.with_children (shift_children_left src.children to_move src.children_count to_move)
  let src3 := src2.with_values (src2.values.take (src.count - to_move))
  (parent1.set_child position left2).set_child (position + 1) src3

/-- `left->rebalance_left_to_right(dest, to_move)` where `left` is child `position` of `parent`
and `dest` is child `position + 1`. -/
def rebalance_left_to_right [Inhabited V] (parent : Node V) (position to_move : Nat) : Node V :=
  let left := parent.child position
  let dest := parent.child (position + 1)
  let dest1 := dest.with_values
    (left.values.drop (left.count - to_move + 1) ++ [parent.value position] ++ dest.values)
  let parent1 := parent.set_value position (left.value (left.count - to_move))
  let dest2 := dest1.with_children
    (left.children.drop (left.children_count - to_move) ++ dest.children)
  let left1 := (left.with_values (left.values.take (left.count - to_move))).with_children
    (left.children.take (left.children_count - to_move))
  (parent1.set_child position left1).set_child (position + 1) dest2

/-- `node->split(dest, insert_position)` where `node` is child `position` of `parent` and `dest`
is a freshly allocated empty node of the same kind (`new_leaf_node` / `new_internal_node`).
The far-right test reads `max_children_count() - 1`, which is `-1` on a leaf. -/
def split [Inhabited V] (B : Nat) (parent : Node V) (position : Nat) (insert_position : Int) :
    Node V :=
  let node := parent.child position
  let dest_count : Nat :=
    if insert_position = 0 then node.count - 1
    else if insert_position = (node.max_children_count B : Int) - 1 then 0
    else node.count / 2
  let count1 := node.count - dest_count
  let dest_values := (node.values.drop count1).take dest_count
  let count2 := count1 - 1
  let parent1 := parent.emplace_value position
  let parent2 := parent1.set_value position (node.value count2)
  let dest_children := (node.children.drop (count2 + 1)).take (dest_count + 1)
  let dest : Node V :=
    if node.leaf then leaf_node B dest_values else internal_node dest_values dest_children
  let node1 := (node.with_values (node.values.take count2)).with_children
    (node.children.take (count2 + 1))
  (parent2.set_child position node1).set_child (position + 1) dest

/-- `left->merge(src)` where `left` is child `position` of `parent` and `src` is child
`position + 1`: the delimiter and the values (and children) of `src` are appended to `left`,
`src` is left empty and the delimiter slot is removed from `parent`. -/
def merge [Inhabited V] (parent : Node V) (position : Nat) : Node V :=
  let left := parent.child position
  let src := parent.child (position + 1)
  let left1 := (left.with_values (left.values ++ [parent.value position] ++ src.values)).with_children
    (left.children ++ src.children)
  let src1 := (src.with_values []).with_children []
  ((parent.set_child position left1).set_child (position + 1) src1).remove_value position

end Node

end CppBtree

namespace CppBtree

variable {K V : Type}

/-- Read the node reached from `root` through the node name `rp` (the chain of `position()`
values, innermost first). -/
def getNode (root : Node V) : List Nat → Node V
  | [] => root
  | i :: rp => (getNode root rp).child i

/-- Write `n` back at the place named `rp`; every ancestor owns its children, so the change
is visible from the root. -/
def setNode (root : Node V) : List Nat → Node V → Node V
  | [], n => n
  | i :: rp, n => setNode root rp ((getNode root rp).set_child i n)

/-- An iterator (`btree_iterator`): a node pointer (null, or the node name) and a position. -/
structure Iter where
  node : Option (List Nat)
  position : Int
deriving DecidableEq, Repr

/-- The node name held by a non-null iterator. -/
def Iter.path (it : Iter) : List Nat := it.node.getD []

/-- The tree object (`btree`): the comparator base sub-object, the root handle `root_.data`
and the element counter kept in the root fields of an internal root. -/
structure Btree (K V : Type) where
  comp : K → K → Int
  root : Option (Node V)
  size_field : Nat

namespace Btree

/-- The constructor `btree(comp, alloc)`: an empty tree. -/
def new (comp : K → K → Int) : Btree K V := ⟨comp, none, 0⟩

/-- `root()` dereferenced. -/
def root_node (t : Btree K V) : Node V := t.root.getD Node.null

/-- The tree with the root handle replaced. -/
def with_root (t : Btree K V) (r : Option (Node V)) : Btree K V := ⟨t.comp, r, t.size_field⟩

/-- The tree with the counter in the root fields replaced (`*mutable_size()`). -/
def with_size (t : Btree K V) (s : Nat) : Btree K V := ⟨t.comp, t.root, s⟩

/-- The node named `rp`. -/
def node (t : Btree K V) (rp : List Nat) : Node V := getNode t.root_node rp

/-- The tree after node `rp` was overwritten by `n`. -/
def set_node (t : Btree K V) (rp : List Nat) (n : Node V) : Btree K V :=
  t.with_root (some (setNode t.root_node rp n))

/-- `empty()`. -/
def empty (t : Btree K V) : Bool := t.root.isNone

/-- `size()`. -/
def size (t : Btree K V) : Nat :=
  if t.empty then 0 else if t.root_node.leaf then t.root_node.count else t.size_field

/-- `compare_keys(x, y)`: whether `x` orders before `y`. -/
def compare_keys (t : Btree K V) (x y : K) : Bool := decide (t.comp x y < 0)

end Btree

/-- `height()` of a non-empty tree: the number of nodes on the chain from the leftmost leaf
up to the root. -/
def Node.height : Node V → Nat
  | Node.leaf_node _ _ => 1
  | Node.internal_node _ [] => 1
  | Node.internal_node _ (c :: _) => c.height + 1

namespace Btree

/-- `height()`. -/
def height (t : Btree K V) : Nat :=
  match t.root with
  | none => 0
  | some r => r.height

/-- Walk down first children from `rp` to a leaf. -/
def leftmost_from (t : Btree K V) : Nat → List Nat → List Nat
  | 0, rp => rp
  | fuel + 1, rp => if (t.node rp).leaf then rp else leftmost_from t fuel (0 :: rp)

/-- Walk down last children from `rp` to a leaf. -/
def rightmost_from (t : Btree K V) : Nat → List Nat → List Nat
  | 0, rp => rp
  | fuel + 1, rp =>
    if (t.node rp).leaf then rp else rightmost_from t fuel ((t.node rp).count :: rp)

/-- `leftmost()`: the leaf that the parent link of the root designates; here the pointer is
recomputed as the leaf reached through first children. -/
def leftmost (t : Btree K V) : Option (List Nat) :=
  if t.empty then none else some (t.leftmost_from t.height [])

/-- `rightmost()`: the root itself when it is a leaf, else the cached rightmost leaf; here the
cache is recomputed as the leaf reached through last children. -/
def rightmost (t : Btree K V) : Option (List Nat) :=
  if t.empty then none else some (t.rightmost_from t.height [])

/-- `begin()`. -/
def begin_ (t : Btree K V) : Iter := ⟨t.leftmost, 0⟩

/-- `end()`. -/
def end_ (t : Btree K V) : Iter :=
  match t.rightmost with
  | none => ⟨none, 0⟩
  | some rp => ⟨some rp, (t.node rp).count⟩

/-- `internal_end(iter)`. -/
def internal_end (t : Btree K V) (iter : Iter) : Iter :=
  if iter.node.isSome then iter else t.end_

/-- The value an iterator designates (`*iter`). -/
def deref [Inhabited V] (t : Btree K V) (iter : Iter) : V :=
  (t.node iter.path).value iter.position.toNat

/-- The loop of `internal_last` started on a non-null iterator: while the position is the
count of the node, step to the parent; stepping above the root gives the null iterator. -/
def internal_last_at (t : Btree K V) : List Nat → Int → Iter
  | [], pos => if pos = (t.node []).count then ⟨none, 0⟩ else ⟨some [], pos⟩
  | i :: rp, pos =>
    if pos = (t.node (i :: rp)).count then internal_last_at t rp i else ⟨some (i :: rp), pos⟩

/-- `internal_last(iter)`. -/
def internal_last (t : Btree K V) (iter : Iter) : Iter :=
  match iter.node with
  | none => iter
  | some rp => t.internal_last_at rp iter.position

end Btree

end CppBtree

namespace CppBtree

variable {K V : Type}

namespace Btree

/-- Modelled from the spec: the exact-match indication of the three-way locate
(`node_type::kExactMatch`, declared in the engine's own node header); a non-zero flag value. -/
def kExactMatch : Int := 1073741824

/-- `kMinNodeValues = kNodeValues / 2`. -/
def kMinNodeValues (P : Params K V) : Nat := P.kNodeValues / 2

/-- `iterator(root(), 0)`. -/
def root_iter (t : Btree K V) : Iter := ⟨if t.empty then none else some [], 0⟩

/-- `iter.key()`. -/
def key_at [Inhabited V] (P : Params K V) (t : Btree K V) (iter : Iter) : K :=
  P.key (t.deref iter)

/-- The descent loop of `internal_locate_plain_compare`, started at node `rp`. -/
def internal_locate_plain_compare_loop [Inhabited V] (P : Params K V) (t : Btree K V) (key : K) :
    Nat → List Nat → Iter × Int
  | 0, rp => (⟨some rp, ((t.node rp).lower_bound P.key t.comp key).index⟩, 0)
  | fuel + 1, rp =>
    let position := ((t.node rp).lower_bound P.key t.comp key).index
    if (t.node rp).leaf then (⟨some rp, position⟩, 0)
    else internal_locate_plain_compare_loop P t key fuel (position :: rp)

/-- `internal_locate_plain_compare(key, iter)`. -/
def internal_locate_plain_compare [Inhabited V] (P : Params K V) (t : Btree K V) (key : K)
    (iter : Iter) : Iter × Int :=
  internal_locate_plain_compare_loop P t key t.height iter.path

/-- The descent loop of `internal_locate_compare_to`, started at node `rp`. -/
def internal_locate_compare_to_loop [Inhabited V] (P : Params K V) (t : Btree K V) (key : K) :
    Nat → List Nat → Iter × Int
  | 0, rp => (⟨some rp, ((t.node rp).lower_bound P.key t.comp key).index⟩, -kExactMatch)
  | fuel + 1, rp =>
    let res := (t.node rp).lower_bound P.key t.comp key
    if res.is_exact_match then (⟨some rp, res.index⟩, kExactMatch)
    else if (t.node rp).leaf then (⟨some rp, res.index⟩, -kExactMatch)
    else internal_locate_compare_to_loop P t key fuel (res.index :: rp)

/-- `internal_locate_compare_to(key, iter)`. -/
def internal_locate_compare_to [Inhabited V] (P : Params K V) (t : Btree K V) (key : K)
    (iter : Iter) : Iter × Int :=
  internal_locate_compare_to_loop P t key t.height iter.path

/-- `internal_locate(key, iter)`: dispatch on `is_key_compare_to`. -/
def internal_locate [Inhabited V] (P : Params K V) (t : Btree K V) (key : K) (iter : Iter) :
    Iter × Int :=
  if P.is_key_compare_to then internal_locate_compare_to P t key iter
  else internal_locate_plain_compare P t key iter

/-- The descent loop of `internal_lower_bound`. -/
def internal_lower_bound_loop [Inhabited V] (P : Params K V) (t : Btree K V) (key : K) :
    Nat → List Nat → Iter
  | 0, rp => ⟨some rp, ((t.node rp).lower_bound P.key t.comp key).index⟩
  | fuel + 1, rp =>
    let position := ((t.node rp).lower_bound P.key t.comp key).index
    if (t.node rp).leaf then ⟨some rp, position⟩
    else internal_lower_bound_loop P t key fuel (position :: rp)

/-- `internal_lower_bound(key, iter)`. -/
def internal_lower_bound [Inhabited V] (P : Params K V) (t : Btree K V) (key : K) (iter : Iter) :
    Iter :=
  if iter.node.isSome then
    t.internal_last (internal_lower_bound_loop P t key t.height iter.path)
  else iter

/-- The descent loop of `internal_upper_bound`. -/
def internal_upper_bound_loop [Inhabited V] (P : Params K V) (t : Btree K V) (key : K) :
    Nat → List Nat → Iter
  | 0, rp => ⟨some rp, ((t.node rp).upper_bound P.key t.comp key).index⟩
  | fuel + 1, rp =>
    let position := ((t.node rp).upper_bound P.key t.comp key).index
    if (t.node rp).leaf then ⟨some rp, position⟩
    else internal_upper_bound_loop P t key fuel (position :: rp)

/-- `internal_upper_bound(key, iter)`. -/
def internal_upper_bound [Inhabited V] (P : Params K V) (t : Btree K V) (key : K) (iter : Iter) :
    Iter :=
  if iter.node.isSome then
    t.internal_last (internal_upper_bound_loop P t key t.height iter.path)
  else iter

/-- `lower_bound(key)`. -/
def lower_bound [Inhabited V] (P : Params K V) (t : Btree K V) (key : K) : Iter :=
  t.internal_end (internal_lower_bound P t key t.root_iter)

/-- `upper_bound(key)`. -/
def upper_bound [Inhabited V] (P : Params K V) (t : Btree K V) (key : K) : Iter :=
  t.internal_end (internal_upper_bound P t key t.root_iter)

/-- `equal_range(key)`. -/
def equal_range [Inhabited V] (P : Params K V) (t : Btree K V) (key : K) : Iter × Iter :=
  (lower_bound P t key, upper_bound P t key)

/-- `internal_find_unique(key, iter)`. -/
def internal_find_unique [Inhabited V] (P : Params K V) (t : Btree K V) (key : K) (iter : Iter) :
    Iter :=
  if iter.node.isSome then
    let res := internal_locate P t key iter
    if res.2 = kExactMatch then res.1
    else if res.2 = 0 then
      let iter1 := t.internal_last res.1
      if iter1.node.isSome && !(t.compare_keys key (key_at P t iter1)) then iter1
      else ⟨none, 0⟩
    else ⟨none, 0⟩
  else ⟨none, 0⟩

/-- `internal_find_multi(key, iter)`. -/
def internal_find_multi [Inhabited V] (P : Params K V) (t : Btree K V) (key : K) (iter : Iter) :
    Iter :=
  if iter.node.isSome then
    let iter1 := internal_lower_bound P t key iter
    if iter1.node.isSome then
      let iter2 := t.internal_last iter1
      if iter2.node.isSome && !(t.compare_keys key (key_at P t iter2)) then iter2
      else ⟨none, 0⟩
    else ⟨none, 0⟩
  else ⟨none, 0⟩

/-- `find_unique(key)`. -/
def find_unique [Inhabited V] (P : Params K V) (t : Btree K V) (key : K) : Iter :=
  t.internal_end (internal_find_unique P t key t.root_iter)

/-- `find_multi(key)`. -/
def find_multi [Inhabited V] (P : Params K V) (t : Btree K V) (key : K) : Iter :=
  t.internal_end (internal_find_multi P t key t.root_iter)

/-- `count_unique(key)`. -/
def count_unique [Inhabited V] (P : Params K V) (t : Btree K V) (key : K) : Nat :=
  if (internal_find_unique P t key t.root_iter).node.isSome then 1 else 0

/-- Modelled from the spec: the climbing loop of the iterator successor (the iterator header is
not part of the sources): while the position is the count of the node, move to the parent with
the position of the node in it; a climb that ends on the root with the position still equal to
the count restores the saved iterator, which is then `end()`. -/
def increment_climb (t : Btree K V) (save : Iter) : List Nat → Int → Iter
  | [], pos => if pos = (t.node []).count then save else ⟨some [], pos⟩
  | i :: rp, pos =>
    if pos = (t.node (i :: rp)).count then increment_climb t save rp i else ⟨some (i :: rp), pos⟩

/-- Modelled from the spec: iterator successor `++iter` (section 4.4): on an internal node descend
to the leftmost leaf of `child(position + 1)`; on a leaf advance the position and climb when it
reaches the count. -/
def increment (t : Btree K V) (iter : Iter) : Iter :=
  if (t.node iter.path).leaf then
    let position := iter.position + 1
    if position < (t.node iter.path).count then ⟨some iter.path, position⟩
    else increment_climb t ⟨some iter.path, position⟩ iter.path position
  else
    ⟨some (t.leftmost_from t.height ((iter.position + 1).toNat :: iter.path)), 0⟩

/-- Modelled from the spec: the climbing loop of the iterator predecessor, the mirror image of
`increment_climb`. -/
def decrement_climb (t : Btree K V) (save : Iter) : List Nat → Int → Iter
  | [], pos => if pos < 0 then save else ⟨some [], pos⟩
  | i :: rp, pos =>
    if pos < 0 then decrement_climb t save rp ((i : Int) - 1) else ⟨some (i :: rp), pos⟩

/-- Modelled from the spec: iterator predecessor `--iter` (section 4.4, symmetric to the
successor): on an internal node descend to the rightmost leaf of `child(position)` and take its
last value; on a leaf step back and climb when the position falls below zero. -/
def decrement (t : Btree K V) (iter : Iter) : Iter :=
  if (t.node iter.path).leaf then
    let position := iter.position - 1
    if position ≥ 0 then ⟨some iter.path, position⟩
    else decrement_climb t ⟨some iter.path, position⟩ iter.path position
  else
    let leaf := t.rightmost_from t.height (iter.position.toNat :: iter.path)
    ⟨some leaf, ((t.node leaf).count : Int) - 1⟩

/-- Modelled from the spec: `distance(b, e)`, the number of successor steps from `b` to `e`
(section 4.3.5: a cached distance taken before the first removal); the loop runs at most
`fuel` steps. -/
def distance (t : Btree K V) : Nat → Iter → Iter → Nat
  | 0, _, _ => 0
  | fuel + 1, b, e => if b = e then 0 else distance t fuel (t.increment b) e + 1

/-- `count_multi(key)`: `distance(lower_bound(key), upper_bound(key))`. -/
def count_multi [Inhabited V] (P : Params K V) (t : Btree K V) (key : K) : Nat :=
  t.distance (t.size + 1) (lower_bound P t key) (upper_bound P t key)

end Btree

end CppBtree

namespace CppBtree

variable {K V : Type}

namespace Btree

/-- The first block of `rebalance_or_split`, "Try rebalancing with our left sibling", for the
node at position `i` of the node `rp`: the outcome (tree, node with room, position in it) when
the rebalancing took place. -/
def rebalance_with_left [Inhabited V] (P : Params K V) (t : Btree K V) (i : Nat)
    (rp : List Nat) (insert_position : Int) : Option (Btree K V × List Nat × Int) :=
  let parent := t.node rp
  if i > 0 then
    let left := parent.child (i - 1)
    if left.count < left.max_count P.kNodeValues then
      -- We bias rebalancing based on the position being inserted.
      let to_move : Int :=
        max 1 (((left.max_count P.kNodeValues : Int) - left.count)
          / (1 + (if insert_position < (left.max_count P.kNodeValues : Int) then 1 else 0)))
      if insert_position - to_move ≥ 0
          ∨ (left.count : Int) + to_move < left.max_count P.kNodeValues then
        let t1 := t.set_node rp (parent.rebalance_right_to_left (i - 1) to_move.toNat)
        let insert_position1 := insert_position - to_move
        if insert_position1 < 0 then
          some (t1, (i - 1) :: rp, insert_position1 + (t1.node ((i - 1) :: rp)).count + 1)
        else some (t1, i :: rp, insert_position1)
      else none
    else none
  else none

/-- The second block of `rebalance_or_split`, "Try rebalancing with our right sibling". -/
def rebalance_with_right [Inhabited V] (P : Params K V) (t : Btree K V) (i : Nat)
    (rp : List Nat) (insert_position : Int) : Option (Btree K V × List Nat × Int) :=
  let parent := t.node rp
  let node := parent.child i
  if i < parent.count then
    let right := parent.child (i + 1)
    if right.count < right.max_count P.kNodeValues then
      -- We bias rebalancing based on the position being inserted.
      let to_move : Int :=
        max 1 (((right.max_count P.kNodeValues : Int) - right.count)
          / (1 + (if insert_position > 0 then 1 else 0)))
      if insert_position ≤ (node.count : Int) - to_move
          ∨ (right.count : Int) + to_move < right.max_count P.kNodeValues then
        let t1 := t.set_node rp (parent.rebalance_left_to_right i to_move.toNat)
        if insert_position > ((t1.node (i :: rp)).count : Int) then
          some (t1, (i + 1) :: rp, insert_position - (t1.node (i :: rp)).count - 1)
        else some (t1, i :: rp, insert_position)
      else none
    else none
  else none

/-- The last block of `rebalance_or_split`, "Split the node", for the node at position `i` of
the node `rp`, followed by the adjustment of the insert position. -/
def split_node [Inhabited V] (P : Params K V) (t : Btree K V) (rp : List Nat) (i : Nat)
    (insert_position : Int) : Btree K V × List Nat × Int :=
  let t2 := t.set_node rp ((t.node rp).split P.kNodeValues i insert_position)
  if insert_position > ((t2.node (i :: rp)).count : Int) then
    (t2, (i + 1) :: rp, insert_position - (t2.node (i :: rp)).count - 1)
  else (t2, i :: rp, insert_position)

/-- `rebalance_or_split(iter)` on the full node `rp` with pending insert position
`insert_position`; returns the tree, the node that now has room and the position in it.
A pointer to a node is carried across a restructuring as the name of the slot that the same
node occupies afterwards: after the recursive call on the parent, `node->parent()` and
`node->position()` are the node and position of the returned parent iterator (children move
together with the value gaps). In the new root fields the counter starts as the count of the
leaf it replaces (`init_root`). -/
def rebalance_or_split [Inhabited V] (P : Params K V) (t : Btree K V) :
    List Nat → Int → Btree K V × List Nat × Int
  | [], insert_position =>
    -- Rebalancing not possible because this is the root node. In both branches the node that
    -- holds the old root contents becomes child 0 of an otherwise empty internal root.
    let t1 : Btree K V :=
      if t.root_node.leaf then
        (t.with_root (some (Node.internal_node [] [t.root_node]))).with_size t.root_node.count
      else t.with_root (some (Node.internal_node [] [t.root_node]))
    split_node P t1 [] 0 insert_position
  | i :: rp, insert_position =>
    match rebalance_with_left P t i rp insert_position with
    | some res => res
    | none =>
      match rebalance_with_right P t i rp insert_position with
      | some res => res
      | none =>
        -- Rebalancing failed, make sure there is room on the parent node for a new value.
        let parent_iter : Btree K V × List Nat × Int :=
          if (t.node rp).count = (t.node rp).max_count P.kNodeValues then
            rebalance_or_split P t rp i
          else (t, rp, i)
        split_node P parent_iter.1 parent_iter.2.1 parent_iter.2.2.toNat insert_position

/-- `internal_insert(iter, v)`. -/
def internal_insert [Inhabited V] (P : Params K V) (t : Btree K V) (iter : Iter) (v : V) :
    Btree K V × Iter :=
  -- We can not insert on an internal node: insert after the previous value instead.
  let iter1 : Iter :=
    if (t.node iter.path).leaf then iter
    else ⟨(t.decrement iter).node, (t.decrement iter).position + 1⟩
  let node := t.node iter1.path
  if node.count = node.max_count P.kNodeValues then
    if node.max_count P.kNodeValues < P.kNodeValues then
      -- Grow the root: a larger leaf takes over the values of the root.
      let t1 := t.with_root (some (Node.leaf_node
        (min P.kNodeValues (2 * node.max_count P.kNodeValues)) t.root_node.values))
      (t1.set_node [] ((t1.node []).insert_value iter1.position.toNat v),
        ⟨some [], iter1.position⟩)
    else
      let r := rebalance_or_split P t iter1.path iter1.position
      let t1 := r.1.with_size (r.1.size_field + 1)
      (t1.set_node r.2.1 ((t1.node r.2.1).insert_value r.2.2.toNat v), ⟨some r.2.1, r.2.2⟩)
  else
    let t1 := if t.root_node.leaf then t else t.with_size (t.size_field + 1)
    (t1.set_node iter1.path ((t1.node iter1.path).insert_value iter1.position.toNat v), iter1)

/-- `insert_unique(key, value)` with `*value = v`. -/
def insert_unique_key [Inhabited V] (P : Params K V) (t : Btree K V) (key : K) (v : V) :
    Btree K V × Iter × Bool :=
  let t0 := if t.empty then t.with_root (some (Node.leaf_node 1 [])) else t
  let res := internal_locate P t0 key t0.root_iter
  let iter := res.1
  if res.2 = kExactMatch then
    -- The key already exists in the tree, do nothing.
    (t0, t0.internal_last iter, false)
  else if res.2 = 0 ∧ (t0.internal_last iter).node.isSome
      ∧ t0.compare_keys key (key_at P t0 (t0.internal_last iter)) = false then
    -- The key already exists in the tree, do nothing.
    (t0, t0.internal_last iter, false)
  else
    ((internal_insert P t0 iter v).1, (internal_insert P t0 iter v).2, true)

/-- `insert_unique(v)`. -/
def insert_unique [Inhabited V] (P : Params K V) (t : Btree K V) (v : V) :
    Btree K V × Iter × Bool :=
  insert_unique_key P t (P.key v) v

/-- `insert_unique(position, v)`: insert with hint. -/
def insert_unique_hint [Inhabited V] (P : Params K V) (t : Btree K V) (position : Iter) (v : V) :
    Btree K V × Iter :=
  let key := P.key v
  let fallback : Btree K V × Iter := ((insert_unique P t v).1, (insert_unique P t v).2.1)
  if t.empty then fallback
  else if position = t.end_ ∨ t.compare_keys key (key_at P t position) = true then
    if position = t.begin_ ∨ t.compare_keys (key_at P t (t.decrement position)) key = true then
      -- prev.key() < key < position.key()
      internal_insert P t position v
    else fallback
  else if t.compare_keys (key_at P t position) key = true then
    let next := t.increment position
    if next = t.end_ ∨ t.compare_keys key (key_at P t next) = true then
      -- position.key() < key < next.key()
      internal_insert P t next v
    else fallback
  else
    -- position.key() == key
    (t, position)

/-- `insert_unique(b, e)`: insert a range of values, each with the hint `end()`. -/
def insert_unique_range [Inhabited V] (P : Params K V) (t : Btree K V) : List V → Btree K V
  | [] => t
  | v :: vs => insert_unique_range P (insert_unique_hint P t t.end_ v).1 vs

/-- `insert_multi(key, value)` with `*value = v`. -/
def insert_multi_key [Inhabited V] (P : Params K V) (t : Btree K V) (key : K) (v : V) :
    Btree K V × Iter :=
  let t0 := if t.empty then t.with_root (some (Node.leaf_node 1 [])) else t
  let iter := internal_upper_bound P t0 key t0.root_iter
  let iter1 := if iter.node.isSome then iter else t0.end_
  internal_insert P t0 iter1 v

/-- `insert_multi(v)`. -/
def insert_multi [Inhabited V] (P : Params K V) (t : Btree K V) (v : V) : Btree K V × Iter :=
  insert_multi_key P t (P.key v) v

/-- `insert_multi(position, v)`: insert with hint. -/
def insert_multi_hint [Inhabited V] (P : Params K V) (t : Btree K V) (position : Iter) (v : V) :
    Btree K V × Iter :=
  let key := P.key v
  if t.empty then insert_multi P t v
  else if position = t.end_ ∨ t.compare_keys (key_at P t position) key = false then
    if position = t.begin_ ∨ t.compare_keys key (key_at P t (t.decrement position)) = false then
      -- prev.key() <= key <= position.key()
      internal_insert P t position v
    else insert_multi P t v
  else
    let next := t.increment position
    if next = t.end_ ∨ t.compare_keys (key_at P t next) key = false then
      -- position.key() < key <= next.key()
      internal_insert P t next v
    else insert_multi P t v

/-- `insert_multi(b, e)`: insert a range of values, each with the hint `end()`. -/
def insert_multi_range [Inhabited V] (P : Params K V) (t : Btree K V) : List V → Btree K V
  | [] => t
  | v :: vs => insert_multi_range P (insert_multi_hint P t t.end_ v).1 vs

/-- `merge_nodes(left, right)` with `left` child `position` of node `rp` and `right` the next
child. -/
def merge_nodes [Inhabited V] (t : Btree K V) (rp : List Nat) (position : Nat) : Btree K V :=
  t.set_node rp ((t.node rp).merge position)

/-- `try_merge_or_rebalance(iter)` for the node `i :: rp` and position `position`; returns the
tree, the node and position of the iterator afterwards and whether a merge occurred. -/
def try_merge_or_rebalance [Inhabited V] (P : Params K V) (t : Btree K V) :
    List Nat → Int → Btree K V × List Nat × Int × Bool
  | [], position => (t, [], position, false)
  | i :: rp, position =>
    let parent := t.node rp
    let node := parent.child i
    let left := parent.child (i - 1)
    let right := parent.child (i + 1)
    if i > 0 ∧ 1 + left.count + node.count ≤ left.max_count P.kNodeValues then
      -- Merge with our left sibling.
      (merge_nodes t rp (i - 1), (i - 1) :: rp, position + (1 + left.count), true)
    else if i < parent.count ∧ 1 + node.count + right.count ≤ right.max_count P.kNodeValues then
      -- Merge with our right sibling.
      (merge_nodes t rp i, i :: rp, position, true)
    else if i < parent.count ∧ right.count > kMinNodeValues P
        ∧ (node.count = 0 ∨ position > 0) then
      -- Rebalance with our right sibling.
      let to_move : Int := min (((right.count : Int) - node.count) / 2) ((right.count : Int) - 1)
      (t.set_node rp (parent.rebalance_right_to_left i to_move.toNat), i :: rp, position, false)
    else if i > 0 ∧ left.count > kMinNodeValues P
        ∧ (node.count = 0 ∨ position < (node.count : Int)) then
      -- Rebalance with our left sibling.
      let to_move : Int := min (((left.count : Int) - node.count) / 2) ((left.count : Int) - 1)
      (t.set_node rp (parent.rebalance_left_to_right (i - 1) to_move.toNat), i :: rp,
        position + to_move, false)
    else (t, i :: rp, position, false)

/-- `try_shrink()`. -/
def try_shrink (t : Btree K V) : Btree K V :=
  if t.root_node.count > 0 then t
  else if t.root_node.leaf then t.with_root none
  else
    -- A leaf child becomes the root; the contents of an internal child move into the root.
    t.with_root (some (t.root_node.child 0))

/-- The loop of `erase(iter)` that merges or rebalances while walking up from node `rp`. The
result iterator `res` designates the leaf named `res_rel ++ rp`; when an ancestor of that leaf
is merged or rebalanced its children move by the same number of slots as its values, and the
name of the leaf follows. Returns the tree and `res`, or no iterator when the tree became
empty. -/
def erase_loop [Inhabited V] (P : Params K V) (t : Btree K V) :
    List Nat → Int → List Nat → Int → Btree K V × Option Iter
  | [], _, res_rel, res_pos =>
    let t1 := t.try_shrink
    if t1.empty then (t1, none)
    else if t.root_node.count > 0 then (t1, some ⟨some res_rel, res_pos⟩)
    else (t1, some ⟨some res_rel.dropLast, res_pos⟩)
  | i :: rp, position, res_rel, res_pos =>
    if (t.node (i :: rp)).count ≥ kMinNodeValues P then
      (t, some ⟨some (res_rel ++ i :: rp), res_pos⟩)
    else
      let r := try_merge_or_rebalance P t (i :: rp) position
      let t1 := r.1
      let node1 := r.2.1
      let position1 := r.2.2.1
      let merged := r.2.2.2
      let res_rel1 : List Nat :=
        if (t1.node node1).leaf then []
        else
          match res_rel.getLast? with
          | none => []
          | some c => res_rel.dropLast ++ [(c + (position1 - position)).toNat]
      let res_pos1 := if (t1.node node1).leaf then position1 else res_pos
      if merged then
        erase_loop P t1 rp position1 (res_rel1 ++ [node1.headD 0]) res_pos1
      else (t1, some ⟨some (res_rel1 ++ node1), res_pos1⟩)

/-- `erase(iter)`. -/
def erase [Inhabited V] (P : Params K V) (t : Btree K V) (iter : Iter) : Btree K V × Iter :=
  let internal_delete := !(t.node iter.path).leaf
  -- Deletion of a value on an internal node: swap the key with the largest value of the left
  -- child (decrement the iterator).
  let iter1 := if internal_delete then t.decrement iter else iter
  let t1 : Btree K V :=
    if internal_delete then
      let a := (t.node iter1.path).value iter1.position.toNat
      let b := (t.node iter.path).value iter.position.toNat
      let ta := t.set_node iter1.path ((t.node iter1.path).set_value iter1.position.toNat b)
      let tb := ta.set_node iter.path ((ta.node iter.path).set_value iter.position.toNat a)
      tb.with_size (tb.size_field - 1)
    else if t.root_node.leaf then t
    else t.with_size (t.size_field - 1)
  -- Delete the key from the leaf.
  let t2 := t1.set_node iter1.path ((t1.node iter1.path).remove_value iter1.position.toNat)
  -- Merge/rebalance as we walk back up the tree.
  let r := erase_loop P t2 iter1.path iter1.position [] iter1.position
  match r.2 with
  | none => (r.1, r.1.end_)
  | some res =>
    -- If we are pointing at the end of a node, advance the iterator.
    let res1 : Iter :=
      if res.position = ((r.1.node res.path).count : Int) then
        r.1.increment ⟨res.node, ((r.1.node res.path).count : Int) - 1⟩
      else res
    -- If we erased from an internal node, advance the iterator.
    (r.1, if internal_delete then r.1.increment res1 else res1)

/-- The loop of `erase(begin, end)`: `count` single erases. -/
def erase_n [Inhabited V] (P : Params K V) : Nat → Btree K V → Iter → Btree K V
  | 0, t, _ => t
  | n + 1, t, b => erase_n P n (erase P t b).1 (erase P t b).2

/-- Conversion of an integer to the `int` of the source, taken as 32 bits wide in two's
complement: the low 32 bits `m = n mod 2^32` are kept and read as `m` when `m < 2^31` and as
`m - 2^32` otherwise. -/
def to_int (n : Int) : Int :=
  let m := (n % 4294967296).toNat
  if m < 2147483648 then (m : Int) else (m : Int) - 4294967296

/-- `erase(begin, end)`: `int count = distance(begin, end)` narrows the distance to `int`; the
loop `for (int i = 0; i < count; i++)` runs `count` single erases, none when `count` is not
positive; `count` is returned. -/
def erase_range [Inhabited V] (P : Params K V) (t : Btree K V) (b e : Iter) : Btree K V × Int :=
  let count : Int := to_int (t.distance (t.size + 1) b e)
  (erase_n P count.toNat t b, count)

/-- `erase_unique(key)`. -/
def erase_unique [Inhabited V] (P : Params K V) (t : Btree K V) (key : K) : Btree K V × Nat :=
  let iter := internal_find_unique P t key t.root_iter
  if iter.node.isSome then ((erase P t iter).1, 1) else (t, 0)

/-- `erase_multi(key)`: returns the `int` that `erase(begin, end)` returns. -/
def erase_multi [Inhabited V] (P : Params K V) (t : Btree K V) (key : K) : Btree K V × Int :=
  let b := internal_lower_bound P t key t.root_iter
  if b.node.isSome then
    erase_range P t b (t.internal_end (internal_upper_bound P t key t.root_iter))
  else (t, 0)

end Btree

mutual
/-- In-order sequence of the values below a node: child 0, value 0, child 1, value 1, ... -/
def Node.inorder : Node V → List V
  | Node.leaf_node _ vs => vs
  | Node.internal_node vs cs => Node.inorder_children cs vs
/-- Interleave the in-order sequences of the children with the values. -/
def Node.inorder_children : List (Node V) → List V → List V
  | [], vs => vs
  | c :: cs, [] => c.inorder ++ Node.inorder_children cs []
  | c :: cs, v :: vs => c.inorder ++ v :: Node.inorder_children cs vs
end

/-- In-order sequence of the values of a tree. -/
def Btree.inorder (t : Btree K V) : List V :=
  match t.root with
  | none => []
  | some r => r.inorder

end CppBtree

namespace CppBtree

variable {K V : Type}

/-- Shape of a subtree of height index `h` below the root: every leaf is `h` levels down,
a leaf has capacity `B`, an internal node has one more child than values, the node itself
holds between `lo` and `hi` values and every node below it between `1` and `B`. -/
def Node.wfc (B : Nat) : Nat → Nat → Nat → Node V → Bool
  | 0, lo, hi, Node.leaf_node m vs => decide (m = B) && decide (lo ≤ vs.length) && decide (vs.length ≤ hi)
  | h + 1, lo, hi, Node.internal_node vs cs =>
    decide (lo ≤ vs.length) && decide (vs.length ≤ hi) && decide (cs.length = vs.length + 1)
      && cs.all (fun c => Node.wfc B h 1 B c)
  | _, _, _, _ => false

/-- Shape of a root of height index `h`: a leaf root holds between `1` and `max_count` values
with `max_count` at most `B`; an internal root is shaped like any internal node. -/
def Node.wf_root (B : Nat) (h : Nat) (n : Node V) : Bool :=
  match n with
  | Node.leaf_node m vs => decide (h = 0) && decide (1 ≤ vs.length) && decide (vs.length ≤ m) && decide (m ≤ B)
  | Node.internal_node _ _ => Node.wfc B h 1 B n

/-- The order in which the comparator leaves two values: `a` may precede `b` when the key of
`b` is not less than the key of `a`. -/
def key_le (key : V → K) (comp : K → K → Int) (a b : V) : Prop := ¬ comp (key b) (key a) < 0

/-- The key of `a` is strictly less than the key of `b`. -/
def key_lt (key : V → K) (comp : K → K → Int) (a b : V) : Prop := comp (key a) (key b) < 0

instance (key : V → K) (comp : K → K → Int) (a b : V) : Decidable (key_le key comp a b) :=
  inferInstanceAs (Decidable (¬ _))

instance (key : V → K) (comp : K → K → Int) (a b : V) : Decidable (key_lt key comp a b) :=
  inferInstanceAs (Decidable (_ < _))

namespace Btree

/-- The structural invariants of a tree between public calls: the tree is empty, or its root is
well shaped at height `height() - 1` and, when the root is internal, the counter in the root
fields is the number of stored values. -/
def Shaped (P : Params K V) (t : Btree K V) : Prop :=
  match t.root with
  | none => True
  | some r => Node.wf_root P.kNodeValues (r.height - 1) r = true
      ∧ (r.leaf = false → t.size_field = r.inorder.length)

instance (P : Params K V) (t : Btree K V) : Decidable (Shaped P t) := by
  unfold Shaped
  cases t.root <;> simp only <;> infer_instance

/-- The in-order sequence is non-decreasing under the comparator of the tree. -/
def Sorted (P : Params K V) (t : Btree K V) : Prop :=
  t.inorder.Pairwise (key_le P.key t.comp)

/-- The in-order sequence is strictly increasing under the comparator of the tree. -/
def StrictSorted (P : Params K V) (t : Btree K V) : Prop :=
  t.inorder.Pairwise (key_lt P.key t.comp)

instance (P : Params K V) (t : Btree K V) : Decidable (Sorted P t) := by
  unfold Sorted; infer_instance

instance (P : Params K V) (t : Btree K V) : Decidable (StrictSorted P t) := by
  unfold StrictSorted; infer_instance

/-- A valid tree: node capacity at least 3, well shaped, in-order sequence non-decreasing. -/
def Valid (P : Params K V) (t : Btree K V) : Prop :=
  3 ≤ P.kNodeValues ∧ Shaped P t ∧ Sorted P t

instance (P : Params K V) (t : Btree K V) : Decidable (Valid P t) := by
  unfold Valid; infer_instance

/-- The values met when stepping with `++` from `iter` until `end()` is reached (at most
`fuel` steps). -/
def traverse_from [Inhabited V] (t : Btree K V) : Nat → Iter → List V
  | 0, _ => []
  | fuel + 1, iter =>
    if iter = t.end_ then [] else t.deref iter :: traverse_from t fuel (t.increment iter)

/-- Iteration from `begin()` to `end()`. -/
def traverse [Inhabited V] (t : Btree K V) : List V :=
  t.traverse_from (t.size + 1) t.begin_

/-- The iterator reached from `begin()` by `n` successor steps. -/
def nth_iter (t : Btree K V) : Nat → Iter
  | 0 => t.begin_
  | n + 1 => t.increment (t.nth_iter n)

end Btree

/-- Laws of a three-way comparator that induces a strict weak order: the sign flips when the
arguments are swapped and "not greater" is transitive. -/
structure LawfulComp (comp : K → K → Int) : Prop where
  swap_lt : ∀ a b, comp a b < 0 ↔ 0 < comp b a
  le_trans : ∀ a b c, comp a b ≤ 0 → comp b c ≤ 0 → comp a c ≤ 0

end CppBtree

namespace CppBtree

variable {K V : Type}

/-- Interleave segments with values, segment first: `c0 v0 c1 v1 ...`. -/
def join_cv : List (List V) → List V → List V
  | [], vs => vs
  | c :: cs, [] => c ++ join_cv cs []
  | c :: cs, v :: vs => c ++ v :: join_cv cs vs

/-- Interleave values with segments, value first: `v0 c0 v1 c1 ...`. -/
def join_vc : List V → List (List V) → List V
  | [], _ => []
  | v :: vs, [] => v :: vs
  | v :: vs, c :: cs => v :: (c ++ join_vc vs cs)

namespace Node

/-- The in-order sequences of the children. -/
def segs (n : Node V) : List (List V) := n.children.map Node.inorder

/-- The values of an internal node that precede the subtree of child `i` in order. -/
def pre_child (n : Node V) (i : Nat) : List V := join_cv (n.segs.take i) (n.values.take i)

/-- The values of an internal node that follow the subtree of child `i` in order. -/
def post_child (n : Node V) (i : Nat) : List V := join_vc (n.values.drop i) (n.segs.drop (i + 1))

/-- The values of a node that precede the gap `g`: on a leaf the gap before value `g`, on an
internal node the place of child `g`. -/
def pre_part (n : Node V) (g : Nat) : List V :=
  match n with
  | leaf_node _ vs => vs.take g
  | internal_node _ _ => n.pre_child g

/-- The values of a node that follow the gap `g`. -/
def post_part (n : Node V) (g : Nat) : List V :=
  match n with
  | leaf_node _ vs => vs.drop g
  | internal_node _ _ => n.post_child g

/-- The values that sit in the gap `g` itself: none on a leaf, the subtree of child `g` on an
internal node. -/
def mid_part (n : Node V) (g : Nat) : List V :=
  match n with
  | leaf_node _ _ => []
  | internal_node _ _ => (n.child g).inorder

/-- The number of values of a node that precede the position `pos` (on an internal node the
value `pos` comes after the subtree of child `pos`). -/
def offset (n : Node V) (pos : Nat) : Nat :=
  match n with
  | leaf_node _ _ => pos
  | internal_node _ _ => (n.pre_child pos).length + (n.child pos).inorder.length

end Node

namespace Node

/-- A node of the same kind and capacity as `n` holding the given values and children. -/
def mk_like (n : Node V) (vals : List V) (chs : List (Node V)) : Node V :=
  (n.with_values vals).with_children chs

/-- The left part of a node cut at value `k`: the values before `k` with their children. -/
def cut_left (n : Node V) (k : Nat) : Node V :=
  n.mk_like (n.values.take k) (n.children.take (k + 1))

/-- The right part of a node cut at value `k`: the values after `k` with their children. -/
def cut_right (n : Node V) (k : Nat) : Node V :=
  n.mk_like (n.values.drop (k + 1)) (n.children.drop (k + 1))

/-- Two siblings joined around their delimiter `sep` into one node. -/
def glue (l : Node V) (sep : V) (r : Node V) : Node V :=
  l.mk_like (l.values ++ sep :: r.values) (l.children ++ r.children)

/-- Two nodes are of the same kind: both leaves of equal capacity or both internal. -/
def same_kind (l r : Node V) : Prop :=
  match l, r with
  | leaf_node m1 _, leaf_node m2 _ => m1 = m2
  | internal_node _ _, internal_node _ _ => True
  | _, _ => False

/-- The children of an internal node are one more than its values (nothing asked of a leaf). -/
def shape_ok (n : Node V) : Prop :=
  match n with
  | leaf_node _ _ => True
  | internal_node vs cs => cs.length = vs.length + 1

/-- The internal node with values `a ++ z` and children `A ++ Z` around the two parts of `M`
cut at value `k`, that value being their delimiter. -/
def cut_config [Inhabited V] (a z : List V) (A Z : List (Node V)) (M : Node V) (k : Nat) :
    Node V :=
  internal_node (a ++ M.value k :: z) (A ++ M.cut_left k :: M.cut_right k :: Z)

/-- The values of an internal node `p` before the gap `g` of its child `j`. -/
def gap_pre (p : Node V) (j g : Nat) : List V := p.pre_child j ++ (p.child j).pre_part g

/-- The values of an internal node `p` after the gap `g` of its child `j`. -/
def gap_post (p : Node V) (j g : Nat) : List V := (p.child j).post_part g ++ p.post_child j

/-- The number of values `split` sends to the new sibling (`dest->count()`). -/
def split_dest_count (B : Nat) (n : Node V) (insert_position : Int) : Nat :=
  if insert_position = 0 then n.count - 1
  else if insert_position = (n.max_children_count B : Int) - 1 then 0
  else n.count / 2

/-- The index of the value that `split` promotes to the parent. -/
def split_point (B : Nat) (n : Node V) (insert_position : Int) : Nat :=
  n.count - n.split_dest_count B insert_position - 1

end Node

/-- The values of the tree that precede, in order, the subtree of the node named `rp`. -/
def pre (root : Node V) : List Nat → List V
  | [] => []
  | i :: rp => pre root rp ++ (getNode root rp).pre_child i

/-- The values of the tree that follow, in order, the subtree of the node named `rp`. -/
def post (root : Node V) : List Nat → List V
  | [] => []
  | i :: rp => (getNode root rp).post_child i ++ post root rp

/-- The name `rp` designates a node: every step goes through an existing child slot. -/
def ValidPath (root : Node V) : List Nat → Prop
  | [] => True
  | i :: rp => ValidPath root rp ∧ i < (getNode root rp).children.length

/-- The surroundings of the node named `rp` are well shaped: every proper ancestor is an
internal node with between `1` and `B` values and one more child than values, every sibling
subtree hanging off the path is well shaped, and the node sits `H - h` levels below the root. -/
def Ctx (B : Nat) (root : Node V) : List Nat → Nat → Nat → Prop
  | [], h, H => h = H
  | i :: rp, h, H =>
    (getNode root rp).leaf = false
      ∧ 1 ≤ (getNode root rp).count ∧ (getNode root rp).count ≤ B
      ∧ (getNode root rp).children.length = (getNode root rp).count + 1
      ∧ i < (getNode root rp).children.length
      ∧ (∀ j, j < (getNode root rp).children.length → j ≠ i →
          Node.wfc B h 1 B ((getNode root rp).child j) = true)
      ∧ Ctx B root rp (h + 1) H

/-- The gap `g` of the node named `rp` in the tree `r`: the surroundings of the node are well
shaped for height index `h` below a root of height index `H`, the node itself is well shaped
with at most `cmax` values, the gap lies within the node, the values of the tree before the gap
are `l1`, those after it are `l2`, and the child sitting in the gap is `c`. -/
def GapAt (B h H : Nat) (r : Node V) (rp : List Nat) (g : Int) (cmax : Nat) (l1 l2 : List V)
    (c : Node V) : Prop :=
  Ctx B r rp h H
    ∧ Node.wfc B h 0 cmax (getNode r rp) = true
    ∧ 0 ≤ g ∧ g ≤ (getNode r rp).count
    ∧ pre r rp ++ (getNode r rp).pre_part g.toNat = l1
    ∧ (getNode r rp).post_part g.toNat ++ post r rp = l2
    ∧ (getNode r rp).child g.toNat = c

namespace Btree

/-- The in-order index of the position an iterator designates. -/
def rank (t : Btree K V) (iter : Iter) : Nat :=
  (pre t.root_node iter.path).length + (t.node iter.path).offset iter.position.toNat

/-- The iterator designates a stored value: its node exists and its position is below the
count of the node. -/
def PointsAt (t : Btree K V) (iter : Iter) : Prop :=
  ∃ rp, iter.node = some rp ∧ t.root.isSome ∧ ValidPath t.root_node rp
    ∧ 0 ≤ iter.position ∧ iter.position < (t.node rp).count

end Btree

end CppBtree

namespace CppBtree

variable {K V : Type}

namespace Btree

/-- The iterator stands between `l1` and `l2`: its node exists, its position lies within the
node, the values of the tree that come before the position in order are `l1` and the values
from the position on are `l2`. On an internal node the position `p` designates the value `p`,
which comes after the subtree of child `p`. -/
def Splits (t : Btree K V) (iter : Iter) (l1 l2 : List V) : Prop :=
  ∃ rp, iter.node = some rp ∧ t.root.isSome ∧ ValidPath t.root_node rp
    ∧ 0 ≤ iter.position ∧ iter.position ≤ (t.node rp).count
    ∧ pre t.root_node rp ++ ((t.node rp).pre_part iter.position.toNat
        ++ (t.node rp).mid_part iter.position.toNat) = l1
    ∧ (t.node rp).post_part iter.position.toNat ++ post t.root_node rp = l2

/-- The iterator is the one that iteration reaches for the place between `l1` and `l2`: it is
`end()` when nothing follows (`l1` is then the whole in-order sequence), and otherwise it
designates a stored value, the first of `l2`, with `l1` before it. -/
def IterTo [Inhabited V] (t : Btree K V) (iter : Iter) (l1 l2 : List V) : Prop :=
  (l1 = t.inorder ∧ l2 = [] ∧ iter = t.end_)
    ∨ (PointsAt t iter ∧ Splits t iter l1 l2 ∧ l2.head? = some (t.deref iter))

/-- Every step of the name goes through the last child slot. -/
def LastPath (root : Node V) : List Nat → Prop
  | [] => True
  | i :: rp => i = (getNode root rp).count ∧ LastPath root rp

/-- The common shape of the descent loops of the searches: at every node take the position
`idx` computes, stop on a leaf and otherwise continue in the child at that position. -/
def descend (idx : Node V → Nat) (t : Btree K V) : Nat → List Nat → Iter
  | 0, rp => ⟨some rp, idx (t.node rp)⟩
  | fuel + 1, rp =>
    if (t.node rp).leaf then ⟨some rp, idx (t.node rp)⟩
    else descend idx t fuel (idx (t.node rp) :: rp)

/-- The values met when stepping with `++` from `b` until `e` is reached (at most `fuel`
steps): the values of the range `[b, e)`. -/
def values_between [Inhabited V] (t : Btree K V) : Nat → Iter → Iter → List V
  | 0, _, _ => []
  | fuel + 1, b, e =>
    if b = e then [] else t.deref b :: values_between t fuel (t.increment b) e

/-- The outcome of storing `v` between `l1` and `l2`: the comparator is kept, the tree `t2` is
well shaped, its in-order sequence is `l1`, `v`, `l2`, and the iterator designates the stored
`v`. -/
def InsertedAt [Inhabited V] (P : Params K V) (t t2 : Btree K V) (it2 : Iter)
    (l1 : List V) (v : V) (l2 : List V) : Prop :=
  t2.comp = t.comp ∧ Shaped P t2 ∧ t2.inorder = l1 ++ v :: l2 ∧ PointsAt t2 it2
    ∧ Splits t2 it2 l1 (v :: l2) ∧ t2.deref it2 = v

end Btree

end CppBtree

namespace CppBtree

namespace Example

/-- Parameters of the example trees: integer values that are their own keys, three values per
node, a plain (two-way) comparison. -/
def params : Params Int Int := ⟨id, 3, false⟩

/-- The same parameters with the three-way `compare_to` protocol. -/
def params_compare_to : Params Int Int := ⟨id, 3, true⟩

/-- The three-way comparison of integers. -/
def int_compare : Int → Int → Int := fun a b => a - b

/-- A two-level tree holding `10, 20, 30, 40`. -/
def tree : Btree Int Int :=
  ⟨int_compare, some (Node.internal_node [20] [Node.leaf_node 3 [10], Node.leaf_node 3 [30, 40]]),
    4⟩

/-- A two-level multi tree holding `10, 20, 20, 20, 30`. -/
def multi_tree : Btree Int Int :=
  ⟨int_compare,
    some (Node.internal_node [20] [Node.leaf_node 3 [10, 20], Node.leaf_node 3 [20, 30]]), 5⟩

end Example

end CppBtree

namespace CppBtree

variable {K V : Type}

/-- The position `pos` of the leaf named `path` in the tree `r` stands between `l1` and `l2`. -/
def LeafGap (r : Node V) (path : List Nat) (pos : Nat) (l1 l2 : List V) : Prop :=
  ValidPath r path ∧ (getNode r path).leaf = true ∧ pos ≤ (getNode r path).count
    ∧ pre r path ++ (getNode r path).values.take pos = l1
    ∧ (getNode r path).values.drop pos ++ post r path = l2

/-- The outcome of one merge or rebalance below the internal node `p`, seen from a gap `g` of
its child `i`: in the new node `p1` the child sits at `i1` and the gap at `g1`, with the same
values of `p` before and after it and the same child in it; `p1` is an internal node with at
most `B` values whose children are all well shaped, and its in-order sequence is that of `p`. -/
def Node.FixNode (B h : Nat) (p p1 : Node V) (i i1 g g1 : Nat) : Prop :=
  p1.leaf = false ∧ p1.count ≤ B ∧ p1.children.length = p1.count + 1
    ∧ (∀ c ∈ p1.children, Node.wfc B h 1 B c = true)
    ∧ i1 ≤ p1.count ∧ g1 ≤ (p1.child i1).count
    ∧ p1.pre_child i1 ++ (p1.child i1).pre_part g1 = p.pre_child i ++ (p.child i).pre_part g
    ∧ (p1.child i1).post_part g1 ++ p1.post_child i1
        = (p.child i).post_part g ++ p.post_child i
    ∧ (p1.child i1).child g1 = (p.child i).child g
    ∧ (p1.child i1).leaf = (p.child i).leaf
    ∧ p1.inorder = p.inorder

/-- The outcome of one merge or rebalance at the node `i :: rp` of the tree `r`, seen from a gap
`g` of that node: in the new tree `r1` the node sits at `i1 :: rp` and the gap at `g1`, with the
same values before and after it and the same child in it; the surroundings of the parent are
well shaped, the parent holds at most `B` values and every child of it is well shaped. -/
def FixStep (B h H : Nat) (r r1 : Node V) (rp : List Nat) (i i1 g g1 : Nat) : Prop :=
  Ctx B r1 rp (h + 1) H
    ∧ Node.wfc B (h + 1) 0 B (getNode r1 rp) = true
    ∧ i1 ≤ (getNode r1 rp).count
    ∧ g1 ≤ (getNode r1 (i1 :: rp)).count
    ∧ pre r1 (i1 :: rp) ++ (getNode r1 (i1 :: rp)).pre_part g1
        = pre r (i :: rp) ++ (getNode r (i :: rp)).pre_part g
    ∧ (getNode r1 (i1 :: rp)).post_part g1 ++ post r1 (i1 :: rp)
        = (getNode r (i :: rp)).post_part g ++ post r (i :: rp)
    ∧ (getNode r1 (i1 :: rp)).child g1 = (getNode r (i :: rp)).child g
    ∧ (getNode r1 (i1 :: rp)).leaf = (getNode r (i :: rp)).leaf
    ∧ r1.inorder = r.inorder

end CppBtree

namespace CppBtree

variable {K V : Type}

namespace Btree

/-- The tree `t2` holds the values of `t` and the value `v` at some place among them, under
the same comparator, and is well shaped. -/
def Stored (P : Params K V) (t t2 : Btree K V) (v : V) : Prop :=
  t2.comp = t.comp ∧ Shaped P t2
    ∧ ∃ a b, t.inorder = a ++ b ∧ t2.inorder = a ++ v :: b

/-- The trees reached from the empty tree with comparator `comp` by a finite sequence of
public calls: the inserts (unique or multi; plain, hinted or range) and the erases (one
iterator, a range of iterators, a key of a unique tree, a key of a multi tree). An iterator
argument is a valid iterator of the tree, the one reached from `begin()` by `n` successor
steps: a hint may be `end()` (`n = size()`), an erased iterator designates a value
(`n < size()`), and a range ends within the tree. The flag `multi` tells whether the multi
inserts are allowed. -/
inductive Reachable [Inhabited V] (P : Params K V) (comp : K → K → Int) (multi : Bool) :
    Btree K V → Prop
  | empty : Reachable P comp multi (Btree.new comp)
  | insert_unique (t : Btree K V) (v : V) :
      Reachable P comp multi t → Reachable P comp multi (insert_unique P t v).1
  | insert_unique_hint (t : Btree K V) (n : Nat) (v : V) :
      Reachable P comp multi t → n ≤ t.size →
      Reachable P comp multi (insert_unique_hint P t (t.nth_iter n) v).1
  | insert_unique_range (t : Btree K V) (vs : List V) :
      Reachable P comp multi t → Reachable P comp multi (insert_unique_range P t vs)
  | insert_multi (t : Btree K V) (v : V) :
      Reachable P comp multi t → multi = true → Reachable P comp multi (insert_multi P t v).1
  | insert_multi_hint (t : Btree K V) (n : Nat) (v : V) :
      Reachable P comp multi t → multi = true → n ≤ t.size →
      Reachable P comp multi (insert_multi_hint P t (t.nth_iter n) v).1
  | insert_multi_range (t : Btree K V) (vs : List V) :
      Reachable P comp multi t → multi = true →
      Reachable P comp multi (insert_multi_range P t vs)
  | erase (t : Btree K V) (n : Nat) :
      Reachable P comp multi t → n < t.size →
      Reachable P comp multi (erase P t (t.nth_iter n)).1
  | erase_range (t : Btree K V) (i k : Nat) :
      Reachable P comp multi t → i + k ≤ t.size →
      Reachable P comp multi (erase_range P t (t.nth_iter i) (t.nth_iter (i + k))).1
  | erase_unique (t : Btree K V) (k : K) :
      Reachable P comp multi t → Reachable P comp multi (erase_unique P t k).1
  | erase_multi (t : Btree K V) (k : K) :
      Reachable P comp multi t → Reachable P comp multi (erase_multi P t k).1

end Btree

end CppBtree

namespace CppBtree

namespace Example

/-- Parameters of an integer set with node capacity 4 and a plain comparator. -/
def params4 : Params Int Int := ⟨id, 4, false⟩

/-- The tree with node capacity 3 built by the range insertion of 10, 20, 30, 40, 50 into the
empty tree. -/
def grown : Btree Int Int :=
  Btree.insert_unique_range params (Btree.new int_compare) [10, 20, 30, 40, 50]

/-- The tree with node capacity 4 built by the range insertion of 1, 2, 3, 4, 5 into the empty
tree. -/
def sparse : Btree Int Int :=
  Btree.insert_unique_range params4 (Btree.new int_compare) [1, 2, 3, 4, 5]

end Example

end CppBtree

namespace CppBtree

variable {K V : Type}

namespace Btree

/-- `clear()`: every node is deleted and the root handle becomes null. -/
def clear (t : Btree K V) : Btree K V := t.with_root none

/-- The loop of `assign(x)`: the values of `x` are visited from `iter` to `x.end()`; the first
goes in by `insert_multi`, every later one by `internal_insert(end(), *iter)`. The loop runs
at most `fuel` steps. -/
def assign_loop [Inhabited V] (P : Params K V) (x : Btree K V) :
    Nat → Btree K V → Iter → Btree K V
  | 0, t, _ => t
  | fuel + 1, t, iter =>
    if iter = x.end_ then t
    else if t.empty then assign_loop P x fuel (insert_multi P t (x.deref iter)).1 (x.increment iter)
    else assign_loop P x fuel (internal_insert P t t.end_ (x.deref iter)).1 (x.increment iter)

/-- `assign(x)`: clear the tree, copy the comparator of `x` and insert the values of `x` in
iteration order. -/
def assign [Inhabited V] (P : Params K V) (t x : Btree K V) : Btree K V :=
  let t0 : Btree K V := ⟨x.comp, t.clear.root, t.clear.size_field⟩
  assign_loop P x (x.size + 1) t0 x.begin_

/-- The copy constructor `btree(x)`: a tree with the comparator of `x` and a null root, then
`assign(x)`. -/
def copy [Inhabited V] (P : Params K V) (x : Btree K V) : Btree K V :=
  assign P ⟨x.comp, none, 0⟩ x

end Btree

end CppBtree

namespace CppBtree

namespace Example

/-- The unique tree with node capacity 3 whose root holds 20 and 40 over the leaves 10; 30;
50, 60. -/
def two_level : Btree Int Int :=
  ⟨int_compare, some (Node.internal_node [20, 40]
    [Node.leaf_node 3 [10], Node.leaf_node 3 [30], Node.leaf_node 3 [50, 60]]), 6⟩

/-- A comparator that orders integers by their tens only: 11 and 12 compare equal. -/
def coarse_compare : Int → Int → Int := fun a b => a / 10 - b / 10

/-- The tree with the coarse comparator that holds 11. -/
def coarse_tree : Btree Int Int := ⟨coarse_compare, some (Node.leaf_node 1 [11]), 0⟩

/-- The tree with the plain comparator that holds 11 and 12. -/
def fine_tree : Btree Int Int := ⟨int_compare, some (Node.leaf_node 2 [11, 12]), 0⟩

end Example

namespace Btree

variable {K V : Type}

/-- `a.swap(b)`: the comparator base sub-objects and the root handles are exchanged; the
element counter lives in the root fields and follows the root. Returns the new `a` and the new
`b`. -/
def swap (a b : Btree K V) : Btree K V × Btree K V :=
  (⟨b.comp, b.root, b.size_field⟩, ⟨a.comp, a.root, a.size_field⟩)

end Btree

end CppBtree

namespace CppBtree

/-- A node as the operations that add, move or shift children see it: its identity (the
address `borrow_myself()`), its `parent_` link (the identity of the parent), its `position_`
field, its `count_`, whether it is a leaf, and the slots of its child array `children_ptr_`
(a null slot is `none`; a slot owns its child, so the child is written inside the slot). The
value arrays are followed in `Node`, not here. -/
inductive LNode where
  | mk (id parent position count : Nat) (is_leaf : Bool) (slots : List (Option LNode))

namespace LNode

/-- The address of the node. -/
def id : LNode → Nat
  | mk i _ _ _ _ _ => i

/-- The field `parent_`. -/
def parent : LNode → Nat
  | mk _ p _ _ _ _ => p

/-- The field `position_`. -/
def position : LNode → Nat
  | mk _ _ p _ _ _ => p

/-- The field `count_`. -/
def count : LNode → Nat
  | mk _ _ _ c _ _ => c

/-- `leaf()`. -/
def is_leaf : LNode → Bool
  | mk _ _ _ _ l _ => l

/-- The child array. -/
def slots : LNode → List (Option LNode)
  | mk _ _ _ _ _ s => s

/-- `borrow_child(i)`: the content of slot `i` (null outside the array). -/
def slot (n : LNode) (i : Nat) : Option LNode := n.slots.getD i none

/-- `children_count()`. -/
def children_count (n : LNode) : Nat := if n.is_leaf then 0 else n.count + 1

/-- `max_children_count()` for node capacity `B`. -/
def max_children_count (B : Nat) (n : LNode) : Nat := if n.is_leaf then 0 else B + 1

/-- The node with its child array replaced. -/
def with_slots (n : LNode) (s : List (Option LNode)) : LNode :=
  mk n.id n.parent n.position n.count n.is_leaf s

/-- `set_count(v)`. -/
def set_count (n : LNode) (v : Nat) : LNode :=
  mk n.id n.parent n.position v n.is_leaf n.slots

/-- `set_position(v)`. -/
def set_position (n : LNode) (v : Nat) : LNode :=
  mk n.id n.parent v n.count n.is_leaf n.slots

/-- The two writes of `set_child` on the child: `parent_ = p` and `position_ = i`. -/
def relink (c : LNode) (p i : Nat) : LNode :=
  mk c.id p i c.count c.is_leaf c.slots

/-- A child that was changed in place is seen through its slot: slot `i` now shows `c`. -/
def put (n : LNode) (i : Nat) (c : LNode) : LNode :=
  n.with_slots (n.slots.set i (some c))

/-- `set_child(i, new_child)`: the slot takes the child and the child is linked to the node. -/
def set_child (n : LNode) (i : Nat) (c : LNode) : LNode :=
  n.with_slots (n.slots.set i (some (c.relink n.id i)))

/-- `extract_child(i)`: the child is moved out and the slot is left null. -/
def extract_child (n : LNode) (i : Nat) : Option LNode × LNode :=
  (n.slot i, n.with_slots (n.slots.set i none))

/-- `shift_children_right(first, last, shift)`: `std::rotate` brings the children of
`[first, last)` to `[first + shift, last + shift)`, their position fields grow by `shift`, and
the slots `[first, first + shift)` are filled with null. -/
def shift_children_right (n : LNode) (first last shift : Nat) : LNode :=
  n.with_slots (n.slots.take first ++ List.replicate shift none
    ++ ((n.slots.drop first).take (last - first)).map
        (Option.map (fun c => c.set_position (c.position + shift)))
    ++ n.slots.drop (last + shift))

/-- `shift_children_left(first, last, shift)`: `std::rotate` brings the children of
`[first, last)` to `[first - shift, last - shift)`, their position fields shrink by `shift`,
and the slots `[last - shift, last)` are filled with null. -/
def shift_children_left (n : LNode) (first last shift : Nat) : LNode :=
  n.with_slots (n.slots.take (first - shift)
    ++ ((n.slots.drop first).take (last - first)).map
        (Option.map (fun c => c.set_position (c.position - shift)))
    ++ List.replicate shift none ++ n.slots.drop last)

/-- `receive_children_n(dest, src, first, n)`: `n` times, the child extracted from slot `first`
of `src` is set as child `dest` of the node, and both indices advance. Returns the node and
`src`. (A null source slot makes `set_child` dereference null; the loop is cut there.) -/
def receive_children_n (this src : LNode) (dest first : Nat) : Nat → LNode × LNode
  | 0 => (this, src)
  | k + 1 =>
    match (src.extract_child first).1 with
    | some c =>
      receive_children_n (this.set_child dest c) (src.extract_child first).2 (dest + 1)
        (first + 1) k
    | none => (this, src)

/-- Slots `[first, first + k)` filled with null (`std::fill_n`). -/
def fill_null (n : LNode) (first k : Nat) : LNode :=
  n.with_slots (n.slots.take first ++ List.replicate (min k (n.slots.length - first)) none
    ++ n.slots.drop (first + k))

/-- `rotate_back_to(i)`, the body of `insert_value` and `emplace_value`, on the count and the
children: the count grows by one and on an internal node the children from slot `i + 1` on
move one slot to the right. -/
def rotate_back_to (n : LNode) (i : Nat) : LNode :=
  let n1 := n.set_count (n.count + 1)
  if n1.is_leaf then n1 else n1.shift_children_right (i + 1) (n1.children_count - 1) 1

/-- `remove_value(i)` on the count and the children: on an internal node with
`i + 2 < children_count()` the children from slot `i + 2` on move one slot to the left; the
count shrinks by one. -/
def remove_value (n : LNode) (i : Nat) : LNode :=
  let n1 :=
    if n.is_leaf then n
    else if i + 2 < n.children_count then n.shift_children_left (i + 2) n.children_count 1
    else n
  n1.set_count (n1.count - 1)

/-- `this->rebalance_right_to_left(src, to_move)` on the counts and the children: on internal
nodes the first `to_move` children of `src` are received at the end of the child array and the
children of `src` move left. Returns the node and `src`. -/
def rebalance_right_to_left (this src : LNode) (to_move : Nat) : LNode × LNode :=
  let r : LNode × LNode :=
    if this.is_leaf then (this, src)
    else
      let r1 := receive_children_n this src (this.count + 1) 0 to_move
      (r1.1, r1.2.shift_children_left to_move r1.2.children_count to_move)
  (r.1.set_count (r.1.count + to_move), r.2.set_count (r.2.count - to_move))

/-- `this->rebalance_left_to_right(dest, to_move)` on the counts and the children: on internal
nodes the children of `dest` move right, the last `to_move` children of the node are received
at the front of `dest`, and the vacated slots are filled with null. Returns the node and
`dest`. -/
def rebalance_left_to_right (this dest : LNode) (to_move : Nat) : LNode × LNode :=
  let r : LNode × LNode :=
    if this.is_leaf then (this, dest)
    else
      let d1 := dest.shift_children_right 0 dest.children_count to_move
      let r1 := receive_children_n d1 this 0 (this.children_count - to_move) to_move
      (r1.2.fill_null (this.count + 1 - to_move) to_move, r1.1)
  (r.1.set_count (r.1.count - to_move), r.2.set_count (r.2.count + to_move))

/-- The count that `split` gives to `dest`: all values but one when the insert position is
`0`, none when it is `max_children_count() - 1`, half of them otherwise. -/
def split_count (B : Nat) (this : LNode) (insert_position : Int) : Nat :=
  if insert_position = 0 then this.count - 1
  else if insert_position = (this.max_children_count B : Int) - 1 then 0
  else this.count / 2

/-- `split(dest, insert_position)` called on child `pos` of `p`, on the counts and the
children: the counts are set, the parent makes room by `emplace_value(position())` and takes
`dest` as child `pos + 1`, and on internal nodes `dest` receives the children that follow the
children kept by the node. Returns the parent. -/
def split (B : Nat) (p : LNode) (pos : Nat) (dest : LNode) (insert_position : Int) : LNode :=
  match p.slot pos with
  | none => p
  | some this =>
    let dest1 := dest.set_count (split_count B this insert_position)
    let this1 := (this.set_count (this.count - dest1.count)).set_count
      (this.count - dest1.count - 1)
    let p1 := ((p.put pos this1).rotate_back_to pos).set_child (pos + 1) dest1
    if this.is_leaf then p1
    else
      match p1.slot (pos + 1) with
      | none => p1
      | some d =>
        let r := receive_children_n d this1 0 (this1.count + 1) (d.count + 1)
        (p1.put (pos + 1) r.1).put pos (r.2.fill_null (this1.count + 1) (d.count + 1))

/-- `merge(src)` called on child `pos` of `p` with `src` the child `pos + 1`, on the counts
and the children: on internal nodes the children of `src` are received at the end of the child
array, the counts are set, and the parent removes value `pos`. Returns the parent. -/
def merge (p : LNode) (pos : Nat) : LNode :=
  match p.slot pos, p.slot (pos + 1) with
  | some this, some src =>
    let r : LNode × LNode :=
      if this.is_leaf then (this, src)
      else receive_children_n this src (this.count + 1) 0 (src.count + 1)
    let this1 := r.1.set_count (1 + this.count + src.count)
    let src1 := r.2.set_count 0
    ((p.put pos this1).put (pos + 1) src1).remove_value pos
  | _, _ => p

/-- The link invariant below index `m`: every child held in a slot `i < m` has its parent link
equal to the node and its position field equal to `i`. -/
def LinkOkUpTo (n : LNode) (m : Nat) : Prop :=
  ∀ i, i < m → ∀ c, n.slot i = some c → c.parent = n.id ∧ c.position = i

/-- The link invariant of a node: every child held at an index `i` with `0 ≤ i ≤ count` has its
parent link equal to the node and its position field equal to `i`. -/
def LinkOk (n : LNode) : Prop := n.LinkOkUpTo (n.count + 1)

/-- The node is internal with a child array of `B + 1` slots, at most `B` values, and a child
in every slot from `0` to `count`. -/
def Full (B : Nat) (n : LNode) : Prop :=
  n.is_leaf = false ∧ n.slots.length = B + 1 ∧ n.count ≤ B
    ∧ ∀ i, i ≤ n.count → (n.slot i).isSome = true

end LNode

namespace Example

/-- A leaf as a child: identity, parent link, position field and count. -/
def linked_leaf (id parent position count : Nat) : LNode :=
  LNode.mk id parent position count true []

/-- An internal node of capacity 3 with two values and three leaf children. -/
def linked : LNode :=
  LNode.mk 1 0 0 2 false
    [some (linked_leaf 2 1 0 1), some (linked_leaf 3 1 1 0), some (linked_leaf 4 1 2 1), none]

/-- An internal node of capacity 3 with one value, whose last child has been emptied by a
merge into the first child. -/
def last_key : LNode :=
  LNode.mk 1 0 0 1 false [some (linked_leaf 2 1 0 3), some (linked_leaf 3 1 1 0), none, none]

end Example

end CppBtree

namespace CppBtree

namespace Example

/-- A fresh root of capacity 3 over the full leaf `10, 20, 30`: the state in which
`rebalance_or_split` splits a full root leaf. -/
def over_full_leaf : Node Int := Node.internal_node [] [Node.leaf_node 3 [10, 20, 30]]

/-- A fresh root of capacity 3 over a full internal node. -/
def over_full_internal : Node Int :=
  Node.internal_node []
    [Node.internal_node [10, 20, 30]
      [Node.leaf_node 3 [5], Node.leaf_node 3 [15], Node.leaf_node 3 [25], Node.leaf_node 3 [35]]]

/-- A parent of capacity 3 over two leaf siblings. -/
def leaf_pair : Node Int :=
  Node.internal_node [20] [Node.leaf_node 3 [10], Node.leaf_node 3 [30, 40, 50]]

/-- A parent of capacity 3 over two internal siblings. -/
def internal_pair : Node Int :=
  Node.internal_node [40]
    [Node.internal_node [20] [Node.leaf_node 3 [10], Node.leaf_node 3 [30]],
      Node.internal_node [60, 80]
        [Node.leaf_node 3 [50], Node.leaf_node 3 [70], Node.leaf_node 3 [90]]]

/-- A parent of capacity 3 over two leaf siblings that fit in one node. -/
def small_pair : Node Int :=
  Node.internal_node [20] [Node.leaf_node 3 [10], Node.leaf_node 3 [30]]

/-- The tree with node capacity 4 whose root leaf is full. -/
def full_root4 : Btree Int Int := ⟨int_compare, some (Node.leaf_node 4 [10, 20, 30, 40]), 0⟩

/-- The tree of capacity 3 whose root holds 20 over the leaves 10 and 30, 40, 50. -/
def pair_tree : Btree Int Int := ⟨int_compare, some leaf_pair, 5⟩

/-- The tree of capacity 3 inside `rebalance_or_split` after the full root leaf `10, 20, 30`
was put under a fresh internal root. -/
def fresh_root3 : Btree Int Int := ⟨int_compare, some over_full_leaf, 3⟩

/-- The same state with capacity 4 and the full leaf `10, 20, 30, 40`. -/
def fresh_root4 : Btree Int Int :=
  ⟨int_compare, some (Node.internal_node [] [Node.leaf_node 4 [10, 20, 30, 40]]), 4⟩

end Example

namespace Btree

variable {K V : Type}

/-- The split that ends `rebalance_or_split`, for the full child `i` of the node `rp`,
followed by the pending `insert_value` of `internal_insert` at the node and position that
`rebalance_or_split` left in the iterator. -/
def split_then_insert [Inhabited V] (P : Params K V) (t : Btree K V) (rp : List Nat) (i : Nat)
    (insert_position : Int) (v : V) : Btree K V :=
  let s := split_node P t rp i insert_position
  s.1.set_node s.2.1 ((s.1.node s.2.1).insert_value s.2.2.toNat v)

end Btree

end CppBtree

namespace CppBtree

namespace Example

/-- The multi tree of node capacity 3 that holds `n` values 0, built by `n` calls of
`insert_multi(0)` on the empty tree. -/
@[irreducible] def copies (n : Nat) : Btree Int Int :=
  Nat.iterate (fun s => (Btree.insert_multi params s 0).1) n (Btree.new int_compare)

/-- A tree of height 3 and node capacity 3 as the loop of `erase` meets it on its way up: the
first child of the root is an internal node that lost its only value to a merge below it. -/
def underfull_tree : Btree Int Int :=
  ⟨int_compare,
    some (Node.internal_node [40]
      [Node.internal_node [] [Node.leaf_node 3 [10, 20]],
        Node.internal_node [60] [Node.leaf_node 3 [50], Node.leaf_node 3 [70]]]), 6⟩

end Example

end CppBtree

namespace CppBtree

variable {K V : Type}

section ListFacts

variable {α : Type}

theorem take_app_len (A B : List α) (i : Nat) (h : i = A.length) : (A ++ B).take i = A := by
  subst h; simp

theorem drop_app_len (A B : List α) (i : Nat) (h : i = A.length) : (A ++ B).drop i = B := by
  subst h; simp

theorem getD_app_len (A B : List α) (x d : α) (i : Nat) (h : i = A.length) :
    (A ++ x :: B).getD i d = x := by
  subst h
  induction A with
  | nil => simp
  | cons a A ih => simpa using ih

theorem getD_app_len_succ (A B : List α) (x y d : α) (i : Nat) (h : i = A.length + 1) :
    (A ++ x :: y :: B).getD i d = y := by
  subst h
  have : A ++ x :: y :: B = (A ++ [x]) ++ y :: B := by simp
  rw [this]
  exact getD_app_len (A ++ [x]) B y d _ (by simp)

theorem set_app_len (A B : List α) (x y : α) (i : Nat) (h : i = A.length) :
    (A ++ x :: B).set i y = A ++ y :: B := by
  subst h; simp

theorem set_app_len_succ (A B : List α) (x y z : α) (i : Nat) (h : i = A.length + 1) :
    (A ++ x :: y :: B).set i z = A ++ x :: z :: B := by
  subst h
  have : A ++ x :: y :: B = (A ++ [x]) ++ y :: B := by simp
  rw [this, set_app_len (A ++ [x]) B y z _ (by simp)]
  simp

theorem split_at_index (l : List α) (i : Nat) (d : α) (h : i < l.length) :
    l = l.take i ++ l.getD i d :: l.drop (i + 1) := by
  induction l generalizing i with
  | nil => simp at h
  | cons a l ih =>
    cases i with
    | zero => simp [List.getD]
    | succ i =>
      simp only [List.length_cons, Nat.add_lt_add_iff_right] at h
      have := ih i h
      simp only [List.take_succ_cons, List.drop_succ_cons, List.cons_append, List.cons.injEq,
        true_and]
      simpa [List.getD] using this

theorem eraseIdx_app_len (A B : List α) (x : α) (i : Nat) (h : i = A.length) :
    (A ++ x :: B).eraseIdx i = A ++ B := by
  subst h
  induction A with
  | nil => simp
  | cons a A ih => simp [ih]

end ListFacts

theorem join_cv_append (A C : List (List V)) (a c : List V) (h : A.length = a.length) :
    join_cv (A ++ C) (a ++ c) = join_cv A a ++ join_cv C c := by
  induction A generalizing a with
  | nil =>
    cases a with
    | nil => cases C <;> simp [join_cv]
    | cons x a => simp at h
  | cons s A ih =>
    cases a with
    | nil => simp at h
    | cons x a =>
      simp only [List.length_cons, Nat.add_right_cancel_iff] at h
      simp [join_cv, ih a h]

theorem join_vc_append (a c : List V) (A C : List (List V)) (h : a.length = A.length) :
    join_vc (a ++ c) (A ++ C) = join_vc a A ++ join_vc c C := by
  induction a generalizing A with
  | nil =>
    cases A with
    | nil => simp [join_vc]
    | cons x A => simp at h
  | cons x a ih =>
    cases A with
    | nil => simp at h
    | cons s A =>
      simp only [List.length_cons, Nat.add_right_cancel_iff] at h
      simp [join_vc, ih A h]

theorem join_cv_cons (s : List V) (C : List (List V)) (vs : List V) (h : C.length = vs.length) :
    join_cv (s :: C) vs = s ++ join_vc vs C := by
  induction vs generalizing s C with
  | nil =>
    cases C with
    | nil => simp [join_cv, join_vc]
    | cons x C => simp at h
  | cons v vs ih =>
    cases C with
    | nil => simp at h
    | cons s2 C =>
      simp only [List.length_cons, Nat.add_right_cancel_iff] at h
      simp [join_cv, join_vc, ih s2 C h]

theorem join_cv_nil_nil : join_cv ([] : List (List V)) [] = [] := rfl

theorem join_vc_nil (C : List (List V)) : join_vc ([] : List V) C = [] := by
  cases C <;> rfl

theorem join_cv_snoc (A : List (List V)) (a : List V) (s : List V) (v : V)
    (h : A.length = a.length) :
    join_cv (A ++ [s]) (a ++ [v]) = join_cv A a ++ s ++ [v] := by
  rw [join_cv_append A [s] a [v] h]
  simp [join_cv]

theorem join_vc_cons (v : V) (vs : List V) (s : List V) (C : List (List V)) :
    join_vc (v :: vs) (s :: C) = v :: (s ++ join_vc vs C) := rfl

namespace Node

theorem inorder_children_eq (cs : List (Node V)) (vs : List V) :
    Node.inorder_children cs vs = join_cv (cs.map Node.inorder) vs := by
  induction cs generalizing vs with
  | nil => simp [Node.inorder_children, join_cv]
  | cons c cs ih =>
    cases vs with
    | nil => simp [Node.inorder_children, join_cv, ih]
    | cons v vs => simp [Node.inorder_children, join_cv, ih]

@[simp] theorem inorder_leaf (m : Nat) (vs : List V) : (leaf_node m vs).inorder = vs := by
  simp [Node.inorder]

theorem inorder_internal (vs : List V) (cs : List (Node V)) :
    (internal_node vs cs).inorder = join_cv (cs.map Node.inorder) vs := by
  simp [Node.inorder, inorder_children_eq]

@[simp] theorem leaf_leaf (m : Nat) (vs : List V) : (leaf_node m vs).leaf = true := rfl
@[simp] theorem leaf_internal (vs : List V) (cs : List (Node V)) :
    (internal_node vs cs).leaf = false := rfl
@[simp] theorem values_leaf (m : Nat) (vs : List V) : (leaf_node m vs).values = vs := rfl
@[simp] theorem values_internal (vs : List V) (cs : List (Node V)) :
    (internal_node vs cs).values = vs := rfl
@[simp] theorem children_leaf (m : Nat) (vs : List V) : (leaf_node m vs).children = [] := rfl
@[simp] theorem children_internal (vs : List V) (cs : List (Node V)) :
    (internal_node vs cs).children = cs := rfl
@[simp] theorem count_leaf (m : Nat) (vs : List V) : (leaf_node m vs).count = vs.length := rfl
@[simp] theorem count_internal (vs : List V) (cs : List (Node V)) :
    (internal_node vs cs).count = vs.length := rfl
@[simp] theorem max_count_leaf (B m : Nat) (vs : List V) : (leaf_node m vs).max_count B = m := rfl
@[simp] theorem max_count_internal (B : Nat) (vs : List V) (cs : List (Node V)) :
    (internal_node vs cs).max_count B = B := rfl

theorem eq_internal_of_not_leaf (n : Node V) (h : n.leaf = false) :
    n = internal_node n.values n.children := by
  cases n <;> simp_all

theorem eq_leaf_of_leaf (n : Node V) (B : Nat) (h : n.leaf = true) :
    n = leaf_node (n.max_count B) n.values := by
  cases n <;> simp_all

theorem wfc_leaf_iff (B lo hi h m : Nat) (vs : List V) :
    wfc B h lo hi (leaf_node m vs) = true ↔ h = 0 ∧ m = B ∧ lo ≤ vs.length ∧ vs.length ≤ hi := by
  cases h <;> simp [wfc, and_assoc]

theorem wfc_internal_iff (B lo hi h : Nat) (vs : List V) (cs : List (Node V)) :
    wfc B h lo hi (internal_node vs cs) = true ↔
      ∃ h1, h = h1 + 1 ∧ lo ≤ vs.length ∧ vs.length ≤ hi ∧ cs.length = vs.length + 1
        ∧ ∀ c ∈ cs, wfc B h1 1 B c = true := by
  cases h <;> simp [wfc, and_assoc]

theorem wfc_mono (B h lo hi lo2 hi2 : Nat) (n : Node V) (h1 : lo2 ≤ lo) (h2 : hi ≤ hi2)
    (hw : wfc B h lo hi n = true) : wfc B h lo2 hi2 n = true := by
  cases n with
  | leaf_node m vs =>
    rw [wfc_leaf_iff] at hw ⊢
    omega
  | internal_node vs cs =>
    rw [wfc_internal_iff] at hw ⊢
    obtain ⟨h1, e, a, b, c, d⟩ := hw
    exact ⟨h1, e, by omega, by omega, c, d⟩

theorem wfc_count (B h lo hi : Nat) (n : Node V) (hw : wfc B h lo hi n = true) :
    lo ≤ n.count ∧ n.count ≤ hi := by
  cases n with
  | leaf_node m vs => rw [wfc_leaf_iff] at hw; simp; omega
  | internal_node vs cs =>
    rw [wfc_internal_iff] at hw
    obtain ⟨h1, e, a, b, c, d⟩ := hw
    simp; omega

theorem wfc_leaf_zero (B h lo hi : Nat) (n : Node V) (hw : wfc B h lo hi n = true) :
    n.leaf = true ↔ h = 0 := by
  cases n with
  | leaf_node m vs => rw [wfc_leaf_iff] at hw; simp; omega
  | internal_node vs cs =>
    rw [wfc_internal_iff] at hw
    obtain ⟨h1, e, _⟩ := hw
    simp; omega

theorem child_mem (n : Node V) (i : Nat) (h : i < n.children.length) :
    n.child i ∈ n.children := by
  unfold child
  rw [List.getD_eq_getElem _ _ h]
  exact List.getElem_mem h

theorem inorder_split (n : Node V) (i : Nat) (hl : n.leaf = false)
    (hc : n.children.length = n.count + 1) (hi : i < n.children.length) :
    n.inorder = n.pre_child i ++ (n.child i).inorder ++ n.post_child i := by
  cases n with
  | leaf_node m vs => simp at hl
  | internal_node vs cs =>
    simp only [children_internal, count_internal] at hc hi
    rw [inorder_internal]
    unfold pre_child post_child segs child
    simp only [children_internal, values_internal]
    have h1 : cs.map Node.inorder
        = (cs.map Node.inorder).take i ++ (cs.getD i null).inorder
          :: (cs.map Node.inorder).drop (i + 1) := by
      have := split_at_index (cs.map Node.inorder) i (null : Node V).inorder (by simpa using hi)
      rw [List.getD_eq_getElem _ _ (by simpa using hi)] at this
      rw [List.getD_eq_getElem _ _ hi]
      simpa using this
    have h2 : vs = vs.take i ++ vs.drop i := (List.take_append_drop i vs).symm
    conv_lhs => rw [h1, h2]
    rw [join_cv_append _ _ _ _ (by simp; omega)]
    rw [join_cv_cons _ _ _ (by simp; omega)]
    simp

end Node

end CppBtree

namespace CppBtree

variable {K V : Type}

section ListFacts2

variable {α : Type}

theorem exists_split (l : List α) (i : Nat) (h : i < l.length) :
    ∃ A x Z, l = A ++ x :: Z ∧ A.length = i ∧ A = l.take i ∧ Z = l.drop (i + 1) := by
  induction l generalizing i with
  | nil => simp at h
  | cons a l ih =>
    cases i with
    | zero => exact ⟨[], a, l, rfl, rfl, rfl, rfl⟩
    | succ i =>
      simp only [List.length_cons, Nat.add_lt_add_iff_right] at h
      obtain ⟨A, x, Z, e, hl, hA, hZ⟩ := ih i h
      exact ⟨a :: A, x, Z, by simp [e], by simp [hl], by simp [hA], by simp [hZ]⟩

theorem take_app3 (A B C : List α) (n : Nat) (h : n = A.length + B.length) :
    (A ++ (B ++ C)).take n = A ++ B := by
  rw [← List.append_assoc]
  exact take_app_len _ _ _ (by simp [h])

theorem drop_app3 (A B C : List α) (n : Nat) (h : n = A.length + B.length) :
    (A ++ (B ++ C)).drop n = C := by
  rw [← List.append_assoc]
  exact drop_app_len _ _ _ (by simp [h])

theorem take_all (A : List α) (n : Nat) (h : A.length ≤ n) : A.take n = A :=
  List.take_of_length_le h

theorem drop_all (A : List α) (n : Nat) (h : A.length ≤ n) : A.drop n = [] :=
  List.drop_of_length_le h

end ListFacts2

namespace Node

theorem rotate_values_app (X Y W T : List V) (f m l : Nat) (hf : f = X.length)
    (hm : m = X.length + Y.length) (hl : l = X.length + Y.length + W.length) :
    rotate_values (X ++ (Y ++ (W ++ T))) f m l = X ++ (W ++ (Y ++ T)) := by
  unfold rotate_values
  rw [take_app_len _ _ _ hf, drop_app3 _ _ _ _ hm, drop_app_len _ _ _ hf,
    take_app_len W T _ (by omega), take_app_len Y _ _ (by omega)]
  have : X ++ (Y ++ (W ++ T)) = (X ++ (Y ++ W)) ++ T := by simp
  rw [this, drop_app_len _ T _ (by simp <;> omega)]
  simp

@[simp] theorem mk_like_leaf (m : Nat) (vs vals : List V) (chs : List (Node V)) :
    (leaf_node m vs).mk_like vals chs = leaf_node m vals := rfl

@[simp] theorem mk_like_internal (vs vals : List V) (cs chs : List (Node V)) :
    (internal_node vs cs).mk_like vals chs = internal_node vals chs := rfl

@[simp] theorem with_values_leaf (m : Nat) (vs vals : List V) :
    (leaf_node m vs).with_values vals = leaf_node m vals := rfl
@[simp] theorem with_values_internal (vs vals : List V) (cs : List (Node V)) :
    (internal_node vs cs).with_values vals = internal_node vals cs := rfl
@[simp] theorem with_children_leaf (m : Nat) (vs : List V) (chs : List (Node V)) :
    (leaf_node m vs).with_children chs = leaf_node m vs := rfl
@[simp] theorem with_children_internal (vs : List V) (cs chs : List (Node V)) :
    (internal_node vs cs).with_children chs = internal_node vs chs := rfl

theorem rotate_insert (vs : List V) (x : V) (i : Nat) (h : i ≤ vs.length) :
    rotate_values (vs ++ [x]) i vs.length (vs.length + 1) = vs.take i ++ x :: vs.drop i := by
  have e : vs ++ [x] = vs.take i ++ (vs.drop i ++ ([x] ++ [])) := by
    rw [List.append_nil, ← List.append_assoc, List.take_append_drop]
  rw [e, rotate_values_app _ _ _ _ _ _ _ (by simp <;> omega) (by simp <;> omega) (by simp <;> omega)]
  simp

theorem rotate_remove (A Z : List V) (x : V) (i : Nat) (h : i = A.length) :
    (if i + 1 < (A ++ x :: Z).length then
        rotate_values (A ++ x :: Z) i (i + 1) (A ++ x :: Z).length
      else (A ++ x :: Z)).take ((A ++ x :: Z).length - 1) = A ++ Z := by
  subst h
  split
  · have e : A ++ x :: Z = A ++ ([x] ++ (Z ++ [])) := by simp
    rw [e, rotate_values_app _ _ _ _ _ _ _ rfl (by simp) (by simp <;> omega)]
    rw [take_app3 _ _ _ _ (by simp <;> omega)]
  · rename_i hh
    have : Z = [] := by
      apply List.eq_nil_of_length_eq_zero
      simp only [List.length_append, List.length_cons] at hh
      omega
    subst this
    simp

theorem insert_value_leaf (m : Nat) (vs : List V) (i : Nat) (x : V) (h : i ≤ vs.length) :
    (leaf_node m vs).insert_value i x = leaf_node m (vs.take i ++ x :: vs.drop i) := by
  simp [insert_value, rotate_back_to, rotate_insert vs x i h]

theorem remove_value_leaf (m : Nat) (A Z : List V) (x : V) (i : Nat) (h : i = A.length) :
    (leaf_node m (A ++ x :: Z)).remove_value i = leaf_node m (A ++ Z) := by
  simp only [remove_value, rotate_remove A Z x i h]

theorem emplace_value_internal [Inhabited V] (a z : List V) (A Z : List (Node V)) (N : Node V)
    (i : Nat) (hi : i = a.length) (hA : A.length = a.length) (hZ : Z.length = z.length) :
    (internal_node (a ++ z) (A ++ N :: Z)).emplace_value i
      = internal_node (a ++ default :: z) (A ++ N :: null :: Z) := by
  subst hi
  simp only [emplace_value, rotate_back_to]
  rw [rotate_insert _ _ _ (by simp)]
  congr 1
  · simp
  · unfold shift_children_right
    have e : A ++ N :: Z = A ++ ([N] ++ Z) := by simp
    rw [e, take_app3 _ _ _ _ (by simp [hA]), drop_app3 _ _ _ _ (by simp [hA])]
    rw [take_all _ _ (by simp <;> omega)]
    simp

theorem remove_value_internal (a z : List V) (sep : V) (A Z : List (Node V)) (L R : Node V)
    (i : Nat) (hi : i = a.length) (hA : A.length = a.length) (hZ : Z.length = z.length) :
    (internal_node (a ++ sep :: z) (A ++ L :: R :: Z)).remove_value i
      = internal_node (a ++ z) (A ++ L :: Z) := by
  subst hi
  simp only [remove_value]
  rw [rotate_remove _ _ _ _ rfl]
  congr 1
  have ht : (A ++ L :: R :: Z).take (a.length + 1) = A ++ [L] := by
    have e : A ++ L :: R :: Z = A ++ ([L] ++ (R :: Z)) := by simp
    rw [e, take_app3 _ _ _ _ (by simp [hA])]
  have hd : (A ++ L :: R :: Z).drop (a.length + 2) = Z := by
    have e2 : A ++ L :: R :: Z = A ++ ([L, R] ++ Z) := by simp
    rw [e2, drop_app3 _ _ _ _ (by simp [hA])]
  split
  · unfold shift_children_left
    rw [show a.length + 2 - 1 = a.length + 1 by omega, ht, hd]
    rw [take_all Z _ (by simp <;> omega), take_all _ _ (by simp <;> omega)]
    simp
  · rename_i hh
    have : z = [] := by
      apply List.eq_nil_of_length_eq_zero
      simp only [List.length_append, List.length_cons] at hh
      omega
    subst this
    have : Z = [] := by
      apply List.eq_nil_of_length_eq_zero
      simpa using hZ
    subst this
    rw [show (a ++ [sep]).length - 1 + 1 = a.length + 1 by simp, ht]

end Node

end CppBtree

namespace CppBtree

variable {K V : Type}

namespace Node

theorem same_kind_mk_like (l r : Node V) (h : same_kind l r) (vals : List V)
    (chs : List (Node V)) : r.mk_like vals chs = l.mk_like vals chs := by
  cases l <;> cases r <;> simp_all [same_kind]

theorem child_at [Inhabited V] (vs : List V) (A Z : List (Node V)) (N : Node V) (i : Nat)
    (h : i = A.length) : (internal_node vs (A ++ N :: Z)).child i = N := by
  simp only [child, children_internal]
  exact getD_app_len _ _ _ _ _ h

theorem child_at_succ (vs : List V) (A Z : List (Node V)) (L R : Node V) (i : Nat)
    (h : i = A.length + 1) : (internal_node vs (A ++ L :: R :: Z)).child i = R := by
  simp only [child, children_internal]
  exact getD_app_len_succ _ _ _ _ _ _ h

theorem value_at [Inhabited V] (a z : List V) (x : V) (cs : List (Node V)) (i : Nat)
    (h : i = a.length) : (internal_node (a ++ x :: z) cs).value i = x := by
  simp only [value, values_internal]
  exact getD_app_len _ _ _ _ _ h

theorem glue_values (l r : Node V) (sep : V) :
    (glue l sep r).values = l.values ++ sep :: r.values := by
  cases l <;> simp [glue]

theorem glue_children (l r : Node V) (sep : V) (h : same_kind l r) :
    (glue l sep r).children = l.children ++ r.children := by
  cases l <;> cases r <;> simp_all [glue, same_kind]

theorem cut_left_glue (l r : Node V) (sep : V) (k : Nat) (hk : k = l.count) (hs : shape_ok l)
    (h : same_kind l r) : cut_left (glue l sep r) k = l := by
  subst hk
  cases l with
  | leaf_node m vs => simp [cut_left, glue]
  | internal_node vs cs =>
    simp only [shape_ok] at hs
    simp [cut_left, glue, take_app_len _ _ _ hs.symm]

theorem cut_right_glue (l r : Node V) (sep : V) (k : Nat) (hk : k = l.count) (hs : shape_ok l)
    (h : same_kind l r) : cut_right (glue l sep r) k = r := by
  subst hk
  cases l with
  | leaf_node m vs =>
    cases r with
    | leaf_node m2 vs2 =>
      simp only [same_kind] at h
      have e : vs ++ sep :: vs2 = vs ++ ([sep] ++ vs2) := by simp
      simp [cut_right, glue, h, e, drop_app3]
    | internal_node _ _ => simp [same_kind] at h
  | internal_node vs cs =>
    cases r with
    | leaf_node _ _ => simp [same_kind] at h
    | internal_node vs2 cs2 =>
      simp only [shape_ok] at hs
      have e : vs ++ sep :: vs2 = vs ++ ([sep] ++ vs2) := by simp
      simp [cut_right, glue, e, drop_app3, drop_app_len _ _ _ hs.symm]

theorem glue_value_at [Inhabited V] (l r : Node V) (sep : V) (k : Nat) (hk : k = l.count) :
    (glue l sep r).value k = sep := by
  subst hk
  simp only [value, glue_values, count]
  exact getD_app_len _ _ _ _ _ rfl

theorem merge_eq [Inhabited V] (a z : List V) (sep : V) (A Z : List (Node V)) (L R : Node V)
    (i : Nat) (hi : i = a.length) (hA : A.length = a.length) (hZ : Z.length = z.length) :
    (internal_node (a ++ sep :: z) (A ++ L :: R :: Z)).merge i
      = internal_node (a ++ z) (A ++ glue L sep R :: Z) := by
  unfold merge
  simp only [child_at _ _ _ _ _ (hi.trans hA.symm),
    child_at_succ _ _ _ _ _ _ (by omega : i + 1 = A.length + 1), value_at _ _ _ _ _ hi]
  simp only [set_child, children_internal, with_children_internal,
    set_app_len _ _ _ _ _ (hi.trans hA.symm),
    set_app_len_succ _ _ _ _ _ _ (by omega : i + 1 = A.length + 1)]
  rw [remove_value_internal _ _ _ _ _ _ _ _ hi hA hZ]
  simp [glue, mk_like]

theorem orig_eq [Inhabited V] (a z : List V) (sep : V) (A Z : List (Node V)) (L R : Node V)
    (hs : shape_ok L) (h : same_kind L R) :
    internal_node (a ++ sep :: z) (A ++ L :: R :: Z)
      = cut_config a z A Z (glue L sep R) L.count := by
  unfold cut_config
  rw [cut_left_glue _ _ _ _ rfl hs h, cut_right_glue _ _ _ _ rfl hs h, glue_value_at _ _ _ _ rfl]

theorem getD_add_app {α : Type} (X Y : List α) (n : Nat) (d : α) :
    (X ++ Y).getD (X.length + n) d = Y.getD n d := by
  induction X with
  | nil => simp
  | cons x X ih => simpa [Nat.succ_add] using ih

theorem rebalance_right_to_left_eq [Inhabited V] (a z : List V) (sep : V) (A Z : List (Node V))
    (L R : Node V) (i m : Nat) (hi : i = a.length) (hA : A.length = a.length)
    (hsL : shape_ok L) (hsR : shape_ok R) (h : same_kind L R) (hm1 : 1 ≤ m) (hm2 : m ≤ R.count) :
    (internal_node (a ++ sep :: z) (A ++ L :: R :: Z)).rebalance_right_to_left i m
      = cut_config a z A Z (glue L sep R) (L.count + m) := by
  unfold rebalance_right_to_left cut_config
  simp only [child_at _ _ _ _ _ (hi.trans hA.symm),
    child_at_succ _ _ _ _ _ _ (by omega : i + 1 = A.length + 1), value_at _ _ _ _ _ hi]
  simp only [set_child, set_value, children_internal, with_children_internal, values_internal,
    with_values_internal, set_app_len _ _ _ _ _ (hi.trans hA.symm), set_app_len _ _ _ _ _ hi,
    set_app_len_succ _ _ _ _ _ _ (by omega : i + 1 = A.length + 1)]
  obtain ⟨m, rfl⟩ : ∃ m0, m = m0 + 1 := ⟨m - 1, by omega⟩
  have hv : (glue L sep R).value (L.count + (m + 1)) = R.value (m + 1 - 1) := by
    simp only [value, glue_values, count]
    rw [getD_add_app]
    simp
  have hrot : (rotate_values R.values 0 (m + 1) R.count).take (R.count - (m + 1))
      = R.values.drop (m + 1) := by
    have hl : (R.values.take (m + 1)).length = m + 1 := by
      simp only [count] at hm2
      simp <;> omega
    have hr := rotate_values_app [] (R.values.take (m + 1)) (R.values.drop (m + 1)) [] 0 (m + 1)
      R.count rfl (by simp [hl]) (by simp only [count] at hm2 ⊢; simp <;> omega)
    simp only [List.nil_append, List.append_nil, List.take_append_drop] at hr
    rw [hr, take_app_len _ _ _ (by simp [count])]
  have hvl : (L.values ++ sep :: R.values).take (L.count + (m + 1))
      = L.values ++ [sep] ++ R.values.take (m + 1 - 1) := by
    simp only [count]
    rw [List.take_append]
    simp
  have hvr : (L.values ++ sep :: R.values).drop (L.count + (m + 1) + 1)
      = R.values.drop (m + 1) := by
    simp only [count]
    rw [show L.values.length + (m + 1) + 1 = L.values.length + (m + 2) by omega, List.drop_append]
    simp
  rw [hv]
  cases L with
  | leaf_node m1 vs1 =>
    cases R with
    | internal_node _ _ => simp [same_kind] at h
    | leaf_node m2 vs2 =>
      simp only [same_kind] at h
      subst h
      simp only [values_leaf, count_leaf] at hrot hvl hvr
      simp only [cut_left, cut_right, glue, mk_like_leaf, with_values_leaf, with_children_leaf,
        values_leaf, count_leaf, hrot, hvl, hvr]
  | internal_node vs1 cs1 =>
    cases R with
    | leaf_node _ _ => simp [same_kind] at h
    | internal_node vs2 cs2 =>
      simp only [shape_ok] at hsL hsR
      simp only [values_internal, count_internal] at hrot hvl hvr hm2
      have hcl : (cs1 ++ cs2).take (vs1.length + (m + 1) + 1) = cs1 ++ cs2.take (m + 1) := by
        rw [show vs1.length + (m + 1) + 1 = cs1.length + (m + 1) by omega, List.take_append]
      have hcr : (cs1 ++ cs2).drop (vs1.length + (m + 1) + 1) = cs2.drop (m + 1) := by
        rw [show vs1.length + (m + 1) + 1 = cs1.length + (m + 1) by omega, List.drop_append]
      have hsh : shift_children_left cs2 (m + 1) (vs2.length + 1) (m + 1) = cs2.drop (m + 1) := by
        unfold shift_children_left
        simp only [Nat.sub_self, List.take_zero, List.nil_append]
        rw [take_all _ _ (by simp <;> omega)]
      simp only [cut_left, cut_right, glue, mk_like_internal, with_values_internal,
        with_children_internal, values_internal, count_internal, children_internal,
        children_count, leaf_internal, hrot, hvl, hvr, hcl, hcr]
      simp [hsh]

theorem rebalance_left_to_right_eq [Inhabited V] (a z : List V) (sep : V) (A Z : List (Node V))
    (L R : Node V) (i m : Nat) (hi : i = a.length) (hA : A.length = a.length)
    (hsL : shape_ok L) (h : same_kind L R) (hm1 : 1 ≤ m) (hm2 : m ≤ L.count) :
    (internal_node (a ++ sep :: z) (A ++ L :: R :: Z)).rebalance_left_to_right i m
      = cut_config a z A Z (glue L sep R) (L.count - m) := by
  unfold rebalance_left_to_right cut_config
  simp only [child_at _ _ _ _ _ (hi.trans hA.symm),
    child_at_succ _ _ _ _ _ _ (by omega : i + 1 = A.length + 1), value_at _ _ _ _ _ hi]
  simp only [set_child, set_value, children_internal, with_children_internal, values_internal,
    with_values_internal, set_app_len _ _ _ _ _ (hi.trans hA.symm), set_app_len _ _ _ _ _ hi,
    set_app_len_succ _ _ _ _ _ _ (by omega : i + 1 = A.length + 1)]
  have hv : (glue L sep R).value (L.count - m) = L.value (L.count - m) := by
    simp only [value, glue_values, count] at hm2 ⊢
    rw [List.getD_append _ _ _ _ (by omega)]
  have hvl : (L.values ++ sep :: R.values).take (L.count - m) = L.values.take (L.count - m) := by
    rw [List.take_append_of_le_length (by simp only [count]; omega)]
  have hvr : (L.values ++ sep :: R.values).drop (L.count - m + 1)
      = L.values.drop (L.count - m + 1) ++ [sep] ++ R.values := by
    simp only [count] at hm2 ⊢
    rw [List.drop_append_of_le_length (by omega)]
    simp
  rw [hv]
  cases L with
  | leaf_node m1 vs1 =>
    cases R with
    | internal_node _ _ => simp [same_kind] at h
    | leaf_node m2 vs2 =>
      simp only [same_kind] at h
      subst h
      simp only [values_leaf, count_leaf] at hvl hvr
      simp only [cut_left, cut_right, glue, mk_like_leaf, with_values_leaf, with_children_leaf,
        values_leaf, count_leaf, hvl, hvr]
  | internal_node vs1 cs1 =>
    cases R with
    | leaf_node _ _ => simp [same_kind] at h
    | internal_node vs2 cs2 =>
      simp only [shape_ok] at hsL
      simp only [values_internal, count_internal] at hvl hvr hm2
      have hcl : (cs1 ++ cs2).take (vs1.length - m + 1) = cs1.take (vs1.length + 1 - m) := by
        rw [List.take_append_of_le_length (by omega)]
        congr 1; omega
      have hcr : (cs1 ++ cs2).drop (vs1.length - m + 1) = cs1.drop (vs1.length + 1 - m) ++ cs2 := by
        rw [List.drop_append_of_le_length (by omega)]
        congr 2; omega
      simp only [cut_left, cut_right, glue, mk_like_internal, with_values_internal,
        with_children_internal, values_internal, count_internal, children_internal,
        children_count, leaf_internal, hvl, hvr, hcl, hcr]
      simp

theorem split_dest_count_lt (B : Nat) (n : Node V) (ip : Int) (h : 1 ≤ n.count) :
    n.split_dest_count B ip < n.count := by
  unfold split_dest_count
  split
  · omega
  · split
    · omega
    · omega

theorem split_point_lt (B : Nat) (n : Node V) (ip : Int) (h : 1 ≤ n.count) :
    n.split_point B ip < n.count := by
  unfold split_point
  omega

theorem split_eq [Inhabited V] (B : Nat) (a z : List V) (A Z : List (Node V)) (N : Node V)
    (i : Nat) (ip : Int) (hi : i = a.length) (hA : A.length = a.length)
    (hZ : Z.length = z.length) (hs : shape_ok N) (hc : 1 ≤ N.count)
    (hcap : N.leaf = true → N.max_count B = B) :
    (internal_node (a ++ z) (A ++ N :: Z)).split B i ip
      = cut_config a z A Z N (N.split_point B ip) := by
  have hlt := split_dest_count_lt B N ip hc
  unfold split_dest_count at hlt
  unfold split cut_config split_point split_dest_count
  rw [emplace_value_internal _ _ _ _ _ _ hi hA hZ]
  simp only [child_at _ _ _ _ _ (hi.trans hA.symm)]
  simp only [set_child, set_value, children_internal, with_children_internal, values_internal,
    with_values_internal, set_app_len _ _ _ _ _ (hi.trans hA.symm), set_app_len _ _ _ _ _ hi,
    set_app_len_succ _ _ _ _ _ _ (by omega : i + 1 = A.length + 1)]
  generalize (if ip = 0 then N.count - 1
    else if ip = (N.max_children_count B : Int) - 1 then 0 else N.count / 2) = dc at hlt ⊢
  have e1 : N.count - dc - 1 + 1 = N.count - dc := by omega
  rw [e1]
  have hv : (N.values.drop (N.count - dc)).take dc = N.values.drop (N.count - dc) := by
    rw [take_all _ _ (by simp only [count]; simp <;> omega)]
  rw [hv]
  cases N with
  | leaf_node m vs =>
    have := hcap rfl
    simp only [max_count_leaf] at this
    subst this
    simp only [count_leaf] at e1
    simp [cut_left, cut_right, e1]
  | internal_node vs cs =>
    simp only [shape_ok] at hs
    simp only [count_internal] at hlt e1
    have hcd : (cs.drop (vs.length - dc)).take (dc + 1) = cs.drop (vs.length - dc) := by
      rw [take_all _ _ (by simp <;> omega)]
    simp [cut_left, cut_right, e1, hcd]

end Node

end CppBtree

namespace CppBtree

variable {K V : Type}

theorem join_cv_append_succ (C1 C2 : List (List V)) (v1 v2 : List V) (x : V)
    (h : C1.length = v1.length + 1) :
    join_cv (C1 ++ C2) (v1 ++ x :: v2) = join_cv C1 v1 ++ x :: join_cv C2 v2 := by
  induction v1 generalizing C1 with
  | nil =>
    match C1, h with
    | [c], _ => simp [join_cv]
  | cons v v1 ih =>
    match C1, h with
    | c :: C1, h =>
      simp only [List.length_cons, Nat.add_right_cancel_iff] at h
      simp [join_cv, ih C1 h]

theorem join_cv_length_one (c : List V) : join_cv [c] [] = c := by simp [join_cv]

namespace Node

theorem shape_ok_of_wfc (B h lo hi : Nat) (n : Node V) (hw : wfc B h lo hi n = true) :
    shape_ok n := by
  cases n with
  | leaf_node m vs => trivial
  | internal_node vs cs =>
    rw [wfc_internal_iff] at hw
    obtain ⟨h1, _, _, _, c, _⟩ := hw
    exact c

theorem same_kind_of_wfc (B h lo hi lo2 hi2 : Nat) (l r : Node V)
    (hl : wfc B h lo hi l = true) (hr : wfc B h lo2 hi2 r = true) : same_kind l r := by
  cases l with
  | leaf_node m vs =>
    cases r with
    | leaf_node m2 vs2 =>
      rw [wfc_leaf_iff] at hl hr
      simp only [same_kind]; omega
    | internal_node vs2 cs2 =>
      rw [wfc_leaf_iff] at hl
      rw [wfc_internal_iff] at hr
      obtain ⟨h1, e, _⟩ := hr
      omega
  | internal_node vs cs =>
    cases r with
    | leaf_node m2 vs2 =>
      rw [wfc_leaf_iff] at hr
      rw [wfc_internal_iff] at hl
      obtain ⟨h1, e, _⟩ := hl
      omega
    | internal_node vs2 cs2 => trivial

theorem wfc_glue (B h lo hi lo2 hi2 : Nat) (l r : Node V) (sep : V)
    (hl : wfc B h lo hi l = true) (hr : wfc B h lo2 hi2 r = true) :
    wfc B h (l.count + 1 + r.count) (l.count + 1 + r.count) (glue l sep r) = true := by
  cases l with
  | leaf_node m vs =>
    cases r with
    | leaf_node m2 vs2 =>
      rw [wfc_leaf_iff] at hl hr
      simp only [glue, mk_like_leaf, values_leaf]
      rw [wfc_leaf_iff]
      simp; omega
    | internal_node vs2 cs2 =>
      rw [wfc_leaf_iff] at hl
      rw [wfc_internal_iff] at hr
      obtain ⟨h1, e, _⟩ := hr
      omega
  | internal_node vs cs =>
    cases r with
    | leaf_node m2 vs2 =>
      rw [wfc_leaf_iff] at hr
      rw [wfc_internal_iff] at hl
      obtain ⟨h1, e, _⟩ := hl
      omega
    | internal_node vs2 cs2 =>
      rw [wfc_internal_iff] at hl hr
      obtain ⟨h1, e1, _, _, c1, d1⟩ := hl
      obtain ⟨h2, e2, _, _, c2, d2⟩ := hr
      have : h1 = h2 := by omega
      subst this
      simp only [glue, mk_like_internal, values_internal, children_internal]
      rw [wfc_internal_iff]
      refine ⟨h1, e1, by simp <;> omega, by simp <;> omega, by simp <;> omega, ?_⟩
      intro c hc
      rcases List.mem_append.1 hc with hc | hc
      · exact d1 c hc
      · exact d2 c hc

theorem wfc_cut_left (B h lo hi k : Nat) (n : Node V) (hw : wfc B h lo hi n = true)
    (hk : k ≤ n.count) : wfc B h k k (cut_left n k) = true := by
  cases n with
  | leaf_node m vs =>
    rw [wfc_leaf_iff] at hw
    simp only [cut_left, mk_like_leaf, values_leaf]
    rw [wfc_leaf_iff]
    simp only [count_leaf] at hk
    simp <;> omega
  | internal_node vs cs =>
    rw [wfc_internal_iff] at hw
    obtain ⟨h1, e1, _, _, c1, d1⟩ := hw
    simp only [cut_left, mk_like_internal, values_internal, children_internal]
    rw [wfc_internal_iff]
    simp only [count_internal] at hk
    refine ⟨h1, e1, by simp <;> omega, by simp <;> omega, by simp <;> omega, ?_⟩
    intro c hc
    exact d1 c (List.mem_of_mem_take hc)

theorem wfc_cut_right (B h lo hi k : Nat) (n : Node V) (hw : wfc B h lo hi n = true)
    (hk : k < n.count) :
    wfc B h (n.count - k - 1) (n.count - k - 1) (cut_right n k) = true := by
  cases n with
  | leaf_node m vs =>
    rw [wfc_leaf_iff] at hw
    simp only [cut_right, mk_like_leaf, values_leaf]
    rw [wfc_leaf_iff]
    simp only [count_leaf] at hk ⊢
    simp <;> omega
  | internal_node vs cs =>
    rw [wfc_internal_iff] at hw
    obtain ⟨h1, e1, _, _, c1, d1⟩ := hw
    simp only [cut_right, mk_like_internal, values_internal, children_internal]
    rw [wfc_internal_iff]
    simp only [count_internal] at hk ⊢
    refine ⟨h1, e1, by simp <;> omega, by simp <;> omega, by simp <;> omega, ?_⟩
    intro c hc
    exact d1 c (List.mem_of_mem_drop hc)

theorem count_cut_left (n : Node V) (k : Nat) (hk : k ≤ n.count) : (cut_left n k).count = k := by
  cases n <;> simp_all [cut_left, count]

theorem count_cut_right (n : Node V) (k : Nat) :
    (cut_right n k).count = n.count - (k + 1) := by
  cases n <;> simp [cut_right, count]

theorem count_glue (l r : Node V) (sep : V) : (glue l sep r).count = l.count + 1 + r.count := by
  cases l <;> simp [glue, count] <;> omega

/-- Splitting the in-order sequence of a node at a gap. -/
theorem inorder_parts (n : Node V) (g : Nat) (hs : shape_ok n) (hg : g ≤ n.count) :
    n.inorder = n.pre_part g ++ n.mid_part g ++ n.post_part g := by
  cases n with
  | leaf_node m vs => simp [pre_part, mid_part, post_part]
  | internal_node vs cs =>
    simp only [shape_ok] at hs
    simp only [count_internal] at hg
    simp only [pre_part, mid_part, post_part]
    exact inorder_split _ g rfl (by simpa using hs) (by simp; omega)

theorem cut_inorder [Inhabited V] (n : Node V) (k : Nat) (hs : shape_ok n) (hk : k < n.count) :
    (cut_left n k).inorder ++ n.value k :: (cut_right n k).inorder = n.inorder := by
  cases n with
  | leaf_node m vs =>
    simp only [count_leaf] at hk
    obtain ⟨A, x, Z, e, hl, hA, hZ⟩ := exists_split vs k hk
    simp only [cut_left, cut_right, mk_like_leaf, values_leaf, inorder_leaf, value, ← hA, ← hZ]
    rw [e, getD_app_len _ _ _ _ _ hl.symm]
  | internal_node vs cs =>
    simp only [shape_ok] at hs
    simp only [count_internal] at hk
    obtain ⟨A, x, Z, e, hl, hA, hZ⟩ := exists_split vs k hk
    simp only [cut_left, cut_right, mk_like_internal, values_internal, children_internal,
      inorder_internal, value, ← hA, ← hZ]
    have hx : vs.getD k default = x := by rw [e]; exact getD_app_len _ _ _ _ _ hl.symm
    rw [hx]
    have he : cs.map Node.inorder = (cs.take (k + 1)).map Node.inorder
        ++ (cs.drop (k + 1)).map Node.inorder := by
      rw [← List.map_append, List.take_append_drop]
    conv_rhs => rw [he, e]
    rw [join_cv_append_succ _ _ _ _ _ (by simp <;> omega)]

end Node

end CppBtree

namespace CppBtree

variable {K V : Type}

namespace Node

theorem getD_take {α : Type} (l : List α) (n g : Nat) (d : α) (h : g < n) :
    (l.take n).getD g d = l.getD g d := by
  induction l generalizing n g with
  | nil => simp
  | cons x l ih =>
    cases n with
    | zero => omega
    | succ n =>
      cases g with
      | zero => simp
      | succ g => simpa using ih n g (by omega)

theorem getD_drop {α : Type} (l : List α) (n g : Nat) (d : α) :
    (l.drop n).getD g d = l.getD (n + g) d := by
  induction l generalizing n with
  | nil => simp
  | cons x l ih =>
    cases n with
    | zero => simp
    | succ n => simpa [Nat.succ_add] using ih n

theorem cut_left_pre (n : Node V) (k g : Nat) (hg : g ≤ k) :
    (cut_left n k).pre_part g = n.pre_part g := by
  cases n with
  | leaf_node m vs =>
    simp only [cut_left, mk_like_leaf, pre_part, values_leaf, List.take_take]
    congr 1; omega
  | internal_node vs cs =>
    simp only [cut_left, mk_like_internal, pre_part, pre_child, segs, values_internal,
      children_internal, List.take_take, ← List.map_take]
    congr 3 <;> omega

theorem cut_left_mid (n : Node V) (k g : Nat) (hg : g ≤ k) :
    (cut_left n k).mid_part g = n.mid_part g := by
  cases n with
  | leaf_node m vs => rfl
  | internal_node vs cs =>
    simp only [cut_left, mk_like_internal, mid_part, child, children_internal]
    rw [getD_take _ _ _ _ (by omega)]

theorem cut_right_post (n : Node V) (k g : Nat) (hg : k < g) :
    (cut_right n k).post_part (g - k - 1) = n.post_part g := by
  cases n with
  | leaf_node m vs =>
    simp only [cut_right, mk_like_leaf, post_part, values_leaf, List.drop_drop]
    congr 1; omega
  | internal_node vs cs =>
    simp only [cut_right, mk_like_internal, post_part, post_child, segs, values_internal,
      children_internal, List.drop_drop, ← List.map_drop]
    congr 3 <;> omega

theorem cut_right_mid (n : Node V) (k g : Nat) (hg : k < g) :
    (cut_right n k).mid_part (g - k - 1) = n.mid_part g := by
  cases n with
  | leaf_node m vs => rfl
  | internal_node vs cs =>
    simp only [cut_right, mk_like_internal, mid_part, child, children_internal]
    rw [getD_drop]
    congr 2; omega

theorem shape_ok_cut_left (n : Node V) (k : Nat) (hs : shape_ok n) (hk : k ≤ n.count) :
    shape_ok (cut_left n k) := by
  cases n with
  | leaf_node m vs => trivial
  | internal_node vs cs =>
    simp only [shape_ok, count_internal] at hs hk
    simp only [cut_left, mk_like_internal, shape_ok, values_internal, children_internal]
    simp <;> omega

theorem shape_ok_cut_right (n : Node V) (k : Nat) (hs : shape_ok n) (hk : k < n.count) :
    shape_ok (cut_right n k) := by
  cases n with
  | leaf_node m vs => trivial
  | internal_node vs cs =>
    simp only [shape_ok, count_internal] at hs hk
    simp only [cut_right, mk_like_internal, shape_ok, values_internal, children_internal]
    simp <;> omega

theorem cut_left_post [Inhabited V] (n : Node V) (k g : Nat) (hs : shape_ok n)
    (hk : k < n.count) (hg : g ≤ k) :
    (cut_left n k).post_part g ++ n.value k :: (cut_right n k).inorder = n.post_part g := by
  have h1 := inorder_parts (cut_left n k) g (shape_ok_cut_left n k hs (by omega))
    (by rw [count_cut_left n k (by omega)]; exact hg)
  have h2 := inorder_parts n g hs (by omega)
  have h3 := cut_inorder n k hs hk
  rw [h1, h2, cut_left_pre n k g hg, cut_left_mid n k g hg] at h3
  simp only [List.append_assoc] at h3
  exact List.append_cancel_left (List.append_cancel_left h3)

theorem cut_right_pre [Inhabited V] (n : Node V) (k g : Nat) (hs : shape_ok n)
    (hk : k < n.count) (hg : k < g) (hg2 : g ≤ n.count) :
    (cut_left n k).inorder ++ n.value k :: (cut_right n k).pre_part (g - k - 1)
      = n.pre_part g := by
  have h1 := inorder_parts (cut_right n k) (g - k - 1) (shape_ok_cut_right n k hs hk)
    (by rw [count_cut_right n k]; omega)
  have h2 := inorder_parts n g hs hg2
  have h3 := cut_inorder n k hs hk
  rw [h1, h2, cut_right_post n k g hg, cut_right_mid n k g hg] at h3
  have h4 : ((cut_left n k).inorder ++ n.value k :: (cut_right n k).pre_part (g - k - 1))
      ++ (n.mid_part g ++ n.post_part g) = n.pre_part g ++ (n.mid_part g ++ n.post_part g) := by
    simpa [List.append_assoc] using h3
  exact List.append_cancel_right h4

section Parent

variable [Inhabited V] (a z : List V) (A Z : List (Node V)) (M : Node V) (i : Nat)

theorem pre_child_at (vs2 : List V) (X : List (Node V)) (hi : i = a.length)
    (hA : A.length = a.length) :
    (internal_node (a ++ vs2) (A ++ X)).pre_child i = join_cv (A.map Node.inorder) a := by
  simp only [pre_child, segs, children_internal, values_internal, List.map_append]
  rw [take_app_len _ _ _ (by simp [hi, hA]), take_app_len _ _ _ hi]

theorem post_child_at (N : Node V) (hi : i = a.length) (hA : A.length = a.length) :
    (internal_node (a ++ z) (A ++ N :: Z)).post_child i = join_vc z (Z.map Node.inorder) := by
  simp only [post_child, segs, children_internal, values_internal, List.map_append,
    List.map_cons]
  rw [drop_app_len _ _ _ hi]
  have e : A.map Node.inorder ++ N.inorder :: Z.map Node.inorder
      = A.map Node.inorder ++ ([N.inorder] ++ Z.map Node.inorder) := by simp
  rw [e, drop_app3 _ _ _ _ (by simp [hi, hA])]

theorem gap_merged (g : Nat) (hi : i = a.length) (hA : A.length = a.length) :
    gap_pre (internal_node (a ++ z) (A ++ M :: Z)) i g
        = join_cv (A.map Node.inorder) a ++ M.pre_part g
      ∧ gap_post (internal_node (a ++ z) (A ++ M :: Z)) i g
        = M.post_part g ++ join_vc z (Z.map Node.inorder)
      ∧ (internal_node (a ++ z) (A ++ M :: Z)).child i = M := by
  unfold gap_pre gap_post
  rw [child_at _ _ _ _ _ (hi.trans hA.symm), pre_child_at a A i _ _ hi hA,
    post_child_at a z A Z i M hi hA]
  exact ⟨rfl, rfl, rfl⟩

theorem gap_cut_left (k g : Nat) (hi : i = a.length) (hA : A.length = a.length)
    (hs : shape_ok M) (hk : k < M.count) (hg : g ≤ k) :
    gap_pre (cut_config a z A Z M k) i g = join_cv (A.map Node.inorder) a ++ M.pre_part g
      ∧ gap_post (cut_config a z A Z M k) i g = M.post_part g ++ join_vc z (Z.map Node.inorder)
      ∧ (cut_config a z A Z M k).child i = cut_left M k
      ∧ (cut_left M k).mid_part g = M.mid_part g := by
  unfold gap_pre gap_post cut_config
  rw [child_at _ _ _ _ _ (hi.trans hA.symm), pre_child_at a A i _ _ hi hA,
    post_child_at a _ A _ i _ hi hA, cut_left_pre M k g hg]
  refine ⟨rfl, ?_, rfl, cut_left_mid M k g hg⟩
  rw [← cut_left_post M k g hs hk hg]
  simp [join_vc]

theorem gap_cut_right (k g : Nat) (hi : i = a.length) (hA : A.length = a.length)
    (hs : shape_ok M) (hk : k < M.count) (hg : k < g) (hg2 : g ≤ M.count) :
    gap_pre (cut_config a z A Z M k) (i + 1) (g - k - 1)
        = join_cv (A.map Node.inorder) a ++ M.pre_part g
      ∧ gap_post (cut_config a z A Z M k) (i + 1) (g - k - 1)
        = M.post_part g ++ join_vc z (Z.map Node.inorder)
      ∧ (cut_config a z A Z M k).child (i + 1) = cut_right M k
      ∧ (cut_right M k).mid_part (g - k - 1) = M.mid_part g := by
  unfold gap_pre gap_post cut_config
  rw [child_at_succ _ _ _ _ _ _ (by omega : i + 1 = A.length + 1), cut_right_post M k g hg]
  have e1 : internal_node (a ++ M.value k :: z) (A ++ M.cut_left k :: M.cut_right k :: Z)
      = internal_node ((a ++ [M.value k]) ++ z) ((A ++ [M.cut_left k]) ++ M.cut_right k :: Z) := by
    simp
  rw [e1, pre_child_at (a ++ [M.value k]) (A ++ [M.cut_left k]) (i + 1) _ _
      (by simp [hi]) (by simp [hA]),
    post_child_at (a ++ [M.value k]) z (A ++ [M.cut_left k]) Z (i + 1) _
      (by simp [hi]) (by simp [hA])]
  refine ⟨?_, rfl, rfl, cut_right_mid M k g hg⟩
  rw [← cut_right_pre M k g hs hk hg hg2, List.map_append, List.map_cons, List.map_nil,
    join_cv_snoc _ _ _ _ (by simp [hA])]
  simp

theorem inorder_merged (hi : i = a.length) (hA : A.length = a.length)
    (hZ : Z.length = z.length) :
    (internal_node (a ++ z) (A ++ M :: Z)).inorder
      = join_cv (A.map Node.inorder) a ++ M.inorder ++ join_vc z (Z.map Node.inorder) := by
  rw [inorder_split (internal_node (a ++ z) (A ++ M :: Z)) i rfl (by simp <;> omega)
      (by simp <;> omega),
    child_at _ _ _ _ _ (hi.trans hA.symm), pre_child_at a A i _ _ hi hA,
    post_child_at a z A Z i M hi hA]

theorem inorder_cut_config (k : Nat) (hi : i = a.length) (hA : A.length = a.length)
    (hZ : Z.length = z.length) (hs : shape_ok M) (hk : k < M.count) :
    (cut_config a z A Z M k).inorder
      = join_cv (A.map Node.inorder) a ++ M.inorder ++ join_vc z (Z.map Node.inorder) := by
  unfold cut_config
  rw [inorder_split (internal_node (a ++ M.value k :: z)
      (A ++ M.cut_left k :: M.cut_right k :: Z)) i rfl (by simp <;> omega) (by simp <;> omega),
    child_at _ _ _ _ _ (hi.trans hA.symm), pre_child_at a A i _ _ hi hA,
    post_child_at a _ A _ i _ hi hA, ← cut_inorder M k hs hk]
  simp [join_vc]

end Parent

end Node

end CppBtree

namespace CppBtree

variable {K V : Type}

theorem take_set_self {α : Type} (l : List α) (i : Nat) (c : α) :
    (l.set i c).take i = l.take i := by
  induction l generalizing i with
  | nil => simp
  | cons x l ih =>
    cases i with
    | zero => simp
    | succ i => simp [ih]

theorem set_getD_self {α : Type} (l : List α) (i : Nat) (d : α) :
    l.set i (l.getD i d) = l := by
  induction l generalizing i with
  | nil => simp
  | cons x l ih =>
    cases i with
    | zero => simp
    | succ i => simpa using ih i

namespace Node

theorem set_child_children (n : Node V) (i : Nat) (c : Node V) (h : n.leaf = false) :
    (n.set_child i c).children = n.children.set i c := by
  cases n <;> simp_all [set_child]

@[simp] theorem set_child_values (n : Node V) (i : Nat) (c : Node V) :
    (n.set_child i c).values = n.values := by
  cases n <;> simp [set_child]

@[simp] theorem set_child_count (n : Node V) (i : Nat) (c : Node V) :
    (n.set_child i c).count = n.count := by
  simp [count]

@[simp] theorem set_child_leaf (n : Node V) (i : Nat) (c : Node V) :
    (n.set_child i c).leaf = n.leaf := by
  cases n <;> simp [set_child]

@[simp] theorem set_child_children_length (n : Node V) (i : Nat) (c : Node V) :
    (n.set_child i c).children.length = n.children.length := by
  cases n <;> simp [set_child]

theorem leaf_false_of_lt (n : Node V) (i : Nat) (h : i < n.children.length) : n.leaf = false := by
  cases n <;> simp_all

theorem set_child_child_same (n : Node V) (i : Nat) (c : Node V) (h : i < n.children.length) :
    (n.set_child i c).child i = c := by
  have hl := leaf_false_of_lt n i h
  unfold child
  rw [set_child_children n i c hl, List.getD_eq_getElem _ _ (by simpa using h)]
  simp

theorem set_child_child_ne (n : Node V) (i j : Nat) (c : Node V) (h : j ≠ i) :
    (n.set_child i c).child j = n.child j := by
  cases n with
  | leaf_node m vs => simp [set_child]
  | internal_node vs cs =>
    simp only [set_child, child, children_internal, with_children_internal]
    simp only [List.getD_eq_getElem?_getD]
    rw [List.getElem?_set_ne (Ne.symm h)]

theorem set_child_set_child (n : Node V) (i : Nat) (c d : Node V) :
    (n.set_child i c).set_child i d = n.set_child i d := by
  cases n <;> simp [set_child]

theorem set_child_self (n : Node V) (i : Nat) (h : i < n.children.length) :
    n.set_child i (n.child i) = n := by
  cases n with
  | leaf_node m vs => simp at h
  | internal_node vs cs =>
    simp only [set_child, child, children_internal, with_children_internal]
    rw [set_getD_self]

theorem pre_child_set_child (n : Node V) (i : Nat) (c : Node V) :
    (n.set_child i c).pre_child i = n.pre_child i := by
  cases n with
  | leaf_node m vs => simp [set_child]
  | internal_node vs cs =>
    simp only [set_child, pre_child, segs, children_internal, with_children_internal,
      values_internal, ← List.map_take]
    rw [take_set_self]

theorem post_child_set_child (n : Node V) (i : Nat) (c : Node V) :
    (n.set_child i c).post_child i = n.post_child i := by
  cases n with
  | leaf_node m vs => simp [set_child]
  | internal_node vs cs =>
    simp only [set_child, post_child, segs, children_internal, with_children_internal,
      values_internal, ← List.map_drop]
    rw [List.drop_set_of_lt _ _ (Nat.lt_succ_self i)]

theorem height_of_wfc (B h lo hi : Nat) (n : Node V) (hw : wfc B h lo hi n = true) :
    n.height = h + 1 := by
  induction h generalizing n lo hi with
  | zero =>
    cases n with
    | leaf_node m vs => rfl
    | internal_node vs cs =>
      rw [wfc_internal_iff] at hw
      obtain ⟨h1, e, _⟩ := hw
      omega
  | succ h ih =>
    cases n with
    | leaf_node m vs => rw [wfc_leaf_iff] at hw; omega
    | internal_node vs cs =>
      rw [wfc_internal_iff] at hw
      obtain ⟨h1, e, _, _, c, d⟩ := hw
      have : h1 = h := by omega
      subst this
      cases cs with
      | nil => simp at c
      | cons c0 cs =>
        simp only [Node.height]
        rw [ih 1 B c0 (d c0 (by simp))]

theorem wf_root_of_wfc (B h : Nat) (n : Node V) (hw : wfc B h 1 B n = true) :
    wf_root B h n = true := by
  cases n with
  | leaf_node m vs =>
    rw [wfc_leaf_iff] at hw
    simp only [wf_root]
    simp
    omega
  | internal_node vs cs => simpa [wf_root] using hw

theorem height_of_wf_root (B h : Nat) (n : Node V) (hw : wf_root B h n = true) :
    n.height = h + 1 := by
  cases n with
  | leaf_node m vs =>
    simp only [wf_root] at hw
    simp at hw
    simp [Node.height, hw.1.1.1]
  | internal_node vs cs =>
    simp only [wf_root] at hw
    exact height_of_wfc B h 1 B _ hw

end Node

theorem getNode_append (root : Node V) (l rp : List Nat) :
    getNode root (l ++ rp) = getNode (getNode root rp) l := by
  induction l with
  | nil => rfl
  | cons i l ih => simp [getNode, ih]

theorem getNode_setNode (root : Node V) (rp : List Nat) (n : Node V) (hv : ValidPath root rp) :
    getNode (setNode root rp n) rp = n := by
  induction rp generalizing n with
  | nil => rfl
  | cons i rp ih =>
    simp only [setNode, getNode]
    rw [ih _ hv.1, Node.set_child_child_same _ _ _ hv.2]

theorem getNode_setNode_parent (root : Node V) (i : Nat) (rp : List Nat) (n : Node V)
    (hv : ValidPath root rp) :
    getNode (setNode root (i :: rp) n) rp = (getNode root rp).set_child i n := by
  simp only [setNode]
  rw [getNode_setNode _ _ _ hv]

theorem setNode_setNode (root : Node V) (rp : List Nat) (a b : Node V) (hv : ValidPath root rp) :
    setNode (setNode root rp a) rp b = setNode root rp b := by
  induction rp generalizing a b with
  | nil => rfl
  | cons i rp ih =>
    simp only [setNode]
    rw [getNode_setNode _ _ _ hv.1, ih _ _ hv.1, Node.set_child_set_child]

theorem setNode_getNode (root : Node V) (rp : List Nat) (hv : ValidPath root rp) :
    setNode root rp (getNode root rp) = root := by
  induction rp with
  | nil => rfl
  | cons i rp ih =>
    simp only [setNode, getNode]
    rw [Node.set_child_self _ _ hv.2, ih hv.1]

theorem validPath_setNode (root : Node V) (rp : List Nat) (n : Node V) (hv : ValidPath root rp) :
    ValidPath (setNode root rp n) rp := by
  induction rp generalizing n with
  | nil => trivial
  | cons i rp ih =>
    simp only [setNode]
    refine ⟨ih _ hv.1, ?_⟩
    rw [getNode_setNode _ _ _ hv.1]
    simpa using hv.2

theorem pre_setNode (root : Node V) (rp : List Nat) (n : Node V) (hv : ValidPath root rp) :
    pre (setNode root rp n) rp = pre root rp := by
  induction rp generalizing n with
  | nil => rfl
  | cons i rp ih =>
    simp only [setNode, pre]
    rw [ih _ hv.1, getNode_setNode _ _ _ hv.1, Node.pre_child_set_child]

theorem post_setNode (root : Node V) (rp : List Nat) (n : Node V) (hv : ValidPath root rp) :
    post (setNode root rp n) rp = post root rp := by
  induction rp generalizing n with
  | nil => rfl
  | cons i rp ih =>
    simp only [setNode, post]
    rw [ih _ hv.1, getNode_setNode _ _ _ hv.1, Node.post_child_set_child]

theorem validPath_of_ctx (B : Nat) (root : Node V) (rp : List Nat) (h H : Nat)
    (hc : Ctx B root rp h H) : ValidPath root rp := by
  induction rp generalizing h with
  | nil => trivial
  | cons i rp ih =>
    obtain ⟨_, _, _, _, hi, _, hr⟩ := hc
    exact ⟨ih _ hr, hi⟩

theorem ctx_setNode (B : Nat) (root : Node V) (rp : List Nat) (h H : Nat) (n : Node V)
    (hc : Ctx B root rp h H) : Ctx B (setNode root rp n) rp h H := by
  induction rp generalizing h n with
  | nil => exact hc
  | cons i rp ih =>
    have hv := validPath_of_ctx B root rp _ H hc.2.2.2.2.2.2
    obtain ⟨h1, h2, h3, h4, h5, h6, h7⟩ := hc
    simp only [setNode, Ctx]
    rw [getNode_setNode _ _ _ hv]
    refine ⟨by simpa using h1, by simpa using h2, by simpa using h3, by simpa using h4,
      by simpa using h5, ?_, ih _ _ h7⟩
    intro j hj hne
    rw [Node.set_child_child_ne _ _ _ _ hne]
    exact h6 j (by simpa using hj) hne

theorem inorder_setNode (B : Nat) (root : Node V) (rp : List Nat) (h H : Nat) (n : Node V)
    (hc : Ctx B root rp h H) :
    (setNode root rp n).inorder = pre root rp ++ n.inorder ++ post root rp := by
  induction rp generalizing h n with
  | nil => simp [setNode, pre, post]
  | cons i rp ih =>
    obtain ⟨h1, h2, h3, h4, h5, h6, h7⟩ := hc
    simp only [setNode, pre, post]
    rw [ih _ _ h7, Node.inorder_split ((getNode root rp).set_child i n) i (by simpa using h1)
      (by simpa using h4) (by simpa using h5), Node.set_child_child_same _ _ _ h5,
      Node.pre_child_set_child, Node.post_child_set_child]
    simp

theorem inorder_eq_pre_post (B : Nat) (root : Node V) (rp : List Nat) (h H : Nat)
    (hc : Ctx B root rp h H) :
    root.inorder = pre root rp ++ (getNode root rp).inorder ++ post root rp := by
  have := inorder_setNode B root rp h H (getNode root rp) hc
  rwa [setNode_getNode _ _ (validPath_of_ctx B root rp h H hc)] at this

theorem wfc_set_child (B h : Nat) (p : Node V) (i : Nat) (n : Node V)
    (h1 : p.leaf = false) (h2 : 1 ≤ p.count) (h3 : p.count ≤ B)
    (h4 : p.children.length = p.count + 1) (h5 : i < p.children.length)
    (h6 : ∀ j, j < p.children.length → j ≠ i → Node.wfc B h 1 B (p.child j) = true)
    (hn : Node.wfc B h 1 B n = true) : Node.wfc B (h + 1) 1 B (p.set_child i n) = true := by
  cases p with
  | leaf_node m vs => simp at h1
  | internal_node vs cs =>
    simp only [Node.children_internal, Node.count_internal] at h2 h3 h4 h5 h6
    simp only [Node.set_child, Node.children_internal, Node.with_children_internal]
    rw [Node.wfc_internal_iff]
    refine ⟨h, rfl, h2, h3, by simpa using h4, ?_⟩
    intro c hc
    obtain ⟨j, hj, rfl⟩ := List.getElem_of_mem hc
    simp only [List.length_set] at hj
    by_cases hji : j = i
    · subst hji
      simpa using hn
    · rw [List.getElem_set_ne (Ne.symm hji)]
      have := h6 j hj hji
      simp only [Node.child, Node.children_internal] at this
      rwa [List.getD_eq_getElem _ _ hj] at this

theorem wf_fill (B : Nat) (root : Node V) (rp : List Nat) (h H : Nat) (n : Node V)
    (hc : Ctx B root rp h H) (hn : Node.wfc B h 1 B n = true) :
    Node.wf_root B H (setNode root rp n) = true := by
  induction rp generalizing h n with
  | nil =>
    simp only [Ctx] at hc
    subst hc
    exact Node.wf_root_of_wfc B h n hn
  | cons i rp ih =>
    obtain ⟨h1, h2, h3, h4, h5, h6, h7⟩ := hc
    simp only [setNode]
    exact ih _ _ h7 (wfc_set_child B h _ i n h1 h2 h3 h4 h5 h6 hn)

theorem ctx_of_wf (B : Nat) (root : Node V) (rp : List Nat) (H : Nat)
    (hw : Node.wf_root B H root = true) (hv : ValidPath root rp) :
    ∃ h, Ctx B root rp h H ∧ (rp ≠ [] → Node.wfc B h 1 B (getNode root rp) = true) := by
  induction rp with
  | nil => exact ⟨H, rfl, fun h => absurd rfl h⟩
  | cons i rp ih =>
    obtain ⟨h', hc, hn⟩ := ih hv.1
    have hl := Node.leaf_false_of_lt _ _ hv.2
    have hw2 : Node.wfc B h' 1 B (getNode root rp) = true := by
      by_cases hrp : rp = []
      · subst hrp
        simp only [Ctx] at hc
        subst hc
        simp only [getNode] at hl ⊢
        cases root with
        | leaf_node m vs => simp at hl
        | internal_node vs cs => simpa [Node.wf_root] using hw
      · exact hn hrp
    rw [Node.eq_internal_of_not_leaf _ hl, Node.wfc_internal_iff] at hw2
    obtain ⟨h1, e, a, b, c, d⟩ := hw2
    subst e
    refine ⟨h1, ⟨hl, a, b, c, hv.2, ?_, hc⟩, fun _ => ?_⟩
    · intro j hj _
      exact d _ (Node.child_mem _ _ hj)
    · simp only [getNode]
      exact d _ (Node.child_mem _ _ hv.2)

end CppBtree

namespace CppBtree

variable {K V : Type}

namespace Node

theorem child_leaf (m : Nat) (vs : List V) (g : Nat) : (leaf_node m vs).child g = null := by
  simp [child]

theorem cut_left_child (n : Node V) (k g : Nat) (hg : g ≤ k) :
    (cut_left n k).child g = n.child g := by
  cases n with
  | leaf_node m vs => simp [cut_left, child]
  | internal_node vs cs =>
    simp only [cut_left, mk_like_internal, child, children_internal]
    rw [getD_take _ _ _ _ (by omega)]

theorem cut_right_child (n : Node V) (k g : Nat) (hg : k < g) :
    (cut_right n k).child (g - k - 1) = n.child g := by
  cases n with
  | leaf_node m vs => simp [cut_right, child]
  | internal_node vs cs =>
    simp only [cut_right, mk_like_internal, child, children_internal]
    rw [getD_drop]
    congr 1; omega

theorem glue_child_left (l r : Node V) (sep : V) (g : Nat) (hs : shape_ok l)
    (h : same_kind l r) (hg : g ≤ l.count) : (glue l sep r).child g = l.child g := by
  rw [← cut_left_child (glue l sep r) l.count g hg, cut_left_glue l r sep _ rfl hs h]

theorem glue_child_right (l r : Node V) (sep : V) (g : Nat) (hs : shape_ok l)
    (h : same_kind l r) : (glue l sep r).child (l.count + 1 + g) = r.child g := by
  have := cut_right_child (glue l sep r) l.count (l.count + 1 + g) (by omega)
  rw [cut_right_glue l r sep _ rfl hs h] at this
  rw [← this]
  congr 1; omega

/-- Decomposition of an internal node around child `i` and its right neighbour. -/
theorem decompose_pair [Inhabited V] (p : Node V) (i : Nat) (hl : p.leaf = false)
    (hc : p.children.length = p.count + 1) (hi : i < p.count) :
    ∃ a sep z A L R Z, p = internal_node (a ++ sep :: z) (A ++ L :: R :: Z)
      ∧ a.length = i ∧ A.length = i ∧ Z.length = z.length
      ∧ L = p.child i ∧ R = p.child (i + 1) ∧ sep = p.value i
      ∧ (∀ c ∈ A, c ∈ p.children) ∧ (∀ c ∈ Z, c ∈ p.children) := by
  cases p with
  | leaf_node m vs => simp at hl
  | internal_node vs cs =>
    simp only [children_internal, count_internal] at hc hi
    obtain ⟨a, sep, z, e1, h1, _, _⟩ := exists_split vs i hi
    obtain ⟨A, L, Z0, e2, h2, _, _⟩ := exists_split cs i (by omega)
    have hz0 : Z0.length = z.length + 1 := by
      have := congrArg List.length e1
      have := congrArg List.length e2
      simp at *
      omega
    match Z0, hz0 with
    | R :: Z, hz0 =>
      subst e1 e2
      refine ⟨a, sep, z, A, L, R, Z, rfl, h1, h2, by simpa using hz0, ?_, ?_, ?_, ?_, ?_⟩
      · rw [child_at _ _ _ _ _ h2.symm]
      · rw [child_at_succ _ _ _ _ _ _ (by omega)]
      · rw [value_at _ _ _ _ _ h1.symm]
      · intro c hc; simp [hc]
      · intro c hc; simp [hc]

/-- Decomposition of an internal node around child `i`. -/
theorem decompose_one (p : Node V) (i : Nat) (hl : p.leaf = false)
    (hc : p.children.length = p.count + 1) (hi : i < p.children.length) :
    ∃ a z A N Z, p = internal_node (a ++ z) (A ++ N :: Z)
      ∧ a.length = i ∧ A.length = i ∧ Z.length = z.length ∧ N = p.child i
      ∧ (∀ c ∈ A, c ∈ p.children) ∧ (∀ c ∈ Z, c ∈ p.children) := by
  cases p with
  | leaf_node m vs => simp at hl
  | internal_node vs cs =>
    simp only [children_internal, count_internal] at hc hi
    obtain ⟨A, N, Z, e2, h2, _, _⟩ := exists_split cs i hi
    subst e2
    refine ⟨vs.take i, vs.drop i, A, N, Z, by simp, by simp <;> omega, h2, ?_, ?_, ?_, ?_⟩
    · simp at hc ⊢; omega
    · simp only [child, children_internal]; rw [getD_app_len _ _ _ _ _ h2.symm]
    · intro c hc; simp [hc]
    · intro c hc; simp [hc]

theorem child_two_cases (vs : List V) (A Z : List (Node V)) (X Y : Node V) (j : Nat)
    (Q : Node V → Prop) (hA : ∀ c ∈ A, Q c) (hZ : ∀ c ∈ Z, Q c)
    (hX : j = A.length → Q X) (hY : j = A.length + 1 → Q Y)
    (hj : j < (A ++ X :: Y :: Z).length) :
    Q ((internal_node vs (A ++ X :: Y :: Z)).child j) := by
  simp only [child, children_internal]
  rw [List.getD_eq_getElem _ _ hj]
  by_cases h1 : j < A.length
  · rw [List.getElem_append_left h1]
    exact hA _ (List.getElem_mem _)
  · rw [List.getElem_append_right (by omega)]
    by_cases h2 : j = A.length
    · have hx := hX h2
      subst h2
      simpa using hx
    · by_cases h3 : j = A.length + 1
      · have hy := hY h3
        subst h3
        simpa using hy
      · obtain ⟨d, hd⟩ : ∃ d, j - A.length = d + 2 := ⟨j - A.length - 2, by omega⟩
        simp only [hd, List.getElem_cons_succ]
        exact hZ _ (List.getElem_mem _)

theorem child_one_cases (vs : List V) (A Z : List (Node V)) (X : Node V) (j : Nat)
    (Q : Node V → Prop) (hA : ∀ c ∈ A, Q c) (hZ : ∀ c ∈ Z, Q c)
    (hX : j = A.length → Q X)
    (hj : j < (A ++ X :: Z).length) :
    Q ((internal_node vs (A ++ X :: Z)).child j) := by
  simp only [child, children_internal]
  rw [List.getD_eq_getElem _ _ hj]
  by_cases h1 : j < A.length
  · rw [List.getElem_append_left h1]
    exact hA _ (List.getElem_mem _)
  · rw [List.getElem_append_right (by omega)]
    by_cases h2 : j = A.length
    · have hx := hX h2
      subst h2
      simpa using hx
    · obtain ⟨d, hd⟩ : ∃ d, j - A.length = d + 1 := ⟨j - A.length - 1, by omega⟩
      simp only [hd, List.getElem_cons_succ]
      exact hZ _ (List.getElem_mem _)

end Node

/-- Replacing the node `prp` by an internal node `p2` whose children other than `j` are well
shaped gives well shaped surroundings for child `j`. -/
theorem ctx_lift (B : Nat) (r : Node V) (prp : List Nat) (h H : Nat) (p2 : Node V) (j : Nat)
    (hc : Ctx B r prp (h + 1) H) (h1 : p2.leaf = false) (h2 : 1 ≤ p2.count) (h3 : p2.count ≤ B)
    (h4 : p2.children.length = p2.count + 1) (h5 : j < p2.children.length)
    (h6 : ∀ j2, j2 < p2.children.length → j2 ≠ j → Node.wfc B h 1 B (p2.child j2) = true) :
    Ctx B (setNode r prp p2) (j :: prp) h H
      ∧ getNode (setNode r prp p2) (j :: prp) = p2.child j
      ∧ pre (setNode r prp p2) (j :: prp) = pre r prp ++ p2.pre_child j
      ∧ post (setNode r prp p2) (j :: prp) = p2.post_child j ++ post r prp := by
  have hv := validPath_of_ctx B r prp _ H hc
  have hg := getNode_setNode r prp p2 hv
  refine ⟨?_, ?_, ?_, ?_⟩
  · simp only [Ctx]
    rw [hg]
    exact ⟨h1, h2, h3, h4, h5, h6, ctx_setNode B r prp _ H p2 hc⟩
  · simp only [getNode]; rw [hg]
  · simp only [pre]; rw [hg, pre_setNode _ _ _ hv]
  · simp only [post]; rw [hg, post_setNode _ _ _ hv]

end CppBtree

namespace CppBtree

variable {K V : Type}

section CutStep

variable [Inhabited V] (B h H : Nat) (r : Node V) (prp : List Nat)
  (a z : List V) (A Z : List (Node V)) (M : Node V) (k G i0 lo hi : Nat)

theorem cut_config_basic (hA : A.length = a.length) (hZ : Z.length = z.length) :
    (Node.cut_config a z A Z M k).leaf = false
      ∧ (Node.cut_config a z A Z M k).count = a.length + 1 + z.length
      ∧ (Node.cut_config a z A Z M k).children.length
          = (Node.cut_config a z A Z M k).count + 1 := by
  simp [Node.cut_config]
  omega

/-- The tree after the node `prp` became the cut configuration of `M` at `k`, seen from the
left part, for a gap `G` at or before the cut. -/
theorem tree_cut_left (hc : Ctx B r prp (h + 1) H)
    (hi0 : i0 = a.length) (hA : A.length = a.length) (hZ : Z.length = z.length)
    (hAw : ∀ c ∈ A, Node.wfc B h 1 B c = true) (hZw : ∀ c ∈ Z, Node.wfc B h 1 B c = true)
    (hM : Node.wfc B h lo hi M = true) (hk : k < M.count) (hG : G ≤ k)
    (hcnt : a.length + 1 + z.length ≤ B)
    (hother : 1 ≤ M.count - k - 1 ∧ M.count - k - 1 ≤ B) :
    Ctx B (setNode r prp (Node.cut_config a z A Z M k)) (i0 :: prp) h H
      ∧ getNode (setNode r prp (Node.cut_config a z A Z M k)) (i0 :: prp) = M.cut_left k
      ∧ Node.wfc B h k k (M.cut_left k) = true
      ∧ pre (setNode r prp (Node.cut_config a z A Z M k)) (i0 :: prp) ++ (M.cut_left k).pre_part G
          = pre r prp ++ (join_cv (A.map Node.inorder) a ++ M.pre_part G)
      ∧ (M.cut_left k).post_part G ++ post (setNode r prp (Node.cut_config a z A Z M k)) (i0 :: prp)
          = (M.post_part G ++ join_vc z (Z.map Node.inorder)) ++ post r prp
      ∧ (M.cut_left k).child G = M.child G := by
  obtain ⟨b1, b2, b3⟩ := cut_config_basic a z A Z M k hA hZ
  have hs := Node.shape_ok_of_wfc B h lo hi M hM
  obtain ⟨g1, g2, g3, _⟩ := Node.gap_cut_left a z A Z M i0 k G hi0 hA hs hk hG
  have hwr := Node.wfc_cut_right B h lo hi k M hM hk
  have hlift := ctx_lift B r prp h H (Node.cut_config a z A Z M k) i0 hc b1 (by omega) (by omega)
    b3 (by omega) (by
      intro j2 hj2 hne
      unfold Node.cut_config at hj2 ⊢
      apply Node.child_two_cases _ _ _ _ _ _ (fun c => Node.wfc B h 1 B c = true) hAw hZw
      · intro e; omega
      · intro _
        exact Node.wfc_mono B h _ _ 1 B _ (by omega) (by omega) hwr
      · simpa using hj2)
  obtain ⟨l1, l2, l3, l4⟩ := hlift
  rw [g3] at l2
  refine ⟨l1, l2, Node.wfc_cut_left B h lo hi k M hM (by omega), ?_, ?_,
    Node.cut_left_child M k G hG⟩
  · rw [l3, List.append_assoc, ← g1]
    unfold Node.gap_pre
    rw [g3]
  · rw [l4, ← List.append_assoc, ← g2]
    unfold Node.gap_post
    rw [g3]

/-- The tree after the node `prp` became the cut configuration of `M` at `k`, seen from the
right part, for a gap `G` after the cut. -/
theorem tree_cut_right (hc : Ctx B r prp (h + 1) H)
    (hi0 : i0 = a.length) (hA : A.length = a.length) (hZ : Z.length = z.length)
    (hAw : ∀ c ∈ A, Node.wfc B h 1 B c = true) (hZw : ∀ c ∈ Z, Node.wfc B h 1 B c = true)
    (hM : Node.wfc B h lo hi M = true) (hk : k < M.count) (hG : k < G) (hG2 : G ≤ M.count)
    (hcnt : a.length + 1 + z.length ≤ B)
    (hother : 1 ≤ k ∧ k ≤ B) :
    Ctx B (setNode r prp (Node.cut_config a z A Z M k)) ((i0 + 1) :: prp) h H
      ∧ getNode (setNode r prp (Node.cut_config a z A Z M k)) ((i0 + 1) :: prp) = M.cut_right k
      ∧ Node.wfc B h (M.count - k - 1) (M.count - k - 1) (M.cut_right k) = true
      ∧ pre (setNode r prp (Node.cut_config a z A Z M k)) ((i0 + 1) :: prp)
            ++ (M.cut_right k).pre_part (G - k - 1)
          = pre r prp ++ (join_cv (A.map Node.inorder) a ++ M.pre_part G)
      ∧ (M.cut_right k).post_part (G - k - 1)
            ++ post (setNode r prp (Node.cut_config a z A Z M k)) ((i0 + 1) :: prp)
          = (M.post_part G ++ join_vc z (Z.map Node.inorder)) ++ post r prp
      ∧ (M.cut_right k).child (G - k - 1) = M.child G := by
  obtain ⟨b1, b2, b3⟩ := cut_config_basic a z A Z M k hA hZ
  have hs := Node.shape_ok_of_wfc B h lo hi M hM
  obtain ⟨g1, g2, g3, _⟩ := Node.gap_cut_right a z A Z M i0 k G hi0 hA hs hk hG hG2
  have hwl := Node.wfc_cut_left B h lo hi k M hM (by omega)
  have hlift := ctx_lift B r prp h H (Node.cut_config a z A Z M k) (i0 + 1) hc b1 (by omega)
    (by omega) b3 (by omega) (by
      intro j2 hj2 hne
      unfold Node.cut_config at hj2 ⊢
      apply Node.child_two_cases _ _ _ _ _ _ (fun c => Node.wfc B h 1 B c = true) hAw hZw
      · intro _
        exact Node.wfc_mono B h _ _ 1 B _ (by omega) (by omega) hwl
      · intro e; omega
      · simpa using hj2)
  obtain ⟨l1, l2, l3, l4⟩ := hlift
  rw [g3] at l2
  refine ⟨l1, l2, Node.wfc_cut_right B h lo hi k M hM hk, ?_, ?_,
    Node.cut_right_child M k G hG⟩
  · rw [l3, List.append_assoc, ← g1]
    unfold Node.gap_pre
    rw [g3]
  · rw [l4, ← List.append_assoc, ← g2]
    unfold Node.gap_post
    rw [g3]

end CutStep

end CppBtree

namespace CppBtree

variable {K V : Type}

theorem split_point_cases (B : Nat) (n : Node V) (ip : Int) (hB : 3 ≤ B) (hn : n.count = B)
    (h0 : 0 ≤ ip) :
    n.split_point B ip < B
      ∧ (ip.toNat ≤ n.split_point B ip → 1 ≤ B - n.split_point B ip - 1)
      ∧ (n.split_point B ip < ip.toNat → 1 ≤ n.split_point B ip) := by
  unfold Node.split_point Node.split_dest_count Node.max_children_count
  rw [hn]
  by_cases h1 : ip = 0
  · simp only [h1, if_true]
    omega
  · simp only [h1, if_false]
    cases n with
    | leaf_node m vs =>
      simp only [Node.leaf_leaf, if_true]
      rw [if_neg (by omega)]
      omega
    | internal_node vs cs =>
      simp only [Node.leaf_internal, Bool.false_eq_true, if_false]
      by_cases h2 : ip = ((B + 1 : Nat) : Int) - 1
      · rw [if_pos h2]
        omega
      · rw [if_neg h2]
        omega

section SplitStep

variable [Inhabited V]

/-- One `split` of the full child `i1` of the node `prp1` that has room for a value. -/
theorem split_step (B h H1 : Nat) (hB : 3 ≤ B) (r1 : Node V) (prp1 : List Nat) (i1 : Nat)
    (ip : Int) (hc : Ctx B r1 prp1 (h + 1) H1)
    (hP : Node.wfc B (h + 1) 0 (B - 1) (getNode r1 prp1) = true)
    (hi1 : i1 < (getNode r1 prp1).children.length)
    (hN : Node.wfc B h B B ((getNode r1 prp1).child i1) = true)
    (h0 : 0 ≤ ip) (h1 : ip ≤ B) :
    ∃ rp2 ip2,
      (if ip > (((getNode (setNode r1 prp1 ((getNode r1 prp1).split B i1 ip))
            (i1 :: prp1)).count : Nat) : Int) then
          ((i1 + 1) :: prp1, ip - (getNode (setNode r1 prp1 ((getNode r1 prp1).split B i1 ip))
            (i1 :: prp1)).count - 1)
        else (i1 :: prp1, ip)) = (rp2, ip2)
      ∧ Ctx B (setNode r1 prp1 ((getNode r1 prp1).split B i1 ip)) rp2 h H1
      ∧ Node.wfc B h 0 (B - 1)
          (getNode (setNode r1 prp1 ((getNode r1 prp1).split B i1 ip)) rp2) = true
      ∧ 0 ≤ ip2
      ∧ ip2 ≤ (getNode (setNode r1 prp1 ((getNode r1 prp1).split B i1 ip)) rp2).count
      ∧ pre (setNode r1 prp1 ((getNode r1 prp1).split B i1 ip)) rp2
            ++ (getNode (setNode r1 prp1 ((getNode r1 prp1).split B i1 ip)) rp2).pre_part ip2.toNat
          = pre r1 prp1 ++ ((getNode r1 prp1).pre_child i1
            ++ ((getNode r1 prp1).child i1).pre_part ip.toNat)
      ∧ (getNode (setNode r1 prp1 ((getNode r1 prp1).split B i1 ip)) rp2).post_part ip2.toNat
            ++ post (setNode r1 prp1 ((getNode r1 prp1).split B i1 ip)) rp2
          = (((getNode r1 prp1).child i1).post_part ip.toNat
            ++ (getNode r1 prp1).post_child i1) ++ post r1 prp1
      ∧ (getNode (setNode r1 prp1 ((getNode r1 prp1).split B i1 ip)) rp2).child ip2.toNat
          = ((getNode r1 prp1).child i1).child ip.toNat := by
  have hPl : (getNode r1 prp1).leaf = false := Node.leaf_false_of_lt _ _ hi1
  have hPi := hP
  rw [Node.eq_internal_of_not_leaf _ hPl, Node.wfc_internal_iff] at hPi
  obtain ⟨h', eh, _, hcnt, hlen, hch⟩ := hPi
  have eh' : h' = h := by omega
  subst eh'
  obtain ⟨a, z, A, N, Z, eP, ha, hA, hZ, eN, hAm, hZm⟩ :=
    Node.decompose_one (getNode r1 prp1) i1 hPl hlen hi1
  rw [← eN] at hN ⊢
  have hNc := (Node.wfc_count B h' B B N hN)
  have hNcount : N.count = B := by omega
  have hsp := split_point_cases B N ip hB hNcount h0
  have hsplit : (getNode r1 prp1).split B i1 ip
      = Node.cut_config a z A Z N (N.split_point B ip) := by
    rw [eP]
    exact Node.split_eq B a z A Z N i1 ip ha.symm (by omega) hZ
      (Node.shape_ok_of_wfc B h' B B N hN) (by omega) (by
        intro hl
        rw [Node.eq_leaf_of_leaf N B hl, Node.wfc_leaf_iff] at hN
        rw [Node.eq_leaf_of_leaf N B hl]
        simp only [Node.max_count_leaf]
        omega)
  rw [hsplit]
  have hAw : ∀ c ∈ A, Node.wfc B h' 1 B c = true := fun c hc => hch c (hAm c hc)
  have hZw : ∀ c ∈ Z, Node.wfc B h' 1 B c = true := fun c hc => hch c (hZm c hc)
  have hcnt2 : a.length + 1 + z.length ≤ B := by
    have := congrArg Node.count eP
    simp at this
    simp only [Node.count] at this
    omega
  have hpa : (getNode r1 prp1).pre_child i1 = join_cv (A.map Node.inorder) a := by
    rw [eP]; exact Node.pre_child_at a A i1 _ _ ha.symm (by omega)
  have hpz : (getNode r1 prp1).post_child i1 = join_vc z (Z.map Node.inorder) := by
    rw [eP]; exact Node.post_child_at a z A Z i1 N ha.symm (by omega)
  rw [hpa, hpz]
  by_cases hG : ip.toNat ≤ N.split_point B ip
  · obtain ⟨c1, c2, c3, c4, c5, c6⟩ := tree_cut_left B h' H1 r1 prp1 a z A Z N
      (N.split_point B ip) ip.toNat i1 B B hc ha.symm (by omega) hZ hAw hZw hN (by omega) hG
      hcnt2 (by omega)
    have hcount : (getNode (setNode r1 prp1 (Node.cut_config a z A Z N (N.split_point B ip)))
        (i1 :: prp1)).count = N.split_point B ip := by
      rw [c2, Node.count_cut_left _ _ (by omega)]
    refine ⟨i1 :: prp1, ip, ?_, c1, ?_, h0, ?_, ?_, ?_, ?_⟩
    · rw [hcount, if_neg (by omega)]
    · rw [c2]; exact Node.wfc_mono B h' _ _ 0 (B - 1) _ (by omega) (by omega) c3
    · rw [hcount]; omega
    · rw [c2]; exact c4
    · rw [c2]; exact c5
    · rw [c2]; exact c6
  · obtain ⟨c1, c2, c3, c4, c5, c6⟩ := tree_cut_right B h' H1 r1 prp1 a z A Z N
      (N.split_point B ip) ip.toNat i1 B B hc ha.symm (by omega) hZ hAw hZw hN (by omega)
      (by omega) (by omega) hcnt2 (by omega)
    have hlcount : (getNode (setNode r1 prp1 (Node.cut_config a z A Z N (N.split_point B ip)))
        (i1 :: prp1)).count = N.split_point B ip := by
      have hv := validPath_of_ctx B r1 prp1 _ H1 hc
      simp only [getNode]
      rw [getNode_setNode _ _ _ hv]
      unfold Node.cut_config
      rw [Node.child_at _ _ _ _ _ (by omega), Node.count_cut_left _ _ (by omega)]
    have hcount : (getNode (setNode r1 prp1 (Node.cut_config a z A Z N (N.split_point B ip)))
        ((i1 + 1) :: prp1)).count = B - N.split_point B ip - 1 := by
      rw [c2, Node.count_cut_right]; omega
    have e2 : (ip - (N.split_point B ip : Int) - 1).toNat
        = ip.toNat - N.split_point B ip - 1 := by omega
    refine ⟨(i1 + 1) :: prp1, ip - (N.split_point B ip : Int) - 1, ?_, c1, ?_, by omega, ?_,
      ?_, ?_, ?_⟩
    · rw [hlcount, if_pos (by omega)]
    · rw [c2]; exact Node.wfc_mono B h' _ _ 0 (B - 1) _ (by omega) (by omega) c3
    · rw [hcount]; omega
    · rw [c2, e2]; exact c4
    · rw [c2, e2]; exact c5
    · rw [c2, e2]; exact c6

/-- The outcome of `split_step` as a gap. -/
theorem split_step_gap (B h H1 : Nat) (hB : 3 ≤ B) (r1 : Node V) (prp1 : List Nat) (i1 : Nat)
    (ip : Int) (hc : Ctx B r1 prp1 (h + 1) H1)
    (hP : Node.wfc B (h + 1) 0 (B - 1) (getNode r1 prp1) = true)
    (hi1 : i1 < (getNode r1 prp1).children.length)
    (hN : Node.wfc B h B B ((getNode r1 prp1).child i1) = true)
    (h0 : 0 ≤ ip) (h1 : ip ≤ B) :
    ∃ rp2 ip2,
      (if ip > (((getNode (setNode r1 prp1 ((getNode r1 prp1).split B i1 ip))
            (i1 :: prp1)).count : Nat) : Int) then
          ((i1 + 1) :: prp1, ip - (getNode (setNode r1 prp1 ((getNode r1 prp1).split B i1 ip))
            (i1 :: prp1)).count - 1)
        else (i1 :: prp1, ip)) = (rp2, ip2)
      ∧ GapAt B h H1 (setNode r1 prp1 ((getNode r1 prp1).split B i1 ip)) rp2 ip2 (B - 1)
          (pre r1 prp1 ++ ((getNode r1 prp1).pre_child i1
            ++ ((getNode r1 prp1).child i1).pre_part ip.toNat))
          ((((getNode r1 prp1).child i1).post_part ip.toNat
            ++ (getNode r1 prp1).post_child i1) ++ post r1 prp1)
          (((getNode r1 prp1).child i1).child ip.toNat) := by
  obtain ⟨rp2, ip2, e, c1, c2, c3, c4, c5, c6, c7⟩ :=
    split_step B h H1 hB r1 prp1 i1 ip hc hP hi1 hN h0 h1
  exact ⟨rp2, ip2, e, c1, c2, c3, c4, c5, c6, c7⟩

end SplitStep

end CppBtree

namespace CppBtree

variable {K V : Type}

section RebalanceStep

variable [Inhabited V]

/-- Facts about the parent of a node whose surroundings are well shaped. -/
theorem ctx_parent_facts (B h H : Nat) (r : Node V) (i : Nat) (prp : List Nat)
    (hc : Ctx B r (i :: prp) h H) (hN : Node.wfc B h 1 B (getNode r (i :: prp)) = true) :
    (getNode r prp).leaf = false ∧ 1 ≤ (getNode r prp).count ∧ (getNode r prp).count ≤ B
      ∧ (getNode r prp).children.length = (getNode r prp).count + 1
      ∧ i < (getNode r prp).children.length
      ∧ (∀ c ∈ (getNode r prp).children, Node.wfc B h 1 B c = true)
      ∧ Ctx B r prp (h + 1) H := by
  obtain ⟨h1, h2, h3, h4, h5, h6, h7⟩ := hc
  refine ⟨h1, h2, h3, h4, h5, ?_, h7⟩
  intro c hcm
  obtain ⟨j, hj, rfl⟩ := List.getElem_of_mem hcm
  by_cases hji : j = i
  · subst hji
    simp only [getNode, Node.child] at hN
    rwa [List.getD_eq_getElem _ _ hj] at hN
  · have := h6 j hj hji
    simp only [Node.child] at this
    rwa [List.getD_eq_getElem _ _ hj] at this

/-- Insert-driven rebalancing with the left sibling (`rebalance_right_to_left`). -/
theorem rebalance_left_step (B h H : Nat) (r : Node V) (i : Nat) (prp : List Nat) (m : Nat)
    (ip : Int) (hc : Ctx B r (i :: prp) h H)
    (hN : Node.wfc B h B B (getNode r (i :: prp)) = true) (hB : 1 ≤ B)
    (hi : 0 < i) (hm1 : 1 ≤ m) (hlc : ((getNode r prp).child (i - 1)).count + m ≤ B)
    (h0 : 0 ≤ ip) (h1 : ip ≤ B)
    (hcond : ip - m ≥ 0 ∨ ((getNode r prp).child (i - 1)).count + m < B) :
    ∃ rp2 ip2,
      (if ip - (m : Int) < 0 then
          ((i - 1) :: prp, ip - (m : Int)
            + (getNode (setNode r prp ((getNode r prp).rebalance_right_to_left (i - 1) m))
                ((i - 1) :: prp)).count + 1)
        else (i :: prp, ip - (m : Int))) = (rp2, ip2)
      ∧ GapAt B h H (setNode r prp ((getNode r prp).rebalance_right_to_left (i - 1) m)) rp2 ip2
          (B - 1) (pre r (i :: prp) ++ (getNode r (i :: prp)).pre_part ip.toNat)
          ((getNode r (i :: prp)).post_part ip.toNat ++ post r (i :: prp))
          ((getNode r (i :: prp)).child ip.toNat) := by
  obtain ⟨p1, p2, p3, p4, p5, p6, p7⟩ := ctx_parent_facts B h H r i prp hc
    (Node.wfc_mono B h _ _ 1 B _ hB (Nat.le_refl B) hN)
  obtain ⟨a, sep, z, A, L, R, Z, eP, ha, hA, hZ, eL, eR, esep, hAm, hZm⟩ :=
    Node.decompose_pair (getNode r prp) (i - 1) p1 p4 (by omega)
  have ei : i - 1 + 1 = i := by omega
  rw [ei] at eR
  have eN : getNode r (i :: prp) = R := by simp only [getNode]; exact eR.symm
  rw [eN] at hN ⊢
  rw [← eL] at hlc hcond
  have hLw : Node.wfc B h 1 B L = true := by
    rw [eL]; exact p6 _ (Node.child_mem _ _ (by omega))
  have hLc := Node.wfc_count B h 1 B L hLw
  have hRc := Node.wfc_count B h B B R hN
  have hsL := Node.shape_ok_of_wfc B h 1 B L hLw
  have hsR := Node.shape_ok_of_wfc B h B B R hN
  have hsk := Node.same_kind_of_wfc B h 1 B B B L R hLw hN
  have hM := Node.wfc_glue B h 1 B B B L R sep hLw hN
  have hMs := Node.shape_ok_of_wfc B h _ _ _ hM
  have hMc := Node.count_glue L R sep
  have hop : (getNode r prp).rebalance_right_to_left (i - 1) m
      = Node.cut_config a z A Z (Node.glue L sep R) (L.count + m) := by
    rw [eP]
    exact Node.rebalance_right_to_left_eq a z sep A Z L R (i - 1) m ha.symm (by omega) hsL hsR
      hsk hm1 (by omega)
  have horig : getNode r prp = Node.cut_config a z A Z (Node.glue L sep R) L.count := by
    rw [eP]; exact Node.orig_eq a z sep A Z L R hsL hsk
  have hAw : ∀ c ∈ A, Node.wfc B h 1 B c = true := fun c hc => p6 c (hAm c hc)
  have hZw : ∀ c ∈ Z, Node.wfc B h 1 B c = true := fun c hc => p6 c (hZm c hc)
  have hcnt2 : a.length + 1 + z.length ≤ B := by
    have := congrArg Node.count eP
    simp only [Node.count_internal, List.length_append, List.length_cons] at this
    omega
  -- the old gap, seen in the glued node
  obtain ⟨o1, o2, o3, _⟩ := Node.gap_cut_right a z A Z (Node.glue L sep R) (i - 1) L.count
    (L.count + 1 + ip.toNat) ha.symm (by omega) hMs (by omega) (by omega) (by omega)
  rw [← horig, ei] at o1 o2 o3
  rw [show L.count + 1 + ip.toNat - L.count - 1 = ip.toNat by omega] at o1 o2
  have hold1 : pre r (i :: prp) ++ R.pre_part ip.toNat
      = pre r prp ++ (join_cv (A.map Node.inorder) a
        ++ (Node.glue L sep R).pre_part (L.count + 1 + ip.toNat)) := by
    simp only [pre]
    rw [List.append_assoc, ← o1]
    unfold Node.gap_pre
    rw [← eR]
  have hold2 : R.post_part ip.toNat ++ post r (i :: prp)
      = ((Node.glue L sep R).post_part (L.count + 1 + ip.toNat)
        ++ join_vc z (Z.map Node.inorder)) ++ post r prp := by
    simp only [post]
    rw [← List.append_assoc, ← o2]
    unfold Node.gap_post
    rw [← eR]
  have hold3 : R.child ip.toNat = (Node.glue L sep R).child (L.count + 1 + ip.toNat) :=
    (Node.glue_child_right L R sep ip.toNat hsL hsk).symm
  rw [hold1, hold2, hold3, hop]
  by_cases hlt : ip - (m : Int) < 0
  · obtain ⟨c1, c2, c3, c4, c5, c6⟩ := tree_cut_left B h H r prp a z A Z (Node.glue L sep R)
      (L.count + m) (L.count + 1 + ip.toNat) (i - 1) _ _ p7 ha.symm (by omega) hZ hAw hZw hM
      (by omega) (by omega) hcnt2 (by omega)
    have hcount : (getNode (setNode r prp (Node.cut_config a z A Z (Node.glue L sep R)
        (L.count + m))) ((i - 1) :: prp)).count = L.count + m := by
      rw [c2, Node.count_cut_left _ _ (by omega)]
    have e2 : (ip - (m : Int) + ((L.count + m : Nat) : Int) + 1).toNat
        = L.count + 1 + ip.toNat := by omega
    refine ⟨(i - 1) :: prp, ip - (m : Int) + ((L.count + m : Nat) : Int) + 1, ?_, c1, ?_,
      by omega, ?_, ?_, ?_, ?_⟩
    · rw [if_pos hlt, hcount]
    · rw [c2]; exact Node.wfc_mono B h _ _ 0 (B - 1) _ (by omega) (by omega) c3
    · rw [hcount]; omega
    · rw [c2, e2]; exact c4
    · rw [c2, e2]; exact c5
    · rw [c2, e2]; exact c6
  · obtain ⟨c1, c2, c3, c4, c5, c6⟩ := tree_cut_right B h H r prp a z A Z (Node.glue L sep R)
      (L.count + m) (L.count + 1 + ip.toNat) (i - 1) _ _ p7 ha.symm (by omega) hZ hAw hZw hM
      (by omega) (by omega) (by omega) hcnt2 (by omega)
    rw [ei] at c1 c2 c4 c5
    have hcount : (getNode (setNode r prp (Node.cut_config a z A Z (Node.glue L sep R)
        (L.count + m))) (i :: prp)).count = B - m := by
      rw [c2, Node.count_cut_right]; omega
    have e2 : (ip - (m : Int)).toNat = L.count + 1 + ip.toNat - (L.count + m) - 1 := by omega
    refine ⟨i :: prp, ip - (m : Int), ?_, c1, ?_, by omega, ?_, ?_, ?_, ?_⟩
    · rw [if_neg hlt]
    · rw [c2]; exact Node.wfc_mono B h _ _ 0 (B - 1) _ (by omega) (by omega) c3
    · rw [hcount]; omega
    · rw [c2, e2]; exact c4
    · rw [c2, e2]; exact c5
    · rw [c2, e2]; exact c6

/-- Insert-driven rebalancing with the right sibling (`rebalance_left_to_right`). -/
theorem rebalance_right_step (B h H : Nat) (r : Node V) (i : Nat) (prp : List Nat) (m : Nat)
    (ip : Int) (hc : Ctx B r (i :: prp) h H)
    (hN : Node.wfc B h B B (getNode r (i :: prp)) = true) (hB : 1 ≤ B)
    (hi : i < (getNode r prp).count) (hm1 : 1 ≤ m)
    (hrc : ((getNode r prp).child (i + 1)).count + m ≤ B)
    (h0 : 0 ≤ ip) (h1 : ip ≤ B)
    (hcond : ip ≤ (B : Int) - m ∨ ((getNode r prp).child (i + 1)).count + m < B) :
    ∃ rp2 ip2,
      (if ip > (((getNode (setNode r prp ((getNode r prp).rebalance_left_to_right i m))
            (i :: prp)).count : Nat) : Int) then
          ((i + 1) :: prp, ip
            - (getNode (setNode r prp ((getNode r prp).rebalance_left_to_right i m))
                (i :: prp)).count - 1)
        else (i :: prp, ip)) = (rp2, ip2)
      ∧ GapAt B h H (setNode r prp ((getNode r prp).rebalance_left_to_right i m)) rp2 ip2
          (B - 1) (pre r (i :: prp) ++ (getNode r (i :: prp)).pre_part ip.toNat)
          ((getNode r (i :: prp)).post_part ip.toNat ++ post r (i :: prp))
          ((getNode r (i :: prp)).child ip.toNat) := by
  obtain ⟨p1, p2, p3, p4, p5, p6, p7⟩ := ctx_parent_facts B h H r i prp hc
    (Node.wfc_mono B h _ _ 1 B _ hB (Nat.le_refl B) hN)
  obtain ⟨a, sep, z, A, L, R, Z, eP, ha, hA, hZ, eL, eR, esep, hAm, hZm⟩ :=
    Node.decompose_pair (getNode r prp) i p1 p4 hi
  have eN : getNode r (i :: prp) = L := by simp only [getNode]; exact eL.symm
  rw [eN] at hN ⊢
  rw [← eR] at hrc hcond
  have hRw : Node.wfc B h 1 B R = true := by
    rw [eR]; exact p6 _ (Node.child_mem _ _ (by omega))
  have hRc := Node.wfc_count B h 1 B R hRw
  have hLc := Node.wfc_count B h B B L hN
  have hsL := Node.shape_ok_of_wfc B h B B L hN
  have hsk := Node.same_kind_of_wfc B h B B 1 B L R hN hRw
  have hM := Node.wfc_glue B h B B 1 B L R sep hN hRw
  have hMs := Node.shape_ok_of_wfc B h _ _ _ hM
  have hMc := Node.count_glue L R sep
  have hop : (getNode r prp).rebalance_left_to_right i m
      = Node.cut_config a z A Z (Node.glue L sep R) (L.count - m) := by
    rw [eP]
    exact Node.rebalance_left_to_right_eq a z sep A Z L R i m ha.symm (by omega) hsL
      hsk hm1 (by omega)
  have horig : getNode r prp = Node.cut_config a z A Z (Node.glue L sep R) L.count := by
    rw [eP]; exact Node.orig_eq a z sep A Z L R hsL hsk
  have hAw : ∀ c ∈ A, Node.wfc B h 1 B c = true := fun c hc => p6 c (hAm c hc)
  have hZw : ∀ c ∈ Z, Node.wfc B h 1 B c = true := fun c hc => p6 c (hZm c hc)
  have hcnt2 : a.length + 1 + z.length ≤ B := by
    have := congrArg Node.count eP
    simp only [Node.count_internal, List.length_append, List.length_cons] at this
    omega
  obtain ⟨o1, o2, o3, _⟩ := Node.gap_cut_left a z A Z (Node.glue L sep R) i L.count
    ip.toNat ha.symm (by omega) hMs (by omega) (by omega)
  rw [← horig] at o1 o2 o3
  have hold1 : pre r (i :: prp) ++ L.pre_part ip.toNat
      = pre r prp ++ (join_cv (A.map Node.inorder) a
        ++ (Node.glue L sep R).pre_part ip.toNat) := by
    simp only [pre]
    rw [List.append_assoc, ← o1]
    unfold Node.gap_pre
    rw [← eL]
  have hold2 : L.post_part ip.toNat ++ post r (i :: prp)
      = ((Node.glue L sep R).post_part ip.toNat
        ++ join_vc z (Z.map Node.inorder)) ++ post r prp := by
    simp only [post]
    rw [← List.append_assoc, ← o2]
    unfold Node.gap_post
    rw [← eL]
  have hold3 : L.child ip.toNat = (Node.glue L sep R).child ip.toNat :=
    (Node.glue_child_left L R sep ip.toNat hsL hsk (by omega)).symm
  rw [hold1, hold2, hold3, hop]
  have hlcount : (getNode (setNode r prp (Node.cut_config a z A Z (Node.glue L sep R)
      (L.count - m))) (i :: prp)).count = L.count - m := by
    have hv := validPath_of_ctx B r prp _ H p7
    simp only [getNode]
    rw [getNode_setNode _ _ _ hv]
    unfold Node.cut_config
    rw [Node.child_at _ _ _ _ _ (by omega), Node.count_cut_left _ _ (by omega)]
  by_cases hgt : ip > ((L.count - m : Nat) : Int)
  · obtain ⟨c1, c2, c3, c4, c5, c6⟩ := tree_cut_right B h H r prp a z A Z (Node.glue L sep R)
      (L.count - m) ip.toNat i _ _ p7 ha.symm (by omega) hZ hAw hZw hM
      (by omega) (by omega) (by omega) hcnt2 (by omega)
    have hcount : (getNode (setNode r prp (Node.cut_config a z A Z (Node.glue L sep R)
        (L.count - m))) ((i + 1) :: prp)).count = R.count + m := by
      rw [c2, Node.count_cut_right]; omega
    have e2 : (ip - ((L.count - m : Nat) : Int) - 1).toNat
        = ip.toNat - (L.count - m) - 1 := by omega
    refine ⟨(i + 1) :: prp, ip - ((L.count - m : Nat) : Int) - 1, ?_, c1, ?_, by omega, ?_, ?_,
      ?_, ?_⟩
    · rw [hlcount, if_pos hgt]
    · rw [c2]; exact Node.wfc_mono B h _ _ 0 (B - 1) _ (by omega) (by omega) c3
    · rw [hcount]; omega
    · rw [c2, e2]; exact c4
    · rw [c2, e2]; exact c5
    · rw [c2, e2]; exact c6
  · obtain ⟨c1, c2, c3, c4, c5, c6⟩ := tree_cut_left B h H r prp a z A Z (Node.glue L sep R)
      (L.count - m) ip.toNat i _ _ p7 ha.symm (by omega) hZ hAw hZw hM
      (by omega) (by omega) hcnt2 (by omega)
    refine ⟨i :: prp, ip, ?_, c1, ?_, h0, ?_, ?_, ?_, ?_⟩
    · rw [hlcount, if_neg hgt]
    · rw [c2]; exact Node.wfc_mono B h _ _ 0 (B - 1) _ (by omega) (by omega) c3
    · rw [hlcount]; omega
    · rw [c2]; exact c4
    · rw [c2]; exact c5
    · rw [c2]; exact c6

end RebalanceStep

end CppBtree

namespace CppBtree

variable {K V : Type}

namespace Btree

@[simp] theorem with_root_root (t : Btree K V) (x : Option (Node V)) : (t.with_root x).root = x :=
  rfl
@[simp] theorem with_root_comp (t : Btree K V) (x : Option (Node V)) :
    (t.with_root x).comp = t.comp := rfl
@[simp] theorem with_root_size_field (t : Btree K V) (x : Option (Node V)) :
    (t.with_root x).size_field = t.size_field := rfl
@[simp] theorem with_size_root (t : Btree K V) (s : Nat) : (t.with_size s).root = t.root := rfl
@[simp] theorem with_size_comp (t : Btree K V) (s : Nat) : (t.with_size s).comp = t.comp := rfl
@[simp] theorem with_size_size_field (t : Btree K V) (s : Nat) :
    (t.with_size s).size_field = s := rfl
@[simp] theorem with_root_root_node (t : Btree K V) (r : Node V) :
    (t.with_root (some r)).root_node = r := rfl
@[simp] theorem with_size_root_node (t : Btree K V) (s : Nat) :
    (t.with_size s).root_node = t.root_node := rfl

theorem root_node_of_root (t : Btree K V) (r : Node V) (h : t.root = some r) :
    t.root_node = r := by
  simp [root_node, h]

@[simp] theorem set_node_root_node (t : Btree K V) (rp : List Nat) (n : Node V) :
    (t.set_node rp n).root_node = setNode t.root_node rp n := rfl
@[simp] theorem set_node_comp (t : Btree K V) (rp : List Nat) (n : Node V) :
    (t.set_node rp n).comp = t.comp := rfl
@[simp] theorem set_node_size_field (t : Btree K V) (rp : List Nat) (n : Node V) :
    (t.set_node rp n).size_field = t.size_field := rfl
@[simp] theorem set_node_root (t : Btree K V) (rp : List Nat) (n : Node V) :
    (t.set_node rp n).root = some (setNode t.root_node rp n) := rfl

end Btree

namespace Node

theorem max_count_of_wfc (B h lo hi : Nat) (n : Node V) (hw : wfc B h lo hi n = true) :
    n.max_count B = B := by
  cases n with
  | leaf_node m vs => rw [wfc_leaf_iff] at hw; simp; omega
  | internal_node vs cs => rfl

end Node

theorem to_move_bounds (x : Int) (c : Prop) [Decidable c] (hx : 1 ≤ x) :
    1 ≤ max 1 (x / (1 + (if c then 1 else 0))) ∧ max 1 (x / (1 + (if c then 1 else 0))) ≤ x := by
  by_cases hc : c
  · simp only [hc, if_true]
    have : x / (1 + 1) = x / 2 := by norm_num
    rw [this]
    omega
  · simp only [hc, if_false]
    have : x / (1 + 0) = x := by norm_num
    rw [this]
    omega

end CppBtree

namespace CppBtree

variable {K V : Type}

namespace Btree

section RebalanceOrSplit

variable [Inhabited V]

theorem split_node_spec (P : Params K V) (t1 : Btree K V) (r1 : Node V)
    (hB : 3 ≤ P.kNodeValues) (ht : t1.root = some r1) (h H1 : Nat) (prp1 : List Nat) (i1 : Nat)
    (ip : Int) (hc : Ctx P.kNodeValues r1 prp1 (h + 1) H1)
    (hP : Node.wfc P.kNodeValues (h + 1) 0 (P.kNodeValues - 1) (getNode r1 prp1) = true)
    (hi1 : i1 < (getNode r1 prp1).children.length)
    (hN : Node.wfc P.kNodeValues h P.kNodeValues P.kNodeValues ((getNode r1 prp1).child i1) = true)
    (h0 : 0 ≤ ip) (h1 : ip ≤ P.kNodeValues) :
    ∃ r2, (split_node P t1 prp1 i1 ip).1.root = some r2
      ∧ (split_node P t1 prp1 i1 ip).1.comp = t1.comp
      ∧ (split_node P t1 prp1 i1 ip).1.size_field = t1.size_field
      ∧ GapAt P.kNodeValues h H1 r2 (split_node P t1 prp1 i1 ip).2.1
          (split_node P t1 prp1 i1 ip).2.2 (P.kNodeValues - 1)
          (pre r1 prp1 ++ ((getNode r1 prp1).pre_child i1
            ++ ((getNode r1 prp1).child i1).pre_part ip.toNat))
          ((((getNode r1 prp1).child i1).post_part ip.toNat
            ++ (getNode r1 prp1).post_child i1) ++ post r1 prp1)
          (((getNode r1 prp1).child i1).child ip.toNat) := by
  have hr := root_node_of_root t1 r1 ht
  obtain ⟨rp2, ip2, e, g⟩ := split_step_gap P.kNodeValues h H1 hB r1 prp1 i1 ip hc hP hi1 hN h0 h1
  refine ⟨setNode r1 prp1 ((getNode r1 prp1).split P.kNodeValues i1 ip), ?_, ?_, ?_, ?_⟩
  · simp only [split_node, node, hr]
    split <;> simp [hr]
  · simp only [split_node, node, hr]
    split <;> simp
  · simp only [split_node, node, hr]
    split <;> simp
  · have e2 : (split_node P t1 prp1 i1 ip).2 = (rp2, ip2) := by
      rw [← e]
      simp only [split_node, node, hr, set_node_root_node]
      split <;> rfl
    rw [show (split_node P t1 prp1 i1 ip).2.1 = rp2 from congrArg Prod.fst e2,
      show (split_node P t1 prp1 i1 ip).2.2 = ip2 from congrArg Prod.snd e2]
    exact g

theorem rebalance_or_split_root (P : Params K V) (t : Btree K V) (r : Node V)
    (hB : 3 ≤ P.kNodeValues) (ht : t.root = some r) (h H : Nat) (ip : Int)
    (hc : Ctx P.kNodeValues r [] h H)
    (hN : Node.wfc P.kNodeValues h P.kNodeValues P.kNodeValues r = true)
    (h0 : 0 ≤ ip) (h1 : ip ≤ P.kNodeValues) :
    ∃ r1 H1, (rebalance_or_split P t [] ip).1.root = some r1
      ∧ (rebalance_or_split P t [] ip).1.comp = t.comp
      ∧ (rebalance_or_split P t [] ip).1.size_field = (if r.leaf then r.count else t.size_field)
      ∧ GapAt P.kNodeValues h H1 r1 (rebalance_or_split P t [] ip).2.1
          (rebalance_or_split P t [] ip).2.2 (P.kNodeValues - 1)
          (r.pre_part ip.toNat) (r.post_part ip.toNat) (r.child ip.toNat) := by
  have hr := root_node_of_root t r ht
  simp only [Ctx] at hc
  subst hc
  have hP : Node.wfc P.kNodeValues (h + 1) 0 (P.kNodeValues - 1)
      (getNode (Node.internal_node [] [r]) []) = true := by
    simp only [getNode]
    rw [Node.wfc_internal_iff]
    refine ⟨h, rfl, by simp, by simp, by simp, ?_⟩
    intro c hc
    simp only [List.mem_singleton] at hc
    subst hc
    exact Node.wfc_mono _ h _ _ 1 _ _ (by omega) (Nat.le_refl _) hN
  have hT1 : ∃ t1 : Btree K V, t1.root = some (Node.internal_node [] [r]) ∧ t1.comp = t.comp
      ∧ t1.size_field = (if r.leaf then r.count else t.size_field)
      ∧ rebalance_or_split P t [] ip = split_node P t1 [] 0 ip := by
    by_cases hl : r.leaf = true
    · refine ⟨(t.with_root (some (Node.internal_node [] [r]))).with_size r.count, rfl, rfl,
        by simp [hl], ?_⟩
      simp only [rebalance_or_split, hr, hl, if_true]
    · refine ⟨t.with_root (some (Node.internal_node [] [r])), rfl, rfl, by simp [hl], ?_⟩
      simp only [rebalance_or_split, hr, hl]
      rfl
  obtain ⟨t1, q1, q2, q3, q4⟩ := hT1
  obtain ⟨r2, s1, s2, s3, s4⟩ := split_node_spec P t1 (Node.internal_node [] [r]) hB q1 h (h + 1)
    [] 0 ip rfl hP (by simp [getNode]) (by simpa [getNode, Node.child] using hN) h0 h1
  rw [q4]
  refine ⟨r2, h + 1, s1, by rw [s2, q2], by rw [s3, q3], ?_⟩
  simpa [pre, post, Node.pre_child, Node.post_child, Node.segs, join_cv, join_vc, getNode,
    Node.child] using s4

end RebalanceOrSplit

end Btree

end CppBtree

namespace CppBtree

variable {K V : Type}

namespace Btree

section RebalanceOrSplit2

variable [Inhabited V]

theorem rebalance_with_left_spec (P : Params K V) (t : Btree K V) (r : Node V)
    (hB : 3 ≤ P.kNodeValues) (ht : t.root = some r) (h H : Nat) (i : Nat) (prp : List Nat)
    (ip : Int) (hc : Ctx P.kNodeValues r (i :: prp) h H)
    (hN : Node.wfc P.kNodeValues h P.kNodeValues P.kNodeValues (getNode r (i :: prp)) = true)
    (h0 : 0 ≤ ip) (h1 : ip ≤ P.kNodeValues) (res : Btree K V × List Nat × Int)
    (heq : rebalance_with_left P t i prp ip = some res) :
    ∃ r1, res.1.root = some r1 ∧ res.1.comp = t.comp ∧ res.1.size_field = t.size_field
      ∧ GapAt P.kNodeValues h H r1 res.2.1 res.2.2 (P.kNodeValues - 1)
          (pre r (i :: prp) ++ (getNode r (i :: prp)).pre_part ip.toNat)
          ((getNode r (i :: prp)).post_part ip.toNat ++ post r (i :: prp))
          ((getNode r (i :: prp)).child ip.toNat) := by
  have hr := root_node_of_root t r ht
  obtain ⟨p1, p2, p3, p4, p5, p6, p7⟩ := ctx_parent_facts P.kNodeValues h H r i prp hc
    (Node.wfc_mono _ h _ _ 1 _ _ (by omega) (Nat.le_refl _) hN)
  simp only [rebalance_with_left, node, hr] at heq
  by_cases c1 : i > 0
  · rw [if_pos c1] at heq
    have hLw : Node.wfc P.kNodeValues h 1 P.kNodeValues ((getNode r prp).child (i - 1)) = true :=
      p6 _ (Node.child_mem _ _ (by omega))
    have hmax := Node.max_count_of_wfc _ h 1 _ _ hLw
    have hLc := Node.wfc_count _ h 1 _ _ hLw
    rw [hmax] at heq
    by_cases c2 : ((getNode r prp).child (i - 1)).count < P.kNodeValues
    · rw [if_pos c2] at heq
      obtain ⟨tb1, tb2⟩ := to_move_bounds
        ((P.kNodeValues : Int) - ((getNode r prp).child (i - 1)).count)
        (ip < (P.kNodeValues : Int)) (by omega)
      generalize max 1 (((P.kNodeValues : Int) - ((getNode r prp).child (i - 1)).count)
        / (1 + (if ip < (P.kNodeValues : Int) then 1 else 0))) = tm at heq tb1 tb2
      by_cases c3 : ip - tm ≥ 0 ∨ (((getNode r prp).child (i - 1)).count : Int) + tm
          < P.kNodeValues
      · rw [if_pos c3] at heq
        obtain ⟨rp2, ip2, e, g⟩ := rebalance_left_step P.kNodeValues h H r i prp tm.toNat ip hc hN
          (by omega) c1 (by omega) (by omega) h0 h1 (by omega)
        have etm : ((tm.toNat : Nat) : Int) = tm := by omega
        rw [etm] at e
        simp only [set_node_root_node, hr] at heq
        by_cases c4 : ip - tm < 0
        · rw [if_pos c4] at heq e
          simp only [Option.some.injEq] at heq
          simp only [Prod.mk.injEq] at e
          obtain ⟨e1, e2⟩ := e
          subst heq
          refine ⟨_, rfl, rfl, rfl, ?_⟩
          simp only [set_node_root_node, hr]
          subst e1
          subst e2
          exact g
        · rw [if_neg c4] at heq e
          simp only [Option.some.injEq] at heq
          simp only [Prod.mk.injEq] at e
          obtain ⟨e1, e2⟩ := e
          subst heq
          refine ⟨_, rfl, rfl, rfl, ?_⟩
          simp only [set_node_root_node, hr]
          subst e1
          subst e2
          exact g
      · rw [if_neg c3] at heq
        exact absurd heq (by simp)
    · rw [if_neg c2] at heq
      exact absurd heq (by simp)
  · rw [if_neg c1] at heq
    exact absurd heq (by simp)

theorem rebalance_with_right_spec (P : Params K V) (t : Btree K V) (r : Node V)
    (hB : 3 ≤ P.kNodeValues) (ht : t.root = some r) (h H : Nat) (i : Nat) (prp : List Nat)
    (ip : Int) (hc : Ctx P.kNodeValues r (i :: prp) h H)
    (hN : Node.wfc P.kNodeValues h P.kNodeValues P.kNodeValues (getNode r (i :: prp)) = true)
    (h0 : 0 ≤ ip) (h1 : ip ≤ P.kNodeValues) (res : Btree K V × List Nat × Int)
    (heq : rebalance_with_right P t i prp ip = some res) :
    ∃ r1, res.1.root = some r1 ∧ res.1.comp = t.comp ∧ res.1.size_field = t.size_field
      ∧ GapAt P.kNodeValues h H r1 res.2.1 res.2.2 (P.kNodeValues - 1)
          (pre r (i :: prp) ++ (getNode r (i :: prp)).pre_part ip.toNat)
          ((getNode r (i :: prp)).post_part ip.toNat ++ post r (i :: prp))
          ((getNode r (i :: prp)).child ip.toNat) := by
  have hr := root_node_of_root t r ht
  obtain ⟨p1, p2, p3, p4, p5, p6, p7⟩ := ctx_parent_facts P.kNodeValues h H r i prp hc
    (Node.wfc_mono _ h _ _ 1 _ _ (by omega) (Nat.le_refl _) hN)
  have hNc := Node.wfc_count _ h _ _ _ hN
  simp only [getNode] at hNc
  simp only [rebalance_with_right, node, hr] at heq
  by_cases c1 : i < (getNode r prp).count
  · rw [if_pos c1] at heq
    have hRw : Node.wfc P.kNodeValues h 1 P.kNodeValues ((getNode r prp).child (i + 1)) = true :=
      p6 _ (Node.child_mem _ _ (by omega))
    have hmax := Node.max_count_of_wfc _ h 1 _ _ hRw
    have hRc := Node.wfc_count _ h 1 _ _ hRw
    rw [hmax] at heq
    by_cases c2 : ((getNode r prp).child (i + 1)).count < P.kNodeValues
    · rw [if_pos c2] at heq
      obtain ⟨tb1, tb2⟩ := to_move_bounds
        ((P.kNodeValues : Int) - ((getNode r prp).child (i + 1)).count)
        (ip > 0) (by omega)
      generalize max 1 (((P.kNodeValues : Int) - ((getNode r prp).child (i + 1)).count)
        / (1 + (if ip > 0 then 1 else 0))) = tm at heq tb1 tb2
      by_cases c3 : ip ≤ (((getNode r prp).child i).count : Int) - tm
          ∨ (((getNode r prp).child (i + 1)).count : Int) + tm < P.kNodeValues
      · rw [if_pos c3] at heq
        obtain ⟨rp2, ip2, e, g⟩ := rebalance_right_step P.kNodeValues h H r i prp tm.toNat ip hc
          hN (by omega) c1 (by omega) (by omega) h0 h1 (by omega)
        simp only [set_node_root_node, hr] at heq
        by_cases c4 : ip > (((getNode (setNode r prp
            ((getNode r prp).rebalance_left_to_right i tm.toNat)) (i :: prp)).count : Nat) : Int)
        · rw [if_pos c4] at heq e
          simp only [Option.some.injEq] at heq
          simp only [Prod.mk.injEq] at e
          obtain ⟨e1, e2⟩ := e
          subst heq
          refine ⟨_, rfl, rfl, rfl, ?_⟩
          simp only [set_node_root_node, hr]
          subst e1
          subst e2
          exact g
        · rw [if_neg c4] at heq e
          simp only [Option.some.injEq] at heq
          simp only [Prod.mk.injEq] at e
          obtain ⟨e1, e2⟩ := e
          subst heq
          refine ⟨_, rfl, rfl, rfl, ?_⟩
          simp only [set_node_root_node, hr]
          subst e1
          subst e2
          exact g
      · rw [if_neg c3] at heq
        exact absurd heq (by simp)
    · rw [if_neg c2] at heq
      exact absurd heq (by simp)
  · rw [if_neg c1] at heq
    exact absurd heq (by simp)

end RebalanceOrSplit2

end Btree

end CppBtree

namespace CppBtree

variable {K V : Type}

theorem root_internal_of_ctx (B : Nat) (r : Node V) (i : Nat) (rp : List Nat) (h H : Nat)
    (hc : Ctx B r (i :: rp) h H) : r.leaf = false := by
  induction rp generalizing i h with
  | nil => exact hc.1
  | cons j rp ih => exact ih j (h + 1) hc.2.2.2.2.2.2

theorem Node.wfc_of_parts (B h lo hi : Nat) (p : Node V) (h1 : p.leaf = false)
    (h2 : lo ≤ p.count) (h3 : p.count ≤ hi) (h4 : p.children.length = p.count + 1)
    (h6 : ∀ c ∈ p.children, Node.wfc B h 1 B c = true) :
    Node.wfc B (h + 1) lo hi p = true := by
  cases p with
  | leaf_node m vs => simp at h1
  | internal_node vs cs =>
    rw [Node.wfc_internal_iff]
    exact ⟨h, rfl, h2, h3, h4, h6⟩

theorem Node.pre_part_internal (p : Node V) (h1 : p.leaf = false) (g : Nat) :
    p.pre_part g = p.pre_child g := by
  cases p with
  | leaf_node m vs => simp at h1
  | internal_node vs cs => rfl

theorem Node.post_part_internal (p : Node V) (h1 : p.leaf = false) (g : Nat) :
    p.post_part g = p.post_child g := by
  cases p with
  | leaf_node m vs => simp at h1
  | internal_node vs cs => rfl

theorem Node.leaf_false_of_wfc_succ (B h lo hi : Nat) (p : Node V)
    (hw : Node.wfc B (h + 1) lo hi p = true) :
    p.leaf = false ∧ p.children.length = p.count + 1
      ∧ ∀ c ∈ p.children, Node.wfc B h 1 B c = true := by
  cases p with
  | leaf_node m vs => rw [Node.wfc_leaf_iff] at hw; omega
  | internal_node vs cs =>
    rw [Node.wfc_internal_iff] at hw
    obtain ⟨h1, e, _, _, q, w⟩ := hw
    have : h1 = h := by omega
    subst this
    exact ⟨rfl, q, w⟩

namespace Btree

section RebalanceOrSplit3

variable [Inhabited V]

theorem rebalance_or_split_spec (P : Params K V) (hB : 3 ≤ P.kNodeValues) (rp : List Nat) :
    ∀ (t : Btree K V) (r : Node V) (h H : Nat) (ip : Int), t.root = some r →
      Ctx P.kNodeValues r rp h H →
      Node.wfc P.kNodeValues h P.kNodeValues P.kNodeValues (getNode r rp) = true →
      0 ≤ ip → ip ≤ P.kNodeValues →
      ∃ r1 H1, (rebalance_or_split P t rp ip).1.root = some r1
        ∧ (rebalance_or_split P t rp ip).1.comp = t.comp
        ∧ (rebalance_or_split P t rp ip).1.size_field
            = (if r.leaf then r.count else t.size_field)
        ∧ GapAt P.kNodeValues h H1 r1 (rebalance_or_split P t rp ip).2.1
            (rebalance_or_split P t rp ip).2.2 (P.kNodeValues - 1)
            (pre r rp ++ (getNode r rp).pre_part ip.toNat)
            ((getNode r rp).post_part ip.toNat ++ post r rp)
            ((getNode r rp).child ip.toNat) := by
  induction rp with
  | nil =>
    intro t r h H ip ht hc hN h0 h1
    simpa [pre, post, getNode] using rebalance_or_split_root P t r hB ht h H ip hc hN h0 h1
  | cons i prp ih =>
    intro t r h H ip ht hc hN h0 h1
    have hrl := root_internal_of_ctx _ r i prp h H hc
    have hr := root_node_of_root t r ht
    simp only [hrl, Bool.false_eq_true, if_false]
    cases hL : rebalance_with_left P t i prp ip with
    | some res =>
      obtain ⟨r1, a1, a2, a3, a4⟩ := rebalance_with_left_spec P t r hB ht h H i prp ip hc hN
        h0 h1 res hL
      have e : rebalance_or_split P t (i :: prp) ip = res := by
        simp only [rebalance_or_split, hL]
      rw [e]
      exact ⟨r1, H, a1, a2, a3, a4⟩
    | none =>
      cases hR : rebalance_with_right P t i prp ip with
      | some res =>
        obtain ⟨r1, a1, a2, a3, a4⟩ := rebalance_with_right_spec P t r hB ht h H i prp ip hc hN
          h0 h1 res hR
        have e : rebalance_or_split P t (i :: prp) ip = res := by
          simp only [rebalance_or_split, hL, hR]
        rw [e]
        exact ⟨r1, H, a1, a2, a3, a4⟩
      | none =>
        obtain ⟨p1, p2, p3, p4, p5, p6, p7⟩ := ctx_parent_facts P.kNodeValues h H r i prp hc
          (Node.wfc_mono _ h _ _ 1 _ _ (by omega) (Nat.le_refl _) hN)
        have hmaxP : (getNode r prp).max_count P.kNodeValues = P.kNodeValues :=
          Node.max_count_of_wfc _ (h + 1) 1 P.kNodeValues _
            (Node.wfc_of_parts _ h 1 _ _ p1 p2 p3 p4 p6)
        have hNN : Node.wfc P.kNodeValues h P.kNodeValues P.kNodeValues
            ((getNode r prp).child i) = true := hN
        by_cases hfull : (getNode r prp).count = P.kNodeValues
        · have e : rebalance_or_split P t (i :: prp) ip
              = split_node P (rebalance_or_split P t prp i).1 (rebalance_or_split P t prp i).2.1
                  (rebalance_or_split P t prp i).2.2.toNat ip := by
            simp only [rebalance_or_split, hL, hR, node, hr, hmaxP, hfull, if_true]
          obtain ⟨r1, H1, b1, b2, b3, g1, g2, g3, g4, g5, g6, g7⟩ := ih t r (h + 1) H (i : Int) ht
            p7 (Node.wfc_of_parts _ h _ _ _ p1 (by omega) (by omega) p4 p6) (by omega)
            (by omega)
          rw [hrl] at b3
          simp only [Bool.false_eq_true, if_false] at b3
          generalize rebalance_or_split P t prp i = res1 at e b1 b2 b3 g1 g2 g3 g4 g5 g6 g7
          obtain ⟨t1, rp1, ip1⟩ := res1
          simp only at e b1 b2 b3 g1 g2 g3 g4 g5 g6 g7
          obtain ⟨w1, w2, w3⟩ := Node.leaf_false_of_wfc_succ _ h _ _ _ g2
          have hcnt := Node.wfc_count _ _ _ _ _ g2
          simp only [Int.toNat_ofNat] at g5 g6 g7
          rw [Node.pre_part_internal _ w1] at g5
          rw [Node.pre_part_internal _ p1] at g5
          rw [Node.post_part_internal _ w1] at g6
          rw [Node.post_part_internal _ p1] at g6
          obtain ⟨r2, s1, s2, s3, s4⟩ := split_node_spec P t1 r1 hB b1 h H1 rp1 ip1.toNat ip g1
            g2 (by omega) (by rw [g7]; exact hNN) h0 h1
          rw [e]
          refine ⟨r2, H1, s1, by rw [s2, b2], by rw [s3, b3], ?_⟩
          rw [g7] at s4
          have l1 : pre r1 rp1 ++ ((getNode r1 rp1).pre_child ip1.toNat
              ++ ((getNode r prp).child i).pre_part ip.toNat)
              = pre r (i :: prp) ++ (getNode r (i :: prp)).pre_part ip.toNat := by
            rw [← List.append_assoc, g5]
            simp only [pre, getNode]
          have l2 : (((getNode r prp).child i).post_part ip.toNat
              ++ (getNode r1 rp1).post_child ip1.toNat) ++ post r1 rp1
              = (getNode r (i :: prp)).post_part ip.toNat ++ post r (i :: prp) := by
            rw [List.append_assoc, g6]
            simp only [post, getNode]
          rw [l1, l2] at s4
          exact s4
        · have e : rebalance_or_split P t (i :: prp) ip = split_node P t prp i ip := by
            simp only [rebalance_or_split, hL, hR, node, hr, hmaxP, hfull, if_false]
            rfl
          obtain ⟨r2, s1, s2, s3, s4⟩ := split_node_spec P t r hB ht h H prp i ip p7
            (Node.wfc_of_parts _ h _ _ _ p1 (by omega) (by omega) p4 p6) p5 hNN h0 h1
          rw [e]
          refine ⟨r2, H, s1, s2, s3, ?_⟩
          simpa [pre, post, getNode, List.append_assoc] using s4

end RebalanceOrSplit3

end Btree

end CppBtree

namespace CppBtree

variable {K V : Type}

namespace Node

theorem leaf_of_wfc_zero (B lo hi : Nat) (n : Node V) (hw : wfc B 0 lo hi n = true) :
    ∃ vs, n = leaf_node B vs ∧ lo ≤ vs.length ∧ vs.length ≤ hi := by
  cases n with
  | leaf_node m vs =>
    rw [wfc_leaf_iff] at hw
    obtain ⟨_, rfl, a, b⟩ := hw
    exact ⟨vs, rfl, a, b⟩
  | internal_node vs cs =>
    rw [wfc_internal_iff] at hw
    obtain ⟨h1, e, _⟩ := hw
    omega

end Node

theorem getD_insert_at {α : Type} (vs : List α) (x d : α) (i : Nat) (h : i ≤ vs.length) :
    (vs.take i ++ x :: vs.drop i).getD i d = x :=
  getD_app_len _ _ _ _ _ (by simp; omega)

namespace Btree

section Insert

variable [Inhabited V]

theorem insert_at_gap (P : Params K V) (t : Btree K V) (r1 : Node V) (H : Nat)
    (rp : List Nat) (ip : Int) (l1 l2 : List V) (c : Node V) (v : V)
    (hB : 1 ≤ P.kNodeValues) (ht : t.root = some r1)
    (hg : GapAt P.kNodeValues 0 H r1 rp ip (P.kNodeValues - 1) l1 l2 c) :
    ∃ r2, (t.set_node rp ((t.node rp).insert_value ip.toNat v)).root = some r2
      ∧ Node.wf_root P.kNodeValues H r2 = true
      ∧ r2.inorder = l1 ++ v :: l2
      ∧ ValidPath r2 rp
      ∧ (getNode r2 rp).leaf = true
      ∧ ip < (getNode r2 rp).count
      ∧ pre r2 rp ++ (getNode r2 rp).pre_part ip.toNat = l1
      ∧ (getNode r2 rp).post_part ip.toNat ++ post r2 rp = v :: l2
      ∧ (getNode r2 rp).value ip.toNat = v := by
  have hr := root_node_of_root t r1 ht
  obtain ⟨g1, g2, g3, g4, g5, g6, g7⟩ := hg
  obtain ⟨vs, e, _, hlen⟩ := Node.leaf_of_wfc_zero _ _ _ _ g2
  have hv := validPath_of_ctx _ _ _ _ _ g1
  rw [e] at g4 g5 g6
  simp only [Node.count_leaf] at g4
  have hip : ip.toNat ≤ vs.length := by omega
  have e2 : (getNode r1 rp).insert_value ip.toNat v
      = Node.leaf_node P.kNodeValues (vs.take ip.toNat ++ v :: vs.drop ip.toNat) := by
    rw [e]
    exact Node.insert_value_leaf _ _ _ _ hip
  refine ⟨setNode r1 rp ((getNode r1 rp).insert_value ip.toNat v), ?_, ?_, ?_, ?_, ?_, ?_, ?_,
    ?_, ?_⟩
  · simp only [set_node_root, node, hr]
  · apply wf_fill _ _ _ 0 _ _ g1
    rw [e2, Node.wfc_leaf_iff]
    simp
    omega
  · rw [inorder_setNode _ _ _ _ _ _ g1, e2]
    simp only [Node.inorder_leaf, Node.pre_part, Node.post_part] at g5 g6 ⊢
    rw [← g5, ← g6]
    simp
  · exact validPath_setNode _ _ _ hv
  · rw [getNode_setNode _ _ _ hv, e2]
    rfl
  · rw [getNode_setNode _ _ _ hv, e2]
    simp
    omega
  · rw [getNode_setNode _ _ _ hv, e2, pre_setNode _ _ _ hv, ← g5]
    simp only [Node.pre_part]
    rw [take_app_len _ _ _ (by simp; omega)]
  · rw [getNode_setNode _ _ _ hv, e2, post_setNode _ _ _ hv, ← g6]
    simp only [Node.post_part]
    rw [drop_app_len _ _ _ (by simp; omega)]
    simp
  · rw [getNode_setNode _ _ _ hv, e2]
    simp only [Node.value, Node.values_leaf]
    exact getD_insert_at _ _ _ _ hip

end Insert

end Btree

end CppBtree

namespace CppBtree

variable {K V : Type}

namespace Btree

section Insert2

variable [Inhabited V]

theorem inorder_of_root (t : Btree K V) (r : Node V) (h : t.root = some r) :
    t.inorder = r.inorder := by
  simp [inorder, h]

theorem shaped_of_root (P : Params K V) (t : Btree K V) (r : Node V) (h : t.root = some r) :
    Shaped P t ↔ (Node.wf_root P.kNodeValues (r.height - 1) r = true
      ∧ (r.leaf = false → t.size_field = r.inorder.length)) := by
  simp [Shaped, h]

theorem shaped_intro (P : Params K V) (t : Btree K V) (r : Node V) (H : Nat)
    (h : t.root = some r) (hw : Node.wf_root P.kNodeValues H r = true)
    (hs : r.leaf = false → t.size_field = r.inorder.length) : Shaped P t := by
  rw [shaped_of_root P t r h]
  have := Node.height_of_wf_root _ _ _ hw
  refine ⟨?_, hs⟩
  rw [this]
  exact hw

/-- Insertion at a leaf position of a node that is well shaped with full capacity. -/
theorem internal_insert_general (P : Params K V) (t : Btree K V) (r : Node V) (H : Nat)
    (rp : List Nat) (pos : Int) (v : V) (hB : 3 ≤ P.kNodeValues) (ht : t.root = some r)
    (hc : Ctx P.kNodeValues r rp 0 H)
    (hN : Node.wfc P.kNodeValues 0 1 P.kNodeValues (getNode r rp) = true)
    (h0 : 0 ≤ pos) (h1 : pos ≤ (getNode r rp).count)
    (hs : r.leaf = false → t.size_field = r.inorder.length) :
    ∃ r2 H2 rp2 pos2, (internal_insert P t ⟨some rp, pos⟩ v).1.root = some r2
      ∧ (internal_insert P t ⟨some rp, pos⟩ v).2 = ⟨some rp2, pos2⟩
      ∧ (internal_insert P t ⟨some rp, pos⟩ v).1.comp = t.comp
      ∧ Node.wf_root P.kNodeValues H2 r2 = true
      ∧ (r2.leaf = false → (internal_insert P t ⟨some rp, pos⟩ v).1.size_field
          = r2.inorder.length)
      ∧ r2.inorder = (pre r rp ++ (getNode r rp).pre_part pos.toNat)
          ++ v :: ((getNode r rp).post_part pos.toNat ++ post r rp)
      ∧ ValidPath r2 rp2
      ∧ (getNode r2 rp2).leaf = true
      ∧ 0 ≤ pos2 ∧ pos2 < (getNode r2 rp2).count
      ∧ pre r2 rp2 ++ (getNode r2 rp2).pre_part pos2.toNat
          = pre r rp ++ (getNode r rp).pre_part pos.toNat
      ∧ (getNode r2 rp2).post_part pos2.toNat ++ post r2 rp2
          = v :: ((getNode r rp).post_part pos.toNat ++ post r rp)
      ∧ (getNode r2 rp2).value pos2.toNat = v := by
  have hr := root_node_of_root t r ht
  obtain ⟨vs, e, hlo, hhi⟩ := Node.leaf_of_wfc_zero _ _ _ _ hN
  have hleaf : (getNode r rp).leaf = true := by rw [e]; rfl
  have hmax : (getNode r rp).max_count P.kNodeValues = P.kNodeValues := by rw [e]; rfl
  have hcount : (getNode r rp).count = vs.length := by rw [e]; rfl
  have hio : r.inorder = (pre r rp ++ (getNode r rp).pre_part pos.toNat)
      ++ ((getNode r rp).post_part pos.toNat ++ post r rp) := by
    rw [inorder_eq_pre_post _ _ _ _ _ hc, e]
    simp only [Node.pre_part, Node.post_part, Node.inorder_leaf, List.append_assoc]
    rw [← List.append_assoc (List.take pos.toNat vs), List.take_append_drop]
  by_cases hfull : vs.length = P.kNodeValues
  · -- the node is full: rebalance or split first
    have e1 : internal_insert P t ⟨some rp, pos⟩ v
        = (((rebalance_or_split P t rp pos).1.with_size
              ((rebalance_or_split P t rp pos).1.size_field + 1)).set_node
              (rebalance_or_split P t rp pos).2.1
              ((((rebalance_or_split P t rp pos).1.with_size
                ((rebalance_or_split P t rp pos).1.size_field + 1)).node
                (rebalance_or_split P t rp pos).2.1).insert_value
                (rebalance_or_split P t rp pos).2.2.toNat v),
            ⟨some (rebalance_or_split P t rp pos).2.1, (rebalance_or_split P t rp pos).2.2⟩) := by
      simp only [internal_insert, Iter.path, Option.getD_some, node, hr, hleaf, if_true, hmax,
        hcount, hfull, lt_irrefl, if_false]
    obtain ⟨r1, H1, b1, b2, b3, g⟩ := rebalance_or_split_spec P hB rp t r 0 H pos ht hc
      (by rw [e, Node.wfc_leaf_iff]; omega) h0 (by omega)
    rw [e1]
    generalize rebalance_or_split P t rp pos = res at b1 b2 b3 g
    obtain ⟨t1, rp1, ip1⟩ := res
    simp only at b1 b2 b3 g ⊢
    obtain ⟨r2, c1, c2, c3, c4, c5, c6, c7, c8, c9⟩ := insert_at_gap P
      (t1.with_size (t1.size_field + 1)) r1 H1 rp1 ip1 _ _ _ v (by omega) b1 g
    refine ⟨r2, H1, rp1, ip1, c1, rfl, by simpa using b2, c2, ?_, c3, c4, c5, g.2.2.1, c6, c7, c8,
      c9⟩
    intro _
    simp only [set_node_size_field, with_size_size_field, b3, c3]
    by_cases hl : r.leaf = true
    · simp only [hl, if_true]
      have : r.inorder.length = r.count := by
        cases r with
        | leaf_node m ws => rfl
        | internal_node ws cs => simp at hl
      have h2 := congrArg List.length hio
      simp only [List.length_append, List.length_cons] at h2 ⊢
      omega
    · simp only [hl, Bool.false_eq_true, if_false]
      have h3 := hs (by simpa using hl)
      have h2 := congrArg List.length hio
      simp only [List.length_append, List.length_cons] at h2 ⊢
      omega
  · -- there is room in the node
    have e1 : internal_insert P t ⟨some rp, pos⟩ v
        = (((if r.leaf then t else t.with_size (t.size_field + 1)).set_node rp
            (((if r.leaf then t else t.with_size (t.size_field + 1)).node rp).insert_value
              pos.toNat v)), ⟨some rp, pos⟩) := by
      simp only [internal_insert, Iter.path, Option.getD_some, node, hr, hleaf, if_true, hmax,
        hcount, hfull, if_false]
    have hg : GapAt P.kNodeValues 0 H r rp pos (P.kNodeValues - 1)
        (pre r rp ++ (getNode r rp).pre_part pos.toNat)
        ((getNode r rp).post_part pos.toNat ++ post r rp) ((getNode r rp).child pos.toNat) := by
      refine ⟨hc, ?_, h0, h1, rfl, rfl, rfl⟩
      rw [e, Node.wfc_leaf_iff]
      omega
    rw [e1]
    have ht2 : (if r.leaf then t else t.with_size (t.size_field + 1)).root = some r := by
      split <;> simp [ht]
    obtain ⟨r2, c1, c2, c3, c4, c5, c6, c7, c8, c9⟩ := insert_at_gap P
      (if r.leaf then t else t.with_size (t.size_field + 1)) r H rp pos _ _ _ v (by omega) ht2 hg
    refine ⟨r2, H, rp, pos, c1, rfl, ?_, c2, ?_, c3, c4, c5, h0, c6, c7, c8, c9⟩
    · simp only [set_node_comp]
      split <;> rfl
    · intro hl2
      have hrl : r.leaf = false := by
        cases rp with
        | nil =>
          simp only [set_node_root, Option.some.injEq] at c1
          rw [← c1] at hl2
          simp only [setNode, node, getNode] at hl2
          split at hl2
          · simp only [getNode] at e
            rw [hr, e, Node.insert_value_leaf _ _ _ _ (by rw [hcount] at h1; omega)] at hl2
            simp at hl2
          · rename_i hh
            simpa using hh
        | cons i prp => exact root_internal_of_ctx _ _ _ _ _ _ hc
      simp only [hrl, Bool.false_eq_true, if_false, set_node_size_field, with_size_size_field,
        c3]
      have h3 := hs hrl
      have h2 := congrArg List.length hio
      simp only [List.length_append, List.length_cons] at h2 ⊢
      omega

end Insert2

end Btree

end CppBtree

namespace CppBtree

variable {K V : Type}

namespace Node

theorem pre_part_leaf_node (n : Node V) (hl : n.leaf = true) (g : Nat) :
    n.pre_part g = n.values.take g := by
  cases n with
  | leaf_node m vs => rfl
  | internal_node vs cs => simp at hl

theorem post_part_leaf_node (n : Node V) (hl : n.leaf = true) (g : Nat) :
    n.post_part g = n.values.drop g := by
  cases n with
  | leaf_node m vs => rfl
  | internal_node vs cs => simp at hl

theorem mid_part_leaf_node (n : Node V) (hl : n.leaf = true) (g : Nat) :
    n.mid_part g = [] := by
  cases n with
  | leaf_node m vs => rfl
  | internal_node vs cs => simp at hl

end Node

namespace Btree

section Insert3

variable [Inhabited V]

theorem internal_insert_leaf (P : Params K V) (t : Btree K V) (iter : Iter) (v : V)
    (l1 l2 : List V) (hB : 3 ≤ P.kNodeValues) (hS : Shaped P t) (hsp : Splits t iter l1 l2)
    (hl : (t.node iter.path).leaf = true) :
    InsertedAt P t (internal_insert P t iter v).1 (internal_insert P t iter v).2 l1 v l2 := by
  obtain ⟨rp, e1, e2, hv, h0, h1, q1, q2⟩ := hsp
  obtain ⟨inode, pos⟩ := iter
  simp only at e1 h0 h1 q1 q2
  subst e1
  simp only [Iter.path, Option.getD_some] at hl
  obtain ⟨r, ht⟩ := Option.isSome_iff_exists.mp e2
  have hr := root_node_of_root t r ht
  rw [shaped_of_root P t r ht] at hS
  obtain ⟨hw, hs⟩ := hS
  simp only [node, hr] at hl h1 q1 q2 hv
  rw [Node.mid_part_leaf_node _ hl, List.append_nil] at q1
  obtain ⟨h, hc, hN⟩ := ctx_of_wf _ _ _ _ hw hv
  -- the case of a node with full capacity
  have general : Node.wfc P.kNodeValues h 1 P.kNodeValues (getNode r rp) = true →
      InsertedAt P t (internal_insert P t ⟨some rp, pos⟩ v).1
        (internal_insert P t ⟨some rp, pos⟩ v).2 l1 v l2 := by
    intro hN2
    have hz : h = 0 := (Node.wfc_leaf_zero _ _ _ _ _ hN2).mp hl
    subst hz
    obtain ⟨r2, H2, rp2, pos2, a1, a2, a3, a4, a5, a6, a7, a8, a9, a10, a11, a12, a13⟩ :=
      internal_insert_general P t r _ rp pos v hB ht hc hN2 h0 h1 hs
    rw [q1] at a6 a11
    rw [q2] at a6 a12
    have hr2 := root_node_of_root _ r2 a1
    refine ⟨a3, shaped_intro P _ r2 H2 a1 a4 a5, ?_, ?_, ?_, ?_⟩
    · rw [inorder_of_root _ _ a1, a6]
    · rw [a2]
      exact ⟨rp2, rfl, by simp [a1], by rwa [hr2], a9, by simpa [node, hr2] using a10⟩
    · rw [a2]
      refine ⟨rp2, rfl, by simp [a1], by rwa [hr2], a9, by simp only [node, hr2]; omega, ?_, ?_⟩
      · simp only [node, hr2]
        rw [Node.mid_part_leaf_node _ a8, List.append_nil]
        exact a11
      · simp only [node, hr2]
        exact a12
    · rw [a2]
      simp only [deref, Iter.path, Option.getD_some, node, hr2]
      exact a13
  cases rp with
  | cons i prp => exact general (hN (by simp))
  | nil =>
    simp only [getNode] at hl h1 q1 q2
    cases r with
    | internal_node ws cs => simp at hl
    | leaf_node m vs =>
      simp only [Node.wf_root, Bool.and_eq_true, decide_eq_true_eq] at hw
      obtain ⟨⟨⟨_, w1⟩, w2⟩, w3⟩ := hw
      by_cases hm : m = P.kNodeValues
      · apply general
        simp only [getNode]
        rw [Node.wfc_leaf_iff]
        simp only [Ctx] at hc
        omega
      · simp only [pre, post, List.nil_append, List.append_nil, Node.pre_part, Node.post_part,
          Node.count_leaf] at q1 q2 h1
        have hp : pos.toNat ≤ vs.length := by omega
        by_cases hfull : vs.length = m
        · have e : internal_insert P t ⟨some [], pos⟩ v
              = ((t.with_root (some (Node.leaf_node (min P.kNodeValues (2 * m))
                  (vs.take pos.toNat ++ v :: vs.drop pos.toNat)))), ⟨some [], pos⟩) := by
            simp only [internal_insert, Iter.path, Option.getD_some, node, hr, getNode,
              Node.leaf_leaf, if_true, Node.count_leaf, Node.max_count_leaf, hfull,
              show m < P.kNodeValues by omega, set_node, with_root_root_node, setNode,
              Node.values_leaf]
            rw [Node.insert_value_leaf _ _ _ _ hp]
            rfl
          rw [e]
          refine ⟨rfl, ?_, ?_, ?_, ?_, ?_⟩
          · apply shaped_intro P _ _ 0 rfl
            · simp [Node.wf_root]
              omega
            · intro hh
              simp at hh
          · simp [inorder, q1, q2]
          · exact ⟨[], rfl, rfl, trivial, h0, by simp [node, getNode]; omega⟩
          · refine ⟨[], rfl, rfl, trivial, h0, by simp [node, getNode]; omega, ?_, ?_⟩
            · simp only [node, with_root_root_node, getNode, pre, Node.pre_part, Node.mid_part,
                List.nil_append, List.append_nil]
              rw [take_app_len _ _ _ (by simp; omega)]
              exact q1
            · simp only [node, with_root_root_node, getNode, post, Node.post_part,
                List.append_nil]
              rw [drop_app_len _ _ _ (by simp; omega), q2]
          · simp only [deref, Iter.path, Option.getD_some, node, with_root_root_node, getNode,
              Node.value, Node.values_leaf]
            exact getD_insert_at _ _ _ _ hp
        · have e : internal_insert P t ⟨some [], pos⟩ v
              = ((t.with_root (some (Node.leaf_node m
                  (vs.take pos.toNat ++ v :: vs.drop pos.toNat)))), ⟨some [], pos⟩) := by
            simp only [internal_insert, Iter.path, Option.getD_some, node, hr, getNode,
              Node.leaf_leaf, if_true, Node.count_leaf, Node.max_count_leaf, hfull, if_false,
              set_node, setNode]
            rw [Node.insert_value_leaf _ _ _ _ hp]
          rw [e]
          refine ⟨rfl, ?_, ?_, ?_, ?_, ?_⟩
          · apply shaped_intro P _ _ 0 rfl
            · simp [Node.wf_root]
              omega
            · intro hh
              simp at hh
          · simp [inorder, q1, q2]
          · exact ⟨[], rfl, rfl, trivial, h0, by simp [node, getNode]; omega⟩
          · refine ⟨[], rfl, rfl, trivial, h0, by simp [node, getNode]; omega, ?_, ?_⟩
            · simp only [node, with_root_root_node, getNode, pre, Node.pre_part, Node.mid_part,
                List.nil_append, List.append_nil]
              rw [take_app_len _ _ _ (by simp; omega)]
              exact q1
            · simp only [node, with_root_root_node, getNode, post, Node.post_part,
                List.append_nil]
              rw [drop_app_len _ _ _ (by simp; omega), q2]
          · simp only [deref, Iter.path, Option.getD_some, node, with_root_root_node, getNode,
              Node.value, Node.values_leaf]
            exact getD_insert_at _ _ _ _ hp

end Insert3

end Btree

end CppBtree

namespace CppBtree

variable {K V : Type}

namespace Node

section Search

variable [Inhabited V] (key : V → K) (comp : K → K → Int) (n : Node V) (k : K)

/-- The index returned by the binary search with `WithEqual` on: below it the keys are less
than `k`, from it on they are not. -/
theorem binary_search_lower
    (hp : ∀ i j, i ≤ j → j < n.count → comp (key (n.value j)) k < 0 →
      comp (key (n.value i)) k < 0) :
    ∀ (fuel s e : Nat), s ≤ e → e ≤ n.count → e - s < fuel →
      (∀ i, i < s → comp (key (n.value i)) k < 0) →
      (∀ i, e ≤ i → i < n.count → ¬ comp (key (n.value i)) k < 0) →
      s ≤ (binary_search_compare key comp true n k fuel s e).index
        ∧ (binary_search_compare key comp true n k fuel s e).index ≤ e
        ∧ (∀ i, i < (binary_search_compare key comp true n k fuel s e).index →
            comp (key (n.value i)) k < 0)
        ∧ (∀ i, (binary_search_compare key comp true n k fuel s e).index ≤ i → i < n.count →
            ¬ comp (key (n.value i)) k < 0) := by
  intro fuel
  induction fuel with
  | zero => intro s e _ _ h; omega
  | succ fuel ih =>
    intro s e hse he hf hs hE
    unfold binary_search_compare
    by_cases hne : s = e
    · subst hne
      simp only [ne_eq, not_true_eq_false, if_false]
      exact ⟨Nat.le_refl _, Nat.le_refl _, hs, hE⟩
    · have hmid1 : s ≤ (s + e) / 2 := by omega
      have hmid2 : (s + e) / 2 < e := by omega
      simp only [ne_eq, hne, not_false_eq_true, if_true]
      by_cases c1 : comp (key (n.value ((s + e) / 2))) k < 0
      · simp only [c1, if_true]
        obtain ⟨a1, a2, a3, a4⟩ := ih ((s + e) / 2 + 1) e (by omega) he (by omega)
          (fun i hi => hp i ((s + e) / 2) (by omega) (by omega) c1) hE
        exact ⟨by omega, a2, a3, a4⟩
      · simp only [c1, if_false]
        have hE2 : ∀ i, (s + e) / 2 ≤ i → i < n.count → ¬ comp (key (n.value i)) k < 0 :=
          fun i hi hic hlt => c1 (hp _ i hi hic hlt)
        obtain ⟨a1, a2, a3, a4⟩ := ih s ((s + e) / 2) hmid1 (by omega) (by omega) hs hE2
        by_cases c2 : comp (key (n.value ((s + e) / 2))) k > 0
        · simp only [c2, if_true]
          exact ⟨a1, by omega, a3, a4⟩
        · simp only [c2, if_false, if_true]
          exact ⟨a1, by omega, a3, a4⟩

/-- Exactness of the binary search with `WithEqual` on. -/
theorem binary_search_exact
    (hp : ∀ i j, i ≤ j → j < n.count → comp (key (n.value j)) k < 0 →
      comp (key (n.value i)) k < 0)
    (hq : ∀ i j, i ≤ j → j < n.count → comp (key (n.value i)) k > 0 →
      comp (key (n.value j)) k > 0) :
    ∀ (fuel s e : Nat), s ≤ e → e ≤ n.count → e - s < fuel →
      (∀ i, i < s → comp (key (n.value i)) k < 0) →
      (∀ i, e ≤ i → i < n.count → comp (key (n.value i)) k > 0) →
      ((binary_search_compare key comp true n k fuel s e).is_exact_match = true →
          (binary_search_compare key comp true n k fuel s e).index < n.count
          ∧ comp (key (n.value (binary_search_compare key comp true n k fuel s e).index)) k = 0)
        ∧ ((binary_search_compare key comp true n k fuel s e).is_exact_match = false →
          ∀ i, (binary_search_compare key comp true n k fuel s e).index ≤ i → i < n.count →
            comp (key (n.value i)) k > 0) := by
  intro fuel
  induction fuel with
  | zero => intro s e _ _ h; omega
  | succ fuel ih =>
    intro s e hse he hf hs hE
    unfold binary_search_compare
    by_cases hne : s = e
    · subst hne
      simp only [ne_eq, not_true_eq_false, if_false]
      exact ⟨fun h => by simp at h, fun _ => hE⟩
    · have hmid1 : s ≤ (s + e) / 2 := by omega
      have hmid2 : (s + e) / 2 < e := by omega
      simp only [ne_eq, hne, not_false_eq_true, if_true]
      by_cases c1 : comp (key (n.value ((s + e) / 2))) k < 0
      · simp only [c1, if_true]
        exact ih ((s + e) / 2 + 1) e (by omega) he (by omega)
          (fun i hi => hp i ((s + e) / 2) (by omega) (by omega) c1) hE
      · simp only [c1, if_false]
        by_cases c2 : comp (key (n.value ((s + e) / 2))) k > 0
        · simp only [c2, if_true]
          exact ih s ((s + e) / 2) hmid1 (by omega) (by omega) hs
            (fun i hi hic => hq _ i hi hic c2)
        · simp only [c2, if_false, if_true]
          have hE2 : ∀ i, (s + e) / 2 ≤ i → i < n.count → ¬ comp (key (n.value i)) k < 0 :=
            fun i hi hic hlt => c1 (hp _ i hi hic hlt)
          obtain ⟨a1, a2, a3, a4⟩ := binary_search_lower key comp n k hp fuel s ((s + e) / 2)
            hmid1 (by omega) (by omega) hs hE2
          refine ⟨fun _ => ⟨by omega, ?_⟩, fun h => by simp at h⟩
          have g1 := a4 _ (Nat.le_refl _) (by omega)
          have g2 : ¬ comp (key (n.value
              (binary_search_compare key comp true n k fuel s ((s + e) / 2)).index)) k > 0 :=
            fun hgt => c2 (hq _ _ a2 (by omega) hgt)
          omega

/-- The index returned by the binary search with `WithEqual` off: below it the keys are not
greater than `k`, from it on they are greater. -/
theorem binary_search_upper
    (hq : ∀ i j, i ≤ j → j < n.count → comp (key (n.value i)) k > 0 →
      comp (key (n.value j)) k > 0) :
    ∀ (fuel s e : Nat), s ≤ e → e ≤ n.count → e - s < fuel →
      (∀ i, i < s → ¬ comp (key (n.value i)) k > 0) →
      (∀ i, e ≤ i → i < n.count → comp (key (n.value i)) k > 0) →
      s ≤ (binary_search_compare key comp false n k fuel s e).index
        ∧ (binary_search_compare key comp false n k fuel s e).index ≤ e
        ∧ (∀ i, i < (binary_search_compare key comp false n k fuel s e).index →
            ¬ comp (key (n.value i)) k > 0)
        ∧ (∀ i, (binary_search_compare key comp false n k fuel s e).index ≤ i → i < n.count →
            comp (key (n.value i)) k > 0) := by
  intro fuel
  induction fuel with
  | zero => intro s e _ _ h; omega
  | succ fuel ih =>
    intro s e hse he hf hs hE
    unfold binary_search_compare
    by_cases hne : s = e
    · subst hne
      simp only [ne_eq, not_true_eq_false, if_false]
      exact ⟨Nat.le_refl _, Nat.le_refl _, hs, hE⟩
    · have hmid1 : s ≤ (s + e) / 2 := by omega
      have hmid2 : (s + e) / 2 < e := by omega
      simp only [ne_eq, hne, not_false_eq_true, if_true]
      have right : ¬ comp (key (n.value ((s + e) / 2))) k > 0 →
          ∀ i, i < (s + e) / 2 + 1 → ¬ comp (key (n.value i)) k > 0 :=
        fun c i hi hgt => c (hq i _ (by omega) (by omega) hgt)
      by_cases c1 : comp (key (n.value ((s + e) / 2))) k < 0
      · simp only [c1, if_true]
        obtain ⟨a1, a2, a3, a4⟩ := ih ((s + e) / 2 + 1) e (by omega) he (by omega)
          (right (by omega)) hE
        exact ⟨by omega, a2, a3, a4⟩
      · simp only [c1, if_false]
        by_cases c2 : comp (key (n.value ((s + e) / 2))) k > 0
        · simp only [c2, if_true]
          obtain ⟨a1, a2, a3, a4⟩ := ih s ((s + e) / 2) hmid1 (by omega) (by omega) hs
            (fun i hi hic => hq _ i hi hic c2)
          exact ⟨a1, by omega, a3, a4⟩
        · simp only [c2, if_false, Bool.false_eq_true]
          obtain ⟨a1, a2, a3, a4⟩ := ih ((s + e) / 2 + 1) e (by omega) he (by omega)
            (right c2) hE
          exact ⟨by omega, a2, a3, a4⟩

end Search

end Node

end CppBtree

namespace CppBtree

variable {K V : Type}

theorem forall_mem_take {α : Type} (l : List α) (d : α) (idx : Nat) (Q : α → Prop)
    (h : ∀ i, i < idx → i < l.length → Q (l.getD i d)) : ∀ x ∈ l.take idx, Q x := by
  intro x hx
  obtain ⟨i, hi, rfl⟩ := List.getElem_of_mem hx
  simp only [List.length_take, lt_min_iff] at hi
  have := h i hi.1 hi.2
  rw [List.getD_eq_getElem _ _ hi.2] at this
  simpa using this

theorem forall_mem_drop {α : Type} (l : List α) (d : α) (idx : Nat) (Q : α → Prop)
    (h : ∀ i, idx ≤ i → i < l.length → Q (l.getD i d)) : ∀ x ∈ l.drop idx, Q x := by
  intro x hx
  obtain ⟨i, hi, rfl⟩ := List.getElem_of_mem hx
  simp only [List.length_drop] at hi
  have := h (idx + i) (by omega) (by omega)
  rw [List.getD_eq_getElem _ _ (by omega)] at this
  simpa using this

theorem pairwise_getD {α : Type} (l : List α) (d : α) (R : α → α → Prop)
    (h : l.Pairwise R) (i j : Nat) (hij : i < j) (hj : j < l.length) :
    R (l.getD i d) (l.getD j d) := by
  rw [List.getD_eq_getElem _ _ (by omega), List.getD_eq_getElem _ _ hj]
  exact List.pairwise_iff_getElem.mp h i j (by omega) hj hij

namespace Node

section Search2

variable [Inhabited V] (key : V → K) (comp : K → K → Int) (n : Node V) (k : K)

theorem lower_bound_spec
    (hp : n.values.Pairwise (fun x y => comp (key y) k < 0 → comp (key x) k < 0)) :
    (n.lower_bound key comp k).index ≤ n.count
      ∧ (∀ x ∈ n.values.take (n.lower_bound key comp k).index, comp (key x) k < 0)
      ∧ (∀ x ∈ n.values.drop (n.lower_bound key comp k).index, ¬ comp (key x) k < 0) := by
  have hp2 : ∀ i j, i ≤ j → j < n.count → comp (key (n.value j)) k < 0 →
      comp (key (n.value i)) k < 0 := by
    intro i j hij hj hlt
    by_cases e : i = j
    · subst e; exact hlt
    · exact pairwise_getD _ _ _ hp i j (by omega) hj hlt
  obtain ⟨a1, a2, a3, a4⟩ := binary_search_lower key comp n k hp2 (n.count + 1) 0 n.count
    (Nat.zero_le _) (Nat.le_refl _) (by omega) (fun i hi => by omega)
    (fun i hi hic => by omega)
  refine ⟨a2, ?_, ?_⟩
  · exact forall_mem_take _ default _ _ (fun i hi _ => a3 i hi)
  · exact forall_mem_drop _ default _ _ (fun i hi hic => a4 i hi hic)

theorem lower_bound_exact
    (hp : n.values.Pairwise (fun x y => comp (key y) k < 0 → comp (key x) k < 0))
    (hq : n.values.Pairwise (fun x y => comp (key x) k > 0 → comp (key y) k > 0)) :
    ((n.lower_bound key comp k).is_exact_match = true →
        (n.lower_bound key comp k).index < n.count
        ∧ comp (key (n.value (n.lower_bound key comp k).index)) k = 0)
      ∧ ((n.lower_bound key comp k).is_exact_match = false →
        ∀ x ∈ n.values.drop (n.lower_bound key comp k).index, comp (key x) k > 0) := by
  have hp2 : ∀ i j, i ≤ j → j < n.count → comp (key (n.value j)) k < 0 →
      comp (key (n.value i)) k < 0 := by
    intro i j hij hj hlt
    by_cases e : i = j
    · subst e; exact hlt
    · exact pairwise_getD _ _ _ hp i j (by omega) hj hlt
  have hq2 : ∀ i j, i ≤ j → j < n.count → comp (key (n.value i)) k > 0 →
      comp (key (n.value j)) k > 0 := by
    intro i j hij hj hlt
    by_cases e : i = j
    · subst e; exact hlt
    · exact pairwise_getD _ _ _ hq i j (by omega) hj hlt
  obtain ⟨a1, a2⟩ := binary_search_exact key comp n k hp2 hq2 (n.count + 1) 0 n.count
    (Nat.zero_le _) (Nat.le_refl _) (by omega) (fun i hi => by omega)
    (fun i hi hic => by omega)
  refine ⟨a1, fun h => ?_⟩
  exact forall_mem_drop _ default _ _ (fun i hi hic => a2 h i hi hic)

theorem upper_bound_spec
    (hq : n.values.Pairwise (fun x y => comp (key x) k > 0 → comp (key y) k > 0)) :
    (n.upper_bound key comp k).index ≤ n.count
      ∧ (∀ x ∈ n.values.take (n.upper_bound key comp k).index, ¬ comp (key x) k > 0)
      ∧ (∀ x ∈ n.values.drop (n.upper_bound key comp k).index, comp (key x) k > 0) := by
  have hq2 : ∀ i j, i ≤ j → j < n.count → comp (key (n.value i)) k > 0 →
      comp (key (n.value j)) k > 0 := by
    intro i j hij hj hlt
    by_cases e : i = j
    · subst e; exact hlt
    · exact pairwise_getD _ _ _ hq i j (by omega) hj hlt
  obtain ⟨a1, a2, a3, a4⟩ := binary_search_upper key comp n k hq2 (n.count + 1) 0 n.count
    (Nat.zero_le _) (Nat.le_refl _) (by omega) (fun i hi => by omega)
    (fun i hi hic => by omega)
  refine ⟨a2, ?_, ?_⟩
  · exact forall_mem_take _ default _ _ (fun i hi _ => a3 i hi)
  · exact forall_mem_drop _ default _ _ (fun i hi hic => a4 i hi hic)

end Search2

end Node

end CppBtree

namespace CppBtree

variable {K V : Type}

theorem join_cv_all (p : V → Prop) (As : List (List V)) (a rest : List V)
    (hA : As.length = a.length)
    (hpw : (join_cv As a ++ rest).Pairwise (fun x y => p y → p x))
    (ha : ∀ y ∈ a, p y) : ∀ x ∈ join_cv As a, p x := by
  rcases List.eq_nil_or_concat a with rfl | ⟨a1, v, rfl⟩
  · have : As = [] := by simpa using hA
    subst this
    simp [join_cv]
  · rcases List.eq_nil_or_concat As with rfl | ⟨As1, c, rfl⟩
    · simp at hA
    · simp only [List.concat_eq_append] at hA hpw ha ⊢
      rw [join_cv_snoc _ _ _ _ (by simpa using hA)] at hpw ⊢
      have hv : p v := ha v (by simp)
      have h1 := (List.pairwise_append.mp hpw).1
      have h2 := (List.pairwise_append.mp h1).2.2
      intro x hx
      rcases List.mem_append.mp hx with hx1 | hx1
      · exact h2 x hx1 v (by simp) hv
      · simp only [List.mem_singleton] at hx1
        subst hx1
        exact hv

theorem join_vc_all (q : V → Prop) (z : List V) (Zs : List (List V)) (front : List V)
    (hpw : (front ++ join_vc z Zs).Pairwise (fun x y => q x → q y))
    (hz : ∀ y ∈ z, q y) : ∀ x ∈ join_vc z Zs, q x := by
  have h1 := (List.pairwise_append.mp hpw).2.1
  cases z with
  | nil => simp [join_vc]
  | cons v vs =>
    have hv : q v := hz v (by simp)
    cases Zs with
    | nil =>
      simp only [join_vc]
      exact hz
    | cons c cs =>
      simp only [join_vc] at h1 ⊢
      intro x hx
      rcases List.mem_cons.mp hx with rfl | hx1
      · exact hv
      · exact (List.pairwise_cons.mp h1).1 x hx1 hv

theorem sublist_join_cv (As : List (List V)) (a : List V) : a.Sublist (join_cv As a) := by
  induction As generalizing a with
  | nil => simp [join_cv]
  | cons c cs ih =>
    cases a with
    | nil => simp
    | cons v vs =>
      simp only [join_cv]
      exact (List.Sublist.cons₂ v (ih vs)).trans (List.sublist_append_right c _)

namespace Node

theorem values_sublist_inorder (n : Node V) : n.values.Sublist n.inorder := by
  cases n with
  | leaf_node m vs => simp
  | internal_node vs cs =>
    rw [inorder_internal]
    exact sublist_join_cv _ _

/-- Below an internal node whose in-order sequence is partitioned by `p`, the values that
precede child `i` satisfy `p` when the values before position `i` do. -/
theorem pre_child_all [Inhabited V] (p : V → Prop) (n : Node V) (i : Nat) (hl : n.leaf = false)
    (hc : n.children.length = n.count + 1) (hi : i ≤ n.count)
    (hpw : n.inorder.Pairwise (fun x y => p y → p x))
    (ha : ∀ y ∈ n.values.take i, p y) : ∀ x ∈ n.pre_child i, p x := by
  obtain ⟨a, z, A, N, Z, e, h1, h2, h3, h4, _, _⟩ := decompose_one n i hl hc (by omega)
  rw [e] at hpw ha ⊢
  rw [inorder_merged a z A Z N i (by omega) (by omega) h3, List.append_assoc] at hpw
  rw [pre_child_at a A i z (N :: Z) (by omega) (by omega)]
  simp only [values_internal] at ha
  rw [take_app_len _ _ _ (by omega)] at ha
  exact join_cv_all p _ _ _ (by simp; omega) hpw ha

theorem post_child_all [Inhabited V] (q : V → Prop) (n : Node V) (i : Nat) (hl : n.leaf = false)
    (hc : n.children.length = n.count + 1) (hi : i ≤ n.count)
    (hpw : n.inorder.Pairwise (fun x y => q x → q y))
    (hz : ∀ y ∈ n.values.drop i, q y) : ∀ x ∈ n.post_child i, q x := by
  obtain ⟨a, z, A, N, Z, e, h1, h2, h3, h4, _, _⟩ := decompose_one n i hl hc (by omega)
  rw [e] at hpw hz ⊢
  rw [inorder_merged a z A Z N i (by omega) (by omega) h3] at hpw
  rw [post_child_at a z A Z i N (by omega) (by omega)]
  simp only [values_internal] at hz
  rw [drop_app_len _ _ _ (by omega)] at hz
  exact join_vc_all q _ _ _ hpw hz

end Node

end CppBtree

namespace CppBtree

variable {K V : Type}

namespace Btree

section Descend

variable [Inhabited V]

theorem descend_spec (p q : V → Prop) (idx : Node V → Nat) (t : Btree K V) (r : Node V)
    (B H : Nat) (hr : t.root_node = r)
    (hidx : ∀ n : Node V, n.values.Pairwise (fun x y => p y → p x) →
      n.values.Pairwise (fun x y => q x → q y) →
      idx n ≤ n.count ∧ (∀ x ∈ n.values.take (idx n), p x) ∧ (∀ x ∈ n.values.drop (idx n), q x))
    (hp : r.inorder.Pairwise (fun x y => p y → p x))
    (hq : r.inorder.Pairwise (fun x y => q x → q y)) :
    ∀ (fuel : Nat) (rp : List Nat) (h : Nat), h ≤ fuel → Ctx B r rp h H →
      Node.wfc B h 1 B (getNode r rp) = true →
      (∀ x ∈ pre r rp, p x) → (∀ x ∈ post r rp, q x) →
      ∃ rp2 pos, descend idx t fuel rp = ⟨some rp2, ((pos : Nat) : Int)⟩
        ∧ Ctx B r rp2 0 H ∧ Node.wfc B 0 1 B (getNode r rp2) = true
        ∧ pos ≤ (getNode r rp2).count
        ∧ (∀ x ∈ pre r rp2 ++ (getNode r rp2).values.take pos, p x)
        ∧ (∀ x ∈ (getNode r rp2).values.drop pos ++ post r rp2, q x) := by
  intro fuel
  induction fuel with
  | zero =>
    intro rp h hf hc hN hpre hpost
    have hz : h = 0 := by omega
    subst hz
    have hsub : (getNode r rp).inorder.Sublist r.inorder := by
      rw [inorder_eq_pre_post _ _ _ _ _ hc]
      exact (List.sublist_append_right _ _).trans (List.sublist_append_left _ _)
    have hvs := (Node.values_sublist_inorder (getNode r rp)).trans hsub
    obtain ⟨a1, a2, a3⟩ := hidx (getNode r rp) (hp.sublist hvs) (hq.sublist hvs)
    refine ⟨rp, idx (getNode r rp), by simp [descend, node, hr], hc, hN, a1, ?_, ?_⟩
    · intro x hx
      rcases List.mem_append.mp hx with h1 | h1
      · exact hpre x h1
      · exact a2 x h1
    · intro x hx
      rcases List.mem_append.mp hx with h1 | h1
      · exact a3 x h1
      · exact hpost x h1
  | succ fuel ih =>
    intro rp h hf hc hN hpre hpost
    have hsub : (getNode r rp).inorder.Sublist r.inorder := by
      rw [inorder_eq_pre_post _ _ _ _ _ hc]
      exact (List.sublist_append_right _ _).trans (List.sublist_append_left _ _)
    have hvs := (Node.values_sublist_inorder (getNode r rp)).trans hsub
    obtain ⟨a1, a2, a3⟩ := hidx (getNode r rp) (hp.sublist hvs) (hq.sublist hvs)
    by_cases hl : (getNode r rp).leaf = true
    · have hz : h = 0 := (Node.wfc_leaf_zero _ _ _ _ _ hN).mp hl
      subst hz
      refine ⟨rp, idx (getNode r rp), by simp [descend, node, hr, hl], hc, hN, a1, ?_, ?_⟩
      · intro x hx
        rcases List.mem_append.mp hx with h1 | h1
        · exact hpre x h1
        · exact a2 x h1
      · intro x hx
        rcases List.mem_append.mp hx with h1 | h1
        · exact a3 x h1
        · exact hpost x h1
    · have hl2 : (getNode r rp).leaf = false := by simpa using hl
      cases h with
      | zero =>
        exact absurd ((Node.wfc_leaf_zero _ _ _ _ _ hN).mpr rfl) hl
      | succ h1 =>
        obtain ⟨_, w2, w3⟩ := Node.leaf_false_of_wfc_succ _ _ _ _ _ hN
        have hcnt := Node.wfc_count _ _ _ _ _ hN
        have e : descend idx t (fuel + 1) rp = descend idx t fuel (idx (getNode r rp) :: rp) := by
          simp [descend, node, hr, hl2]
        rw [e]
        have hc2 : Ctx B r (idx (getNode r rp) :: rp) h1 H :=
          ⟨hl2, hcnt.1, hcnt.2, w2, by omega,
            fun j hj _ => w3 _ (Node.child_mem _ _ hj), hc⟩
        apply ih (idx (getNode r rp) :: rp) h1 (by omega) hc2
          (w3 _ (Node.child_mem _ _ (by omega)))
        · intro x hx
          simp only [pre] at hx
          rcases List.mem_append.mp hx with h2 | h2
          · exact hpre x h2
          · exact Node.pre_child_all p _ _ hl2 w2 a1 (hp.sublist hsub) a2 x h2
        · intro x hx
          simp only [post] at hx
          rcases List.mem_append.mp hx with h2 | h2
          · exact Node.post_child_all q _ _ hl2 w2 a1 (hq.sublist hsub) a3 x h2
          · exact hpost x h2

end Descend

end Btree

end CppBtree

namespace CppBtree

variable {K V : Type}

theorem Node.wfc_of_wf_root_internal (B H : Nat) (r : Node V) (hw : Node.wf_root B H r = true)
    (hl : r.leaf = false) : Node.wfc B H 1 B r = true := by
  cases r with
  | leaf_node m vs => simp at hl
  | internal_node vs cs => exact hw

/-- Shape facts about the node that a valid name designates in a well-shaped tree. -/
theorem node_facts (B H : Nat) (r : Node V) (rp : List Nat)
    (hw : Node.wf_root B H r = true) (hv : ValidPath r rp) :
    ∃ h, Ctx B r rp h H ∧ Node.shape_ok (getNode r rp)
      ∧ ((getNode r rp).leaf = false → Node.wfc B h 1 B (getNode r rp) = true)
      ∧ (rp ≠ [] → Node.wfc B h 1 B (getNode r rp) = true)
      ∧ ((getNode r rp).leaf = true → h = 0) := by
  obtain ⟨h, hc, hN⟩ := ctx_of_wf B r rp H hw hv
  cases rp with
  | nil =>
    simp only [getNode]
    simp only [Ctx] at hc
    subst hc
    cases r with
    | leaf_node m vs =>
      simp only [Node.wf_root, Bool.and_eq_true, decide_eq_true_eq] at hw
      exact ⟨h, rfl, trivial, fun hh => by simp at hh, fun hh => absurd rfl hh, fun _ => hw.1.1.1⟩
    | internal_node vs cs =>
      exact ⟨h, rfl, Node.shape_ok_of_wfc _ _ _ _ _ hw, fun _ => hw, fun _ => hw,
        fun hh => by simp at hh⟩
  | cons i prp =>
    have hN2 := hN (by simp)
    exact ⟨h, hc, Node.shape_ok_of_wfc _ _ _ _ _ hN2, fun _ => hN2, fun _ => hN2,
      fun hh => (Node.wfc_leaf_zero _ _ _ _ _ hN2).mp hh⟩

namespace Btree

section Splits

variable [Inhabited V]

theorem splits_inorder (P : Params K V) (t : Btree K V) (iter : Iter) (l1 l2 : List V)
    (hS : Shaped P t) (hsp : Splits t iter l1 l2) : t.inorder = l1 ++ l2 := by
  obtain ⟨rp, e1, e2, hv, h0, h1, q1, q2⟩ := hsp
  obtain ⟨r, ht⟩ := Option.isSome_iff_exists.mp e2
  have hr := root_node_of_root t r ht
  rw [shaped_of_root P t r ht] at hS
  simp only [node, hr] at hv h1 q1 q2
  obtain ⟨h, hc, hsh, _⟩ := node_facts _ _ r rp hS.1 hv
  rw [inorder_of_root t r ht, inorder_eq_pre_post _ _ _ _ _ hc,
    Node.inorder_parts _ iter.position.toNat hsh (by omega), ← q1, ← q2]
  simp only [List.append_assoc]

theorem descend_root (P : Params K V) (p q : V → Prop) (idx : Node V → Nat) (t : Btree K V)
    (hS : Shaped P t) (hne : t.root.isSome = true)
    (hidx : ∀ n : Node V, n.values.Pairwise (fun x y => p y → p x) →
      n.values.Pairwise (fun x y => q x → q y) →
      idx n ≤ n.count ∧ (∀ x ∈ n.values.take (idx n), p x) ∧ (∀ x ∈ n.values.drop (idx n), q x))
    (hp : t.inorder.Pairwise (fun x y => p y → p x))
    (hq : t.inorder.Pairwise (fun x y => q x → q y)) :
    ∃ rp pos l1 l2, descend idx t t.height [] = ⟨some rp, ((pos : Nat) : Int)⟩
      ∧ Splits t ⟨some rp, ((pos : Nat) : Int)⟩ l1 l2 ∧ (t.node rp).leaf = true
      ∧ (∀ x ∈ l1, p x) ∧ (∀ x ∈ l2, q x) := by
  obtain ⟨r, ht⟩ := Option.isSome_iff_exists.mp hne
  have hr := root_node_of_root t r ht
  rw [shaped_of_root P t r ht] at hS
  rw [inorder_of_root t r ht] at hp hq
  obtain ⟨hw, _⟩ := hS
  have hh : t.height = r.height := by simp [height, ht]
  by_cases hl : r.leaf = true
  · obtain ⟨a1, a2, a3⟩ := hidx r (hp.sublist (Node.values_sublist_inorder r))
      (hq.sublist (Node.values_sublist_inorder r))
    have e : descend idx t t.height [] = ⟨some [], ((idx r : Nat) : Int)⟩ := by
      cases hf : t.height with
      | zero => simp [descend, node, hr, getNode]
      | succ f => simp [descend, node, hr, getNode, hl]
    refine ⟨[], idx r, r.values.take (idx r), r.values.drop (idx r), e, ?_, ?_, a2, a3⟩
    · refine ⟨[], rfl, hne, trivial, by simp, by simpa [node, hr, getNode] using a1, ?_, ?_⟩
      · simp only [node, hr, getNode, pre, List.nil_append, Int.toNat_ofNat]
        rw [Node.pre_part_leaf_node _ hl, Node.mid_part_leaf_node _ hl, List.append_nil]
      · simp only [node, hr, getNode, post, List.append_nil, Int.toNat_ofNat]
        rw [Node.post_part_leaf_node _ hl]
    · simpa [node, hr, getNode] using hl
  · have hl2 : r.leaf = false := by simpa using hl
    have hwc := Node.wfc_of_wf_root_internal _ _ r hw hl2
    obtain ⟨rp2, pos, b1, b2, b3, b4, b5, b6⟩ := descend_spec p q idx t r P.kNodeValues
      (r.height - 1) hr hidx hp hq t.height [] (r.height - 1) (by omega) rfl hwc
      (by simp [pre]) (by simp [post])
    have hleaf : (getNode r rp2).leaf = true := (Node.wfc_leaf_zero _ _ _ _ _ b3).mpr rfl
    refine ⟨rp2, pos, _, _, b1, ?_, by simpa [node, hr] using hleaf, b5, b6⟩
    refine ⟨rp2, rfl, hne, by rw [hr]; exact validPath_of_ctx _ _ _ _ _ b2, by simp,
      by simpa [node, hr] using b4, ?_, ?_⟩
    · simp only [node, hr, Int.toNat_ofNat]
      rw [Node.pre_part_leaf_node _ hleaf, Node.mid_part_leaf_node _ hleaf, List.append_nil]
    · simp only [node, hr, Int.toNat_ofNat]
      rw [Node.post_part_leaf_node _ hleaf]

end Splits

end Btree

end CppBtree

namespace CppBtree

variable {K V : Type}

namespace Node

theorem post_part_count (n : Node V) (g : Nat) (hg : n.count ≤ g) : n.post_part g = [] := by
  cases n with
  | leaf_node m vs => exact drop_all _ _ hg
  | internal_node vs cs =>
    simp only [post_part, post_child, values_internal]
    rw [drop_all vs g (by simpa using hg)]
    exact join_vc_nil _

theorem post_part_cons [Inhabited V] (n : Node V) (g : Nat) (hg : g < n.count) :
    ∃ rest, n.post_part g = n.value g :: rest := by
  have e : n.values.drop g = n.value g :: n.values.drop (g + 1) := by
    have := split_at_index n.values g default hg
    have h2 := congrArg (List.drop g) this
    rw [drop_app_len _ _ _ (by simp; exact Nat.le_of_lt hg)] at h2
    exact h2
  cases n with
  | leaf_node m vs => exact ⟨_, e⟩
  | internal_node vs cs =>
    simp only [post_part, post_child]
    rw [e]
    cases (internal_node vs cs).segs.drop (g + 1) with
    | nil => exact ⟨_, rfl⟩
    | cons c cs2 => exact ⟨_, rfl⟩

theorem pre_mid_internal (n : Node V) (i : Nat) (hl : n.leaf = false) :
    n.pre_part i ++ n.mid_part i = n.pre_child i ++ (n.child i).inorder := by
  cases n with
  | leaf_node m vs => simp at hl
  | internal_node vs cs => rfl

end Node

namespace Btree

section Climb

variable [Inhabited V]

/-- Unfolding of `Splits` for a tree with a known root. -/
theorem splits_iff (t : Btree K V) (r : Node V) (ht : t.root = some r) (rp : List Nat)
    (pos : Int) (l1 l2 : List V) :
    Splits t ⟨some rp, pos⟩ l1 l2 ↔ (ValidPath r rp ∧ 0 ≤ pos ∧ pos ≤ (getNode r rp).count
      ∧ pre r rp ++ ((getNode r rp).pre_part pos.toNat ++ (getNode r rp).mid_part pos.toNat) = l1
      ∧ (getNode r rp).post_part pos.toNat ++ post r rp = l2) := by
  have hr := root_node_of_root t r ht
  constructor
  · rintro ⟨rp2, e1, e2, hv, h0, h1, q1, q2⟩
    simp only [Option.some.injEq] at e1
    subst e1
    simp only [node, hr] at hv h1 q1 q2
    exact ⟨hv, h0, h1, q1, q2⟩
  · rintro ⟨hv, h0, h1, q1, q2⟩
    exact ⟨rp, rfl, by simp [ht], by rwa [hr], h0, by simpa [node, hr] using h1,
      by simpa [node, hr] using q1, by simpa [node, hr] using q2⟩

theorem pointsAt_iff (t : Btree K V) (r : Node V) (ht : t.root = some r) (rp : List Nat)
    (pos : Int) :
    PointsAt t ⟨some rp, pos⟩ ↔ (ValidPath r rp ∧ 0 ≤ pos ∧ pos < (getNode r rp).count) := by
  have hr := root_node_of_root t r ht
  constructor
  · rintro ⟨rp2, e1, e2, hv, h0, h1⟩
    simp only [Option.some.injEq] at e1
    subst e1
    simp only [node, hr] at hv h1
    exact ⟨hv, h0, h1⟩
  · rintro ⟨hv, h0, h1⟩
    exact ⟨rp, rfl, by simp [ht], by rwa [hr], h0, by simpa [node, hr] using h1⟩

/-- Climbing from the end of a node to its place in the parent keeps the two sides. -/
theorem climb_splits (B H : Nat) (r : Node V) (i : Nat) (rp : List Nat) (l1 l2 : List V)
    (hw : Node.wf_root B H r = true) (hv : ValidPath r (i :: rp))
    (q1 : pre r (i :: rp) ++ ((getNode r (i :: rp)).pre_part (getNode r (i :: rp)).count
        ++ (getNode r (i :: rp)).mid_part (getNode r (i :: rp)).count) = l1)
    (q2 : (getNode r (i :: rp)).post_part (getNode r (i :: rp)).count ++ post r (i :: rp) = l2) :
    i ≤ (getNode r rp).count
      ∧ pre r rp ++ ((getNode r rp).pre_part i ++ (getNode r rp).mid_part i) = l1
      ∧ (getNode r rp).post_part i ++ post r rp = l2 := by
  obtain ⟨h, hc, hsh, _, hN, _⟩ := node_facts B H r (i :: rp) hw hv
  obtain ⟨p1, p2, p3, p4, p5, p6, p7⟩ := ctx_parent_facts B h H r i rp hc (hN (by simp))
  have hio := Node.inorder_parts _ (getNode r (i :: rp)).count hsh (Nat.le_refl _)
  rw [Node.post_part_count _ _ (Nat.le_refl _), List.append_nil] at hio
  rw [Node.post_part_count _ _ (Nat.le_refl _)] at q2
  refine ⟨by omega, ?_, ?_⟩
  · rw [Node.pre_mid_internal _ _ p1, ← q1, ← hio]
    simp only [pre, getNode, List.append_assoc]
  · rw [Node.post_part_internal _ p1, ← q2]
    simp only [post, List.nil_append]

theorem internal_last_at_spec (P : Params K V) (t : Btree K V) (r : Node V) (H : Nat)
    (ht : t.root = some r) (hw : Node.wf_root P.kNodeValues H r = true) (l1 l2 : List V) :
    ∀ (rp : List Nat) (pos : Int), Splits t ⟨some rp, pos⟩ l1 l2 →
      (l2 = [] ∧ t.internal_last_at rp pos = ⟨none, 0⟩)
        ∨ (PointsAt t (t.internal_last_at rp pos) ∧ Splits t (t.internal_last_at rp pos) l1 l2
            ∧ l2.head? = some (t.deref (t.internal_last_at rp pos))) := by
  have hr := root_node_of_root t r ht
  have stay : ∀ (rp : List Nat) (pos : Int), Splits t ⟨some rp, pos⟩ l1 l2 →
      pos ≠ (getNode r rp).count →
      PointsAt t ⟨some rp, pos⟩ ∧ Splits t ⟨some rp, pos⟩ l1 l2
        ∧ l2.head? = some (t.deref ⟨some rp, pos⟩) := by
    intro rp pos hsp hne
    have hsp2 := hsp
    rw [splits_iff t r ht] at hsp2
    obtain ⟨hv, h0, h1, q1, q2⟩ := hsp2
    refine ⟨(pointsAt_iff t r ht rp pos).mpr ⟨hv, h0, by omega⟩, hsp, ?_⟩
    obtain ⟨rest, e⟩ := Node.post_part_cons (getNode r rp) pos.toNat (by omega)
    rw [← q2, e]
    simp [deref, Iter.path, node, hr]
  intro rp
  induction rp with
  | nil =>
    intro pos hsp
    by_cases hpos : pos = (getNode r []).count
    · left
      rw [splits_iff t r ht] at hsp
      obtain ⟨hv, h0, h1, q1, q2⟩ := hsp
      refine ⟨?_, by simp [internal_last_at, node, hr, hpos]⟩
      rw [← q2, hpos, Int.toNat_ofNat, Node.post_part_count _ _ (Nat.le_refl _)]
      simp [post]
    · right
      have e : t.internal_last_at [] pos = ⟨some [], pos⟩ := by
        simp only [internal_last_at, node, hr]
        rw [if_neg hpos]
      rw [e]
      exact stay [] pos hsp hpos
  | cons i rp ih =>
    intro pos hsp
    by_cases hpos : pos = (getNode r (i :: rp)).count
    · have e : t.internal_last_at (i :: rp) pos = t.internal_last_at rp i := by
        simp only [internal_last_at, node, hr]
        rw [if_pos hpos]
      rw [e]
      apply ih
      rw [splits_iff t r ht] at hsp ⊢
      obtain ⟨hv, h0, h1, q1, q2⟩ := hsp
      rw [hpos, Int.toNat_ofNat] at q1 q2
      obtain ⟨c1, c2, c3⟩ := climb_splits _ H r i rp l1 l2 hw hv q1 q2
      exact ⟨hv.1, by omega, by omega, by simpa using c2, by simpa using c3⟩
    · right
      have e : t.internal_last_at (i :: rp) pos = ⟨some (i :: rp), pos⟩ := by
        simp only [internal_last_at, node, hr]
        rw [if_neg hpos]
      rw [e]
      exact stay (i :: rp) pos hsp hpos

end Climb

end Btree

end CppBtree

namespace CppBtree

variable {K V : Type}

namespace LawfulComp

variable {comp : K → K → Int}

theorem lt_of_le_of_lt (hc : LawfulComp comp) (a b k : K) (hab : ¬ comp b a < 0)
    (hbk : comp b k < 0) : comp a k < 0 := by
  by_contra h
  have h1 : comp k a ≤ 0 := by
    have := (hc.swap_lt a k).not.mp h
    omega
  have h2 : comp a b ≤ 0 := by
    have := (hc.swap_lt b a).not.mp hab
    omega
  have h3 := hc.le_trans k a b h1 h2
  have h4 := (hc.swap_lt b k).mp hbk
  omega

theorem gt_of_gt_of_le (hc : LawfulComp comp) (a b k : K) (hab : ¬ comp b a < 0)
    (hak : comp a k > 0) : comp b k > 0 := by
  by_contra h
  have h2 : comp a b ≤ 0 := by
    have := (hc.swap_lt b a).not.mp hab
    omega
  have h3 := hc.le_trans a b k h2 (by omega)
  omega

end LawfulComp

namespace Btree

section Bounds

variable [Inhabited V]

theorem sorted_lt (P : Params K V) (t : Btree K V) (k : K) (hc : LawfulComp t.comp)
    (hs : Sorted P t) :
    t.inorder.Pairwise (fun x y => t.comp (P.key y) k < 0 → t.comp (P.key x) k < 0) :=
  List.Pairwise.imp (fun {a b} hab hbk => hc.lt_of_le_of_lt _ _ _ hab hbk) hs

theorem sorted_gt (P : Params K V) (t : Btree K V) (k : K) (hc : LawfulComp t.comp)
    (hs : Sorted P t) :
    t.inorder.Pairwise (fun x y => t.comp (P.key x) k > 0 → t.comp (P.key y) k > 0) :=
  List.Pairwise.imp (fun {a b} hab hak => hc.gt_of_gt_of_le _ _ _ hab hak) hs

theorem internal_lower_bound_loop_eq (P : Params K V) (t : Btree K V) (k : K) (fuel : Nat)
    (rp : List Nat) :
    internal_lower_bound_loop P t k fuel rp
      = descend (fun n => (n.lower_bound P.key t.comp k).index) t fuel rp := by
  induction fuel generalizing rp with
  | zero => rfl
  | succ f ih =>
    simp only [internal_lower_bound_loop, descend]
    split
    · rfl
    · exact ih _

theorem internal_upper_bound_loop_eq (P : Params K V) (t : Btree K V) (k : K) (fuel : Nat)
    (rp : List Nat) :
    internal_upper_bound_loop P t k fuel rp
      = descend (fun n => (n.upper_bound P.key t.comp k).index) t fuel rp := by
  induction fuel generalizing rp with
  | zero => rfl
  | succ f ih =>
    simp only [internal_upper_bound_loop, descend]
    split
    · rfl
    · exact ih _

theorem internal_locate_plain_compare_loop_eq (P : Params K V) (t : Btree K V) (k : K)
    (fuel : Nat) (rp : List Nat) :
    internal_locate_plain_compare_loop P t k fuel rp
      = (descend (fun n => (n.lower_bound P.key t.comp k).index) t fuel rp, 0) := by
  induction fuel generalizing rp with
  | zero => rfl
  | succ f ih =>
    simp only [internal_locate_plain_compare_loop, descend]
    split
    · rfl
    · exact ih _

/-- The leaf position that the lower-bound descent reaches. -/
theorem lower_descent (P : Params K V) (t : Btree K V) (k : K) (hS : Shaped P t)
    (hne : t.root.isSome = true)
    (hp : t.inorder.Pairwise (fun x y => t.comp (P.key y) k < 0 → t.comp (P.key x) k < 0)) :
    ∃ rp pos l1 l2,
      descend (fun n => (n.lower_bound P.key t.comp k).index) t t.height []
        = ⟨some rp, ((pos : Nat) : Int)⟩
      ∧ Splits t ⟨some rp, ((pos : Nat) : Int)⟩ l1 l2 ∧ (t.node rp).leaf = true
      ∧ (∀ x ∈ l1, t.comp (P.key x) k < 0) ∧ (∀ x ∈ l2, ¬ t.comp (P.key x) k < 0) := by
  apply descend_root P (fun x => t.comp (P.key x) k < 0) (fun x => ¬ t.comp (P.key x) k < 0)
    _ t hS hne
  · intro n h1 _
    exact Node.lower_bound_spec P.key t.comp n k h1
  · exact hp
  · exact List.Pairwise.imp (fun {a b} hab hna hb => hna (hab hb)) hp

/-- The leaf position that the upper-bound descent reaches. -/
theorem upper_descent (P : Params K V) (t : Btree K V) (k : K) (hS : Shaped P t)
    (hne : t.root.isSome = true)
    (hq : t.inorder.Pairwise (fun x y => t.comp (P.key x) k > 0 → t.comp (P.key y) k > 0)) :
    ∃ rp pos l1 l2,
      descend (fun n => (n.upper_bound P.key t.comp k).index) t t.height []
        = ⟨some rp, ((pos : Nat) : Int)⟩
      ∧ Splits t ⟨some rp, ((pos : Nat) : Int)⟩ l1 l2 ∧ (t.node rp).leaf = true
      ∧ (∀ x ∈ l1, ¬ t.comp (P.key x) k > 0) ∧ (∀ x ∈ l2, t.comp (P.key x) k > 0) := by
  apply descend_root P (fun x => ¬ t.comp (P.key x) k > 0) (fun x => t.comp (P.key x) k > 0)
    _ t hS hne
  · intro n _ h2
    exact Node.upper_bound_spec P.key t.comp n k h2
  · exact List.Pairwise.imp (fun {a b} hab hnb ha => hnb (hab ha)) hq
  · exact hq

/-- What `internal_last` makes of a position between `l1` and `l2`. -/
theorem internal_last_spec (P : Params K V) (t : Btree K V) (hS : Shaped P t) (rp : List Nat)
    (pos : Int) (l1 l2 : List V) (hsp : Splits t ⟨some rp, pos⟩ l1 l2) :
    (l2 = [] ∧ t.internal_last ⟨some rp, pos⟩ = ⟨none, 0⟩)
      ∨ (PointsAt t (t.internal_last ⟨some rp, pos⟩)
          ∧ Splits t (t.internal_last ⟨some rp, pos⟩) l1 l2
          ∧ l2.head? = some (t.deref (t.internal_last ⟨some rp, pos⟩))) := by
  have e2 : t.root.isSome = true := by
    obtain ⟨_, _, e2, _⟩ := hsp
    exact e2
  obtain ⟨r, ht⟩ := Option.isSome_iff_exists.mp e2
  rw [shaped_of_root P t r ht] at hS
  exact internal_last_at_spec P t r _ ht hS.1 l1 l2 rp pos hsp

theorem iterTo_internal_end (t : Btree K V) (it : Iter) (l1 l2 : List V)
    (hio : t.inorder = l1 ++ l2)
    (h : (l2 = [] ∧ it = ⟨none, 0⟩)
      ∨ (PointsAt t it ∧ Splits t it l1 l2 ∧ l2.head? = some (t.deref it))) :
    IterTo t (t.internal_end it) l1 l2 := by
  rcases h with ⟨h1, h2⟩ | ⟨h1, h2, h3⟩
  · left
    subst h2
    subst h1
    exact ⟨by simpa using hio.symm, rfl, rfl⟩
  · right
    obtain ⟨rp, e, _⟩ := h1
    have : t.internal_end it = it := by simp [internal_end, e]
    rw [this]
    exact ⟨⟨rp, e, ‹_›⟩, h2, h3⟩

theorem takeWhile_of_split (p : V → Bool) (l1 l2 : List V) (h1 : ∀ x ∈ l1, p x = true)
    (h2 : ∀ x ∈ l2, p x = false) :
    (l1 ++ l2).takeWhile p = l1 ∧ (l1 ++ l2).dropWhile p = l2 := by
  induction l1 with
  | nil =>
    cases l2 with
    | nil => simp
    | cons y ys => simp [List.takeWhile, List.dropWhile, h2 y (by simp)]
  | cons x xs ih =>
    have hx := h1 x (by simp)
    obtain ⟨i1, i2⟩ := ih (fun y hy => h1 y (by simp [hy]))
    simp [List.takeWhile, List.dropWhile, hx, i1, i2]

theorem lower_bound_iterTo (P : Params K V) (t : Btree K V) (k : K) (hc : LawfulComp t.comp)
    (hS : Shaped P t) (hs : Sorted P t) :
    IterTo t (lower_bound P t k)
      (t.inorder.takeWhile (fun v => decide (t.comp (P.key v) k < 0)))
      (t.inorder.dropWhile (fun v => decide (t.comp (P.key v) k < 0))) := by
  cases hroot : t.root with
  | none =>
    left
    simp [inorder, hroot, lower_bound, internal_lower_bound, root_iter, empty, internal_end]
  | some r =>
    have hne : t.root.isSome = true := by simp [hroot]
    obtain ⟨rp, pos, l1, l2, e, hsp, _, a1, a2⟩ := lower_descent P t k hS hne
      (sorted_lt P t k hc hs)
    have hio := splits_inorder P t _ l1 l2 hS hsp
    obtain ⟨tw, dw⟩ := takeWhile_of_split (fun v => decide (t.comp (P.key v) k < 0)) l1 l2
      (fun x hx => by simpa using a1 x hx) (fun x hx => by simpa using a2 x hx)
    have hio0 := hio
    rw [hio, tw, dw]
    have e2 : lower_bound P t k
        = t.internal_end (t.internal_last ⟨some rp, ((pos : Nat) : Int)⟩) := by
      simp only [lower_bound, internal_lower_bound, root_iter, empty, hroot, Option.isNone_some,
        Bool.false_eq_true, if_false, Option.isSome_some, if_true, Iter.path, Option.getD_some,
        internal_lower_bound_loop_eq, e]
    rw [e2]
    exact iterTo_internal_end t _ l1 l2 hio0 (internal_last_spec P t hS rp pos l1 l2 hsp)

theorem upper_bound_iterTo (P : Params K V) (t : Btree K V) (k : K) (hc : LawfulComp t.comp)
    (hS : Shaped P t) (hs : Sorted P t) :
    IterTo t (upper_bound P t k)
      (t.inorder.takeWhile (fun v => decide (¬ t.comp (P.key v) k > 0)))
      (t.inorder.dropWhile (fun v => decide (¬ t.comp (P.key v) k > 0))) := by
  cases hroot : t.root with
  | none =>
    left
    simp [inorder, hroot, upper_bound, internal_upper_bound, root_iter, empty, internal_end]
  | some r =>
    have hne : t.root.isSome = true := by simp [hroot]
    obtain ⟨rp, pos, l1, l2, e, hsp, _, a1, a2⟩ := upper_descent P t k hS hne
      (sorted_gt P t k hc hs)
    have hio := splits_inorder P t _ l1 l2 hS hsp
    obtain ⟨tw, dw⟩ := takeWhile_of_split (fun v => decide (¬ t.comp (P.key v) k > 0)) l1 l2
      (fun x hx => by simpa using a1 x hx) (fun x hx => by simpa using a2 x hx)
    have hio0 := hio
    rw [hio, tw, dw]
    have e2 : upper_bound P t k
        = t.internal_end (t.internal_last ⟨some rp, ((pos : Nat) : Int)⟩) := by
      simp only [upper_bound, internal_upper_bound, root_iter, empty, hroot, Option.isNone_some,
        Bool.false_eq_true, if_false, Option.isSome_some, if_true, Iter.path, Option.getD_some,
        internal_upper_bound_loop_eq, e]
    rw [e2]
    exact iterTo_internal_end t _ l1 l2 hio0 (internal_last_spec P t hS rp pos l1 l2 hsp)

end Bounds

end Btree

end CppBtree

namespace CppBtree

variable {K V : Type}

theorem Example.int_compare_lawful : LawfulComp Example.int_compare :=
  ⟨fun a b => by simp only [Example.int_compare]; omega,
    fun a b c => by simp only [Example.int_compare]; omega⟩

namespace Btree

/-- C7: on a well-shaped tree whose in-order sequence is non-decreasing under a lawful
comparator, `lower_bound(k)` is the iterator that stands after exactly the values whose key is
less than `k`: it designates the first value whose key is not less than `k`, and it is `end()`
when every key is less than `k` (in particular on the empty tree). -/
theorem lower_bound_first_not_less [Inhabited V] (P : Params K V) (t : Btree K V) (k : K)
    (hc : LawfulComp t.comp) (hS : Shaped P t) (hs : Sorted P t) :
    IterTo t (lower_bound P t k)
      (t.inorder.takeWhile (fun v => decide (t.comp (P.key v) k < 0)))
      (t.inorder.dropWhile (fun v => decide (t.comp (P.key v) k < 0))) :=
  lower_bound_iterTo P t k hc hS hs

theorem lower_bound_first_not_less_witness :
    LawfulComp Example.multi_tree.comp ∧ Shaped Example.params Example.multi_tree
      ∧ Sorted Example.params Example.multi_tree
      ∧ IterTo Example.multi_tree (lower_bound Example.params Example.multi_tree 20)
          (Example.multi_tree.inorder.takeWhile
            (fun v => decide (Example.multi_tree.comp (Example.params.key v) 20 < 0)))
          (Example.multi_tree.inorder.dropWhile
            (fun v => decide (Example.multi_tree.comp (Example.params.key v) 20 < 0))) :=
  ⟨Example.int_compare_lawful, by decide, by decide,
    lower_bound_first_not_less Example.params Example.multi_tree 20 Example.int_compare_lawful
      (by decide) (by decide)⟩

/-- C8: on a well-shaped tree whose in-order sequence is non-decreasing under a lawful
comparator, `upper_bound(k)` is the iterator that stands after exactly the values whose key is
not greater than `k` under the comparator held by the tree: it designates the first value whose
key is strictly greater than `k`, and it is `end()` when there is none. -/
theorem upper_bound_first_greater [Inhabited V] (P : Params K V) (t : Btree K V) (k : K)
    (hc : LawfulComp t.comp) (hS : Shaped P t) (hs : Sorted P t) :
    IterTo t (upper_bound P t k)
      (t.inorder.takeWhile (fun v => decide (¬ t.comp (P.key v) k > 0)))
      (t.inorder.dropWhile (fun v => decide (¬ t.comp (P.key v) k > 0))) :=
  upper_bound_iterTo P t k hc hS hs

theorem upper_bound_first_greater_witness :
    LawfulComp Example.multi_tree.comp ∧ Shaped Example.params Example.multi_tree
      ∧ Sorted Example.params Example.multi_tree
      ∧ IterTo Example.multi_tree (upper_bound Example.params Example.multi_tree 20)
          (Example.multi_tree.inorder.takeWhile
            (fun v => decide (¬ Example.multi_tree.comp (Example.params.key v) 20 > 0)))
          (Example.multi_tree.inorder.dropWhile
            (fun v => decide (¬ Example.multi_tree.comp (Example.params.key v) 20 > 0))) :=
  ⟨Example.int_compare_lawful, by decide, by decide,
    upper_bound_first_greater Example.params Example.multi_tree 20 Example.int_compare_lawful
      (by decide) (by decide)⟩

end Btree

end CppBtree

namespace CppBtree

variable {K V : Type}

namespace Btree

section Locate

variable [Inhabited V]

theorem locate_compare_to_spec (P : Params K V) (t : Btree K V) (r : Node V) (k : K)
    (B H : Nat) (hr : t.root_node = r)
    (hp : r.inorder.Pairwise (fun x y => t.comp (P.key y) k < 0 → t.comp (P.key x) k < 0))
    (hq : r.inorder.Pairwise (fun x y => t.comp (P.key x) k > 0 → t.comp (P.key y) k > 0)) :
    ∀ (fuel : Nat) (rp : List Nat) (h : Nat), h < fuel → Ctx B r rp h H →
      (Node.wfc B h 1 B (getNode r rp) = true ∨ (getNode r rp).leaf = true) →
      (∀ x ∈ pre r rp, t.comp (P.key x) k < 0) → (∀ x ∈ post r rp, t.comp (P.key x) k > 0) →
      (∃ rp2 pos, internal_locate_compare_to_loop P t k fuel rp
            = (⟨some rp2, ((pos : Nat) : Int)⟩, kExactMatch)
          ∧ ValidPath r rp2 ∧ pos < (getNode r rp2).count
          ∧ t.comp (P.key ((getNode r rp2).value pos)) k = 0)
      ∨ (∃ rp2 pos, internal_locate_compare_to_loop P t k fuel rp
            = (⟨some rp2, ((pos : Nat) : Int)⟩, -kExactMatch)
          ∧ ValidPath r rp2 ∧ (getNode r rp2).leaf = true
          ∧ pos ≤ (getNode r rp2).count
          ∧ (∀ x ∈ pre r rp2 ++ (getNode r rp2).values.take pos, t.comp (P.key x) k < 0)
          ∧ (∀ x ∈ (getNode r rp2).values.drop pos ++ post r rp2, t.comp (P.key x) k > 0)) := by
  intro fuel
  induction fuel with
  | zero => intro rp h hf; omega
  | succ fuel ih =>
    intro rp h hf hc hN hpre hpost
    have hsub : (getNode r rp).inorder.Sublist r.inorder := by
      rw [inorder_eq_pre_post _ _ _ _ _ hc]
      exact (List.sublist_append_right _ _).trans (List.sublist_append_left _ _)
    have hvs := (Node.values_sublist_inorder (getNode r rp)).trans hsub
    obtain ⟨a1, a2, _⟩ := Node.lower_bound_spec P.key t.comp (getNode r rp) k (hp.sublist hvs)
    obtain ⟨x1, x2⟩ := Node.lower_bound_exact P.key t.comp (getNode r rp) k (hp.sublist hvs)
      (hq.sublist hvs)
    have hv := validPath_of_ctx _ _ _ _ _ hc
    by_cases hex : ((getNode r rp).lower_bound P.key t.comp k).is_exact_match = true
    · left
      obtain ⟨y1, y2⟩ := x1 hex
      exact ⟨rp, _, by simp [internal_locate_compare_to_loop, node, hr, hex], hv, y1, y2⟩
    · have hex2 : ((getNode r rp).lower_bound P.key t.comp k).is_exact_match = false := by
        simpa using hex
      have a3 := x2 hex2
      by_cases hl : (getNode r rp).leaf = true
      · right
        refine ⟨rp, _, by simp [internal_locate_compare_to_loop, node, hr, hex2, hl], hv, hl, a1,
          ?_, ?_⟩
        · intro x hx
          rcases List.mem_append.mp hx with h1 | h1
          · exact hpre x h1
          · exact a2 x h1
        · intro x hx
          rcases List.mem_append.mp hx with h1 | h1
          · exact a3 x h1
          · exact hpost x h1
      · have hl2 : (getNode r rp).leaf = false := by simpa using hl
        have hN2 : Node.wfc B h 1 B (getNode r rp) = true := by
          rcases hN with hN | hN
          · exact hN
          · exact absurd hN hl
        cases h with
        | zero => exact absurd ((Node.wfc_leaf_zero _ _ _ _ _ hN2).mpr rfl) hl
        | succ h1 =>
          obtain ⟨_, w2, w3⟩ := Node.leaf_false_of_wfc_succ _ _ _ _ _ hN2
          have hcnt := Node.wfc_count _ _ _ _ _ hN2
          have e : internal_locate_compare_to_loop P t k (fuel + 1) rp
              = internal_locate_compare_to_loop P t k fuel
                  (((getNode r rp).lower_bound P.key t.comp k).index :: rp) := by
            simp [internal_locate_compare_to_loop, node, hr, hl2, hex2]
          rw [e]
          have hc2 : Ctx B r (((getNode r rp).lower_bound P.key t.comp k).index :: rp) h1 H :=
            ⟨hl2, hcnt.1, hcnt.2, w2, by omega,
              fun j hj _ => w3 _ (Node.child_mem _ _ hj), hc⟩
          apply ih _ h1 (by omega) hc2 (Or.inl (w3 _ (Node.child_mem _ _ (by omega))))
          · intro x hx
            simp only [pre] at hx
            rcases List.mem_append.mp hx with h2 | h2
            · exact hpre x h2
            · exact Node.pre_child_all _ _ _ hl2 w2 a1 (hp.sublist hsub) a2 x h2
          · intro x hx
            simp only [post] at hx
            rcases List.mem_append.mp hx with h2 | h2
            · exact Node.post_child_all _ _ _ hl2 w2 a1 (hq.sublist hsub) a3 x h2
            · exact hpost x h2

end Locate

end Btree

end CppBtree

namespace CppBtree

variable {K V : Type}

theorem getD_mem {α : Type} (l : List α) (i : Nat) (d : α) (h : i < l.length) :
    l.getD i d ∈ l := by
  rw [List.getD_eq_getElem _ _ h]
  exact List.getElem_mem h

namespace Btree

section Locate2

variable [Inhabited V]

theorem size_eq_length (P : Params K V) (t : Btree K V) (hS : Shaped P t) :
    t.size = t.inorder.length := by
  cases hroot : t.root with
  | none => simp [size, empty, inorder, hroot]
  | some r =>
    rw [shaped_of_root P t r hroot] at hS
    have hr := root_node_of_root t r hroot
    simp only [size, empty, hroot, Option.isNone_some, Bool.false_eq_true, if_false, hr,
      inorder]
    cases r with
    | leaf_node m vs => simp
    | internal_node vs cs => simpa using hS.2 rfl

theorem pointsAt_mem (P : Params K V) (t : Btree K V) (it : Iter) (hS : Shaped P t)
    (hp : PointsAt t it) : t.deref it ∈ t.inorder := by
  obtain ⟨rp, e, hne, hv, h0, h1⟩ := hp
  obtain ⟨r, ht⟩ := Option.isSome_iff_exists.mp hne
  have hr := root_node_of_root t r ht
  rw [shaped_of_root P t r ht] at hS
  simp only [node, hr] at hv h1
  obtain ⟨h, hc, _⟩ := node_facts _ _ r rp hS.1 hv
  have hsub : (getNode r rp).inorder.Sublist r.inorder := by
    rw [inorder_eq_pre_post _ _ _ _ _ hc]
    exact (List.sublist_append_right _ _).trans (List.sublist_append_left _ _)
  have hvs := (Node.values_sublist_inorder (getNode r rp)).trans hsub
  rw [inorder_of_root t r ht]
  apply hvs.subset
  simp only [deref, Iter.path, e, Option.getD_some, node, hr, Node.value]
  exact getD_mem _ _ _ (by simp only [Node.count] at h1; omega)

/-- The outcome of `internal_locate` from the root of a non-empty tree: an exact match designates
a stored value whose key equals `k`; otherwise the result is a leaf position standing after
exactly the values less than `k`, and with the three-way protocol no key equals `k`. -/
theorem internal_locate_spec (P : Params K V) (t : Btree K V) (k : K)
    (hc : LawfulComp t.comp) (hS : Shaped P t) (hs : Sorted P t) (hne : t.root.isSome = true) :
    ((internal_locate P t k t.root_iter).2 = kExactMatch
        ∧ PointsAt t (internal_locate P t k t.root_iter).1
        ∧ t.comp (P.key (t.deref (internal_locate P t k t.root_iter).1)) k = 0
        ∧ t.internal_last (internal_locate P t k t.root_iter).1
            = (internal_locate P t k t.root_iter).1)
      ∨ (∃ rp pos l1 l2, (internal_locate P t k t.root_iter).1 = ⟨some rp, ((pos : Nat) : Int)⟩
        ∧ Splits t ⟨some rp, ((pos : Nat) : Int)⟩ l1 l2 ∧ (t.node rp).leaf = true
        ∧ (∀ x ∈ l1, t.comp (P.key x) k < 0) ∧ (∀ x ∈ l2, ¬ t.comp (P.key x) k < 0)
        ∧ ((internal_locate P t k t.root_iter).2 = 0
          ∨ ((internal_locate P t k t.root_iter).2 = -kExactMatch
              ∧ ∀ x ∈ l2, t.comp (P.key x) k > 0))) := by
  obtain ⟨r, ht⟩ := Option.isSome_iff_exists.mp hne
  have hr := root_node_of_root t r ht
  have hri : t.root_iter = ⟨some [], 0⟩ := by simp [root_iter, empty, ht]
  by_cases hm : P.is_key_compare_to = true
  · have e : internal_locate P t k t.root_iter
        = internal_locate_compare_to_loop P t k t.height [] := by
      simp [internal_locate, hm, internal_locate_compare_to, hri, Iter.path]
    rw [e]
    have hS2 := hS
    rw [shaped_of_root P t r ht] at hS2
    have hh : t.height = r.height := by simp [height, ht]
    have hsh : Node.wfc P.kNodeValues (r.height - 1) 1 P.kNodeValues (getNode r []) = true
        ∨ (getNode r []).leaf = true := by
      by_cases hl : r.leaf = true
      · exact Or.inr hl
      · exact Or.inl (Node.wfc_of_wf_root_internal _ _ r hS2.1 (by simpa using hl))
    have hgt : r.height ≥ 1 := by
      rw [Node.height_of_wf_root _ _ _ hS2.1]
      omega
    have hp := sorted_lt P t k hc hs
    have hq := sorted_gt P t k hc hs
    rw [inorder_of_root t r ht] at hp hq
    rcases locate_compare_to_spec P t r k P.kNodeValues (r.height - 1) hr hp hq t.height []
      (r.height - 1) (by omega) rfl hsh (by simp [pre]) (by simp [post]) with
      ⟨rp2, pos, e1, hv, h1, h2⟩ | ⟨rp2, pos, e1, hv, hl, h1, h2, h3⟩
    · left
      rw [e1]
      refine ⟨rfl, (pointsAt_iff t r ht rp2 pos).mpr ⟨hv, by simp, by simpa using h1⟩, ?_, ?_⟩
      · simpa [deref, Iter.path, node, hr] using h2
      · simp only [internal_last]
        cases rp2 with
        | nil =>
          simp only [internal_last_at, node, hr]
          rw [if_neg (by simp only [getNode] at h1 ⊢; omega)]
        | cons i rp =>
          simp only [internal_last_at, node, hr]
          rw [if_neg (by omega)]
    · right
      rw [e1]
      refine ⟨rp2, pos, _, _, rfl, ?_, by simpa [node, hr] using hl, h2, ?_, Or.inr ⟨rfl, h3⟩⟩
      · rw [splits_iff t r ht]
        refine ⟨hv, by simp, by simpa using h1, ?_, ?_⟩
        · simp only [Int.toNat_ofNat]
          rw [Node.pre_part_leaf_node _ hl, Node.mid_part_leaf_node _ hl, List.append_nil]
        · simp only [Int.toNat_ofNat]
          rw [Node.post_part_leaf_node _ hl]
      · intro x hx hlt
        have := h3 x hx
        omega
  · right
    have e : internal_locate P t k t.root_iter
        = (descend (fun n => (n.lower_bound P.key t.comp k).index) t t.height [], 0) := by
      simp [internal_locate, hm, internal_locate_plain_compare, hri, Iter.path,
        internal_locate_plain_compare_loop_eq]
    rw [e]
    obtain ⟨rp, pos, l1, l2, e1, hsp, hl, a1, a2⟩ := lower_descent P t k hS hne
      (sorted_lt P t k hc hs)
    rw [e1]
    exact ⟨rp, pos, l1, l2, rfl, hsp, hl, a1, a2, Or.inl rfl⟩

end Locate2

end Btree

end CppBtree

namespace CppBtree

variable {K V : Type}

namespace Btree

section InsertUnique

variable [Inhabited V]

theorem lower_bound_empty (key : V → K) (comp : K → K → Int) (m : Nat) (k : K) :
    (Node.leaf_node m ([] : List V)).lower_bound key comp k = ⟨0, false⟩ := by
  simp [Node.lower_bound, Node.binary_search_compare]

theorem upper_bound_empty (key : V → K) (comp : K → K → Int) (m : Nat) (k : K) :
    (Node.leaf_node m ([] : List V)).upper_bound key comp k = ⟨0, false⟩ := by
  simp [Node.upper_bound, Node.binary_search_compare]

theorem insert_unique_key_empty (P : Params K V) (t : Btree K V) (k : K) (v : V)
    (hroot : t.root = none) :
    insert_unique_key P t k v
      = (t.with_root (some (Node.leaf_node 1 [v])), ⟨some [], 0⟩, true) := by
  have e0 : (t.with_root (some (Node.leaf_node 1 ([] : List V)))).root_iter = ⟨some [], 0⟩ := rfl
  have eh : (t.with_root (some (Node.leaf_node 1 ([] : List V)))).height = 1 := rfl
  have eloc : (internal_locate P (t.with_root (some (Node.leaf_node 1 [])))
      k ⟨some [], 0⟩).1 = ⟨some [], 0⟩
      ∧ ((internal_locate P (t.with_root (some (Node.leaf_node 1 [])))
      k ⟨some [], 0⟩).2 = 0 ∨ (internal_locate P (t.with_root (some (Node.leaf_node 1 [])))
      k ⟨some [], 0⟩).2 = -kExactMatch) := by
    by_cases hm : P.is_key_compare_to = true
    · simp [internal_locate, hm, internal_locate_compare_to, eh, Iter.path,
        internal_locate_compare_to_loop, node, getNode, lower_bound_empty]
    · simp [internal_locate, hm, internal_locate_plain_compare, eh, Iter.path,
        internal_locate_plain_compare_loop, node, getNode, lower_bound_empty]
  have elast : (t.with_root (some (Node.leaf_node 1 ([] : List V)))).internal_last
      ⟨some [], 0⟩ = ⟨none, 0⟩ := by
    simp [internal_last, internal_last_at, node, getNode]
  have eins : internal_insert P (t.with_root (some (Node.leaf_node 1 []))) ⟨some [], 0⟩ v
      = (t.with_root (some (Node.leaf_node 1 [v])), ⟨some [], 0⟩) := by
    simp [internal_insert, Iter.path, node, getNode, set_node, setNode, with_root,
      Node.insert_value_leaf, root_node]
  simp only [insert_unique_key, empty, hroot, Option.isNone_none, if_true, e0]
  obtain ⟨l1, l2⟩ := eloc
  rw [l1, elast, eins]
  rcases l2 with l2 | l2
  · rw [l2]
    simp [kExactMatch]
  · rw [l2]
    simp [kExactMatch]

end InsertUnique

end Btree

end CppBtree

namespace CppBtree

variable {K V : Type}

namespace LawfulComp

variable {comp : K → K → Int}

theorem eq_zero_of_not_lt (hc : LawfulComp comp) (a b : K) (h1 : ¬ comp a b < 0)
    (h2 : ¬ comp b a < 0) : comp a b = 0 := by
  have := (hc.swap_lt b a).not.mp h2
  omega

theorem not_lt_of_eq_zero (hc : LawfulComp comp) (a b : K) (h : comp a b = 0) :
    ¬ comp a b < 0 ∧ ¬ comp b a < 0 := by
  refine ⟨by omega, fun h2 => ?_⟩
  have := (hc.swap_lt b a).mp h2
  omega

end LawfulComp

namespace Btree

section InsertUnique2

variable [Inhabited V]

theorem insertedAt_singleton (P : Params K V) (t : Btree K V) (v : V)
    (hB : 1 ≤ P.kNodeValues) :
    InsertedAt P t (t.with_root (some (Node.leaf_node 1 [v]))) ⟨some [], 0⟩ [] v [] := by
  refine ⟨rfl, ?_, rfl, ?_, ?_, rfl⟩
  · apply shaped_intro P _ _ 0 rfl
    · simp [Node.wf_root]
      omega
    · intro h
      simp at h
  · exact ⟨[], rfl, rfl, trivial, by simp, by simp [node, getNode]⟩
  · exact ⟨[], rfl, rfl, trivial, by simp, by simp [node, getNode], rfl, rfl⟩

theorem insert_unique_key_nonempty (P : Params K V) (t : Btree K V) (k : K) (v : V)
    (he : t.empty = false) :
    insert_unique_key P t k v
      = if (internal_locate P t k t.root_iter).2 = kExactMatch then
          (t, t.internal_last (internal_locate P t k t.root_iter).1, false)
        else if (internal_locate P t k t.root_iter).2 = 0
            ∧ (t.internal_last (internal_locate P t k t.root_iter).1).node.isSome
            ∧ t.compare_keys k (key_at P t
                (t.internal_last (internal_locate P t k t.root_iter).1)) = false then
          (t, t.internal_last (internal_locate P t k t.root_iter).1, false)
        else
          ((internal_insert P t (internal_locate P t k t.root_iter).1 v).1,
            (internal_insert P t (internal_locate P t k t.root_iter).1 v).2, true) := by
  simp only [insert_unique_key, he, Bool.false_eq_true, if_false]

/-- The two outcomes of `insert_unique(key, value)`. -/
theorem insert_unique_key_spec (P : Params K V) (t : Btree K V) (k : K) (v : V)
    (hB : 3 ≤ P.kNodeValues) (hc : LawfulComp t.comp) (hS : Shaped P t) (hs : Sorted P t) :
    ((insert_unique_key P t k v).2.2 = false ∧ (insert_unique_key P t k v).1 = t
        ∧ PointsAt t (insert_unique_key P t k v).2.1
        ∧ t.comp (P.key (t.deref (insert_unique_key P t k v).2.1)) k = 0)
      ∨ ((insert_unique_key P t k v).2.2 = true
        ∧ (∀ x ∈ t.inorder, t.comp (P.key x) k ≠ 0)
        ∧ InsertedAt P t (insert_unique_key P t k v).1 (insert_unique_key P t k v).2.1
            (t.inorder.takeWhile (fun x => decide (t.comp (P.key x) k < 0))) v
            (t.inorder.dropWhile (fun x => decide (t.comp (P.key x) k < 0)))) := by
  cases hroot : t.root with
  | none =>
    right
    rw [insert_unique_key_empty P t k v hroot]
    refine ⟨rfl, by simp [inorder, hroot], ?_⟩
    simpa [inorder, hroot] using insertedAt_singleton P t v (by omega)
  | some r =>
    have hne : t.root.isSome = true := by simp [hroot]
    have he : t.empty = false := by simp [empty, hroot]
    -- the insertion branch
    have ins : ∀ (rp : List Nat) (pos : Nat) (l1 l2 : List V),
        Splits t ⟨some rp, ((pos : Nat) : Int)⟩ l1 l2 → (t.node rp).leaf = true →
        (∀ x ∈ l1, t.comp (P.key x) k < 0) → (∀ x ∈ l2, t.comp (P.key x) k > 0) →
        (∀ x ∈ t.inorder, t.comp (P.key x) k ≠ 0)
          ∧ InsertedAt P t (internal_insert P t ⟨some rp, ((pos : Nat) : Int)⟩ v).1
            (internal_insert P t ⟨some rp, ((pos : Nat) : Int)⟩ v).2
            (t.inorder.takeWhile (fun x => decide (t.comp (P.key x) k < 0))) v
            (t.inorder.dropWhile (fun x => decide (t.comp (P.key x) k < 0))) := by
      intro rp pos l1 l2 hsp hl a1 a2
      have hio := splits_inorder P t _ l1 l2 hS hsp
      obtain ⟨tw, dw⟩ := takeWhile_of_split (fun x => decide (t.comp (P.key x) k < 0)) l1 l2
        (fun x hx => by simpa using a1 x hx)
        (fun x hx => by have := a2 x hx; simp only [decide_eq_false_iff_not]; omega)
      rw [hio, tw, dw]
      refine ⟨?_, internal_insert_leaf P t _ v l1 l2 hB hS hsp hl⟩
      intro x hx
      rcases List.mem_append.mp hx with h1 | h1
      · have := a1 x h1
        omega
      · have := a2 x h1
        omega
    rcases internal_locate_spec P t k hc hS hs hne with
      ⟨e1, e2, e3, e4⟩ | ⟨rp, pos, l1, l2, e1, hsp, hl, a1, a2, a3⟩
    · left
      rw [insert_unique_key_nonempty P t k v he, if_pos e1, e4]
      exact ⟨rfl, rfl, e2, e3⟩
    · have hnk : (internal_locate P t k t.root_iter).2 ≠ kExactMatch := by
        rcases a3 with a3 | ⟨a3, _⟩
        · rw [a3]; decide
        · rw [a3]; decide
      rcases a3 with a3 | ⟨a3, a4⟩
      · -- plain comparison: look at the value found
        rcases internal_last_spec P t hS rp pos l1 l2 hsp with ⟨b1, b2⟩ | ⟨b1, b2, b3⟩
        · right
          have e : insert_unique_key P t k v
              = ((internal_insert P t ⟨some rp, ((pos : Nat) : Int)⟩ v).1,
                  (internal_insert P t ⟨some rp, ((pos : Nat) : Int)⟩ v).2, true) := by
            rw [insert_unique_key_nonempty P t k v he, if_neg hnk, e1, b2]
            simp
          rw [e]
          subst b1
          exact ⟨rfl, ins rp pos l1 [] hsp hl a1 (by simp)⟩
        · by_cases hck : t.compare_keys k (key_at P t (t.internal_last
              ⟨some rp, ((pos : Nat) : Int)⟩)) = false
          · left
            have hsome : (t.internal_last ⟨some rp, ((pos : Nat) : Int)⟩).node.isSome = true := by
              obtain ⟨rp2, e2, _⟩ := b1
              simp [e2]
            have e : insert_unique_key P t k v
                = (t, t.internal_last ⟨some rp, ((pos : Nat) : Int)⟩, false) := by
              rw [insert_unique_key_nonempty P t k v he, if_neg hnk, e1, if_pos ⟨a3, hsome, hck⟩]
            rw [e]
            refine ⟨rfl, rfl, b1, ?_⟩
            have hmem : t.deref (t.internal_last ⟨some rp, ((pos : Nat) : Int)⟩) ∈ l2 :=
              List.mem_of_mem_head? b3
            have n1 := a2 _ hmem
            have n2 : ¬ t.comp k (P.key (t.deref (t.internal_last
                ⟨some rp, ((pos : Nat) : Int)⟩))) < 0 := by
              simpa [compare_keys, key_at] using hck
            exact hc.eq_zero_of_not_lt _ _ n1 n2
          · right
            have e : insert_unique_key P t k v
                = ((internal_insert P t ⟨some rp, ((pos : Nat) : Int)⟩ v).1,
                    (internal_insert P t ⟨some rp, ((pos : Nat) : Int)⟩ v).2, true) := by
              rw [insert_unique_key_nonempty P t k v he, if_neg hnk, e1,
                if_neg (fun hh => hck hh.2.2)]
            rw [e]
            refine ⟨rfl, ins rp pos l1 l2 hsp hl a1 ?_⟩
            -- the first value after the position is greater than `k`, hence all are
            have hlt : t.comp k (P.key (t.deref (t.internal_last
                ⟨some rp, ((pos : Nat) : Int)⟩))) < 0 := by
              simpa [compare_keys, key_at] using hck
            have hgt := (hc.swap_lt _ _).mp hlt
            have hio := splits_inorder P t _ l1 l2 hS hsp
            have hq := sorted_gt P t k hc hs
            rw [hio] at hq
            have hq2 := (List.pairwise_append.mp hq).2.1
            cases l2 with
            | nil => simp
            | cons y ys =>
              simp only [List.head?_cons, Option.some.injEq] at b3
              rw [← b3] at hgt
              intro x hx
              rcases List.mem_cons.mp hx with rfl | hx1
              · exact hgt
              · exact (List.pairwise_cons.mp hq2).1 x hx1 hgt
      · right
        have hn0 : (internal_locate P t k t.root_iter).2 ≠ 0 := by
          rw [a3]; decide
        have e : insert_unique_key P t k v
            = ((internal_insert P t ⟨some rp, ((pos : Nat) : Int)⟩ v).1,
                (internal_insert P t ⟨some rp, ((pos : Nat) : Int)⟩ v).2, true) := by
          rw [insert_unique_key_nonempty P t k v he, if_neg hnk, e1,
            if_neg (fun hh => hn0 hh.1)]
        rw [e]
        exact ⟨rfl, ins rp pos l1 l2 hsp hl a1 a4⟩

end InsertUnique2

end Btree

end CppBtree

namespace CppBtree

variable {K V : Type}

namespace Btree

section SortedInsert

variable [Inhabited V]

theorem sorted_of_strict (P : Params K V) (t : Btree K V) (hc : LawfulComp t.comp)
    (hs : StrictSorted P t) : Sorted P t :=
  List.Pairwise.imp (fun {a b} hab hba => by
    have h1 := (hc.swap_lt _ _).mp hab
    simp only [key_lt] at hab
    omega) hs

theorem pairwise_insert (R : V → V → Prop) (l1 l2 : List V) (v : V)
    (h : (l1 ++ l2).Pairwise R) (h1 : ∀ x ∈ l1, R x v) (h2 : ∀ x ∈ l2, R v x) :
    (l1 ++ v :: l2).Pairwise R := by
  rw [List.pairwise_append] at h ⊢
  refine ⟨h.1, List.pairwise_cons.mpr ⟨h2, h.2.1⟩, ?_⟩
  intro a ha b hb
  rcases List.mem_cons.mp hb with rfl | hb1
  · exact h1 a ha
  · exact h.2.2 a ha b hb1

/-- Storing a value between the smaller and the greater keys keeps a strict order strict. -/
theorem strictSorted_insert (P : Params K V) (t t2 : Btree K V) (v : V) (l1 l2 : List V)
    (hc : LawfulComp t.comp) (hcomp : t2.comp = t.comp) (hs : StrictSorted P t)
    (hio : t.inorder = l1 ++ l2) (hio2 : t2.inorder = l1 ++ v :: l2)
    (h1 : ∀ x ∈ l1, t.comp (P.key x) (P.key v) < 0)
    (h2 : ∀ x ∈ l2, t.comp (P.key x) (P.key v) > 0) : StrictSorted P t2 := by
  simp only [StrictSorted, hio2, hcomp]
  simp only [StrictSorted, hio] at hs
  apply pairwise_insert _ _ _ _ hs
  · exact h1
  · intro x hx
    exact (hc.swap_lt _ _).mpr (h2 x hx)

/-- Storing a value between the not greater and the greater keys keeps the order. -/
theorem sorted_insert (P : Params K V) (t t2 : Btree K V) (v : V) (l1 l2 : List V)
    (hc : LawfulComp t.comp) (hcomp : t2.comp = t.comp) (hs : Sorted P t)
    (hio : t.inorder = l1 ++ l2) (hio2 : t2.inorder = l1 ++ v :: l2)
    (h1 : ∀ x ∈ l1, ¬ t.comp (P.key x) (P.key v) > 0)
    (h2 : ∀ x ∈ l2, ¬ t.comp (P.key x) (P.key v) < 0) : Sorted P t2 := by
  simp only [Sorted, hio2, hcomp]
  simp only [Sorted, hio] at hs
  apply pairwise_insert _ _ _ _ hs
  · intro x hx hlt
    exact h1 x hx ((hc.swap_lt _ _).mp hlt)
  · intro x hx
    exact h2 x hx

theorem takeWhile_dropWhile_facts (p : V → Bool) (l : List V)
    (hmono : l.Pairwise (fun x y => p y = true → p x = true)) :
    (∀ x ∈ l.takeWhile p, p x = true) ∧ (∀ x ∈ l.dropWhile p, p x = false) := by
  refine ⟨fun x hx => List.mem_takeWhile_imp hx, ?_⟩
  induction l with
  | nil => simp
  | cons a as ih =>
    have hp := List.pairwise_cons.mp hmono
    by_cases ha : p a = true
    · simp only [List.dropWhile, ha]
      exact ih hp.2
    · simp only [List.dropWhile, ha]
      intro x hx
      rcases List.mem_cons.mp hx with rfl | hx1
      · simpa using ha
      · by_contra hxp
        exact ha (hp.1 x hx1 (by simpa using hxp))

end SortedInsert

end Btree

end CppBtree

namespace CppBtree

variable {K V : Type}

namespace Btree

section InsertUnique3

variable [Inhabited V]

/-- The values before and after the place of a new key in a sorted tree. -/
theorem new_key_sides (P : Params K V) (t : Btree K V) (k : K) (hc : LawfulComp t.comp)
    (hs : Sorted P t) (hnone : ∀ x ∈ t.inorder, t.comp (P.key x) k ≠ 0) :
    (∀ x ∈ t.inorder.takeWhile (fun x => decide (t.comp (P.key x) k < 0)),
        t.comp (P.key x) k < 0)
      ∧ (∀ x ∈ t.inorder.dropWhile (fun x => decide (t.comp (P.key x) k < 0)),
        t.comp (P.key x) k > 0) := by
  obtain ⟨a1, a2⟩ := takeWhile_dropWhile_facts (fun x => decide (t.comp (P.key x) k < 0))
    t.inorder (List.Pairwise.imp (fun {a b} hab hb => by
      simp only [decide_eq_true_eq] at hb ⊢
      exact hab hb) (sorted_lt P t k hc hs))
  refine ⟨fun x hx => by simpa using a1 x hx, fun x hx => ?_⟩
  have h1 := a2 x hx
  simp only [decide_eq_false_iff_not] at h1
  have h2 := hnone x ((List.dropWhile_sublist _).subset hx)
  omega

/-- `insert_unique` keeps a well-shaped strictly sorted tree well shaped and strictly sorted. -/
theorem insert_unique_strict (P : Params K V) (t : Btree K V) (v : V)
    (hB : 3 ≤ P.kNodeValues) (hc : LawfulComp t.comp) (hS : Shaped P t)
    (hs : StrictSorted P t) :
    (insert_unique P t v).1.comp = t.comp ∧ Shaped P (insert_unique P t v).1
      ∧ StrictSorted P (insert_unique P t v).1 := by
  have hs1 := sorted_of_strict P t hc hs
  rcases insert_unique_key_spec P t (P.key v) v hB hc hS hs1 with
    ⟨_, e, _, _⟩ | ⟨_, hnone, h1, h2, h3, _⟩
  · simp only [insert_unique]
    rw [e]
    exact ⟨rfl, hS, hs⟩
  · obtain ⟨s1, s2⟩ := new_key_sides P t (P.key v) hc hs1 hnone
    simp only [insert_unique]
    exact ⟨h1, h2, strictSorted_insert P t _ v _ _ hc h1 hs
      (List.takeWhile_append_dropWhile _ _).symm h3 s1 s2⟩

/-- `insert_unique` keeps a well-shaped sorted tree well shaped and sorted. -/
theorem insert_unique_sorted (P : Params K V) (t : Btree K V) (v : V)
    (hB : 3 ≤ P.kNodeValues) (hc : LawfulComp t.comp) (hS : Shaped P t)
    (hs : Sorted P t) :
    (insert_unique P t v).1.comp = t.comp ∧ Shaped P (insert_unique P t v).1
      ∧ Sorted P (insert_unique P t v).1 := by
  rcases insert_unique_key_spec P t (P.key v) v hB hc hS hs with
    ⟨_, e, _, _⟩ | ⟨_, hnone, h1, h2, h3, _⟩
  · simp only [insert_unique]
    rw [e]
    exact ⟨rfl, hS, hs⟩
  · obtain ⟨s1, s2⟩ := new_key_sides P t (P.key v) hc hs hnone
    simp only [insert_unique]
    refine ⟨h1, h2, sorted_insert P t _ v _ _ hc h1 hs
      (List.takeWhile_append_dropWhile _ _).symm h3 ?_ ?_⟩
    · intro x hx
      have := s1 x hx
      omega
    · intro x hx
      have := s2 x hx
      omega

end InsertUnique3

end Btree

end CppBtree

namespace CppBtree

variable {K V : Type}

namespace Btree

/-- C3: in a well-shaped unique tree (strictly increasing in-order sequence, lawful comparator),
when the key of `v` compares equal to the key of a stored value, `insert_unique(v)` returns
`false` together with an iterator that designates a stored value with that equal key, and the
tree, hence its in-order sequence and `size()`, is unchanged. -/
theorem insert_unique_duplicate [Inhabited V] (P : Params K V) (t : Btree K V) (v : V)
    (hB : 3 ≤ P.kNodeValues) (hc : LawfulComp t.comp) (hS : Shaped P t)
    (hs : StrictSorted P t) (hdup : ∃ x ∈ t.inorder, t.comp (P.key x) (P.key v) = 0) :
    (insert_unique P t v).2.2 = false
      ∧ PointsAt t (insert_unique P t v).2.1
      ∧ t.comp (P.key (t.deref (insert_unique P t v).2.1)) (P.key v) = 0
      ∧ (insert_unique P t v).1 = t
      ∧ (insert_unique P t v).1.inorder = t.inorder
      ∧ (insert_unique P t v).1.size = t.size := by
  rcases insert_unique_key_spec P t (P.key v) v hB hc hS (sorted_of_strict P t hc hs) with
    ⟨e1, e2, e3, e4⟩ | ⟨_, hnone, _⟩
  · simp only [insert_unique]
    refine ⟨e1, e3, e4, e2, by rw [e2], by rw [e2]⟩
  · obtain ⟨x, hx, hxe⟩ := hdup
    exact absurd hxe (hnone x hx)

theorem insert_unique_duplicate_witness :
    3 ≤ Example.params.kNodeValues ∧ LawfulComp Example.tree.comp
      ∧ Shaped Example.params Example.tree ∧ StrictSorted Example.params Example.tree
      ∧ (∃ x ∈ Example.tree.inorder,
          Example.tree.comp (Example.params.key x) (Example.params.key 20) = 0)
      ∧ ((insert_unique Example.params Example.tree 20).2.2 = false
        ∧ PointsAt Example.tree (insert_unique Example.params Example.tree 20).2.1
        ∧ Example.tree.comp (Example.params.key
            (Example.tree.deref (insert_unique Example.params Example.tree 20).2.1))
            (Example.params.key 20) = 0
        ∧ (insert_unique Example.params Example.tree 20).1 = Example.tree
        ∧ (insert_unique Example.params Example.tree 20).1.inorder = Example.tree.inorder
        ∧ (insert_unique Example.params Example.tree 20).1.size = Example.tree.size) :=
  ⟨by decide, Example.int_compare_lawful, by decide, by decide, ⟨20, by decide, by decide⟩,
    insert_unique_duplicate Example.params Example.tree 20 (by decide)
      Example.int_compare_lawful (by decide) (by decide) ⟨20, by decide, by decide⟩⟩

/-- C4: in a well-shaped unique tree, when the key of `v` compares equal to no stored key,
`insert_unique(v)` returns `true` with an iterator that designates a stored value equal to `v`,
`size()` grows by exactly one, and the in-order sequence afterwards is the old sequence with
`v` put between the values whose key is less than the key of `v` and the others, which keep
their order; the sequence stays strictly increasing and the tree well shaped. -/
theorem insert_unique_new [Inhabited V] (P : Params K V) (t : Btree K V) (v : V)
    (hB : 3 ≤ P.kNodeValues) (hc : LawfulComp t.comp) (hS : Shaped P t)
    (hs : StrictSorted P t) (hnone : ∀ x ∈ t.inorder, t.comp (P.key x) (P.key v) ≠ 0) :
    (insert_unique P t v).2.2 = true
      ∧ PointsAt (insert_unique P t v).1 (insert_unique P t v).2.1
      ∧ (insert_unique P t v).1.deref (insert_unique P t v).2.1 = v
      ∧ (insert_unique P t v).1.size = t.size + 1
      ∧ (insert_unique P t v).1.inorder
          = t.inorder.takeWhile (fun x => decide (t.comp (P.key x) (P.key v) < 0))
            ++ v :: t.inorder.dropWhile (fun x => decide (t.comp (P.key x) (P.key v) < 0))
      ∧ Shaped P (insert_unique P t v).1 ∧ StrictSorted P (insert_unique P t v).1 := by
  have hpres := insert_unique_strict P t v hB hc hS hs
  rcases insert_unique_key_spec P t (P.key v) v hB hc hS (sorted_of_strict P t hc hs) with
    ⟨_, _, e3, e4⟩ | ⟨e1, _, h1, h2, h3, h4, h5, h6⟩
  · exact absurd e4 (hnone _ (pointsAt_mem P t _ hS e3))
  · simp only [insert_unique] at hpres ⊢
    refine ⟨e1, h4, h6, ?_, h3, h2, hpres.2.2⟩
    rw [size_eq_length P _ h2, size_eq_length P t hS, h3]
    have := congrArg List.length (List.takeWhile_append_dropWhile
      (fun x => decide (t.comp (P.key x) (P.key v) < 0)) t.inorder)
    simp only [List.length_append, List.length_cons] at this ⊢
    omega

theorem insert_unique_new_witness :
    3 ≤ Example.params.kNodeValues ∧ LawfulComp Example.tree.comp
      ∧ Shaped Example.params Example.tree ∧ StrictSorted Example.params Example.tree
      ∧ (∀ x ∈ Example.tree.inorder,
          Example.tree.comp (Example.params.key x) (Example.params.key 35) ≠ 0)
      ∧ ((insert_unique Example.params Example.tree 35).2.2 = true
        ∧ PointsAt (insert_unique Example.params Example.tree 35).1
            (insert_unique Example.params Example.tree 35).2.1
        ∧ (insert_unique Example.params Example.tree 35).1.deref
            (insert_unique Example.params Example.tree 35).2.1 = 35
        ∧ (insert_unique Example.params Example.tree 35).1.size = Example.tree.size + 1
        ∧ (insert_unique Example.params Example.tree 35).1.inorder
            = Example.tree.inorder.takeWhile
                (fun x => decide (Example.tree.comp (Example.params.key x)
                  (Example.params.key 35) < 0))
              ++ 35 :: Example.tree.inorder.dropWhile
                (fun x => decide (Example.tree.comp (Example.params.key x)
                  (Example.params.key 35) < 0))
        ∧ Shaped Example.params (insert_unique Example.params Example.tree 35).1
        ∧ StrictSorted Example.params (insert_unique Example.params Example.tree 35).1) :=
  ⟨by decide, Example.int_compare_lawful, by decide, by decide, by decide,
    insert_unique_new Example.params Example.tree 35 (by decide)
      Example.int_compare_lawful (by decide) (by decide) (by decide)⟩

end Btree

end CppBtree

namespace CppBtree

variable {K V : Type}

namespace Node

theorem pre_child_zero (n : Node V) : n.pre_child 0 = [] := by
  simp [pre_child, join_cv]

theorem post_child_count (n : Node V) (g : Nat) (hg : n.count ≤ g) : n.post_child g = [] := by
  simp only [post_child]
  rw [drop_all n.values g hg]
  exact join_vc_nil _

end Node

namespace Btree

section Extremes

variable [Inhabited V]

/-- Walking down last children reaches the leaf that ends the subtree. -/
theorem rightmost_from_spec (t : Btree K V) (r : Node V) (B H : Nat) (hr : t.root_node = r) :
    ∀ (fuel : Nat) (rp : List Nat) (h : Nat), h ≤ fuel → Ctx B r rp h H →
      (Node.wfc B h 1 B (getNode r rp) = true ∨ (getNode r rp).leaf = true) →
      ValidPath r (t.rightmost_from fuel rp)
        ∧ (getNode r (t.rightmost_from fuel rp)).leaf = true
        ∧ pre r (t.rightmost_from fuel rp) ++ (getNode r (t.rightmost_from fuel rp)).values
            = pre r rp ++ (getNode r rp).inorder
        ∧ post r (t.rightmost_from fuel rp) = post r rp := by
  intro fuel
  induction fuel with
  | zero =>
    intro rp h hf hc hN
    have hz : h = 0 := by omega
    subst hz
    have hl : (getNode r rp).leaf = true := by
      rcases hN with hN | hN
      · exact (Node.wfc_leaf_zero _ _ _ _ _ hN).mpr rfl
      · exact hN
    have e : t.rightmost_from 0 rp = rp := rfl
    rw [e]
    refine ⟨validPath_of_ctx _ _ _ _ _ hc, hl, ?_, rfl⟩
    rw [Node.eq_leaf_of_leaf _ B hl]
    simp
  | succ fuel ih =>
    intro rp h hf hc hN
    by_cases hl : (getNode r rp).leaf = true
    · have e : t.rightmost_from (fuel + 1) rp = rp := by
        simp only [rightmost_from, node, hr, hl, if_true]
      rw [e]
      refine ⟨validPath_of_ctx _ _ _ _ _ hc, hl, ?_, rfl⟩
      rw [Node.eq_leaf_of_leaf _ B hl]
      simp
    · have hl2 : (getNode r rp).leaf = false := by simpa using hl
      have hN2 : Node.wfc B h 1 B (getNode r rp) = true := by
        rcases hN with hN | hN
        · exact hN
        · exact absurd hN hl
      cases h with
      | zero => exact absurd ((Node.wfc_leaf_zero _ _ _ _ _ hN2).mpr rfl) hl
      | succ h1 =>
        obtain ⟨_, w2, w3⟩ := Node.leaf_false_of_wfc_succ _ _ _ _ _ hN2
        have hcnt := Node.wfc_count _ _ _ _ _ hN2
        have hc2 : Ctx B r ((getNode r rp).count :: rp) h1 H :=
          ⟨hl2, hcnt.1, hcnt.2, w2, by omega, fun j hj _ => w3 _ (Node.child_mem _ _ hj), hc⟩
        obtain ⟨a1, a2, a3, a4⟩ := ih ((getNode r rp).count :: rp) h1 (by omega) hc2
          (Or.inl (w3 _ (Node.child_mem _ _ (by omega))))
        have e : t.rightmost_from (fuel + 1) rp
            = t.rightmost_from fuel ((getNode r rp).count :: rp) := by
          simp only [rightmost_from, node, hr, hl2, Bool.false_eq_true, if_false]
        rw [e]
        refine ⟨a1, a2, ?_, ?_⟩
        · rw [a3]
          simp only [pre, getNode]
          rw [Node.inorder_split _ (getNode r rp).count hl2 w2 (by omega),
            Node.post_child_count _ _ (Nat.le_refl _)]
          simp
        · rw [a4]
          simp only [post]
          rw [Node.post_child_count _ _ (Nat.le_refl _)]
          simp

/-- Walking down first children reaches the leaf that begins the subtree. -/
theorem leftmost_from_spec (t : Btree K V) (r : Node V) (B H : Nat) (hr : t.root_node = r) :
    ∀ (fuel : Nat) (rp : List Nat) (h : Nat), h ≤ fuel → Ctx B r rp h H →
      (Node.wfc B h 1 B (getNode r rp) = true
        ∨ ((getNode r rp).leaf = true ∧ 1 ≤ (getNode r rp).count)) →
      ValidPath r (t.leftmost_from fuel rp)
        ∧ (getNode r (t.leftmost_from fuel rp)).leaf = true
        ∧ pre r (t.leftmost_from fuel rp) = pre r rp
        ∧ (getNode r (t.leftmost_from fuel rp)).values ++ post r (t.leftmost_from fuel rp)
            = (getNode r rp).inorder ++ post r rp
        ∧ 1 ≤ (getNode r (t.leftmost_from fuel rp)).count := by
  intro fuel
  induction fuel with
  | zero =>
    intro rp h hf hc hN
    have hz : h = 0 := by omega
    subst hz
    have hl : (getNode r rp).leaf = true ∧ 1 ≤ (getNode r rp).count := by
      rcases hN with hN | hN
      · exact ⟨(Node.wfc_leaf_zero _ _ _ _ _ hN).mpr rfl, (Node.wfc_count _ _ _ _ _ hN).1⟩
      · exact hN
    have e : t.leftmost_from 0 rp = rp := rfl
    rw [e]
    refine ⟨validPath_of_ctx _ _ _ _ _ hc, hl.1, rfl, ?_, hl.2⟩
    rw [Node.eq_leaf_of_leaf _ B hl.1]
    simp
  | succ fuel ih =>
    intro rp h hf hc hN
    by_cases hl : (getNode r rp).leaf = true
    · have e : t.leftmost_from (fuel + 1) rp = rp := by
        simp only [leftmost_from, node, hr, hl, if_true]
      rw [e]
      have hcnt : 1 ≤ (getNode r rp).count := by
        rcases hN with hN | hN
        · exact (Node.wfc_count _ _ _ _ _ hN).1
        · exact hN.2
      refine ⟨validPath_of_ctx _ _ _ _ _ hc, hl, rfl, ?_, hcnt⟩
      rw [Node.eq_leaf_of_leaf _ B hl]
      simp
    · have hl2 : (getNode r rp).leaf = false := by simpa using hl
      have hN2 : Node.wfc B h 1 B (getNode r rp) = true := by
        rcases hN with hN | hN
        · exact hN
        · exact absurd hN.1 hl
      cases h with
      | zero => exact absurd ((Node.wfc_leaf_zero _ _ _ _ _ hN2).mpr rfl) hl
      | succ h1 =>
        obtain ⟨_, w2, w3⟩ := Node.leaf_false_of_wfc_succ _ _ _ _ _ hN2
        have hcnt := Node.wfc_count _ _ _ _ _ hN2
        have hc2 : Ctx B r (0 :: rp) h1 H :=
          ⟨hl2, hcnt.1, hcnt.2, w2, by omega, fun j hj _ => w3 _ (Node.child_mem _ _ hj), hc⟩
        obtain ⟨a1, a2, a3, a4, a5⟩ := ih (0 :: rp) h1 (by omega) hc2
          (Or.inl (w3 _ (Node.child_mem _ _ (by omega))))
        have e : t.leftmost_from (fuel + 1) rp = t.leftmost_from fuel (0 :: rp) := by
          simp only [leftmost_from, node, hr, hl2, Bool.false_eq_true, if_false]
        rw [e]
        refine ⟨a1, a2, ?_, ?_, a5⟩
        · rw [a3]
          simp only [pre]
          rw [Node.pre_child_zero]
          simp
        · rw [a4]
          simp only [post, getNode]
          rw [Node.inorder_split _ 0 hl2 w2 (by omega), Node.pre_child_zero]
          simp

end Extremes

end Btree

end CppBtree

namespace CppBtree

variable {K V : Type}

namespace Btree

section Extremes2

variable [Inhabited V]

theorem root_shape (B H : Nat) (r : Node V) (hw : Node.wf_root B H r = true) :
    Node.wfc B H 1 B (getNode r []) = true
      ∨ ((getNode r []).leaf = true ∧ 1 ≤ (getNode r []).count) := by
  cases r with
  | leaf_node m vs =>
    right
    simp only [Node.wf_root, Bool.and_eq_true, decide_eq_true_eq] at hw
    exact ⟨rfl, hw.1.1.2⟩
  | internal_node vs cs => exact Or.inl hw

theorem end_spec (P : Params K V) (t : Btree K V) (r : Node V) (ht : t.root = some r)
    (hS : Shaped P t) :
    ∃ rp, t.end_ = ⟨some rp, ((t.node rp).count : Int)⟩ ∧ (t.node rp).leaf = true
      ∧ rp = t.rightmost_from t.height []
      ∧ Splits t t.end_ t.inorder [] := by
  have hr := root_node_of_root t r ht
  have hS2 := hS
  rw [shaped_of_root P t r ht] at hS2
  have hh : t.height = r.height := by simp [height, ht]
  have hsh : Node.wfc P.kNodeValues (r.height - 1) 1 P.kNodeValues (getNode r []) = true
      ∨ (getNode r []).leaf = true := by
    rcases root_shape _ _ r hS2.1 with h | h
    · exact Or.inl h
    · exact Or.inr h.1
  obtain ⟨a1, a2, a3, a4⟩ := rightmost_from_spec t r P.kNodeValues (r.height - 1) hr t.height []
    (r.height - 1) (by omega) rfl hsh
  have e : t.end_ = ⟨some (t.rightmost_from t.height []),
      ((t.node (t.rightmost_from t.height [])).count : Int)⟩ := by
    simp [end_, rightmost, empty, ht]
  refine ⟨_, e, by simpa [node, hr] using a2, rfl, ?_⟩
  rw [e, splits_iff t r ht]
  simp only [node, hr, Int.toNat_ofNat]
  refine ⟨a1, by simp, le_refl _, ?_, ?_⟩
  · rw [Node.pre_part_leaf_node _ a2, Node.mid_part_leaf_node _ a2, List.append_nil,
      take_all _ _ (by simp [Node.count]), a3, inorder_of_root t r ht]
    simp [pre, getNode]
  · rw [Node.post_part_count _ _ (Nat.le_refl _), a4]
    simp [post]

theorem begin_spec (P : Params K V) (t : Btree K V) (r : Node V) (ht : t.root = some r)
    (hS : Shaped P t) :
    PointsAt t t.begin_ ∧ Splits t t.begin_ [] t.inorder
      ∧ t.inorder.head? = some (t.deref t.begin_) := by
  have hr := root_node_of_root t r ht
  have hS2 := hS
  rw [shaped_of_root P t r ht] at hS2
  have hh : t.height = r.height := by simp [height, ht]
  obtain ⟨a1, a2, a3, a4, a5⟩ := leftmost_from_spec t r P.kNodeValues (r.height - 1) hr t.height
    [] (r.height - 1) (by omega) rfl (root_shape _ _ r hS2.1)
  have e : t.begin_ = ⟨some (t.leftmost_from t.height []), 0⟩ := by
    simp [begin_, leftmost, empty, ht]
  have hsp : Splits t t.begin_ [] t.inorder := by
    rw [e, splits_iff t r ht]
    refine ⟨a1, le_refl _, by simp, ?_, ?_⟩
    · rw [Node.pre_part_leaf_node _ a2, Node.mid_part_leaf_node _ a2, a3]
      simp [pre]
    · rw [Node.post_part_leaf_node _ a2]
      simp only [Int.toNat_zero, List.drop_zero]
      rw [a4, inorder_of_root t r ht]
      simp [post, getNode]
  have hpa : PointsAt t t.begin_ := by
    rw [e, pointsAt_iff t r ht]
    exact ⟨a1, le_refl _, by omega⟩
  refine ⟨hpa, hsp, ?_⟩
  rw [e] at hsp ⊢
  rw [splits_iff t r ht] at hsp
  obtain ⟨_, _, _, _, q2⟩ := hsp
  obtain ⟨rest, e2⟩ := Node.post_part_cons (getNode r (t.leftmost_from t.height [])) 0
    (by omega)
  simp only [Int.toNat_zero] at q2
  rw [← q2, e2]
  simp [deref, Iter.path, node, hr]

end Extremes2

end Btree

end CppBtree

namespace CppBtree

variable {K V : Type}

theorem ctx_depth (B : Nat) (r : Node V) (rp : List Nat) (h H : Nat)
    (hc : Ctx B r rp h H) : h + rp.length = H := by
  induction rp generalizing h with
  | nil => simpa [Ctx] using hc
  | cons i rp ih =>
    have := ih (h + 1) hc.2.2.2.2.2.2
    simp only [List.length_cons]
    omega

theorem ctx_height_le (B : Nat) (r : Node V) (rp : List Nat) (h H : Nat)
    (hc : Ctx B r rp h H) : h ≤ H := by
  have := ctx_depth B r rp h H hc
  omega

namespace Btree

section Insert4

variable [Inhabited V]

/-- From a position on an internal node, the end of the rightmost leaf below the child at that
position stands between the same values. -/
theorem splits_rightmost_below (P : Params K V) (t : Btree K V) (hS : Shaped P t)
    (rp : List Nat) (pos : Int) (l1 l2 : List V) (hsp : Splits t ⟨some rp, pos⟩ l1 l2)
    (hl : (t.node rp).leaf = false) :
    (t.node (t.rightmost_from t.height (pos.toNat :: rp))).leaf = true
      ∧ Splits t ⟨some (t.rightmost_from t.height (pos.toNat :: rp)),
          ((t.node (t.rightmost_from t.height (pos.toNat :: rp))).count : Int)⟩ l1 l2 := by
  have hne : t.root.isSome = true := by
    obtain ⟨_, _, e2, _⟩ := hsp
    exact e2
  obtain ⟨r, ht⟩ := Option.isSome_iff_exists.mp hne
  have hr := root_node_of_root t r ht
  rw [splits_iff t r ht] at hsp
  obtain ⟨hv, h0, h1, q1, q2⟩ := hsp
  simp only [node, hr] at hl ⊢
  rw [shaped_of_root P t r ht] at hS
  have hh : t.height = r.height := by simp [height, ht]
  have hH := Node.height_of_wf_root _ _ _ hS.1
  obtain ⟨h, hc, hsh, hw, _, _⟩ := node_facts _ _ r rp hS.1 hv
  have hN := hw hl
  cases h with
  | zero => exact absurd ((Node.wfc_leaf_zero _ _ _ _ _ hN).mpr rfl) (by simp [hl])
  | succ h1' =>
    obtain ⟨_, w2, w3⟩ := Node.leaf_false_of_wfc_succ _ _ _ _ _ hN
    have hcnt := Node.wfc_count _ _ _ _ _ hN
    have hc2 : Ctx P.kNodeValues r (pos.toNat :: rp) h1' (r.height - 1) :=
      ⟨hl, hcnt.1, hcnt.2, w2, by omega, fun j hj _ => w3 _ (Node.child_mem _ _ hj), hc⟩
    have hle : h1' + 1 ≤ r.height - 1 := ctx_height_le _ _ _ _ _ hc
    obtain ⟨a1, a2, a3, a4⟩ := rightmost_from_spec t r P.kNodeValues (r.height - 1) hr t.height
      (pos.toNat :: rp) h1' (by omega) hc2 (Or.inl (w3 _ (Node.child_mem _ _ (by omega))))
    refine ⟨a2, ?_⟩
    rw [splits_iff t r ht]
    simp only [Int.toNat_ofNat]
    refine ⟨a1, by simp, le_refl _, ?_, ?_⟩
    · rw [Node.pre_part_leaf_node _ a2, Node.mid_part_leaf_node _ a2, List.append_nil,
        take_all _ _ (by simp [Node.count]), a3, ← q1, Node.pre_mid_internal _ _ hl]
      simp [pre, getNode]
    · rw [Node.post_part_count _ _ (Nat.le_refl _), a4, ← q2, Node.post_part_internal _ hl]
      simp [post]

theorem internal_insert_internal_eq (P : Params K V) (t : Btree K V) (rp : List Nat)
    (pos : Int) (v : V) (hl : (t.node rp).leaf = false)
    (hl2 : (t.node (t.rightmost_from t.height (pos.toNat :: rp))).leaf = true) :
    internal_insert P t ⟨some rp, pos⟩ v
      = internal_insert P t ⟨some (t.rightmost_from t.height (pos.toNat :: rp)),
          ((t.node (t.rightmost_from t.height (pos.toNat :: rp))).count : Int)⟩ v := by
  simp only [internal_insert, Iter.path, Option.getD_some, hl, hl2, decrement,
    Bool.false_eq_true, if_false, if_true, sub_add_cancel]

/-- `internal_insert` at any position that stands between `l1` and `l2`. -/
theorem internal_insert_spec (P : Params K V) (t : Btree K V) (iter : Iter) (v : V)
    (l1 l2 : List V) (hB : 3 ≤ P.kNodeValues) (hS : Shaped P t) (hsp : Splits t iter l1 l2) :
    InsertedAt P t (internal_insert P t iter v).1 (internal_insert P t iter v).2 l1 v l2 := by
  by_cases hl : (t.node iter.path).leaf = true
  · exact internal_insert_leaf P t iter v l1 l2 hB hS hsp hl
  · have hl' : (t.node iter.path).leaf = false := by simpa using hl
    obtain ⟨inode, pos⟩ := iter
    have hn : ∃ rp, inode = some rp := by
      obtain ⟨rp, e, _⟩ := hsp
      exact ⟨rp, e⟩
    obtain ⟨rp, rfl⟩ := hn
    simp only [Iter.path, Option.getD_some] at hl'
    obtain ⟨b1, b2⟩ := splits_rightmost_below P t hS rp pos l1 l2 hsp hl'
    rw [internal_insert_internal_eq P t rp pos v hl' b1]
    exact internal_insert_leaf P t _ v l1 l2 hB hS b2 b1

end Insert4

end Btree

end CppBtree

namespace CppBtree

variable {K V : Type}

namespace Btree

section InsertMulti

variable [Inhabited V]

theorem insert_multi_key_empty (P : Params K V) (t : Btree K V) (k : K) (v : V)
    (hroot : t.root = none) :
    insert_multi_key P t k v = (t.with_root (some (Node.leaf_node 1 [v])), ⟨some [], 0⟩) := by
  have e0 : (t.with_root (some (Node.leaf_node 1 ([] : List V)))).root_iter = ⟨some [], 0⟩ := rfl
  have eh : (t.with_root (some (Node.leaf_node 1 ([] : List V)))).height = 1 := rfl
  have eub : internal_upper_bound P (t.with_root (some (Node.leaf_node 1 []))) k ⟨some [], 0⟩
      = ⟨none, 0⟩ := by
    simp [internal_upper_bound, eh, Iter.path, internal_upper_bound_loop, node, getNode,
      upper_bound_empty, internal_last, internal_last_at]
  have eend : (t.with_root (some (Node.leaf_node 1 ([] : List V)))).end_ = ⟨some [], 0⟩ := by
    simp [end_, rightmost, empty, eh, rightmost_from, node, getNode]
  have eins : internal_insert P (t.with_root (some (Node.leaf_node 1 []))) ⟨some [], 0⟩ v
      = (t.with_root (some (Node.leaf_node 1 [v])), ⟨some [], 0⟩) := by
    simp [internal_insert, Iter.path, node, getNode, set_node, setNode, with_root,
      Node.insert_value_leaf, root_node]
  simp only [insert_multi_key, empty, hroot, Option.isNone_none, if_true, e0, eub, eend]
  simpa using eins

/-- The outcome of `insert_multi(key, value)`: the value is stored after every value whose key
is not greater than `key`. -/
theorem insert_multi_key_spec (P : Params K V) (t : Btree K V) (k : K) (v : V)
    (hB : 3 ≤ P.kNodeValues) (hc : LawfulComp t.comp) (hS : Shaped P t) (hs : Sorted P t) :
    InsertedAt P t (insert_multi_key P t k v).1 (insert_multi_key P t k v).2
      (t.inorder.takeWhile (fun x => decide (¬ t.comp (P.key x) k > 0))) v
      (t.inorder.dropWhile (fun x => decide (¬ t.comp (P.key x) k > 0))) := by
  cases hroot : t.root with
  | none =>
    rw [insert_multi_key_empty P t k v hroot]
    simpa [inorder, hroot] using insertedAt_singleton P t v (by omega)
  | some r =>
    have hne : t.root.isSome = true := by simp [hroot]
    have he : t.empty = false := by simp [empty, hroot]
    obtain ⟨rp, pos, l1, l2, e, hsp, _, a1, a2⟩ := upper_descent P t k hS hne
      (sorted_gt P t k hc hs)
    have hio := splits_inorder P t _ l1 l2 hS hsp
    obtain ⟨tw, dw⟩ := takeWhile_of_split (fun x => decide (¬ t.comp (P.key x) k > 0)) l1 l2
      (fun x hx => by simpa using a1 x hx) (fun x hx => by simpa using a2 x hx)
    rw [hio, tw, dw]
    have e2 : internal_upper_bound P t k t.root_iter
        = t.internal_last ⟨some rp, ((pos : Nat) : Int)⟩ := by
      simp only [internal_upper_bound, root_iter, empty, hroot, Option.isNone_some,
        Bool.false_eq_true, if_false, Option.isSome_some, if_true, Iter.path, Option.getD_some,
        internal_upper_bound_loop_eq, e]
    have e3 : insert_multi_key P t k v
        = internal_insert P t (if (t.internal_last ⟨some rp, ((pos : Nat) : Int)⟩).node.isSome
            then t.internal_last ⟨some rp, ((pos : Nat) : Int)⟩ else t.end_) v := by
      simp only [insert_multi_key, he, Bool.false_eq_true, if_false, e2]
    rw [e3]
    rcases internal_last_spec P t hS rp pos l1 l2 hsp with ⟨b1, b2⟩ | ⟨b1, b2, _⟩
    · rw [b2]
      simp only [Option.isSome_none, Bool.false_eq_true, if_false]
      subst b1
      obtain ⟨_, _, _, _, hend⟩ := end_spec P t r hroot hS
      rw [hio, List.append_nil] at hend
      exact internal_insert_spec P t _ v l1 [] hB hS hend
    · have hsome : (t.internal_last ⟨some rp, ((pos : Nat) : Int)⟩).node.isSome = true := by
        obtain ⟨rp2, e4, _⟩ := b1
        simp [e4]
      rw [if_pos hsome]
      exact internal_insert_spec P t _ v l1 l2 hB hS b2

/-- `insert_multi` keeps a well-shaped sorted tree well shaped and sorted. -/
theorem insert_multi_sorted (P : Params K V) (t : Btree K V) (v : V)
    (hB : 3 ≤ P.kNodeValues) (hc : LawfulComp t.comp) (hS : Shaped P t) (hs : Sorted P t) :
    (insert_multi P t v).1.comp = t.comp ∧ Shaped P (insert_multi P t v).1
      ∧ Sorted P (insert_multi P t v).1 := by
  obtain ⟨h1, h2, h3, _⟩ := insert_multi_key_spec P t (P.key v) v hB hc hS hs
  simp only [insert_multi]
  refine ⟨h1, h2, sorted_insert P t _ v _ _ hc h1 hs
    (List.takeWhile_append_dropWhile _ _).symm h3 ?_ ?_⟩
  · intro x hx
    simpa using List.mem_takeWhile_imp hx
  · obtain ⟨_, a2⟩ := takeWhile_dropWhile_facts
      (fun x => decide (¬ t.comp (P.key x) (P.key v) > 0)) t.inorder
      (List.Pairwise.imp (fun {a b} hab hb => by
        simp only [decide_eq_true_eq] at hb ⊢
        exact fun ha => hb (hab ha)) (sorted_gt P t (P.key v) hc hs))
    intro x hx
    have := a2 x hx
    simp only [decide_eq_false_iff_not, not_not] at this
    omega

end InsertMulti

end Btree

end CppBtree

namespace CppBtree

variable {K V : Type}

namespace Btree

section Find

variable [Inhabited V]

/-- The outcome of the search for a key equal to `k` from the root of a non-empty tree: either
the search finds a stored value with an equal key, or no stored key equals `k`. -/
theorem locate_outcome (P : Params K V) (t : Btree K V) (k : K)
    (hc : LawfulComp t.comp) (hS : Shaped P t) (hs : Sorted P t) (hne : t.root.isSome = true) :
    (((internal_locate P t k t.root_iter).2 = kExactMatch
          ∨ ((internal_locate P t k t.root_iter).2 ≠ kExactMatch
            ∧ (internal_locate P t k t.root_iter).2 = 0
            ∧ (t.internal_last (internal_locate P t k t.root_iter).1).node.isSome = true
            ∧ t.compare_keys k (key_at P t
                (t.internal_last (internal_locate P t k t.root_iter).1)) = false))
        ∧ t.internal_last (internal_locate P t k t.root_iter).1
          = (if (internal_locate P t k t.root_iter).2 = kExactMatch
              then (internal_locate P t k t.root_iter).1
              else t.internal_last (internal_locate P t k t.root_iter).1)
        ∧ PointsAt t (t.internal_last (internal_locate P t k t.root_iter).1)
        ∧ t.comp (P.key (t.deref (t.internal_last (internal_locate P t k t.root_iter).1))) k = 0)
      ∨ ((internal_locate P t k t.root_iter).2 ≠ kExactMatch
        ∧ ¬ ((internal_locate P t k t.root_iter).2 = 0
            ∧ (t.internal_last (internal_locate P t k t.root_iter).1).node.isSome = true
            ∧ t.compare_keys k (key_at P t
                (t.internal_last (internal_locate P t k t.root_iter).1)) = false)
        ∧ ∀ x ∈ t.inorder, t.comp (P.key x) k ≠ 0) := by
  have absent : ∀ (l1 l2 : List V), t.inorder = l1 ++ l2 →
      (∀ x ∈ l1, t.comp (P.key x) k < 0) → (∀ x ∈ l2, t.comp (P.key x) k > 0) →
      ∀ x ∈ t.inorder, t.comp (P.key x) k ≠ 0 := by
    intro l1 l2 hio a1 a2 x hx
    rw [hio] at hx
    rcases List.mem_append.mp hx with h1 | h1
    · have := a1 x h1
      omega
    · have := a2 x h1
      omega
  rcases internal_locate_spec P t k hc hS hs hne with
    ⟨e1, e2, e3, e4⟩ | ⟨rp, pos, l1, l2, e1, hsp, hl, a1, a2, a3⟩
  · left
    rw [e4]
    exact ⟨Or.inl e1, by rw [if_pos e1], e2, e3⟩
  · have hnk : (internal_locate P t k t.root_iter).2 ≠ kExactMatch := by
      rcases a3 with a3 | ⟨a3, _⟩
      · rw [a3]; decide
      · rw [a3]; decide
    have hio := splits_inorder P t _ l1 l2 hS hsp
    rcases a3 with a3 | ⟨a3, a4⟩
    · rw [e1]
      rcases internal_last_spec P t hS rp pos l1 l2 hsp with ⟨b1, b2⟩ | ⟨b1, b2, b3⟩
      · right
        refine ⟨hnk, ?_, ?_⟩
        · rw [b2]
          simp
        · subst b1
          exact absent l1 [] hio a1 (by simp)
      · by_cases hck : t.compare_keys k (key_at P t (t.internal_last
            ⟨some rp, ((pos : Nat) : Int)⟩)) = false
        · left
          have hsome : (t.internal_last ⟨some rp, ((pos : Nat) : Int)⟩).node.isSome = true := by
            obtain ⟨rp2, e2, _⟩ := b1
            simp [e2]
          refine ⟨Or.inr ⟨hnk, a3, hsome, hck⟩, by rw [if_neg hnk], b1, ?_⟩
          have hmem : t.deref (t.internal_last ⟨some rp, ((pos : Nat) : Int)⟩) ∈ l2 :=
            List.mem_of_mem_head? b3
          have n1 := a2 _ hmem
          have n2 : ¬ t.comp k (P.key (t.deref (t.internal_last
              ⟨some rp, ((pos : Nat) : Int)⟩))) < 0 := by
            simpa [compare_keys, key_at] using hck
          exact hc.eq_zero_of_not_lt _ _ n1 n2
        · right
          refine ⟨hnk, fun hh => hck hh.2.2, ?_⟩
          have hlt : t.comp k (P.key (t.deref (t.internal_last
              ⟨some rp, ((pos : Nat) : Int)⟩))) < 0 := by
            simpa [compare_keys, key_at] using hck
          have hgt := (hc.swap_lt _ _).mp hlt
          have hq := sorted_gt P t k hc hs
          rw [hio] at hq
          have hq2 := (List.pairwise_append.mp hq).2.1
          apply absent l1 l2 hio a1
          cases l2 with
          | nil => simp
          | cons y ys =>
            simp only [List.head?_cons, Option.some.injEq] at b3
            rw [← b3] at hgt
            intro x hx
            rcases List.mem_cons.mp hx with rfl | hx1
            · exact hgt
            · exact (List.pairwise_cons.mp hq2).1 x hx1 hgt
    · right
      have hn0 : (internal_locate P t k t.root_iter).2 ≠ 0 := by
        rw [a3]; decide
      exact ⟨hnk, fun hh => hn0 hh.1, absent l1 l2 hio a1 a4⟩

/-- `internal_find_unique` from the root: an iterator to a stored value with an equal key, or
the null iterator when no stored key equals `k`. -/
theorem internal_find_unique_spec (P : Params K V) (t : Btree K V) (k : K)
    (hc : LawfulComp t.comp) (hS : Shaped P t) (hs : Sorted P t) :
    ((internal_find_unique P t k t.root_iter).node.isSome = true
        ∧ PointsAt t (internal_find_unique P t k t.root_iter)
        ∧ t.comp (P.key (t.deref (internal_find_unique P t k t.root_iter))) k = 0)
      ∨ (internal_find_unique P t k t.root_iter = ⟨none, 0⟩
        ∧ ∀ x ∈ t.inorder, t.comp (P.key x) k ≠ 0) := by
  cases hroot : t.root with
  | none =>
    right
    simp [internal_find_unique, root_iter, empty, hroot, inorder]
  | some r =>
    have hne : t.root.isSome = true := by simp [hroot]
    have hri : t.root_iter = ⟨some [], 0⟩ := by simp [root_iter, empty, hroot]
    have e : internal_find_unique P t k t.root_iter
        = if (internal_locate P t k t.root_iter).2 = kExactMatch then
            (internal_locate P t k t.root_iter).1
          else if (internal_locate P t k t.root_iter).2 = 0 then
            if (t.internal_last (internal_locate P t k t.root_iter).1).node.isSome
                && !(t.compare_keys k (key_at P t
                  (t.internal_last (internal_locate P t k t.root_iter).1))) then
              t.internal_last (internal_locate P t k t.root_iter).1
            else ⟨none, 0⟩
          else ⟨none, 0⟩ := by
      rw [hri]
      simp only [internal_find_unique, Option.isSome_some, if_true]
    rcases locate_outcome P t k hc hS hs hne with ⟨h1, h2, h3, h4⟩ | ⟨h1, h2, h3⟩
    · left
      have e2 : internal_find_unique P t k t.root_iter
          = t.internal_last (internal_locate P t k t.root_iter).1 := by
        rw [e]
        rcases h1 with h1 | ⟨h0, h1a, h1b, h1c⟩
        · rw [if_pos h1]
          rw [if_pos h1] at h2
          exact h2.symm
        · rw [if_neg h0, if_pos h1a, h1b, h1c]
          simp
      rw [e2]
      obtain ⟨rp, er, _⟩ := h3
      exact ⟨by simp [er], ⟨rp, er, ‹_›⟩, h4⟩
    · right
      refine ⟨?_, h3⟩
      rw [e, if_neg h1]
      by_cases h0 : (internal_locate P t k t.root_iter).2 = 0
      · rw [if_pos h0]
        have : ¬ ((t.internal_last (internal_locate P t k t.root_iter).1).node.isSome = true
            ∧ t.compare_keys k (key_at P t
              (t.internal_last (internal_locate P t k t.root_iter).1)) = false) :=
          fun hh => h2 ⟨h0, hh⟩
        split
        · rename_i hcond
          simp only [Bool.and_eq_true, Bool.not_eq_true'] at hcond
          exact absurd hcond this
        · rfl
      · rw [if_neg h0]

end Find

end Btree

end CppBtree

namespace CppBtree

variable {K V : Type}

namespace Btree

/-- C5: in a well-shaped multi tree (non-decreasing in-order sequence, lawful comparator),
`insert_multi(v)` always stores `v`: the returned iterator designates the newly stored `v`,
`size()` grows by exactly one, and the in-order sequence afterwards is the old sequence with
`v` put after every value whose key is not greater than the key of `v`, that is immediately
before the first value with a strictly greater key, or at the end when there is none; the tree
stays well shaped and sorted. -/
theorem insert_multi_after_equal [Inhabited V] (P : Params K V) (t : Btree K V) (v : V)
    (hB : 3 ≤ P.kNodeValues) (hc : LawfulComp t.comp) (hS : Shaped P t) (hs : Sorted P t) :
    PointsAt (insert_multi P t v).1 (insert_multi P t v).2
      ∧ (insert_multi P t v).1.deref (insert_multi P t v).2 = v
      ∧ Splits (insert_multi P t v).1 (insert_multi P t v).2
          (t.inorder.takeWhile (fun x => decide (¬ t.comp (P.key x) (P.key v) > 0)))
          (v :: t.inorder.dropWhile (fun x => decide (¬ t.comp (P.key x) (P.key v) > 0)))
      ∧ (insert_multi P t v).1.size = t.size + 1
      ∧ (insert_multi P t v).1.inorder
          = t.inorder.takeWhile (fun x => decide (¬ t.comp (P.key x) (P.key v) > 0))
            ++ v :: t.inorder.dropWhile (fun x => decide (¬ t.comp (P.key x) (P.key v) > 0))
      ∧ Shaped P (insert_multi P t v).1 ∧ Sorted P (insert_multi P t v).1 := by
  have hpres := insert_multi_sorted P t v hB hc hS hs
  obtain ⟨h1, h2, h3, h4, h5, h6⟩ := insert_multi_key_spec P t (P.key v) v hB hc hS hs
  simp only [insert_multi] at hpres ⊢
  refine ⟨h4, h6, h5, ?_, h3, h2, hpres.2.2⟩
  rw [size_eq_length P _ h2, size_eq_length P t hS, h3]
  have := congrArg List.length (List.takeWhile_append_dropWhile
    (fun x => decide (¬ t.comp (P.key x) (P.key v) > 0)) t.inorder)
  simp only [List.length_append, List.length_cons] at this ⊢
  omega

theorem insert_multi_after_equal_witness :
    3 ≤ Example.params.kNodeValues ∧ LawfulComp Example.multi_tree.comp
      ∧ Shaped Example.params Example.multi_tree ∧ Sorted Example.params Example.multi_tree
      ∧ (PointsAt (insert_multi Example.params Example.multi_tree 20).1
          (insert_multi Example.params Example.multi_tree 20).2
        ∧ (insert_multi Example.params Example.multi_tree 20).1.deref
            (insert_multi Example.params Example.multi_tree 20).2 = 20
        ∧ Splits (insert_multi Example.params Example.multi_tree 20).1
            (insert_multi Example.params Example.multi_tree 20).2
            (Example.multi_tree.inorder.takeWhile
              (fun x => decide (¬ Example.multi_tree.comp (Example.params.key x)
                (Example.params.key 20) > 0)))
            (20 :: Example.multi_tree.inorder.dropWhile
              (fun x => decide (¬ Example.multi_tree.comp (Example.params.key x)
                (Example.params.key 20) > 0)))
        ∧ (insert_multi Example.params Example.multi_tree 20).1.size
            = Example.multi_tree.size + 1
        ∧ (insert_multi Example.params Example.multi_tree 20).1.inorder
            = Example.multi_tree.inorder.takeWhile
                (fun x => decide (¬ Example.multi_tree.comp (Example.params.key x)
                  (Example.params.key 20) > 0))
              ++ 20 :: Example.multi_tree.inorder.dropWhile
                (fun x => decide (¬ Example.multi_tree.comp (Example.params.key x)
                  (Example.params.key 20) > 0))
        ∧ Shaped Example.params (insert_multi Example.params Example.multi_tree 20).1
        ∧ Sorted Example.params (insert_multi Example.params Example.multi_tree 20).1) :=
  ⟨by decide, Example.int_compare_lawful, by decide, by decide,
    insert_multi_after_equal Example.params Example.multi_tree 20 (by decide)
      Example.int_compare_lawful (by decide) (by decide)⟩

/-- C6: in a well-shaped unique tree (strictly increasing in-order sequence, lawful comparator;
the empty tree included), `find_unique(k)` designates a stored value whose key compares equal
to `k` when there is one, and is `end()` when no stored key compares equal to `k`. -/
theorem find_unique_correct [Inhabited V] (P : Params K V) (t : Btree K V) (k : K)
    (hc : LawfulComp t.comp) (hS : Shaped P t) (hs : StrictSorted P t) :
    ((∃ x ∈ t.inorder, t.comp (P.key x) k = 0) →
        PointsAt t (find_unique P t k) ∧ t.comp (P.key (t.deref (find_unique P t k))) k = 0)
      ∧ ((∀ x ∈ t.inorder, t.comp (P.key x) k ≠ 0) → find_unique P t k = t.end_) := by
  rcases internal_find_unique_spec P t k hc hS (sorted_of_strict P t hc hs) with
    ⟨h1, h2, h3⟩ | ⟨h1, h2⟩
  · have e : find_unique P t k = internal_find_unique P t k t.root_iter := by
      simp [find_unique, internal_end, h1]
    rw [e]
    exact ⟨fun _ => ⟨h2, h3⟩, fun hnone => absurd h3 (hnone _ (pointsAt_mem P t _ hS h2))⟩
  · have e : find_unique P t k = t.end_ := by
      simp [find_unique, internal_end, h1]
    rw [e]
    refine ⟨fun hex => ?_, fun _ => rfl⟩
    obtain ⟨x, hx, hxe⟩ := hex
    exact absurd hxe (h2 x hx)

theorem find_unique_correct_witness :
    LawfulComp Example.tree.comp ∧ Shaped Example.params_compare_to Example.tree
      ∧ StrictSorted Example.params_compare_to Example.tree
      ∧ (((∃ x ∈ Example.tree.inorder,
            Example.tree.comp (Example.params_compare_to.key x) 30 = 0) →
          PointsAt Example.tree (find_unique Example.params_compare_to Example.tree 30)
            ∧ Example.tree.comp (Example.params_compare_to.key
                (Example.tree.deref (find_unique Example.params_compare_to Example.tree 30)))
                30 = 0)
        ∧ ((∀ x ∈ Example.tree.inorder,
            Example.tree.comp (Example.params_compare_to.key x) 30 ≠ 0) →
          find_unique Example.params_compare_to Example.tree 30 = Example.tree.end_)) :=
  ⟨Example.int_compare_lawful, by decide, by decide,
    find_unique_correct Example.params_compare_to Example.tree 30 Example.int_compare_lawful
      (by decide) (by decide)⟩

end Btree

end CppBtree

namespace CppBtree

variable {K V : Type}

namespace Node

section Steps

variable [Inhabited V]

theorem pre_child_succ (p : Node V) (i : Nat) (hl : p.leaf = false)
    (hc : p.children.length = p.count + 1) (hi : i < p.count) :
    p.pre_child (i + 1) = p.pre_child i ++ (p.child i).inorder ++ [p.value i] := by
  obtain ⟨a, sep, z, A, L, R, Z, e, h1, h2, h3, h4, h5, h6, _, _⟩ :=
    decompose_pair p i hl hc hi
  rw [← h4, ← h6]
  rw [e, pre_child_at a A i (sep :: z) (L :: R :: Z) (by omega) (by omega)]
  have e2 : internal_node (a ++ sep :: z) (A ++ L :: R :: Z)
      = internal_node ((a ++ [sep]) ++ z) ((A ++ [L]) ++ R :: Z) := by simp
  rw [e2, pre_child_at (a ++ [sep]) (A ++ [L]) (i + 1) z (R :: Z) (by simp; omega)
    (by simp; omega)]
  rw [List.map_append, List.map_singleton, join_cv_snoc _ _ _ _ (by simp; omega)]

theorem post_child_step (p : Node V) (i : Nat) (hl : p.leaf = false)
    (hc : p.children.length = p.count + 1) (hi : i < p.count) :
    p.post_child i = p.value i :: ((p.child (i + 1)).inorder ++ p.post_child (i + 1)) := by
  obtain ⟨a, sep, z, A, L, R, Z, e, h1, h2, h3, h4, h5, h6, _, _⟩ :=
    decompose_pair p i hl hc hi
  rw [← h5, ← h6]
  rw [e, post_child_at a (sep :: z) A (R :: Z) i L (by omega) (by omega)]
  have e2 : internal_node (a ++ sep :: z) (A ++ L :: R :: Z)
      = internal_node ((a ++ [sep]) ++ z) ((A ++ [L]) ++ R :: Z) := by simp
  rw [e2, post_child_at (a ++ [sep]) z (A ++ [L]) Z (i + 1) R (by simp; omega)
    (by simp; omega)]
  simp [join_vc_cons]

end Steps

end Node

namespace Btree

section Climb2

variable [Inhabited V]

theorem increment_climb_eq (t : Btree K V) (save : Iter) (rp : List Nat) (pos : Int) :
    t.increment_climb save rp pos
      = if (t.internal_last_at rp pos).node.isSome then t.internal_last_at rp pos else save := by
  induction rp generalizing pos with
  | nil =>
    simp only [increment_climb, internal_last_at]
    split <;> simp
  | cons i rp ih =>
    simp only [increment_climb, internal_last_at]
    split
    · exact ih _
    · simp

theorem lastPath_of_internal_last_at (t : Btree K V) (r : Node V) (hr : t.root_node = r)
    (rp : List Nat) (pos : Int) (h : (t.internal_last_at rp pos).node.isSome = false) :
    LastPath r rp ∧ pos = (getNode r rp).count := by
  induction rp generalizing pos with
  | nil =>
    simp only [internal_last_at, node, hr] at h
    split at h
    · rename_i hp
      exact ⟨trivial, hp⟩
    · simp at h
  | cons i rp ih =>
    simp only [internal_last_at, node, hr] at h
    split at h
    · rename_i hp
      obtain ⟨a1, a2⟩ := ih _ h
      exact ⟨⟨by exact_mod_cast a2, a1⟩, hp⟩
    · simp at h

/-- Walking down last children from the root follows a name made of last child slots. -/
theorem rightmost_from_lastPath (t : Btree K V) (r : Node V) (hr : t.root_node = r)
    (rp : List Nat) (hlp : LastPath r rp) (hv : ValidPath r rp) :
    ∀ f, t.rightmost_from (f + rp.length) [] = t.rightmost_from f rp := by
  induction rp with
  | nil => intro f; rfl
  | cons i rp ih =>
    intro f
    have hnl : (getNode r rp).leaf = false := Node.leaf_false_of_lt _ _ hv.2
    have e1 : f + (i :: rp).length = (f + 1) + rp.length := by
      simp only [List.length_cons]
      omega
    rw [e1, ih hlp.2 hv.1 (f + 1)]
    simp only [rightmost_from, node, hr, hnl, Bool.false_eq_true, if_false]
    rw [← hlp.1]

theorem rightmost_from_leaf (t : Btree K V) (rp : List Nat) (hl : (t.node rp).leaf = true)
    (f : Nat) : t.rightmost_from f rp = rp := by
  cases f with
  | zero => rfl
  | succ f => simp [rightmost_from, hl]

end Climb2

end Btree

end CppBtree

namespace CppBtree

variable {K V : Type}

namespace Btree

section Increment

variable [Inhabited V]

theorem increment_leaf_eq (t : Btree K V) (rp : List Nat) (pos : Int)
    (hl : (t.node rp).leaf = true) (h1 : pos + 1 ≤ (t.node rp).count) :
    t.increment ⟨some rp, pos⟩
      = if (t.internal_last_at rp (pos + 1)).node.isSome then t.internal_last_at rp (pos + 1)
        else ⟨some rp, pos + 1⟩ := by
  simp only [increment, Iter.path, Option.getD_some, hl, if_true]
  by_cases hlt : pos + 1 < (t.node rp).count
  · rw [if_pos hlt]
    have e : t.internal_last_at rp (pos + 1) = ⟨some rp, pos + 1⟩ := by
      cases rp with
      | nil =>
        simp only [internal_last_at]
        rw [if_neg (by omega)]
      | cons i rp =>
        simp only [internal_last_at]
        rw [if_neg (by omega)]
    rw [e]
    simp
  · rw [if_neg hlt, increment_climb_eq]

/-- The end of a leaf that a name of last child slots designates is `end()`. -/
theorem end_of_lastPath (P : Params K V) (t : Btree K V) (r : Node V) (ht : t.root = some r)
    (hS : Shaped P t) (rp : List Nat) (hv : ValidPath r rp) (hl : (getNode r rp).leaf = true)
    (hlp : LastPath r rp) : t.end_ = ⟨some rp, ((getNode r rp).count : Int)⟩ := by
  have hr := root_node_of_root t r ht
  have hS2 := hS
  rw [shaped_of_root P t r ht] at hS2
  obtain ⟨h, hc, _, _, _, hz⟩ := node_facts _ _ r rp hS2.1 hv
  have h0 := hz hl
  subst h0
  have hd := ctx_depth _ _ _ _ _ hc
  have hh : t.height = 1 + rp.length := by
    simp only [height, ht]
    rw [Node.height_of_wf_root _ _ _ hS2.1]
    omega
  have e : t.rightmost_from t.height [] = rp := by
    rw [hh, rightmost_from_lastPath t r hr rp hlp hv 1]
    exact rightmost_from_leaf t rp (by simpa [node, hr] using hl) 1
  simp [end_, rightmost, empty, ht, e, node, hr]

theorem take_succ_of_drop (l : List V) (n : Nat) (x : V) (rest : List V)
    (h : l.drop n = x :: rest) : l.take (n + 1) = l.take n ++ [x] ∧ l.drop (n + 1) = rest := by
  have e : l = l.take n ++ x :: rest := by
    rw [← h, List.take_append_drop]
  have hn : n ≤ l.length := by
    by_contra hh
    rw [List.drop_eq_nil_of_le (by omega)] at h
    simp at h
  constructor
  · conv_lhs => rw [e]
    have : l.take n ++ x :: rest = (l.take n ++ [x]) ++ rest := by simp
    rw [this, take_app_len _ _ _ (by simp; omega)]
  · conv_lhs => rw [e]
    have : l.take n ++ x :: rest = (l.take n ++ [x]) ++ rest := by simp
    rw [this, drop_app_len _ _ _ (by simp; omega)]

/-- The successor of an iterator that designates the value `x` between `l1` and `l2` stands
between `l1`, `x` and `l2`. -/
theorem increment_spec (P : Params K V) (t : Btree K V) (hS : Shaped P t) (it : Iter)
    (l1 l2 : List V) (x : V) (hp : PointsAt t it) (hsp : Splits t it l1 (x :: l2)) :
    IterTo t (t.increment it) (l1 ++ [x]) l2 := by
  obtain ⟨inode, pos⟩ := it
  obtain ⟨rp, e, hne, _⟩ := hp
  simp only at e
  subst e
  obtain ⟨r, ht⟩ := Option.isSome_iff_exists.mp hne
  have hr := root_node_of_root t r ht
  have hS2 := hS
  rw [shaped_of_root P t r ht] at hS2
  have hpa := (pointsAt_iff t r ht rp pos).mp ⟨rp, rfl, hne, ‹_›⟩
  obtain ⟨hv, h0, h1⟩ := hpa
  have hio := splits_inorder P t _ l1 (x :: l2) hS hsp
  rw [splits_iff t r ht] at hsp
  obtain ⟨_, _, _, q1, q2⟩ := hsp
  by_cases hl : (getNode r rp).leaf = true
  · -- on a leaf
    rw [Node.pre_part_leaf_node _ hl, Node.mid_part_leaf_node _ hl, List.append_nil] at q1
    rw [Node.post_part_leaf_node _ hl] at q2
    obtain ⟨rest, erest⟩ : ∃ rest, (getNode r rp).values.drop pos.toNat = x :: rest := by
      have hd : (getNode r rp).values.drop pos.toNat ≠ [] := by
        simp only [ne_eq, List.drop_eq_nil_iff, not_le]
        simp only [Node.count] at h1
        omega
      cases hd2 : (getNode r rp).values.drop pos.toNat with
      | nil => exact absurd hd2 hd
      | cons y ys =>
        rw [hd2] at q2
        simp only [List.cons_append, List.cons.injEq] at q2
        exact ⟨ys, by rw [q2.1]⟩
    obtain ⟨t1, t2⟩ := take_succ_of_drop _ _ _ _ erest
    have hgap : Splits t ⟨some rp, pos + 1⟩ (l1 ++ [x]) l2 := by
      rw [splits_iff t r ht]
      have e1 : (pos + 1).toNat = pos.toNat + 1 := by omega
      refine ⟨hv, by omega, by omega, ?_, ?_⟩
      · rw [Node.pre_part_leaf_node _ hl, Node.mid_part_leaf_node _ hl, List.append_nil, e1, t1,
          ← q1]
        simp
      · rw [Node.post_part_leaf_node _ hl, e1, t2]
        rw [erest] at q2
        simpa using q2
    rw [increment_leaf_eq t rp pos (by simpa [node, hr] using hl)
      (by simp only [node, hr]; omega)]
    rcases internal_last_at_spec P t r _ ht hS2.1 (l1 ++ [x]) l2 rp (pos + 1) hgap with
      ⟨b1, b2⟩ | ⟨b1, b2, b3⟩
    · left
      rw [b2]
      simp only [Option.isSome_none, Bool.false_eq_true, if_false]
      obtain ⟨c1, c2⟩ := lastPath_of_internal_last_at t r hr rp (pos + 1) (by rw [b2]; rfl)
      rw [end_of_lastPath P t r ht hS rp hv hl c1, c2]
      subst b1
      exact ⟨by rw [hio], rfl, rfl⟩
    · right
      have hsome : (t.internal_last_at rp (pos + 1)).node.isSome = true := by
        obtain ⟨rp2, e2, _⟩ := b1
        simp [e2]
      rw [if_pos hsome]
      exact ⟨b1, b2, b3⟩
  · -- on an internal node
    have hl2 : (getNode r rp).leaf = false := by simpa using hl
    right
    obtain ⟨h, hc, hsh, hw, _, _⟩ := node_facts _ _ r rp hS2.1 hv
    have hN := hw hl2
    cases h with
    | zero => exact absurd ((Node.wfc_leaf_zero _ _ _ _ _ hN).mpr rfl) hl
    | succ h1' =>
      obtain ⟨_, w2, w3⟩ := Node.leaf_false_of_wfc_succ _ _ _ _ _ hN
      have hcnt := Node.wfc_count _ _ _ _ _ hN
      have e1 : (pos + 1).toNat = pos.toNat + 1 := by omega
      have hc2 : Ctx P.kNodeValues r ((pos.toNat + 1) :: rp) h1' (r.height - 1) :=
        ⟨hl2, hcnt.1, hcnt.2, w2, by omega, fun j hj _ => w3 _ (Node.child_mem _ _ hj), hc⟩
      have hle := ctx_height_le _ _ _ _ _ hc
      have hh : t.height = r.height := by simp [height, ht]
      have hH := Node.height_of_wf_root _ _ _ hS2.1
      obtain ⟨a1, a2, a3, a4, a5⟩ := leftmost_from_spec t r P.kNodeValues (r.height - 1) hr
        t.height ((pos.toNat + 1) :: rp) h1' (by omega) hc2
        (Or.inl (w3 _ (Node.child_mem _ _ (by omega))))
      have e : t.increment ⟨some rp, pos⟩
          = ⟨some (t.leftmost_from t.height ((pos.toNat + 1) :: rp)), 0⟩ := by
        simp only [increment, Iter.path, Option.getD_some, node, hr, hl2, Bool.false_eq_true,
          if_false, e1]
      rw [e]
      rw [Node.pre_mid_internal _ _ hl2] at q1
      rw [Node.post_part_internal _ hl2,
        Node.post_child_step _ _ hl2 w2 (by omega)] at q2
      simp only [List.cons_append, List.cons.injEq] at q2
      have hsp2 : Splits t ⟨some (t.leftmost_from t.height ((pos.toNat + 1) :: rp)), 0⟩
          (l1 ++ [x]) l2 := by
        rw [splits_iff t r ht]
        refine ⟨a1, le_refl _, by simp, ?_, ?_⟩
        · rw [Node.pre_part_leaf_node _ a2, Node.mid_part_leaf_node _ a2, a3]
          simp only [pre, Int.toNat_zero, List.take_zero, List.append_nil]
          rw [Node.pre_child_succ _ _ hl2 w2 (by omega), ← q1, q2.1]
          simp
        · rw [Node.post_part_leaf_node _ a2]
          simp only [Int.toNat_zero, List.drop_zero]
          rw [a4, ← q2.2]
          simp [post, getNode]
      refine ⟨(pointsAt_iff t r ht _ _).mpr ⟨a1, le_refl _, by omega⟩, hsp2, ?_⟩
      rw [splits_iff t r ht] at hsp2
      obtain ⟨_, _, _, _, q4⟩ := hsp2
      obtain ⟨rest, e2⟩ := Node.post_part_cons
        (getNode r (t.leftmost_from t.height ((pos.toNat + 1) :: rp))) 0 (by omega)
      simp only [Int.toNat_zero] at q4
      rw [← q4, e2]
      simp [deref, Iter.path, node, hr]

end Increment

end Btree

end CppBtree

namespace CppBtree

variable {K V : Type}

theorem getNode_snoc (r : Node V) (l : List Nat) (i : Nat) :
    getNode r (l ++ [i]) = getNode (r.child i) l := by
  rw [getNode_append]
  rfl

theorem pre_snoc (r : Node V) (l : List Nat) (i : Nat) :
    pre r (l ++ [i]) = r.pre_child i ++ pre (r.child i) l := by
  induction l with
  | nil => simp [pre, getNode]
  | cons j l ih =>
    show pre r (j :: (l ++ [i])) = r.pre_child i ++ pre (r.child i) (j :: l)
    simp only [pre]
    rw [ih, getNode_snoc, List.append_assoc]

theorem post_snoc (r : Node V) (l : List Nat) (i : Nat) :
    post r (l ++ [i]) = post (r.child i) l ++ r.post_child i := by
  induction l with
  | nil => simp [post, getNode]
  | cons j l ih =>
    show post r (j :: (l ++ [i])) = post (r.child i) (j :: l) ++ r.post_child i
    simp only [post]
    rw [ih, getNode_snoc, List.append_assoc]

theorem validPath_snoc (r : Node V) (l : List Nat) (i : Nat) :
    ValidPath r (l ++ [i]) ↔ (i < r.children.length ∧ ValidPath (r.child i) l) := by
  induction l with
  | nil => simp [ValidPath, getNode]
  | cons j l ih =>
    show ValidPath r (j :: (l ++ [i])) ↔ (i < r.children.length ∧ ValidPath (r.child i) (j :: l))
    simp only [ValidPath]
    rw [ih, getNode_snoc]
    tauto

namespace Node

section Rank

variable [Inhabited V]

theorem pre_child_mono (p : Node V) (hl : p.leaf = false)
    (hc : p.children.length = p.count + 1) (i j : Nat) (hij : i ≤ j) (hj : j ≤ p.count) :
    (p.pre_child i).length ≤ (p.pre_child j).length := by
  induction j with
  | zero =>
    have : i = 0 := by omega
    subst this
    exact Nat.le_refl _
  | succ j ih =>
    by_cases e : i = j + 1
    · subst e
      exact Nat.le_refl _
    · have := ih (by omega) (by omega)
      rw [pre_child_succ p j hl hc (by omega)]
      simp only [List.length_append, List.length_singleton]
      omega

/-- The rank of a value of an internal node is below the ranks of everything that follows the
next child slot. -/
theorem rank_lt_pre_child (p : Node V) (hl : p.leaf = false)
    (hc : p.children.length = p.count + 1) (i j : Nat) (hij : i < j) (hj : j ≤ p.count) :
    (p.pre_child i).length + (p.child i).inorder.length + 1 ≤ (p.pre_child j).length := by
  have h1 := pre_child_mono p hl hc (i + 1) j (by omega) hj
  rw [pre_child_succ p i hl hc (by omega)] at h1
  simp only [List.length_append, List.length_singleton] at h1
  omega

end Rank

end Node

section Unique

variable [Inhabited V]

/-- The number of values that precede the position `pos` of the node named `rp`. -/
theorem rank_lt_length (B H : Nat) (r : Node V) (rp : List Nat) (pos : Nat)
    (hw : Node.wf_root B H r = true) (hv : ValidPath r rp) (hp : pos < (getNode r rp).count) :
    (pre r rp).length + ((getNode r rp).pre_part pos).length
      + ((getNode r rp).mid_part pos).length < r.inorder.length := by
  obtain ⟨h, hc, hsh, _⟩ := node_facts B H r rp hw hv
  rw [inorder_eq_pre_post _ _ _ _ _ hc, Node.inorder_parts _ pos hsh (by omega)]
  obtain ⟨rest, e⟩ := Node.post_part_cons (getNode r rp) pos hp
  rw [e]
  simp only [List.length_append, List.length_cons]
  omega

theorem pointsAt_unique (B : Nat) :
    ∀ (H : Nat) (r : Node V) (rp1 rp2 : List Nat) (pos1 pos2 : Nat),
      Node.wf_root B H r = true → ValidPath r rp1 → ValidPath r rp2 →
      pos1 < (getNode r rp1).count → pos2 < (getNode r rp2).count →
      (pre r rp1).length + ((getNode r rp1).pre_part pos1).length
          + ((getNode r rp1).mid_part pos1).length
        = (pre r rp2).length + ((getNode r rp2).pre_part pos2).length
          + ((getNode r rp2).mid_part pos2).length →
      rp1 = rp2 ∧ pos1 = pos2 := by
  intro H
  induction H with
  | zero =>
    intro r rp1 rp2 pos1 pos2 hw hv1 hv2 hp1 hp2 hrk
    have hl : r.leaf = true := by
      cases r with
      | leaf_node m vs => rfl
      | internal_node vs cs =>
        have := (Node.wfc_internal_iff B 1 B 0 vs cs).mp hw
        obtain ⟨h1, e, _⟩ := this
        omega
    have nil_of_valid : ∀ rp, ValidPath r rp → rp = [] := by
      intro rp hv
      rcases List.eq_nil_or_concat rp with e | ⟨l, i, e⟩
      · exact e
      · rw [e, List.concat_eq_append, validPath_snoc] at hv
        have := Node.leaf_false_of_lt _ _ hv.1
        rw [hl] at this
        simp at this
    have e1 := nil_of_valid rp1 hv1
    have e2 := nil_of_valid rp2 hv2
    subst e1 e2
    refine ⟨rfl, ?_⟩
    simp only [getNode, pre, List.length_nil, Nat.zero_add] at hrk hp1 hp2
    rw [Node.pre_part_leaf_node _ hl, Node.pre_part_leaf_node _ hl, Node.mid_part_leaf_node _ hl,
      Node.mid_part_leaf_node _ hl] at hrk
    simp only [List.length_take, List.length_nil, Nat.add_zero] at hrk
    simp only [Node.count] at hp1 hp2
    omega
  | succ H ih =>
    intro r rp1 rp2 pos1 pos2 hw hv1 hv2 hp1 hp2 hrk
    have hl : r.leaf = false := by
      cases r with
      | leaf_node m vs =>
        simp [Node.wf_root] at hw
      | internal_node vs cs => rfl
    have hwc := Node.wfc_of_wf_root_internal _ _ r hw hl
    obtain ⟨_, w2, w3⟩ := Node.leaf_false_of_wfc_succ _ _ _ _ _ hwc
    -- facts about a position below child `i`
    have below : ∀ (l : List Nat) (i pos : Nat), ValidPath r (l ++ [i]) →
        pos < (getNode r (l ++ [i])).count →
        i ≤ r.count ∧ Node.wf_root B H (r.child i) = true ∧ ValidPath (r.child i) l
          ∧ pos < (getNode (r.child i) l).count
          ∧ (pre r (l ++ [i])).length + ((getNode r (l ++ [i])).pre_part pos).length
              + ((getNode r (l ++ [i])).mid_part pos).length
            = (r.pre_child i).length + ((pre (r.child i) l).length
              + ((getNode (r.child i) l).pre_part pos).length
              + ((getNode (r.child i) l).mid_part pos).length)
          ∧ (pre (r.child i) l).length + ((getNode (r.child i) l).pre_part pos).length
              + ((getNode (r.child i) l).mid_part pos).length < (r.child i).inorder.length := by
      intro l i pos hv hp
      rw [validPath_snoc] at hv
      rw [getNode_snoc] at hp
      have hcw := Node.wf_root_of_wfc _ _ _ (w3 _ (Node.child_mem _ _ hv.1))
      refine ⟨by omega, hcw, hv.2, hp, ?_, rank_lt_length B H _ l pos hcw hv.2 hp⟩
      rw [pre_snoc, getNode_snoc]
      simp only [List.length_append]
      omega
    -- the rank of a value of the root itself
    have at_root : ∀ pos, (pre r []).length + ((getNode r []).pre_part pos).length
        + ((getNode r []).mid_part pos).length
        = (r.pre_child pos).length + (r.child pos).inorder.length := by
      intro pos
      simp only [pre, getNode, List.length_nil, Nat.zero_add]
      have := congrArg List.length (Node.pre_mid_internal r pos hl)
      simpa using this
    rcases List.eq_nil_or_concat rp1 with e1 | ⟨l1, i1, e1⟩
    · subst e1
      rcases List.eq_nil_or_concat rp2 with e2 | ⟨l2, i2, e2⟩
      · subst e2
        refine ⟨rfl, ?_⟩
        rw [at_root, at_root] at hrk
        simp only [getNode] at hp1 hp2
        by_contra hne
        rcases Nat.lt_or_gt_of_ne hne with h | h
        · have := Node.rank_lt_pre_child r hl w2 pos1 pos2 h (by omega)
          omega
        · have := Node.rank_lt_pre_child r hl w2 pos2 pos1 h (by omega)
          omega
      · rw [List.concat_eq_append] at e2
        subst e2
        exfalso
        obtain ⟨b1, _, _, _, b5, b6⟩ := below l2 i2 pos2 hv2 hp2
        rw [at_root, b5] at hrk
        simp only [getNode] at hp1
        by_cases h : pos1 < i2
        · have := Node.rank_lt_pre_child r hl w2 pos1 i2 h b1
          omega
        · by_cases h2 : i2 = pos1
          · subst h2
            omega
          · have := Node.rank_lt_pre_child r hl w2 i2 pos1 (by omega) (by omega)
            omega
    · rw [List.concat_eq_append] at e1
      subst e1
      obtain ⟨a1, a2, a3, a4, a5, a6⟩ := below l1 i1 pos1 hv1 hp1
      rcases List.eq_nil_or_concat rp2 with e2 | ⟨l2, i2, e2⟩
      · subst e2
        exfalso
        rw [at_root, a5] at hrk
        simp only [getNode] at hp2
        by_cases h : pos2 < i1
        · have := Node.rank_lt_pre_child r hl w2 pos2 i1 h a1
          omega
        · by_cases h2 : i1 = pos2
          · subst h2
            omega
          · have := Node.rank_lt_pre_child r hl w2 i1 pos2 (by omega) (by omega)
            omega
      · rw [List.concat_eq_append] at e2
        subst e2
        obtain ⟨b1, b2, b3, b4, b5, b6⟩ := below l2 i2 pos2 hv2 hp2
        rw [a5, b5] at hrk
        by_cases h : i1 = i2
        · subst h
          obtain ⟨c1, c2⟩ := ih (r.child i1) l1 l2 pos1 pos2 a2 a3 b3 a4 b4 (by omega)
          exact ⟨by rw [c1], c2⟩
        · exfalso
          rcases Nat.lt_or_gt_of_ne h with h | h
          · have := Node.rank_lt_pre_child r hl w2 i1 i2 h b1
            omega
          · have := Node.rank_lt_pre_child r hl w2 i2 i1 h a1
            omega

end Unique

end CppBtree

namespace CppBtree

variable {K V : Type}

namespace Btree

section IterTheory

variable [Inhabited V]

theorem pointsAt_ne_end (P : Params K V) (t : Btree K V) (hS : Shaped P t) (it : Iter)
    (hp : PointsAt t it) : it ≠ t.end_ := by
  intro he
  obtain ⟨rp, e, hne, hv, h0, h1⟩ := hp
  obtain ⟨r, ht⟩ := Option.isSome_iff_exists.mp hne
  obtain ⟨rm, e1, _⟩ := end_spec P t r ht hS
  rw [he, e1] at e h1
  simp only [Option.some.injEq] at e
  subst e
  simp only at h1
  omega

theorem iterTo_inorder (P : Params K V) (t : Btree K V) (hS : Shaped P t) (it : Iter)
    (l1 l2 : List V) (h : IterTo t it l1 l2) : t.inorder = l1 ++ l2 := by
  rcases h with ⟨h1, h2, _⟩ | ⟨_, h2, _⟩
  · rw [h1, h2, List.append_nil]
  · exact splits_inorder P t it l1 l2 hS h2

theorem iterTo_unique (P : Params K V) (t : Btree K V) (hS : Shaped P t) (a b : Iter)
    (l1 l2 : List V) (ha : IterTo t a l1 l2) (hb : IterTo t b l1 l2) : a = b := by
  rcases ha with ⟨_, a2, a3⟩ | ⟨a1, a2, a3⟩
  · rcases hb with ⟨_, _, b3⟩ | ⟨_, _, b3⟩
    · rw [a3, b3]
    · rw [a2] at b3
      simp at b3
  · rcases hb with ⟨_, b2, _⟩ | ⟨b1, b2, _⟩
    · rw [b2] at a3
      simp at a3
    · obtain ⟨an, ap⟩ := a
      obtain ⟨bn, bp⟩ := b
      obtain ⟨rp1, e1, hne, _⟩ := a1
      obtain ⟨rp2, e2, _, _⟩ := b1
      simp only at e1 e2
      subst e1 e2
      obtain ⟨r, ht⟩ := Option.isSome_iff_exists.mp hne
      have hS2 := hS
      rw [shaped_of_root P t r ht] at hS2
      have pa := (pointsAt_iff t r ht rp1 ap).mp ⟨rp1, rfl, hne, ‹_›⟩
      have pb := (pointsAt_iff t r ht rp2 bp).mp ⟨rp2, rfl, hne, ‹_›⟩
      rw [splits_iff t r ht] at a2 b2
      obtain ⟨_, _, _, qa, _⟩ := a2
      obtain ⟨_, _, _, qb, _⟩ := b2
      have hlen := congrArg List.length (qa.trans qb.symm)
      simp only [List.length_append] at hlen
      obtain ⟨c1, c2⟩ := pointsAt_unique P.kNodeValues _ r rp1 rp2 ap.toNat bp.toNat hS2.1
        pa.1 pb.1 (by omega) (by omega) (by omega)
      subst c1
      have : ap = bp := by omega
      subst this
      rfl

theorem iterTo_functional (P : Params K V) (t : Btree K V) (hS : Shaped P t) (a : Iter)
    (l1 l2 l1' l2' : List V) (ha : IterTo t a l1 l2) (hb : IterTo t a l1' l2') :
    l1 = l1' ∧ l2 = l2' := by
  rcases ha with ⟨a1, a2, a3⟩ | ⟨a1, a2, _⟩
  · rcases hb with ⟨b1, b2, _⟩ | ⟨b1, _, _⟩
    · exact ⟨a1.trans b1.symm, a2.trans b2.symm⟩
    · exact absurd a3 (pointsAt_ne_end P t hS a b1)
  · rcases hb with ⟨_, _, b3⟩ | ⟨_, b2, _⟩
    · exact absurd b3 (pointsAt_ne_end P t hS a a1)
    · obtain ⟨rp1, e1, _, _, _, _, qa1, qa2⟩ := a2
      obtain ⟨rp2, e2, _, _, _, _, qb1, qb2⟩ := b2
      rw [e1] at e2
      simp only [Option.some.injEq] at e2
      subst e2
      exact ⟨qa1.symm.trans qb1, qa2.symm.trans qb2⟩

theorem iterTo_begin (P : Params K V) (t : Btree K V) (hS : Shaped P t) :
    IterTo t t.begin_ [] t.inorder := by
  cases hroot : t.root with
  | none =>
    left
    simp [inorder, hroot, begin_, end_, leftmost, rightmost, empty]
  | some r =>
    right
    exact begin_spec P t r hroot hS

theorem iterTo_end (t : Btree K V) : IterTo t t.end_ t.inorder [] :=
  Or.inl ⟨rfl, rfl, rfl⟩

/-- The iterator reached from `begin()` by `n` successor steps stands after the first `n`
values. -/
theorem nth_iter_spec (P : Params K V) (t : Btree K V) (hS : Shaped P t) (n : Nat)
    (hn : n ≤ t.inorder.length) :
    IterTo t (t.nth_iter n) (t.inorder.take n) (t.inorder.drop n) := by
  induction n with
  | zero => simpa using iterTo_begin P t hS
  | succ n ih =>
    have h := ih (by omega)
    obtain ⟨x, rest, hd⟩ : ∃ x rest, t.inorder.drop n = x :: rest := by
      cases hd : t.inorder.drop n with
      | nil =>
        have := congrArg List.length hd
        simp only [List.length_drop, List.length_nil] at this
        omega
      | cons x rest => exact ⟨x, rest, rfl⟩
    obtain ⟨t1, t2⟩ := take_succ_of_drop _ _ _ _ hd
    rw [hd] at h
    rcases h with ⟨_, h2, _⟩ | ⟨h1, h2, _⟩
    · simp at h2
    · have := increment_spec P t hS _ _ _ x h1 h2
      rw [t1, t2]
      exact this

theorem nth_iter_end (P : Params K V) (t : Btree K V) (hS : Shaped P t) :
    t.nth_iter t.inorder.length = t.end_ := by
  have h := nth_iter_spec P t hS t.inorder.length (Nat.le_refl _)
  simp only [List.take_length, List.drop_length] at h
  exact iterTo_unique P t hS _ _ _ _ h (iterTo_end t)

/-- Every iterator that stands between `l1` and `l2` is reached from `begin()` by as many
successor steps as `l1` has values. -/
theorem iterTo_eq_nth (P : Params K V) (t : Btree K V) (hS : Shaped P t) (it : Iter)
    (l1 l2 : List V) (h : IterTo t it l1 l2) : it = t.nth_iter l1.length := by
  have hio := iterTo_inorder P t hS it l1 l2 h
  have h2 := nth_iter_spec P t hS l1.length (by rw [hio]; simp)
  rw [hio, take_app_len _ _ _ rfl, drop_app_len _ _ _ rfl] at h2
  exact iterTo_unique P t hS _ _ _ _ h h2

theorem traverse_from_spec (P : Params K V) (t : Btree K V) (hS : Shaped P t) :
    ∀ (fuel : Nat) (it : Iter) (l1 l2 : List V), IterTo t it l1 l2 → l2.length < fuel →
      t.traverse_from fuel it = l2 := by
  intro fuel
  induction fuel with
  | zero => intro it l1 l2 _ h; omega
  | succ fuel ih =>
    intro it l1 l2 h hf
    rcases h with ⟨_, h2, h3⟩ | ⟨h1, h2, h3⟩
    · simp [traverse_from, h3, h2]
    · have hne := pointsAt_ne_end P t hS it h1
      cases l2 with
      | nil => simp at h3
      | cons x rest =>
        simp only [List.head?_cons, Option.some.injEq] at h3
        simp only [traverse_from, hne, if_false]
        rw [ih _ (l1 ++ [x]) rest (increment_spec P t hS it l1 rest x h1 h2)
          (by simp only [List.length_cons] at hf; omega), ← h3]

/-- Iteration from `begin()` to `end()` yields the in-order sequence. -/
theorem traverse_eq_inorder (P : Params K V) (t : Btree K V) (hS : Shaped P t) :
    t.traverse = t.inorder := by
  simp only [traverse]
  exact traverse_from_spec P t hS _ _ _ _ (iterTo_begin P t hS)
    (by rw [size_eq_length P t hS]; omega)

theorem distance_spec (P : Params K V) (t : Btree K V) (hS : Shaped P t) (e : Iter)
    (m1 m2 : List V) (he : IterTo t e m1 m2) :
    ∀ (fuel : Nat) (b : Iter) (l1 l2 : List V), IterTo t b l1 l2 → l1.length ≤ m1.length →
      m1.length - l1.length < fuel → t.distance fuel b e = m1.length - l1.length := by
  intro fuel
  induction fuel with
  | zero => intro b l1 l2 _ _ h; omega
  | succ fuel ih =>
    intro b l1 l2 hb hle hf
    have hio1 := iterTo_inorder P t hS b l1 l2 hb
    have hio2 := iterTo_inorder P t hS e m1 m2 he
    by_cases heq : b = e
    · subst heq
      obtain ⟨c1, _⟩ := iterTo_functional P t hS b l1 l2 m1 m2 hb he
      simp [distance, c1]
    · have hlt : l1.length < m1.length := by
        by_contra hh
        have hlen : l1.length = m1.length := by omega
        have e1 : l1 = m1 := by
          have := congrArg (List.take l1.length) (hio1.symm.trans hio2)
          rwa [take_app_len _ _ _ rfl, take_app_len _ _ _ hlen] at this
        have e2 : l2 = m2 := by
          have := hio1.symm.trans hio2
          rw [e1] at this
          exact List.append_cancel_left this
        subst e1 e2
        exact heq (iterTo_unique P t hS b e l1 l2 hb he)
      rcases hb with ⟨b1, _, _⟩ | ⟨b1, b2, _⟩
      · have := congrArg List.length (hio2)
        rw [← b1] at this
        simp only [List.length_append] at this
        omega
      · cases l2 with
        | nil =>
          have := congrArg List.length (hio1.symm.trans hio2)
          simp only [List.length_append, List.length_nil] at this
          omega
        | cons x rest =>
          simp only [distance, heq, if_false]
          rw [ih _ (l1 ++ [x]) rest (increment_spec P t hS b l1 rest x b1 b2)
            (by simp; omega) (by simp; omega)]
          simp
          omega

end IterTheory

end Btree

end CppBtree

namespace CppBtree

variable {K V : Type}

namespace Btree

section EqualRange

variable [Inhabited V]

theorem values_between_spec (P : Params K V) (t : Btree K V) (hS : Shaped P t) (e : Iter) :
    ∀ (fuel : Nat) (seg : List V) (b : Iter) (l1 l2 m2 : List V), IterTo t b l1 l2 →
      IterTo t e (l1 ++ seg) m2 → seg.length < fuel → t.values_between fuel b e = seg := by
  intro fuel
  induction fuel with
  | zero => intro seg b l1 l2 m2 _ _ h; omega
  | succ fuel ih =>
    intro seg b l1 l2 m2 hb he hf
    have hio1 := iterTo_inorder P t hS b l1 l2 hb
    have hio2 := iterTo_inorder P t hS e _ m2 he
    by_cases heq : b = e
    · subst heq
      obtain ⟨c1, _⟩ := iterTo_functional P t hS b _ _ _ _ hb he
      have : seg = [] := by
        have := congrArg List.length c1
        simp only [List.length_append] at this
        exact List.length_eq_zero.mp (by omega)
      simp [values_between, this]
    · cases seg with
      | nil =>
        exfalso
        rw [List.append_nil] at he hio2
        have e2 : l2 = m2 := List.append_cancel_left (hio1.symm.trans hio2)
        subst e2
        exact heq (iterTo_unique P t hS b e l1 l2 hb he)
      | cons s seg =>
        have e2 : l2 = s :: seg ++ m2 := by
          have := hio1.symm.trans hio2
          rw [List.append_assoc] at this
          exact List.append_cancel_left this
        rcases hb with ⟨_, b2, _⟩ | ⟨b1, b2, b3⟩
        · rw [b2] at e2
          simp at e2
        · rw [e2] at b2 b3
          simp only [List.cons_append, List.head?_cons, Option.some.injEq] at b3
          simp only [values_between, heq, if_false]
          rw [ih seg _ (l1 ++ [s]) (seg ++ m2) m2
            (increment_spec P t hS b l1 (seg ++ m2) s b1 b2) (by simpa using he)
            (by simp only [List.length_cons] at hf; omega), ← b3]

/-- In a sorted sequence the values not greater than `k` are the values less than `k` followed
by the values equal to `k`. -/
theorem equal_segment (P : Params K V) (t : Btree K V) (k : K) (hc : LawfulComp t.comp)
    (hs : Sorted P t) :
    t.inorder.takeWhile (fun x => decide (¬ t.comp (P.key x) k > 0))
      = t.inorder.takeWhile (fun x => decide (t.comp (P.key x) k < 0))
        ++ t.inorder.filter (fun x => decide (t.comp (P.key x) k = 0)) := by
  have hsplit := (List.takeWhile_append_dropWhile
    (fun x => decide (t.comp (P.key x) k < 0)) t.inorder).symm
  obtain ⟨lo1, lo2⟩ := takeWhile_dropWhile_facts (fun x => decide (t.comp (P.key x) k < 0))
    t.inorder (List.Pairwise.imp (fun {a b} hab hb => by
      simp only [decide_eq_true_eq] at hb ⊢
      exact hab hb) (sorted_lt P t k hc hs))
  generalize t.inorder.takeWhile (fun x => decide (t.comp (P.key x) k < 0)) = lo at hsplit lo1
  generalize t.inorder.dropWhile (fun x => decide (t.comp (P.key x) k < 0)) = rest
    at hsplit lo2
  have hq := sorted_gt P t k hc hs
  rw [hsplit] at hq ⊢
  have hq2 := (List.pairwise_append.mp hq).2.1
  have hsplit2 := (List.takeWhile_append_dropWhile
    (fun x => decide (¬ t.comp (P.key x) k > 0)) rest).symm
  obtain ⟨eq1, gt1⟩ := takeWhile_dropWhile_facts (fun x => decide (¬ t.comp (P.key x) k > 0))
    rest (List.Pairwise.imp (fun {a b} hab hb => by
      simp only [decide_eq_true_eq] at hb ⊢
      exact fun ha => hb (hab ha)) hq2)
  have eq2 : ∀ x ∈ rest.takeWhile (fun x => decide (¬ t.comp (P.key x) k > 0)),
      t.comp (P.key x) k = 0 := by
    intro x hx
    have h1 := eq1 x hx
    have h2 := lo2 x ((List.takeWhile_sublist _).subset hx)
    simp only [decide_eq_true_eq, decide_eq_false_iff_not] at h1 h2
    omega
  generalize rest.takeWhile (fun x => decide (¬ t.comp (P.key x) k > 0)) = eq
    at hsplit2 eq1 eq2
  generalize rest.dropWhile (fun x => decide (¬ t.comp (P.key x) k > 0)) = gt at hsplit2 gt1
  rw [hsplit2, ← List.append_assoc]
  have tw := (takeWhile_of_split (fun x => decide (¬ t.comp (P.key x) k > 0)) (lo ++ eq) gt
    (by
      intro x hx
      rcases List.mem_append.mp hx with h | h
      · have := lo1 x h
        simp only [decide_eq_true_eq] at this ⊢
        omega
      · exact eq1 x h) gt1).1
  rw [tw]
  congr 1
  simp only [List.filter_append]
  have f1 : lo.filter (fun x => decide (t.comp (P.key x) k = 0)) = [] := by
    rw [List.filter_eq_nil_iff]
    intro x hx
    have := lo1 x hx
    simp only [decide_eq_true_eq] at this ⊢
    omega
  have f2 : eq.filter (fun x => decide (t.comp (P.key x) k = 0)) = eq := by
    rw [List.filter_eq_self]
    intro x hx
    simpa using eq2 x hx
  have f3 : gt.filter (fun x => decide (t.comp (P.key x) k = 0)) = [] := by
    rw [List.filter_eq_nil_iff]
    intro x hx
    have := gt1 x hx
    simp only [decide_eq_false_iff_not, not_not] at this
    simp only [decide_eq_true_eq]
    omega
  rw [f1, f2, f3]
  simp

end EqualRange

end Btree

end CppBtree

namespace CppBtree

variable {K V : Type}

namespace Btree

/-- C9: in a well-shaped sorted tree with a lawful comparator, `lower_bound(k)` equals
`upper_bound(k)` exactly when no stored key equals `k`; the values met when stepping from
`lower_bound(k)` up to `upper_bound(k)` are exactly the stored values whose key equals `k`, in
order; and `count_multi(k)` is their number (so `0` when `k` is absent). -/
theorem equal_range_brackets [Inhabited V] (P : Params K V) (t : Btree K V) (k : K)
    (hc : LawfulComp t.comp) (hS : Shaped P t) (hs : Sorted P t) :
    (lower_bound P t k = upper_bound P t k ↔ ∀ x ∈ t.inorder, t.comp (P.key x) k ≠ 0)
      ∧ t.values_between (t.size + 1) (lower_bound P t k) (upper_bound P t k)
          = t.inorder.filter (fun x => decide (t.comp (P.key x) k = 0))
      ∧ count_multi P t k
          = (t.inorder.filter (fun x => decide (t.comp (P.key x) k = 0))).length := by
  have hl := lower_bound_iterTo P t k hc hS hs
  have hu := upper_bound_iterTo P t k hc hS hs
  rw [equal_segment P t k hc hs] at hu
  have hlen : (t.inorder.filter (fun x => decide (t.comp (P.key x) k = 0))).length
      < t.size + 1 := by
    rw [size_eq_length P t hS]
    have := List.length_filter_le (fun x => decide (t.comp (P.key x) k = 0)) t.inorder
    omega
  refine ⟨⟨fun heq => ?_, fun hnone => ?_⟩, ?_, ?_⟩
  · rw [heq] at hl
    obtain ⟨c1, _⟩ := iterTo_functional P t hS _ _ _ _ _ hl hu
    have c2 := congrArg List.length c1
    simp only [List.length_append] at c2
    have c3 : t.inorder.filter (fun x => decide (t.comp (P.key x) k = 0)) = [] :=
      List.length_eq_zero.mp (by omega)
    rw [List.filter_eq_nil_iff] at c3
    intro x hx
    simpa using c3 x hx
  · have c3 : t.inorder.filter (fun x => decide (t.comp (P.key x) k = 0)) = [] := by
      rw [List.filter_eq_nil_iff]
      intro x hx
      simpa using hnone x hx
    rw [c3, List.append_nil] at hu
    have e1 := iterTo_inorder P t hS _ _ _ hl
    have e2 := iterTo_inorder P t hS _ _ _ hu
    have e3 := List.append_cancel_left (e1.symm.trans e2)
    rw [← e3] at hu
    exact iterTo_unique P t hS _ _ _ _ hl hu
  · exact values_between_spec P t hS _ _ _ _ _ _ _ hl hu hlen
  · simp only [count_multi]
    rw [distance_spec P t hS _ _ _ hu _ _ _ _ hl (by simp) (by simpa using hlen)]
    simp

theorem equal_range_brackets_witness :
    LawfulComp Example.multi_tree.comp ∧ Shaped Example.params Example.multi_tree
      ∧ Sorted Example.params Example.multi_tree
      ∧ ((lower_bound Example.params Example.multi_tree 20
            = upper_bound Example.params Example.multi_tree 20
          ↔ ∀ x ∈ Example.multi_tree.inorder,
              Example.multi_tree.comp (Example.params.key x) 20 ≠ 0)
        ∧ Example.multi_tree.values_between (Example.multi_tree.size + 1)
            (lower_bound Example.params Example.multi_tree 20)
            (upper_bound Example.params Example.multi_tree 20)
            = Example.multi_tree.inorder.filter
                (fun x => decide (Example.multi_tree.comp (Example.params.key x) 20 = 0))
        ∧ count_multi Example.params Example.multi_tree 20
            = (Example.multi_tree.inorder.filter
                (fun x => decide (Example.multi_tree.comp (Example.params.key x) 20 = 0))).length) :=
  ⟨Example.int_compare_lawful, by decide, by decide,
    equal_range_brackets Example.params Example.multi_tree 20 Example.int_compare_lawful
      (by decide) (by decide)⟩

end Btree

end CppBtree

namespace CppBtree

variable {K V : Type}

namespace Node

section FixSetup

variable [Inhabited V]

theorem mem_front_child (vs : List V) (A rest : List (Node V)) (c : Node V) (hc : c ∈ A) :
    ∃ k, k < A.length ∧ c = (internal_node vs (A ++ rest)).child k := by
  obtain ⟨k, hk, rfl⟩ := List.getElem_of_mem hc
  refine ⟨k, hk, ?_⟩
  simp only [child, children_internal]
  rw [List.getD_eq_getElem _ _ (by simp; omega), List.getElem_append_left hk]

theorem mem_back_child (vs : List V) (A Z : List (Node V)) (L R : Node V) (c : Node V)
    (hc : c ∈ Z) :
    ∃ k, A.length + 2 ≤ k ∧ k < (A ++ L :: R :: Z).length
      ∧ c = (internal_node vs (A ++ L :: R :: Z)).child k := by
  obtain ⟨k, hk, rfl⟩ := List.getElem_of_mem hc
  refine ⟨A.length + 2 + k, by omega, by simp; omega, ?_⟩
  simp only [child, children_internal]
  have e : A ++ L :: R :: Z = (A ++ [L, R]) ++ Z := by simp
  rw [e, show A.length + 2 + k = (A ++ [L, R]).length + k by simp]
  rw [getD_add_app, List.getD_eq_getElem _ _ hk]

/-- The pair of children `j` and `j + 1` of an internal node, their delimiter and the node they
form when glued. -/
theorem pair_setup (B h : Nat) (p : Node V) (j i : Nat) (hl : p.leaf = false)
    (hc2 : p.count ≤ B) (hlen : p.children.length = p.count + 1) (hj : j < p.count)
    (hi : i = j ∨ i = j + 1)
    (hw0 : Node.wfc B h 0 B (p.child i) = true)
    (hw1 : ∀ k, k < p.children.length → k ≠ i → Node.wfc B h 1 B (p.child k) = true) :
    ∃ a sep z A L R Z, p = internal_node (a ++ sep :: z) (A ++ L :: R :: Z)
      ∧ a.length = j ∧ A.length = j ∧ Z.length = z.length
      ∧ L = p.child j ∧ R = p.child (j + 1)
      ∧ (∀ c ∈ A, Node.wfc B h 1 B c = true) ∧ (∀ c ∈ Z, Node.wfc B h 1 B c = true)
      ∧ Node.wfc B h 0 B L = true ∧ Node.wfc B h 0 B R = true
      ∧ (i = j + 1 → Node.wfc B h 1 B L = true) ∧ (i = j → Node.wfc B h 1 B R = true)
      ∧ shape_ok L ∧ shape_ok R ∧ same_kind L R
      ∧ Node.wfc B h (L.count + 1 + R.count) (L.count + 1 + R.count) (glue L sep R) = true
      ∧ shape_ok (glue L sep R)
      ∧ (glue L sep R).count = L.count + 1 + R.count
      ∧ p = cut_config a z A Z (glue L sep R) L.count
      ∧ a.length + 1 + z.length = p.count
      ∧ (glue L sep R).leaf = L.leaf ∧ R.leaf = L.leaf := by
  obtain ⟨a, sep, z, A, L, R, Z, eP, ha, hA, hZ, eL, eR, esep, hAm, hZm⟩ :=
    decompose_pair p j hl hlen hj
  have hchild : ∀ k, k < p.children.length → Node.wfc B h 0 B (p.child k) = true := by
    intro k hk
    by_cases e : k = i
    · rw [e]; exact hw0
    · exact wfc_mono _ _ _ _ _ _ _ (by omega) (Nat.le_refl _) (hw1 k hk e)
  have hLw : Node.wfc B h 0 B L = true := by rw [eL]; exact hchild _ (by omega)
  have hRw : Node.wfc B h 0 B R = true := by rw [eR]; exact hchild _ (by omega)
  have hAw : ∀ c ∈ A, Node.wfc B h 1 B c = true := by
    intro c hc
    obtain ⟨k, hk, e⟩ := mem_front_child (a ++ sep :: z) A (L :: R :: Z) c hc
    rw [e, ← eP]
    exact hw1 k (by omega) (by omega)
  have hZw : ∀ c ∈ Z, Node.wfc B h 1 B c = true := by
    intro c hc
    obtain ⟨k, hk1, hk2, e⟩ := mem_back_child (a ++ sep :: z) A Z L R c hc
    rw [e, ← eP]
    have : (A ++ L :: R :: Z).length = p.children.length := by rw [eP]; rfl
    exact hw1 k (by omega) (by omega)
  have hsL := shape_ok_of_wfc B h 0 B L hLw
  have hsR := shape_ok_of_wfc B h 0 B R hRw
  have hsk := same_kind_of_wfc B h 0 B 0 B L R hLw hRw
  have hM := wfc_glue B h 0 B 0 B L R sep hLw hRw
  have hcnt : a.length + 1 + z.length = p.count := by
    have := congrArg Node.count eP
    simp only [count_internal, List.length_append, List.length_cons] at this
    omega
  have hleafM : (glue L sep R).leaf = L.leaf := by
    cases L <;> rfl
  have hleafR : R.leaf = L.leaf := by
    revert hsk
    cases L <;> cases R <;> simp [same_kind]
  refine ⟨a, sep, z, A, L, R, Z, eP, ha, hA, hZ, eL, eR, hAw, hZw, hLw, hRw, ?_, ?_, hsL, hsR,
    hsk, hM, shape_ok_of_wfc _ _ _ _ _ hM, count_glue L R sep, ?_, hcnt, hleafM, hleafR⟩
  · intro e
    rw [eL]
    exact hw1 j (by omega) (by omega)
  · intro e
    rw [eR]
    exact hw1 (j + 1) (by omega) (by omega)
  · rw [eP]
    exact orig_eq a z sep A Z L R hsL hsk

end FixSetup

end Node

end CppBtree

namespace CppBtree

variable {K V : Type}

namespace Node

section FixOps

variable [Inhabited V]

theorem wfc_relax (B h lo hi lo2 hi2 : Nat) (n : Node V) (hw : wfc B h lo hi n = true)
    (h1 : lo2 ≤ n.count) (h2 : n.count ≤ hi2) : wfc B h lo2 hi2 n = true := by
  cases n with
  | leaf_node m vs =>
    rw [wfc_leaf_iff] at hw ⊢
    simp only [count_leaf] at h1 h2
    omega
  | internal_node vs cs =>
    rw [wfc_internal_iff] at hw ⊢
    obtain ⟨h1', e, _, _, c, d⟩ := hw
    simp only [count_internal] at h1 h2
    exact ⟨h1', e, h1, h2, c, d⟩

theorem cut_leaf (n : Node V) (k : Nat) :
    (cut_left n k).leaf = n.leaf ∧ (cut_right n k).leaf = n.leaf := by
  cases n <;> exact ⟨rfl, rfl⟩

/-- The children of a cut configuration are well shaped when both parts hold at least one
value. -/
theorem cut_config_children (B h lo hi : Nat) (a z : List V) (A Z : List (Node V)) (M : Node V)
    (k : Nat) (hAw : ∀ c ∈ A, wfc B h 1 B c = true) (hZw : ∀ c ∈ Z, wfc B h 1 B c = true)
    (hM : wfc B h lo hi M = true) (hk : k < M.count) (hk1 : 1 ≤ k) (hk2 : k ≤ B)
    (hr1 : 1 ≤ M.count - k - 1) (hr2 : M.count - k - 1 ≤ B) :
    ∀ c ∈ (cut_config a z A Z M k).children, wfc B h 1 B c = true := by
  intro c hc
  simp only [cut_config, children_internal, List.mem_append, List.mem_cons] at hc
  rcases hc with hc | rfl | rfl | hc
  · exact hAw c hc
  · exact wfc_mono _ _ _ _ _ _ _ hk1 hk2 (wfc_cut_left B h lo hi k M hM (by omega))
  · exact wfc_mono _ _ _ _ _ _ _ hr1 hr2 (wfc_cut_right B h lo hi k M hM hk)
  · exact hZw c hc

/-- The gap `G` of the glued node, seen after the pair was merged. -/
theorem fix_merged (B h lo hi : Nat) (p : Node V) (a z : List V) (A Z : List (Node V))
    (M : Node V) (j i g G k0 : Nat) (hj : j = a.length) (hA : A.length = a.length)
    (hZ : Z.length = z.length)
    (hAw : ∀ c ∈ A, wfc B h 1 B c = true) (hZw : ∀ c ∈ Z, wfc B h 1 B c = true)
    (hM : wfc B h lo hi M = true) (hM1 : 1 ≤ M.count) (hM2 : M.count ≤ B)
    (hcnt : a.length + z.length ≤ B) (hG : G ≤ M.count)
    (hk0 : k0 < M.count) (eP : p = cut_config a z A Z M k0)
    (hold : gap_pre p i g = join_cv (A.map Node.inorder) a ++ M.pre_part G
      ∧ gap_post p i g = M.post_part G ++ join_vc z (Z.map Node.inorder)
      ∧ (p.child i).child g = M.child G ∧ (p.child i).leaf = M.leaf) :
    FixNode B h p (internal_node (a ++ z) (A ++ M :: Z)) i j g G := by
  obtain ⟨o1, o2, o3, o4⟩ := hold
  obtain ⟨n1, n2, n3⟩ := gap_merged a z A Z M j G hj hA
  have hs := shape_ok_of_wfc _ _ _ _ _ hM
  refine ⟨rfl, by simpa using hcnt, by simp; omega, ?_, by simp; omega, by rw [n3]; exact hG, ?_,
    ?_, by rw [n3, o3], by rw [n3, o4], ?_⟩
  · intro c hc
    simp only [children_internal, List.mem_append, List.mem_cons] at hc
    rcases hc with hc | rfl | hc
    · exact hAw c hc
    · exact wfc_relax _ _ _ _ _ _ _ hM hM1 hM2
    · exact hZw c hc
  · have := n1
    unfold gap_pre at this o1
    rw [this, o1]
  · have := n2
    unfold gap_post at this o2
    rw [this, o2]
  · rw [eP, inorder_merged a z A Z M j hj hA hZ, inorder_cut_config a z A Z M j k0 hj hA hZ hs hk0]

end FixOps

end Node

end CppBtree

namespace CppBtree

variable {K V : Type}

namespace Node

section FixOps2

variable [Inhabited V]

/-- The gap `G` of the glued node, seen in the left part after the pair was cut at `k`. -/
theorem fix_cut_left (B h lo hi : Nat) (p : Node V) (a z : List V) (A Z : List (Node V))
    (M : Node V) (j i g G k0 k : Nat) (hj : j = a.length) (hA : A.length = a.length)
    (hZ : Z.length = z.length)
    (hAw : ∀ c ∈ A, wfc B h 1 B c = true) (hZw : ∀ c ∈ Z, wfc B h 1 B c = true)
    (hM : wfc B h lo hi M = true) (hcnt : a.length + 1 + z.length ≤ B)
    (hk : k < M.count) (hk1 : 1 ≤ k) (hk2 : k ≤ B)
    (hr1 : 1 ≤ M.count - k - 1) (hr2 : M.count - k - 1 ≤ B) (hG : G ≤ k)
    (hk0 : k0 < M.count) (eP : p = cut_config a z A Z M k0)
    (hold : gap_pre p i g = join_cv (A.map Node.inorder) a ++ M.pre_part G
      ∧ gap_post p i g = M.post_part G ++ join_vc z (Z.map Node.inorder)
      ∧ (p.child i).child g = M.child G ∧ (p.child i).leaf = M.leaf) :
    FixNode B h p (cut_config a z A Z M k) i j g G
      ∧ (cut_config a z A Z M k).count = a.length + 1 + z.length
      ∧ ((cut_config a z A Z M k).child j).count = k := by
  obtain ⟨o1, o2, o3, o4⟩ := hold
  have hs := shape_ok_of_wfc _ _ _ _ _ hM
  obtain ⟨n1, n2, n3, _⟩ := gap_cut_left a z A Z M j k G hj hA hs hk hG
  obtain ⟨b1, b2, b3⟩ := cut_config_basic a z A Z M k hA hZ
  have hcl := count_cut_left M k (by omega)
  refine ⟨⟨b1, by omega, b3, cut_config_children B h lo hi a z A Z M k hAw hZw hM hk hk1 hk2 hr1
    hr2, by omega, by rw [n3, hcl]; exact hG, ?_, ?_, ?_, ?_, ?_⟩, b2, by rw [n3, hcl]⟩
  · have := n1
    unfold gap_pre at this o1
    rw [this, o1]
  · have := n2
    unfold gap_post at this o2
    rw [this, o2]
  · rw [n3, o3]
    exact cut_left_child M k G hG
  · rw [n3, o4]
    exact (cut_leaf M k).1
  · rw [eP, inorder_cut_config a z A Z M j k hj hA hZ hs hk,
      inorder_cut_config a z A Z M j k0 hj hA hZ hs hk0]

/-- The gap `G` of the glued node, seen in the right part after the pair was cut at `k`. -/
theorem fix_cut_right (B h lo hi : Nat) (p : Node V) (a z : List V) (A Z : List (Node V))
    (M : Node V) (j i g G k0 k : Nat) (hj : j = a.length) (hA : A.length = a.length)
    (hZ : Z.length = z.length)
    (hAw : ∀ c ∈ A, wfc B h 1 B c = true) (hZw : ∀ c ∈ Z, wfc B h 1 B c = true)
    (hM : wfc B h lo hi M = true) (hcnt : a.length + 1 + z.length ≤ B)
    (hk : k < M.count) (hk1 : 1 ≤ k) (hk2 : k ≤ B)
    (hr1 : 1 ≤ M.count - k - 1) (hr2 : M.count - k - 1 ≤ B) (hG : k < G) (hG2 : G ≤ M.count)
    (hk0 : k0 < M.count) (eP : p = cut_config a z A Z M k0)
    (hold : gap_pre p i g = join_cv (A.map Node.inorder) a ++ M.pre_part G
      ∧ gap_post p i g = M.post_part G ++ join_vc z (Z.map Node.inorder)
      ∧ (p.child i).child g = M.child G ∧ (p.child i).leaf = M.leaf) :
    FixNode B h p (cut_config a z A Z M k) i (j + 1) g (G - k - 1)
      ∧ (cut_config a z A Z M k).count = a.length + 1 + z.length
      ∧ ((cut_config a z A Z M k).child (j + 1)).count = M.count - k - 1 := by
  obtain ⟨o1, o2, o3, o4⟩ := hold
  have hs := shape_ok_of_wfc _ _ _ _ _ hM
  obtain ⟨n1, n2, n3, _⟩ := gap_cut_right a z A Z M j k G hj hA hs hk hG hG2
  obtain ⟨b1, b2, b3⟩ := cut_config_basic a z A Z M k hA hZ
  have hcr : (cut_right M k).count = M.count - k - 1 := by
    rw [count_cut_right]
    omega
  refine ⟨⟨b1, by omega, b3, cut_config_children B h lo hi a z A Z M k hAw hZw hM hk hk1 hk2 hr1
    hr2, by omega, by rw [n3, hcr]; omega, ?_, ?_, ?_, ?_, ?_⟩, b2, by rw [n3, hcr]⟩
  · have := n1
    unfold gap_pre at this o1
    rw [this, o1]
  · have := n2
    unfold gap_post at this o2
    rw [this, o2]
  · rw [n3, o3]
    exact cut_right_child M k G hG
  · rw [n3, o4]
    exact (cut_leaf M k).2
  · rw [eP, inorder_cut_config a z A Z M j k hj hA hZ hs hk,
      inorder_cut_config a z A Z M j k0 hj hA hZ hs hk0]

/-- A gap of the left node of a pair, seen in the glued node. -/
theorem old_left (a z : List V) (A Z : List (Node V)) (L R : Node V) (sep : V) (j g : Nat)
    (hj : j = a.length) (hA : A.length = a.length) (hsL : shape_ok L) (hsk : same_kind L R)
    (hsM : shape_ok (glue L sep R)) (hg : g ≤ L.count) :
    gap_pre (cut_config a z A Z (glue L sep R) L.count) j g
        = join_cv (A.map Node.inorder) a ++ (glue L sep R).pre_part g
      ∧ gap_post (cut_config a z A Z (glue L sep R) L.count) j g
        = (glue L sep R).post_part g ++ join_vc z (Z.map Node.inorder)
      ∧ ((cut_config a z A Z (glue L sep R) L.count).child j).child g = (glue L sep R).child g
      ∧ ((cut_config a z A Z (glue L sep R) L.count).child j).leaf = (glue L sep R).leaf := by
  obtain ⟨n1, n2, n3, _⟩ := gap_cut_left a z A Z (glue L sep R) j L.count g hj hA hsM
    (by rw [count_glue]; omega) hg
  refine ⟨n1, n2, ?_, ?_⟩
  · rw [n3]
    exact cut_left_child _ _ _ hg
  · rw [n3]
    exact (cut_leaf _ _).1

/-- A gap of the right node of a pair, seen in the glued node. -/
theorem old_right (a z : List V) (A Z : List (Node V)) (L R : Node V) (sep : V) (j g : Nat)
    (hj : j = a.length) (hA : A.length = a.length) (hsL : shape_ok L) (hsk : same_kind L R)
    (hsM : shape_ok (glue L sep R)) (hg : g ≤ R.count) :
    gap_pre (cut_config a z A Z (glue L sep R) L.count) (j + 1) g
        = join_cv (A.map Node.inorder) a ++ (glue L sep R).pre_part (L.count + 1 + g)
      ∧ gap_post (cut_config a z A Z (glue L sep R) L.count) (j + 1) g
        = (glue L sep R).post_part (L.count + 1 + g) ++ join_vc z (Z.map Node.inorder)
      ∧ ((cut_config a z A Z (glue L sep R) L.count).child (j + 1)).child g
        = (glue L sep R).child (L.count + 1 + g)
      ∧ ((cut_config a z A Z (glue L sep R) L.count).child (j + 1)).leaf
        = (glue L sep R).leaf := by
  obtain ⟨n1, n2, n3, _⟩ := gap_cut_right a z A Z (glue L sep R) j L.count (L.count + 1 + g)
    hj hA hsM (by rw [count_glue]; omega) (by omega) (by rw [count_glue]; omega)
  rw [show L.count + 1 + g - L.count - 1 = g by omega] at n1 n2
  refine ⟨n1, n2, ?_, ?_⟩
  · rw [n3]
    have := cut_right_child (glue L sep R) L.count (L.count + 1 + g) (by omega)
    rw [show L.count + 1 + g - L.count - 1 = g by omega] at this
    exact this
  · rw [n3]
    exact (cut_leaf _ _).2

end FixOps2

end Node

end CppBtree

namespace CppBtree

variable {K V : Type}

namespace Node

section FixOps3

variable [Inhabited V]

theorem fix_nothing (B h : Nat) (p : Node V) (i g : Nat) (hl : p.leaf = false)
    (hc2 : p.count ≤ B) (hlen : p.children.length = p.count + 1) (hi : i ≤ p.count)
    (hw0 : wfc B h 0 B (p.child i) = true)
    (hw1 : ∀ k, k < p.children.length → k ≠ i → wfc B h 1 B (p.child k) = true)
    (hg : g ≤ (p.child i).count) (hN1 : 1 ≤ (p.child i).count) :
    FixNode B h p p i i g g := by
  refine ⟨hl, hc2, hlen, ?_, hi, hg, rfl, rfl, rfl, rfl, rfl⟩
  intro c hc
  obtain ⟨k, hk, rfl⟩ := List.getElem_of_mem hc
  have e : p.children[k] = p.child k := by
    simp only [child]
    rw [List.getD_eq_getElem _ _ hk]
  rw [e]
  by_cases hki : k = i
  · rw [hki]
    exact wfc_relax _ _ _ _ _ _ _ hw0 hN1 (wfc_count _ _ _ _ _ hw0).2
  · exact hw1 k hk hki

theorem merge_left_fix (B h : Nat) (p : Node V) (i g : Nat) (hl : p.leaf = false)
    (hc2 : p.count ≤ B) (hlen : p.children.length = p.count + 1) (hi : i ≤ p.count)
    (hw0 : wfc B h 0 B (p.child i) = true)
    (hw1 : ∀ k, k < p.children.length → k ≠ i → wfc B h 1 B (p.child k) = true)
    (hg : g ≤ (p.child i).count) (hi0 : 0 < i)
    (hcond : 1 + (p.child (i - 1)).count + (p.child i).count ≤ B) :
    FixNode B h p (p.merge (i - 1)) i (i - 1) g ((p.child (i - 1)).count + 1 + g)
      ∧ (p.merge (i - 1)).count + 1 = p.count := by
  obtain ⟨a, sep, z, A, L, R, Z, eP, ha, hA, hZ, eL, eR, hAw, hZw, hLw, hRw, _, _, hsL, hsR,
    hsk, hM, hsM, hMc, eP2, hcnt, hlM, hlR⟩ := pair_setup B h p (i - 1) i hl hc2 hlen (by omega)
      (Or.inr (by omega)) hw0 hw1
  have ei : i - 1 + 1 = i := by omega
  rw [ei] at eR
  rw [← eL] at hcond ⊢
  rw [← eR] at hcond hg
  have hop : p.merge (i - 1) = internal_node (a ++ z) (A ++ glue L sep R :: Z) := by
    rw [eP]
    exact merge_eq a z sep A Z L R (i - 1) ha.symm (by omega) hZ
  rw [hop]
  have hold := old_right a z A Z L R sep (i - 1) g ha.symm (by omega) hsL hsk hsM hg
  rw [← eP2, ei] at hold
  refine ⟨fix_merged B h _ _ p a z A Z (glue L sep R) (i - 1) i g (L.count + 1 + g) L.count
    ha.symm (by omega) hZ hAw hZw hM (by omega) (by omega) (by omega) (by omega) (by omega) eP2
    hold, ?_⟩
  simp only [count_internal, List.length_append]
  omega

theorem merge_right_fix (B h : Nat) (p : Node V) (i g : Nat) (hl : p.leaf = false)
    (hc2 : p.count ≤ B) (hlen : p.children.length = p.count + 1)
    (hw0 : wfc B h 0 B (p.child i) = true)
    (hw1 : ∀ k, k < p.children.length → k ≠ i → wfc B h 1 B (p.child k) = true)
    (hg : g ≤ (p.child i).count) (hi1 : i < p.count)
    (hcond : 1 + (p.child i).count + (p.child (i + 1)).count ≤ B) :
    FixNode B h p (p.merge i) i i g g ∧ (p.merge i).count + 1 = p.count := by
  obtain ⟨a, sep, z, A, L, R, Z, eP, ha, hA, hZ, eL, eR, hAw, hZw, hLw, hRw, _, _, hsL, hsR,
    hsk, hM, hsM, hMc, eP2, hcnt, hlM, hlR⟩ := pair_setup B h p i i hl hc2 hlen hi1
      (Or.inl rfl) hw0 hw1
  rw [← eL, ← eR] at hcond
  rw [← eL] at hg
  have hop : p.merge i = internal_node (a ++ z) (A ++ glue L sep R :: Z) := by
    rw [eP]
    exact merge_eq a z sep A Z L R i ha.symm (by omega) hZ
  rw [hop]
  have hold := old_left a z A Z L R sep i g ha.symm (by omega) hsL hsk hsM hg
  rw [← eP2] at hold
  refine ⟨fix_merged B h _ _ p a z A Z (glue L sep R) i i g g L.count
    ha.symm (by omega) hZ hAw hZw hM (by omega) (by omega) (by omega) (by omega) (by omega) eP2
    hold, ?_⟩
  simp only [count_internal, List.length_append]
  omega

theorem rebalance_rl_fix (B h : Nat) (p : Node V) (i g m : Nat) (hl : p.leaf = false)
    (hc2 : p.count ≤ B) (hlen : p.children.length = p.count + 1)
    (hw0 : wfc B h 0 B (p.child i) = true)
    (hw1 : ∀ k, k < p.children.length → k ≠ i → wfc B h 1 B (p.child k) = true)
    (hg : g ≤ (p.child i).count) (hi1 : i < p.count) (hm1 : 1 ≤ m)
    (hm2 : m + 1 ≤ (p.child (i + 1)).count) (hm3 : (p.child i).count + m ≤ B) :
    FixNode B h p (p.rebalance_right_to_left i m) i i g g
      ∧ (p.rebalance_right_to_left i m).count = p.count
      ∧ 1 ≤ ((p.rebalance_right_to_left i m).child i).count := by
  obtain ⟨a, sep, z, A, L, R, Z, eP, ha, hA, hZ, eL, eR, hAw, hZw, hLw, hRw, _, hR1, hsL, hsR,
    hsk, hM, hsM, hMc, eP2, hcnt, hlM, hlR⟩ := pair_setup B h p i i hl hc2 hlen hi1
      (Or.inl rfl) hw0 hw1
  rw [← eL] at hg hm3
  rw [← eR] at hm2
  have hRc := wfc_count _ _ _ _ _ (hR1 rfl)
  have hop : p.rebalance_right_to_left i m = cut_config a z A Z (glue L sep R) (L.count + m) := by
    rw [eP]
    exact rebalance_right_to_left_eq a z sep A Z L R i m ha.symm (by omega) hsL hsR hsk hm1
      (by omega)
  rw [hop]
  have hold := old_left a z A Z L R sep i g ha.symm (by omega) hsL hsk hsM hg
  rw [← eP2] at hold
  obtain ⟨f1, f2, f3⟩ := fix_cut_left B h _ _ p a z A Z (glue L sep R) i i g g L.count
    (L.count + m) ha.symm (by omega) hZ hAw hZw hM (by omega) (by omega) (by omega) (by omega)
    (by omega) (by omega) (by omega) (by omega) eP2 hold
  exact ⟨f1, by omega, by omega⟩

theorem rebalance_lr_fix (B h : Nat) (p : Node V) (i g m : Nat) (hl : p.leaf = false)
    (hc2 : p.count ≤ B) (hlen : p.children.length = p.count + 1) (hi : i ≤ p.count)
    (hw0 : wfc B h 0 B (p.child i) = true)
    (hw1 : ∀ k, k < p.children.length → k ≠ i → wfc B h 1 B (p.child k) = true)
    (hg : g ≤ (p.child i).count) (hi0 : 0 < i) (hm1 : 1 ≤ m)
    (hm2 : m + 1 ≤ (p.child (i - 1)).count) (hm3 : (p.child i).count + m ≤ B) :
    FixNode B h p (p.rebalance_left_to_right (i - 1) m) i i g (g + m)
      ∧ (p.rebalance_left_to_right (i - 1) m).count = p.count
      ∧ 1 ≤ ((p.rebalance_left_to_right (i - 1) m).child i).count := by
  obtain ⟨a, sep, z, A, L, R, Z, eP, ha, hA, hZ, eL, eR, hAw, hZw, hLw, hRw, hL1, _, hsL, hsR,
    hsk, hM, hsM, hMc, eP2, hcnt, hlM, hlR⟩ := pair_setup B h p (i - 1) i hl hc2 hlen (by omega)
      (Or.inr (by omega)) hw0 hw1
  have ei : i - 1 + 1 = i := by omega
  rw [ei] at eR
  rw [← eR] at hg hm3
  rw [← eL] at hm2
  have hLc := wfc_count _ _ _ _ _ (hL1 (by omega))
  have hop : p.rebalance_left_to_right (i - 1) m
      = cut_config a z A Z (glue L sep R) (L.count - m) := by
    rw [eP]
    exact rebalance_left_to_right_eq a z sep A Z L R (i - 1) m ha.symm (by omega) hsL hsk hm1
      (by omega)
  rw [hop]
  have hold := old_right a z A Z L R sep (i - 1) g ha.symm (by omega) hsL hsk hsM hg
  rw [← eP2, ei] at hold
  obtain ⟨f1, f2, f3⟩ := fix_cut_right B h _ _ p a z A Z (glue L sep R) (i - 1) i g
    (L.count + 1 + g) L.count (L.count - m) ha.symm (by omega) hZ hAw hZw hM (by omega)
    (by omega) (by omega) (by omega) (by omega) (by omega) (by omega) (by omega) (by omega) eP2
    hold
  rw [ei, show L.count + 1 + g - (L.count - m) - 1 = g + m by omega] at f1
  rw [ei] at f3
  exact ⟨f1, by omega, by omega⟩

end FixOps3

end Node

end CppBtree

namespace CppBtree

variable {K V : Type}

section FixTree

variable [Inhabited V]

theorem fixStep_of_node (B h H : Nat) (r : Node V) (rp : List Nat) (p1 : Node V)
    (i i1 g g1 : Nat) (hc : Ctx B r rp (h + 1) H)
    (hf : Node.FixNode B h (getNode r rp) p1 i i1 g g1) :
    FixStep B h H r (setNode r rp p1) rp i i1 g g1 ∧ getNode (setNode r rp p1) rp = p1 := by
  obtain ⟨f1, f2, f3, f4, f5, f6, f7, f8, f9, f10, f11⟩ := hf
  have hv := validPath_of_ctx _ _ _ _ _ hc
  have e1 := getNode_setNode r rp p1 hv
  have e2 : getNode (setNode r rp p1) (i1 :: rp) = p1.child i1 := by
    simp only [getNode, e1]
  refine ⟨⟨ctx_setNode _ _ _ _ _ p1 hc, ?_, by rw [e1]; exact f5, by rw [e2]; exact f6, ?_, ?_,
    by rw [e2]; exact f9, by rw [e2]; exact f10, ?_⟩, e1⟩
  · rw [e1]
    exact Node.wfc_of_parts _ _ _ _ _ f1 (Nat.zero_le _) f2 f3 f4
  · rw [e2]
    simp only [pre, e1, pre_setNode r rp p1 hv, getNode, List.append_assoc]
    rw [f7]
  · rw [e2]
    simp only [post, e1, post_setNode r rp p1 hv, getNode]
    rw [← List.append_assoc, f8, List.append_assoc]
  · rw [inorder_setNode _ _ _ _ _ p1 hc, inorder_eq_pre_post _ _ _ _ _ hc, f11]

end FixTree

namespace Btree

section FixTree2

variable [Inhabited V]

theorem try_merge_or_rebalance_eq (P : Params K V) (t : Btree K V) (r : Node V)
    (hr : t.root_node = r) (i : Nat) (rp : List Nat) (position : Int) :
    try_merge_or_rebalance P t (i :: rp) position
      = if i > 0 ∧ 1 + ((getNode r rp).child (i - 1)).count + ((getNode r rp).child i).count
            ≤ ((getNode r rp).child (i - 1)).max_count P.kNodeValues then
          (t.set_node rp ((getNode r rp).merge (i - 1)), (i - 1) :: rp,
            position + (1 + ((getNode r rp).child (i - 1)).count), true)
        else if i < (getNode r rp).count
            ∧ 1 + ((getNode r rp).child i).count + ((getNode r rp).child (i + 1)).count
              ≤ ((getNode r rp).child (i + 1)).max_count P.kNodeValues then
          (t.set_node rp ((getNode r rp).merge i), i :: rp, position, true)
        else if i < (getNode r rp).count
            ∧ ((getNode r rp).child (i + 1)).count > kMinNodeValues P
            ∧ (((getNode r rp).child i).count = 0 ∨ position > 0) then
          (t.set_node rp ((getNode r rp).rebalance_right_to_left i
            (min (((((getNode r rp).child (i + 1)).count : Int)
              - ((getNode r rp).child i).count) / 2)
              ((((getNode r rp).child (i + 1)).count : Int) - 1)).toNat), i :: rp, position, false)
        else if i > 0 ∧ ((getNode r rp).child (i - 1)).count > kMinNodeValues P
            ∧ (((getNode r rp).child i).count = 0
              ∨ position < (((getNode r rp).child i).count : Int)) then
          (t.set_node rp ((getNode r rp).rebalance_left_to_right (i - 1)
            (min (((((getNode r rp).child (i - 1)).count : Int)
              - ((getNode r rp).child i).count) / 2)
              ((((getNode r rp).child (i - 1)).count : Int) - 1)).toNat), i :: rp,
            position + (min (((((getNode r rp).child (i - 1)).count : Int)
              - ((getNode r rp).child i).count) / 2)
              ((((getNode r rp).child (i - 1)).count : Int) - 1)), false)
        else (t, i :: rp, position, false) := by
  simp only [try_merge_or_rebalance, node, hr, merge_nodes]

end FixTree2

end Btree

end CppBtree

namespace CppBtree

variable {K V : Type}

namespace Btree

section FixTree3

variable [Inhabited V]

/-- One call of `try_merge_or_rebalance` on a node that holds fewer than `kMinNodeValues`
values, seen from a gap `g` of that node. -/
theorem try_merge_or_rebalance_step (P : Params K V) (t : Btree K V) (r : Node V)
    (hB : 3 ≤ P.kNodeValues) (ht : t.root = some r) (i : Nat) (rp : List Nat) (h H : Nat)
    (position : Int) (g : Nat) (hc : Ctx P.kNodeValues r (i :: rp) h H)
    (hN : Node.wfc P.kNodeValues h 0 P.kNodeValues (getNode r (i :: rp)) = true)
    (hlow : (getNode r (i :: rp)).count < kMinNodeValues P)
    (hg : g ≤ (getNode r (i :: rp)).count) :
    ∃ (shift : Nat) (r1 : Node V) (i1 : Nat),
      (try_merge_or_rebalance P t (i :: rp) position).2.2.1 = position + shift
        ∧ (try_merge_or_rebalance P t (i :: rp) position).1.root = some r1
        ∧ (try_merge_or_rebalance P t (i :: rp) position).1.comp = t.comp
        ∧ (try_merge_or_rebalance P t (i :: rp) position).1.size_field = t.size_field
        ∧ (try_merge_or_rebalance P t (i :: rp) position).2.1 = i1 :: rp
        ∧ FixStep P.kNodeValues h H r r1 rp i i1 g (g + shift)
        ∧ ((try_merge_or_rebalance P t (i :: rp) position).2.2.2 = false →
            1 ≤ (getNode r1 rp).count) := by
  have hr := root_node_of_root t r ht
  obtain ⟨p1, p2, p3, p4, p5, p6, p7⟩ := hc
  simp only [getNode] at hN hlow hg
  simp only [kMinNodeValues] at hlow
  have hsib : ∀ k, k < (getNode r rp).children.length → k ≠ i →
      ((getNode r rp).child k).max_count P.kNodeValues = P.kNodeValues
        ∧ 1 ≤ ((getNode r rp).child k).count
        ∧ ((getNode r rp).child k).count ≤ P.kNodeValues := by
    intro k hk hki
    have hw := p6 k hk hki
    exact ⟨Node.max_count_of_wfc _ _ _ _ _ hw, Node.wfc_count _ _ _ _ _ hw⟩
  rw [try_merge_or_rebalance_eq P t r hr]
  by_cases c1 : i > 0 ∧ 1 + ((getNode r rp).child (i - 1)).count
      + ((getNode r rp).child i).count
      ≤ ((getNode r rp).child (i - 1)).max_count P.kNodeValues
  · rw [if_pos c1]
    obtain ⟨s1, _, _⟩ := hsib (i - 1) (by omega) (by omega)
    rw [s1] at c1
    obtain ⟨f1, f2⟩ := Node.merge_left_fix P.kNodeValues h (getNode r rp) i g p1 p3 p4
      (by omega) hN p6 hg c1.1 c1.2
    obtain ⟨g1, g2⟩ := fixStep_of_node _ h H r rp _ i (i - 1) g _ p7 f1
    refine ⟨((getNode r rp).child (i - 1)).count + 1,
      setNode r rp ((getNode r rp).merge (i - 1)), i - 1, by simp; omega, ?_, rfl, rfl, rfl,
      ?_, fun hh => by simp at hh⟩
    · simp only [set_node_root, hr]
    · rw [show g + (((getNode r rp).child (i - 1)).count + 1)
        = ((getNode r rp).child (i - 1)).count + 1 + g by omega]
      exact g1
  · rw [if_neg c1]
    by_cases c2 : i < (getNode r rp).count ∧ 1 + ((getNode r rp).child i).count
        + ((getNode r rp).child (i + 1)).count
        ≤ ((getNode r rp).child (i + 1)).max_count P.kNodeValues
    · rw [if_pos c2]
      obtain ⟨s1, _, _⟩ := hsib (i + 1) (by omega) (by omega)
      rw [s1] at c2
      obtain ⟨f1, f2⟩ := Node.merge_right_fix P.kNodeValues h (getNode r rp) i g p1 p3 p4
        hN p6 hg c2.1 c2.2
      obtain ⟨g1, g2⟩ := fixStep_of_node _ h H r rp _ i i g _ p7 f1
      refine ⟨0, setNode r rp ((getNode r rp).merge i), i, by simp, ?_, rfl, rfl, rfl, g1,
        fun hh => by simp at hh⟩
      simp only [set_node_root, hr]
    · rw [if_neg c2]
      by_cases c3 : i < (getNode r rp).count
          ∧ ((getNode r rp).child (i + 1)).count > kMinNodeValues P
          ∧ (((getNode r rp).child i).count = 0 ∨ position > 0)
      · rw [if_pos c3]
        obtain ⟨s1, s2, s3⟩ := hsib (i + 1) (by omega) (by omega)
        simp only [kMinNodeValues] at c3
        obtain ⟨f1, f2, f3⟩ := Node.rebalance_rl_fix P.kNodeValues h (getNode r rp) i g
          (min (((((getNode r rp).child (i + 1)).count : Int)
              - ((getNode r rp).child i).count) / 2)
              ((((getNode r rp).child (i + 1)).count : Int) - 1)).toNat p1 p3 p4 hN p6 hg c3.1
          (by omega) (by omega) (by omega)
        obtain ⟨g1, g2⟩ := fixStep_of_node _ h H r rp _ i i g _ p7 f1
        refine ⟨0, setNode r rp ((getNode r rp).rebalance_right_to_left i
          (min (((((getNode r rp).child (i + 1)).count : Int)
              - ((getNode r rp).child i).count) / 2)
              ((((getNode r rp).child (i + 1)).count : Int) - 1)).toNat), i, by simp, ?_, rfl,
          rfl, rfl, g1, fun _ => ?_⟩
        · simp only [set_node_root, hr]
        · rw [g2, f2]
          exact p2
      · rw [if_neg c3]
        by_cases c4 : i > 0 ∧ ((getNode r rp).child (i - 1)).count > kMinNodeValues P
            ∧ (((getNode r rp).child i).count = 0
              ∨ position < (((getNode r rp).child i).count : Int))
        · rw [if_pos c4]
          obtain ⟨s1, s2, s3⟩ := hsib (i - 1) (by omega) (by omega)
          simp only [kMinNodeValues] at c4
          obtain ⟨f1, f2, f3⟩ := Node.rebalance_lr_fix P.kNodeValues h (getNode r rp) i g
            (min (((((getNode r rp).child (i - 1)).count : Int)
                - ((getNode r rp).child i).count) / 2)
                ((((getNode r rp).child (i - 1)).count : Int) - 1)).toNat p1 p3 p4 (by omega) hN
            p6 hg c4.1 (by omega) (by omega) (by omega)
          obtain ⟨g1, g2⟩ := fixStep_of_node _ h H r rp _ i i g _ p7 f1
          refine ⟨(min (((((getNode r rp).child (i - 1)).count : Int)
                - ((getNode r rp).child i).count) / 2)
                ((((getNode r rp).child (i - 1)).count : Int) - 1)).toNat,
            setNode r rp ((getNode r rp).rebalance_left_to_right (i - 1)
              (min (((((getNode r rp).child (i - 1)).count : Int)
                - ((getNode r rp).child i).count) / 2)
                ((((getNode r rp).child (i - 1)).count : Int) - 1)).toNat), i, ?_, ?_, rfl,
            rfl, rfl, g1, fun _ => ?_⟩
          · simp only
            omega
          · simp only [set_node_root, hr]
          · rw [g2, f2]
            exact p2
        · rw [if_neg c4]
          have hN1 : 1 ≤ ((getNode r rp).child i).count := by
            by_contra hzero
            have hz : ((getNode r rp).child i).count = 0 := by omega
            simp only [kMinNodeValues] at c3 c4
            by_cases hi0 : i > 0
            · obtain ⟨s1, s2, s3⟩ := hsib (i - 1) (by omega) (by omega)
              rw [s1] at c1
              by_cases hi1 : i < (getNode r rp).count
              · obtain ⟨u1, u2, u3⟩ := hsib (i + 1) (by omega) (by omega)
                rw [u1] at c2
                apply c3
                refine ⟨hi1, ?_, Or.inl hz⟩
                have : ¬ (1 + ((getNode r rp).child i).count
                  + ((getNode r rp).child (i + 1)).count ≤ P.kNodeValues) := fun hh => c2 ⟨hi1, hh⟩
                omega
              · apply c4
                refine ⟨hi0, ?_, Or.inl hz⟩
                have : ¬ (1 + ((getNode r rp).child (i - 1)).count
                  + ((getNode r rp).child i).count ≤ P.kNodeValues) := fun hh => c1 ⟨hi0, hh⟩
                omega
            · have hi1 : i < (getNode r rp).count := by omega
              obtain ⟨u1, u2, u3⟩ := hsib (i + 1) (by omega) (by omega)
              rw [u1] at c2
              apply c3
              refine ⟨hi1, ?_, Or.inl hz⟩
              have : ¬ (1 + ((getNode r rp).child i).count
                + ((getNode r rp).child (i + 1)).count ≤ P.kNodeValues) := fun hh => c2 ⟨hi1, hh⟩
              omega
          have f1 := Node.fix_nothing P.kNodeValues h (getNode r rp) i g p1 p3 p4 (by omega) hN
            p6 hg hN1
          obtain ⟨g1, g2⟩ := fixStep_of_node _ h H r rp _ i i g _ p7 f1
          have hv := validPath_of_ctx _ _ _ _ _ p7
          rw [setNode_getNode r rp hv] at g1
          exact ⟨0, r, i, by simp, ht, rfl, rfl, rfl, g1, fun _ => p2⟩

end FixTree3

end Btree

end CppBtree

namespace CppBtree

variable {K V : Type}

theorem pre_append (r : Node V) (l q : List Nat) :
    pre r (l ++ q) = pre r q ++ pre (getNode r q) l := by
  induction l with
  | nil => simp [pre]
  | cons j l ih =>
    show pre r (j :: (l ++ q)) = pre r q ++ pre (getNode r q) (j :: l)
    simp only [pre]
    rw [ih, getNode_append, List.append_assoc]

theorem post_append (r : Node V) (l q : List Nat) :
    post r (l ++ q) = post (getNode r q) l ++ post r q := by
  induction l with
  | nil => simp [post]
  | cons j l ih =>
    show post r (j :: (l ++ q)) = post (getNode r q) (j :: l) ++ post r q
    simp only [post]
    rw [ih, getNode_append, List.append_assoc]

theorem validPath_append (r : Node V) (l q : List Nat) :
    ValidPath r (l ++ q) ↔ (ValidPath r q ∧ ValidPath (getNode r q) l) := by
  induction l with
  | nil => simp [ValidPath]
  | cons j l ih =>
    show ValidPath r (j :: (l ++ q)) ↔ (ValidPath r q ∧ ValidPath (getNode r q) (j :: l))
    simp only [ValidPath]
    rw [ih, getNode_append]
    tauto

/-- A leaf position below a subtree keeps its two sides when the subtree is found unchanged
at another place with the same values before and after it. -/
theorem leafGap_transport (r r1 : Node V) (q q1 l : List Nat) (pos : Nat) (l1 l2 : List V)
    (hn : getNode r q = getNode r1 q1) (hpre : pre r q = pre r1 q1)
    (hpost : post r q = post r1 q1) (hv : ValidPath r1 q1)
    (hg : LeafGap r (l ++ q) pos l1 l2) : LeafGap r1 (l ++ q1) pos l1 l2 := by
  obtain ⟨g1, g2, g3, g4, g5⟩ := hg
  rw [validPath_append] at g1
  rw [getNode_append] at g2 g3 g4 g5
  rw [pre_append] at g4
  rw [post_append] at g5
  refine ⟨(validPath_append _ _ _).mpr ⟨hv, by rw [← hn]; exact g1.2⟩, ?_, ?_, ?_, ?_⟩
  · rw [getNode_append, ← hn]; exact g2
  · rw [getNode_append, ← hn]; exact g3
  · rw [getNode_append, pre_append, ← hn, ← hpre]; exact g4
  · rw [getNode_append, post_append, ← hn, ← hpost]; exact g5

section FixTransport

variable [Inhabited V]

/-- The parent of a fixed node is well shaped once it holds a value. -/
theorem fixStep_wf_root (B h H : Nat) (r r1 : Node V) (rp : List Nat) (i i1 g g1 : Nat)
    (hf : FixStep B h H r r1 rp i i1 g g1) (hcount : 1 ≤ (getNode r1 rp).count) :
    Node.wf_root B H r1 = true := by
  obtain ⟨f1, f2, _⟩ := hf
  have hv := validPath_of_ctx _ _ _ _ _ f1
  have := wf_fill B r1 rp (h + 1) H (getNode r1 rp) f1
    (Node.wfc_relax _ _ _ _ _ _ _ f2 hcount (Node.wfc_count _ _ _ _ _ f2).2)
  rwa [setNode_getNode r1 rp hv] at this

/-- A leaf position below the child that sits in the gap follows the gap. -/
theorem fixStep_transport (B h H : Nat) (r r1 : Node V) (rp : List Nat) (i i1 c c1 : Nat)
    (hf : FixStep B h H r r1 rp i i1 c c1) (hl : (getNode r (i :: rp)).leaf = false)
    (inner : List Nat) (pos : Nat) (l1 l2 : List V)
    (hg : LeafGap r (inner ++ (c :: i :: rp)) pos l1 l2) :
    LeafGap r1 (inner ++ (c1 :: i1 :: rp)) pos l1 l2 := by
  obtain ⟨f1, f2, f3, f4, f5, f6, f7, f8, f9⟩ := hf
  have hl1 : (getNode r1 (i1 :: rp)).leaf = false := by rw [f8]; exact hl
  obtain ⟨_, w2, w3⟩ := Node.leaf_false_of_wfc_succ _ _ _ _ _ f2
  have hN1 : Node.wfc B h 1 B (getNode r1 (i1 :: rp)) = true :=
    w3 _ (Node.child_mem _ _ (by omega))
  have hs1 := Node.shape_ok_of_wfc _ _ _ _ _ hN1
  have hlen1 : (getNode r1 (i1 :: rp)).children.length = (getNode r1 (i1 :: rp)).count + 1 := by
    revert hs1 hl1
    cases getNode r1 (i1 :: rp) <;> simp [Node.shape_ok]
  apply leafGap_transport r r1 (c :: i :: rp) (c1 :: i1 :: rp) inner pos l1 l2 _ _ _ _ hg
  · show (getNode r (i :: rp)).child c = (getNode r1 (i1 :: rp)).child c1
    exact f7.symm
  · show pre r (i :: rp) ++ (getNode r (i :: rp)).pre_child c
      = pre r1 (i1 :: rp) ++ (getNode r1 (i1 :: rp)).pre_child c1
    rw [← Node.pre_part_internal _ hl, ← Node.pre_part_internal _ hl1]
    exact f5.symm
  · show (getNode r (i :: rp)).post_child c ++ post r (i :: rp)
      = (getNode r1 (i1 :: rp)).post_child c1 ++ post r1 (i1 :: rp)
    rw [← Node.post_part_internal _ hl, ← Node.post_part_internal _ hl1]
    exact f6.symm
  · exact ⟨⟨validPath_of_ctx _ _ _ _ _ f1, by omega⟩, by omega⟩

end FixTransport

end CppBtree

namespace CppBtree

variable {K V : Type}

namespace Btree

section EraseLoop

variable [Inhabited V]

theorem erase_loop_nil (P : Params K V) (t : Btree K V) (position : Int) (res_rel : List Nat)
    (res_pos : Int) :
    erase_loop P t [] position res_rel res_pos
      = if t.try_shrink.empty then (t.try_shrink, none)
        else if t.root_node.count > 0 then (t.try_shrink, some ⟨some res_rel, res_pos⟩)
        else (t.try_shrink, some ⟨some res_rel.dropLast, res_pos⟩) := by
  simp only [erase_loop]

theorem erase_loop_cons_stop (P : Params K V) (t : Btree K V) (i : Nat) (rp : List Nat)
    (position : Int) (res_rel : List Nat) (res_pos : Int)
    (h : (t.node (i :: rp)).count ≥ kMinNodeValues P) :
    erase_loop P t (i :: rp) position res_rel res_pos
      = (t, some ⟨some (res_rel ++ i :: rp), res_pos⟩) := by
  simp only [erase_loop, h, if_true]

theorem erase_loop_cons_leaf (P : Params K V) (t : Btree K V) (i : Nat) (rp : List Nat)
    (position : Int) (res_rel : List Nat) (res_pos : Int)
    (h : ¬ (t.node (i :: rp)).count ≥ kMinNodeValues P)
    (t1 : Btree K V) (node1 : List Nat) (position1 : Int) (merged : Bool)
    (hres : try_merge_or_rebalance P t (i :: rp) position = (t1, node1, position1, merged))
    (hl : (t1.node node1).leaf = true) :
    erase_loop P t (i :: rp) position res_rel res_pos
      = if merged then erase_loop P t1 rp position1 [node1.headD 0] position1
        else (t1, some ⟨some node1, position1⟩) := by
  simp only [erase_loop, h, if_false, hres, hl, if_true, List.nil_append]

theorem erase_loop_cons_inner (P : Params K V) (t : Btree K V) (i : Nat) (rp : List Nat)
    (position : Int) (inner : List Nat) (c : Nat) (res_pos : Int)
    (h : ¬ (t.node (i :: rp)).count ≥ kMinNodeValues P)
    (t1 : Btree K V) (node1 : List Nat) (position1 : Int) (merged : Bool)
    (hres : try_merge_or_rebalance P t (i :: rp) position = (t1, node1, position1, merged))
    (hl : (t1.node node1).leaf = false) :
    erase_loop P t (i :: rp) position (inner ++ [c]) res_pos
      = if merged then
          erase_loop P t1 rp position1
            ((inner ++ [((c : Int) + (position1 - position)).toNat]) ++ [node1.headD 0]) res_pos
        else (t1, some ⟨some ((inner ++ [((c : Int) + (position1 - position)).toNat]) ++ node1),
          res_pos⟩) := by
  simp only [erase_loop, h, if_false, hres, hl, Bool.false_eq_true, List.getLast?_append,
    List.getLast?_singleton, List.dropLast_concat]
  rfl

end EraseLoop

end Btree

end CppBtree

namespace CppBtree

variable {K V : Type}

namespace Btree

section EraseLoop2

variable [Inhabited V]

/-- The merge and rebalance loop of `erase` above the leaf level: the tree that comes out is
well shaped, holds the same values in the same order, and the leaf position that the result
iterator names keeps its two sides. -/
theorem erase_loop_upper (P : Params K V) (hB : 3 ≤ P.kNodeValues) (l1 l2 : List V)
    (H : Nat) (rp : List Nat) :
    ∀ (t : Btree K V) (r : Node V) (h : Nat) (position : Int) (inner : List Nat) (c : Nat)
      (res_pos : Nat), t.root = some r → Ctx P.kNodeValues r rp h H →
      Node.wfc P.kNodeValues h 0 P.kNodeValues (getNode r rp) = true →
      (getNode r rp).leaf = false → c ≤ (getNode r rp).count →
      LeafGap r (inner ++ (c :: rp)) res_pos l1 l2 →
      ∃ r2 H2 path,
        (erase_loop P t rp position (inner ++ [c]) res_pos).1.root = some r2
          ∧ (erase_loop P t rp position (inner ++ [c]) res_pos).1.comp = t.comp
          ∧ (erase_loop P t rp position (inner ++ [c]) res_pos).1.size_field = t.size_field
          ∧ Node.wf_root P.kNodeValues H2 r2 = true
          ∧ r2.inorder = r.inorder
          ∧ (erase_loop P t rp position (inner ++ [c]) res_pos).2
              = some ⟨some path, (res_pos : Int)⟩
          ∧ LeafGap r2 path res_pos l1 l2 := by
  induction rp with
  | nil =>
    intro t r h position inner c res_pos ht hc hN hl hcc hg
    have hr := root_node_of_root t r ht
    simp only [getNode] at hN hl hcc
    simp only [Ctx] at hc
    subst hc
    rw [erase_loop_nil]
    by_cases hcount : r.count > 0
    · have e : t.try_shrink = t := by simp [try_shrink, hr, hcount]
      rw [e]
      have hne : t.empty = false := by simp [empty, ht]
      rw [hne, hr, if_neg (by simp), if_pos hcount]
      refine ⟨r, h, inner ++ [c], ht, rfl, rfl, ?_, rfl, rfl, hg⟩
      exact Node.wf_root_of_wfc _ _ _
        (Node.wfc_relax _ _ _ _ _ _ _ hN hcount (Node.wfc_count _ _ _ _ _ hN).2)
    · have hz : r.count = 0 := by omega
      have e : t.try_shrink = t.with_root (some (r.child 0)) := by
        simp [try_shrink, hr, hz, hl]
      rw [e]
      have hne : (t.with_root (some (r.child 0))).empty = false := rfl
      rw [hne, hr, if_neg (by simp), if_neg hcount, List.dropLast_concat]
      cases h with
      | zero => exact absurd ((Node.wfc_leaf_zero _ _ _ _ _ hN).mpr rfl) (by simp [hl])
      | succ h1 =>
        obtain ⟨_, w2, w3⟩ := Node.leaf_false_of_wfc_succ _ _ _ _ _ hN
        have hD := w3 _ (Node.child_mem r 0 (by omega))
        have hc0 : c = 0 := by omega
        subst hc0
        obtain ⟨g1, g2, g3, g4, g5⟩ := hg
        rw [validPath_snoc] at g1
        rw [getNode_snoc] at g2 g3 g4 g5
        rw [pre_snoc, Node.pre_child_zero, List.nil_append] at g4
        rw [post_snoc, Node.post_child_count _ _ (by omega), List.append_nil] at g5
        refine ⟨r.child 0, h1, inner, rfl, rfl, rfl, Node.wf_root_of_wfc _ _ _ hD, ?_, rfl,
          ⟨g1.2, g2, g3, g4, g5⟩⟩
        rw [Node.inorder_split r 0 hl w2 (by omega), Node.pre_child_zero,
          Node.post_child_count _ _ (by omega)]
        simp
  | cons i rp ih =>
    intro t r h position inner c res_pos ht hc hN hl hcc hg
    have hr := root_node_of_root t r ht
    by_cases hstop : (t.node (i :: rp)).count ≥ kMinNodeValues P
    · rw [erase_loop_cons_stop P t i rp position _ _ hstop]
      simp only [node, hr, kMinNodeValues] at hstop
      have hw : Node.wf_root P.kNodeValues H r = true := by
        have := wf_fill P.kNodeValues r (i :: rp) h H (getNode r (i :: rp)) hc
          (Node.wfc_relax _ _ _ _ _ _ _ hN (by omega) (Node.wfc_count _ _ _ _ _ hN).2)
        rwa [setNode_getNode r _ (validPath_of_ctx _ _ _ _ _ hc)] at this
      refine ⟨r, H, inner ++ (c :: i :: rp), ht, rfl, rfl, hw, rfl, by simp, hg⟩
    · have hlow : (getNode r (i :: rp)).count < kMinNodeValues P := by
        simp only [node, hr] at hstop
        omega
      obtain ⟨shift, r1, i1, s1, s2, s3, s4, s5, s6, s7⟩ := try_merge_or_rebalance_step P t r hB
        ht i rp h H position c hc hN hlow hcc
      generalize hres : try_merge_or_rebalance P t (i :: rp) position = res
        at s1 s2 s3 s4 s5 s7
      obtain ⟨t1, node1, position1, merged⟩ := res
      simp only at s1 s2 s3 s4 s5 s7
      subst s5
      have hr1 := root_node_of_root t1 r1 s2
      have hl1 : (t1.node (i1 :: rp)).leaf = false := by
        simp only [node, hr1]
        rw [s6.2.2.2.2.2.2.2.1]
        exact hl
      rw [erase_loop_cons_inner P t i rp position inner c res_pos hstop t1 (i1 :: rp) position1
        merged hres hl1]
      have ec : ((c : Int) + (position1 - position)).toNat = c + shift := by
        rw [s1]
        omega
      rw [ec]
      have hg1 := fixStep_transport _ h H r r1 rp i i1 c (c + shift) s6 hl inner res_pos l1 l2 hg
      cases merged with
      | true =>
        simp only [if_true, List.headD_cons]
        have hio := s6.2.2.2.2.2.2.2.2
        obtain ⟨f1, f2, f3, _⟩ := s6
        obtain ⟨w1, _, _⟩ := Node.leaf_false_of_wfc_succ _ _ _ _ _ f2
        obtain ⟨r2, H2, path, a1, a2, a3, a4, a5, a6, a7⟩ := ih t1 r1 (h + 1) position1
          (inner ++ [c + shift]) i1 res_pos s2 f1 f2 w1 f3
          (by simpa [List.append_assoc] using hg1)
        refine ⟨r2, H2, path, a1, by rw [a2, s3], by rw [a3, s4], a4, ?_, a6, a7⟩
        rw [a5]
        exact hio
      | false =>
        simp only [Bool.false_eq_true, if_false]
        have hw := fixStep_wf_root _ h H r r1 rp i i1 c (c + shift) s6 (s7 rfl)
        exact ⟨r1, H, inner ++ ((c + shift) :: i1 :: rp), s2, s3, s4, hw, s6.2.2.2.2.2.2.2.2,
          by simp, hg1⟩

end EraseLoop2

end Btree

end CppBtree

namespace CppBtree

variable {K V : Type}

namespace Btree

section EraseLoop3

variable [Inhabited V]

/-- The merge and rebalance loop of `erase` started on a leaf below the root. -/
theorem erase_loop_leaf (P : Params K V) (hB : 3 ≤ P.kNodeValues) (l1 l2 : List V)
    (H : Nat) (t : Btree K V) (r : Node V) (i : Nat) (rp : List Nat) (pos : Nat)
    (ht : t.root = some r) (hc : Ctx P.kNodeValues r (i :: rp) 0 H)
    (hN : Node.wfc P.kNodeValues 0 0 P.kNodeValues (getNode r (i :: rp)) = true)
    (hg : LeafGap r (i :: rp) pos l1 l2) :
    ∃ r2 H2 path pos2,
      (erase_loop P t (i :: rp) pos [] pos).1.root = some r2
        ∧ (erase_loop P t (i :: rp) pos [] pos).1.comp = t.comp
        ∧ (erase_loop P t (i :: rp) pos [] pos).1.size_field = t.size_field
        ∧ Node.wf_root P.kNodeValues H2 r2 = true
        ∧ r2.inorder = r.inorder
        ∧ (erase_loop P t (i :: rp) pos [] pos).2 = some ⟨some path, ((pos2 : Nat) : Int)⟩
        ∧ LeafGap r2 path pos2 l1 l2 := by
  have hr := root_node_of_root t r ht
  have hleaf : (getNode r (i :: rp)).leaf = true := (Node.wfc_leaf_zero _ _ _ _ _ hN).mpr rfl
  by_cases hstop : (t.node (i :: rp)).count ≥ kMinNodeValues P
  · rw [erase_loop_cons_stop P t i rp _ _ _ hstop]
    simp only [node, hr, kMinNodeValues] at hstop
    have hw : Node.wf_root P.kNodeValues H r = true := by
      have := wf_fill P.kNodeValues r (i :: rp) 0 H (getNode r (i :: rp)) hc
        (Node.wfc_relax _ _ _ _ _ _ _ hN (by omega) (Node.wfc_count _ _ _ _ _ hN).2)
      rwa [setNode_getNode r _ (validPath_of_ctx _ _ _ _ _ hc)] at this
    exact ⟨r, H, i :: rp, pos, ht, rfl, rfl, hw, rfl, rfl, hg⟩
  · have hlow : (getNode r (i :: rp)).count < kMinNodeValues P := by
      simp only [node, hr] at hstop
      omega
    obtain ⟨shift, r1, i1, s1, s2, s3, s4, s5, s6, s7⟩ := try_merge_or_rebalance_step P t r hB
      ht i rp 0 H pos pos hc hN hlow hg.2.2.1
    generalize hres : try_merge_or_rebalance P t (i :: rp) pos = res at s1 s2 s3 s4 s5 s7
    obtain ⟨t1, node1, position1, merged⟩ := res
    simp only at s1 s2 s3 s4 s5 s7
    subst s5
    have hr1 := root_node_of_root t1 r1 s2
    have hleaf1 : (getNode r1 (i1 :: rp)).leaf = true := by
      rw [s6.2.2.2.2.2.2.2.1]
      exact hleaf
    have hl1 : (t1.node (i1 :: rp)).leaf = true := by
      simpa only [node, hr1] using hleaf1
    rw [erase_loop_cons_leaf P t i rp pos [] pos hstop t1 (i1 :: rp) position1 merged hres hl1]
    have ep : position1 = ((pos + shift : Nat) : Int) := by
      rw [s1]
      push_cast
      rfl
    rw [ep]
    have hio := s6.2.2.2.2.2.2.2.2
    have hg1 : LeafGap r1 (i1 :: rp) (pos + shift) l1 l2 := by
      obtain ⟨f1, f2, f3, f4, f5, f6, _⟩ := s6
      obtain ⟨g1, g2, g3, g4, g5⟩ := hg
      obtain ⟨_, w2, _⟩ := Node.leaf_false_of_wfc_succ _ _ _ _ _ f2
      rw [Node.pre_part_leaf_node _ hleaf1, Node.pre_part_leaf_node _ hleaf] at f5
      rw [Node.post_part_leaf_node _ hleaf1, Node.post_part_leaf_node _ hleaf] at f6
      exact ⟨⟨validPath_of_ctx _ _ _ _ _ f1, by omega⟩, hleaf1, f4, by rw [f5, g4],
        by rw [f6, g5]⟩
    cases merged with
    | true =>
      simp only [if_true, List.headD_cons]
      obtain ⟨f1, f2, f3, _⟩ := s6
      obtain ⟨w1, _, _⟩ := Node.leaf_false_of_wfc_succ _ _ _ _ _ f2
      obtain ⟨r2, H2, path, a1, a2, a3, a4, a5, a6, a7⟩ := erase_loop_upper P hB l1 l2 H rp t1
        r1 1 ((pos + shift : Nat) : Int) [] i1 (pos + shift) s2 f1 f2 w1 f3
        (by simpa using hg1)
      simp only [List.nil_append] at a1 a2 a3 a6
      exact ⟨r2, H2, path, pos + shift, a1, by rw [a2, s3], by rw [a3, s4], a4, by rw [a5, hio],
        a6, a7⟩
    | false =>
      simp only [Bool.false_eq_true, if_false]
      have hw := fixStep_wf_root _ 0 H r r1 rp i i1 pos (pos + shift) s6 (s7 rfl)
      exact ⟨r1, H, i1 :: rp, pos + shift, s2, s3, s4, hw, hio, rfl, hg1⟩

end EraseLoop3

end Btree

end CppBtree

namespace CppBtree

variable {K V : Type}

theorem drop_getD {α : Type} (l : List α) (n : Nat) (d : α) (h : n < l.length) :
    l.drop n = l.getD n d :: l.drop (n + 1) := by
  induction l generalizing n with
  | nil => simp at h
  | cons a l ih =>
    cases n with
    | zero => simp
    | succ n =>
      simp only [List.drop_succ_cons, List.getD_cons_succ]
      exact ih n (by simpa using h)

namespace Btree

section EraseFinish

variable [Inhabited V]

/-- Every node of a well shaped tree holds at least one value. -/
theorem count_pos_of_wf_root (B H : Nat) (r : Node V) (rp : List Nat)
    (hw : Node.wf_root B H r = true) (hv : ValidPath r rp) : 1 ≤ (getNode r rp).count := by
  obtain ⟨h, _, _, _, f4, _⟩ := node_facts B H r rp hw hv
  cases rp with
  | nil =>
    rcases root_shape B H r hw with h1 | h1
    · exact (Node.wfc_count _ _ _ _ _ h1).1
    · exact h1.2
  | cons i rp => exact (Node.wfc_count _ _ _ _ _ (f4 (by simp))).1

/-- The last step of `erase`: an iterator left at the end of its leaf is advanced. -/
theorem erase_finish (P : Params K V) (t : Btree K V) (r : Node V) (ht : t.root = some r)
    (hS : Shaped P t) (path : List Nat) (pos : Nat) (l1 l2 : List V)
    (hg : LeafGap r path pos l1 l2) :
    IterTo t (if ((pos : Nat) : Int) = (((t.node path).count : Nat) : Int) then
        t.increment ⟨some path, (((t.node path).count : Nat) : Int) - 1⟩
      else ⟨some path, ((pos : Nat) : Int)⟩) l1 l2 := by
  have hr := root_node_of_root t r ht
  obtain ⟨g1, g2, g3, g4, g5⟩ := hg
  have hw : Node.wf_root P.kNodeValues (r.height - 1) r = true := by
    have := hS
    simp only [Shaped, ht] at this
    exact this.1
  have hc1 := count_pos_of_wf_root _ _ r path hw g1
  simp only [node, hr]
  by_cases hp : pos = (getNode r path).count
  · rw [if_pos (by rw [hp])]
    have hlen : (getNode r path).values.length = (getNode r path).count := rfl
    have hd := drop_getD (getNode r path).values ((getNode r path).count - 1) default
      (by omega)
    have e1 : (getNode r path).count - 1 + 1 = (getNode r path).count := by omega
    rw [e1] at hd
    have ht2 := take_succ_of_drop _ _ _ _ hd
    rw [e1] at ht2
    have hsp : Splits t ⟨some path, (((getNode r path).count : Nat) : Int) - 1⟩
        (pre r path ++ (getNode r path).values.take ((getNode r path).count - 1))
        ((getNode r path).values.getD ((getNode r path).count - 1) default :: l2) := by
      rw [splits_iff t r ht]
      have e2 : ((((getNode r path).count : Nat) : Int) - 1).toNat = (getNode r path).count - 1 := by
        omega
      rw [e2, Node.pre_part_leaf_node _ g2, Node.mid_part_leaf_node _ g2,
        Node.post_part_leaf_node _ g2, hd, ← g5, hp]
      refine ⟨g1, by omega, by omega, by simp, ?_⟩
      simp
    have hpa : PointsAt t ⟨some path, (((getNode r path).count : Nat) : Int) - 1⟩ := by
      rw [pointsAt_iff t r ht]
      exact ⟨g1, by omega, by omega⟩
    have := increment_spec P t hS _ _ _ _ hpa hsp
    have e3 : pre r path ++ (getNode r path).values.take ((getNode r path).count - 1)
        ++ [(getNode r path).values.getD ((getNode r path).count - 1) default] = l1 := by
      rw [← g4, hp, List.append_assoc, ← ht2.1]
    rw [e3] at this
    exact this
  · rw [if_neg (by omega)]
    have hlt : pos < (getNode r path).values.length := by
      have : (getNode r path).values.length = (getNode r path).count := rfl
      omega
    refine Or.inr ⟨?_, ?_, ?_⟩
    · rw [pointsAt_iff t r ht]
      exact ⟨g1, by omega, by omega⟩
    · rw [splits_iff t r ht]
      simp only [Int.toNat_ofNat]
      rw [Node.pre_part_leaf_node _ g2, Node.mid_part_leaf_node _ g2,
        Node.post_part_leaf_node _ g2]
      exact ⟨g1, by omega, by omega, by simpa using g4, g5⟩
    · rw [← g5, drop_getD _ _ default hlt]
      simp [deref, Iter.path, node, hr, Node.value]

end EraseFinish

end Btree

end CppBtree

namespace CppBtree

variable {K V : Type}

theorem setNode_append (r : Node V) (l rp : List Nat) (n : Node V) :
    setNode r (l ++ rp) n = setNode r rp (setNode (getNode r rp) l n) := by
  induction l generalizing n with
  | nil => rfl
  | cons i l ih =>
    show setNode r (l ++ rp) ((getNode r (l ++ rp)).set_child i n) = _
    rw [ih, getNode_append]
    rfl

theorem setNode_snoc (r : Node V) (l : List Nat) (i : Nat) (n : Node V) :
    setNode r (l ++ [i]) n = r.set_child i (setNode (r.child i) l n) := by
  rw [setNode_append]
  rfl

theorem join_vc_head (vs : List V) (cs : List (List V)) :
    ∃ tl, ∀ v, join_vc (v :: vs) cs = v :: tl := by
  cases cs with
  | nil => exact ⟨vs, fun v => rfl⟩
  | cons c cs => exact ⟨c ++ join_vc vs cs, fun v => rfl⟩

namespace Node

theorem set_value_children (n : Node V) (p : Nat) (y : V) :
    (n.set_value p y).children = n.children := by
  cases n <;> rfl

theorem set_value_values (n : Node V) (p : Nat) (y : V) :
    (n.set_value p y).values = n.values.set p y := by
  cases n <;> rfl

theorem set_value_leaf (n : Node V) (p : Nat) (y : V) : (n.set_value p y).leaf = n.leaf := by
  cases n <;> rfl

theorem set_value_count (n : Node V) (p : Nat) (y : V) : (n.set_value p y).count = n.count := by
  simp [count, set_value_values]

theorem set_value_child (n : Node V) (p : Nat) (y : V) (j : Nat) :
    (n.set_value p y).child j = n.child j := by
  simp [child, set_value_children]

theorem set_value_segs (n : Node V) (p : Nat) (y : V) : (n.set_value p y).segs = n.segs := by
  simp [segs, set_value_children]

theorem wfc_set_value (B h lo hi : Nat) (n : Node V) (p : Nat) (y : V)
    (hw : wfc B h lo hi n = true) : wfc B h lo hi (n.set_value p y) = true := by
  cases n with
  | leaf_node m vs =>
    rw [wfc_leaf_iff] at hw
    show wfc B h lo hi (leaf_node m (vs.set p y)) = true
    rw [wfc_leaf_iff]
    simpa using hw
  | internal_node vs cs =>
    rw [wfc_internal_iff] at hw
    show wfc B h lo hi (internal_node (vs.set p y) cs) = true
    rw [wfc_internal_iff]
    simpa using hw

theorem wf_root_set_value (B H : Nat) (n : Node V) (p : Nat) (y : V)
    (hw : wf_root B H n = true) : wf_root B H (n.set_value p y) = true := by
  cases n with
  | leaf_node m vs =>
    show wf_root B H (leaf_node m (vs.set p y)) = true
    simpa [wf_root] using hw
  | internal_node vs cs =>
    exact wfc_set_value B H 1 B _ p y hw

theorem pre_child_set_value (n : Node V) (p : Nat) (y : V) :
    (n.set_value p y).pre_child p = n.pre_child p := by
  simp only [pre_child, set_value_segs, set_value_values, take_set_self]

theorem post_child_set_value [Inhabited V] (n : Node V) (p : Nat) (y : V) (hp : p < n.count) :
    ∃ tl, n.post_child p = n.value p :: tl ∧ (n.set_value p y).post_child p = y :: tl := by
  have hlen : p < n.values.length := hp
  obtain ⟨tl, htl⟩ := join_vc_head (n.values.drop (p + 1)) (n.segs.drop (p + 1))
  refine ⟨tl, ?_, ?_⟩
  · simp only [post_child]
    rw [drop_getD _ _ default hlen, htl]
    rfl
  · simp only [post_child, set_value_segs, set_value_values]
    rw [drop_getD _ _ default (by simpa using hlen)]
    have e : (n.values.set p y).drop (p + 1) = n.values.drop (p + 1) := by
      rw [List.drop_set]
      simp
    rw [e, htl]
    simp [List.getD_eq_getElem?_getD, hlen]

theorem set_child_set_value (n : Node V) (p j : Nat) (y : V) (c d : Node V) :
    ((n.set_child j c).set_value p y).set_child j d = (n.set_value p y).set_child j d := by
  cases n with
  | leaf_node m vs => rfl
  | internal_node vs cs =>
    show internal_node (vs.set p y) ((cs.set j c).set j d) = internal_node (vs.set p y) (cs.set j d)
    rw [List.set_set]

/-- Removing the last value of a leaf whose last slot was overwritten. -/
theorem remove_last_leaf (n : Node V) (x : V) (hl : n.leaf = true) (hc : 1 ≤ n.count) :
    ((n.set_value (n.count - 1) x).remove_value (n.count - 1)).leaf = true
      ∧ ((n.set_value (n.count - 1) x).remove_value (n.count - 1)).values
          = n.values.take (n.count - 1)
      ∧ ∀ B, ((n.set_value (n.count - 1) x).remove_value (n.count - 1)).max_count B
          = n.max_count B := by
  cases n with
  | internal_node vs cs => simp at hl
  | leaf_node m vs =>
    simp only [count_leaf] at hc ⊢
    have e : (leaf_node m vs).set_value (vs.length - 1) x
        = leaf_node m (vs.take (vs.length - 1) ++ x :: []) := by
      show leaf_node m (vs.set (vs.length - 1) x) = _
      congr 1
      have h1 := split_at_index vs (vs.length - 1) x (by omega)
      have h2 : vs.drop (vs.length - 1 + 1) = [] := by
        apply List.drop_eq_nil_of_le
        omega
      rw [h2] at h1
      conv => lhs; rw [h1]
      rw [set_app_len _ _ _ _ _ (by simp)]
    rw [e, remove_value_leaf m _ [] x _ (by simp)]
    simp

/-- Removing the value at position `p` of a leaf. -/
theorem remove_at_leaf [Inhabited V] (n : Node V) (p : Nat) (hl : n.leaf = true)
    (hp : p < n.count) :
    (n.remove_value p).leaf = true
      ∧ (n.remove_value p).values = n.values.take p ++ n.values.drop (p + 1)
      ∧ ∀ B, (n.remove_value p).max_count B = n.max_count B := by
  cases n with
  | internal_node vs cs => simp at hl
  | leaf_node m vs =>
    simp only [count_leaf] at hp
    have h1 := split_at_index vs p default hp
    have e : (leaf_node m vs).remove_value p = leaf_node m (vs.take p ++ vs.drop (p + 1)) := by
      conv => lhs; rw [h1]
      rw [remove_value_leaf m _ _ _ _ (by simp; omega)]
    rw [e]
    simp

end Node

namespace Btree

theorem rightmost_from_suffix (t : Btree K V) :
    ∀ (fuel : Nat) (rp : List Nat), ∃ q, t.rightmost_from fuel rp = q ++ rp := by
  intro fuel
  induction fuel with
  | zero => exact fun rp => ⟨[], rfl⟩
  | succ f ih =>
    intro rp
    simp only [rightmost_from]
    split
    · exact ⟨[], rfl⟩
    · obtain ⟨q, hq⟩ := ih ((t.node rp).count :: rp)
      exact ⟨q ++ [(t.node rp).count], by rw [hq]; simp⟩

end Btree

end CppBtree

namespace CppBtree

variable {K V : Type}

section ErasePhase1

variable [Inhabited V]

/-- Overwriting a leaf below the root by a leaf of the same capacity. -/
theorem replace_leaf (B H : Nat) (r : Node V) (hw : Node.wf_root B H r = true) (i : Nat)
    (rp : List Nat) (hv : ValidPath r (i :: rp)) (hl : (getNode r (i :: rp)).leaf = true)
    (L2 : Node V) (hl2 : L2.leaf = true) (hm : L2.max_count B = (getNode r (i :: rp)).max_count B)
    (hc : L2.count ≤ B) :
    Ctx B (setNode r (i :: rp) L2) (i :: rp) 0 H
      ∧ Node.wfc B 0 0 B L2 = true
      ∧ getNode (setNode r (i :: rp) L2) (i :: rp) = L2
      ∧ ValidPath (setNode r (i :: rp) L2) (i :: rp)
      ∧ pre (setNode r (i :: rp) L2) (i :: rp) = pre r (i :: rp)
      ∧ post (setNode r (i :: rp) L2) (i :: rp) = post r (i :: rp)
      ∧ (setNode r (i :: rp) L2).inorder = pre r (i :: rp) ++ L2.values ++ post r (i :: rp)
      ∧ r.leaf = false := by
  obtain ⟨h, f1, _, _, f4, f5⟩ := node_facts B H r (i :: rp) hw hv
  have h0 := f5 hl
  subst h0
  have hwL := f4 (by simp)
  have hmB := Node.max_count_of_wfc _ _ _ _ _ hwL
  have hL2 : Node.wfc B 0 0 B L2 = true := by
    rw [Node.eq_leaf_of_leaf L2 B hl2, Node.wfc_leaf_iff]
    refine ⟨rfl, by rw [hm, hmB], Nat.zero_le _, hc⟩
  have hio := inorder_setNode B r (i :: rp) 0 H L2 f1
  have e : L2.inorder = L2.values := by
    rw [Node.eq_leaf_of_leaf L2 B hl2]
    simp
  rw [e] at hio
  exact ⟨ctx_setNode B r _ 0 H L2 f1, hL2, getNode_setNode r _ L2 hv, validPath_setNode r _ L2 hv,
    pre_setNode r _ L2 hv, post_setNode r _ L2 hv, hio, root_internal_of_ctx B r i rp 0 H f1⟩

/-- The removal of the value at position `p` of a leaf below the root. -/
theorem remove_in_leaf (B H : Nat) (r : Node V) (hw : Node.wf_root B H r = true) (i : Nat)
    (rp : List Nat) (hv : ValidPath r (i :: rp)) (hl : (getNode r (i :: rp)).leaf = true)
    (p : Nat) (hp : p < (getNode r (i :: rp)).count) (l1 l2 : List V) (x : V)
    (h1 : pre r (i :: rp) ++ (getNode r (i :: rp)).values.take p = l1)
    (h2 : (getNode r (i :: rp)).values.drop p ++ post r (i :: rp) = x :: l2) :
    Ctx B (setNode r (i :: rp) ((getNode r (i :: rp)).remove_value p)) (i :: rp) 0 H
      ∧ Node.wfc B 0 0 B
          (getNode (setNode r (i :: rp) ((getNode r (i :: rp)).remove_value p)) (i :: rp)) = true
      ∧ LeafGap (setNode r (i :: rp) ((getNode r (i :: rp)).remove_value p)) (i :: rp) p l1 l2
      ∧ (setNode r (i :: rp) ((getNode r (i :: rp)).remove_value p)).inorder = l1 ++ l2
      ∧ r.leaf = false := by
  obtain ⟨a1, a2, a3⟩ := Node.remove_at_leaf (getNode r (i :: rp)) p hl hp
  have hlen : (getNode r (i :: rp)).values.length = (getNode r (i :: rp)).count := rfl
  obtain ⟨h, f1, _, _, f4, f5⟩ := node_facts B H r (i :: rp) hw hv
  have hcB := (Node.wfc_count _ _ _ _ _ (f4 (by simp))).2
  have hcnt : ((getNode r (i :: rp)).remove_value p).count = (getNode r (i :: rp)).count - 1 := by
    simp only [Node.count, a2, List.length_append, List.length_take, List.length_drop]
    omega
  obtain ⟨b1, b2, b3, b4, b5, b6, b7, b8⟩ := replace_leaf B H r hw i rp hv hl
    ((getNode r (i :: rp)).remove_value p) a1 (a3 B) (by omega)
  have hd := drop_getD (getNode r (i :: rp)).values p default (by omega)
  rw [hd] at h2
  simp only [List.cons_append, List.cons.injEq] at h2
  have t1 : (List.take p (getNode r (i :: rp)).values
      ++ List.drop (p + 1) (getNode r (i :: rp)).values).take p
      = List.take p (getNode r (i :: rp)).values := by
    rw [List.take_append_of_le_length (by simp; omega)]
    simp [List.take_take]
  have t2 : (List.take p (getNode r (i :: rp)).values
      ++ List.drop (p + 1) (getNode r (i :: rp)).values).drop p
      = List.drop (p + 1) (getNode r (i :: rp)).values := by
    rw [List.drop_append_of_le_length (by simp; omega)]
    have : (List.take p (getNode r (i :: rp)).values).length = p := by simp; omega
    rw [List.drop_eq_nil_of_le (by omega)]
    simp
  refine ⟨b1, by rw [b3]; exact b2, ⟨b4, by rw [b3]; exact a1, by rw [b3, hcnt]; omega, ?_, ?_⟩,
    ?_, b8⟩
  · rw [b3, b5, a2, t1, h1]
  · rw [b3, b6, a2, t2, h2.2]
  · rw [b7, a2, ← h1, ← h2.2]
    simp

/-- The swap of an internal value with its predecessor followed by the removal of the last
value of the predecessor's leaf. -/
theorem swap_remove (B H : Nat) (r : Node V) (hw : Node.wf_root B H r = true) (rp q : List Nat)
    (p : Nat) (N L : Node V) (hN : getNode r rp = N) (hL : getNode r (q ++ p :: rp) = L)
    (hvl : ValidPath r (q ++ p :: rp)) (hNl : N.leaf = false) (hp : p < N.count)
    (hLl : L.leaf = true)
    (hpre : pre r (q ++ p :: rp) ++ L.values = pre r (p :: rp) ++ (N.child p).inorder)
    (hpost : post r (q ++ p :: rp) = post r (p :: rp))
    (l1 l2 : List V) (x : V)
    (s1 : pre r rp ++ (N.pre_child p ++ (N.child p).inorder) = l1)
    (s2 : N.post_child p ++ post r rp = x :: l2)
    (ra rb r2 : Node V)
    (hra : ra = setNode r (q ++ p :: rp) (L.set_value (L.count - 1) (N.value p)))
    (hrb : rb = setNode ra rp ((getNode ra rp).set_value p (L.value (L.count - 1))))
    (hr2 : r2 = setNode rb (q ++ p :: rp) ((getNode rb (q ++ p :: rp)).remove_value (L.count - 1))) :
    ∃ la y, l1 = la ++ [y]
      ∧ Ctx B r2 (q ++ p :: rp) 0 H
      ∧ Node.wfc B 0 0 B (getNode r2 (q ++ p :: rp)) = true
      ∧ LeafGap r2 (q ++ p :: rp) (L.count - 1) la (y :: l2)
      ∧ r2.inorder = l1 ++ l2
      ∧ r.leaf = false := by
  have e0 : q ++ p :: rp = (q ++ [p]) ++ rp := by simp
  rw [e0] at hvl hL hpre hpost hra hr2 ⊢
  obtain ⟨v1, v2⟩ := (validPath_append r _ _).mp hvl
  rw [hN] at v2
  obtain ⟨v3, v4⟩ := (validPath_snoc N q p).mp v2
  have hc1 : 1 ≤ L.count := by
    rw [← hL]
    exact Btree.count_pos_of_wf_root B H r _ hw hvl
  -- the tree after the three writes
  have hLq : getNode (N.child p) q = L := by
    rw [← hL, getNode_append, hN, getNode_snoc]
  have e1 : r2 = setNode (setNode r rp (N.set_value p (L.value (L.count - 1)))) ((q ++ [p]) ++ rp)
      ((L.set_value (L.count - 1) (N.value p)).remove_value (L.count - 1)) := by
    have a1 : ra = setNode r rp
        (N.set_child p (setNode (N.child p) q (L.set_value (L.count - 1) (N.value p)))) := by
      rw [hra, setNode_append, hN, setNode_snoc]
    have a2 : getNode ra rp
        = N.set_child p (setNode (N.child p) q (L.set_value (L.count - 1) (N.value p))) := by
      rw [a1, getNode_setNode r rp _ v1]
    have a3 : rb = setNode r rp ((N.set_child p (setNode (N.child p) q
        (L.set_value (L.count - 1) (N.value p)))).set_value p (L.value (L.count - 1))) := by
      rw [hrb, a2, a1, setNode_setNode r rp _ _ v1]
    have a4 : getNode rb rp = (N.set_child p (setNode (N.child p) q
        (L.set_value (L.count - 1) (N.value p)))).set_value p (L.value (L.count - 1)) := by
      rw [a3, getNode_setNode r rp _ v1]
    have a5 : getNode rb ((q ++ [p]) ++ rp) = L.set_value (L.count - 1) (N.value p) := by
      rw [getNode_append, a4, getNode_snoc, Node.set_value_child,
        Node.set_child_child_same _ _ _ v3, getNode_setNode _ q _ v4]
    rw [hr2, a5, setNode_append, a4, setNode_snoc, Node.set_value_child,
      Node.set_child_child_same _ _ _ v3, setNode_setNode _ q _ _ v4, Node.set_child_set_value,
      a3, setNode_setNode r rp _ _ v1]
    rw [setNode_append, getNode_setNode r rp _ v1, setNode_snoc, Node.set_value_child,
      setNode_setNode r rp _ _ v1]
  -- the tree with the value of the internal node replaced is well shaped
  obtain ⟨h, f1, _, f3, _, _⟩ := node_facts B H r rp hw v1
  rw [hN] at f3
  have hw1 : Node.wf_root B H (setNode r rp (N.set_value p (L.value (L.count - 1)))) = true :=
    wf_fill B r rp h H _ f1 (Node.wfc_set_value _ _ _ _ _ _ _ (f3 hNl))
  have g1 : getNode (setNode r rp (N.set_value p (L.value (L.count - 1)))) rp
      = N.set_value p (L.value (L.count - 1)) := getNode_setNode r rp _ v1
  have hv1 : ValidPath (setNode r rp (N.set_value p (L.value (L.count - 1)))) ((q ++ [p]) ++ rp) := by
    rw [validPath_append, g1, validPath_snoc, Node.set_value_children, Node.set_value_child]
    exact ⟨validPath_setNode r rp _ v1, v3, v4⟩
  have g2 : getNode (setNode r rp (N.set_value p (L.value (L.count - 1)))) ((q ++ [p]) ++ rp) = L := by
    rw [getNode_append, g1, getNode_snoc, Node.set_value_child, hLq]
  obtain ⟨c1, c2, c3⟩ := Node.remove_last_leaf L (N.value p) hLl hc1
  have hne : (q ++ [p]) ++ rp ≠ [] := by simp
  obtain ⟨j, rest, hj⟩ := List.exists_cons_of_ne_nil hne
  have hcB : L.count ≤ B := by
    obtain ⟨_, _, _, _, f4, _⟩ := node_facts B H r _ hw hvl
    rw [hL] at f4
    exact (Node.wfc_count _ _ _ _ _ (f4 hne)).2
  have hcnt2 : ((L.set_value (L.count - 1) (N.value p)).remove_value (L.count - 1)).count
      = L.count - 1 := by
    have hlen : L.values.length = L.count := rfl
    show ((L.set_value (L.count - 1) (N.value p)).remove_value (L.count - 1)).values.length = _
    rw [c2, List.length_take]
    omega
  have hrl := replace_leaf B H _ hw1 j rest (by rw [← hj]; exact hv1)
    (by rw [← hj, g2]; exact hLl) _ c1 (by rw [← hj, g2]; exact c3 B) (by rw [hcnt2]; omega)
  rw [← hj, ← e1] at hrl
  obtain ⟨b1, b2, b3, b4, b5, b6, b7, b8⟩ := hrl
  -- the values around the leaf
  have pa : ∀ R : Node V, pre R ((q ++ [p]) ++ rp)
      = pre R rp ++ ((getNode R rp).pre_child p ++ pre ((getNode R rp).child p) q) :=
    fun R => by rw [pre_append, pre_snoc]
  have po : ∀ R : Node V, post R ((q ++ [p]) ++ rp)
      = (post ((getNode R rp).child p) q ++ (getNode R rp).post_child p) ++ post R rp :=
    fun R => by rw [post_append, post_snoc]
  have p1 : pre (setNode r rp (N.set_value p (L.value (L.count - 1)))) ((q ++ [p]) ++ rp)
      = pre r ((q ++ [p]) ++ rp) := by
    rw [pa, pa r, g1, hN, pre_setNode r rp _ v1, Node.pre_child_set_value, Node.set_value_child]
  obtain ⟨tl, t1, t2⟩ := Node.post_child_set_value N p (L.value (L.count - 1)) hp
  have q0 : post (N.child p) q = [] := by
    rw [po r, hN] at hpost
    simp only [post, hN, List.append_assoc] at hpost
    exact List.append_left_eq_self.mp hpost
  have p2 : post (setNode r rp (N.set_value p (L.value (L.count - 1)))) ((q ++ [p]) ++ rp)
      = L.value (L.count - 1) :: l2 := by
    rw [po, g1, post_setNode r rp _ v1, Node.set_value_child, q0, t2]
    rw [t1] at s2
    simp only [List.cons_append, List.cons.injEq] at s2
    simp only [List.nil_append, List.cons_append, s2.2]
  have hlen : L.values.length = L.count := rfl
  have hd := drop_getD L.values (L.count - 1) default (by omega)
  have e2 : L.count - 1 + 1 = L.count := by omega
  rw [e2, List.drop_eq_nil_of_le (Nat.le_of_eq hlen)] at hd
  have hval : L.values = L.values.take (L.count - 1) ++ [L.value (L.count - 1)] := by
    conv => lhs; rw [← List.take_append_drop (L.count - 1) L.values, hd]
    rfl
  have hl1 : l1 = (pre r ((q ++ [p]) ++ rp) ++ L.values.take (L.count - 1))
      ++ [L.value (L.count - 1)] := by
    rw [← s1, List.append_assoc, ← hval, hpre]
    simp only [pre, hN, List.append_assoc]
  refine ⟨pre r ((q ++ [p]) ++ rp) ++ L.values.take (L.count - 1), L.value (L.count - 1), hl1,
    b1, by rw [b3]; exact b2, ⟨b4, by rw [b3]; exact c1, by rw [b3, hcnt2], ?_, ?_⟩, ?_, ?_⟩
  · rw [b3, b5, p1, c2, List.take_take, Nat.min_self]
  · rw [b3, b6, p2, c2, List.drop_eq_nil_of_le (by simp)]
    rfl
  · rw [b7, p1, p2, c2, hl1]
    simp
  · cases rp with
    | nil =>
      rw [← hNl, ← hN]
      rfl
    | cons i0 rp0 => exact root_internal_of_ctx B r i0 rp0 h H f1

end ErasePhase1

end CppBtree

namespace CppBtree

variable {K V : Type}

namespace Btree

section EraseSpec

variable [Inhabited V]

/-- The tail of `erase` once the loop has returned an iterator. -/
theorem erase_of_loop (P : Params K V) (t : Btree K V) (iter iter1 : Iter)
    (ta tb t1 t2 t3 : Btree K V) (res : Iter)
    (hi : iter1 = if !(t.node iter.path).leaf then t.decrement iter else iter)
    (hta : ta = t.set_node iter1.path ((t.node iter1.path).set_value iter1.position.toNat
      ((t.node iter.path).value iter.position.toNat)))
    (htb : tb = ta.set_node iter.path ((ta.node iter.path).set_value iter.position.toNat
      ((t.node iter1.path).value iter1.position.toNat)))
    (ht1 : t1 = if !(t.node iter.path).leaf then tb.with_size (tb.size_field - 1)
      else if t.root_node.leaf then t else t.with_size (t.size_field - 1))
    (ht2 : t2 = t1.set_node iter1.path ((t1.node iter1.path).remove_value iter1.position.toNat))
    (hl : erase_loop P t2 iter1.path iter1.position [] iter1.position = (t3, some res)) :
    erase P t iter = (t3,
      if !(t.node iter.path).leaf then
        t3.increment (if res.position = ((t3.node res.path).count : Int) then
          t3.increment ⟨res.node, ((t3.node res.path).count : Int) - 1⟩ else res)
      else (if res.position = ((t3.node res.path).count : Int) then
          t3.increment ⟨res.node, ((t3.node res.path).count : Int) - 1⟩ else res)) := by
  subst hi
  subst hta
  subst htb
  subst ht1
  subst ht2
  unfold erase
  simp only []
  rw [hl]

/-- The tail of `erase` when the loop has emptied the tree. -/
theorem erase_of_loop_none (P : Params K V) (t : Btree K V) (iter iter1 : Iter)
    (ta tb t1 t2 t3 : Btree K V)
    (hi : iter1 = if !(t.node iter.path).leaf then t.decrement iter else iter)
    (hta : ta = t.set_node iter1.path ((t.node iter1.path).set_value iter1.position.toNat
      ((t.node iter.path).value iter.position.toNat)))
    (htb : tb = ta.set_node iter.path ((ta.node iter.path).set_value iter.position.toNat
      ((t.node iter1.path).value iter1.position.toNat)))
    (ht1 : t1 = if !(t.node iter.path).leaf then tb.with_size (tb.size_field - 1)
      else if t.root_node.leaf then t else t.with_size (t.size_field - 1))
    (ht2 : t2 = t1.set_node iter1.path ((t1.node iter1.path).remove_value iter1.position.toNat))
    (hl : erase_loop P t2 iter1.path iter1.position [] iter1.position = (t3, none)) :
    erase P t iter = (t3, t3.end_) := by
  subst hi
  subst hta
  subst htb
  subst ht1
  subst ht2
  unfold erase
  simp only []
  rw [hl]

/-- The loop of `erase` started on a leaf below the root, followed by the advance of an
iterator left at the end of its leaf. -/
theorem erase_tail (P : Params K V) (hB : 3 ≤ P.kNodeValues) (t2 : Btree K V) (r2 : Node V)
    (i : Nat) (rp : List Nat) (pos : Nat) (la lb : List V) (H : Nat)
    (ht : t2.root = some r2) (hc : Ctx P.kNodeValues r2 (i :: rp) 0 H)
    (hN : Node.wfc P.kNodeValues 0 0 P.kNodeValues (getNode r2 (i :: rp)) = true)
    (hg : LeafGap r2 (i :: rp) pos la lb) (hsz : t2.size_field = r2.inorder.length) :
    ∃ t3 res, erase_loop P t2 (i :: rp) pos [] pos = (t3, some res)
      ∧ t3.comp = t2.comp ∧ Shaped P t3 ∧ t3.inorder = r2.inorder
      ∧ IterTo t3 (if res.position = ((t3.node res.path).count : Int) then
          t3.increment ⟨res.node, ((t3.node res.path).count : Int) - 1⟩ else res) la lb := by
  obtain ⟨r3, H2, path, pos2, a1, a2, a3, a4, a5, a6, a7⟩ :=
    erase_loop_leaf P hB la lb H t2 r2 i rp pos ht hc hN hg
  have hS : Shaped P (erase_loop P t2 (i :: rp) pos [] pos).1 :=
    shaped_intro P _ r3 H2 a1 a4 (fun _ => by rw [a3, hsz, a5])
  refine ⟨(erase_loop P t2 (i :: rp) pos [] pos).1, ⟨some path, ((pos2 : Nat) : Int)⟩, ?_, a2, hS,
    ?_, ?_⟩
  · rw [← a6]
  · rw [inorder_of_root _ r3 a1, a5]
  · exact erase_finish P _ r3 a1 hS path pos2 la lb a7

/-- The case of `erase` where the value sits on a leaf below the root. -/
theorem erase_leaf_below (P : Params K V) (hB : 3 ≤ P.kNodeValues) (t : Btree K V) (r : Node V)
    (ht : t.root = some r) (hS : Shaped P t) (i : Nat) (rp : List Nat) (pos : Int)
    (l1 l2 : List V) (x : V) (hl : (getNode r (i :: rp)).leaf = true)
    (hp : PointsAt t ⟨some (i :: rp), pos⟩) (hsp : Splits t ⟨some (i :: rp), pos⟩ l1 (x :: l2)) :
    (erase P t ⟨some (i :: rp), pos⟩).1.comp = t.comp
      ∧ Shaped P (erase P t ⟨some (i :: rp), pos⟩).1
      ∧ (erase P t ⟨some (i :: rp), pos⟩).1.inorder = l1 ++ l2
      ∧ IterTo (erase P t ⟨some (i :: rp), pos⟩).1 (erase P t ⟨some (i :: rp), pos⟩).2 l1 l2 := by
  have hr := root_node_of_root t r ht
  have hw : Node.wf_root P.kNodeValues (r.height - 1) r = true := by
    have := hS
    simp only [Shaped, ht] at this
    exact this.1
  have hsf : r.leaf = false → t.size_field = r.inorder.length := by
    have := hS
    simp only [Shaped, ht] at this
    exact this.2
  have hio : r.inorder = l1 ++ x :: l2 := by
    rw [← inorder_of_root t r ht]
    exact splits_inorder P t _ _ _ hS hsp
  obtain ⟨hv, p0, p1⟩ := (pointsAt_iff t r ht _ _).mp hp
  obtain ⟨_, _, _, s1, s2⟩ := (splits_iff t r ht _ _ _ _).mp hsp
  rw [Node.pre_part_leaf_node _ hl, Node.mid_part_leaf_node _ hl, List.append_nil] at s1
  rw [Node.post_part_leaf_node _ hl] at s2
  obtain ⟨c1, c2, c3, c4, c5⟩ := remove_in_leaf P.kNodeValues _ r hw i rp hv hl pos.toNat
    (by omega) l1 l2 x s1 s2
  have h2 : ((t.with_size (t.size_field - 1)).set_node (i :: rp)
      (((t.with_size (t.size_field - 1)).node (i :: rp)).remove_value pos.toNat)).root
      = some (setNode r (i :: rp) ((getNode r (i :: rp)).remove_value pos.toNat)) := by
    simp [node, hr]
  obtain ⟨t3, res, d1, d2, d3, d4, d5⟩ := erase_tail P hB _ _ i rp pos.toNat l1 l2 _ h2 c1 c2 c3
    (by simp [hsf c5, c4, hio])
  have hpos : ((pos.toNat : Nat) : Int) = pos := Int.toNat_of_nonneg p0
  rw [hpos] at d1
  have hE := erase_of_loop P t ⟨some (i :: rp), pos⟩ ⟨some (i :: rp), pos⟩ _ _
    (t.with_size (t.size_field - 1)) _ t3 res (by simp [Iter.path, node, hr, hl]) rfl rfl
    (by simp [Iter.path, node, hr, hl, c5]) rfl d1
  have hnl : (!(t.node (Iter.path ⟨some (i :: rp), pos⟩)).leaf) = false := by
    simp [Iter.path, node, hr, hl]
  rw [hnl] at hE
  simp only [Bool.false_eq_true, if_false] at hE
  rw [hE]
  exact ⟨by rw [d2]; simp, d3, by rw [d4, c4], d5⟩

/-- The case of `erase` where the value sits on an internal node. -/
theorem erase_internal (P : Params K V) (hB : 3 ≤ P.kNodeValues) (t : Btree K V) (r : Node V)
    (ht : t.root = some r) (hS : Shaped P t) (rp : List Nat) (pos : Int)
    (l1 l2 : List V) (x : V) (hl : (getNode r rp).leaf = false)
    (hp : PointsAt t ⟨some rp, pos⟩) (hsp : Splits t ⟨some rp, pos⟩ l1 (x :: l2)) :
    (erase P t ⟨some rp, pos⟩).1.comp = t.comp
      ∧ Shaped P (erase P t ⟨some rp, pos⟩).1
      ∧ (erase P t ⟨some rp, pos⟩).1.inorder = l1 ++ l2
      ∧ IterTo (erase P t ⟨some rp, pos⟩).1 (erase P t ⟨some rp, pos⟩).2 l1 l2 := by
  have hr := root_node_of_root t r ht
  have hw : Node.wf_root P.kNodeValues (r.height - 1) r = true := by
    have := hS
    simp only [Shaped, ht] at this
    exact this.1
  have hsf : r.leaf = false → t.size_field = r.inorder.length := by
    have := hS
    simp only [Shaped, ht] at this
    exact this.2
  have hio : r.inorder = l1 ++ x :: l2 := by
    rw [← inorder_of_root t r ht]
    exact splits_inorder P t _ _ _ hS hsp
  obtain ⟨hv, p0, p1⟩ := (pointsAt_iff t r ht _ _).mp hp
  obtain ⟨_, _, _, s1, s2⟩ := (splits_iff t r ht _ _ _ _).mp hsp
  rw [Node.pre_mid_internal _ _ hl] at s1
  rw [Node.post_part_internal _ hl] at s2
  -- the leaf of the predecessor
  obtain ⟨_, _, f2, f3, _, _⟩ := node_facts P.kNodeValues _ r rp hw hv
  obtain ⟨hh, hhe⟩ : ∃ hh, (getNode r rp).children.length = hh ∧ True := ⟨_, rfl, trivial⟩
  have hshape : (getNode r rp).children.length = (getNode r rp).count + 1 := by
    have := f2
    rw [Node.eq_internal_of_not_leaf _ hl] at this
    simpa [Node.shape_ok] using this
  have hvc : ValidPath r (pos.toNat :: rp) := ⟨hv, by omega⟩
  obtain ⟨h, g1, _, _, g4, _⟩ := node_facts P.kNodeValues _ r (pos.toNat :: rp) hw hvc
  have hht : t.height = r.height := by simp [height, ht]
  have hhr := Node.height_of_wf_root _ _ _ hw
  obtain ⟨q, hq⟩ := rightmost_from_suffix t t.height (pos.toNat :: rp)
  obtain ⟨k1, k2, k3, k4⟩ := rightmost_from_spec t r P.kNodeValues _ hr t.height (pos.toNat :: rp) h
    (by have := ctx_height_le _ _ _ _ _ g1; omega) g1 (Or.inl (g4 (by simp)))
  rw [hq] at k1 k2 k3 k4
  have hc1 := count_pos_of_wf_root _ _ r _ hw k1
  have hdec : t.decrement ⟨some rp, pos⟩
      = ⟨some (q ++ pos.toNat :: rp), (((getNode r (q ++ pos.toNat :: rp)).count : Nat) : Int) - 1⟩ := by
    simp only [decrement, Iter.path, Option.getD_some, node, hr, hl, Bool.false_eq_true, if_false,
      hq]
  obtain ⟨ra, hra⟩ : ∃ ra, ra = setNode r (q ++ pos.toNat :: rp)
      ((getNode r (q ++ pos.toNat :: rp)).set_value ((getNode r (q ++ pos.toNat :: rp)).count - 1)
        ((getNode r rp).value pos.toNat)) := ⟨_, rfl⟩
  obtain ⟨rb, hrb⟩ : ∃ rb, rb = setNode ra rp ((getNode ra rp).set_value pos.toNat
      ((getNode r (q ++ pos.toNat :: rp)).value ((getNode r (q ++ pos.toNat :: rp)).count - 1))) :=
    ⟨_, rfl⟩
  obtain ⟨r2, hr2⟩ : ∃ r2, r2 = setNode rb (q ++ pos.toNat :: rp)
      ((getNode rb (q ++ pos.toNat :: rp)).remove_value
        ((getNode r (q ++ pos.toNat :: rp)).count - 1)) := ⟨_, rfl⟩
  obtain ⟨la, y, m1, m2, m3, m4, m5, m6⟩ := swap_remove P.kNodeValues _ r hw rp q pos.toNat _ _ rfl
    rfl k1 hl (by omega) k2 k3 k4 l1 l2 x s1 s2 ra rb r2 hra hrb hr2
  have et : ((((getNode r (q ++ pos.toNat :: rp)).count : Nat) : Int) - 1).toNat
      = (getNode r (q ++ pos.toNat :: rp)).count - 1 := by omega
  obtain ⟨ta, hta⟩ : ∃ ta : Btree K V, ta = t.set_node (q ++ pos.toNat :: rp)
      ((t.node (q ++ pos.toNat :: rp)).set_value
        ((((getNode r (q ++ pos.toNat :: rp)).count : Nat) : Int) - 1).toNat
        ((t.node rp).value pos.toNat)) := ⟨_, rfl⟩
  obtain ⟨tb, htb⟩ : ∃ tb : Btree K V, tb = ta.set_node rp ((ta.node rp).set_value pos.toNat
      ((t.node (q ++ pos.toNat :: rp)).value
        ((((getNode r (q ++ pos.toNat :: rp)).count : Nat) : Int) - 1).toNat)) := ⟨_, rfl⟩
  obtain ⟨t2, ht2⟩ : ∃ t2 : Btree K V, t2 = (tb.with_size (tb.size_field - 1)).set_node
      (q ++ pos.toNat :: rp) (((tb.with_size (tb.size_field - 1)).node (q ++ pos.toNat :: rp)).remove_value
        ((((getNode r (q ++ pos.toNat :: rp)).count : Nat) : Int) - 1).toNat) := ⟨_, rfl⟩
  have hta_root : ta.root_node = ra := by
    rw [hta, hra, et]
    simp [node, hr]
  have htb_root : tb.root_node = rb := by
    rw [htb, hrb]
    simp [node, hta_root, et, hr]
  have ht2_root : t2.root = some r2 := by
    rw [ht2, hr2]
    simp [node, htb_root, et]
  have ht2_size : t2.size_field = t.size_field - 1 := by
    rw [ht2, htb, hta]
    simp
  have ht2_comp : t2.comp = t.comp := by
    rw [ht2, htb, hta]
    simp
  obtain ⟨j, rest, hj⟩ := List.exists_cons_of_ne_nil (show q ++ pos.toNat :: rp ≠ [] by simp)
  rw [hj] at m2 m3 m4
  obtain ⟨t3, res, d1, d2, d3, d4, d5⟩ := erase_tail P hB t2 r2 j rest _ la (y :: l2) _ ht2_root
    m2 m3 m4 (by rw [ht2_size, hsf m6, m5, hio]; simp)
  rw [← hj] at d1
  have hpos : (((getNode r (q ++ pos.toNat :: rp)).count - 1 : Nat) : Int)
      = (((getNode r (q ++ pos.toNat :: rp)).count : Nat) : Int) - 1 := by omega
  rw [hpos] at d1
  have hnl : (!(t.node (Iter.path ⟨some rp, pos⟩)).leaf) = true := by
    simp [Iter.path, node, hr, hl]
  have hE := erase_of_loop P t ⟨some rp, pos⟩
    ⟨some (q ++ pos.toNat :: rp), (((getNode r (q ++ pos.toNat :: rp)).count : Nat) : Int) - 1⟩
    ta tb (tb.with_size (tb.size_field - 1)) t2 t3 res (by rw [hnl, if_pos rfl, hdec]) hta htb
    (by rw [hnl, if_pos rfl]) ht2 d1
  rw [hnl, if_pos rfl] at hE
  rw [hE]
  refine ⟨by rw [d2, ht2_comp], d3, by rw [d4, m5], ?_⟩
  rcases d5 with d5 | ⟨e1, e2, _⟩
  · exact absurd d5.2.1 (by simp)
  · have := increment_spec P t3 d3 _ _ _ _ e1 e2
    rw [← m1] at this
    exact this

/-- The case of `erase` where the root is a leaf. -/
theorem erase_root_leaf (P : Params K V) (t : Btree K V) (r : Node V)
    (ht : t.root = some r) (hS : Shaped P t) (pos : Int)
    (l1 l2 : List V) (x : V) (hl : r.leaf = true)
    (hp : PointsAt t ⟨some [], pos⟩) (hsp : Splits t ⟨some [], pos⟩ l1 (x :: l2)) :
    (erase P t ⟨some [], pos⟩).1.comp = t.comp
      ∧ Shaped P (erase P t ⟨some [], pos⟩).1
      ∧ (erase P t ⟨some [], pos⟩).1.inorder = l1 ++ l2
      ∧ IterTo (erase P t ⟨some [], pos⟩).1 (erase P t ⟨some [], pos⟩).2 l1 l2 := by
  have hr := root_node_of_root t r ht
  have hw : Node.wf_root P.kNodeValues (r.height - 1) r = true := by
    have := hS
    simp only [Shaped, ht] at this
    exact this.1
  obtain ⟨hv, p0, p1⟩ := (pointsAt_iff t r ht _ _).mp hp
  obtain ⟨_, _, _, s1, s2⟩ := (splits_iff t r ht _ _ _ _).mp hsp
  simp only [getNode] at p1 s1 s2
  rw [Node.pre_part_leaf_node _ hl, Node.mid_part_leaf_node _ hl, List.append_nil] at s1
  rw [Node.post_part_leaf_node _ hl] at s2
  simp only [pre, post, List.nil_append, List.append_nil] at s1 s2
  obtain ⟨a1, a2, a3⟩ := Node.remove_at_leaf r pos.toNat hl (by omega)
  have hlen : r.values.length = r.count := rfl
  have hd := drop_getD r.values pos.toNat default (by omega)
  rw [hd] at s2
  simp only [List.cons.injEq] at s2
  have hvals : (r.remove_value pos.toNat).values = l1 ++ l2 := by rw [a2, s1, s2.2]
  have hcnt : (r.remove_value pos.toNat).count = r.count - 1 := by
    show (r.remove_value pos.toNat).values.length = _
    rw [a2, List.length_append, List.length_take, List.length_drop]
    omega
  have hior : (r.remove_value pos.toNat).inorder = l1 ++ l2 := by
    rw [Node.eq_leaf_of_leaf _ P.kNodeValues a1]
    simpa using hvals
  have hnl : (!(t.node (Iter.path ⟨some [], pos⟩)).leaf) = false := by
    simp [Iter.path, node, hr, getNode, hl]
  have h2 : (t.set_node [] ((t.node []).remove_value pos.toNat)).root_node
      = r.remove_value pos.toNat := by
    simp [node, hr, getNode, setNode]
  by_cases hone : r.count = 1
  · -- the last value of the tree is erased
    have hts : (t.set_node [] ((t.node []).remove_value pos.toNat)).try_shrink
        = (t.set_node [] ((t.node []).remove_value pos.toNat)).with_root none := by
      simp only [try_shrink, h2]
      rw [if_neg (by omega), if_pos a1]
    have hloop : erase_loop P (t.set_node [] ((t.node []).remove_value pos.toNat)) [] pos [] pos
        = ((t.set_node [] ((t.node []).remove_value pos.toNat)).with_root none, none) := by
      rw [erase_loop_nil, hts]
      simp [empty]
    have hE := erase_of_loop_none P t ⟨some [], pos⟩ ⟨some [], pos⟩ _ _ t _ _
      (by rw [hnl]; rfl) rfl rfl (by rw [hnl]; simp [hr, hl]) rfl hloop
    rw [hE]
    have hnil : l1 ++ l2 = [] := by
      rw [← hvals]
      apply List.eq_nil_of_length_eq_zero
      have : (r.remove_value pos.toNat).values.length = (r.remove_value pos.toNat).count := rfl
      omega
    have hl1 : l1 = [] := (List.append_eq_nil.mp hnil).1
    have hl2 : l2 = [] := (List.append_eq_nil.mp hnil).2
    refine ⟨by simp, by simp [Shaped], by simp [inorder, hnil], Or.inl ⟨?_, hl2, rfl⟩⟩
    simp [inorder, hl1]
  · have hts : (t.set_node [] ((t.node []).remove_value pos.toNat)).try_shrink
        = t.set_node [] ((t.node []).remove_value pos.toNat) := by
      simp only [try_shrink, h2]
      rw [if_pos (by omega)]
    have hroot : (t.set_node [] ((t.node []).remove_value pos.toNat)).root
        = some (r.remove_value pos.toNat) := by
      simp [node, hr, getNode, setNode]
    have hloop : erase_loop P (t.set_node [] ((t.node []).remove_value pos.toNat)) [] pos [] pos
        = (t.set_node [] ((t.node []).remove_value pos.toNat), some ⟨some [], pos⟩) := by
      rw [erase_loop_nil, hts, h2]
      rw [if_neg (by simp [empty, hroot]), if_pos (by omega)]
    have hE := erase_of_loop P t ⟨some [], pos⟩ ⟨some [], pos⟩ _ _ t _ _ _
      (by rw [hnl]; rfl) rfl rfl (by rw [hnl]; simp [hr, hl]) rfl hloop
    rw [hnl] at hE
    simp only [Bool.false_eq_true, if_false] at hE
    rw [hE]
    have hw2 : Node.wf_root P.kNodeValues 0 (r.remove_value pos.toNat) = true := by
      have e := Node.eq_leaf_of_leaf r P.kNodeValues hl
      rw [e] at hw
      have e2 := Node.eq_leaf_of_leaf _ P.kNodeValues a1
      rw [e2, a3 P.kNodeValues]
      simp only [Node.wf_root, Bool.and_eq_true, decide_eq_true_eq] at hw ⊢
      have h9 : (r.remove_value pos.toNat).values.length = (r.remove_value pos.toNat).count := rfl
      have h8 : pos < (r.count : Int) := p1
      rw [h9, hcnt]
      rw [hlen] at hw
      refine ⟨⟨⟨trivial, ?_⟩, ?_⟩, ?_⟩ <;> omega
    have hS2 : Shaped P (t.set_node [] ((t.node []).remove_value pos.toNat)) :=
      shaped_intro P _ _ 0 hroot hw2 (fun h => by rw [a1] at h; simp at h)
    refine ⟨by simp, hS2, by rw [inorder_of_root _ _ hroot, hior], ?_⟩
    have hg : LeafGap (r.remove_value pos.toNat) [] pos.toNat l1 l2 := by
      refine ⟨trivial, a1, by simp only [getNode]; omega, ?_, ?_⟩
      · simp only [pre, getNode, List.nil_append]
        rw [a2, List.take_append_of_le_length (by simp; omega), List.take_take, Nat.min_self, s1]
      · simp only [post, getNode, List.append_nil]
        rw [a2, List.drop_append_of_le_length (by simp; omega)]
        have : (List.take pos.toNat r.values).length = pos.toNat := by simp; omega
        rw [List.drop_eq_nil_of_le (by omega), List.nil_append, s2.2]
    have hf := erase_finish P _ _ hroot hS2 [] pos.toNat l1 l2 hg
    rw [Int.toNat_of_nonneg p0] at hf
    exact hf

/-- The effect of `erase(iter)` on a well shaped tree: the value the iterator designates leaves
the in-order sequence, the tree stays well shaped, and the returned iterator stands at the place
of the removed value. -/
theorem erase_spec (P : Params K V) (hB : 3 ≤ P.kNodeValues) (t : Btree K V) (hS : Shaped P t)
    (iter : Iter) (l1 l2 : List V) (x : V)
    (hp : PointsAt t iter) (hsp : Splits t iter l1 (x :: l2)) :
    (erase P t iter).1.comp = t.comp
      ∧ Shaped P (erase P t iter).1
      ∧ (erase P t iter).1.inorder = l1 ++ l2
      ∧ IterTo (erase P t iter).1 (erase P t iter).2 l1 l2 := by
  obtain ⟨rp, h1, h2, h3, h4, h5⟩ := hp
  obtain ⟨r, ht⟩ := Option.isSome_iff_exists.mp h2
  have hr := root_node_of_root t r ht
  obtain ⟨node, pos⟩ := iter
  simp only at h1
  subst h1
  have hp : PointsAt t ⟨some rp, pos⟩ := ⟨rp, rfl, h2, h3, h4, h5⟩
  cases hl : (getNode r rp).leaf with
  | false => exact erase_internal P hB t r ht hS rp pos l1 l2 x hl hp hsp
  | true =>
    cases rp with
    | nil => exact erase_root_leaf P t r ht hS pos l1 l2 x hl hp hsp
    | cons i rp => exact erase_leaf_below P hB t r ht hS i rp pos l1 l2 x hl hp hsp

end EraseSpec

end Btree

end CppBtree

namespace CppBtree

variable {K V : Type}

theorem pairwise_remove {α : Type} (R : α → α → Prop) (l1 l2 : List α) (x : α)
    (h : (l1 ++ x :: l2).Pairwise R) : (l1 ++ l2).Pairwise R := by
  apply List.Pairwise.sublist _ h
  exact List.Sublist.append (List.Sublist.refl l1) (List.sublist_cons_self x l2)

namespace Btree

section EraseAt

variable [Inhabited V]

/-- An iterator that designates a stored value stands in front of that value. -/
theorem pointsAt_splits (t : Btree K V) (it : Iter) (hp : PointsAt t it) :
    ∃ l1 l2, Splits t it l1 (t.deref it :: l2) := by
  obtain ⟨rp, h1, h2, h3, h4, h5⟩ := hp
  obtain ⟨r, ht⟩ := Option.isSome_iff_exists.mp h2
  have hr := root_node_of_root t r ht
  obtain ⟨node, pos⟩ := it
  simp only at h1 h4 h5
  subst h1
  simp only [node, hr] at h5
  have hlen : (getNode r rp).values.length = (getNode r rp).count := rfl
  have hd : t.deref ⟨some rp, pos⟩ = (getNode r rp).value pos.toNat := by
    simp [deref, Iter.path, node, hr]
  rw [hd]
  cases hl : (getNode r rp).leaf with
  | true =>
    refine ⟨_, (getNode r rp).values.drop (pos.toNat + 1) ++ post r rp,
      (splits_iff t r ht rp pos _ _).mpr ⟨by rw [← hr]; exact h3, h4, by omega, rfl, ?_⟩⟩
    rw [Node.post_part_leaf_node _ hl, drop_getD _ _ default (by omega)]
    rfl
  | false =>
    obtain ⟨tl, t1, _⟩ := Node.post_child_set_value (getNode r rp) pos.toNat default (by omega)
    refine ⟨_, tl ++ post r rp,
      (splits_iff t r ht rp pos _ _).mpr ⟨by rw [← hr]; exact h3, h4, by omega, rfl, ?_⟩⟩
    rw [Node.post_part_internal _ hl, t1]
    rfl

/-- The in-order index of a designated value: the iterator is the one reached from `begin()`
by that many steps. -/
theorem pointsAt_nth (P : Params K V) (t : Btree K V) (hS : Shaped P t) (it : Iter)
    (hp : PointsAt t it) :
    ∃ l1 l2, t.inorder = l1 ++ t.deref it :: l2 ∧ Splits t it l1 (t.deref it :: l2)
      ∧ it = t.nth_iter l1.length := by
  obtain ⟨l1, l2, hsp⟩ := pointsAt_splits t it hp
  refine ⟨l1, l2, splits_inorder P t it _ _ hS hsp, hsp, ?_⟩
  exact iterTo_eq_nth P t hS it l1 _ (Or.inr ⟨hp, hsp, rfl⟩)

/-- The iterator that stands between `l1` and `l2`, read as an in-order index. -/
theorem iterTo_cases (P : Params K V) (t : Btree K V) (hS : Shaped P t) (it : Iter)
    (l1 l2 : List V) (h : IterTo t it l1 l2) :
    it = t.nth_iter l1.length ∧ (l2 = [] → it = t.end_)
      ∧ (∀ y l3, l2 = y :: l3 → PointsAt t it ∧ t.deref it = y) := by
  refine ⟨iterTo_eq_nth P t hS it l1 l2 h, ?_, ?_⟩
  · intro e
    rcases h with h | ⟨_, _, h3⟩
    · exact h.2.2
    · rw [e] at h3
      simp at h3
  · intro y l3 e
    rcases h with h | ⟨h1, _, h3⟩
    · rw [e] at h
      exact absurd h.2.1 (by simp)
    · rw [e] at h3
      simp only [List.head?_cons, Option.some.injEq] at h3
      exact ⟨h1, h3.symm⟩

/-- The outcome of `erase(iter)` in terms of in-order indices. -/
theorem erase_at (P : Params K V) (hB : 3 ≤ P.kNodeValues) (t : Btree K V) (hS : Shaped P t)
    (it : Iter) (hp : PointsAt t it) :
    ∃ n, n < t.inorder.length ∧ it = t.nth_iter n ∧ t.inorder[n]? = some (t.deref it)
      ∧ (erase P t it).1.comp = t.comp
      ∧ Shaped P (erase P t it).1
      ∧ (erase P t it).1.inorder = t.inorder.eraseIdx n
      ∧ (erase P t it).1.size + 1 = t.size
      ∧ IterTo (erase P t it).1 (erase P t it).2 (t.inorder.take n) (t.inorder.drop (n + 1)) := by
  obtain ⟨l1, l2, h1, h2, h3⟩ := pointsAt_nth P t hS it hp
  obtain ⟨e1, e2, e3, e4⟩ := erase_spec P hB t hS it l1 l2 _ hp h2
  have hget : t.inorder[l1.length]? = some (t.deref it) := by
    rw [h1, List.getElem?_append_right (Nat.le_refl _)]
    simp
  refine ⟨l1.length, by rw [h1]; simp, h3, hget, e1, e2, ?_, ?_, ?_⟩
  · rw [e3, h1, eraseIdx_app_len _ _ _ _ rfl]
  · rw [size_eq_length P _ e2, size_eq_length P t hS, e3, h1]
    simp
    omega
  · have a1 : t.inorder.take l1.length = l1 := by rw [h1]; simp
    have a2 : t.inorder.drop (l1.length + 1) = l2 := by
      rw [h1, List.drop_append_eq_append_drop]
      simp
    rw [a1, a2]
    exact e4

end EraseAt

end Btree

end CppBtree

namespace CppBtree

variable {K V : Type}

namespace Btree

/-- C10: in a valid tree (node capacity at least 3, well shaped, in-order sequence
non-decreasing), for an iterator that designates a stored value, on a leaf or on an internal
node, `erase(it)` removes exactly that value: the iterator is the one reached from `begin()` by
some `n` steps, the in-order sequence afterwards is the old one with index `n` deleted, `size()`
decreases by one, the tree stays valid, and the returned iterator is the one reached by `n`
steps in the new tree: it is `end()` when the erased value was the last, and otherwise it
designates the value that followed the erased one in the old sequence. -/
theorem erase_removes_designated [Inhabited V] (P : Params K V) (t : Btree K V)
    (hv : Valid P t) (it : Iter) (hp : PointsAt t it) :
    ∃ n, n < t.inorder.length ∧ it = t.nth_iter n ∧ t.inorder[n]? = some (t.deref it)
      ∧ (erase P t it).1.inorder = t.inorder.eraseIdx n
      ∧ (erase P t it).1.size + 1 = t.size
      ∧ Valid P (erase P t it).1
      ∧ (erase P t it).2 = (erase P t it).1.nth_iter n
      ∧ (n + 1 = t.inorder.length → (erase P t it).2 = (erase P t it).1.end_)
      ∧ (n + 1 < t.inorder.length → PointsAt (erase P t it).1 (erase P t it).2
          ∧ t.inorder[n + 1]? = some ((erase P t it).1.deref (erase P t it).2)) := by
  obtain ⟨hB, hS, hs⟩ := hv
  obtain ⟨n, h1, h2, h3, h4, h5, h6, h7, h8⟩ := erase_at P hB t hS it hp
  obtain ⟨c1, c2, c3⟩ := iterTo_cases P _ h5 _ _ _ h8
  have hlen : (t.inorder.take n).length = n := by
    rw [List.length_take]
    omega
  rw [hlen] at c1
  refine ⟨n, h1, h2, h3, h6, h7, ⟨hB, h5, ?_⟩, c1, ?_, ?_⟩
  · unfold Sorted
    rw [h4, h6]
    exact List.Pairwise.sublist (List.eraseIdx_sublist _ _) hs
  · intro e
    apply c2
    apply List.drop_eq_nil_of_le
    omega
  · intro hlt
    have hd := drop_getD t.inorder (n + 1) default hlt
    obtain ⟨d1, d2⟩ := c3 _ _ hd
    refine ⟨d1, ?_⟩
    rw [d2, List.getD_eq_getElem?_getD, List.getElem?_eq_getElem hlt]
    rfl

theorem erase_removes_designated_witness :
    Valid Example.params Example.tree ∧ PointsAt Example.tree ⟨some [], 0⟩
      ∧ ∃ n, n < Example.tree.inorder.length ∧ (⟨some [], 0⟩ : Iter) = Example.tree.nth_iter n
        ∧ Example.tree.inorder[n]? = some (Example.tree.deref ⟨some [], 0⟩)
        ∧ (erase Example.params Example.tree ⟨some [], 0⟩).1.inorder
            = Example.tree.inorder.eraseIdx n
        ∧ (erase Example.params Example.tree ⟨some [], 0⟩).1.size + 1 = Example.tree.size
        ∧ Valid Example.params (erase Example.params Example.tree ⟨some [], 0⟩).1
        ∧ (erase Example.params Example.tree ⟨some [], 0⟩).2
            = (erase Example.params Example.tree ⟨some [], 0⟩).1.nth_iter n
        ∧ (n + 1 = Example.tree.inorder.length →
            (erase Example.params Example.tree ⟨some [], 0⟩).2
              = (erase Example.params Example.tree ⟨some [], 0⟩).1.end_)
        ∧ (n + 1 < Example.tree.inorder.length →
            PointsAt (erase Example.params Example.tree ⟨some [], 0⟩).1
              (erase Example.params Example.tree ⟨some [], 0⟩).2
            ∧ Example.tree.inorder[n + 1]?
              = some ((erase Example.params Example.tree ⟨some [], 0⟩).1.deref
                  (erase Example.params Example.tree ⟨some [], 0⟩).2)) :=
  ⟨by decide, ⟨[], rfl, by decide, trivial, by decide, by decide⟩,
    erase_removes_designated Example.params Example.tree (by decide) ⟨some [], 0⟩
      ⟨[], rfl, by decide, trivial, by decide, by decide⟩⟩

end Btree

end CppBtree

namespace CppBtree

variable {K V : Type}

/-- Two keys that compare equal to `k` are not strictly ordered. -/
theorem LawfulComp.not_lt_of_equiv {comp : K → K → Int} (hc : LawfulComp comp) (a b k : K)
    (ha : comp a k = 0) (hb : comp b k = 0) : ¬ comp a b < 0 := by
  intro hlt
  have h1 : comp k a ≤ 0 := by
    by_contra h
    have := (hc.swap_lt a k).mpr (by omega)
    omega
  have h2 := hc.le_trans b k a (by omega) h1
  have h3 := (hc.swap_lt a b).mp hlt
  omega

namespace Btree

section EraseUnique

variable [Inhabited V]

/-- In a strictly increasing sequence at most one value has a key equal to `k`. -/
theorem strict_unique_key (key : V → K) (comp : K → K → Int) (hc : LawfulComp comp)
    (l1 l2 : List V) (x : V) (k : K) (hs : (l1 ++ x :: l2).Pairwise (key_lt key comp))
    (hx : comp (key x) k = 0) : ∀ y ∈ l1 ++ l2, comp (key y) k ≠ 0 := by
  intro y hy h0
  rw [List.pairwise_append] at hs
  obtain ⟨_, h2, h3⟩ := hs
  rw [List.pairwise_cons] at h2
  rcases List.mem_append.mp hy with hm | hm
  · exact hc.not_lt_of_equiv _ _ k h0 hx (h3 y hm x (List.mem_cons_self _ _))
  · exact hc.not_lt_of_equiv _ _ k hx h0 (h2.1 y hm)

/-- The outcome of `erase_unique(k)` on a well shaped sorted tree. -/
theorem erase_unique_spec (P : Params K V) (hB : 3 ≤ P.kNodeValues) (t : Btree K V) (k : K)
    (hc : LawfulComp t.comp) (hS : Shaped P t) (hs : Sorted P t) :
    ((erase_unique P t k).2 = 1 ∧ (erase_unique P t k).1.comp = t.comp
        ∧ Shaped P (erase_unique P t k).1
        ∧ ∃ l1 x l2, t.inorder = l1 ++ x :: l2 ∧ t.comp (P.key x) k = 0
          ∧ (erase_unique P t k).1.inorder = l1 ++ l2)
      ∨ ((erase_unique P t k).2 = 0 ∧ (erase_unique P t k).1 = t
        ∧ ∀ x ∈ t.inorder, t.comp (P.key x) k ≠ 0) := by
  rcases internal_find_unique_spec P t k hc hS hs with ⟨h1, h2, h3⟩ | ⟨h1, h2⟩
  · left
    have e : erase_unique P t k = ((erase P t (internal_find_unique P t k t.root_iter)).1, 1) := by
      simp only [erase_unique, h1, if_true]
    rw [e]
    obtain ⟨l1, l2, a1, a2, _⟩ := pointsAt_nth P t hS _ h2
    obtain ⟨e1, e2, e3, _⟩ := erase_spec P hB t hS _ l1 l2 _ h2 a2
    exact ⟨rfl, e1, e2, l1, _, l2, a1, h3, e3⟩
  · right
    have e : erase_unique P t k = (t, 0) := by
      simp only [erase_unique, h1]
      rfl
    rw [e]
    exact ⟨rfl, rfl, h2⟩

end EraseUnique

end Btree

end CppBtree

namespace CppBtree

variable {K V : Type}

namespace Btree

/-- C11: in a well-shaped unique tree (strictly increasing in-order sequence, lawful
comparator, node capacity at least 3; the empty tree included), when a stored key compares
equal to `k`, `erase_unique(k)` returns 1, the in-order sequence afterwards is the old one
without that value, no remaining key compares equal to `k` and `size()` has decreased by one;
when no stored key compares equal to `k`, `erase_unique(k)` returns 0 and the tree is
unchanged. -/
theorem erase_unique_correct [Inhabited V] (P : Params K V) (t : Btree K V) (k : K)
    (hB : 3 ≤ P.kNodeValues) (hc : LawfulComp t.comp) (hS : Shaped P t)
    (hs : StrictSorted P t) :
    ((∃ x ∈ t.inorder, t.comp (P.key x) k = 0) →
        (erase_unique P t k).2 = 1
          ∧ (∃ l1 x l2, t.inorder = l1 ++ x :: l2 ∧ t.comp (P.key x) k = 0
              ∧ (erase_unique P t k).1.inorder = l1 ++ l2
              ∧ ∀ y ∈ l1 ++ l2, t.comp (P.key y) k ≠ 0)
          ∧ (erase_unique P t k).1.size + 1 = t.size)
      ∧ ((∀ x ∈ t.inorder, t.comp (P.key x) k ≠ 0) →
        (erase_unique P t k).2 = 0 ∧ (erase_unique P t k).1 = t
          ∧ (erase_unique P t k).1.inorder = t.inorder
          ∧ (erase_unique P t k).1.size = t.size) := by
  rcases erase_unique_spec P hB t k hc hS (sorted_of_strict P t hc hs) with
    ⟨h1, _, h3, l1, x, l2, a1, a2, a3⟩ | ⟨h1, h2, h3⟩
  · refine ⟨fun _ => ⟨h1, ⟨l1, x, l2, a1, a2, a3, ?_⟩, ?_⟩, fun hnone => ?_⟩
    · have hs2 := hs
      unfold StrictSorted at hs2
      rw [a1] at hs2
      exact strict_unique_key P.key t.comp hc l1 l2 x k hs2 a2
    · rw [size_eq_length P _ h3, size_eq_length P t hS, a3, a1]
      simp
      omega
    · exact absurd a2 (hnone x (by rw [a1]; simp))
  · refine ⟨fun hex => ?_, fun _ => ⟨h1, h2, by rw [h2], by rw [h2]⟩⟩
    obtain ⟨x, hx, hxe⟩ := hex
    exact absurd hxe (h3 x hx)

theorem erase_unique_correct_witness :
    3 ≤ Example.params.kNodeValues ∧ LawfulComp Example.tree.comp
      ∧ Shaped Example.params Example.tree ∧ StrictSorted Example.params Example.tree
      ∧ (((∃ x ∈ Example.tree.inorder, Example.tree.comp (Example.params.key x) 30 = 0) →
          (erase_unique Example.params Example.tree 30).2 = 1
            ∧ (∃ l1 x l2, Example.tree.inorder = l1 ++ x :: l2
                ∧ Example.tree.comp (Example.params.key x) 30 = 0
                ∧ (erase_unique Example.params Example.tree 30).1.inorder = l1 ++ l2
                ∧ ∀ y ∈ l1 ++ l2, Example.tree.comp (Example.params.key y) 30 ≠ 0)
            ∧ (erase_unique Example.params Example.tree 30).1.size + 1 = Example.tree.size)
        ∧ ((∀ x ∈ Example.tree.inorder, Example.tree.comp (Example.params.key x) 30 ≠ 0) →
          (erase_unique Example.params Example.tree 30).2 = 0
            ∧ (erase_unique Example.params Example.tree 30).1 = Example.tree
            ∧ (erase_unique Example.params Example.tree 30).1.inorder = Example.tree.inorder
            ∧ (erase_unique Example.params Example.tree 30).1.size = Example.tree.size)) :=
  ⟨by decide, Example.int_compare_lawful, by decide, by decide,
    erase_unique_correct Example.params Example.tree 30 (by decide)
      Example.int_compare_lawful (by decide) (by decide)⟩

end Btree

end CppBtree

namespace CppBtree

variable {K V : Type}

namespace Btree

section EraseRange

variable [Inhabited V]

/-- The loop of `erase(begin, end)`: as many single erases as the range has values. -/
theorem erase_n_spec (P : Params K V) (hB : 3 ≤ P.kNodeValues) :
    ∀ (seg : List V) (t : Btree K V) (b : Iter) (l1 l2 : List V), Shaped P t →
      IterTo t b l1 (seg ++ l2) →
      (erase_n P seg.length t b).comp = t.comp ∧ Shaped P (erase_n P seg.length t b)
        ∧ (erase_n P seg.length t b).inorder = l1 ++ l2 := by
  intro seg
  induction seg with
  | nil =>
    intro t b l1 l2 hS hb
    exact ⟨rfl, hS, iterTo_inorder P t hS b _ _ hb⟩
  | cons x seg ih =>
    intro t b l1 l2 hS hb
    rcases hb with hb | ⟨h1, h2, _⟩
    · exact absurd hb.2.1 (by simp)
    · obtain ⟨e1, e2, _, e4⟩ := erase_spec P hB t hS b l1 (seg ++ l2) x h1 h2
      obtain ⟨a1, a2, a3⟩ := ih (erase P t b).1 (erase P t b).2 l1 l2 e2 e4
      exact ⟨by rw [← e1, ← a1]; rfl, a2, a3⟩

/-- The conversion to `int` keeps a number below `2^31`. -/
theorem to_int_of_lt (k : Nat) (h : k < 2147483648) : to_int (k : Int) = (k : Int) := by
  unfold to_int
  simp only []
  split <;> omega

/-- The conversion to `int` never yields more than the number it is given. -/
theorem to_int_toNat_le (k : Nat) : (to_int (k : Int)).toNat ≤ k := by
  unfold to_int
  simp only []
  split <;> omega

/-- The conversion to `int` of a number from `2^31` up to `2^32 - 1` is negative. -/
theorem to_int_wrap (k : Nat) (h1 : 2147483648 ≤ k) (h2 : k < 4294967296) :
    to_int (k : Int) = (k : Int) - 4294967296 ∧ (to_int (k : Int)).toNat = 0 := by
  unfold to_int
  simp only []
  split <;> omega

/-- The steps of `erase(begin, end)` for a range that holds the values `seg`: the length of the
range is converted to `int`, and that many single erases run. -/
theorem erase_range_unfold (P : Params K V) (t : Btree K V)
    (hS : Shaped P t) (b e : Iter) (l1 seg l2 : List V) (hb : IterTo t b l1 (seg ++ l2))
    (he : IterTo t e (l1 ++ seg) l2) :
    erase_range P t b e
      = (erase_n P (to_int (seg.length : Int)).toNat t b, to_int (seg.length : Int)) := by
  have hio := iterTo_inorder P t hS b _ _ hb
  have hd : t.distance (t.size + 1) b e = seg.length := by
    rw [distance_spec P t hS e _ _ he _ b _ _ hb (by simp)]
    · simp
    · rw [size_eq_length P t hS, hio]
      simp
      omega
  simp only [erase_range, hd]

/-- The outcome of `erase(begin, end)` for a range that holds the values `seg`: the returned
number is the length of the range converted to `int`, and the values removed are the first
that many of the range. -/
theorem erase_range_spec (P : Params K V) (hB : 3 ≤ P.kNodeValues) (t : Btree K V)
    (hS : Shaped P t) (b e : Iter) (l1 seg l2 : List V) (hb : IterTo t b l1 (seg ++ l2))
    (he : IterTo t e (l1 ++ seg) l2) :
    (erase_range P t b e).2 = to_int (seg.length : Int)
      ∧ (erase_range P t b e).1.comp = t.comp
      ∧ Shaped P (erase_range P t b e).1
      ∧ (erase_range P t b e).1.inorder
          = l1 ++ (seg.drop (to_int (seg.length : Int)).toNat ++ l2) := by
  rw [erase_range_unfold P t hS b e l1 seg l2 hb he]
  have hm := to_int_toNat_le seg.length
  have hlen : (seg.take (to_int (seg.length : Int)).toNat).length
      = (to_int (seg.length : Int)).toNat := by
    rw [List.length_take]
    omega
  have hb2 : IterTo t b l1 (seg.take (to_int (seg.length : Int)).toNat
      ++ (seg.drop (to_int (seg.length : Int)).toNat ++ l2)) := by
    rw [← List.append_assoc, List.take_append_drop]
    exact hb
  have h := erase_n_spec P hB (seg.take (to_int (seg.length : Int)).toNat) t b l1
    (seg.drop (to_int (seg.length : Int)).toNat ++ l2) hS hb2
  rw [hlen] at h
  refine ⟨rfl, ?_⟩
  dsimp only
  exact h

theorem nth_iter_add (t : Btree K V) (i k : Nat) :
    t.nth_iter (i + k) = Nat.iterate t.increment k (t.nth_iter i) := by
  induction k with
  | zero => rfl
  | succ k ih =>
    rw [Function.iterate_succ_apply', ← ih]
    rfl

theorem erase_range_self (P : Params K V) (t : Btree K V) (b : Iter) :
    erase_range P t b b = (t, 0) := by
  have h0 : to_int ((0 : Nat) : Int) = 0 := by decide
  have hd : t.distance (t.size + 1) b b = 0 := by simp [distance]
  simp only [erase_range, hd]
  rw [h0]
  rfl

/-- The outcome of `erase(begin, end)` in terms of in-order indices: `k` is the number of values
of the range, the returned number is `k` converted to `int`, and the values removed are the
first that many of the range. -/
theorem erase_range_at (P : Params K V) (hB : 3 ≤ P.kNodeValues) (t : Btree K V)
    (hS : Shaped P t) (i k : Nat) (hik : i + k ≤ t.inorder.length) :
    (erase_range P t (t.nth_iter i) (t.nth_iter (i + k))).2 = to_int (k : Int)
      ∧ (erase_range P t (t.nth_iter i) (t.nth_iter (i + k))).1.comp = t.comp
      ∧ Shaped P (erase_range P t (t.nth_iter i) (t.nth_iter (i + k))).1
      ∧ (erase_range P t (t.nth_iter i) (t.nth_iter (i + k))).1.inorder
          = t.inorder.take i ++ t.inorder.drop (i + (to_int (k : Int)).toNat)
      ∧ t.values_between (t.size + 1) (t.nth_iter i) (t.nth_iter (i + k))
          = (t.inorder.drop i).take k
      ∧ erase_range P t (t.nth_iter i) (t.nth_iter (i + k))
          = (erase_n P (to_int (k : Int)).toNat t (t.nth_iter i), to_int (k : Int)) := by
  have hb := nth_iter_spec P t hS i (by omega)
  have he := nth_iter_spec P t hS (i + k) hik
  have e1 : t.inorder.drop i = (t.inorder.drop i).take k ++ t.inorder.drop (i + k) := by
    rw [← List.drop_drop, List.take_append_drop]
  have e2 : t.inorder.take (i + k) = t.inorder.take i ++ (t.inorder.drop i).take k := by
    rw [List.take_add]
  rw [e1] at hb
  rw [e2] at he
  have hlen : ((t.inorder.drop i).take k).length = k := by
    rw [List.length_take, List.length_drop]
    omega
  obtain ⟨a1, a2, a3, a4⟩ := erase_range_spec P hB t hS _ _ _ _ _ hb he
  have a5 := erase_range_unfold P t hS _ _ _ _ _ hb he
  rw [hlen] at a1 a4 a5
  have hm := to_int_toNat_le k
  refine ⟨a1, a2, ?_, ?_, ?_, a5⟩
  · exact a3
  · rw [a4]
    congr 1
    have e3 : t.inorder.drop (i + (to_int (k : Int)).toNat)
        = ((t.inorder.drop i).take k).drop (to_int (k : Int)).toNat
          ++ t.inorder.drop (i + k) := by
      have e4 : t.inorder.drop (i + k)
          = ((t.inorder.drop i).drop (to_int (k : Int)).toNat).drop
              (k - (to_int (k : Int)).toNat) := by
        rw [List.drop_drop, List.drop_drop]
        congr 1
        omega
      have e5 : ((t.inorder.drop i).take k).drop (to_int (k : Int)).toNat
          = ((t.inorder.drop i).drop (to_int (k : Int)).toNat).take
              (k - (to_int (k : Int)).toNat) := by
        rw [List.drop_take]
      rw [e4, e5, List.take_append_drop, List.drop_drop]
    exact e3.symm
  · apply values_between_spec P t hS _ _ _ _ _ _ _ hb he
    rw [hlen, size_eq_length P t hS]
    omega

end EraseRange

end Btree

end CppBtree

namespace CppBtree

variable {K V : Type}

namespace Btree

/-- C13: `erase(b, e)` keeps the number of values of the range in an `int`
(`int count = distance(begin, end)`), runs `count` single erases and returns `count`. In a
valid tree, for the iterator `b` reached from `begin()` by `i` steps and the iterator `e`
reached from `b` by `k` further successor steps (with `i + k` at most the number of stored
values), the range `[b, e)` holds the `k` values of the in-order sequence from index `i` on;
`erase(b, e)` returns `k` converted to `int` and removes the first that many values of the
range (none when that number is negative); the tree stays valid; and `erase(b, b)` returns 0
and changes nothing. For `k < 2^31` this is the claim: `k` is returned, the in-order sequence
afterwards is the old one with exactly the values of `[b, e)` removed, and `size()` decreases
by `k`. For `2^31 ≤ k < 2^32` the code departs from the claim: the negative number
`k - 2^32` is returned and the tree is left as it was. -/
theorem erase_range_correct [Inhabited V] (P : Params K V) (t : Btree K V) (hv : Valid P t)
    (b e : Iter) (i k : Nat) (hb : b = t.nth_iter i) (he : e = Nat.iterate t.increment k b)
    (hik : i + k ≤ t.inorder.length) :
    (erase_range P t b e).2 = to_int (k : Int)
      ∧ t.values_between (t.size + 1) b e = (t.inorder.drop i).take k
      ∧ (erase_range P t b e).1.inorder
          = t.inorder.take i ++ t.inorder.drop (i + (to_int (k : Int)).toNat)
      ∧ Valid P (erase_range P t b e).1
      ∧ erase_range P t b b = (t, 0)
      ∧ (k < 2147483648 →
          (erase_range P t b e).2 = (k : Int)
            ∧ (erase_range P t b e).1.inorder = t.inorder.take i ++ t.inorder.drop (i + k)
            ∧ (erase_range P t b e).1.size + k = t.size)
      ∧ (2147483648 ≤ k → k < 4294967296 →
          erase_range P t b e = (t, (k : Int) - 4294967296)) := by
  obtain ⟨hB, hS, hs⟩ := hv
  have he2 : e = t.nth_iter (i + k) := by rw [he, hb, nth_iter_add]
  rw [he2, hb]
  obtain ⟨a1, a2, a3, a4, a5, a6⟩ := erase_range_at P hB t hS i k hik
  have hm := to_int_toNat_le k
  refine ⟨a1, a5, a4, ⟨hB, a3, ?_⟩, erase_range_self P t _, ?_, ?_⟩
  · unfold Sorted
    rw [a2, a4]
    apply List.Pairwise.sublist _ hs
    have e1 : t.inorder.take i ++ t.inorder.drop (i + (to_int (k : Int)).toNat)
        = t.inorder.take i ++ (t.inorder.drop i).drop (to_int (k : Int)).toNat := by
      rw [List.drop_drop, Nat.add_comm]
    rw [e1]
    conv => rhs; rw [← List.take_append_drop i t.inorder]
    exact List.Sublist.append (List.Sublist.refl _) (List.drop_sublist _ _)
  · intro hk
    have hi := to_int_of_lt k hk
    rw [hi] at a1 a4
    rw [Int.toNat_ofNat] at a4
    refine ⟨a1, a4, ?_⟩
    rw [size_eq_length P _ a3, size_eq_length P t hS, a4, List.length_append, List.length_take,
      List.length_drop]
    omega
  · intro h1 h2
    obtain ⟨w1, w2⟩ := to_int_wrap k h1 h2
    rw [a6, w2, w1]
    rfl

theorem erase_range_correct_witness :
    Valid Example.params Example.tree
      ∧ 1 + 2 ≤ Example.tree.inorder.length
      ∧ ((erase_range Example.params Example.tree (Example.tree.nth_iter 1)
            (Nat.iterate Example.tree.increment 2 (Example.tree.nth_iter 1))).2 = 2
        ∧ (erase_range Example.params Example.tree (Example.tree.nth_iter 1)
            (Nat.iterate Example.tree.increment 2 (Example.tree.nth_iter 1))).1.inorder
            = Example.tree.inorder.take 1 ++ Example.tree.inorder.drop (1 + 2)
        ∧ (erase_range Example.params Example.tree (Example.tree.nth_iter 1)
            (Nat.iterate Example.tree.increment 2 (Example.tree.nth_iter 1))).1.size + 2
            = Example.tree.size) :=
  ⟨by decide, by decide,
    (erase_range_correct Example.params Example.tree (by decide) _ _ 1 2 rfl rfl
      (by decide)).2.2.2.2.2.1 (by decide)⟩

end Btree

end CppBtree

namespace CppBtree

variable {K V : Type}

theorem LawfulComp.self_eq_zero {comp : K → K → Int} (hc : LawfulComp comp) (a : K) :
    comp a a = 0 := by
  have h := hc.swap_lt a a
  by_contra hne
  rcases Int.lt_or_gt_of_ne hne with h1 | h1
  · have := h.mp h1
    omega
  · have := h.mpr h1
    omega

theorem filter_all_true {α : Type} (p : α → Bool) (l : List α) (h : ∀ x ∈ l, p x = true) :
    l.filter p = l := List.filter_eq_self.mpr h

theorem filter_all_false {α : Type} (p : α → Bool) (l : List α) (h : ∀ x ∈ l, p x = false) :
    l.filter p = [] := by
  rw [List.filter_eq_nil_iff]
  intro x hx
  simp [h x hx]

namespace Btree

section EraseMulti

variable [Inhabited V]

/-- The three stretches of a sorted sequence around a key: the values below it, the values
that compare equal to it and the values above it. -/
theorem key_stretches (P : Params K V) (t : Btree K V) (k : K) (hc : LawfulComp t.comp)
    (hs : Sorted P t) :
    t.inorder = t.inorder.takeWhile (fun x => decide (t.comp (P.key x) k < 0))
        ++ t.inorder.filter (fun x => decide (t.comp (P.key x) k = 0))
        ++ t.inorder.dropWhile (fun x => decide (¬ t.comp (P.key x) k > 0))
      ∧ t.inorder.dropWhile (fun x => decide (t.comp (P.key x) k < 0))
          = t.inorder.filter (fun x => decide (t.comp (P.key x) k = 0))
            ++ t.inorder.dropWhile (fun x => decide (¬ t.comp (P.key x) k > 0))
      ∧ t.inorder.filter (fun x => decide (t.comp (P.key x) k ≠ 0))
          = t.inorder.takeWhile (fun x => decide (t.comp (P.key x) k < 0))
            ++ t.inorder.dropWhile (fun x => decide (¬ t.comp (P.key x) k > 0)) := by
  have e1 : t.inorder = t.inorder.takeWhile (fun x => decide (t.comp (P.key x) k < 0))
        ++ t.inorder.filter (fun x => decide (t.comp (P.key x) k = 0))
        ++ t.inorder.dropWhile (fun x => decide (¬ t.comp (P.key x) k > 0)) := by
    rw [← equal_segment P t k hc hs, List.takeWhile_append_dropWhile]
  have e2 := List.takeWhile_append_dropWhile (fun x => decide (t.comp (P.key x) k < 0)) t.inorder
  have hgt : ∀ x ∈ t.inorder.dropWhile (fun x => decide (¬ t.comp (P.key x) k > 0)),
      t.comp (P.key x) k > 0 := by
    have := (takeWhile_dropWhile_facts (fun x => decide (¬ t.comp (P.key x) k > 0)) t.inorder
      (by
        apply List.Pairwise.imp _ (sorted_gt P t k hc hs)
        intro a b hab hb
        simp only [decide_eq_true_eq] at hb ⊢
        exact fun ha => hb (hab ha))).2
    intro x hx
    simpa using this x hx
  have hlt : ∀ x ∈ t.inorder.takeWhile (fun x => decide (t.comp (P.key x) k < 0)),
      t.comp (P.key x) k < 0 := by
    intro x hx
    simpa using List.mem_takeWhile_imp hx
  refine ⟨e1, ?_, ?_⟩
  · have e3 : t.inorder.takeWhile (fun x => decide (t.comp (P.key x) k < 0))
        ++ t.inorder.dropWhile (fun x => decide (t.comp (P.key x) k < 0))
        = t.inorder.takeWhile (fun x => decide (t.comp (P.key x) k < 0))
          ++ (t.inorder.filter (fun x => decide (t.comp (P.key x) k = 0))
          ++ t.inorder.dropWhile (fun x => decide (¬ t.comp (P.key x) k > 0))) := by
      rw [e2, ← List.append_assoc, ← e1]
    exact List.append_cancel_left e3
  · have fA := filter_all_true (fun x => decide (t.comp (P.key x) k ≠ 0))
      (t.inorder.takeWhile (fun x => decide (t.comp (P.key x) k < 0)))
      (fun x hx => by have := hlt x hx; simp; omega)
    have fC := filter_all_true (fun x => decide (t.comp (P.key x) k ≠ 0))
      (t.inorder.dropWhile (fun x => decide (¬ t.comp (P.key x) k > 0)))
      (fun x hx => by have := hgt x hx; simp; omega)
    have fB := filter_all_false (fun x => decide (t.comp (P.key x) k ≠ 0))
      (t.inorder.filter (fun x => decide (t.comp (P.key x) k = 0)))
      (fun x hx => by
        have := List.of_mem_filter hx
        simpa using this)
    conv => lhs; rw [e1]
    rw [List.filter_append, List.filter_append, fA, fB, fC, List.append_nil]

/-- The outcome of `erase_multi(k)` on a well shaped sorted tree: with `c` the number of stored
values whose key compares equal to `k`, the returned number is `c` converted to `int`, and the
values removed are the first that many of the equal ones. -/
theorem erase_multi_spec (P : Params K V) (hB : 3 ≤ P.kNodeValues) (t : Btree K V) (k : K)
    (hc : LawfulComp t.comp) (hS : Shaped P t) (hs : Sorted P t) :
    (erase_multi P t k).2
        = to_int ((t.inorder.filter (fun x => decide (t.comp (P.key x) k = 0))).length : Int)
      ∧ (erase_multi P t k).1.comp = t.comp
      ∧ Shaped P (erase_multi P t k).1
      ∧ (erase_multi P t k).1.inorder
          = t.inorder.takeWhile (fun x => decide (t.comp (P.key x) k < 0))
            ++ ((t.inorder.filter (fun x => decide (t.comp (P.key x) k = 0))).drop
                (to_int ((t.inorder.filter
                  (fun x => decide (t.comp (P.key x) k = 0))).length : Int)).toNat
              ++ t.inorder.dropWhile (fun x => decide (¬ t.comp (P.key x) k > 0)))
      ∧ erase_multi P t k
          = (erase_n P (to_int ((t.inorder.filter
                (fun x => decide (t.comp (P.key x) k = 0))).length : Int)).toNat t
              (lower_bound P t k),
            to_int ((t.inorder.filter (fun x => decide (t.comp (P.key x) k = 0))).length : Int))
        := by
  have hl := lower_bound_iterTo P t k hc hS hs
  have hu := upper_bound_iterTo P t k hc hS hs
  obtain ⟨k1, k2, k3⟩ := key_stretches P t k hc hs
  rw [equal_segment P t k hc hs] at hu
  rw [k2] at hl
  cases hb : (internal_lower_bound P t k t.root_iter).node.isSome with
  | true =>
    have e : erase_multi P t k = erase_range P t (lower_bound P t k) (upper_bound P t k) := by
      simp only [erase_multi, hb, if_true, lower_bound, upper_bound, internal_end]
    rw [e]
    obtain ⟨a1, a2, a3, a4⟩ := erase_range_spec P hB t hS _ _ _ _ _ hl hu
    exact ⟨a1, a2, a3, a4, erase_range_unfold P t hS _ _ _ _ _ hl hu⟩
  | false =>
    have e : erase_multi P t k = (t, 0) := by
      simp only [erase_multi, hb]
      rfl
    have hend : lower_bound P t k = t.end_ := by
      simp only [lower_bound, internal_end, hb]
      rfl
    rw [hend] at hl
    obtain ⟨c1, c2⟩ := iterTo_functional P t hS _ _ _ _ _ hl (iterTo_end t)
    have hnil : t.inorder.filter (fun x => decide (t.comp (P.key x) k = 0)) = [] :=
      (List.append_eq_nil.mp c2).1
    have h0 : to_int ((0 : Nat) : Int) = 0 := by decide
    rw [e, hnil, List.length_nil, h0]
    refine ⟨rfl, rfl, hS, ?_, rfl⟩
    show t.inorder = _
    rw [(List.append_eq_nil.mp c2).2, List.drop_nil, List.append_nil, List.append_nil]
    exact c1.symm

/-- The values left by `erase_multi(k)` are values of the tree, in their old order. -/
theorem erase_multi_sublist (P : Params K V) (hB : 3 ≤ P.kNodeValues) (t : Btree K V) (k : K)
    (hc : LawfulComp t.comp) (hS : Shaped P t) (hs : Sorted P t) :
    (erase_multi P t k).1.inorder.Sublist t.inorder := by
  obtain ⟨_, _, _, a4, _⟩ := erase_multi_spec P hB t k hc hS hs
  obtain ⟨k1, _, _⟩ := key_stretches P t k hc hs
  rw [a4]
  conv => rhs; rw [k1, List.append_assoc]
  exact List.Sublist.append (List.Sublist.refl _)
    (List.Sublist.append (List.drop_sublist _ _) (List.Sublist.refl _))

/-- The outcome of `erase_multi(k)` when fewer than `2^31` stored values have a key equal to
`k`: their number is returned and exactly they are removed. -/
theorem erase_multi_small (P : Params K V) (hB : 3 ≤ P.kNodeValues) (t : Btree K V) (k : K)
    (hc : LawfulComp t.comp) (hS : Shaped P t) (hs : Sorted P t)
    (hsmall : (t.inorder.filter (fun x => decide (t.comp (P.key x) k = 0))).length
      < 2147483648) :
    (erase_multi P t k).2
        = ((t.inorder.filter (fun x => decide (t.comp (P.key x) k = 0))).length : Int)
      ∧ (erase_multi P t k).1.inorder
          = t.inorder.filter (fun x => decide (t.comp (P.key x) k ≠ 0)) := by
  obtain ⟨a1, _, _, a4, _⟩ := erase_multi_spec P hB t k hc hS hs
  obtain ⟨_, _, k3⟩ := key_stretches P t k hc hs
  have hi := to_int_of_lt _ hsmall
  rw [hi] at a1 a4
  refine ⟨a1, ?_⟩
  rw [a4, k3, Int.toNat_ofNat, List.drop_length, List.nil_append]

/-- The outcome of `erase_multi(k)` when the number of stored values with a key equal to `k`
is from `2^31` up to `2^32 - 1`: the returned number is negative and nothing is erased. -/
theorem erase_multi_wrap (P : Params K V) (hB : 3 ≤ P.kNodeValues) (t : Btree K V) (k : K)
    (hc : LawfulComp t.comp) (hS : Shaped P t) (hs : Sorted P t)
    (h1 : 2147483648 ≤ (t.inorder.filter (fun x => decide (t.comp (P.key x) k = 0))).length)
    (h2 : (t.inorder.filter (fun x => decide (t.comp (P.key x) k = 0))).length < 4294967296) :
    erase_multi P t k
      = (t, ((t.inorder.filter (fun x => decide (t.comp (P.key x) k = 0))).length : Int)
          - 4294967296) := by
  obtain ⟨_, _, _, _, a5⟩ := erase_multi_spec P hB t k hc hS hs
  obtain ⟨w1, w2⟩ := to_int_wrap _ h1 h2
  rw [a5, w2, w1]
  rfl

/-- Storing `n` values with the key of `v` by `insert_multi`: the tree stays well shaped and
sorted, the values of that key grow by `n`, and the other values are kept. -/
theorem insert_copies_spec (P : Params K V) (hB : 3 ≤ P.kNodeValues) (v : V) (n : Nat) :
    ∀ (t : Btree K V), LawfulComp t.comp → Shaped P t → Sorted P t →
      (Nat.iterate (fun s => (insert_multi P s v).1) n t).comp = t.comp
        ∧ Shaped P (Nat.iterate (fun s => (insert_multi P s v).1) n t)
        ∧ Sorted P (Nat.iterate (fun s => (insert_multi P s v).1) n t)
        ∧ ((Nat.iterate (fun s => (insert_multi P s v).1) n t).inorder.filter
              (fun x => decide (t.comp (P.key x) (P.key v) = 0))).length
            = n + (t.inorder.filter (fun x => decide (t.comp (P.key x) (P.key v) = 0))).length
        ∧ (Nat.iterate (fun s => (insert_multi P s v).1) n t).inorder.filter
              (fun x => decide (t.comp (P.key x) (P.key v) ≠ 0))
            = t.inorder.filter (fun x => decide (t.comp (P.key x) (P.key v) ≠ 0))
        ∧ (Nat.iterate (fun s => (insert_multi P s v).1) n t).inorder.length
            = n + t.inorder.length := by
  induction n with
  | zero =>
    intro t hc hS hs
    refine ⟨rfl, hS, hs, ?_, rfl, ?_⟩
    · rw [Function.iterate_zero, id, Nat.zero_add]
    · rw [Function.iterate_zero, id, Nat.zero_add]
  | succ n ih =>
    intro t hc hS hs
    obtain ⟨b1, b2, b3⟩ := insert_multi_sorted P t v hB hc hS hs
    obtain ⟨_, _, c3, _⟩ := insert_multi_key_spec P t (P.key v) v hB hc hS hs
    have c3' : (insert_multi P t v).1.inorder
        = t.inorder.takeWhile (fun x => decide (¬ t.comp (P.key x) (P.key v) > 0))
          ++ v :: t.inorder.dropWhile (fun x => decide (¬ t.comp (P.key x) (P.key v) > 0)) := c3
    have hsplit := List.takeWhile_append_dropWhile
      (fun x => decide (¬ t.comp (P.key x) (P.key v) > 0)) t.inorder
    obtain ⟨d0, d1, d2, d3, d4, d5⟩ := ih (insert_multi P t v).1 (by rw [b1]; exact hc) b2 b3
    rw [Function.iterate_succ_apply]
    rw [b1, c3'] at d3 d4
    rw [c3'] at d5
    have hv0 := hc.self_eq_zero (P.key v)
    refine ⟨by rw [d0, b1], d1, d2, ?_, ?_, ?_⟩
    · rw [d3, List.filter_append, List.filter_cons]
      conv => rhs; rw [← hsplit, List.filter_append]
      simp [hv0]
      omega
    · rw [d4, List.filter_append, List.filter_cons]
      conv => rhs; rw [← hsplit, List.filter_append]
      simp [hv0]
    · rw [d5, List.length_append, List.length_cons]
      conv => rhs; rw [← hsplit, List.length_append]
      omega

/-- Storing `n` values with the key of `v` by `insert_multi` and erasing that key again, when
fewer than `2^31` values of that key are stored then. -/
theorem insert_copies_erase_multi (P : Params K V) (hB : 3 ≤ P.kNodeValues) (v : V) (n : Nat)
    (t : Btree K V) (hc : LawfulComp t.comp) (hS : Shaped P t) (hs : Sorted P t)
    (hsmall : n + (t.inorder.filter (fun x => decide (t.comp (P.key x) (P.key v) = 0))).length
      < 2147483648) :
    (erase_multi P (Nat.iterate (fun s => (insert_multi P s v).1) n t) (P.key v)).2
        = ((n + (t.inorder.filter
            (fun x => decide (t.comp (P.key x) (P.key v) = 0))).length : Nat) : Int)
      ∧ (erase_multi P (Nat.iterate (fun s => (insert_multi P s v).1) n t) (P.key v)).1.inorder
        = t.inorder.filter (fun x => decide (t.comp (P.key x) (P.key v) ≠ 0)) := by
  obtain ⟨d0, d1, d2, d3, d4, _⟩ := insert_copies_spec P hB v n t hc hS hs
  have hc2 : LawfulComp (Nat.iterate (fun s => (insert_multi P s v).1) n t).comp := by
    rw [d0]; exact hc
  have h := erase_multi_small P hB _ (P.key v) hc2 d1 d2 (by rw [d0, d3]; exact hsmall)
  rw [d0, d3, d4] at h
  exact h

end EraseMulti

end Btree

end CppBtree

namespace CppBtree

variable {K V : Type}

namespace Btree

/-- C12: `erase_multi(k)` returns the `int` that `erase(begin, end)` returns for the range of
the values whose key compares equal to `k`. In a well-shaped multi tree (non-decreasing
in-order sequence, lawful comparator, node capacity at least 3) with `c` stored values of key
`k`, `erase_multi(k)` returns `c` converted to `int`, and the tree stays well shaped and
sorted. For `c < 2^31` this is the claim: `c` is returned and the old in-order sequence is left
with exactly those values removed and every other value kept in place; in particular, when no
stored key equals `k`, storing `n < 2^31` values of key `k` with `insert_multi` and calling
`erase_multi(k)` returns `n` and restores the previous sequence; and four insertions of 5 into
the empty tree with node capacity 3 give the sequence 5, 5, 5, 5 with `count_multi(5) = 4`,
after which `erase_multi(5)` returns 4 and leaves the empty tree. For `2^31 ≤ c < 2^32` the
code departs from the claim: the negative number `c - 2^32` is returned and the tree is left
as it was. -/
theorem erase_multi_correct [Inhabited V] (P : Params K V) (t : Btree K V) (k : K)
    (hB : 3 ≤ P.kNodeValues) (hc : LawfulComp t.comp) (hS : Shaped P t) (hs : Sorted P t) :
    (erase_multi P t k).2
        = to_int ((t.inorder.filter (fun x => decide (t.comp (P.key x) k = 0))).length : Int)
      ∧ Shaped P (erase_multi P t k).1 ∧ Sorted P (erase_multi P t k).1
      ∧ ((t.inorder.filter (fun x => decide (t.comp (P.key x) k = 0))).length < 2147483648 →
          (erase_multi P t k).2
              = ((t.inorder.filter (fun x => decide (t.comp (P.key x) k = 0))).length : Int)
            ∧ (erase_multi P t k).1.inorder
              = t.inorder.filter (fun x => decide (t.comp (P.key x) k ≠ 0)))
      ∧ (2147483648 ≤ (t.inorder.filter (fun x => decide (t.comp (P.key x) k = 0))).length →
          (t.inorder.filter (fun x => decide (t.comp (P.key x) k = 0))).length < 4294967296 →
          erase_multi P t k
            = (t, ((t.inorder.filter (fun x => decide (t.comp (P.key x) k = 0))).length : Int)
                - 4294967296))
      ∧ (∀ (v : V) (n : Nat), P.key v = k → (∀ x ∈ t.inorder, t.comp (P.key x) k ≠ 0) →
          n < 2147483648 →
          (erase_multi P (Nat.iterate (fun s => (insert_multi P s v).1) n t) k).2 = (n : Int)
            ∧ (erase_multi P (Nat.iterate (fun s => (insert_multi P s v).1) n t) k).1.inorder
              = t.inorder)
      ∧ ((Nat.iterate (fun s => (insert_multi Example.params s 5).1) 4
            (Btree.new Example.int_compare)).inorder = [5, 5, 5, 5]
          ∧ count_multi Example.params (Nat.iterate
              (fun s => (insert_multi Example.params s 5).1) 4
              (Btree.new Example.int_compare)) 5 = 4
          ∧ (erase_multi Example.params (Nat.iterate
              (fun s => (insert_multi Example.params s 5).1) 4
              (Btree.new Example.int_compare)) 5).2 = 4
          ∧ (erase_multi Example.params (Nat.iterate
              (fun s => (insert_multi Example.params s 5).1) 4
              (Btree.new Example.int_compare)) 5).1.empty = true) := by
  obtain ⟨a1, a2, a3, _, _⟩ := erase_multi_spec P hB t k hc hS hs
  refine ⟨a1, a3, ?_, erase_multi_small P hB t k hc hS hs,
    erase_multi_wrap P hB t k hc hS hs, ?_, by decide, by decide, by decide, by decide⟩
  · unfold Sorted
    rw [a2]
    exact List.Pairwise.sublist (erase_multi_sublist P hB t k hc hS hs) hs
  · intro v n hk hnone hn
    subst hk
    have f0 : t.inorder.filter (fun x => decide (t.comp (P.key x) (P.key v) = 0)) = [] :=
      filter_all_false _ _ (fun x hx => by simpa using hnone x hx)
    have f1 : t.inorder.filter (fun x => decide (t.comp (P.key x) (P.key v) ≠ 0)) = t.inorder :=
      filter_all_true _ _ (fun x hx => by simpa using hnone x hx)
    obtain ⟨b1, b2⟩ := insert_copies_erase_multi P hB v n t hc hS hs
      (by rw [f0, List.length_nil]; omega)
    rw [f0] at b1
    rw [f1] at b2
    exact ⟨by simpa using b1, b2⟩

theorem erase_multi_correct_witness :
    3 ≤ Example.params.kNodeValues ∧ LawfulComp Example.multi_tree.comp
      ∧ Shaped Example.params Example.multi_tree ∧ Sorted Example.params Example.multi_tree
      ∧ (erase_multi Example.params Example.multi_tree 20).2
          = ((Example.multi_tree.inorder.filter
              (fun x => decide (Example.multi_tree.comp (Example.params.key x) 20 = 0))).length
              : Int)
      ∧ (erase_multi Example.params Example.multi_tree 20).1.inorder
          = Example.multi_tree.inorder.filter
              (fun x => decide (Example.multi_tree.comp (Example.params.key x) 20 ≠ 0)) :=
  ⟨by decide, Example.int_compare_lawful, by decide, by decide,
    (erase_multi_correct Example.params Example.multi_tree 20 (by decide)
      Example.int_compare_lawful (by decide) (by decide)).2.2.2.1 (by decide)⟩

end Btree

end CppBtree

namespace CppBtree

variable {K V : Type}

namespace Btree

/-- C19: in a well-shaped unique tree (strictly increasing in-order sequence, lawful
comparator, node capacity at least 3) that holds no key equal to the key of `v`,
`insert_unique(v)` stores `v`, and `erase_unique` of that key then removes one value and
returns the tree to its prior contents: the in-order sequence, `size()` and the comparator are
those of the tree before the insertion, and the tree is again well shaped and strictly
increasing. (The node layout may differ from the prior one; iterators are invalidated.) -/
theorem insert_erase_unique_roundtrip [Inhabited V] (P : Params K V) (t : Btree K V) (v : V)
    (hB : 3 ≤ P.kNodeValues) (hc : LawfulComp t.comp) (hS : Shaped P t)
    (hs : StrictSorted P t) (hnone : ∀ x ∈ t.inorder, t.comp (P.key x) (P.key v) ≠ 0) :
    (insert_unique P t v).2.2 = true
      ∧ (erase_unique P (insert_unique P t v).1 (P.key v)).2 = 1
      ∧ (erase_unique P (insert_unique P t v).1 (P.key v)).1.inorder = t.inorder
      ∧ (erase_unique P (insert_unique P t v).1 (P.key v)).1.size = t.size
      ∧ (erase_unique P (insert_unique P t v).1 (P.key v)).1.comp = t.comp
      ∧ Shaped P (erase_unique P (insert_unique P t v).1 (P.key v)).1
      ∧ StrictSorted P (erase_unique P (insert_unique P t v).1 (P.key v)).1 := by
  obtain ⟨i1, i2, i3⟩ := insert_unique_strict P t v hB hc hS hs
  have hc1 : LawfulComp (insert_unique P t v).1.comp := by rw [i1]; exact hc
  have hins := insert_unique_key_spec P t (P.key v) v hB hc hS (sorted_of_strict P t hc hs)
  have hsplit := List.takeWhile_append_dropWhile
    (fun x => decide (t.comp (P.key x) (P.key v) < 0)) t.inorder
  rcases hins with ⟨_, _, h3, h4⟩ | ⟨h1, _, _, _, h5, _⟩
  · exact absurd h4 (hnone _ (pointsAt_mem P t _ hS h3))
  · have h5' : (insert_unique P t v).1.inorder
        = t.inorder.takeWhile (fun x => decide (t.comp (P.key x) (P.key v) < 0))
          ++ v :: t.inorder.dropWhile (fun x => decide (t.comp (P.key x) (P.key v) < 0)) := h5
    have hv0 := hc.self_eq_zero (P.key v)
    rcases erase_unique_spec P hB (insert_unique P t v).1 (P.key v) hc1 i2
        (sorted_of_strict P _ hc1 i3) with ⟨e1, e2, e3, l1, x, l2, a1, a2, a3⟩ | ⟨_, _, e3⟩
    · have hs1 := i3
      unfold StrictSorted at hs1
      rw [a1] at hs1
      have hu := strict_unique_key P.key _ hc1 l1 l2 x (P.key v) hs1 a2
      rw [i1] at hu a2
      have hio : l1 ++ l2 = t.inorder := by
        have f1 : (l1 ++ x :: l2).filter (fun y => decide (t.comp (P.key y) (P.key v) ≠ 0))
            = l1 ++ l2 := by
          rw [List.filter_append, List.filter_cons]
          simp only [a2, ne_eq, not_true_eq_false, decide_False, Bool.false_eq_true, if_false]
          rw [← List.filter_append]
          exact filter_all_true _ _ (fun y hy => by simpa using hu y hy)
        have f2 : (t.inorder.takeWhile (fun x => decide (t.comp (P.key x) (P.key v) < 0))
            ++ v :: t.inorder.dropWhile (fun x => decide (t.comp (P.key x) (P.key v) < 0))).filter
              (fun y => decide (t.comp (P.key y) (P.key v) ≠ 0)) = t.inorder := by
          rw [List.filter_append, List.filter_cons]
          simp only [hv0, ne_eq, not_true_eq_false, decide_False, Bool.false_eq_true, if_false]
          rw [← List.filter_append, hsplit]
          exact filter_all_true _ _ (fun y hy => by simpa using hnone y hy)
        rw [← f1, ← a1, h5', f2]
      have hio2 : (erase_unique P (insert_unique P t v).1 (P.key v)).1.inorder = t.inorder := by
        rw [a3, hio]
      refine ⟨h1, e1, hio2, ?_, by rw [e2, i1], e3, ?_⟩
      · rw [size_eq_length P _ e3, size_eq_length P t hS, hio2]
      · unfold StrictSorted
        rw [hio2, e2, i1]
        exact hs
    · exact absurd (by rw [i1]; exact hv0) (e3 v (by rw [h5']; simp))

theorem insert_erase_unique_roundtrip_witness :
    3 ≤ Example.params.kNodeValues ∧ LawfulComp Example.tree.comp
      ∧ Shaped Example.params Example.tree ∧ StrictSorted Example.params Example.tree
      ∧ (∀ x ∈ Example.tree.inorder,
          Example.tree.comp (Example.params.key x) (Example.params.key 25) ≠ 0)
      ∧ ((insert_unique Example.params Example.tree 25).2.2 = true
        ∧ (erase_unique Example.params (insert_unique Example.params Example.tree 25).1
            (Example.params.key 25)).2 = 1
        ∧ (erase_unique Example.params (insert_unique Example.params Example.tree 25).1
            (Example.params.key 25)).1.inorder = Example.tree.inorder
        ∧ (erase_unique Example.params (insert_unique Example.params Example.tree 25).1
            (Example.params.key 25)).1.size = Example.tree.size
        ∧ (erase_unique Example.params (insert_unique Example.params Example.tree 25).1
            (Example.params.key 25)).1.comp = Example.tree.comp
        ∧ Shaped Example.params (erase_unique Example.params
            (insert_unique Example.params Example.tree 25).1 (Example.params.key 25)).1
        ∧ StrictSorted Example.params (erase_unique Example.params
            (insert_unique Example.params Example.tree 25).1 (Example.params.key 25)).1) :=
  ⟨by decide, Example.int_compare_lawful, by decide, by decide, by decide,
    insert_erase_unique_roundtrip Example.params Example.tree 25 (by decide)
      Example.int_compare_lawful (by decide) (by decide) (by decide)⟩

end Btree

end CppBtree

namespace CppBtree

variable {K V : Type}

theorem append_singleton_inj {α : Type} (a b : List α) (x y : α) (h : a ++ [x] = b ++ [y]) :
    a = b ∧ x = y := by
  have h1 := List.append_inj' h rfl
  exact ⟨h1.1, by simpa using h1.2⟩

namespace Btree

section Decrement

variable [Inhabited V]

/-- Stepping back within a leaf. -/
theorem leaf_step_back (t : Btree K V) (r : Node V) (ht : t.root = some r) (rp : List Nat)
    (p : Nat) (hp : 1 ≤ p) (hl : (getNode r rp).leaf = true) (l1 l2 : List V) (x : V)
    (hsp : Splits t ⟨some rp, ((p : Nat) : Int)⟩ (l1 ++ [x]) l2) :
    PointsAt t ⟨some rp, ((p : Nat) : Int) - 1⟩ ∧ Splits t ⟨some rp, ((p : Nat) : Int) - 1⟩ l1 (x :: l2)
      ∧ t.deref ⟨some rp, ((p : Nat) : Int) - 1⟩ = x := by
  have hr := root_node_of_root t r ht
  obtain ⟨hv, _, s2, s3, s4⟩ := (splits_iff t r ht _ _ _ _).mp hsp
  simp only [Int.toNat_ofNat] at s3 s4
  rw [Node.pre_part_leaf_node _ hl, Node.mid_part_leaf_node _ hl, List.append_nil] at s3
  rw [Node.post_part_leaf_node _ hl] at s4
  have hlen : (getNode r rp).values.length = (getNode r rp).count := rfl
  have hd := drop_getD (getNode r rp).values (p - 1) default (by omega)
  have e1 : p - 1 + 1 = p := by omega
  rw [e1] at hd
  have ht2 := (take_succ_of_drop _ _ _ _ hd).1
  rw [e1] at ht2
  rw [ht2, ← List.append_assoc] at s3
  obtain ⟨a1, a2⟩ := append_singleton_inj _ _ _ _ s3
  have et : (((p : Nat) : Int) - 1).toNat = p - 1 := by omega
  refine ⟨(pointsAt_iff t r ht _ _).mpr ⟨hv, by omega, by omega⟩,
    (splits_iff t r ht _ _ _ _).mpr ⟨hv, by omega, by omega, ?_, ?_⟩, ?_⟩
  · rw [et, Node.pre_part_leaf_node _ hl, Node.mid_part_leaf_node _ hl, List.append_nil, a1]
  · rw [et, Node.post_part_leaf_node _ hl, hd, a2, ← s4]
    rfl
  · simp only [deref, Iter.path, Option.getD_some, node, hr, et, Node.value]
    exact a2

/-- The climbing loop of the predecessor, started below a node whose subtree begins right
after `x`. -/
theorem decrement_climb_spec (B H : Nat) (t : Btree K V) (r : Node V) (ht : t.root = some r)
    (hw : Node.wf_root B H r = true) (save : Iter) (l1 l2 : List V) (x : V) :
    ∀ q, ValidPath r q → pre r q = l1 ++ [x] → (getNode r q).inorder ++ post r q = l2 →
      PointsAt t (t.decrement_climb save q (-1))
        ∧ Splits t (t.decrement_climb save q (-1)) l1 (x :: l2)
        ∧ t.deref (t.decrement_climb save q (-1)) = x := by
  have hr := root_node_of_root t r ht
  intro q
  induction q with
  | nil =>
    intro _ h1 _
    simp [pre] at h1
  | cons j A ih =>
    intro hv h1 h2
    obtain ⟨hvA, hj⟩ := hv
    obtain ⟨_, _, f2, _, _, _⟩ := node_facts B H r A hw hvA
    have hl : (getNode r A).leaf = false := Node.leaf_false_of_lt _ _ hj
    have hshape : (getNode r A).children.length = (getNode r A).count + 1 := by
      have := f2
      rw [Node.eq_internal_of_not_leaf _ hl] at this
      simpa [Node.shape_ok] using this
    have e0 : t.decrement_climb save (j :: A) (-1) = t.decrement_climb save A ((j : Int) - 1) := by
      simp [decrement_climb]
    rw [e0]
    cases j with
    | zero =>
      have e1 : (((0 : Nat) : Int) - 1) = -1 := by simp
      rw [e1]
      apply ih hvA
      · rw [← h1]
        simp [pre, Node.pre_child_zero]
      · rw [← h2, Node.inorder_split _ 0 hl hshape (by omega), Node.pre_child_zero]
        simp [post, getNode]
    | succ j =>
      have e1 : t.decrement_climb save A (((j + 1 : Nat) : Int) - 1) = ⟨some A, ((j : Nat) : Int)⟩ := by
        have e2 : (((j + 1 : Nat) : Int) - 1) = ((j : Nat) : Int) := by omega
        rw [e2]
        cases A with
        | nil => simp [decrement_climb]
        | cons i rp =>
          simp only [decrement_climb]
          rw [if_neg (by omega)]
      rw [e1]
      have hjc : j < (getNode r A).count := by omega
      simp only [pre] at h1
      rw [Node.pre_child_succ _ j hl hshape hjc, ← List.append_assoc, ← List.append_assoc] at h1
      obtain ⟨a1, a2⟩ := append_singleton_inj _ _ _ _ h1
      refine ⟨(pointsAt_iff t r ht _ _).mpr ⟨hvA, by omega, by omega⟩,
        (splits_iff t r ht _ _ _ _).mpr ⟨hvA, by omega, by omega, ?_, ?_⟩, ?_⟩
      · simp only [Int.toNat_ofNat]
        rw [Node.pre_mid_internal _ _ hl, ← a1, List.append_assoc]
      · simp only [Int.toNat_ofNat]
        rw [Node.post_part_internal _ hl, Node.post_child_step _ j hl hshape hjc, a2, ← h2]
        simp [post, getNode]
      · simp only [deref, Iter.path, Option.getD_some, node, hr, Int.toNat_ofNat]
        exact a2

/-- The predecessor of an iterator that has the value `x` right before it designates `x`. -/
theorem decrement_spec (P : Params K V) (t : Btree K V) (hS : Shaped P t) (it : Iter)
    (l1 l2 : List V) (x : V) (hsp : Splits t it (l1 ++ [x]) l2) :
    PointsAt t (t.decrement it) ∧ Splits t (t.decrement it) l1 (x :: l2)
      ∧ t.deref (t.decrement it) = x := by
  obtain ⟨rp, h1, h2, h3, h4, h5, _⟩ := id hsp
  obtain ⟨r, ht⟩ := Option.isSome_iff_exists.mp h2
  have hr := root_node_of_root t r ht
  have hw : Node.wf_root P.kNodeValues (r.height - 1) r = true := by
    have := hS
    simp only [Shaped, ht] at this
    exact this.1
  obtain ⟨node, pos⟩ := it
  simp only at h1 h4 h5
  subst h1
  rw [hr] at h3
  simp only [node, hr] at h5
  cases hl : (getNode r rp).leaf with
  | false =>
    obtain ⟨b1, b2⟩ := splits_rightmost_below P t hS rp pos _ _ hsp (by simp [node, hr, hl])
    have hd : t.decrement ⟨some rp, pos⟩
        = ⟨some (t.rightmost_from t.height (pos.toNat :: rp)),
            (((t.node (t.rightmost_from t.height (pos.toNat :: rp))).count : Nat) : Int) - 1⟩ := by
      simp [decrement, Iter.path, node, hr, hl]
    rw [hd]
    simp only [node, hr] at b1 b2 ⊢
    obtain ⟨hv2, _⟩ := (splits_iff t r ht _ _ _ _).mp b2
    exact leaf_step_back t r ht _ _ (count_pos_of_wf_root _ _ r _ hw hv2) b1 l1 l2 x b2
  | true =>
    by_cases hp : 1 ≤ pos
    · have hd : t.decrement ⟨some rp, pos⟩ = ⟨some rp, pos - 1⟩ := by
        simp only [decrement, Iter.path, Option.getD_some, node, hr, hl, if_true]
        rw [if_pos (by omega)]
      rw [hd]
      have e : pos = ((pos.toNat : Nat) : Int) := (Int.toNat_of_nonneg h4).symm
      rw [e] at hsp ⊢
      exact leaf_step_back t r ht rp pos.toNat (by omega) hl l1 l2 x hsp
    · have hp0 : pos = 0 := by omega
      subst hp0
      have hd : t.decrement ⟨some rp, 0⟩ = t.decrement_climb ⟨some rp, -1⟩ rp (-1) := by
        simp [decrement, Iter.path, node, hr, hl]
      rw [hd]
      obtain ⟨_, _, _, s3, s4⟩ := (splits_iff t r ht _ _ _ _).mp hsp
      rw [Node.pre_part_leaf_node _ hl, Node.mid_part_leaf_node _ hl] at s3
      rw [Node.post_part_leaf_node _ hl] at s4
      simp only [Int.toNat_zero, List.take_zero, List.append_nil, List.drop_zero] at s3 s4
      apply decrement_climb_spec P.kNodeValues _ t r ht hw _ l1 l2 x rp h3 s3
      rw [Node.eq_leaf_of_leaf _ P.kNodeValues hl]
      simpa using s4

end Decrement

end Btree

end CppBtree

namespace CppBtree

variable {K V : Type}

namespace Btree

section Hint

variable [Inhabited V]

/-- A value not below `v` bounds everything after it from below. -/
theorem side_after (key : V → K) (comp : K → K → Int) (hc : LawfulComp comp) (v y : V)
    (l : List V) (hs : (y :: l).Pairwise (key_le key comp))
    (hy : ¬ comp (key y) (key v) < 0) : ∀ x ∈ y :: l, ¬ comp (key x) (key v) < 0 := by
  intro x hx hlt
  rcases List.mem_cons.mp hx with e | hm
  · rw [e] at hlt
    exact hy hlt
  · have h1 : key_le key comp y x := (List.pairwise_cons.mp hs).1 x hm
    exact hy (hc.lt_of_le_of_lt _ _ _ h1 hlt)

/-- A value not above `v` bounds everything before it from above. -/
theorem side_before (key : V → K) (comp : K → K → Int) (hc : LawfulComp comp) (v y : V)
    (l : List V) (hs : (l ++ [y]).Pairwise (key_le key comp))
    (hy : ¬ comp (key v) (key y) < 0) : ∀ x ∈ l ++ [y], ¬ comp (key x) (key v) > 0 := by
  intro x hx hgt
  have hyv : comp (key y) (key v) ≤ 0 := by
    by_contra h
    exact hy ((hc.swap_lt _ _).mpr (by omega))
  rcases List.mem_append.mp hx with hm | hm
  · have h1 : key_le key comp x y := (List.pairwise_append.mp hs).2.2 x hm y (by simp)
    have hxy : comp (key x) (key y) ≤ 0 := by
      by_contra h
      exact h1 ((hc.swap_lt _ _).mpr (by omega))
    have := hc.le_trans _ _ _ hxy hyv
    omega
  · simp only [List.mem_singleton] at hm
    rw [hm] at hgt
    omega

/-- A value strictly above `v` in a strictly increasing sequence: so is everything after. -/
theorem strict_after (key : V → K) (comp : K → K → Int) (hc : LawfulComp comp) (v y : V)
    (l : List V) (hs : (y :: l).Pairwise (key_lt key comp))
    (hy : comp (key v) (key y) < 0) : ∀ x ∈ y :: l, comp (key x) (key v) > 0 := by
  intro x hx
  rcases List.mem_cons.mp hx with e | hm
  · rw [e]
    exact (hc.swap_lt _ _).mp hy
  · have h1 : key_lt key comp y x := (List.pairwise_cons.mp hs).1 x hm
    have h2 : comp (key x) (key y) > 0 := (hc.swap_lt _ _).mp h1
    by_contra hn
    have := hc.le_trans (key x) (key v) (key y) (by omega) (by omega)
    omega

/-- A value strictly below `v` in a strictly increasing sequence: so is everything before. -/
theorem strict_before (key : V → K) (comp : K → K → Int) (hc : LawfulComp comp) (v y : V)
    (l : List V) (hs : (l ++ [y]).Pairwise (key_lt key comp))
    (hy : comp (key y) (key v) < 0) : ∀ x ∈ l ++ [y], comp (key x) (key v) < 0 := by
  intro x hx
  rcases List.mem_append.mp hx with hm | hm
  · have h1 : key_lt key comp x y := (List.pairwise_append.mp hs).2.2 x hm y (by simp)
    have h2 : ¬ comp (key y) (key x) < 0 := by
      intro h
      have := (hc.swap_lt _ _).mp h
      have : comp (key x) (key y) < 0 := h1
      omega
    exact hc.lt_of_le_of_lt _ _ _ h2 hy
  · simp only [List.mem_singleton] at hm
    rw [hm]
    exact hy

/-- An iterator that stands between `l1` and `l2` in a non-empty tree splits the sequence. -/
theorem iterTo_splits (P : Params K V) (t : Btree K V) (hS : Shaped P t)
    (hne : t.root.isSome = true) (it : Iter) (l1 l2 : List V) (h : IterTo t it l1 l2) :
    Splits t it l1 l2 := by
  rcases h with ⟨h1, h2, h3⟩ | ⟨_, h2, _⟩
  · obtain ⟨r, ht⟩ := Option.isSome_iff_exists.mp hne
    obtain ⟨_, _, _, _, e4⟩ := end_spec P t r ht hS
    rw [h1, h2, h3]
    exact e4
  · exact h2

/-- What the hint tests read: at `end()` nothing follows, elsewhere the designated value is
the first that follows. -/
theorem iterTo_head (P : Params K V) (t : Btree K V) (hS : Shaped P t) (it : Iter)
    (l1 l2 : List V) (h : IterTo t it l1 l2) :
    (it = t.end_ ∧ l2 = []) ∨ (it ≠ t.end_ ∧ PointsAt t it ∧ ∃ l3, l2 = t.deref it :: l3) := by
  rcases h with ⟨_, h2, h3⟩ | ⟨h1, _, h3⟩
  · exact Or.inl ⟨h3, h2⟩
  · right
    refine ⟨pointsAt_ne_end P t hS it h1, h1, ?_⟩
    cases l2 with
    | nil => simp at h3
    | cons y l3 =>
      simp only [List.head?_cons, Option.some.injEq] at h3
      exact ⟨l3, by rw [h3]⟩

/-- What the hint tests read before the iterator: at `begin()` nothing precedes, elsewhere
the predecessor designates the last value that precedes. -/
theorem iterTo_last (P : Params K V) (t : Btree K V) (hS : Shaped P t)
    (hne : t.root.isSome = true) (it : Iter)
    (l1 l2 : List V) (h : IterTo t it l1 l2) :
    (it = t.begin_ ∧ l1 = [])
      ∨ (it ≠ t.begin_ ∧ ∃ l0, l1 = l0 ++ [t.deref (t.decrement it)]) := by
  rcases List.eq_nil_or_concat l1 with e | ⟨l0, y, e⟩
  · left
    subst e
    have hb := iterTo_begin P t hS
    have hio := iterTo_inorder P t hS it _ _ h
    simp only [List.nil_append] at hio
    rw [hio] at hb
    exact ⟨iterTo_unique P t hS _ _ _ _ h hb, rfl⟩
  · right
    rw [List.concat_eq_append] at e
    subst e
    have hsp := iterTo_splits P t hS hne it _ _ h
    obtain ⟨_, _, d3⟩ := decrement_spec P t hS it l0 l2 y hsp
    refine ⟨?_, l0, by rw [d3]⟩
    intro hbeg
    rw [hbeg] at h
    have := (iterTo_functional P t hS _ _ _ _ _ h (iterTo_begin P t hS)).1
    simp at this

end Hint

end Btree

end CppBtree

namespace CppBtree

variable {K V : Type}

namespace Btree

section HintInsert

variable [Inhabited V]

/-- Storing `v` at a place where it keeps the sequence non-decreasing. -/
theorem insert_at_sorted (P : Params K V) (hB : 3 ≤ P.kNodeValues) (t : Btree K V)
    (hc : LawfulComp t.comp) (hS : Shaped P t) (hs : Sorted P t) (it : Iter) (l1 l2 : List V)
    (v : V) (hsp : Splits t it l1 l2)
    (h1 : ∀ x ∈ l1, ¬ t.comp (P.key x) (P.key v) > 0)
    (h2 : ∀ x ∈ l2, ¬ t.comp (P.key x) (P.key v) < 0) :
    Stored P t (internal_insert P t it v).1 v ∧ Sorted P (internal_insert P t it v).1 := by
  obtain ⟨a1, a2, a3, _⟩ := internal_insert_spec P t it v l1 l2 hB hS hsp
  have hio := splits_inorder P t it l1 l2 hS hsp
  exact ⟨⟨a1, a2, l1, l2, hio, a3⟩, sorted_insert P t _ v l1 l2 hc a1 hs hio a3 h1 h2⟩

/-- Storing `v` at a place where it keeps the sequence strictly increasing. -/
theorem insert_at_strict (P : Params K V) (hB : 3 ≤ P.kNodeValues) (t : Btree K V)
    (hc : LawfulComp t.comp) (hS : Shaped P t) (hs : StrictSorted P t) (it : Iter)
    (l1 l2 : List V) (v : V) (hsp : Splits t it l1 l2)
    (h1 : ∀ x ∈ l1, t.comp (P.key x) (P.key v) < 0)
    (h2 : ∀ x ∈ l2, t.comp (P.key x) (P.key v) > 0) :
    StrictSorted P (internal_insert P t it v).1 := by
  obtain ⟨a1, _, a3, _⟩ := internal_insert_spec P t it v l1 l2 hB hS hsp
  have hio := splits_inorder P t it l1 l2 hS hsp
  exact strictSorted_insert P t _ v l1 l2 hc a1 hs hio a3 h1 h2

/-- The outcome of the plain `insert_multi(v)`. -/
theorem insert_multi_stored (P : Params K V) (hB : 3 ≤ P.kNodeValues) (t : Btree K V)
    (hc : LawfulComp t.comp) (hS : Shaped P t) (hs : Sorted P t) (v : V) :
    Stored P t (insert_multi P t v).1 v ∧ Sorted P (insert_multi P t v).1 := by
  obtain ⟨b1, b2, b3⟩ := insert_multi_sorted P t v hB hc hS hs
  obtain ⟨_, _, c3, _⟩ := insert_multi_key_spec P t (P.key v) v hB hc hS hs
  exact ⟨⟨b1, b2, _, _, (List.takeWhile_append_dropWhile _ _).symm, c3⟩, b3⟩

/-- The outcome of the plain `insert_unique(v)`. -/
theorem insert_unique_stored (P : Params K V) (hB : 3 ≤ P.kNodeValues) (t : Btree K V)
    (hc : LawfulComp t.comp) (hS : Shaped P t) (hs : Sorted P t) (v : V) :
    (insert_unique P t v).1 = t
      ∨ (Stored P t (insert_unique P t v).1 v ∧ Sorted P (insert_unique P t v).1
          ∧ (StrictSorted P t → StrictSorted P (insert_unique P t v).1)) := by
  obtain ⟨b1, b2, b3⟩ := insert_unique_sorted P t v hB hc hS hs
  rcases insert_unique_key_spec P t (P.key v) v hB hc hS hs with ⟨_, h2, _⟩ | ⟨_, _, _, _, h5, _⟩
  · exact Or.inl h2
  · exact Or.inr ⟨⟨b1, b2, _, _, (List.takeWhile_append_dropWhile _ _).symm, h5⟩, b3,
      fun hst => (insert_unique_strict P t v hB hc hS hst).2.2⟩

/-- The outcome of `insert_multi(position, v)` for a valid hint. -/
theorem insert_multi_hint_spec (P : Params K V) (hB : 3 ≤ P.kNodeValues) (t : Btree K V)
    (hc : LawfulComp t.comp) (hS : Shaped P t) (hs : Sorted P t) (position : Iter)
    (l1 l2 : List V) (hpos : IterTo t position l1 l2) (v : V) :
    Stored P t (insert_multi_hint P t position v).1 v
      ∧ Sorted P (insert_multi_hint P t position v).1 := by
  have hfall := insert_multi_stored P hB t hc hS hs v
  unfold insert_multi_hint
  simp only []
  by_cases he : t.empty = true
  · rw [if_pos he]
    exact hfall
  rw [if_neg he]
  have hne : t.root.isSome = true := by
    simp only [empty] at he
    cases h : t.root <;> simp_all
  have hsp := iterTo_splits P t hS hne position l1 l2 hpos
  have hio := splits_inorder P t position l1 l2 hS hsp
  have hs' : (l1 ++ l2).Pairwise (key_le P.key t.comp) := by
    rw [← hio]
    exact hs
  have hhead := iterTo_head P t hS position l1 l2 hpos
  have hlast := iterTo_last P t hS hne position l1 l2 hpos
  by_cases c1 : position = t.end_ ∨ t.compare_keys (key_at P t position) (P.key v) = false
  · rw [if_pos c1]
    by_cases c2 : position = t.begin_
        ∨ t.compare_keys (P.key v) (key_at P t (t.decrement position)) = false
    · rw [if_pos c2]
      apply insert_at_sorted P hB t hc hS hs position l1 l2 v hsp
      · rcases hlast with ⟨_, e⟩ | ⟨hnb, l0, e⟩
        · rw [e]
          simp
        · rcases c2 with c2 | c2
          · exact absurd c2 hnb
          · rw [e]
            apply side_before P.key t.comp hc v _ l0
            · rw [e] at hs'
              exact (List.pairwise_append.mp hs').1
            · simpa [compare_keys, key_at] using c2
      · rcases hhead with ⟨_, e⟩ | ⟨hnend, _, l3, e⟩
        · rw [e]
          simp
        · rcases c1 with c1 | c1
          · exact absurd c1 hnend
          · rw [e]
            apply side_after P.key t.comp hc v _ l3
            · rw [e] at hs'
              exact (List.pairwise_append.mp hs').2.1
            · simpa [compare_keys, key_at] using c1
    · rw [if_neg c2]
      exact hfall
  · rw [if_neg c1]
    rcases hhead with ⟨e, _⟩ | ⟨_, hpa, l3, e⟩
    · exact absurd (Or.inl e) c1
    · have hlt : t.comp (P.key (t.deref position)) (P.key v) < 0 := by
        have : ¬ t.compare_keys (key_at P t position) (P.key v) = false := fun h => c1 (Or.inr h)
        simpa [compare_keys, key_at] using this
      rw [e] at hsp hs'
      have hnext := increment_spec P t hS position l1 l3 _ hpa hsp
      by_cases c3 : t.increment position = t.end_
          ∨ t.compare_keys (key_at P t (t.increment position)) (P.key v) = false
      · rw [if_pos c3]
        have hsp2 := iterTo_splits P t hS hne _ _ _ hnext
        apply insert_at_sorted P hB t hc hS hs _ _ _ v hsp2
        · apply side_before P.key t.comp hc v _ l1
          · have := hs'
            rw [show l1 ++ t.deref position :: l3 = (l1 ++ [t.deref position]) ++ l3 by simp]
              at this
            exact (List.pairwise_append.mp this).1
          · intro h
            have := (hc.swap_lt _ _).mp h
            omega
        · rcases iterTo_head P t hS _ _ _ hnext with ⟨_, e2⟩ | ⟨hnend, _, l4, e2⟩
          · rw [e2]
            simp
          · rcases c3 with c3 | c3
            · exact absurd c3 hnend
            · rw [e2]
              apply side_after P.key t.comp hc v _ l4
              · rw [e2] at hs'
                have := (List.pairwise_append.mp hs').2.1
                exact (List.pairwise_cons.mp this).2
              · simpa [compare_keys, key_at] using c3
      · rw [if_neg c3]
        exact hfall

end HintInsert

end Btree

end CppBtree

namespace CppBtree

variable {K V : Type}

namespace Btree

section HintInsertUnique

variable [Inhabited V]

/-- The outcome of `insert_unique(position, v)` for a valid hint. -/
theorem insert_unique_hint_spec (P : Params K V) (hB : 3 ≤ P.kNodeValues) (t : Btree K V)
    (hc : LawfulComp t.comp) (hS : Shaped P t) (hs : Sorted P t) (position : Iter)
    (l1 l2 : List V) (hpos : IterTo t position l1 l2) (v : V) :
    (insert_unique_hint P t position v).1 = t
      ∨ (Stored P t (insert_unique_hint P t position v).1 v
          ∧ Sorted P (insert_unique_hint P t position v).1
          ∧ (StrictSorted P t → StrictSorted P (insert_unique_hint P t position v).1)) := by
  have hfall := insert_unique_stored P hB t hc hS hs v
  unfold insert_unique_hint
  simp only []
  by_cases he : t.empty = true
  · rw [if_pos he]
    exact hfall
  rw [if_neg he]
  have hne : t.root.isSome = true := by
    simp only [empty] at he
    cases h : t.root <;> simp_all
  have hsp := iterTo_splits P t hS hne position l1 l2 hpos
  have hio := splits_inorder P t position l1 l2 hS hsp
  have hs' : (l1 ++ l2).Pairwise (key_le P.key t.comp) := by
    rw [← hio]
    exact hs
  have hhead := iterTo_head P t hS position l1 l2 hpos
  have hlast := iterTo_last P t hS hne position l1 l2 hpos
  by_cases c1 : position = t.end_ ∨ t.compare_keys (P.key v) (key_at P t position) = true
  · rw [if_pos c1]
    by_cases c2 : position = t.begin_
        ∨ t.compare_keys (key_at P t (t.decrement position)) (P.key v) = true
    · rw [if_pos c2]
      right
      have hbefore : l1 = [] ∨ ∃ l0, l1 = l0 ++ [t.deref (t.decrement position)]
          ∧ t.comp (P.key (t.deref (t.decrement position))) (P.key v) < 0 := by
        rcases hlast with ⟨_, e⟩ | ⟨hnb, l0, e⟩
        · exact Or.inl e
        · rcases c2 with c2 | c2
          · exact absurd c2 hnb
          · exact Or.inr ⟨l0, e, by simpa [compare_keys, key_at] using c2⟩
      have hafter : l2 = [] ∨ ∃ l3, l2 = t.deref position :: l3
          ∧ t.comp (P.key v) (P.key (t.deref position)) < 0 := by
        rcases hhead with ⟨_, e⟩ | ⟨hnend, _, l3, e⟩
        · exact Or.inl e
        · rcases c1 with c1 | c1
          · exact absurd c1 hnend
          · exact Or.inr ⟨l3, e, by simpa [compare_keys, key_at] using c1⟩
      have hA := insert_at_sorted P hB t hc hS hs position l1 l2 v hsp
        (by
          rcases hbefore with e | ⟨l0, e, hlt⟩
          · rw [e]
            simp
          · rw [e]
            apply side_before P.key t.comp hc v _ l0
            · rw [e] at hs'
              exact (List.pairwise_append.mp hs').1
            · intro h
              have := (hc.swap_lt _ _).mp h
              omega)
        (by
          rcases hafter with e | ⟨l3, e, hlt⟩
          · rw [e]
            simp
          · rw [e]
            apply side_after P.key t.comp hc v _ l3
            · rw [e] at hs'
              exact (List.pairwise_append.mp hs').2.1
            · intro h
              have := (hc.swap_lt _ _).mp hlt
              omega)
      refine ⟨hA.1, hA.2, fun hst => ?_⟩
      have hst' : (l1 ++ l2).Pairwise (key_lt P.key t.comp) := by
        rw [← hio]
        exact hst
      apply insert_at_strict P hB t hc hS hst position l1 l2 v hsp
      · rcases hbefore with e | ⟨l0, e, hlt⟩
        · rw [e]
          simp
        · rw [e]
          apply strict_before P.key t.comp hc v _ l0 _ hlt
          rw [e] at hst'
          exact (List.pairwise_append.mp hst').1
      · rcases hafter with e | ⟨l3, e, hlt⟩
        · rw [e]
          simp
        · rw [e]
          apply strict_after P.key t.comp hc v _ l3 _ hlt
          rw [e] at hst'
          exact (List.pairwise_append.mp hst').2.1
    · rw [if_neg c2]
      exact hfall
  · rw [if_neg c1]
    by_cases c4 : t.compare_keys (key_at P t position) (P.key v) = true
    · rw [if_pos c4]
      rcases hhead with ⟨e, _⟩ | ⟨_, hpa, l3, e⟩
      · exact absurd (Or.inl e) c1
      · have hlt : t.comp (P.key (t.deref position)) (P.key v) < 0 := by
          simpa [compare_keys, key_at] using c4
        rw [e] at hsp hs' hio
        have hnext := increment_spec P t hS position l1 l3 _ hpa hsp
        by_cases c3 : t.increment position = t.end_
            ∨ t.compare_keys (P.key v) (key_at P t (t.increment position)) = true
        · rw [if_pos c3]
          right
          have hsp2 := iterTo_splits P t hS hne _ _ _ hnext
          have hafter : l3 = [] ∨ ∃ l4, l3 = t.deref (t.increment position) :: l4
              ∧ t.comp (P.key v) (P.key (t.deref (t.increment position))) < 0 := by
            rcases iterTo_head P t hS _ _ _ hnext with ⟨_, e2⟩ | ⟨hnend, _, l4, e2⟩
            · exact Or.inl e2
            · rcases c3 with c3 | c3
              · exact absurd c3 hnend
              · exact Or.inr ⟨l4, e2, by simpa [compare_keys, key_at] using c3⟩
          have e3 : l1 ++ t.deref position :: l3 = (l1 ++ [t.deref position]) ++ l3 := by simp
          rw [e3] at hs' hio
          have hA := insert_at_sorted P hB t hc hS hs _ _ _ v hsp2
            (by
              apply side_before P.key t.comp hc v _ l1
              · exact (List.pairwise_append.mp hs').1
              · intro h
                have := (hc.swap_lt _ _).mp h
                omega)
            (by
              rcases hafter with e2 | ⟨l4, e2, hlt2⟩
              · rw [e2]
                simp
              · rw [e2]
                apply side_after P.key t.comp hc v _ l4
                · rw [e2] at hs'
                  exact (List.pairwise_append.mp hs').2.1
                · intro h
                  have := (hc.swap_lt _ _).mp hlt2
                  omega)
          refine ⟨hA.1, hA.2, fun hst => ?_⟩
          have hst' : ((l1 ++ [t.deref position]) ++ l3).Pairwise (key_lt P.key t.comp) := by
            rw [← hio]
            exact hst
          apply insert_at_strict P hB t hc hS hst _ _ _ v hsp2
          · exact strict_before P.key t.comp hc v _ l1 (List.pairwise_append.mp hst').1 hlt
          · rcases hafter with e2 | ⟨l4, e2, hlt2⟩
            · rw [e2]
              simp
            · rw [e2]
              apply strict_after P.key t.comp hc v _ l4 _ hlt2
              rw [e2] at hst'
              exact (List.pairwise_append.mp hst').2.1
        · rw [if_neg c3]
          exact hfall
    · rw [if_neg c4]
      exact Or.inl rfl

/-- The outcome of `insert_unique(b, e)`: the range is inserted value by value. -/
theorem insert_unique_range_spec (P : Params K V) (hB : 3 ≤ P.kNodeValues) (vs : List V) :
    ∀ (t : Btree K V), LawfulComp t.comp → Shaped P t → Sorted P t →
      (insert_unique_range P t vs).comp = t.comp ∧ Shaped P (insert_unique_range P t vs)
        ∧ Sorted P (insert_unique_range P t vs)
        ∧ (StrictSorted P t → StrictSorted P (insert_unique_range P t vs)) := by
  induction vs with
  | nil => exact fun t _ hS hs => ⟨rfl, hS, hs, id⟩
  | cons v vs ih =>
    intro t hc hS hs
    simp only [insert_unique_range]
    rcases insert_unique_hint_spec P hB t hc hS hs t.end_ _ _ (iterTo_end t) v with
      h | ⟨⟨a1, a2, _⟩, a3, a4⟩
    · rw [h]
      exact ih t hc hS hs
    · obtain ⟨b1, b2, b3, b4⟩ := ih _ (by rw [a1]; exact hc) a2 a3
      exact ⟨by rw [b1, a1], b2, b3, fun hst => b4 (a4 hst)⟩

/-- The outcome of `insert_multi(b, e)`: the range is inserted value by value. -/
theorem insert_multi_range_spec (P : Params K V) (hB : 3 ≤ P.kNodeValues) (vs : List V) :
    ∀ (t : Btree K V), LawfulComp t.comp → Shaped P t → Sorted P t →
      (insert_multi_range P t vs).comp = t.comp ∧ Shaped P (insert_multi_range P t vs)
        ∧ Sorted P (insert_multi_range P t vs) := by
  induction vs with
  | nil => exact fun t _ hS hs => ⟨rfl, hS, hs⟩
  | cons v vs ih =>
    intro t hc hS hs
    simp only [insert_multi_range]
    obtain ⟨⟨a1, a2, _⟩, a3⟩ := insert_multi_hint_spec P hB t hc hS hs t.end_ _ _ (iterTo_end t) v
    obtain ⟨b1, b2, b3⟩ := ih _ (by rw [a1]; exact hc) a2 a3
    exact ⟨by rw [b1, a1], b2, b3⟩

end HintInsertUnique

end Btree

end CppBtree

namespace CppBtree

variable {K V : Type}

namespace Btree

section Invariants

variable [Inhabited V]

/-- A tree whose values are a subsequence of those of a sorted tree is sorted. -/
theorem sorted_of_sublist (P : Params K V) (t t2 : Btree K V) (hcomp : t2.comp = t.comp)
    (hsub : t2.inorder.Sublist t.inorder) :
    (Sorted P t → Sorted P t2) ∧ (StrictSorted P t → StrictSorted P t2) := by
  unfold Sorted StrictSorted
  rw [hcomp]
  exact ⟨fun h => List.Pairwise.sublist hsub h, fun h => List.Pairwise.sublist hsub h⟩

/-- The invariants of every reachable tree: the comparator is the one the tree was built
with, the tree is well shaped, its in-order sequence is non-decreasing, and strictly increasing
when no multi insert was used. -/
theorem reachable_invariants (P : Params K V) (comp : K → K → Int) (multi : Bool)
    (hB : 3 ≤ P.kNodeValues) (hc : LawfulComp comp) (t : Btree K V)
    (h : Reachable P comp multi t) :
    t.comp = comp ∧ Shaped P t ∧ Sorted P t ∧ (multi = false → StrictSorted P t) := by
  induction h with
  | empty =>
    refine ⟨rfl, ?_, ?_, fun _ => ?_⟩
    · simp [Shaped, Btree.new]
    · simp [Sorted, inorder, Btree.new]
    · simp [StrictSorted, inorder, Btree.new]
  | insert_unique t v _ ih =>
    obtain ⟨i1, i2, i3, i4⟩ := ih
    have hc' : LawfulComp t.comp := by rw [i1]; exact hc
    rcases insert_unique_stored P hB t hc' i2 i3 v with e | ⟨⟨a1, a2, _⟩, a3, a4⟩
    · rw [e]
      exact ⟨i1, i2, i3, i4⟩
    · exact ⟨by rw [a1, i1], a2, a3, fun hm => a4 (i4 hm)⟩
  | insert_unique_hint t n v _ hn ih =>
    obtain ⟨i1, i2, i3, i4⟩ := ih
    have hc' : LawfulComp t.comp := by rw [i1]; exact hc
    have hpos := nth_iter_spec P t i2 n (by rw [← size_eq_length P t i2]; exact hn)
    rcases insert_unique_hint_spec P hB t hc' i2 i3 _ _ _ hpos v with e | ⟨⟨a1, a2, _⟩, a3, a4⟩
    · rw [e]
      exact ⟨i1, i2, i3, i4⟩
    · exact ⟨by rw [a1, i1], a2, a3, fun hm => a4 (i4 hm)⟩
  | insert_unique_range t vs _ ih =>
    obtain ⟨i1, i2, i3, i4⟩ := ih
    have hc' : LawfulComp t.comp := by rw [i1]; exact hc
    obtain ⟨b1, b2, b3, b4⟩ := insert_unique_range_spec P hB vs t hc' i2 i3
    exact ⟨by rw [b1, i1], b2, b3, fun hm => b4 (i4 hm)⟩
  | insert_multi t v _ hm ih =>
    obtain ⟨i1, i2, i3, _⟩ := ih
    have hc' : LawfulComp t.comp := by rw [i1]; exact hc
    obtain ⟨⟨a1, a2, _⟩, a3⟩ := insert_multi_stored P hB t hc' i2 i3 v
    exact ⟨by rw [a1, i1], a2, a3, fun h => by rw [hm] at h; simp at h⟩
  | insert_multi_hint t n v _ hm hn ih =>
    obtain ⟨i1, i2, i3, _⟩ := ih
    have hc' : LawfulComp t.comp := by rw [i1]; exact hc
    have hpos := nth_iter_spec P t i2 n (by rw [← size_eq_length P t i2]; exact hn)
    obtain ⟨⟨a1, a2, _⟩, a3⟩ := insert_multi_hint_spec P hB t hc' i2 i3 _ _ _ hpos v
    exact ⟨by rw [a1, i1], a2, a3, fun h => by rw [hm] at h; simp at h⟩
  | insert_multi_range t vs _ hm ih =>
    obtain ⟨i1, i2, i3, _⟩ := ih
    have hc' : LawfulComp t.comp := by rw [i1]; exact hc
    obtain ⟨b1, b2, b3⟩ := insert_multi_range_spec P hB vs t hc' i2 i3
    exact ⟨by rw [b1, i1], b2, b3, fun h => by rw [hm] at h; simp at h⟩
  | erase t n _ hn ih =>
    obtain ⟨i1, i2, i3, i4⟩ := ih
    have hlen : n < t.inorder.length := by rw [← size_eq_length P t i2]; exact hn
    have hpos := nth_iter_spec P t i2 n (by omega)
    rw [drop_getD _ _ default hlen] at hpos
    rcases hpos with hpos | ⟨p1, p2, _⟩
    · exact absurd hpos.2.1 (by simp)
    · obtain ⟨e1, e2, e3, _⟩ := erase_spec P hB t i2 _ _ _ _ p1 p2
      have hsub : (erase P t (t.nth_iter n)).1.inorder.Sublist t.inorder := by
        rw [e3]
        conv => rhs; rw [← List.take_append_drop n t.inorder]
        exact List.Sublist.append (List.Sublist.refl _)
          (by
            rw [← List.drop_drop]
            exact List.drop_sublist _ _)
      obtain ⟨s1, s2⟩ := sorted_of_sublist P t _ e1 hsub
      exact ⟨by rw [e1, i1], e2, s1 i3, fun hm => s2 (i4 hm)⟩
  | erase_range t i k _ hik ih =>
    obtain ⟨i1, i2, i3, i4⟩ := ih
    obtain ⟨_, a2, a3, a4, _⟩ := erase_range_at P hB t i2 i k
      (by rw [← size_eq_length P t i2]; exact hik)
    have hsub : (erase_range P t (t.nth_iter i) (t.nth_iter (i + k))).1.inorder.Sublist
        t.inorder := by
      rw [a4]
      conv => rhs; rw [← List.take_append_drop i t.inorder]
      exact List.Sublist.append (List.Sublist.refl _)
        (by
          rw [← List.drop_drop]
          exact List.drop_sublist _ _)
    obtain ⟨s1, s2⟩ := sorted_of_sublist P t _ a2 hsub
    exact ⟨by rw [a2, i1], a3, s1 i3, fun hm => s2 (i4 hm)⟩
  | erase_unique t k _ ih =>
    obtain ⟨i1, i2, i3, i4⟩ := ih
    have hc' : LawfulComp t.comp := by rw [i1]; exact hc
    rcases erase_unique_spec P hB t k hc' i2 i3 with
      ⟨_, e2, e3, l1, x, l2, a1, _, a3⟩ | ⟨_, e, _⟩
    · have hsub : (erase_unique P t k).1.inorder.Sublist t.inorder := by
        rw [a3, a1]
        exact List.Sublist.append (List.Sublist.refl _) (List.sublist_cons_self _ _)
      obtain ⟨s1, s2⟩ := sorted_of_sublist P t _ e2 hsub
      exact ⟨by rw [e2, i1], e3, s1 i3, fun hm => s2 (i4 hm)⟩
    · rw [e]
      exact ⟨i1, i2, i3, i4⟩
  | erase_multi t k _ ih =>
    obtain ⟨i1, i2, i3, i4⟩ := ih
    have hc' : LawfulComp t.comp := by rw [i1]; exact hc
    obtain ⟨_, a2, a3, _⟩ := erase_multi_spec P hB t k hc' i2 i3
    have hsub : (erase_multi P t k).1.inorder.Sublist t.inorder :=
      erase_multi_sublist P hB t k hc' i2 i3
    obtain ⟨s1, s2⟩ := sorted_of_sublist P t _ a2 hsub
    exact ⟨by rw [a2, i1], a3, s1 i3, fun hm => s2 (i4 hm)⟩

end Invariants

end Btree

end CppBtree

namespace CppBtree

variable {K V : Type}

namespace Btree

section NodeOrder

variable [Inhabited V]

/-- A relation that holds pairwise along the in-order sequence of a well shaped tree holds
inside every node, between the subtree of child `i` and value `i`, and between value `i` and
the subtree of child `i + 1`. -/
theorem node_order (B H : Nat) (r : Node V) (hw : Node.wf_root B H r = true) (rp : List Nat)
    (hv : ValidPath r rp) (R : V → V → Prop) (hR : r.inorder.Pairwise R) :
    (getNode r rp).values.Pairwise R
      ∧ ((getNode r rp).leaf = false → ∀ i, i < (getNode r rp).count →
          (∀ x ∈ ((getNode r rp).child i).inorder, R x ((getNode r rp).value i))
            ∧ (∀ x ∈ ((getNode r rp).child (i + 1)).inorder, R ((getNode r rp).value i) x)) := by
  obtain ⟨h, f1, f2, _, _, _⟩ := node_facts B H r rp hw hv
  have hio := inorder_eq_pre_post B r rp h H f1
  rw [hio] at hR
  have hN : (getNode r rp).inorder.Pairwise R :=
    (List.pairwise_append.mp (List.pairwise_append.mp hR).1).2.1
  refine ⟨List.Pairwise.sublist (Node.values_sublist_inorder _) hN, ?_⟩
  intro hl i hi
  have hshape : (getNode r rp).children.length = (getNode r rp).count + 1 := by
    have := f2
    rw [Node.eq_internal_of_not_leaf _ hl] at this
    simpa [Node.shape_ok] using this
  rw [Node.inorder_split _ i hl hshape (by omega), Node.post_child_step _ i hl hshape hi] at hN
  obtain ⟨_, a2, a3⟩ := List.pairwise_append.mp hN
  refine ⟨fun x hx => ?_, fun x hx => ?_⟩
  · exact a3 x (List.mem_append_right _ hx) _ (List.mem_cons_self _ _)
  · exact (List.pairwise_cons.mp a2).1 x (List.mem_append_left _ hx)

/-- In a well shaped tree every leaf sits `height() - 1` levels below the root and every
internal node sits higher. -/
theorem leaf_depth (P : Params K V) (t : Btree K V) (hS : Shaped P t) (r : Node V)
    (ht : t.root = some r) (rp : List Nat) (hv : ValidPath r rp) :
    ((getNode r rp).leaf = true → rp.length + 1 = t.height)
      ∧ ((getNode r rp).leaf = false → rp.length + 1 < t.height) := by
  have hw : Node.wf_root P.kNodeValues (r.height - 1) r = true := by
    have := hS
    simp only [Shaped, ht] at this
    exact this.1
  obtain ⟨h, f1, _, f3, _, f5⟩ := node_facts P.kNodeValues _ r rp hw hv
  have hd := ctx_depth _ _ _ _ _ f1
  have hh := Node.height_of_wf_root _ _ _ hw
  have hth : t.height = r.height := by simp [height, ht]
  refine ⟨fun hl => ?_, fun hl => ?_⟩
  · have := f5 hl
    omega
  · have h0 : h ≠ 0 := by
      intro e
      have := (Node.wfc_leaf_zero _ _ _ _ _ (f3 hl)).mpr e
      rw [hl] at this
      simp at this
    omega

/-- In a well shaped tree every node other than the root holds between one value and
`kNodeValues` values. -/
theorem node_fill (P : Params K V) (t : Btree K V) (hS : Shaped P t) (r : Node V)
    (ht : t.root = some r) (rp : List Nat) (hne : rp ≠ []) (hv : ValidPath r rp) :
    1 ≤ (getNode r rp).count ∧ (getNode r rp).count ≤ P.kNodeValues := by
  have hw : Node.wf_root P.kNodeValues (r.height - 1) r = true := by
    have := hS
    simp only [Shaped, ht] at this
    exact this.1
  obtain ⟨h, _, _, _, f4, _⟩ := node_facts P.kNodeValues _ r rp hw hv
  exact Node.wfc_count _ _ _ _ _ (f4 hne)

/-- The number of successor steps from `begin()` to `end()` is `size()`. -/
theorem distance_begin_end (P : Params K V) (t : Btree K V) (hS : Shaped P t) :
    t.distance (t.size + 1) t.begin_ t.end_ = t.size := by
  rw [distance_spec P t hS _ _ _ (iterTo_end t) _ _ _ _ (iterTo_begin P t hS) (by simp)
    (by rw [size_eq_length P t hS]; simp)]
  rw [size_eq_length P t hS]
  simp

end NodeOrder

end Btree

end CppBtree

namespace CppBtree

variable {K V : Type}

namespace Example

theorem grown_reachable (multi : Bool) :
    Btree.Reachable params int_compare multi grown :=
  Btree.Reachable.insert_unique_range _ _ Btree.Reachable.empty

theorem sparse_reachable (multi : Bool) :
    Btree.Reachable params4 int_compare multi sparse :=
  Btree.Reachable.insert_unique_range _ _ Btree.Reachable.empty

end Example

namespace Btree

/-- C1: for every tree reached from the empty tree by a finite sequence of inserts (unique or
multi; plain, hinted or range) and erases, with node capacity at least 3 and a lawful
comparator, iterating from `begin()` to `end()` yields exactly the stored values, each once
(the in-order listing of the nodes, `size()` values in all), and the visited keys are in
non-decreasing order under the comparator of the tree. -/
theorem reachable_iteration_sorted [Inhabited V] (P : Params K V) (comp : K → K → Int)
    (multi : Bool) (hB : 3 ≤ P.kNodeValues) (hc : LawfulComp comp) (t : Btree K V)
    (h : Reachable P comp multi t) :
    t.traverse = t.inorder ∧ t.traverse.length = t.size
      ∧ t.traverse.Pairwise (fun a b => ¬ t.comp (P.key b) (P.key a) < 0) := by
  obtain ⟨_, i2, i3, _⟩ := reachable_invariants P comp multi hB hc t h
  have e := traverse_eq_inorder P t i2
  rw [e]
  exact ⟨rfl, (size_eq_length P t i2).symm, i3⟩

theorem reachable_iteration_sorted_witness :
    3 ≤ Example.params.kNodeValues ∧ LawfulComp Example.int_compare
      ∧ Reachable Example.params Example.int_compare true Example.grown
      ∧ (Example.grown.traverse = Example.grown.inorder
        ∧ Example.grown.traverse.length = Example.grown.size
        ∧ Example.grown.traverse.Pairwise
            (fun a b => ¬ Example.grown.comp (Example.params.key b) (Example.params.key a) < 0)) :=
  ⟨by decide, Example.int_compare_lawful, Example.grown_reachable true,
    reachable_iteration_sorted Example.params Example.int_compare true (by decide)
      Example.int_compare_lawful Example.grown (Example.grown_reachable true)⟩

/-- C2: for every tree reached from the empty tree by `insert_unique` (plain, hinted or range)
and erase operations only, with node capacity at least 3 and a lawful comparator, no two stored
values have keys that compare equal: the in-order sequence is strictly increasing, so for two
values at different places neither comparison of their keys gives zero. -/
theorem reachable_unique_keys [Inhabited V] (P : Params K V) (comp : K → K → Int)
    (hB : 3 ≤ P.kNodeValues) (hc : LawfulComp comp) (t : Btree K V)
    (h : Reachable P comp false t) :
    StrictSorted P t
      ∧ t.inorder.Pairwise (fun a b => t.comp (P.key a) (P.key b) ≠ 0
          ∧ t.comp (P.key b) (P.key a) ≠ 0) := by
  obtain ⟨i1, _, _, i4⟩ := reachable_invariants P comp false hB hc t h
  have hst := i4 rfl
  refine ⟨hst, List.Pairwise.imp ?_ hst⟩
  intro a b hab
  have h1 : t.comp (P.key a) (P.key b) < 0 := hab
  have h2 := (hc.swap_lt (P.key a) (P.key b)).mp (by rw [← i1]; exact h1)
  rw [← i1] at h2
  constructor <;> omega

theorem reachable_unique_keys_witness :
    3 ≤ Example.params.kNodeValues ∧ LawfulComp Example.int_compare
      ∧ Reachable Example.params Example.int_compare false Example.grown
      ∧ (StrictSorted Example.params Example.grown
        ∧ Example.grown.inorder.Pairwise
            (fun a b => Example.grown.comp (Example.params.key a) (Example.params.key b) ≠ 0
              ∧ Example.grown.comp (Example.params.key b) (Example.params.key a) ≠ 0)) :=
  ⟨by decide, Example.int_compare_lawful, Example.grown_reachable false,
    reachable_unique_keys Example.params Example.int_compare (by decide)
      Example.int_compare_lawful Example.grown (Example.grown_reachable false)⟩

/-- C14: for every tree reached from the empty tree by a finite sequence of inserts and
erases, `size()` is the number of values stored in the nodes (the length of the in-order
listing): 0 for the empty tree, the count of the root when the root is a leaf, and the counter
kept in the root fields when the root is internal; it is also the number of successor steps
from `begin()` to `end()`. -/
theorem reachable_size [Inhabited V] (P : Params K V) (comp : K → K → Int)
    (multi : Bool) (hB : 3 ≤ P.kNodeValues) (hc : LawfulComp comp) (t : Btree K V)
    (h : Reachable P comp multi t) :
    t.size = t.inorder.length
      ∧ t.distance (t.size + 1) t.begin_ t.end_ = t.size
      ∧ (t.root = none → t.size = 0)
      ∧ (∀ r, t.root = some r → r.leaf = true → t.size = r.count)
      ∧ (∀ r, t.root = some r → r.leaf = false →
          t.size = t.size_field ∧ t.size_field = r.inorder.length) := by
  obtain ⟨_, i2, _, _⟩ := reachable_invariants P comp multi hB hc t h
  refine ⟨size_eq_length P t i2, distance_begin_end P t i2, ?_, ?_, ?_⟩
  · intro e
    simp [size, empty, e]
  · intro r e hl
    simp [size, empty, e, root_node, hl]
  · intro r e hl
    have hs : t.size = t.size_field := by simp [size, empty, e, root_node, hl]
    refine ⟨hs, ?_⟩
    rw [← hs, size_eq_length P t i2, inorder_of_root t r e]

theorem reachable_size_witness :
    3 ≤ Example.params.kNodeValues ∧ LawfulComp Example.int_compare
      ∧ Reachable Example.params Example.int_compare true Example.grown
      ∧ (Example.grown.size = Example.grown.inorder.length
        ∧ Example.grown.distance (Example.grown.size + 1) Example.grown.begin_
            Example.grown.end_ = Example.grown.size
        ∧ (Example.grown.root = none → Example.grown.size = 0)
        ∧ (∀ r, Example.grown.root = some r → r.leaf = true → Example.grown.size = r.count)
        ∧ (∀ r, Example.grown.root = some r → r.leaf = false →
            Example.grown.size = Example.grown.size_field
              ∧ Example.grown.size_field = r.inorder.length)) :=
  ⟨by decide, Example.int_compare_lawful, Example.grown_reachable true,
    reachable_size Example.params Example.int_compare true (by decide)
      Example.int_compare_lawful Example.grown (Example.grown_reachable true)⟩

/-- C15, the claim as stated fails: with node capacity 4 (so `kMinNodeValues = 2`) the range
insertion of 1, 2, 3, 4, 5 into the empty tree splits the full root leaf 1, 2, 3, 4 and leaves
the tree with root value 2 over the leaves 1 and 3, 4, 5; the first leaf is a non-root node of
a reachable tree that holds one value, fewer than `kMinNodeValues`. -/
theorem min_fill_counterexample :
    Reachable Example.params4 Example.int_compare false Example.sparse
      ∧ Example.sparse.root = some (Node.internal_node [2]
          [Node.leaf_node 4 [1], Node.leaf_node 4 [3, 4, 5]])
      ∧ ValidPath Example.sparse.root_node [0]
      ∧ kMinNodeValues Example.params4 = 2
      ∧ (Example.sparse.node [0]).count = 1
      ∧ ¬ (kMinNodeValues Example.params4 ≤ (Example.sparse.node [0]).count) :=
  ⟨Example.sparse_reachable false, rfl, ⟨trivial, by decide⟩, by decide, by decide,
    by decide⟩

/-- C15, amended: for every tree reached from the empty tree by a finite sequence of inserts
and erases, with node capacity at least 3 and a lawful comparator, every node other than the
root holds at least one value and at most `kNodeValues` values. -/
theorem reachable_node_fill [Inhabited V] (P : Params K V) (comp : K → K → Int)
    (multi : Bool) (hB : 3 ≤ P.kNodeValues) (hc : LawfulComp comp) (t : Btree K V)
    (h : Reachable P comp multi t) :
    ∀ r, t.root = some r → ∀ rp, rp ≠ [] → ValidPath r rp →
      1 ≤ (getNode r rp).count ∧ (getNode r rp).count ≤ P.kNodeValues := by
  obtain ⟨_, i2, _, _⟩ := reachable_invariants P comp multi hB hc t h
  exact fun r ht rp hne hv => node_fill P t i2 r ht rp hne hv

theorem reachable_node_fill_witness :
    3 ≤ Example.params4.kNodeValues ∧ LawfulComp Example.int_compare
      ∧ Reachable Example.params4 Example.int_compare true Example.sparse
      ∧ ∀ r, Example.sparse.root = some r → ∀ rp, rp ≠ [] → ValidPath r rp →
          1 ≤ (getNode r rp).count ∧ (getNode r rp).count ≤ Example.params4.kNodeValues :=
  ⟨by decide, Example.int_compare_lawful, Example.sparse_reachable true,
    reachable_node_fill Example.params4 Example.int_compare true (by decide)
      Example.int_compare_lawful Example.sparse (Example.sparse_reachable true)⟩

/-- C16: for every tree reached from the empty tree by a finite sequence of inserts and
erases, with node capacity at least 3 and a lawful comparator, every leaf is at the same depth
below the root, `height() - 1` levels down, and every internal node sits higher. -/
theorem reachable_leaf_depth [Inhabited V] (P : Params K V) (comp : K → K → Int)
    (multi : Bool) (hB : 3 ≤ P.kNodeValues) (hc : LawfulComp comp) (t : Btree K V)
    (h : Reachable P comp multi t) :
    ∀ r, t.root = some r → ∀ rp, ValidPath r rp →
      ((getNode r rp).leaf = true → rp.length + 1 = t.height)
        ∧ ((getNode r rp).leaf = false → rp.length + 1 < t.height) := by
  obtain ⟨_, i2, _, _⟩ := reachable_invariants P comp multi hB hc t h
  exact fun r ht rp hv => leaf_depth P t i2 r ht rp hv

theorem reachable_leaf_depth_witness :
    3 ≤ Example.params.kNodeValues ∧ LawfulComp Example.int_compare
      ∧ Reachable Example.params Example.int_compare true Example.grown
      ∧ ∀ r, Example.grown.root = some r → ∀ rp, ValidPath r rp →
          ((getNode r rp).leaf = true → rp.length + 1 = Example.grown.height)
            ∧ ((getNode r rp).leaf = false → rp.length + 1 < Example.grown.height) :=
  ⟨by decide, Example.int_compare_lawful, Example.grown_reachable true,
    reachable_leaf_depth Example.params Example.int_compare true (by decide)
      Example.int_compare_lawful Example.grown (Example.grown_reachable true)⟩

/-- C17: for every tree reached from the empty tree by a finite sequence of inserts and
erases, with node capacity at least 3 and a lawful comparator, in every node the keys are
non-decreasing, and for every internal node and every value index `i` below its count every
key in the subtree of child `i` is not greater than key `i` (strictly less when no multi
insert was used) and every key in the subtree of child `i + 1` is not less than key `i`. -/
theorem reachable_node_order [Inhabited V] (P : Params K V) (comp : K → K → Int)
    (multi : Bool) (hB : 3 ≤ P.kNodeValues) (hc : LawfulComp comp) (t : Btree K V)
    (h : Reachable P comp multi t) :
    ∀ r, t.root = some r → ∀ rp, ValidPath r rp →
      (getNode r rp).values.Pairwise (key_le P.key t.comp)
        ∧ ((getNode r rp).leaf = false → ∀ i, i < (getNode r rp).count →
            (∀ x ∈ ((getNode r rp).child i).inorder,
                key_le P.key t.comp x ((getNode r rp).value i))
              ∧ (∀ x ∈ ((getNode r rp).child (i + 1)).inorder,
                key_le P.key t.comp ((getNode r rp).value i) x)
              ∧ (multi = false → ∀ x ∈ ((getNode r rp).child i).inorder,
                key_lt P.key t.comp x ((getNode r rp).value i))) := by
  obtain ⟨_, i2, i3, i4⟩ := reachable_invariants P comp multi hB hc t h
  intro r ht rp hv
  have hw : Node.wf_root P.kNodeValues (r.height - 1) r = true := by
    have := i2
    simp only [Shaped, ht] at this
    exact this.1
  have hio := inorder_of_root t r ht
  obtain ⟨a1, a2⟩ := node_order P.kNodeValues _ r hw rp hv (key_le P.key t.comp)
    (by rw [← hio]; exact i3)
  refine ⟨a1, fun hl i hi => ⟨(a2 hl i hi).1, (a2 hl i hi).2, fun hm => ?_⟩⟩
  obtain ⟨_, b2⟩ := node_order P.kNodeValues _ r hw rp hv (key_lt P.key t.comp)
    (by rw [← hio]; exact i4 hm)
  exact (b2 hl i hi).1

theorem reachable_node_order_witness :
    3 ≤ Example.params.kNodeValues ∧ LawfulComp Example.int_compare
      ∧ Reachable Example.params Example.int_compare false Example.grown
      ∧ ∀ r, Example.grown.root = some r → ∀ rp, ValidPath r rp →
          (getNode r rp).values.Pairwise (key_le Example.params.key Example.grown.comp)
            ∧ ((getNode r rp).leaf = false → ∀ i, i < (getNode r rp).count →
                (∀ x ∈ ((getNode r rp).child i).inorder,
                    key_le Example.params.key Example.grown.comp x ((getNode r rp).value i))
                  ∧ (∀ x ∈ ((getNode r rp).child (i + 1)).inorder,
                    key_le Example.params.key Example.grown.comp ((getNode r rp).value i) x)
                  ∧ (false = false → ∀ x ∈ ((getNode r rp).child i).inorder,
                    key_lt Example.params.key Example.grown.comp x
                      ((getNode r rp).value i))) :=
  ⟨by decide, Example.int_compare_lawful, Example.grown_reachable false,
    reachable_node_order Example.params Example.int_compare false (by decide)
      Example.int_compare_lawful Example.grown (Example.grown_reachable false)⟩

end Btree

end CppBtree

namespace CppBtree

variable {K V : Type}

namespace Btree

section Assign

variable [Inhabited V]

/-- The loop of `assign(x)` appends the values of `x` that remain to be visited. -/
theorem assign_loop_spec (P : Params K V) (hB : 3 ≤ P.kNodeValues) (x : Btree K V)
    (hx : Shaped P x) :
    ∀ (fuel : Nat) (t : Btree K V) (iter : Iter) (l1 l2 : List V), IterTo x iter l1 l2 →
      Shaped P t → t.inorder = l1 → l2.length < fuel →
      (assign_loop P x fuel t iter).comp = t.comp ∧ Shaped P (assign_loop P x fuel t iter)
        ∧ (assign_loop P x fuel t iter).inorder = l1 ++ l2 := by
  intro fuel
  induction fuel with
  | zero => exact fun t iter l1 l2 _ _ _ hf => absurd hf (by omega)
  | succ fuel ih =>
    intro t iter l1 l2 hit hS hio hf
    simp only [assign_loop]
    rcases iterTo_head P x hx iter l1 l2 hit with ⟨e1, e2⟩ | ⟨hne, hpa, l3, e⟩
    · rw [if_pos e1, e2, List.append_nil]
      exact ⟨rfl, hS, hio⟩
    · rw [if_neg hne]
      have hsx : Splits x iter l1 (x.deref iter :: l3) := by
        rcases hit with h | ⟨_, h, _⟩
        · exact absurd h.2.2 hne
        · rw [e] at h
          exact h
      have hnext := increment_spec P x hx iter l1 l3 _ hpa hsx
      have hlen : l3.length < fuel := by
        rw [e] at hf
        simp at hf
        omega
      by_cases he : t.empty = true
      · rw [if_pos he]
        have hroot : t.root = none := by
          simp only [empty] at he
          cases h : t.root <;> simp_all
        have hnil : l1 = [] := by
          rw [← hio]
          simp [inorder, hroot]
        have hins : (insert_multi P t (x.deref iter)).1
            = t.with_root (some (Node.leaf_node 1 [x.deref iter])) := by
          simp only [insert_multi]
          rw [insert_multi_key_empty P t _ _ hroot]
        obtain ⟨a1, a2, a3, _⟩ := insertedAt_singleton P t (x.deref iter) (by omega)
        rw [hins]
        obtain ⟨b1, b2, b3⟩ := ih _ _ _ _ hnext a2 (by rw [a3, hnil]) hlen
        exact ⟨by rw [b1, a1], b2, by rw [b3, e]; simp⟩
      · rw [if_neg he]
        have hsome : t.root.isSome = true := by
          simp only [empty] at he
          cases h : t.root <;> simp_all
        obtain ⟨r, ht⟩ := Option.isSome_iff_exists.mp hsome
        obtain ⟨_, _, _, _, e4⟩ := end_spec P t r ht hS
        obtain ⟨a1, a2, a3, _⟩ := internal_insert_spec P t t.end_ (x.deref iter) _ _ hB hS e4
        obtain ⟨b1, b2, b3⟩ := ih _ _ _ _ hnext a2 (by rw [a3, hio]) hlen
        exact ⟨by rw [b1, a1], b2, by rw [b3, e]; simp⟩

/-- The outcome of `assign(x)`. -/
theorem assign_spec (P : Params K V) (hB : 3 ≤ P.kNodeValues) (t x : Btree K V)
    (hx : Shaped P x) :
    (assign P t x).comp = x.comp ∧ Shaped P (assign P t x)
      ∧ (assign P t x).inorder = x.inorder := by
  have h := assign_loop_spec P hB x hx (x.size + 1) ⟨x.comp, t.clear.root, t.clear.size_field⟩
    x.begin_ [] x.inorder (iterTo_begin P x hx) (by simp [Shaped, clear])
    (by simp [inorder, clear]) (by rw [size_eq_length P x hx]; omega)
  simpa [assign] using h

end Assign

end Btree

end CppBtree

namespace CppBtree

variable {K V : Type}

namespace Btree

/-- C20: for every well-shaped tree `x` and every tree `t`, whatever `t` held before, with
node capacity at least 3: after `t.assign(x)` the in-order sequence of `t` is that of `x`
element by element (and so is the sequence iteration yields), the `size()` values agree, `t`
has the comparator of `x`, `t` is well shaped, and `t` is sorted when `x` is; the same holds for
the copy constructor, which assigns to a fresh empty tree. The tree `x` is only read: `assign`
takes it as a value and returns the new `t`. -/
theorem assign_copies [Inhabited V] (P : Params K V) (t x : Btree K V)
    (hB : 3 ≤ P.kNodeValues) (hx : Shaped P x) :
    (assign P t x).inorder = x.inorder
      ∧ (assign P t x).traverse = x.traverse
      ∧ (assign P t x).size = x.size
      ∧ (assign P t x).comp = x.comp
      ∧ Shaped P (assign P t x)
      ∧ (Sorted P x → Sorted P (assign P t x))
      ∧ (copy P x).inorder = x.inorder ∧ (copy P x).size = x.size
      ∧ (copy P x).comp = x.comp ∧ Shaped P (copy P x) := by
  obtain ⟨a1, a2, a3⟩ := assign_spec P hB t x hx
  obtain ⟨b1, b2, b3⟩ := assign_spec P hB ⟨x.comp, none, 0⟩ x hx
  refine ⟨a3, ?_, ?_, a1, a2, ?_, b3, ?_, b1, b2⟩
  · rw [traverse_eq_inorder P _ a2, traverse_eq_inorder P x hx, a3]
  · rw [size_eq_length P _ a2, size_eq_length P x hx, a3]
  · intro hs
    unfold Sorted
    rw [a1, a3]
    exact hs
  · show (assign P ⟨x.comp, none, 0⟩ x).size = x.size
    rw [size_eq_length P _ b2, size_eq_length P x hx, b3]

theorem assign_copies_witness :
    3 ≤ Example.params.kNodeValues ∧ Shaped Example.params Example.tree
      ∧ ((assign Example.params Example.multi_tree Example.tree).inorder = Example.tree.inorder
        ∧ (assign Example.params Example.multi_tree Example.tree).traverse
            = Example.tree.traverse
        ∧ (assign Example.params Example.multi_tree Example.tree).size = Example.tree.size
        ∧ (assign Example.params Example.multi_tree Example.tree).comp = Example.tree.comp
        ∧ Shaped Example.params (assign Example.params Example.multi_tree Example.tree)
        ∧ (Sorted Example.params Example.tree →
            Sorted Example.params (assign Example.params Example.multi_tree Example.tree))
        ∧ (copy Example.params Example.tree).inorder = Example.tree.inorder
        ∧ (copy Example.params Example.tree).size = Example.tree.size
        ∧ (copy Example.params Example.tree).comp = Example.tree.comp
        ∧ Shaped Example.params (copy Example.params Example.tree)) :=
  ⟨by decide, by decide,
    assign_copies Example.params Example.multi_tree Example.tree (by decide) (by decide)⟩

end Btree

end CppBtree

namespace CppBtree

variable {K V : Type}

namespace Btree

/-- C24, the claim as stated fails: with node capacity 3, erasing 40 from the tree whose root
holds 20, 40 over the leaves 10; 30; 50, 60 leaves the root value 30 over the leaves 10, 20
and 50, 60, and iteration yields 10, 20, 30, 50, 60: the erased 40 is gone and 30 is kept. The
result is neither the root 20 over the leaves 10 and 40, 50, 60 nor the sequence
10, 20, 40, 50, 60. -/
theorem erase_scenario_counterexample :
    find_unique Example.params Example.two_level 40 = ⟨some [], 1⟩
      ∧ Example.two_level.deref ⟨some [], 1⟩ = 40
      ∧ (erase Example.params Example.two_level ⟨some [], 1⟩).1.root
          = some (Node.internal_node [30]
              [Node.leaf_node 3 [10, 20], Node.leaf_node 3 [50, 60]])
      ∧ (erase Example.params Example.two_level ⟨some [], 1⟩).1.root
          ≠ some (Node.internal_node [20]
              [Node.leaf_node 3 [10], Node.leaf_node 3 [40, 50, 60]])
      ∧ (erase Example.params Example.two_level ⟨some [], 1⟩).1.traverse = [10, 20, 30, 50, 60]
      ∧ (erase Example.params Example.two_level ⟨some [], 1⟩).1.traverse
          ≠ [10, 20, 40, 50, 60] := by
  have h : (erase Example.params Example.two_level ⟨some [], 1⟩).1.root
      = some (Node.internal_node [30]
          [Node.leaf_node 3 [10, 20], Node.leaf_node 3 [50, 60]]) := rfl
  refine ⟨by decide, by decide, h, ?_, by decide, by decide⟩
  rw [h]
  simp

/-- C24, amended: with node capacity 3, starting from the unique tree whose root holds 20, 40
over the leaves 10; 30; 50, 60, erasing the value 40, which sits on the internal root, swaps it
with its predecessor 30, removes it from the leaf and merges the emptied leaf with its left
sibling 10, pulling down the value 20: the root is left with the value 30 over the leaves
10, 20 and 50, 60; the returned iterator designates 50, and iteration over the result yields
10, 20, 30, 50, 60. -/
theorem erase_scenario :
    Shaped Example.params Example.two_level ∧ StrictSorted Example.params Example.two_level
      ∧ find_unique Example.params Example.two_level 40 = ⟨some [], 1⟩
      ∧ Example.two_level.deref ⟨some [], 1⟩ = 40
      ∧ (erase Example.params Example.two_level ⟨some [], 1⟩).1.root
          = some (Node.internal_node [30]
              [Node.leaf_node 3 [10, 20], Node.leaf_node 3 [50, 60]])
      ∧ (erase Example.params Example.two_level ⟨some [], 1⟩).1.deref
          (erase Example.params Example.two_level ⟨some [], 1⟩).2 = 50
      ∧ (erase Example.params Example.two_level ⟨some [], 1⟩).1.traverse = [10, 20, 30, 50, 60]
      ∧ (erase_unique Example.params Example.two_level 40).1.traverse = [10, 20, 30, 50, 60]
      ∧ (erase_unique Example.params Example.two_level 40).2 = 1 :=
  ⟨by decide, by decide, by decide, by decide, rfl, by decide, by decide, by decide, by decide⟩

end Btree

end CppBtree

namespace CppBtree

variable {K V : Type}

theorem pairwise_lt_of_le (key : V → K) (comp : K → K → Int) (hc : LawfulComp comp) (k : K)
    (l : List V) (hs : l.Pairwise (key_le key comp)) :
    l.Pairwise (fun x y => comp (key y) k < 0 → comp (key x) k < 0) :=
  List.Pairwise.imp (fun {a b} hab hlt => hc.lt_of_le_of_lt _ _ _ hab hlt) hs

theorem pairwise_gt_of_le (key : V → K) (comp : K → K → Int) (hc : LawfulComp comp) (k : K)
    (l : List V) (hs : l.Pairwise (key_le key comp)) :
    l.Pairwise (fun x y => comp (key x) k > 0 → comp (key y) k > 0) :=
  List.Pairwise.imp (fun {a b} hab hgt => hc.gt_of_gt_of_le _ _ _ hab hgt) hs

namespace Node

section NodeSearch

variable [Inhabited V] (key : V → K) (comp : K → K → Int) (n : Node V) (k : K)

/-- The binary search does not depend on the fuel once the fuel exceeds the width of the
range: the loop leaves through `s = e`, not through the end of the fuel. -/
theorem binary_search_fuel :
    ∀ (f1 : Nat) (w : Bool) (f2 s e : Nat), s ≤ e → e - s < f1 → e - s < f2 →
      binary_search_compare key comp w n k f1 s e = binary_search_compare key comp w n k f2 s e := by
  intro f1
  induction f1 with
  | zero => exact fun w f2 s e _ h1 _ => absurd h1 (by omega)
  | succ f1 ih =>
    intro w f2 s e hse h1 h2
    cases f2 with
    | zero => exact absurd h2 (by omega)
    | succ f2 =>
      simp only [binary_search_compare]
      by_cases hne : s ≠ e
      · rw [if_pos hne, if_pos hne]
        have hm1 : s ≤ (s + e) / 2 := by omega
        have hm2 : (s + e) / 2 < e := by omega
        rw [ih w f2 ((s + e) / 2 + 1) e (by omega) (by omega) (by omega),
          ih w f2 s ((s + e) / 2) (by omega) (by omega) (by omega),
          ih true f2 s ((s + e) / 2) (by omega) (by omega) (by omega)]
      · rw [if_neg hne, if_neg hne]

/-- The node-level `lower_bound` on a node with non-decreasing keys. -/
theorem lower_bound_full (hc : LawfulComp comp) (hs : n.values.Pairwise (key_le key comp)) :
    (n.lower_bound key comp k).index ≤ n.count
      ∧ (∀ j, j < (n.lower_bound key comp k).index → comp (key (n.value j)) k < 0)
      ∧ (∀ j, (n.lower_bound key comp k).index ≤ j → j < n.count →
          ¬ comp (key (n.value j)) k < 0)
      ∧ ((n.lower_bound key comp k).is_exact_match = true ↔
          ((n.lower_bound key comp k).index < n.count
            ∧ comp (key (n.value (n.lower_bound key comp k).index)) k = 0)) := by
  have hp := pairwise_lt_of_le key comp hc k _ hs
  have hq := pairwise_gt_of_le key comp hc k _ hs
  have hp2 : ∀ i j, i ≤ j → j < n.count → comp (key (n.value j)) k < 0 →
      comp (key (n.value i)) k < 0 := by
    intro i j hij hj hlt
    by_cases e : i = j
    · subst e; exact hlt
    · exact pairwise_getD _ _ _ hp i j (by omega) hj hlt
  obtain ⟨_, a2, a3, a4⟩ := binary_search_lower key comp n k hp2 (n.count + 1) 0 n.count
    (Nat.zero_le _) (Nat.le_refl _) (by omega) (fun i hi => by omega)
    (fun i hi hic => by omega)
  obtain ⟨b1, b2⟩ := lower_bound_exact key comp n k hp hq
  refine ⟨a2, a3, a4, b1, fun ⟨h1, h2⟩ => ?_⟩
  by_contra hne
  have hf : (n.lower_bound key comp k).is_exact_match = false := by
    simpa using hne
  have hm : n.value (n.lower_bound key comp k).index
      ∈ n.values.drop (n.lower_bound key comp k).index := by
    rw [drop_getD _ _ default h1]
    exact List.mem_cons_self _ _
  have := b2 hf _ hm
  omega

end NodeSearch

/-- The values of a node after `insert_value(i, x)`. -/
theorem insert_value_values [Inhabited V] (n : Node V) (i : Nat) (x : V) (hi : i ≤ n.count) :
    (n.insert_value i x).values = n.values.take i ++ x :: n.values.drop i
      ∧ (n.insert_value i x).leaf = n.leaf := by
  cases n with
  | leaf_node m vs =>
    rw [insert_value_leaf m vs i x hi]
    exact ⟨rfl, rfl⟩
  | internal_node vs cs =>
    simp only [insert_value, rotate_back_to, values_internal, leaf_internal]
    exact ⟨rotate_insert vs x i hi, trivial⟩

/-- Every node of a well shaped tree holds at least one value and at most `max_count`
values. -/
theorem counts_of_wf_root [Inhabited V] (B H : Nat) (r : Node V) (hw : wf_root B H r = true)
    (rp : List Nat) (hv : ValidPath r rp) :
    1 ≤ (getNode r rp).count ∧ (getNode r rp).count ≤ (getNode r rp).max_count B := by
  refine ⟨Btree.count_pos_of_wf_root B H r rp hw hv, ?_⟩
  obtain ⟨h, _, _, f3, f4, _⟩ := node_facts B H r rp hw hv
  by_cases hne : rp = []
  · subst hne
    cases r with
    | leaf_node m vs =>
      simp only [wf_root, Bool.and_eq_true, decide_eq_true_eq] at hw
      simp only [getNode, count_leaf, max_count_leaf]
      omega
    | internal_node vs cs =>
      have hw2 := f3 rfl
      rw [max_count_of_wfc _ _ _ _ _ hw2]
      exact (wfc_count _ _ _ _ _ hw2).2
  · have hw2 := f4 hne
    rw [max_count_of_wfc _ _ _ _ _ hw2]
    exact (wfc_count _ _ _ _ _ hw2).2

end Node

namespace Btree

section LocateCompareTo

variable [Inhabited V]

/-- The three-way locate reports either an exact match or its absence. -/
theorem compare_to_flag (P : Params K V) (t : Btree K V) (k : K) :
    ∀ (fuel : Nat) (rp : List Nat),
      (internal_locate_compare_to_loop P t k fuel rp).2 = kExactMatch
        ∨ (internal_locate_compare_to_loop P t k fuel rp).2 = -kExactMatch := by
  intro fuel
  induction fuel with
  | zero => exact fun rp => Or.inr rfl
  | succ f ih =>
    intro rp
    simp only [internal_locate_compare_to_loop]
    split
    · exact Or.inl rfl
    · split
      · exact Or.inr rfl
      · exact ih _

/-- The three-way locate reads only the key extractor of the parameters. -/
theorem compare_to_loop_params (P : Params K V) (t : Btree K V) (k : K) :
    ∀ (fuel : Nat) (rp : List Nat),
      internal_locate_compare_to_loop ⟨P.key, P.kNodeValues, true⟩ t k fuel rp
        = internal_locate_compare_to_loop P t k fuel rp := by
  intro fuel
  induction fuel with
  | zero => exact fun rp => rfl
  | succ f ih =>
    intro rp
    simp only [internal_locate_compare_to_loop, ih]

/-- The outcome of `internal_locate_compare_to` on a non-empty well shaped sorted tree. -/
theorem locate_compare_to_outcome (P : Params K V) (t : Btree K V) (k : K)
    (hc : LawfulComp t.comp) (hS : Shaped P t) (hs : Sorted P t) (hne : t.root.isSome = true) :
    ((internal_locate_compare_to P t k t.root_iter).2 = kExactMatch
        ∧ PointsAt t (internal_locate_compare_to P t k t.root_iter).1
        ∧ t.comp (P.key (t.deref (internal_locate_compare_to P t k t.root_iter).1)) k = 0)
      ∨ ((internal_locate_compare_to P t k t.root_iter).2 = -kExactMatch
        ∧ ∃ l1 l2, Splits t (internal_locate_compare_to P t k t.root_iter).1 l1 l2
          ∧ (t.node (internal_locate_compare_to P t k t.root_iter).1.path).leaf = true
          ∧ (∀ x ∈ l1, t.comp (P.key x) k < 0) ∧ (∀ x ∈ l2, t.comp (P.key x) k > 0)) := by
  have h := internal_locate_spec ⟨P.key, P.kNodeValues, true⟩ t k hc hS hs hne
  have e : internal_locate ⟨P.key, P.kNodeValues, true⟩ t k t.root_iter
      = internal_locate_compare_to P t k t.root_iter := by
    simp only [internal_locate, if_true, internal_locate_compare_to]
    exact compare_to_loop_params P t k _ _
  rw [e] at h
  rcases h with ⟨h1, h2, h3, _⟩ | ⟨rp, pos, l1, l2, h1, h2, h3, h4, h5, h6⟩
  · exact Or.inl ⟨h1, h2, h3⟩
  · right
    have hflag := compare_to_flag P t k t.height t.root_iter.path
    have hflag2 : (internal_locate_compare_to P t k t.root_iter).2 = kExactMatch
        ∨ (internal_locate_compare_to P t k t.root_iter).2 = -kExactMatch := hflag
    rcases h6 with h6 | ⟨h6, h7⟩
    · rw [h6] at hflag2
      simp [kExactMatch] at hflag2
    · refine ⟨h6, l1, l2, ?_, ?_, h4, h7⟩
      · rw [h1]
        exact h2
      · rw [h1]
        exact h3

end LocateCompareTo

end Btree

end CppBtree

namespace CppBtree

variable {K V : Type}

namespace Btree

/-- C25: for every non-empty tree reached from the empty tree by a finite sequence of inserts
and erases, with node capacity at least 3 and a lawful comparator, every node of the tree,
the root included, holds at least one value and at most `max_count` values: the two count
assertions of `internal_verify` hold at every node. -/
theorem reachable_counts [Inhabited V] (P : Params K V) (comp : K → K → Int)
    (multi : Bool) (hB : 3 ≤ P.kNodeValues) (hc : LawfulComp comp) (t : Btree K V)
    (h : Reachable P comp multi t) :
    ∀ r, t.root = some r → ∀ rp, ValidPath r rp →
      (getNode r rp).count > 0
        ∧ (getNode r rp).count ≤ (getNode r rp).max_count P.kNodeValues := by
  obtain ⟨_, i2, _, _⟩ := reachable_invariants P comp multi hB hc t h
  intro r ht rp hv
  have hw : Node.wf_root P.kNodeValues (r.height - 1) r = true := by
    have := i2
    simp only [Shaped, ht] at this
    exact this.1
  exact Node.counts_of_wf_root _ _ r hw rp hv

theorem reachable_counts_witness :
    3 ≤ Example.params.kNodeValues ∧ LawfulComp Example.int_compare
      ∧ Reachable Example.params Example.int_compare true Example.grown
      ∧ ∀ r, Example.grown.root = some r → ∀ rp, ValidPath r rp →
          (getNode r rp).count > 0
            ∧ (getNode r rp).count ≤ (getNode r rp).max_count Example.params.kNodeValues :=
  ⟨by decide, Example.int_compare_lawful, Example.grown_reachable true,
    reachable_counts Example.params Example.int_compare true (by decide)
      Example.int_compare_lawful Example.grown (Example.grown_reachable true)⟩

/-- C27: for every node whose keys are in non-decreasing order under a lawful comparator and
every key `k`, the node-level `lower_bound(k)` returns `(i, exact)` with `i` at most the count,
every key at an index below `i` less than `k` and every key at an index from `i` on not less
than `k` (so `i` is the earliest such position, also when several keys equal `k`), and `exact`
is true exactly when `i` is below the count and key `i` compares equal to `k`. The search
terminates: with any fuel above the count the loop gives this same result, so it leaves through
its exit test. -/
theorem node_lower_bound_correct [Inhabited V] (key : V → K) (comp : K → K → Int)
    (hc : LawfulComp comp) (n : Node V) (k : K) (hs : n.values.Pairwise (key_le key comp)) :
    (n.lower_bound key comp k).index ≤ n.count
      ∧ (∀ j, j < (n.lower_bound key comp k).index → comp (key (n.value j)) k < 0)
      ∧ (∀ j, (n.lower_bound key comp k).index ≤ j → j < n.count →
          ¬ comp (key (n.value j)) k < 0)
      ∧ ((n.lower_bound key comp k).is_exact_match = true ↔
          ((n.lower_bound key comp k).index < n.count
            ∧ comp (key (n.value (n.lower_bound key comp k).index)) k = 0))
      ∧ (∀ fuel, n.count < fuel →
          Node.binary_search_compare key comp true n k fuel 0 n.count
            = n.lower_bound key comp k) := by
  obtain ⟨a1, a2, a3, a4⟩ := Node.lower_bound_full key comp n k hc hs
  refine ⟨a1, a2, a3, a4, fun fuel hf => ?_⟩
  exact Node.binary_search_fuel key comp n k fuel true (n.count + 1) 0 n.count (Nat.zero_le _)
    (by omega) (by omega)

theorem node_lower_bound_correct_witness :
    LawfulComp Example.int_compare
      ∧ (Node.leaf_node 3 [10, 20, 20]).values.Pairwise (key_le id Example.int_compare)
      ∧ ((Node.leaf_node 3 [10, 20, 20]).lower_bound id Example.int_compare 20).index = 1
      ∧ ((Node.leaf_node 3 [10, 20, 20]).lower_bound id Example.int_compare 20).is_exact_match
          = true
      ∧ (((Node.leaf_node 3 [10, 20, 20]).lower_bound id Example.int_compare 20).is_exact_match
            = true ↔
          (((Node.leaf_node 3 [10, 20, 20]).lower_bound id Example.int_compare 20).index
              < (Node.leaf_node 3 [10, 20, 20]).count
            ∧ Example.int_compare (id ((Node.leaf_node 3 [10, 20, 20]).value
                ((Node.leaf_node 3 [10, 20, 20]).lower_bound id Example.int_compare 20).index))
                20 = 0)) :=
  ⟨Example.int_compare_lawful, by decide, by decide, by decide,
    (node_lower_bound_correct id Example.int_compare Example.int_compare_lawful
      (Node.leaf_node 3 [10, 20, 20]) 20 (by decide)).2.2.2.1⟩

/-- C28: for every non-empty valid tree with a lawful comparator and every key `k`, the
three-way locate `internal_locate_compare_to` returns the exact-match indication exactly when
some stored value has a key equal to `k`; when it does, the returned iterator designates a
stored value whose key compares equal to `k`; when it does not, it returns the no-match
indication and a position on a leaf with every value before it below `k` and every value from
it on above `k`, so that `internal_insert` of a value with key `k` at that position puts the
value between them and keeps the in-order sequence sorted. -/
theorem locate_compare_to_correct [Inhabited V] (P : Params K V) (t : Btree K V) (k : K)
    (hc : LawfulComp t.comp) (hv : Valid P t) (hne : t.root.isSome = true) :
    ((internal_locate_compare_to P t k t.root_iter).2 = kExactMatch
        ↔ ∃ x ∈ t.inorder, t.comp (P.key x) k = 0)
      ∧ ((internal_locate_compare_to P t k t.root_iter).2 = kExactMatch →
          PointsAt t (internal_locate_compare_to P t k t.root_iter).1
            ∧ t.comp (P.key (t.deref (internal_locate_compare_to P t k t.root_iter).1)) k = 0)
      ∧ ((internal_locate_compare_to P t k t.root_iter).2 ≠ kExactMatch →
          (internal_locate_compare_to P t k t.root_iter).2 = -kExactMatch
            ∧ (t.node (internal_locate_compare_to P t k t.root_iter).1.path).leaf = true
            ∧ ∃ l1 l2, Splits t (internal_locate_compare_to P t k t.root_iter).1 l1 l2
              ∧ (∀ x ∈ l1, t.comp (P.key x) k < 0) ∧ (∀ x ∈ l2, t.comp (P.key x) k > 0)
              ∧ ∀ v, P.key v = k →
                  (internal_insert P t (internal_locate_compare_to P t k t.root_iter).1 v).1.inorder
                    = l1 ++ v :: l2
                  ∧ Sorted P
                      (internal_insert P t (internal_locate_compare_to P t k t.root_iter).1 v).1) := by
  obtain ⟨hB, hS, hs⟩ := hv
  rcases locate_compare_to_outcome P t k hc hS hs hne with ⟨h1, h2, h3⟩ | ⟨h1, l1, l2, a1, a2, a3, a4⟩
  · refine ⟨⟨fun _ => ⟨_, pointsAt_mem P t _ hS h2, h3⟩, fun _ => h1⟩, fun _ => ⟨h2, h3⟩,
      fun hne2 => absurd h1 hne2⟩
  · have hno : ¬ (internal_locate_compare_to P t k t.root_iter).2 = kExactMatch := by
      rw [h1]
      simp [kExactMatch]
    have hio := splits_inorder P t _ _ _ hS a1
    refine ⟨⟨fun h => absurd h hno, fun ⟨x, hx, hx0⟩ => ?_⟩, fun h => absurd h hno,
      fun _ => ⟨h1, a2, l1, l2, a1, a3, a4, fun v hk => ?_⟩⟩
    · rw [hio] at hx
      rcases List.mem_append.mp hx with hm | hm
      · have := a3 x hm
        omega
      · have := a4 x hm
        omega
    · subst hk
      obtain ⟨⟨_, _, _⟩, b2⟩ := insert_at_sorted P hB t hc hS hs _ l1 l2 v a1
        (fun x hx => by have := a3 x hx; omega) (fun x hx => by have := a4 x hx; omega)
      obtain ⟨_, _, c3, _⟩ := internal_insert_spec P t _ v l1 l2 hB hS a1
      exact ⟨c3, b2⟩

theorem locate_compare_to_correct_witness :
    LawfulComp Example.tree.comp ∧ Valid Example.params Example.tree
      ∧ Example.tree.root.isSome = true
      ∧ ((internal_locate_compare_to Example.params Example.tree 30 Example.tree.root_iter).2
          = kExactMatch
        ↔ ∃ x ∈ Example.tree.inorder, Example.tree.comp (Example.params.key x) 30 = 0) :=
  ⟨Example.int_compare_lawful, by decide, by decide,
    (locate_compare_to_correct Example.params Example.tree 30 Example.int_compare_lawful
      (by decide) (by decide)).1⟩

/-- C29: for every node holding `n` values, every index `i` with `i ≤ n` and every value `x`,
`insert_value(i, x)` leaves the node with `n + 1` values: the old values before index `i`,
then `x`, then the old values from index `i` on; so `x` lands at index `i`, the values before
it keep their indices and the values after it move up by one. -/
theorem insert_value_correct [Inhabited V] (n : Node V) (i : Nat) (x : V) (hi : i ≤ n.count) :
    (n.insert_value i x).count = n.count + 1
      ∧ (n.insert_value i x).values = n.values.take i ++ x :: n.values.drop i
      ∧ (n.insert_value i x).value i = x
      ∧ (∀ j, j < i → (n.insert_value i x).value j = n.value j)
      ∧ (∀ j, i ≤ j → j < n.count → (n.insert_value i x).value (j + 1) = n.value j) := by
  obtain ⟨hv, _⟩ := Node.insert_value_values n i x hi
  have hlen : n.values.length = n.count := rfl
  have htl : (n.values.take i).length = i := by
    rw [List.length_take]
    omega
  refine ⟨?_, hv, ?_, ?_, ?_⟩
  · show (n.insert_value i x).values.length = _
    rw [hv, List.length_append, List.length_cons, htl, List.length_drop]
    omega
  · simp only [Node.value]
    rw [hv, List.getD_eq_getElem?_getD, List.getElem?_append_right (by omega), htl]
    simp
  · intro j hj
    simp only [Node.value]
    rw [hv, List.getD_eq_getElem?_getD, List.getD_eq_getElem?_getD,
      List.getElem?_append_left (by omega), List.getElem?_take_of_lt hj]
  · intro j h1 h2
    simp only [Node.value]
    rw [hv, List.getD_eq_getElem?_getD, List.getD_eq_getElem?_getD,
      List.getElem?_append_right (by omega), htl]
    have e : j + 1 - i = (j - i) + 1 := by omega
    rw [e, List.getElem?_cons_succ, List.getElem?_drop]
    congr 2
    omega

theorem insert_value_correct_witness :
    1 ≤ (Node.leaf_node 3 [10, 30]).count
      ∧ ((Node.leaf_node 3 [10, 30]).insert_value 1 (20 : Int)).count
          = (Node.leaf_node 3 [10, 30]).count + 1
      ∧ ((Node.leaf_node 3 [10, 30]).insert_value 1 (20 : Int)).values
          = (Node.leaf_node 3 [10, 30]).values.take 1
            ++ 20 :: (Node.leaf_node 3 [10, 30]).values.drop 1 :=
  ⟨by decide, (insert_value_correct (Node.leaf_node 3 [10, 30]) 1 (20 : Int) (by decide)).1,
    (insert_value_correct (Node.leaf_node 3 [10, 30]) 1 (20 : Int) (by decide)).2.1⟩

end Btree

end CppBtree

namespace CppBtree

variable {K V : Type}

namespace Btree

section HintSame

variable [Inhabited V]

theorem le_strict_before (key : V → K) (comp : K → K → Int) (hc : LawfulComp comp) (v y : V)
    (l : List V) (hs : (l ++ [y]).Pairwise (key_le key comp))
    (hy : comp (key y) (key v) < 0) : ∀ x ∈ l ++ [y], comp (key x) (key v) < 0 := by
  intro x hx
  rcases List.mem_append.mp hx with hm | hm
  · have h1 : key_le key comp x y := (List.pairwise_append.mp hs).2.2 x hm y (by simp)
    exact hc.lt_of_le_of_lt _ _ _ h1 hy
  · simp only [List.mem_singleton] at hm
    rw [hm]
    exact hy

theorem le_strict_after (key : V → K) (comp : K → K → Int) (hc : LawfulComp comp) (v y : V)
    (l : List V) (hs : (y :: l).Pairwise (key_le key comp))
    (hy : comp (key v) (key y) < 0) : ∀ x ∈ y :: l, comp (key x) (key v) > 0 := by
  intro x hx
  have hyv : comp (key y) (key v) > 0 := (hc.swap_lt _ _).mp hy
  rcases List.mem_cons.mp hx with e | hm
  · rw [e]
    exact hyv
  · have h1 : key_le key comp y x := (List.pairwise_cons.mp hs).1 x hm
    exact hc.gt_of_gt_of_le _ _ _ h1 hyv

/-- The three ways `insert_unique(position, v)` ends for a valid hint: the plain
`insert_unique(v)`; an insertion at a place with only smaller keys before it and only greater
keys after it; or nothing, the hint designating a value with the key of `v`. -/
theorem insert_unique_hint_cases (P : Params K V) (t : Btree K V)
    (hc : LawfulComp t.comp) (hS : Shaped P t) (hs : Sorted P t) (position : Iter)
    (l1 l2 : List V) (hpos : IterTo t position l1 l2) (v : V) :
    insert_unique_hint P t position v = ((insert_unique P t v).1, (insert_unique P t v).2.1)
      ∨ (∃ it m1 m2, insert_unique_hint P t position v = internal_insert P t it v
          ∧ Splits t it m1 m2 ∧ (∀ x ∈ m1, t.comp (P.key x) (P.key v) < 0)
          ∧ (∀ x ∈ m2, t.comp (P.key x) (P.key v) > 0))
      ∨ (insert_unique_hint P t position v = (t, position) ∧ PointsAt t position
          ∧ t.comp (P.key (t.deref position)) (P.key v) = 0) := by
  unfold insert_unique_hint
  simp only []
  by_cases he : t.empty = true
  · rw [if_pos he]
    exact Or.inl rfl
  rw [if_neg he]
  have hne : t.root.isSome = true := by
    simp only [empty] at he
    cases h : t.root <;> simp_all
  have hsp := iterTo_splits P t hS hne position l1 l2 hpos
  have hio := splits_inorder P t position l1 l2 hS hsp
  have hs' : (l1 ++ l2).Pairwise (key_le P.key t.comp) := by
    rw [← hio]
    exact hs
  have hhead := iterTo_head P t hS position l1 l2 hpos
  have hlast := iterTo_last P t hS hne position l1 l2 hpos
  by_cases c1 : position = t.end_ ∨ t.compare_keys (P.key v) (key_at P t position) = true
  · rw [if_pos c1]
    by_cases c2 : position = t.begin_
        ∨ t.compare_keys (key_at P t (t.decrement position)) (P.key v) = true
    · rw [if_pos c2]
      refine Or.inr (Or.inl ⟨position, l1, l2, rfl, hsp, ?_, ?_⟩)
      · rcases hlast with ⟨_, e⟩ | ⟨hnb, l0, e⟩
        · rw [e]
          simp
        · rcases c2 with c2 | c2
          · exact absurd c2 hnb
          · rw [e]
            apply le_strict_before P.key t.comp hc v _ l0
            · rw [e] at hs'
              exact (List.pairwise_append.mp hs').1
            · simpa [compare_keys, key_at] using c2
      · rcases hhead with ⟨_, e⟩ | ⟨hnend, _, l3, e⟩
        · rw [e]
          simp
        · rcases c1 with c1 | c1
          · exact absurd c1 hnend
          · rw [e]
            apply le_strict_after P.key t.comp hc v _ l3
            · rw [e] at hs'
              exact (List.pairwise_append.mp hs').2.1
            · simpa [compare_keys, key_at] using c1
    · rw [if_neg c2]
      exact Or.inl rfl
  · rw [if_neg c1]
    rcases hhead with ⟨e, _⟩ | ⟨_, hpa, l3, e⟩
    · exact absurd (Or.inl e) c1
    · by_cases c4 : t.compare_keys (key_at P t position) (P.key v) = true
      · rw [if_pos c4]
        have hlt : t.comp (P.key (t.deref position)) (P.key v) < 0 := by
          simpa [compare_keys, key_at] using c4
        rw [e] at hsp hs'
        have hnext := increment_spec P t hS position l1 l3 _ hpa hsp
        by_cases c3 : t.increment position = t.end_
            ∨ t.compare_keys (P.key v) (key_at P t (t.increment position)) = true
        · rw [if_pos c3]
          have hsp2 := iterTo_splits P t hS hne _ _ _ hnext
          have e3 : l1 ++ t.deref position :: l3 = (l1 ++ [t.deref position]) ++ l3 := by simp
          rw [e3] at hs'
          refine Or.inr (Or.inl ⟨_, _, _, rfl, hsp2, ?_, ?_⟩)
          · exact le_strict_before P.key t.comp hc v _ l1 (List.pairwise_append.mp hs').1 hlt
          · rcases iterTo_head P t hS _ _ _ hnext with ⟨_, e2⟩ | ⟨hnend, _, l4, e2⟩
            · rw [e2]
              simp
            · rcases c3 with c3 | c3
              · exact absurd c3 hnend
              · rw [e2]
                apply le_strict_after P.key t.comp hc v _ l4
                · rw [e2] at hs'
                  exact (List.pairwise_append.mp hs').2.1
                · simpa [compare_keys, key_at] using c3
        · rw [if_neg c3]
          exact Or.inl rfl
      · rw [if_neg c4]
        refine Or.inr (Or.inr ⟨rfl, hpa, ?_⟩)
        have h1 : ¬ t.comp (P.key v) (P.key (t.deref position)) < 0 := by
          have : ¬ t.compare_keys (P.key v) (key_at P t position) = true :=
            fun h => c1 (Or.inr h)
          simpa [compare_keys, key_at] using this
        have h2 : ¬ t.comp (P.key (t.deref position)) (P.key v) < 0 := by
          simpa [compare_keys, key_at] using c4
        exact hc.eq_zero_of_not_lt _ _ h2 h1

/-- The hinted `insert_unique` leaves the same in-order sequence as the plain one and returns
an iterator to a value with the key of `v`. -/
theorem insert_unique_hint_same (P : Params K V) (hB : 3 ≤ P.kNodeValues) (t : Btree K V)
    (hc : LawfulComp t.comp) (hS : Shaped P t) (hs : Sorted P t) (position : Iter)
    (l1 l2 : List V) (hpos : IterTo t position l1 l2) (v : V) :
    (insert_unique_hint P t position v).1.inorder = (insert_unique P t v).1.inorder
      ∧ (insert_unique_hint P t position v).1.comp = t.comp
      ∧ Shaped P (insert_unique_hint P t position v).1
      ∧ PointsAt (insert_unique_hint P t position v).1 (insert_unique_hint P t position v).2
      ∧ t.comp (P.key ((insert_unique_hint P t position v).1.deref
          (insert_unique_hint P t position v).2)) (P.key v) = 0 := by
  have hplain := insert_unique_key_spec P t (P.key v) v hB hc hS hs
  have hv0 := hc.self_eq_zero (P.key v)
  rcases insert_unique_hint_cases P t hc hS hs position l1 l2 hpos v with
    e | ⟨it, m1, m2, e, hsp, h1, h2⟩ | ⟨e, hpa, h0⟩
  · rw [e]
    rcases hplain with ⟨_, a2, a3, a4⟩ | ⟨_, _, b1, b2, _, b4, _, b6⟩
    · refine ⟨rfl, ?_, ?_, ?_, ?_⟩
      · show (insert_unique_key P t (P.key v) v).1.comp = t.comp
        rw [a2]
      · show Shaped P (insert_unique_key P t (P.key v) v).1
        rw [a2]
        exact hS
      · show PointsAt (insert_unique_key P t (P.key v) v).1 (insert_unique_key P t (P.key v) v).2.1
        rw [a2]
        exact a3
      · show t.comp (P.key ((insert_unique_key P t (P.key v) v).1.deref
          (insert_unique_key P t (P.key v) v).2.1)) (P.key v) = 0
        rw [a2]
        exact a4
    · refine ⟨rfl, b1, b2, b4, ?_⟩
      show t.comp (P.key ((insert_unique_key P t (P.key v) v).1.deref
        (insert_unique_key P t (P.key v) v).2.1)) (P.key v) = 0
      rw [b6]
      exact hv0
  · rw [e]
    obtain ⟨c1, c2, c3, c4, _, c6⟩ := internal_insert_spec P t it v m1 m2 hB hS hsp
    have hio := splits_inorder P t it m1 m2 hS hsp
    refine ⟨?_, c1, c2, c4, by rw [c6]; exact hv0⟩
    rcases hplain with ⟨_, _, a3, a4⟩ | ⟨_, _, _, _, b3, _⟩
    · have hm := pointsAt_mem P t _ hS a3
      rw [hio] at hm
      rcases List.mem_append.mp hm with hm | hm
      · have := h1 _ hm
        omega
      · have := h2 _ hm
        omega
    · have hb3 : (insert_unique P t v).1.inorder
          = t.inorder.takeWhile (fun x => decide (t.comp (P.key x) (P.key v) < 0))
            ++ v :: t.inorder.dropWhile (fun x => decide (t.comp (P.key x) (P.key v) < 0)) := b3
      obtain ⟨t1, t2⟩ := takeWhile_of_split (fun x => decide (t.comp (P.key x) (P.key v) < 0))
        m1 m2 (fun x hx => by simpa using h1 x hx)
        (fun x hx => by have := h2 x hx; simp; omega)
      rw [c3, hb3, hio, t1, t2]
  · rw [e]
    refine ⟨?_, rfl, hS, hpa, h0⟩
    rcases hplain with ⟨_, a2, _, _⟩ | ⟨_, b0, _⟩
    · show t.inorder = (insert_unique_key P t (P.key v) v).1.inorder
      rw [a2]
    · exact absurd h0 (b0 _ (pointsAt_mem P t _ hS hpa))

end HintSame

end Btree

end CppBtree

namespace CppBtree

variable {K V : Type}

namespace Example

theorem coarse_compare_lawful : LawfulComp coarse_compare :=
  ⟨fun a b => by simp only [coarse_compare]; omega,
    fun a b c h1 h2 => by simp only [coarse_compare] at *; omega⟩

end Example

namespace Btree

/-- C21: for two well-shaped sorted trees `a` and `b` with lawful comparators, after
`a.swap(b)` the tree `a` holds the former values, size and comparator of `b`, and `b` those of
`a`; a later `insert_unique(v)` on either tree decides key equality with the swapped-in
comparator: on the new `a` it reports "not inserted" exactly when a former value of `b` compares
equal to `v` under the former comparator of `b`, and symmetrically on the new `b`. -/
theorem swap_exchanges [Inhabited V] (P : Params K V) (a b : Btree K V) (v : V)
    (hB : 3 ≤ P.kNodeValues) (hca : LawfulComp a.comp) (hcb : LawfulComp b.comp)
    (hSa : Shaped P a) (hSb : Shaped P b) (hsa : Sorted P a) (hsb : Sorted P b) :
    (swap a b).1.inorder = b.inorder ∧ (swap a b).1.comp = b.comp
      ∧ (swap a b).1.size = b.size
      ∧ (swap a b).2.inorder = a.inorder ∧ (swap a b).2.comp = a.comp
      ∧ (swap a b).2.size = a.size
      ∧ ((insert_unique P (swap a b).1 v).2.2 = false
          ↔ ∃ x ∈ b.inorder, b.comp (P.key x) (P.key v) = 0)
      ∧ ((insert_unique P (swap a b).2 v).2.2 = false
          ↔ ∃ x ∈ a.inorder, a.comp (P.key x) (P.key v) = 0) := by
  have key : ∀ (t : Btree K V), LawfulComp t.comp → Shaped P t → Sorted P t →
      ((insert_unique P t v).2.2 = false ↔ ∃ x ∈ t.inorder, t.comp (P.key x) (P.key v) = 0) := by
    intro t hc hS hs
    rcases insert_unique_key_spec P t (P.key v) v hB hc hS hs with
      ⟨h1, _, h3, h4⟩ | ⟨h1, h2, _⟩
    · exact ⟨fun _ => ⟨_, pointsAt_mem P t _ hS h3, h4⟩, fun _ => h1⟩
    · refine ⟨fun h => ?_, fun ⟨x, hx, h0⟩ => absurd h0 (h2 x hx)⟩
      have h1' : (insert_unique P t v).2.2 = true := h1
      rw [h1'] at h
      simp at h
  have e1 : (swap a b).1 = b := rfl
  have e2 : (swap a b).2 = a := rfl
  rw [e1, e2]
  exact ⟨rfl, rfl, rfl, rfl, rfl, rfl, key b hcb hSb hsb, key a hca hSa hsa⟩

theorem swap_exchanges_witness :
    3 ≤ Example.params.kNodeValues ∧ LawfulComp Example.coarse_tree.comp
      ∧ LawfulComp Example.fine_tree.comp
      ∧ Shaped Example.params Example.coarse_tree ∧ Shaped Example.params Example.fine_tree
      ∧ Sorted Example.params Example.coarse_tree ∧ Sorted Example.params Example.fine_tree
      ∧ (insert_unique Example.params Example.coarse_tree 12).2.2 = false
      ∧ (insert_unique Example.params (swap Example.coarse_tree Example.fine_tree).1 13).2.2
          = true
      ∧ (insert_unique Example.params (swap Example.coarse_tree Example.fine_tree).2 13).2.2
          = false
      ∧ ((insert_unique Example.params (swap Example.coarse_tree Example.fine_tree).1 13).2.2
            = false
          ↔ ∃ x ∈ Example.fine_tree.inorder,
              Example.fine_tree.comp (Example.params.key x) (Example.params.key 13) = 0) :=
  ⟨by decide, Example.coarse_compare_lawful, Example.int_compare_lawful, by decide, by decide,
    by decide, by decide, by decide, by decide, by decide,
    (swap_exchanges Example.params Example.coarse_tree Example.fine_tree 13 (by decide)
      Example.coarse_compare_lawful Example.int_compare_lawful (by decide) (by decide)
      (by decide) (by decide)).2.2.2.2.2.2.1⟩

/-- C22: for every valid tree with a lawful comparator, every hint in `[begin(), end()]` (the
iterator reached from `begin()` by `n` steps, `n` at most `size()`) and every value `v`, the
hinted insertion gives the same collection as the plain one whatever the hint:
`insert_unique(hint, v)` leaves the same in-order sequence as `insert_unique(v)` and returns an
iterator that designates a value whose key compares equal to the key of `v`;
`insert_multi(hint, v)` leaves a well-shaped tree whose in-order sequence is non-decreasing and
consists of the old values with `v` put at one place among them. -/
theorem hinted_insert_agrees [Inhabited V] (P : Params K V) (t : Btree K V)
    (hc : LawfulComp t.comp) (hv : Valid P t) (n : Nat) (hn : n ≤ t.size) (v : V) :
    (insert_unique_hint P t (t.nth_iter n) v).1.inorder = (insert_unique P t v).1.inorder
      ∧ PointsAt (insert_unique_hint P t (t.nth_iter n) v).1
          (insert_unique_hint P t (t.nth_iter n) v).2
      ∧ t.comp (P.key ((insert_unique_hint P t (t.nth_iter n) v).1.deref
          (insert_unique_hint P t (t.nth_iter n) v).2)) (P.key v) = 0
      ∧ Shaped P (insert_multi_hint P t (t.nth_iter n) v).1
      ∧ Sorted P (insert_multi_hint P t (t.nth_iter n) v).1
      ∧ ∃ a b, t.inorder = a ++ b
          ∧ (insert_multi_hint P t (t.nth_iter n) v).1.inorder = a ++ v :: b := by
  obtain ⟨hB, hS, hs⟩ := hv
  have hpos := nth_iter_spec P t hS n (by rw [← size_eq_length P t hS]; exact hn)
  obtain ⟨a1, _, _, a4, a5⟩ := insert_unique_hint_same P hB t hc hS hs _ _ _ hpos v
  obtain ⟨⟨_, b2, b3⟩, b4⟩ := insert_multi_hint_spec P hB t hc hS hs _ _ _ hpos v
  exact ⟨a1, a4, a5, b2, b4, b3⟩

theorem hinted_insert_agrees_witness :
    LawfulComp Example.tree.comp ∧ Valid Example.params Example.tree
      ∧ 0 ≤ Example.tree.size
      ∧ ((insert_unique_hint Example.params Example.tree (Example.tree.nth_iter 0) 35).1.inorder
          = (insert_unique Example.params Example.tree 35).1.inorder
        ∧ PointsAt (insert_unique_hint Example.params Example.tree (Example.tree.nth_iter 0) 35).1
            (insert_unique_hint Example.params Example.tree (Example.tree.nth_iter 0) 35).2
        ∧ Example.tree.comp (Example.params.key
            ((insert_unique_hint Example.params Example.tree (Example.tree.nth_iter 0) 35).1.deref
              (insert_unique_hint Example.params Example.tree (Example.tree.nth_iter 0) 35).2))
            (Example.params.key 35) = 0
        ∧ Shaped Example.params
            (insert_multi_hint Example.params Example.tree (Example.tree.nth_iter 0) 35).1
        ∧ Sorted Example.params
            (insert_multi_hint Example.params Example.tree (Example.tree.nth_iter 0) 35).1
        ∧ ∃ a b, Example.tree.inorder = a ++ b
            ∧ (insert_multi_hint Example.params Example.tree
                (Example.tree.nth_iter 0) 35).1.inorder = a ++ 35 :: b) :=
  ⟨Example.int_compare_lawful, by decide, by decide,
    hinted_insert_agrees Example.params Example.tree Example.int_compare_lawful (by decide) 0
      (by decide) 35⟩

end Btree

end CppBtree

namespace CppBtree

namespace LNode

theorem eta (n : LNode) : mk n.id n.parent n.position n.count n.is_leaf n.slots = n := by
  cases n; rfl

@[simp] theorem with_slots_slots (n : LNode) (s) : (n.with_slots s).slots = s := rfl
@[simp] theorem with_slots_id (n : LNode) (s) : (n.with_slots s).id = n.id := rfl
@[simp] theorem with_slots_parent (n : LNode) (s) : (n.with_slots s).parent = n.parent := rfl
@[simp] theorem with_slots_position (n : LNode) (s) : (n.with_slots s).position = n.position := rfl
@[simp] theorem with_slots_count (n : LNode) (s) : (n.with_slots s).count = n.count := rfl
@[simp] theorem with_slots_is_leaf (n : LNode) (s) : (n.with_slots s).is_leaf = n.is_leaf := rfl

@[simp] theorem set_count_slots (n : LNode) (v) : (n.set_count v).slots = n.slots := rfl
@[simp] theorem set_count_id (n : LNode) (v) : (n.set_count v).id = n.id := rfl
@[simp] theorem set_count_parent (n : LNode) (v) : (n.set_count v).parent = n.parent := rfl
@[simp] theorem set_count_position (n : LNode) (v) : (n.set_count v).position = n.position := rfl
@[simp] theorem set_count_count (n : LNode) (v) : (n.set_count v).count = v := rfl
@[simp] theorem set_count_is_leaf (n : LNode) (v) : (n.set_count v).is_leaf = n.is_leaf := rfl
@[simp] theorem set_count_slot (n : LNode) (v i) : (n.set_count v).slot i = n.slot i := rfl

@[simp] theorem set_position_slots (n : LNode) (v) : (n.set_position v).slots = n.slots := rfl
@[simp] theorem set_position_id (n : LNode) (v) : (n.set_position v).id = n.id := rfl
@[simp] theorem set_position_parent (n : LNode) (v) : (n.set_position v).parent = n.parent := rfl
@[simp] theorem set_position_position (n : LNode) (v) : (n.set_position v).position = v := rfl
@[simp] theorem set_position_count (n : LNode) (v) : (n.set_position v).count = n.count := rfl
@[simp] theorem set_position_is_leaf (n : LNode) (v) :
    (n.set_position v).is_leaf = n.is_leaf := rfl

@[simp] theorem relink_slots (n : LNode) (p i) : (n.relink p i).slots = n.slots := rfl
@[simp] theorem relink_id (n : LNode) (p i) : (n.relink p i).id = n.id := rfl
@[simp] theorem relink_parent (n : LNode) (p i) : (n.relink p i).parent = p := rfl
@[simp] theorem relink_position (n : LNode) (p i) : (n.relink p i).position = i := rfl
@[simp] theorem relink_count (n : LNode) (p i) : (n.relink p i).count = n.count := rfl
@[simp] theorem relink_is_leaf (n : LNode) (p i) : (n.relink p i).is_leaf = n.is_leaf := rfl
@[simp] theorem relink_slot (n : LNode) (p i j) : (n.relink p i).slot j = n.slot j := rfl

theorem slot_eq (n : LNode) (i : Nat) : n.slot i = (n.slots[i]?).getD none := by
  simp [slot, List.getD_eq_getElem?_getD]

theorem slot_of_le (n : LNode) (i : Nat) (h : n.slots.length ≤ i) : n.slot i = none := by
  rw [slot_eq, List.getElem?_eq_none h]; rfl

/-- The slots of a list with one slot overwritten. -/
theorem getD_set (l : List (Option LNode)) (i j : Nat) (x : Option LNode) :
    ((l.set i x)[j]?).getD none = if j = i ∧ i < l.length then x else (l[j]?).getD none := by
  rw [List.getElem?_set]
  by_cases h : i = j
  · subst h
    by_cases h2 : i < l.length
    · simp [h2]
    · simp [h2, List.getElem?_eq_none (Nat.le_of_not_lt h2)]
  · have : ¬ (j = i ∧ i < l.length) := fun c => h c.1.symm
    simp [h, this]

/-- The header of `set_child` and its slots. -/
theorem set_child_slot (n : LNode) (i : Nat) (c : LNode) (j : Nat) :
    (n.set_child i c).slot j
      = if j = i ∧ i < n.slots.length then some (c.relink n.id i) else n.slot j := by
  rw [slot_eq, slot_eq]; exact getD_set _ _ _ _

@[simp] theorem set_child_id (n : LNode) (i c) : (n.set_child i c).id = n.id := rfl
@[simp] theorem set_child_keeps_count (n : LNode) (i c) : (n.set_child i c).count = n.count := rfl
@[simp] theorem set_child_is_leaf (n : LNode) (i c) :
    (n.set_child i c).is_leaf = n.is_leaf := rfl
@[simp] theorem set_child_parent (n : LNode) (i c) : (n.set_child i c).parent = n.parent := rfl
@[simp] theorem set_child_position (n : LNode) (i c) :
    (n.set_child i c).position = n.position := rfl
@[simp] theorem set_child_length (n : LNode) (i c) :
    (n.set_child i c).slots.length = n.slots.length := by
  simp [set_child]

theorem put_slot (n : LNode) (i : Nat) (c : LNode) (j : Nat) :
    (n.put i c).slot j = if j = i ∧ i < n.slots.length then some c else n.slot j := by
  rw [slot_eq, slot_eq]; exact getD_set _ _ _ _

@[simp] theorem put_id (n : LNode) (i c) : (n.put i c).id = n.id := rfl
@[simp] theorem put_count (n : LNode) (i c) : (n.put i c).count = n.count := rfl
@[simp] theorem put_is_leaf (n : LNode) (i c) : (n.put i c).is_leaf = n.is_leaf := rfl
@[simp] theorem put_length (n : LNode) (i c) : (n.put i c).slots.length = n.slots.length := by
  simp [put]

theorem extract_child_slot (n : LNode) (i j : Nat) :
    (n.extract_child i).2.slot j = if j = i then none else n.slot j := by
  rw [slot_eq, slot_eq]
  show (((n.slots.set i none))[j]?).getD none = _
  rw [getD_set]
  by_cases h : j = i
  · subst h
    by_cases h2 : j < n.slots.length
    · simp [h2]
    · simp [h2, List.getElem?_eq_none (Nat.le_of_not_lt h2)]
  · simp [h]

@[simp] theorem extract_child_id (n : LNode) (i) : (n.extract_child i).2.id = n.id := rfl
@[simp] theorem extract_child_count (n : LNode) (i) :
    (n.extract_child i).2.count = n.count := rfl
@[simp] theorem extract_child_is_leaf (n : LNode) (i) :
    (n.extract_child i).2.is_leaf = n.is_leaf := rfl
@[simp] theorem extract_child_length (n : LNode) (i) :
    (n.extract_child i).2.slots.length = n.slots.length := by
  simp [extract_child]

/-- Reading a list made of four parts. -/
theorem getElem?_four {α : Type} (xa xb xc xd : List α) (j : Nat) :
    (xa ++ xb ++ xc ++ xd)[j]?
      = if j < xa.length then (xa[j]?)
        else if j < xa.length + xb.length then (xb[j - xa.length]?)
        else if j < xa.length + xb.length + xc.length then (xc[j - (xa.length + xb.length)]?)
        else (xd[j - (xa.length + xb.length + xc.length)]?) := by
  by_cases h1 : j < xa.length
  · rw [if_pos h1, List.append_assoc, List.append_assoc, List.getElem?_append_left h1]
  · rw [if_neg h1, List.append_assoc, List.append_assoc,
      List.getElem?_append_right (Nat.le_of_not_lt h1)]
    by_cases h2 : j < xa.length + xb.length
    · rw [if_pos h2, List.getElem?_append_left (by omega)]
    · rw [if_neg h2, List.getElem?_append_right (by omega)]
      by_cases h3 : j < xa.length + xb.length + xc.length
      · rw [if_pos h3, List.getElem?_append_left (by omega)]
        congr 1; omega
      · rw [if_neg h3, List.getElem?_append_right (by omega)]
        congr 1; omega

/-- The slots after `shift_children_right`. -/
theorem shift_children_right_slot (n : LNode) (first last shift : Nat) (h1 : first ≤ last)
    (h2 : last + shift ≤ n.slots.length) (j : Nat) :
    (n.shift_children_right first last shift).slot j
      = if j < first then n.slot j
        else if j < first + shift then none
        else if j < last + shift then
          (n.slot (j - shift)).map (fun c => c.set_position (c.position + shift))
        else n.slot j := by
  rw [slot_eq]
  show ((n.slots.take first ++ List.replicate shift none
    ++ ((n.slots.drop first).take (last - first)).map
        (Option.map (fun c => c.set_position (c.position + shift)))
    ++ n.slots.drop (last + shift))[j]?).getD none = _
  rw [getElem?_four]
  have l1 : (n.slots.take first).length = first := by rw [List.length_take]; omega
  have l2 : (List.replicate shift (none : Option LNode)).length = shift := by simp
  have l3 : (((n.slots.drop first).take (last - first)).map
        (Option.map (fun c => c.set_position (c.position + shift)))).length = last - first := by
    rw [List.length_map, List.length_take, List.length_drop]; omega
  rw [l1, l2, l3]
  by_cases c1 : j < first
  · rw [if_pos c1, if_pos c1, List.getElem?_take_of_lt c1, slot_eq]
  · rw [if_neg c1, if_neg c1]
    by_cases c2 : j < first + shift
    · rw [if_pos c2, if_pos c2, List.getElem?_replicate, if_pos (by omega)]; rfl
    · rw [if_neg c2, if_neg c2]
      by_cases c3 : j < last + shift
      · rw [if_pos (by omega), if_pos c3, List.getElem?_map,
          List.getElem?_take_of_lt (by omega), List.getElem?_drop, slot_eq]
        have e : first + (j - (first + shift)) = j - shift := by omega
        rw [e]
        have hlt : j - shift < n.slots.length := by omega
        rw [List.getElem?_eq_getElem hlt]
        rfl
      · rw [if_neg (by omega), if_neg c3, List.getElem?_drop, slot_eq]
        have e : last + shift + (j - (first + shift + (last - first))) = j := by omega
        rw [e]

/-- The slots after `shift_children_left`. -/
theorem shift_children_left_slot (n : LNode) (first last shift : Nat) (h0 : shift ≤ first)
    (h1 : first ≤ last) (h2 : last ≤ n.slots.length) (j : Nat) :
    (n.shift_children_left first last shift).slot j
      = if j < first - shift then n.slot j
        else if j < last - shift then
          (n.slot (j + shift)).map (fun c => c.set_position (c.position - shift))
        else if j < last then none
        else n.slot j := by
  rw [slot_eq]
  show ((n.slots.take (first - shift)
    ++ ((n.slots.drop first).take (last - first)).map
        (Option.map (fun c => c.set_position (c.position - shift)))
    ++ List.replicate shift none ++ n.slots.drop last)[j]?).getD none = _
  rw [getElem?_four]
  have l1 : (n.slots.take (first - shift)).length = first - shift := by
    rw [List.length_take]; omega
  have l2 : (List.replicate shift (none : Option LNode)).length = shift := by simp
  have l3 : (((n.slots.drop first).take (last - first)).map
        (Option.map (fun c => c.set_position (c.position - shift)))).length = last - first := by
    rw [List.length_map, List.length_take, List.length_drop]; omega
  rw [l1, l2, l3]
  by_cases c1 : j < first - shift
  · rw [if_pos c1, if_pos c1, List.getElem?_take_of_lt c1, slot_eq]
  · rw [if_neg c1, if_neg c1]
    by_cases c2 : j < last - shift
    · rw [if_pos (by omega), if_pos c2, List.getElem?_map,
        List.getElem?_take_of_lt (by omega), List.getElem?_drop, slot_eq]
      have e : first + (j - (first - shift)) = j + shift := by omega
      rw [e]
      have hlt : j + shift < n.slots.length := by omega
      rw [List.getElem?_eq_getElem hlt]
      rfl
    · rw [if_neg (by omega), if_neg c2]
      by_cases c3 : j < last
      · rw [if_pos (by omega), if_pos c3, List.getElem?_replicate, if_pos (by omega)]; rfl
      · rw [if_neg (by omega), if_neg c3, List.getElem?_drop, slot_eq]
        have e : last + (j - (first - shift + (last - first) + shift)) = j := by omega
        rw [e]

@[simp] theorem shift_children_right_id (n : LNode) (a b c) :
    (n.shift_children_right a b c).id = n.id := rfl
@[simp] theorem shift_children_right_count (n : LNode) (a b c) :
    (n.shift_children_right a b c).count = n.count := rfl
@[simp] theorem shift_children_right_is_leaf (n : LNode) (a b c) :
    (n.shift_children_right a b c).is_leaf = n.is_leaf := rfl
@[simp] theorem shift_children_left_id (n : LNode) (a b c) :
    (n.shift_children_left a b c).id = n.id := rfl
@[simp] theorem shift_children_left_count (n : LNode) (a b c) :
    (n.shift_children_left a b c).count = n.count := rfl
@[simp] theorem shift_children_left_is_leaf (n : LNode) (a b c) :
    (n.shift_children_left a b c).is_leaf = n.is_leaf := rfl

theorem shift_children_right_length (n : LNode) (first last shift : Nat) (h1 : first ≤ last)
    (h2 : last + shift ≤ n.slots.length) :
    (n.shift_children_right first last shift).slots.length = n.slots.length := by
  show (n.slots.take first ++ List.replicate shift none
    ++ ((n.slots.drop first).take (last - first)).map
        (Option.map (fun (c : LNode) => c.set_position (c.position + shift)))
    ++ n.slots.drop (last + shift)).length = _
  simp only [List.length_append, List.length_take, List.length_replicate, List.length_map,
    List.length_drop]
  omega

theorem shift_children_left_length (n : LNode) (first last shift : Nat) (h0 : shift ≤ first)
    (h1 : first ≤ last) (h2 : last ≤ n.slots.length) :
    (n.shift_children_left first last shift).slots.length = n.slots.length := by
  show (n.slots.take (first - shift)
    ++ ((n.slots.drop first).take (last - first)).map
        (Option.map (fun (c : LNode) => c.set_position (c.position - shift)))
    ++ List.replicate shift none ++ n.slots.drop last).length = _
  simp only [List.length_append, List.length_take, List.length_replicate, List.length_map,
    List.length_drop]
  omega

end LNode

end CppBtree

namespace CppBtree

namespace LNode

/-- The slots after `fill_null`. -/
theorem fill_null_slot (n : LNode) (first k : Nat) (h : first + k ≤ n.slots.length) (j : Nat) :
    (n.fill_null first k).slot j = if first ≤ j ∧ j < first + k then none else n.slot j := by
  rw [slot_eq]
  show ((n.slots.take first ++ List.replicate (min k (n.slots.length - first)) none
    ++ n.slots.drop (first + k))[j]?).getD none = _
  have hm : min k (n.slots.length - first) = k := by omega
  rw [hm]
  have l1 : (n.slots.take first).length = first := by rw [List.length_take]; omega
  have l2 : (List.replicate k (none : Option LNode)).length = k := by simp
  by_cases c1 : j < first
  · rw [if_neg (by omega), List.append_assoc, List.getElem?_append_left (by omega),
      List.getElem?_take_of_lt c1, slot_eq]
  · rw [List.append_assoc, List.getElem?_append_right (by omega), l1]
    by_cases c2 : j < first + k
    · rw [if_pos ⟨by omega, c2⟩, List.getElem?_append_left (by omega),
        List.getElem?_replicate, if_pos (by omega)]
      rfl
    · rw [if_neg (by omega), List.getElem?_append_right (by omega), l2, List.getElem?_drop,
        slot_eq]
      have e2 : first + k + (j - first - k) = j := by omega
      rw [e2]

@[simp] theorem fill_null_id (n : LNode) (a b) : (n.fill_null a b).id = n.id := rfl
@[simp] theorem fill_null_count (n : LNode) (a b) : (n.fill_null a b).count = n.count := rfl
@[simp] theorem fill_null_is_leaf (n : LNode) (a b) :
    (n.fill_null a b).is_leaf = n.is_leaf := rfl

theorem fill_null_length (n : LNode) (first k : Nat) (h : first + k ≤ n.slots.length) :
    (n.fill_null first k).slots.length = n.slots.length := by
  show (n.slots.take first ++ List.replicate (min k (n.slots.length - first)) none
    ++ n.slots.drop (first + k)).length = _
  simp only [List.length_append, List.length_take, List.length_replicate, List.length_drop]
  omega

/-- What `receive_children_n` does when the `k` source slots hold children. -/
theorem receive_children_n_spec : ∀ (k : Nat) (this src : LNode) (d f : Nat),
    (∀ j, j < k → (src.slot (f + j)).isSome = true) → d + k ≤ this.slots.length →
    (receive_children_n this src d f k).1.id = this.id
      ∧ (receive_children_n this src d f k).1.count = this.count
      ∧ (receive_children_n this src d f k).1.is_leaf = this.is_leaf
      ∧ (receive_children_n this src d f k).1.slots.length = this.slots.length
      ∧ (receive_children_n this src d f k).2.id = src.id
      ∧ (receive_children_n this src d f k).2.count = src.count
      ∧ (receive_children_n this src d f k).2.is_leaf = src.is_leaf
      ∧ (receive_children_n this src d f k).2.slots.length = src.slots.length
      ∧ (∀ j, (receive_children_n this src d f k).1.slot j
          = if d ≤ j ∧ j < d + k then (src.slot (f + (j - d))).map (fun c => c.relink this.id j)
            else this.slot j)
      ∧ (∀ j, (receive_children_n this src d f k).2.slot j
          = if f ≤ j ∧ j < f + k then none else src.slot j) := by
  intro k
  induction k with
  | zero =>
    intro this src d f _ _
    refine ⟨rfl, rfl, rfl, rfl, rfl, rfl, rfl, rfl, ?_, ?_⟩
    · intro j; rw [if_neg (by omega)]; rfl
    · intro j; rw [if_neg (by omega)]; rfl
  | succ k ih =>
    intro this src d f hs hd
    have h0 := hs 0 (by omega)
    rw [Nat.add_zero] at h0
    obtain ⟨c, hc⟩ := Option.isSome_iff_exists.mp h0
    have hstep : receive_children_n this src d f (k + 1)
        = receive_children_n (this.set_child d c) (src.extract_child f).2 (d + 1) (f + 1) k := by
      show (match (src.extract_child f).1 with
        | some c => receive_children_n (this.set_child d c) (src.extract_child f).2 (d + 1)
            (f + 1) k
        | none => (this, src)) = _
      have : (src.extract_child f).1 = some c := hc
      rw [this]
    rw [hstep]
    have hs2 : ∀ j, j < k → ((src.extract_child f).2.slot (f + 1 + j)).isSome = true := by
      intro j hj
      rw [extract_child_slot, if_neg (by omega)]
      have := hs (j + 1) (by omega)
      rw [show f + (j + 1) = f + 1 + j by omega] at this
      exact this
    obtain ⟨a1, a2, a3, a4, a5, a6, a7, a8, a9, a10⟩ :=
      ih (this.set_child d c) (src.extract_child f).2 (d + 1) (f + 1) hs2
        (by rw [set_child_length]; omega)
    refine ⟨by rw [a1]; rfl, by rw [a2]; rfl, by rw [a3]; rfl, by rw [a4, set_child_length],
      by rw [a5]; rfl, by rw [a6]; rfl, by rw [a7]; rfl, by rw [a8, extract_child_length], ?_, ?_⟩
    · intro j
      rw [a9]
      by_cases c1 : d + 1 ≤ j ∧ j < d + 1 + k
      · rw [if_pos c1, if_pos ⟨by omega, by omega⟩, extract_child_slot, if_neg (by omega)]
        rw [show f + 1 + (j - (d + 1)) = f + (j - d) by omega]
        rfl
      · rw [if_neg c1, set_child_slot]
        by_cases c2 : j = d
        · subst c2
          rw [if_pos ⟨rfl, by omega⟩, if_pos ⟨Nat.le_refl _, by omega⟩, Nat.sub_self,
            Nat.add_zero, hc]
          rfl
        · rw [if_neg (fun h => c2 h.1), if_neg (by omega)]
    · intro j
      rw [a10, extract_child_slot]
      by_cases c1 : f + 1 ≤ j ∧ j < f + 1 + k
      · rw [if_pos c1, if_pos ⟨by omega, by omega⟩]
      · rw [if_neg c1]
        by_cases c2 : j = f
        · rw [if_pos c2, if_pos ⟨by omega, by omega⟩]
        · rw [if_neg c2, if_neg (by omega)]

/-- Every step of `receive_children_n` keeps the links that were right, on both nodes. -/
theorem receive_children_n_link : ∀ (k : Nat) (this src : LNode) (d f m m2 : Nat),
    this.LinkOkUpTo m → src.LinkOkUpTo m2 →
    (receive_children_n this src d f k).1.LinkOkUpTo m
      ∧ (receive_children_n this src d f k).2.LinkOkUpTo m2 := by
  intro k
  induction k with
  | zero => intro this src d f m m2 h1 h2; exact ⟨h1, h2⟩
  | succ k ih =>
    intro this src d f m m2 h1 h2
    show LinkOkUpTo (match (src.extract_child f).1 with
        | some c => receive_children_n (this.set_child d c) (src.extract_child f).2 (d + 1)
            (f + 1) k
        | none => (this, src)).1 m ∧ LinkOkUpTo (match (src.extract_child f).1 with
        | some c => receive_children_n (this.set_child d c) (src.extract_child f).2 (d + 1)
            (f + 1) k
        | none => (this, src)).2 m2
    cases hc : (src.extract_child f).1 with
    | none => exact ⟨h1, h2⟩
    | some c =>
      apply ih
      · intro i hi x hx
        rw [set_child_slot] at hx
        by_cases c1 : i = d ∧ d < this.slots.length
        · rw [if_pos c1] at hx
          cases hx
          exact ⟨rfl, c1.1.symm ▸ rfl⟩
        · rw [if_neg c1] at hx
          exact h1 i hi x hx
      · intro i hi x hx
        rw [extract_child_slot] at hx
        by_cases c1 : i = f
        · rw [if_pos c1] at hx; cases hx
        · rw [if_neg c1] at hx
          exact h2 i hi x hx

/-- `set_child` keeps the links that were right and links the new child. -/
theorem set_child_link (n : LNode) (i : Nat) (c : LNode) (m : Nat) (h : n.LinkOkUpTo m) :
    (n.set_child i c).LinkOkUpTo m := by
  intro j hj x hx
  rw [set_child_slot] at hx
  by_cases c1 : j = i ∧ i < n.slots.length
  · rw [if_pos c1] at hx
    cases hx
    exact ⟨rfl, c1.1.symm ▸ rfl⟩
  · rw [if_neg c1] at hx
    exact h j hj x hx

/-- `set_child` on a slot past the checked range makes the range one longer. -/
theorem set_child_link_next (n : LNode) (i : Nat) (c : LNode) (hi : i < n.slots.length)
    (h : n.LinkOkUpTo i) : (n.set_child i c).LinkOkUpTo (i + 1) := by
  intro j hj x hx
  rw [set_child_slot] at hx
  by_cases c1 : j = i ∧ i < n.slots.length
  · rw [if_pos c1] at hx
    cases hx
    exact ⟨rfl, c1.1.symm ▸ rfl⟩
  · rw [if_neg c1] at hx
    exact h j (by have : j ≠ i := fun e => c1 ⟨e, hi⟩; omega) x hx

/-- `put` of a child that kept its links keeps the links that were right. -/
theorem put_link (n : LNode) (i : Nat) (c : LNode) (m : Nat) (h : n.LinkOkUpTo m)
    (hc : i < m → c.parent = n.id ∧ c.position = i) : (n.put i c).LinkOkUpTo m := by
  intro j hj x hx
  rw [put_slot] at hx
  by_cases c1 : j = i ∧ i < n.slots.length
  · rw [if_pos c1] at hx
    cases hx
    obtain ⟨e, _⟩ := c1
    subst e
    exact hc hj
  · rw [if_neg c1] at hx
    exact h j hj x hx

/-- `shift_children_right` keeps the link invariant below `last + shift`. -/
theorem shift_children_right_link (n : LNode) (first last shift : Nat) (h1 : first ≤ last)
    (h2 : last + shift ≤ n.slots.length) (h : n.LinkOkUpTo last) :
    (n.shift_children_right first last shift).LinkOkUpTo (last + shift) := by
  intro j hj x hx
  rw [shift_children_right_slot n first last shift h1 h2] at hx
  by_cases c1 : j < first
  · rw [if_pos c1] at hx; exact h j (by omega) x hx
  · rw [if_neg c1] at hx
    by_cases c2 : j < first + shift
    · rw [if_pos c2] at hx; cases hx
    · rw [if_neg c2, if_pos hj] at hx
      cases hy : n.slot (j - shift) with
      | none => rw [hy] at hx; cases hx
      | some y =>
        rw [hy] at hx
        cases hx
        obtain ⟨p1, p2⟩ := h (j - shift) (by omega) y hy
        refine ⟨p1, ?_⟩
        show y.position + shift = j
        omega

/-- `shift_children_right` keeps the link invariant of a node. -/
theorem shift_children_right_link_count (n : LNode) (first last shift m : Nat)
    (h1 : first ≤ last) (h2 : last + shift ≤ n.slots.length) (h : n.LinkOkUpTo m) :
    (n.shift_children_right first last shift).LinkOkUpTo m := by
  intro j hj x hx
  rw [shift_children_right_slot n first last shift h1 h2] at hx
  by_cases c1 : j < first
  · rw [if_pos c1] at hx; exact h j (by omega) x hx
  · rw [if_neg c1] at hx
    by_cases c2 : j < first + shift
    · rw [if_pos c2] at hx; cases hx
    · rw [if_neg c2] at hx
      by_cases c3 : j < last + shift
      · rw [if_pos c3] at hx
        cases hy : n.slot (j - shift) with
        | none => rw [hy] at hx; cases hx
        | some y =>
          rw [hy] at hx
          cases hx
          obtain ⟨p1, p2⟩ := h (j - shift) (by omega) y hy
          refine ⟨p1, ?_⟩
          show y.position + shift = j
          omega
      · rw [if_neg c3] at hx; exact h j hj x hx

/-- `shift_children_left` keeps the link invariant below `last`. -/
theorem shift_children_left_link (n : LNode) (first last shift : Nat) (h0 : shift ≤ first)
    (h1 : first ≤ last) (h2 : last ≤ n.slots.length) (h : n.LinkOkUpTo last) :
    (n.shift_children_left first last shift).LinkOkUpTo last := by
  intro j hj x hx
  rw [shift_children_left_slot n first last shift h0 h1 h2] at hx
  by_cases c1 : j < first - shift
  · rw [if_pos c1] at hx; exact h j (by omega) x hx
  · rw [if_neg c1] at hx
    by_cases c2 : j < last - shift
    · rw [if_pos c2] at hx
      cases hy : n.slot (j + shift) with
      | none => rw [hy] at hx; cases hx
      | some y =>
        rw [hy] at hx
        cases hx
        obtain ⟨p1, p2⟩ := h (j + shift) (by omega) y hy
        refine ⟨p1, ?_⟩
        show y.position - shift = j
        omega
    · rw [if_neg c2, if_pos hj] at hx; cases hx

theorem linkOkUpTo_mono (n : LNode) (a b : Nat) (hab : a ≤ b) (h : n.LinkOkUpTo b) :
    n.LinkOkUpTo a := fun j hj x hx => h j (by omega) x hx

theorem linkOkUpTo_congr (n n2 : LNode) (m : Nat) (hid : n2.id = n.id)
    (hs : ∀ j, j < m → n2.slot j = n.slot j) (h : n.LinkOkUpTo m) : n2.LinkOkUpTo m := by
  intro j hj x hx
  rw [hs j hj] at hx
  rw [hid]
  exact h j hj x hx

end LNode

end CppBtree

namespace CppBtree

namespace LNode

/-- `receive_children_n` leaves the parent links and position fields of both nodes alone. -/
theorem receive_children_n_header : ∀ (k : Nat) (this src : LNode) (d f : Nat),
    (receive_children_n this src d f k).1.parent = this.parent
      ∧ (receive_children_n this src d f k).1.position = this.position
      ∧ (receive_children_n this src d f k).2.parent = src.parent
      ∧ (receive_children_n this src d f k).2.position = src.position := by
  intro k
  induction k with
  | zero => intro this src d f; exact ⟨rfl, rfl, rfl, rfl⟩
  | succ k ih =>
    intro this src d f
    show (match (src.extract_child f).1 with
        | some c => receive_children_n (this.set_child d c) (src.extract_child f).2 (d + 1)
            (f + 1) k
        | none => (this, src)).1.parent = _ ∧ (match (src.extract_child f).1 with
        | some c => receive_children_n (this.set_child d c) (src.extract_child f).2 (d + 1)
            (f + 1) k
        | none => (this, src)).1.position = _ ∧ (match (src.extract_child f).1 with
        | some c => receive_children_n (this.set_child d c) (src.extract_child f).2 (d + 1)
            (f + 1) k
        | none => (this, src)).2.parent = _ ∧ (match (src.extract_child f).1 with
        | some c => receive_children_n (this.set_child d c) (src.extract_child f).2 (d + 1)
            (f + 1) k
        | none => (this, src)).2.position = _
    cases hc : (src.extract_child f).1 with
    | none => exact ⟨rfl, rfl, rfl, rfl⟩
    | some c => exact ih (this.set_child d c) (src.extract_child f).2 (d + 1) (f + 1)

theorem rotate_back_to_internal (n : LNode) (i : Nat) (hl : n.is_leaf = false) :
    n.rotate_back_to i
      = (n.set_count (n.count + 1)).shift_children_right (i + 1) (n.count + 1) 1 := by
  simp [rotate_back_to, hl, children_count]

/-- The slots after `rotate_back_to(i)` on an internal node. -/
theorem rotate_back_to_slot (n : LNode) (i : Nat) (hl : n.is_leaf = false)
    (hlen : n.count + 2 ≤ n.slots.length) (hi : i ≤ n.count) (j : Nat) :
    (n.rotate_back_to i).slot j
      = if j < i + 1 then n.slot j
        else if j < i + 2 then none
        else if j < n.count + 2 then
          (n.slot (j - 1)).map (fun c => c.set_position (c.position + 1))
        else n.slot j := by
  rw [rotate_back_to_internal n i hl,
    shift_children_right_slot _ _ _ _ (by omega) (by simpa using hlen)]
  rfl

/-- `insert_value(i, x)` and `emplace_value(i)` on an internal node keep the link invariant. -/
theorem rotate_back_to_link (n : LNode) (i : Nat) (hl : n.is_leaf = false)
    (hlen : n.count + 2 ≤ n.slots.length) (hi : i ≤ n.count) (h : n.LinkOk) :
    (n.rotate_back_to i).LinkOk := by
  rw [rotate_back_to_internal n i hl]
  exact shift_children_right_link _ _ _ _ (by omega) (by simpa using hlen) h

theorem rotate_back_to_count (n : LNode) (i : Nat) : (n.rotate_back_to i).count = n.count + 1 := by
  unfold rotate_back_to
  simp only []
  split <;> rfl

theorem rotate_back_to_id (n : LNode) (i : Nat) : (n.rotate_back_to i).id = n.id := by
  unfold rotate_back_to
  simp only []
  split <;> rfl

theorem rotate_back_to_is_leaf (n : LNode) (i : Nat) :
    (n.rotate_back_to i).is_leaf = n.is_leaf := by
  unfold rotate_back_to
  simp only []
  split <;> rfl

theorem rotate_back_to_length (n : LNode) (i : Nat) (hl : n.is_leaf = false)
    (hlen : n.count + 2 ≤ n.slots.length) (hi : i ≤ n.count) :
    (n.rotate_back_to i).slots.length = n.slots.length := by
  rw [rotate_back_to_internal n i hl,
    shift_children_right_length _ _ _ _ (by omega) (by simpa using hlen)]
  rfl

theorem remove_value_shift (n : LNode) (i : Nat) (hl : n.is_leaf = false)
    (hi : i + 1 < n.count) :
    n.remove_value i = (n.shift_children_left (i + 2) (n.count + 1) 1).set_count (n.count - 1) := by
  have h2 : i + 2 < n.count + 1 := by omega
  simp only [remove_value, hl, children_count, Bool.false_eq_true, if_false, if_pos h2]
  rfl

theorem remove_value_last (n : LNode) (i : Nat) (hl : n.is_leaf = false)
    (hi : ¬ i + 1 < n.count) : n.remove_value i = n.set_count (n.count - 1) := by
  have h2 : ¬ i + 2 < n.count + 1 := by omega
  simp only [remove_value, hl, children_count, Bool.false_eq_true, if_false, if_neg h2]

/-- The slots after `remove_value(i)` on an internal node when children are shifted. -/
theorem remove_value_slot (n : LNode) (i : Nat) (hl : n.is_leaf = false)
    (hlen : n.count + 1 ≤ n.slots.length) (hi : i + 1 < n.count) (j : Nat) :
    (n.remove_value i).slot j
      = if j < i + 1 then n.slot j
        else if j < n.count then
          (n.slot (j + 1)).map (fun c => c.set_position (c.position - 1))
        else if j < n.count + 1 then none
        else n.slot j := by
  rw [remove_value_shift n i hl hi, set_count_slot,
    shift_children_left_slot _ _ _ _ (by omega) (by omega) hlen]
  rfl

theorem remove_value_count (n : LNode) (i : Nat) : (n.remove_value i).count = n.count - 1 := by
  unfold remove_value
  simp only []
  split
  · rfl
  · split <;> rfl

theorem remove_value_id (n : LNode) (i : Nat) : (n.remove_value i).id = n.id := by
  unfold remove_value
  simp only []
  split
  · rfl
  · split <;> rfl

/-- `remove_value(i)` on an internal node keeps the link invariant. -/
theorem remove_value_link (n : LNode) (i : Nat) (hl : n.is_leaf = false)
    (hlen : n.count + 1 ≤ n.slots.length) (h : n.LinkOk) : (n.remove_value i).LinkOk := by
  by_cases hi : i + 1 < n.count
  · rw [remove_value_shift n i hl hi]
    have := shift_children_left_link n (i + 2) (n.count + 1) 1 (by omega) (by omega) hlen h
    exact linkOkUpTo_mono _ _ _ (by simp) this
  · rw [remove_value_last n i hl hi]
    exact linkOkUpTo_mono _ _ _ (by simp) h

theorem full_is_leaf {B : Nat} {n : LNode} (h : n.Full B) : n.is_leaf = false := h.1
theorem full_length {B : Nat} {n : LNode} (h : n.Full B) : n.slots.length = B + 1 := h.2.1
theorem full_count {B : Nat} {n : LNode} (h : n.Full B) : n.count ≤ B := h.2.2.1
theorem full_slot {B : Nat} {n : LNode} (h : n.Full B) (i : Nat) (hi : i ≤ n.count) :
    (n.slot i).isSome = true := h.2.2.2 i hi

/-- After `remove_value(i)` an internal node still has a child in every live slot. -/
theorem remove_value_full (B : Nat) (n : LNode) (i : Nat) (hf : n.Full B) :
    (n.remove_value i).Full B := by
  have hl := full_is_leaf hf
  have hlen := full_length hf
  have hc := full_count hf
  by_cases hi : i + 1 < n.count
  · refine ⟨?_, ?_, ?_, ?_⟩
    · rw [remove_value_shift n i hl hi]; exact hl
    · rw [remove_value_shift n i hl hi, set_count_slots,
        shift_children_left_length _ _ _ _ (by omega) (by omega) (by omega)]
      exact hlen
    · rw [remove_value_count]; omega
    · intro j hj
      rw [remove_value_count] at hj
      rw [remove_value_slot n i hl (by omega) hi]
      by_cases c1 : j < i + 1
      · rw [if_pos c1]; exact full_slot hf j (by omega)
      · rw [if_neg c1, if_pos (by omega)]
        have := full_slot hf (j + 1) (by omega)
        obtain ⟨y, hy⟩ := Option.isSome_iff_exists.mp this
        rw [hy]; rfl
  · rw [remove_value_last n i hl hi]
    exact ⟨hl, hlen, by show n.count - 1 ≤ B; omega,
      fun j hj => full_slot hf j (by have : j ≤ n.count - 1 := hj; omega)⟩

end LNode

end CppBtree

namespace CppBtree

namespace LNode

theorem isSome_map_set {f : LNode → LNode} {o : Option LNode} (h : o.isSome = true) :
    (o.map f).isSome = true := by
  obtain ⟨y, hy⟩ := Option.isSome_iff_exists.mp h
  rw [hy]; rfl

/-- What `rebalance_right_to_left` does to two internal siblings. -/
theorem rebalance_right_to_left_spec (B : Nat) (this src : LNode) (m : Nat)
    (hf : this.Full B) (hs : src.Full B) (hm : m ≤ src.count) (hcap : this.count + m ≤ B)
    (l1 : this.LinkOk) (l2 : src.LinkOk) :
    (rebalance_right_to_left this src m).1.Full B
      ∧ (rebalance_right_to_left this src m).2.Full B
      ∧ (rebalance_right_to_left this src m).1.LinkOk
      ∧ (rebalance_right_to_left this src m).2.LinkOk
      ∧ (rebalance_right_to_left this src m).1.id = this.id
      ∧ (rebalance_right_to_left this src m).2.id = src.id
      ∧ (rebalance_right_to_left this src m).1.count = this.count + m
      ∧ (rebalance_right_to_left this src m).2.count = src.count - m := by
  have hl := full_is_leaf hf
  have hsl := full_is_leaf hs
  have hlen := full_length hf
  have hslen := full_length hs
  have hsc := full_count hs
  obtain ⟨a1, a2, a3, a4, a5, a6, a7, a8, a9, a10⟩ :=
    receive_children_n_spec m this src (this.count + 1) 0
      (fun j hj => full_slot hs (0 + j) (by omega)) (by omega)
  have e : rebalance_right_to_left this src m
      = ((receive_children_n this src (this.count + 1) 0 m).1.set_count (this.count + m),
         ((receive_children_n this src (this.count + 1) 0 m).2.shift_children_left m
            (src.count + 1) m).set_count (src.count - m)) := by
    simp only [rebalance_right_to_left, hl, Bool.false_eq_true, if_false, children_count, a7,
      hsl, a2, a6, shift_children_left_count]
  rw [e]
  have sl := shift_children_left_slot (receive_children_n this src (this.count + 1) 0 m).2 m
    (src.count + 1) m (Nat.le_refl _) (by omega) (by omega)
  refine ⟨⟨a3.trans hl, by rw [set_count_slots, a4]; exact hlen, hcap, ?_⟩,
    ⟨a7.trans hsl, ?_, by show src.count - m ≤ B; omega, ?_⟩, ?_, ?_, a1, a5, rfl, rfl⟩
  · intro j hj
    have hj2 : j ≤ this.count + m := hj
    rw [set_count_slot, a9]
    by_cases c1 : this.count + 1 ≤ j ∧ j < this.count + 1 + m
    · rw [if_pos c1]
      exact isSome_map_set (full_slot hs _ (by omega))
    · rw [if_neg c1]
      exact full_slot hf j (by omega)
  · rw [set_count_slots, shift_children_left_length _ _ _ _ (Nat.le_refl _) (by omega) (by omega),
      a8]
    exact hslen
  · intro j hj
    have hj2 : j ≤ src.count - m := hj
    rw [set_count_slot, sl, if_neg (by omega), if_pos (by omega)]
    apply isSome_map_set
    rw [a10, if_neg (by omega)]
    exact full_slot hs _ (by omega)
  · intro j hj x hx
    have hj2 : j < this.count + m + 1 := hj
    rw [set_count_slot, a9] at hx
    show x.parent = (receive_children_n this src (this.count + 1) 0 m).1.id ∧ _
    rw [a1]
    by_cases c1 : this.count + 1 ≤ j ∧ j < this.count + 1 + m
    · rw [if_pos c1] at hx
      cases hy : src.slot (0 + (j - (this.count + 1))) with
      | none => rw [hy] at hx; cases hx
      | some y => rw [hy] at hx; cases hx; exact ⟨rfl, rfl⟩
    · rw [if_neg c1] at hx
      exact l1 j (by omega) x hx
  · have l3 : (receive_children_n this src (this.count + 1) 0 m).2.LinkOkUpTo (src.count + 1) :=
      (receive_children_n_link m this src (this.count + 1) 0 0 (src.count + 1)
        (fun _ h => absurd h (Nat.not_lt_zero _)) l2).2
    have := shift_children_left_link _ m (src.count + 1) m (Nat.le_refl _) (by omega)
      (by omega) l3
    exact linkOkUpTo_mono _ _ _ (by show src.count - m + 1 ≤ src.count + 1; omega) this

/-- What `rebalance_left_to_right` does to two internal siblings. -/
theorem rebalance_left_to_right_spec (B : Nat) (this dest : LNode) (m : Nat)
    (hf : this.Full B) (hd : dest.Full B) (hm : m ≤ this.count) (hcap : dest.count + m ≤ B)
    (l1 : this.LinkOk) (l2 : dest.LinkOk) :
    (rebalance_left_to_right this dest m).1.Full B
      ∧ (rebalance_left_to_right this dest m).2.Full B
      ∧ (rebalance_left_to_right this dest m).1.LinkOk
      ∧ (rebalance_left_to_right this dest m).2.LinkOk
      ∧ (rebalance_left_to_right this dest m).1.id = this.id
      ∧ (rebalance_left_to_right this dest m).2.id = dest.id
      ∧ (rebalance_left_to_right this dest m).1.count = this.count - m
      ∧ (rebalance_left_to_right this dest m).2.count = dest.count + m := by
  have hl := full_is_leaf hf
  have hdl := full_is_leaf hd
  have hlen := full_length hf
  have hdlen := full_length hd
  have hc := full_count hf
  have dl := shift_children_right_length dest 0 (dest.count + 1) m (Nat.zero_le _) (by omega)
  have ds := shift_children_right_slot dest 0 (dest.count + 1) m (Nat.zero_le _) (by omega)
  obtain ⟨a1, a2, a3, a4, a5, a6, a7, a8, a9, a10⟩ :=
    receive_children_n_spec m (dest.shift_children_right 0 (dest.count + 1) m) this 0
      (this.count + 1 - m) (fun j hj => full_slot hf _ (by omega)) (by rw [dl]; omega)
  have e : rebalance_left_to_right this dest m
      = (((receive_children_n (dest.shift_children_right 0 (dest.count + 1) m) this 0
            (this.count + 1 - m) m).2.fill_null (this.count + 1 - m) m).set_count
              (this.count - m),
         (receive_children_n (dest.shift_children_right 0 (dest.count + 1) m) this 0
            (this.count + 1 - m) m).1.set_count (dest.count + m)) := by
    simp only [rebalance_left_to_right, hl, Bool.false_eq_true, if_false, children_count, hdl,
      a2, a6, fill_null_count, shift_children_right_count]
  rw [e]
  have fs := fill_null_slot (receive_children_n (dest.shift_children_right 0 (dest.count + 1) m)
    this 0 (this.count + 1 - m) m).2 (this.count + 1 - m) m (by rw [a8]; omega)
  refine ⟨⟨a7.trans hl, ?_, by show this.count - m ≤ B; omega, ?_⟩,
    ⟨a3.trans hdl, by rw [set_count_slots, a4, dl]; exact hdlen, hcap, ?_⟩, ?_, ?_, a5, a1,
    rfl, rfl⟩
  · rw [set_count_slots, fill_null_length _ _ _ (by rw [a8]; omega), a8]
    exact hlen
  · intro j hj
    have hj2 : j ≤ this.count - m := hj
    rw [set_count_slot, fs, if_neg (by omega), a10, if_neg (by omega)]
    exact full_slot hf j (by omega)
  · intro j hj
    have hj2 : j ≤ dest.count + m := hj
    rw [set_count_slot, a9]
    by_cases c1 : 0 ≤ j ∧ j < 0 + m
    · rw [if_pos c1]
      exact isSome_map_set (full_slot hf _ (by omega))
    · rw [if_neg c1, ds, if_neg (Nat.not_lt_zero _), if_neg (by omega), if_pos (by omega)]
      exact isSome_map_set (full_slot hd _ (by omega))
  · intro j hj x hx
    have hj2 : j < this.count - m + 1 := hj
    rw [set_count_slot, fs, if_neg (by omega), a10, if_neg (by omega)] at hx
    show x.parent = (receive_children_n (dest.shift_children_right 0 (dest.count + 1) m) this 0
      (this.count + 1 - m) m).2.id ∧ _
    rw [a5]
    exact l1 j (by omega) x hx
  · intro j hj x hx
    have hj2 : j < dest.count + m + 1 := hj
    rw [set_count_slot, a9] at hx
    show x.parent = (receive_children_n (dest.shift_children_right 0 (dest.count + 1) m) this 0
      (this.count + 1 - m) m).1.id ∧ _
    rw [a1]
    by_cases c1 : 0 ≤ j ∧ j < 0 + m
    · rw [if_pos c1] at hx
      cases hy : this.slot (this.count + 1 - m + (j - 0)) with
      | none => rw [hy] at hx; cases hx
      | some y => rw [hy] at hx; cases hx; exact ⟨rfl, rfl⟩
    · rw [if_neg c1, ds, if_neg (Nat.not_lt_zero _), if_neg (by omega), if_pos (by omega)] at hx
      cases hy : dest.slot (j - m) with
      | none => rw [hy] at hx; cases hx
      | some y =>
        rw [hy] at hx
        cases hx
        obtain ⟨p1, p2⟩ := l2 (j - m) (by omega) y hy
        refine ⟨p1, ?_⟩
        show y.position + m = j
        omega

end LNode

end CppBtree

namespace CppBtree

namespace LNode

theorem put_full (B : Nat) (n : LNode) (i : Nat) (c : LNode) (h : n.Full B) :
    (n.put i c).Full B := by
  refine ⟨h.1, by rw [put_length]; exact full_length h, h.2.2.1, ?_⟩
  intro j hj
  rw [put_slot]
  by_cases c1 : j = i ∧ i < n.slots.length
  · rw [if_pos c1]; rfl
  · rw [if_neg c1]; exact full_slot h j hj

/-- The parent after it made room for the new sibling in `split`: `emplace_value(position())`
followed by `set_child(position() + 1, dest)`. -/
theorem split_make_room (B : Nat) (p : LNode) (pos : Nat) (t1 d1 : LNode) (hp : p.Full B)
    (hpc : p.count < B) (hpos : pos ≤ p.count) (lp : p.LinkOk) (ht : t1.parent = p.id)
    (ht2 : t1.position = pos) :
    (((p.put pos t1).rotate_back_to pos).set_child (pos + 1) d1).id = p.id
      ∧ (((p.put pos t1).rotate_back_to pos).set_child (pos + 1) d1).count = p.count + 1
      ∧ (((p.put pos t1).rotate_back_to pos).set_child (pos + 1) d1).is_leaf = false
      ∧ (((p.put pos t1).rotate_back_to pos).set_child (pos + 1) d1).slots.length = B + 1
      ∧ (((p.put pos t1).rotate_back_to pos).set_child (pos + 1) d1).LinkOk
      ∧ (((p.put pos t1).rotate_back_to pos).set_child (pos + 1) d1).slot pos = some t1
      ∧ (((p.put pos t1).rotate_back_to pos).set_child (pos + 1) d1).slot (pos + 1)
          = some (d1.relink p.id (pos + 1))
      ∧ ∀ j, j ≤ p.count + 1 →
          ((((p.put pos t1).rotate_back_to pos).set_child (pos + 1) d1).slot j).isSome = true := by
  have hl := full_is_leaf hp
  have hlen := full_length hp
  have f0 := put_full B p pos t1 hp
  have l0 : (p.put pos t1).LinkOk := put_link p pos t1 _ lp (fun _ => ⟨ht, ht2⟩)
  have hlen0 : (p.put pos t1).count + 2 ≤ (p.put pos t1).slots.length := by
    rw [put_count, put_length]; omega
  have rs := rotate_back_to_slot (p.put pos t1) pos hl hlen0 hpos
  have rl := rotate_back_to_length (p.put pos t1) pos hl hlen0 hpos
  rw [put_length] at rl
  have rid : ((p.put pos t1).rotate_back_to pos).id = p.id := by rw [rotate_back_to_id]; rfl
  have rc : ((p.put pos t1).rotate_back_to pos).count = p.count + 1 := by
    rw [rotate_back_to_count]; rfl
  have l1 := rotate_back_to_link (p.put pos t1) pos hl hlen0 hpos l0
  refine ⟨rid, rc, by rw [set_child_is_leaf, rotate_back_to_is_leaf]; exact hl,
    by rw [set_child_length, rl]; exact hlen, ?_, ?_, ?_, ?_⟩
  · exact set_child_link _ _ _ _ l1
  · rw [set_child_slot, if_neg (by omega), rs, if_pos (by omega), put_slot,
      if_pos ⟨rfl, by omega⟩]
  · rw [set_child_slot, if_pos ⟨rfl, by rw [rl]; omega⟩, rid]
  · intro j hj
    rw [set_child_slot]
    by_cases c1 : j = pos + 1 ∧ pos + 1 < ((p.put pos t1).rotate_back_to pos).slots.length
    · rw [if_pos c1]; rfl
    · rw [if_neg c1, rs]
      have hne : j ≠ pos + 1 := fun e => c1 ⟨e, by rw [rl]; omega⟩
      by_cases c2 : j < pos + 1
      · rw [if_pos c2]; exact full_slot f0 j (by show j ≤ p.count; omega)
      · rw [if_neg c2, if_neg (by omega), if_pos (by show j < p.count + 2; omega)]
        exact isSome_map_set (full_slot f0 (j - 1) (by show j - 1 ≤ p.count; omega))

theorem split_count_lt (B : Nat) (this : LNode) (ip : Int) (h : 1 ≤ this.count) :
    split_count B this ip + 1 ≤ this.count := by
  unfold split_count
  split
  · omega
  · split <;> omega

theorem split_leaf (B : Nat) (p : LNode) (pos : Nat) (dest : LNode) (ip : Int) (this : LNode)
    (hs : p.slot pos = some this) (hl : this.is_leaf = true) :
    split B p pos dest ip
      = ((p.put pos (this.set_count (this.count - split_count B this ip - 1))).rotate_back_to
          pos).set_child (pos + 1) (dest.set_count (split_count B this ip)) := by
  unfold split
  rw [hs]
  simp only [hl, if_true]
  rfl

theorem split_internal (B : Nat) (p : LNode) (pos : Nat) (dest : LNode) (ip : Int)
    (this : LNode) (hs : p.slot pos = some this) (hl : this.is_leaf = false) (d : LNode)
    (hd : (((p.put pos (this.set_count (this.count - split_count B this ip - 1))).rotate_back_to
          pos).set_child (pos + 1) (dest.set_count (split_count B this ip))).slot (pos + 1)
          = some d) :
    split B p pos dest ip
      = ((((p.put pos (this.set_count (this.count - split_count B this ip - 1))).rotate_back_to
          pos).set_child (pos + 1) (dest.set_count (split_count B this ip))).put (pos + 1)
            (receive_children_n d (this.set_count (this.count - split_count B this ip - 1)) 0
              (this.count - split_count B this ip - 1 + 1) (d.count + 1)).1).put pos
          ((receive_children_n d (this.set_count (this.count - split_count B this ip - 1)) 0
              (this.count - split_count B this ip - 1 + 1) (d.count + 1)).2.fill_null
            (this.count - split_count B this ip - 1 + 1) (d.count + 1)) := by
  unfold split
  rw [hs]
  simp only [hl, Bool.false_eq_true, if_false]
  have hd2 : (((p.put pos ((this.set_count
      (this.count - (dest.set_count (split_count B this ip)).count)).set_count
        (this.count - (dest.set_count (split_count B this ip)).count - 1))).rotate_back_to
          pos).set_child (pos + 1) (dest.set_count (split_count B this ip))).slot (pos + 1)
      = some d := hd
  rw [hd2]
  rfl

/-- What `split` does, seen from the parent: both halves are children of the parent with the
right links, and on internal nodes the children of both halves are linked to them. -/
theorem split_spec (B : Nat) (p : LNode) (pos : Nat) (dest : LNode) (ip : Int) (this : LNode)
    (hp : p.Full B) (hpc : p.count < B) (hpos : pos ≤ p.count) (lp : p.LinkOk)
    (hs : p.slot pos = some this) (hc1 : 1 ≤ this.count) (hk : dest.is_leaf = this.is_leaf)
    (hi : this.is_leaf = false → this.Full B ∧ this.LinkOk ∧ dest.slots.length = B + 1) :
    (split B p pos dest ip).Full B ∧ (split B p pos dest ip).LinkOk
      ∧ (split B p pos dest ip).id = p.id ∧ (split B p pos dest ip).count = p.count + 1
      ∧ ∃ T D, (split B p pos dest ip).slot pos = some T
          ∧ (split B p pos dest ip).slot (pos + 1) = some D
          ∧ T.id = this.id ∧ D.id = dest.id ∧ T.count + D.count + 1 = this.count
          ∧ T.parent = p.id ∧ T.position = pos ∧ D.parent = p.id ∧ D.position = pos + 1
          ∧ (this.is_leaf = false → T.Full B ∧ D.Full B ∧ T.LinkOk ∧ D.LinkOk) := by
  obtain ⟨tp, tq⟩ := lp pos (by omega) this hs
  have hdc := split_count_lt B this ip hc1
  obtain ⟨b1, b2, b3, b4, b5, b6, b7, b8⟩ := split_make_room B p pos
    (this.set_count (this.count - split_count B this ip - 1))
    (dest.set_count (split_count B this ip)) hp hpc hpos lp tp tq
  cases hl : this.is_leaf with
  | true =>
    rw [split_leaf B p pos dest ip this hs hl]
    refine ⟨⟨b3, b4, by rw [b2]; omega, fun j hj => b8 j (by rw [b2] at hj; exact hj)⟩, b5, b1,
      b2, _, _, b6, b7, rfl, rfl, ?_, tp, tq, rfl, rfl, fun h => by cases h⟩
    show this.count - split_count B this ip - 1 + split_count B this ip + 1 = this.count
    omega
  | false =>
    obtain ⟨ft, lt, dlen⟩ := hi hl
    have e := split_internal B p pos dest ip this hs hl _ b7
    have hlen1 := full_length ft
    have hcb := full_count ft
    obtain ⟨a1, a2, a3, a4, a5, a6, a7, a8, a9, a10⟩ :=
      receive_children_n_spec (split_count B this ip + 1)
        ((dest.set_count (split_count B this ip)).relink p.id (pos + 1))
        (this.set_count (this.count - split_count B this ip - 1)) 0
        (this.count - split_count B this ip - 1 + 1)
        (fun j hj => full_slot ft _ (by omega))
        (by show 0 + (split_count B this ip + 1) ≤ dest.slots.length; omega)
    obtain ⟨g1, g2, g3, g4⟩ := receive_children_n_header (split_count B this ip + 1)
        ((dest.set_count (split_count B this ip)).relink p.id (pos + 1))
        (this.set_count (this.count - split_count B this ip - 1)) 0
        (this.count - split_count B this ip - 1 + 1)
    have dcount : ((dest.set_count (split_count B this ip)).relink p.id (pos + 1)).count + 1
        = split_count B this ip + 1 := rfl
    rw [dcount] at e
    rw [e]
    have fs := fill_null_slot (receive_children_n
        ((dest.set_count (split_count B this ip)).relink p.id (pos + 1))
        (this.set_count (this.count - split_count B this ip - 1)) 0
        (this.count - split_count B this ip - 1 + 1) (split_count B this ip + 1)).2
        (this.count - split_count B this ip - 1 + 1) (split_count B this ip + 1)
        (by rw [a8]; show _ ≤ this.slots.length; omega)
    generalize hR : receive_children_n
        ((dest.set_count (split_count B this ip)).relink p.id (pos + 1))
        (this.set_count (this.count - split_count B this ip - 1)) 0
        (this.count - split_count B this ip - 1 + 1) (split_count B this ip + 1) = R
      at a1 a2 a3 a4 a5 a6 a7 a8 a9 a10 g1 g2 g3 g4 fs
    have f0 : (((p.put pos (this.set_count (this.count - split_count B this ip - 1))).rotate_back_to
          pos).set_child (pos + 1) (dest.set_count (split_count B this ip))).Full B :=
      ⟨b3, b4, by rw [b2]; omega, fun j hj => b8 j (by rw [b2] at hj; exact hj)⟩
    have f1 := put_full B _ (pos + 1) R.1 f0
    refine ⟨put_full B _ pos _ f1, ?_, b1, b2,
      R.2.fill_null (this.count - split_count B this ip - 1 + 1) (split_count B this ip + 1),
      R.1, ?_, ?_, ?_, ?_, ?_, ?_, ?_, ?_, ?_, ?_⟩
    · apply put_link
      · apply put_link _ _ _ _ b5
        intro _
        exact ⟨g1.trans b1.symm, g2⟩
      · intro _
        exact ⟨g3.trans (tp.trans b1.symm), g4.trans tq⟩
    · rw [put_slot, if_pos ⟨rfl, by rw [put_length, b4]; omega⟩]
    · rw [put_slot, if_neg (by omega), put_slot, if_pos ⟨rfl, by rw [b4]; omega⟩]
    · exact a5
    · exact a1
    · show R.2.count + R.1.count + 1 = _
      rw [a6, a2]
      show this.count - split_count B this ip - 1 + split_count B this ip + 1 = this.count
      omega
    · exact g3.trans tp
    · exact g4.trans tq
    · exact g1
    · exact g2
    · intro _
      refine ⟨⟨a7.trans hl, ?_, ?_, ?_⟩, ⟨a3.trans (hk.trans hl), ?_, ?_, ?_⟩, ?_, ?_⟩
      · rw [fill_null_length _ _ _ (by rw [a8]; show _ ≤ this.slots.length; omega), a8]
        exact hlen1
      · show R.2.count ≤ B
        rw [a6]
        show this.count - split_count B this ip - 1 ≤ B
        omega
      · intro j hj
        have hj2 : j ≤ this.count - split_count B this ip - 1 := by
          have : j ≤ R.2.count := hj
          rw [a6] at this
          exact this
        rw [fs, if_neg (by omega), a10, if_neg (by omega)]
        exact full_slot ft j (by omega)
      · rw [a4]; exact dlen
      · rw [a2]
        show split_count B this ip ≤ B
        omega
      · intro j hj
        have hj2 : j ≤ split_count B this ip := by
          have : j ≤ R.1.count := hj
          rw [a2] at this
          exact this
        rw [a9, if_pos ⟨Nat.zero_le _, by omega⟩]
        exact isSome_map_set (full_slot ft _ (by omega))
      · intro j hj x hx
        have hj2 : j < this.count - split_count B this ip - 1 + 1 := by
          have : j < R.2.count + 1 := hj
          rw [a6] at this
          exact this
        rw [fs, if_neg (by omega), a10, if_neg (by omega)] at hx
        show x.parent = R.2.id ∧ _
        rw [a5]
        exact lt j (by omega) x hx
      · intro j hj x hx
        have hj2 : j < split_count B this ip + 1 := by
          have : j < R.1.count + 1 := hj
          rw [a2] at this
          exact this
        rw [a9, if_pos ⟨Nat.zero_le _, by omega⟩] at hx
        show x.parent = R.1.id ∧ _
        rw [a1]
        cases hy : (this.set_count (this.count - split_count B this ip - 1)).slot
            (this.count - split_count B this ip - 1 + 1 + (j - 0)) with
        | none => rw [hy] at hx; cases hx
        | some y => rw [hy] at hx; cases hx; exact ⟨rfl, rfl⟩

end LNode

end CppBtree

namespace CppBtree

namespace LNode

theorem merge_unfold (p : LNode) (pos : Nat) (this src : LNode) (hs : p.slot pos = some this)
    (hs2 : p.slot (pos + 1) = some src) :
    merge p pos
      = ((p.put pos
          ((if this.is_leaf then (this, src)
            else receive_children_n this src (this.count + 1) 0 (src.count + 1)).1.set_count
              (1 + this.count + src.count))).put (pos + 1)
          ((if this.is_leaf then (this, src)
            else receive_children_n this src (this.count + 1) 0 (src.count + 1)).2.set_count
              0)).remove_value pos := by
  unfold merge
  rw [hs, hs2]

/-- The slot `pos` of a node after `remove_value(pos)` is the one before. -/
theorem remove_value_slot_self (n : LNode) (i : Nat) (hl : n.is_leaf = false)
    (hlen : n.count + 1 ≤ n.slots.length) : (n.remove_value i).slot i = n.slot i := by
  by_cases hi : i + 1 < n.count
  · rw [remove_value_slot n i hl hlen hi, if_pos (by omega)]
  · rw [remove_value_last n i hl hi]; rfl

/-- What `merge` does, seen from the parent: the parent keeps the link invariant and a child
in every live slot, and on internal nodes the children of the merged node are linked to it. -/
theorem merge_spec (B : Nat) (p : LNode) (pos : Nat) (this src : LNode) (hp : p.Full B)
    (hpos : pos + 1 ≤ p.count) (lp : p.LinkOk) (hs : p.slot pos = some this)
    (hs2 : p.slot (pos + 1) = some src)
    (hi : this.is_leaf = false →
      this.Full B ∧ src.Full B ∧ this.LinkOk ∧ 1 + this.count + src.count ≤ B) :
    (merge p pos).Full B ∧ (merge p pos).LinkOk ∧ (merge p pos).id = p.id
      ∧ (merge p pos).count = p.count - 1
      ∧ ∃ T, (merge p pos).slot pos = some T ∧ T.id = this.id
          ∧ T.count = 1 + this.count + src.count ∧ T.parent = p.id ∧ T.position = pos
          ∧ (this.is_leaf = false → T.Full B ∧ T.LinkOk) := by
  obtain ⟨tp, tq⟩ := lp pos (by omega) this hs
  obtain ⟨sp, sq⟩ := lp (pos + 1) (by omega) src hs2
  have hl := full_is_leaf hp
  have hlen := full_length hp
  have hc := full_count hp
  rw [merge_unfold p pos this src hs hs2]
  generalize hR : (if this.is_leaf then (this, src)
            else receive_children_n this src (this.count + 1) 0 (src.count + 1)) = R
  have hh : R.1.parent = this.parent ∧ R.1.position = this.position
      ∧ R.2.parent = src.parent ∧ R.2.position = src.position ∧ R.1.id = this.id := by
    cases hk : this.is_leaf with
    | true => rw [hk] at hR; subst hR; exact ⟨rfl, rfl, rfl, rfl, rfl⟩
    | false =>
      rw [hk] at hR
      simp only [Bool.false_eq_true, if_false] at hR
      subst hR
      obtain ⟨g1, g2, g3, g4⟩ :=
        receive_children_n_header (src.count + 1) this src (this.count + 1) 0
      obtain ⟨ft, fsr, _, hcap⟩ := hi hk
      obtain ⟨a1, _⟩ := receive_children_n_spec (src.count + 1) this src (this.count + 1) 0
        (fun j hj => full_slot fsr (0 + j) (by omega)) (by rw [full_length ft]; omega)
      exact ⟨g1, g2, g3, g4, a1⟩
  obtain ⟨h1, h2, h3, h4, h5⟩ := hh
  have f2 : ((p.put pos (R.1.set_count (1 + this.count + src.count))).put (pos + 1)
      (R.2.set_count 0)).Full B := put_full B _ _ _ (put_full B _ _ _ hp)
  have l2 : ((p.put pos (R.1.set_count (1 + this.count + src.count))).put (pos + 1)
      (R.2.set_count 0)).LinkOk := by
    apply put_link
    · apply put_link _ _ _ _ lp
      intro _
      exact ⟨h1.trans tp, h2.trans tq⟩
    · intro _
      exact ⟨h3.trans sp, h4.trans sq⟩
  have hlen2 : ((p.put pos (R.1.set_count (1 + this.count + src.count))).put (pos + 1)
      (R.2.set_count 0)).count + 1 ≤ ((p.put pos (R.1.set_count
        (1 + this.count + src.count))).put (pos + 1) (R.2.set_count 0)).slots.length := by
    rw [put_length, put_length, hlen]
    show p.count + 1 ≤ B + 1
    omega
  refine ⟨remove_value_full B _ pos f2, remove_value_link _ pos (full_is_leaf f2) hlen2 l2,
    by rw [remove_value_id]; rfl, by rw [remove_value_count]; rfl,
    R.1.set_count (1 + this.count + src.count), ?_, h5, rfl, h1.trans tp, h2.trans tq, ?_⟩
  · rw [remove_value_slot_self _ pos (full_is_leaf f2) hlen2, put_slot, if_neg (by omega), put_slot,
      if_pos ⟨rfl, by omega⟩]
  · intro hk
    rw [hk] at hR
    simp only [Bool.false_eq_true, if_false] at hR
    subst hR
    obtain ⟨ft, fsr, lt, hcap⟩ := hi hk
    obtain ⟨a1, a2, a3, a4, a5, a6, a7, a8, a9, a10⟩ :=
      receive_children_n_spec (src.count + 1) this src (this.count + 1) 0
        (fun j hj => full_slot fsr (0 + j) (by omega)) (by rw [full_length ft]; omega)
    refine ⟨⟨a3.trans hk, by rw [set_count_slots, a4]; exact full_length ft, hcap, ?_⟩, ?_⟩
    · intro j hj
      have hj2 : j ≤ 1 + this.count + src.count := hj
      rw [set_count_slot, a9]
      by_cases c1 : this.count + 1 ≤ j ∧ j < this.count + 1 + (src.count + 1)
      · rw [if_pos c1]
        exact isSome_map_set (full_slot fsr _ (by omega))
      · rw [if_neg c1]
        exact full_slot ft j (by omega)
    · intro j hj x hx
      have hj2 : j < 1 + this.count + src.count + 1 := hj
      rw [set_count_slot, a9] at hx
      show x.parent = (receive_children_n this src (this.count + 1) 0 (src.count + 1)).1.id ∧ _
      rw [a1]
      by_cases c1 : this.count + 1 ≤ j ∧ j < this.count + 1 + (src.count + 1)
      · rw [if_pos c1] at hx
        cases hy : src.slot (0 + (j - (this.count + 1))) with
        | none => rw [hy] at hx; cases hx
        | some y => rw [hy] at hx; cases hx; exact ⟨rfl, rfl⟩
      · rw [if_neg c1] at hx
        exact lt j (by omega) x hx

end LNode

end CppBtree

namespace CppBtree

variable {V : Type}

/-- The values and the count of a node after `remove_value(i)`. -/
theorem Node.remove_value_values (n : Node V) (i : Nat) (hi : i < n.count) :
    (n.remove_value i).count = n.count - 1
      ∧ (n.remove_value i).values = n.values.take i ++ n.values.drop (i + 1) := by
  have key : ∀ vs : List V, i < vs.length →
      (if i + 1 < vs.length then Node.rotate_values vs i (i + 1) vs.length else vs).take
        (vs.length - 1) = vs.take i ++ vs.drop (i + 1) := by
    intro vs h
    have e : vs = vs.take i ++ vs[i] :: vs.drop (i + 1) := by
      rw [← List.drop_eq_getElem_cons h, List.take_append_drop]
    have hl : i = (vs.take i).length := by rw [List.length_take]; omega
    have := Node.rotate_remove (vs.take i) (vs.drop (i + 1)) vs[i] i hl
    rw [← e] at this
    exact this
  cases n with
  | leaf_node m vs =>
    have h : i < vs.length := hi
    have hv : ((Node.leaf_node m vs).remove_value i).values = vs.take i ++ vs.drop (i + 1) :=
      key vs h
    refine ⟨?_, hv⟩
    show ((Node.leaf_node m vs).remove_value i).values.length = vs.length - 1
    rw [hv, List.length_append, List.length_take, List.length_drop]
    omega
  | internal_node vs cs =>
    have h : i < vs.length := hi
    have hv : ((Node.internal_node vs cs).remove_value i).values
        = vs.take i ++ vs.drop (i + 1) := key vs h
    refine ⟨?_, hv⟩
    show ((Node.internal_node vs cs).remove_value i).values.length = vs.length - 1
    rw [hv, List.length_append, List.length_take, List.length_drop]
    omega

namespace LNode

/-- `shift_children_left` with `last` inside the checked range keeps the link invariant. -/
theorem shift_children_left_link_count (n : LNode) (first last shift m : Nat)
    (h0 : shift ≤ first) (h1 : first ≤ last) (h2 : last ≤ n.slots.length) (hm : last ≤ m)
    (h : n.LinkOkUpTo m) : (n.shift_children_left first last shift).LinkOkUpTo m := by
  intro j hj x hx
  by_cases c : j < last
  · exact shift_children_left_link n first last shift h0 h1 h2
      (linkOkUpTo_mono _ _ _ hm h) j c x hx
  · rw [shift_children_left_slot n first last shift h0 h1 h2, if_neg (by omega),
      if_neg (by omega), if_neg c] at hx
    exact h j hj x hx

/-- The children of an internal node after `remove_value(i)`: the slots up to `i` are kept;
when `i + 1 < count` the child `i + 1` leaves the child array and the children after it come
one slot down with their position fields; when `i + 1 = count` the child array is left as it
was. -/
theorem remove_value_children (n : LNode) (i : Nat) (E : LNode) (hl : n.is_leaf = false)
    (hlen : n.count + 1 ≤ n.slots.length) (hi : i < n.count) (lk : n.LinkOk)
    (hE : n.slot (i + 1) = some E)
    (hd : ∀ j1 j2 c1 c2, n.slot j1 = some c1 → n.slot j2 = some c2 → c1.id = c2.id → j1 = j2) :
    (n.remove_value i).count = n.count - 1
      ∧ (∀ j, j ≤ i → (n.remove_value i).slot j = n.slot j)
      ∧ (i + 1 < n.count →
          (∀ j c, (n.remove_value i).slot j = some c → c.id ≠ E.id)
            ∧ (∀ j, i + 1 ≤ j → j < n.count → ∀ c, n.slot (j + 1) = some c →
                (n.remove_value i).slot j = some (c.set_position j)))
      ∧ (i + 1 = n.count →
          (n.remove_value i).slots = n.slots ∧ (n.remove_value i).slot n.count = some E) := by
  refine ⟨remove_value_count n i, ?_, ?_, ?_⟩
  · intro j hj
    by_cases h : i + 1 < n.count
    · rw [remove_value_slot n i hl hlen h, if_pos (by omega)]
    · rw [remove_value_last n i hl h]; rfl
  · intro h
    have rs := remove_value_slot n i hl hlen h
    refine ⟨?_, ?_⟩
    · intro j c hc he
      rw [rs] at hc
      by_cases c1 : j < i + 1
      · rw [if_pos c1] at hc
        have := hd j (i + 1) c E hc hE he
        omega
      · rw [if_neg c1] at hc
        by_cases c2 : j < n.count
        · rw [if_pos c2] at hc
          cases hy : n.slot (j + 1) with
          | none => rw [hy] at hc; cases hc
          | some y =>
            rw [hy] at hc
            cases hc
            have := hd (j + 1) (i + 1) y E hy hE he
            omega
        · rw [if_neg c2] at hc
          by_cases c3 : j < n.count + 1
          · rw [if_pos c3] at hc; cases hc
          · rw [if_neg c3] at hc
            have := hd j (i + 1) c E hc hE he
            omega
    · intro j h1 h2 c hc
      rw [rs, if_neg (by omega), if_pos h2, hc]
      obtain ⟨_, q⟩ := lk (j + 1) (by omega) c hc
      show some (c.set_position (c.position - 1)) = _
      rw [q, Nat.add_sub_cancel]
  · intro h
    rw [remove_value_last n i hl (by omega)]
    exact ⟨rfl, by rw [set_count_slot, ← h]; exact hE⟩

end LNode

namespace Example

theorem linked_full : Example.linked.Full 3 := ⟨rfl, rfl, by decide, by decide⟩

theorem linked_link_ok : Example.linked.LinkOk := by
  intro j hj c hc
  have hj2 : j < 3 := hj
  interval_cases j
  · cases hc; exact ⟨rfl, rfl⟩
  · cases hc; exact ⟨rfl, rfl⟩
  · cases hc; exact ⟨rfl, rfl⟩

theorem linked_distinct : ∀ j1 j2 c1 c2, Example.linked.slot j1 = some c1 →
    Example.linked.slot j2 = some c2 → c1.id = c2.id → j1 = j2 := by
  intro j1 j2 c1 c2 h1 h2 he
  have b1 : j1 < 3 := by
    by_contra hn
    have h3 : j1 = 3 ∨ 4 ≤ j1 := by omega
    rcases h3 with h3 | h3
    · subst h3; cases h1
    · rw [LNode.slot_of_le _ _ h3] at h1; cases h1
  have b2 : j2 < 3 := by
    by_contra hn
    have h3 : j2 = 3 ∨ 4 ≤ j2 := by omega
    rcases h3 with h3 | h3
    · subst h3; cases h2
    · rw [LNode.slot_of_le _ _ h3] at h2; cases h2
  interval_cases j1 <;> interval_cases j2 <;> first
    | rfl
    | (cases h1; cases h2; exact absurd he (by decide))

theorem last_key_link_ok : Example.last_key.LinkOk := by
  intro j hj c hc
  have hj2 : j < 2 := hj
  interval_cases j
  · cases hc; exact ⟨rfl, rfl⟩
  · cases hc; exact ⟨rfl, rfl⟩

end Example

end CppBtree

namespace CppBtree

namespace LNode

/-- `receive_children_n` leaves the identity, the count and the kind of both nodes alone. -/
theorem receive_children_n_fields : ∀ (k : Nat) (this src : LNode) (d f : Nat),
    (receive_children_n this src d f k).1.id = this.id
      ∧ (receive_children_n this src d f k).1.count = this.count
      ∧ (receive_children_n this src d f k).2.id = src.id
      ∧ (receive_children_n this src d f k).2.count = src.count := by
  intro k
  induction k with
  | zero => intro this src d f; exact ⟨rfl, rfl, rfl, rfl⟩
  | succ k ih =>
    intro this src d f
    show (match (src.extract_child f).1 with
        | some c => receive_children_n (this.set_child d c) (src.extract_child f).2 (d + 1)
            (f + 1) k
        | none => (this, src)).1.id = _ ∧ (match (src.extract_child f).1 with
        | some c => receive_children_n (this.set_child d c) (src.extract_child f).2 (d + 1)
            (f + 1) k
        | none => (this, src)).1.count = _ ∧ (match (src.extract_child f).1 with
        | some c => receive_children_n (this.set_child d c) (src.extract_child f).2 (d + 1)
            (f + 1) k
        | none => (this, src)).2.id = _ ∧ (match (src.extract_child f).1 with
        | some c => receive_children_n (this.set_child d c) (src.extract_child f).2 (d + 1)
            (f + 1) k
        | none => (this, src)).2.count = _
    cases hc : (src.extract_child f).1 with
    | none => exact ⟨rfl, rfl, rfl, rfl⟩
    | some c => exact ih (this.set_child d c) (src.extract_child f).2 (d + 1) (f + 1)

/-- `receive_children_n` keeps the link invariant of both nodes, and the children it moves are
linked to the receiving node at the slots they arrive in. -/
theorem receive_children_n_links (this src : LNode) (d f k : Nat) (h1 : this.LinkOk)
    (h2 : src.LinkOk) :
    (receive_children_n this src d f k).1.LinkOk ∧ (receive_children_n this src d f k).2.LinkOk
      ∧ ((∀ j, j < k → (src.slot (f + j)).isSome = true) → d + k ≤ this.slots.length →
          ∀ j, j < k → ∃ c, src.slot (f + j) = some c
            ∧ (receive_children_n this src d f k).1.slot (d + j)
                = some (c.relink this.id (d + j))) := by
  obtain ⟨e1, e2, e3, e4⟩ := receive_children_n_fields k this src d f
  obtain ⟨l1, l2⟩ := receive_children_n_link k this src d f (this.count + 1) (src.count + 1) h1 h2
  refine ⟨?_, ?_, ?_⟩
  · show LinkOkUpTo _ ((receive_children_n this src d f k).1.count + 1)
    rw [e2]; exact l1
  · show LinkOkUpTo _ ((receive_children_n this src d f k).2.count + 1)
    rw [e4]; exact l2
  · intro hs hd j hj
    obtain ⟨_, _, _, _, _, _, _, _, a9, _⟩ := receive_children_n_spec k this src d f hs hd
    obtain ⟨c, hc⟩ := Option.isSome_iff_exists.mp (hs j hj)
    refine ⟨c, hc, ?_⟩
    rw [a9, if_pos ⟨by omega, by omega⟩, Nat.add_sub_cancel_left, hc]
    rfl

end LNode

end CppBtree

namespace CppBtree

namespace LNode

/-- C18: in the model of the child array and the link fields, every node operation that adds,
moves or shifts children keeps the link invariant, that every child held at an index `i` with
`0 ≤ i ≤ count` has its parent link equal to the node and its position field equal to `i`:
`set_child` (which links the child it stores), `shift_children_right`, `shift_children_left`
(with `last` at most `children_count()`, as at every call), `receive_children_n` (on the
receiver and on the source, and the children that arrive are linked to the receiver), and,
on internal nodes of capacity `B` with a child in every live slot, `insert_value` and
`emplace_value` (through `rotate_back_to`), `remove_value`, both rebalances (on both siblings),
`split` (on the parent, and for an internal node on both halves) and `merge` (on the parent,
and for an internal node on the merged node). The composite operations also keep a child in
every live slot, so the invariant speaks about every index from `0` to `count`. -/
theorem child_links_maintained (B : Nat) :
    (∀ (n : LNode) (i : Nat) (c : LNode), n.LinkOk →
        (n.set_child i c).LinkOk
          ∧ (i < n.slots.length → (n.set_child i c).slot i = some (c.relink n.id i)))
    ∧ (∀ (n : LNode) (first last shift : Nat), first ≤ last →
        last + shift ≤ n.slots.length → n.LinkOk →
        (n.shift_children_right first last shift).LinkOk)
    ∧ (∀ (n : LNode) (first last shift : Nat), shift ≤ first → first ≤ last →
        last ≤ n.count + 1 → last ≤ n.slots.length → n.LinkOk →
        (n.shift_children_left first last shift).LinkOk)
    ∧ (∀ (this src : LNode) (d f k : Nat), this.LinkOk → src.LinkOk →
        (receive_children_n this src d f k).1.LinkOk
          ∧ (receive_children_n this src d f k).2.LinkOk
          ∧ ((∀ j, j < k → (src.slot (f + j)).isSome = true) → d + k ≤ this.slots.length →
              ∀ j, j < k → ∃ c, src.slot (f + j) = some c
                ∧ (receive_children_n this src d f k).1.slot (d + j)
                    = some (c.relink this.id (d + j))))
    ∧ (∀ (n : LNode) (i : Nat), n.Full B → n.count < B → i ≤ n.count → n.LinkOk →
        (n.rotate_back_to i).LinkOk ∧ (n.rotate_back_to i).count = n.count + 1)
    ∧ (∀ (n : LNode) (i : Nat), n.Full B → n.LinkOk →
        (n.remove_value i).LinkOk ∧ (n.remove_value i).Full B)
    ∧ (∀ (this src : LNode) (m : Nat), this.Full B → src.Full B → m ≤ src.count →
        this.count + m ≤ B → this.LinkOk → src.LinkOk →
        (rebalance_right_to_left this src m).1.LinkOk
          ∧ (rebalance_right_to_left this src m).2.LinkOk
          ∧ (rebalance_right_to_left this src m).1.Full B
          ∧ (rebalance_right_to_left this src m).2.Full B)
    ∧ (∀ (this dest : LNode) (m : Nat), this.Full B → dest.Full B → m ≤ this.count →
        dest.count + m ≤ B → this.LinkOk → dest.LinkOk →
        (rebalance_left_to_right this dest m).1.LinkOk
          ∧ (rebalance_left_to_right this dest m).2.LinkOk
          ∧ (rebalance_left_to_right this dest m).1.Full B
          ∧ (rebalance_left_to_right this dest m).2.Full B)
    ∧ (∀ (p : LNode) (pos : Nat) (dest : LNode) (ip : Int) (this : LNode), p.Full B →
        p.count < B → pos ≤ p.count → p.LinkOk → p.slot pos = some this → 1 ≤ this.count →
        dest.is_leaf = this.is_leaf →
        (this.is_leaf = false → this.Full B ∧ this.LinkOk ∧ dest.slots.length = B + 1) →
        (split B p pos dest ip).LinkOk ∧ (split B p pos dest ip).Full B
          ∧ ∃ T D, (split B p pos dest ip).slot pos = some T
              ∧ (split B p pos dest ip).slot (pos + 1) = some D
              ∧ T.id = this.id ∧ D.id = dest.id
              ∧ (this.is_leaf = false → T.LinkOk ∧ D.LinkOk ∧ T.Full B ∧ D.Full B))
    ∧ (∀ (p : LNode) (pos : Nat) (this src : LNode), p.Full B → pos + 1 ≤ p.count →
        p.LinkOk → p.slot pos = some this → p.slot (pos + 1) = some src →
        (this.is_leaf = false →
          this.Full B ∧ src.Full B ∧ this.LinkOk ∧ 1 + this.count + src.count ≤ B) →
        (merge p pos).LinkOk ∧ (merge p pos).Full B
          ∧ ∃ T, (merge p pos).slot pos = some T ∧ T.id = this.id
              ∧ (this.is_leaf = false → T.LinkOk ∧ T.Full B)) := by
  refine ⟨?_, ?_, ?_, ?_, ?_, ?_, ?_, ?_, ?_, ?_⟩
  · intro n i c h
    refine ⟨set_child_link n i c _ h, fun hi => ?_⟩
    rw [set_child_slot, if_pos ⟨rfl, hi⟩]
  · intro n first last shift h1 h2 h
    exact shift_children_right_link_count n first last shift _ h1 h2 h
  · intro n first last shift h0 h1 h2 h3 h
    exact shift_children_left_link_count n first last shift _ h0 h1 h3 h2 h
  · intro this src d f k h1 h2
    exact receive_children_n_links this src d f k h1 h2
  · intro n i hf hc hi h
    exact ⟨rotate_back_to_link n i (full_is_leaf hf) (by rw [full_length hf]; omega) hi h,
      rotate_back_to_count n i⟩
  · intro n i hf h
    exact ⟨remove_value_link n i (full_is_leaf hf)
      (by rw [full_length hf]; have := full_count hf; omega) h, remove_value_full B n i hf⟩
  · intro this src m hf hs hm hcap l1 l2
    obtain ⟨a1, a2, a3, a4, _⟩ := rebalance_right_to_left_spec B this src m hf hs hm hcap l1 l2
    exact ⟨a3, a4, a1, a2⟩
  · intro this dest m hf hd hm hcap l1 l2
    obtain ⟨a1, a2, a3, a4, _⟩ := rebalance_left_to_right_spec B this dest m hf hd hm hcap l1 l2
    exact ⟨a3, a4, a1, a2⟩
  · intro p pos dest ip this hp hpc hpos lp hs hc1 hk hi
    obtain ⟨a1, a2, _, _, T, D, b1, b2, b3, b4, _, _, _, _, _, b5⟩ :=
      split_spec B p pos dest ip this hp hpc hpos lp hs hc1 hk hi
    exact ⟨a2, a1, T, D, b1, b2, b3, b4, fun h => by
      obtain ⟨c1, c2, c3, c4⟩ := b5 h
      exact ⟨c3, c4, c1, c2⟩⟩
  · intro p pos this src hp hpos lp hs hs2 hi
    obtain ⟨a1, a2, _, _, T, b1, b2, _, _, _, b3⟩ := merge_spec B p pos this src hp hpos lp hs hs2 hi
    exact ⟨a2, a1, T, b1, b2, fun h => by
      obtain ⟨c1, c2⟩ := b3 h
      exact ⟨c2, c1⟩⟩

theorem child_links_maintained_witness :
    Example.linked.Full 3 ∧ Example.linked.LinkOk
      ∧ (Example.linked.remove_value 0).LinkOk ∧ (Example.linked.remove_value 0).Full 3
      ∧ (Example.linked.remove_value 0).slot 1 = some (Example.linked_leaf 4 1 1 1) :=
  ⟨Example.linked_full, Example.linked_link_ok,
    ((child_links_maintained 3).2.2.2.2.2.1 Example.linked 0 Example.linked_full
      Example.linked_link_ok).1,
    ((child_links_maintained 3).2.2.2.2.2.1 Example.linked 0 Example.linked_full
      Example.linked_link_ok).2, rfl⟩

/-- C30 as stated fails when the removed value is the last one: on the internal node with one
value whose children are a leaf and an emptied leaf, `remove_value(0)` has `i + 2` equal to
`children_count()`, so no child is shifted, and the emptied child to the right of the removed
key is still held in slot 1 of the child array. -/
theorem remove_value_last_child_counterexample :
    Example.last_key.is_leaf = false ∧ Example.last_key.count = 1
      ∧ Example.last_key.slot 1 = some (Example.linked_leaf 3 1 1 0)
      ∧ (Example.linked_leaf 3 1 1 0).count = 0
      ∧ (Example.last_key.remove_value 0).count = 0
      ∧ (Example.last_key.remove_value 0).slot 1 = some (Example.linked_leaf 3 1 1 0)
      ∧ ¬ (∀ j c, (Example.last_key.remove_value 0).slot j = some c →
            c.id ≠ (Example.linked_leaf 3 1 1 0).id) :=
  ⟨rfl, rfl, rfl, rfl, rfl, rfl, fun h => h 1 (Example.linked_leaf 3 1 1 0) rfl rfl⟩

end LNode

/-- C30 (amended): for every node holding `n` values and every index `i < n`,
`remove_value(i)` leaves count `n - 1` and the values `old[0..i)` followed by `old[i+1..n)`.
On an internal node whose children are linked, have distinct identities, and whose child
`i + 1` is empty, the count becomes `n - 1` and the children up to slot `i` stay; when
`i + 1 < n` the child to the right of the removed key is shifted out (no slot of the child
array holds it any more) and the children formerly at indices `i+2..n` occupy the indices
`i+1..n-1` in the same order with their position fields equal to their new indices; when
`i + 1 = n` no child is moved, the child array is unchanged, and the child to the right of the
removed key stays in slot `n`, which is past the live slots `0..n-1`. -/
theorem remove_value_correct (V : Type) :
    (∀ (n : Node V) (i : Nat), i < n.count →
        (n.remove_value i).count = n.count - 1
          ∧ (n.remove_value i).values = n.values.take i ++ n.values.drop (i + 1))
    ∧ (∀ (n : LNode) (i : Nat) (E : LNode), n.is_leaf = false →
        n.count + 1 ≤ n.slots.length → i < n.count → n.LinkOk → n.slot (i + 1) = some E →
        E.count = 0 →
        (∀ j1 j2 c1 c2, n.slot j1 = some c1 → n.slot j2 = some c2 → c1.id = c2.id → j1 = j2) →
        (n.remove_value i).count = n.count - 1
          ∧ (∀ j, j ≤ i → (n.remove_value i).slot j = n.slot j)
          ∧ (i + 1 < n.count →
              (∀ j c, (n.remove_value i).slot j = some c → c.id ≠ E.id)
                ∧ (∀ j, i + 1 ≤ j → j < n.count → ∀ c, n.slot (j + 1) = some c →
                    (n.remove_value i).slot j = some (c.set_position j)))
          ∧ (i + 1 = n.count →
              (n.remove_value i).slots = n.slots
                ∧ (n.remove_value i).slot n.count = some E)) :=
  ⟨fun n i hi => Node.remove_value_values n i hi,
    fun n i E hl hlen hi lk hE _ hd => LNode.remove_value_children n i E hl hlen hi lk hE hd⟩

theorem remove_value_correct_witness :
    ((Node.leaf_node 3 [(10 : Int), 20, 30]).remove_value 1).values = [10, 30]
      ∧ Example.linked.LinkOk
      ∧ (Example.linked.remove_value 0).count = 1
      ∧ (∀ j c, (Example.linked.remove_value 0).slot j = some c →
          c.id ≠ (Example.linked_leaf 3 1 1 0).id)
      ∧ (Example.linked.remove_value 0).slot 1 = some (Example.linked_leaf 4 1 1 1) :=
  ⟨((remove_value_correct Int).1 (Node.leaf_node 3 [10, 20, 30]) 1 (by decide)).2.trans rfl,
    Example.linked_link_ok,
    ((remove_value_correct Int).2 Example.linked 0 (Example.linked_leaf 3 1 1 0) rfl
      (by decide) (by decide) Example.linked_link_ok rfl rfl Example.linked_distinct).1,
    (((remove_value_correct Int).2 Example.linked 0 (Example.linked_leaf 3 1 1 0) rfl
      (by decide) (by decide) Example.linked_link_ok rfl rfl
      Example.linked_distinct).2.2.1 (by decide)).1,
    rfl⟩

end CppBtree

namespace CppBtree

variable {K V : Type}

namespace Node

theorem cut_left_values (n : Node V) (k : Nat) : (cut_left n k).values = n.values.take k := by
  cases n <;> rfl

theorem cut_right_values (n : Node V) (k : Nat) :
    (cut_right n k).values = n.values.drop (k + 1) := by
  cases n <;> rfl

theorem cut_left_children (n : Node V) (k : Nat) :
    (cut_left n k).children = n.children.take (k + 1) := by
  cases n <;> simp [cut_left, children]

theorem cut_right_children (n : Node V) (k : Nat) :
    (cut_right n k).children = n.children.drop (k + 1) := by
  cases n <;> simp [cut_right, children]

theorem cut_values_join [Inhabited V] (n : Node V) (k : Nat) (hk : k < n.count) :
    (cut_left n k).values ++ n.value k :: (cut_right n k).values = n.values := by
  rw [cut_left_values, cut_right_values]
  have h : k < n.values.length := hk
  have e : n.value k = n.values[k] := by
    simp [value, List.getD_eq_getElem?_getD, List.getElem?_eq_getElem h]
  rw [e, ← List.drop_eq_getElem_cons h, List.take_append_drop]

/-- The parts of the parent that `cut_config` describes. -/
theorem cut_config_parts [Inhabited V] (a z : List V) (A Z : List (Node V)) (M : Node V)
    (k i : Nat) (hi : i = a.length) (hA : A.length = a.length) :
    (cut_config a z A Z M k).values = a ++ M.value k :: z
      ∧ (cut_config a z A Z M k).children = A ++ M.cut_left k :: M.cut_right k :: Z
      ∧ (cut_config a z A Z M k).child i = M.cut_left k
      ∧ (cut_config a z A Z M k).child (i + 1) = M.cut_right k
      ∧ (cut_config a z A Z M k).value i = M.value k
      ∧ (cut_config a z A Z M k).count = a.length + 1 + z.length := by
  refine ⟨rfl, rfl, child_at _ _ _ _ _ (by omega), child_at_succ _ _ _ _ _ _ (by omega),
    value_at _ _ _ _ _ hi, ?_⟩
  simp [cut_config, count]
  omega

/-- The values and children of a parent around the child `i`. -/
theorem parent_around_one (a z : List V) (A Z : List (Node V)) (N : Node V) (i : Nat)
    (hi : i = a.length) (hA : A.length = a.length) :
    (internal_node (a ++ z) (A ++ N :: Z)).values.take i = a
      ∧ (internal_node (a ++ z) (A ++ N :: Z)).values.drop i = z
      ∧ (internal_node (a ++ z) (A ++ N :: Z)).children.take i = A
      ∧ (internal_node (a ++ z) (A ++ N :: Z)).children.drop (i + 1) = Z := by
  subst hi
  refine ⟨by simp, by simp, ?_, ?_⟩
  · show (A ++ N :: Z).take a.length = A
    rw [← hA]; simp
  · show (A ++ N :: Z).drop (a.length + 1) = Z
    rw [← hA]
    have e : A ++ N :: Z = A ++ ([N] ++ Z) := by simp
    rw [e, drop_app3 _ _ _ _ (by simp)]

/-- The values and children of a parent around the children `i` and `i + 1`. -/
theorem parent_around_pair (a z : List V) (sep : V) (A Z : List (Node V)) (L R : Node V)
    (i : Nat) (hi : i = a.length) (hA : A.length = a.length) :
    (internal_node (a ++ sep :: z) (A ++ L :: R :: Z)).values.take i = a
      ∧ (internal_node (a ++ sep :: z) (A ++ L :: R :: Z)).values.drop (i + 1) = z
      ∧ (internal_node (a ++ sep :: z) (A ++ L :: R :: Z)).children.take i = A
      ∧ (internal_node (a ++ sep :: z) (A ++ L :: R :: Z)).children.drop (i + 2) = Z := by
  subst hi
  refine ⟨by simp, ?_, ?_, ?_⟩
  · show (a ++ sep :: z).drop (a.length + 1) = z
    have e : a ++ sep :: z = a ++ ([sep] ++ z) := by simp
    rw [e, drop_app3 _ _ _ _ (by simp)]
  · show (A ++ L :: R :: Z).take a.length = A
    rw [← hA]; simp
  · show (A ++ L :: R :: Z).drop (a.length + 2) = Z
    rw [← hA]
    have e : A ++ L :: R :: Z = A ++ ([L, R] ++ Z) := by simp
    rw [e, drop_app3 _ _ _ _ (by simp)]

/-- What `split` does to the parent and to the two halves, with the parent given as a node. -/
theorem split_parts [Inhabited V] (B : Nat) (p : Node V) (i : Nat) (ip : Int)
    (hl : p.leaf = false) (hc : p.children.length = p.count + 1) (hi : i ≤ p.count)
    (hs : shape_ok (p.child i)) (hc1 : 1 ≤ (p.child i).count)
    (hcap : (p.child i).leaf = true → (p.child i).max_count B = B) :
    (p.split B i ip).values
        = p.values.take i ++ (p.child i).value ((p.child i).split_point B ip) :: p.values.drop i
      ∧ (p.split B i ip).children
          = p.children.take i ++ (p.child i).cut_left ((p.child i).split_point B ip)
              :: (p.child i).cut_right ((p.child i).split_point B ip) :: p.children.drop (i + 1)
      ∧ (p.split B i ip).child i = (p.child i).cut_left ((p.child i).split_point B ip)
      ∧ (p.split B i ip).child (i + 1) = (p.child i).cut_right ((p.child i).split_point B ip)
      ∧ (p.split B i ip).value i = (p.child i).value ((p.child i).split_point B ip)
      ∧ (p.split B i ip).count = p.count + 1 := by
  obtain ⟨a, z, A, N, Z, hp, ha, hA, hZ, hN, _, _⟩ :=
    decompose_one p i hl hc (by omega)
  rw [← hN] at hs hc1 hcap ⊢
  subst hp
  rw [split_eq B a z A Z N i ip ha.symm (by omega) hZ hs hc1 hcap]
  obtain ⟨c1, c2, c3, c4, c5, c6⟩ :=
    cut_config_parts a z A Z N (N.split_point B ip) i ha.symm (by omega)
  obtain ⟨d1, d2, d3, d4⟩ := parent_around_one a z A Z N i ha.symm (by omega)
  refine ⟨by rw [c1, d1, d2], by rw [c2, d3, d4], c3, c4, c5, ?_⟩
  rw [c6]
  simp [count]
  omega

/-- What `merge` does to the parent and to the merged node, with the parent given as a node. -/
theorem merge_parts [Inhabited V] (p : Node V) (i : Nat) (hl : p.leaf = false)
    (hc : p.children.length = p.count + 1) (hi : i < p.count) :
    (p.merge i).values = p.values.take i ++ p.values.drop (i + 1)
      ∧ (p.merge i).children
          = p.children.take i ++ glue (p.child i) (p.value i) (p.child (i + 1))
              :: p.children.drop (i + 2)
      ∧ (p.merge i).child i = glue (p.child i) (p.value i) (p.child (i + 1))
      ∧ (p.merge i).count = p.count - 1 := by
  obtain ⟨a, sep, z, A, L, R, Z, hp, ha, hA, hZ, hL, hR, hsep, _, _⟩ :=
    decompose_pair p i hl hc hi
  rw [← hL, ← hR, ← hsep]
  subst hp
  rw [merge_eq a z sep A Z L R i ha.symm (by omega) hZ]
  obtain ⟨d1, d2, d3, d4⟩ := parent_around_pair a z sep A Z L R i ha.symm (by omega)
  refine ⟨by rw [d1, d2]; rfl, by rw [d3, d4]; rfl, child_at _ _ _ _ _ (by omega), ?_⟩
  simp [count]

/-- What a rebalance does to the parent, with the two siblings glued and cut again. -/
theorem recut_parts [Inhabited V] (p : Node V) (i k : Nat) (hl : p.leaf = false)
    (hc : p.children.length = p.count + 1) (hi : i < p.count) :
    ∃ a sep z A L R Z, p = internal_node (a ++ sep :: z) (A ++ L :: R :: Z)
      ∧ a.length = i ∧ A.length = i ∧ Z.length = z.length
      ∧ L = p.child i ∧ R = p.child (i + 1) ∧ sep = p.value i
      ∧ (cut_config a z A Z (glue L sep R) k).values
          = p.values.set i ((glue L sep R).value k)
      ∧ (cut_config a z A Z (glue L sep R) k).children
          = p.children.take i ++ (glue L sep R).cut_left k :: (glue L sep R).cut_right k
              :: p.children.drop (i + 2)
      ∧ (cut_config a z A Z (glue L sep R) k).child i = (glue L sep R).cut_left k
      ∧ (cut_config a z A Z (glue L sep R) k).child (i + 1) = (glue L sep R).cut_right k
      ∧ (cut_config a z A Z (glue L sep R) k).value i = (glue L sep R).value k
      ∧ (cut_config a z A Z (glue L sep R) k).count = p.count := by
  obtain ⟨a, sep, z, A, L, R, Z, hp, ha, hA, hZ, hL, hR, hsep, _, _⟩ :=
    decompose_pair p i hl hc hi
  refine ⟨a, sep, z, A, L, R, Z, hp, ha, hA, hZ, hL, hR, hsep, ?_⟩
  subst hp
  obtain ⟨c1, c2, c3, c4, c5, c6⟩ :=
    cut_config_parts a z A Z (glue L sep R) k i ha.symm (by omega)
  obtain ⟨d1, d2, d3, d4⟩ := parent_around_pair a z sep A Z L R i ha.symm (by omega)
  refine ⟨?_, by rw [c2, d3, d4], c3, c4, c5, ?_⟩
  · rw [c1]
    show _ = (a ++ sep :: z).set i _
    rw [set_app_len _ _ _ _ _ ha.symm]
  · rw [c6]
    simp [count]
    omega

end Node

end CppBtree

namespace CppBtree

variable {K V : Type}

namespace Node

theorem children_of_same_kind_leaf (L R : Node V) (h : same_kind L R) (hl : L.leaf = true) :
    L.children = [] ∧ R.children = [] := by
  cases L <;> cases R <;> simp_all [same_kind, leaf, children]

theorem children_length_of_shape (L : Node V) (hs : shape_ok L) (hl : L.leaf = false) :
    L.children.length = L.count + 1 := by
  cases L with
  | leaf_node m vs => cases hl
  | internal_node vs cs => exact hs

/-- The two siblings glued around the separator and cut again after `L.count + k` values:
what `rebalance_right_to_left` with `k` values leaves in the two nodes. -/
theorem recut_right_to_left [Inhabited V] (L R : Node V) (sep : V) (k : Nat)
    (hsL : shape_ok L) (hk : same_kind L R) (hk1 : 1 ≤ k) (hk2 : k ≤ R.count) :
    ((glue L sep R).cut_left (L.count + k)).values = L.values ++ sep :: R.values.take (k - 1)
      ∧ ((glue L sep R).cut_right (L.count + k)).values = R.values.drop k
      ∧ (glue L sep R).value (L.count + k) = R.value (k - 1)
      ∧ ((glue L sep R).cut_left (L.count + k)).children = L.children ++ R.children.take k
      ∧ ((glue L sep R).cut_right (L.count + k)).children = R.children.drop k
      ∧ ((glue L sep R).cut_left (L.count + k)).count = L.count + k
      ∧ ((glue L sep R).cut_right (L.count + k)).count = R.count - k := by
  have hL : L.values.length = L.count := rfl
  have hR : R.values.length = R.count := rfl
  have v1 : ((glue L sep R).cut_left (L.count + k)).values
      = L.values ++ sep :: R.values.take (k - 1) := by
    rw [cut_left_values, glue_values, List.take_append_eq_append_take,
      List.take_of_length_le (by omega), hL, Nat.add_sub_cancel_left]
    obtain ⟨k0, rfl⟩ : ∃ k0, k = k0 + 1 := ⟨k - 1, by omega⟩
    simp
  have v2 : ((glue L sep R).cut_right (L.count + k)).values = R.values.drop k := by
    rw [cut_right_values, glue_values, List.drop_append_eq_append_drop,
      List.drop_of_length_le (by omega), hL]
    have e : L.count + k + 1 - L.count = k + 1 := by omega
    rw [e]
    simp
  refine ⟨v1, v2, ?_, ?_, ?_, ?_, ?_⟩
  · simp only [value, glue_values]
    rw [List.getD_append_right _ _ _ _ (by omega), hL]
    have e : L.count + k - L.count = (k - 1) + 1 := by omega
    rw [e]
    simp
  · rw [cut_left_children, glue_children _ _ _ hk]
    cases hl : L.leaf with
    | true =>
      obtain ⟨e1, e2⟩ := children_of_same_kind_leaf L R hk hl
      rw [e1, e2]; simp
    | false =>
      have hlen := children_length_of_shape L hsL hl
      rw [List.take_append_eq_append_take, List.take_of_length_le (by omega), hlen]
      have e : L.count + k + 1 - (L.count + 1) = k := by omega
      rw [e]
  · rw [cut_right_children, glue_children _ _ _ hk]
    cases hl : L.leaf with
    | true =>
      obtain ⟨e1, e2⟩ := children_of_same_kind_leaf L R hk hl
      rw [e1, e2]; simp
    | false =>
      have hlen := children_length_of_shape L hsL hl
      rw [List.drop_append_eq_append_drop, List.drop_of_length_le (by omega), hlen]
      have e : L.count + k + 1 - (L.count + 1) = k := by omega
      rw [e]
      simp
  · show ((glue L sep R).cut_left (L.count + k)).values.length = _
    rw [v1]
    simp
    omega
  · show ((glue L sep R).cut_right (L.count + k)).values.length = _
    rw [v2, List.length_drop, hR]

/-- The two siblings glued around the separator and cut again after `L.count - k` values:
what `rebalance_left_to_right` with `k` values leaves in the two nodes. -/
theorem recut_left_to_right [Inhabited V] (L R : Node V) (sep : V) (k : Nat)
    (hsL : shape_ok L) (hk : same_kind L R) (hk1 : 1 ≤ k) (hk2 : k ≤ L.count) :
    ((glue L sep R).cut_left (L.count - k)).values = L.values.take (L.count - k)
      ∧ ((glue L sep R).cut_right (L.count - k)).values
          = L.values.drop (L.count - k + 1) ++ sep :: R.values
      ∧ (glue L sep R).value (L.count - k) = L.value (L.count - k)
      ∧ ((glue L sep R).cut_left (L.count - k)).children = L.children.take (L.count - k + 1)
      ∧ ((glue L sep R).cut_right (L.count - k)).children
          = L.children.drop (L.count - k + 1) ++ R.children
      ∧ ((glue L sep R).cut_left (L.count - k)).count = L.count - k
      ∧ ((glue L sep R).cut_right (L.count - k)).count = R.count + k := by
  have hL : L.values.length = L.count := rfl
  have hR : R.values.length = R.count := rfl
  have v1 : ((glue L sep R).cut_left (L.count - k)).values = L.values.take (L.count - k) := by
    rw [cut_left_values, glue_values, List.take_append_of_le_length (by omega)]
  have v2 : ((glue L sep R).cut_right (L.count - k)).values
      = L.values.drop (L.count - k + 1) ++ sep :: R.values := by
    rw [cut_right_values, glue_values, List.drop_append_of_le_length (by omega)]
  refine ⟨v1, v2, ?_, ?_, ?_, ?_, ?_⟩
  · simp only [value, glue_values]
    rw [List.getD_append _ _ _ _ (by omega)]
  · rw [cut_left_children, glue_children _ _ _ hk]
    cases hl : L.leaf with
    | true =>
      obtain ⟨e1, e2⟩ := children_of_same_kind_leaf L R hk hl
      rw [e1, e2]; simp
    | false =>
      have hlen := children_length_of_shape L hsL hl
      rw [List.take_append_of_le_length (by omega)]
  · rw [cut_right_children, glue_children _ _ _ hk]
    cases hl : L.leaf with
    | true =>
      obtain ⟨e1, e2⟩ := children_of_same_kind_leaf L R hk hl
      rw [e1, e2]; simp
    | false =>
      have hlen := children_length_of_shape L hsL hl
      rw [List.drop_append_of_le_length (by omega)]
  · show ((glue L sep R).cut_left (L.count - k)).values.length = _
    rw [v1, List.length_take]
    omega
  · show ((glue L sep R).cut_right (L.count - k)).values.length = _
    rw [v2]
    simp
    omega

end Node

end CppBtree

namespace CppBtree

namespace LNode

/-- What `merge` leaves in the merged node and in the emptied sibling: the sibling has count
zero, and on internal nodes the merged node holds its own children followed by those of the
sibling, each linked to it at the slot it sits in. -/
theorem merge_detail (B : Nat) (p : LNode) (pos : Nat) (this src : LNode) (hp : p.Full B)
    (hpos : pos + 1 ≤ p.count) (hs : p.slot pos = some this)
    (hs2 : p.slot (pos + 1) = some src)
    (hi : this.is_leaf = false →
      this.Full B ∧ src.Full B ∧ this.LinkOk ∧ 1 + this.count + src.count ≤ B) :
    ∃ T S, merge p pos = ((p.put pos T).put (pos + 1) S).remove_value pos
      ∧ T.id = this.id ∧ S.id = src.id ∧ S.count = 0
      ∧ T.count = 1 + this.count + src.count
      ∧ (merge p pos).slot pos = some T
      ∧ (merge p pos).count = p.count - 1
      ∧ (this.is_leaf = false →
          T.LinkOk
            ∧ (∀ j, j ≤ this.count → T.slot j = this.slot j)
            ∧ (∀ j, j ≤ src.count → ∃ c, src.slot j = some c
                ∧ T.slot (this.count + 1 + j)
                    = some (c.relink this.id (this.count + 1 + j)))) := by
  have hlen := full_length hp
  have hc := full_count hp
  rw [merge_unfold p pos this src hs hs2]
  generalize hR : (if this.is_leaf then (this, src)
            else receive_children_n this src (this.count + 1) 0 (src.count + 1)) = R
  have hh : R.1.id = this.id ∧ R.2.id = src.id := by
    cases hk : this.is_leaf with
    | true => rw [hk] at hR; subst hR; exact ⟨rfl, rfl⟩
    | false =>
      rw [hk] at hR
      simp only [Bool.false_eq_true, if_false] at hR
      subst hR
      obtain ⟨e1, _, e3, _⟩ :=
        receive_children_n_fields (src.count + 1) this src (this.count + 1) 0
      exact ⟨e1, e3⟩
  have f2 : ((p.put pos (R.1.set_count (1 + this.count + src.count))).put (pos + 1)
      (R.2.set_count 0)).Full B := put_full B _ _ _ (put_full B _ _ _ hp)
  have hlen2 : ((p.put pos (R.1.set_count (1 + this.count + src.count))).put (pos + 1)
      (R.2.set_count 0)).count + 1 ≤ ((p.put pos (R.1.set_count
        (1 + this.count + src.count))).put (pos + 1) (R.2.set_count 0)).slots.length := by
    rw [put_length, put_length, hlen]
    show p.count + 1 ≤ B + 1
    omega
  refine ⟨R.1.set_count (1 + this.count + src.count), R.2.set_count 0, rfl, hh.1, hh.2, rfl,
    rfl, ?_, by rw [remove_value_count]; rfl, ?_⟩
  · rw [remove_value_slot_self _ pos (full_is_leaf f2) hlen2, put_slot, if_neg (by omega),
      put_slot, if_pos ⟨rfl, by omega⟩]
  · intro hk
    rw [hk] at hR
    simp only [Bool.false_eq_true, if_false] at hR
    subst hR
    obtain ⟨ft, fsr, lt, hcap⟩ := hi hk
    obtain ⟨a1, a2, a3, a4, a5, a6, a7, a8, a9, a10⟩ :=
      receive_children_n_spec (src.count + 1) this src (this.count + 1) 0
        (fun j hj => full_slot fsr (0 + j) (by omega)) (by rw [full_length ft]; omega)
    refine ⟨?_, ?_, ?_⟩
    · intro j hj x hx
      have hj2 : j < 1 + this.count + src.count + 1 := hj
      rw [set_count_slot, a9] at hx
      show x.parent = (receive_children_n this src (this.count + 1) 0 (src.count + 1)).1.id ∧ _
      rw [a1]
      by_cases c1 : this.count + 1 ≤ j ∧ j < this.count + 1 + (src.count + 1)
      · rw [if_pos c1] at hx
        cases hy : src.slot (0 + (j - (this.count + 1))) with
        | none => rw [hy] at hx; cases hx
        | some y => rw [hy] at hx; cases hx; exact ⟨rfl, rfl⟩
      · rw [if_neg c1] at hx
        exact lt j (by omega) x hx
    · intro j hj
      rw [set_count_slot, a9, if_neg (by omega)]
    · intro j hj
      obtain ⟨c, hc2⟩ := Option.isSome_iff_exists.mp (full_slot fsr j hj)
      refine ⟨c, hc2, ?_⟩
      rw [set_count_slot, a9, if_pos ⟨by omega, by omega⟩, Nat.add_sub_cancel_left,
        Nat.zero_add, hc2]
      rfl

end LNode

end CppBtree

namespace CppBtree

variable {K V : Type}

namespace Btree

/-- The child `j` of a node that was just overwritten. -/
theorem node_set_node_child (t : Btree K V) (rp : List Nat) (X : Node V) (j : Nat)
    (hv : ValidPath t.root_node rp) : (t.set_node rp X).node (j :: rp) = X.child j := by
  show (getNode (setNode t.root_node rp X) rp).child j = _
  rw [getNode_setNode _ _ _ hv]

/-- The children of a node after one of them was overwritten. -/
theorem node_set_node_sibling (t : Btree K V) (rp : List Nat) (X : Node V) (j0 j : Nat)
    (hv : ValidPath t.root_node rp) (hj0 : j0 < (t.node rp).children.length) :
    (t.set_node (j0 :: rp) X).node (j :: rp) = if j = j0 then X else (t.node rp).child j := by
  show (getNode (setNode t.root_node (j0 :: rp) X) rp).child j = _
  rw [getNode_setNode_parent _ _ _ _ hv]
  by_cases h : j = j0
  · subst h
    rw [if_pos rfl]
    exact Node.set_child_child_same _ _ _ hj0
  · rw [if_neg h]
    exact Node.set_child_child_ne _ _ _ _ h

theorem insert_value_count [Inhabited V] (n : Node V) (i : Nat) (x : V) (hi : i ≤ n.count) :
    (n.insert_value i x).count = n.count + 1 := by
  show (n.insert_value i x).values.length = _
  rw [(Node.insert_value_values n i x hi).1]
  have : n.values.length = n.count := rfl
  simp
  omega

/-- The counts of the two halves after the split of a full node and the pending insert. -/
theorem split_then_insert_counts [Inhabited V] (P : Params K V) (t : Btree K V) (r : Node V)
    (ht : t.root = some r) (rp : List Nat) (hv : ValidPath r rp) (i : Nat) (ip : Int) (v : V)
    (hl : (getNode r rp).leaf = false)
    (hc : (getNode r rp).children.length = (getNode r rp).count + 1)
    (hi : i ≤ (getNode r rp).count) (hs : Node.shape_ok ((getNode r rp).child i))
    (hB : 1 ≤ P.kNodeValues) (hfull : ((getNode r rp).child i).count = P.kNodeValues)
    (hcap : ((getNode r rp).child i).leaf = true →
      ((getNode r rp).child i).max_count P.kNodeValues = P.kNodeValues)
    (h0 : 0 ≤ ip) (h1 : ip ≤ P.kNodeValues) :
    ((split_then_insert P t rp i ip v).node (i :: rp)).count
        = (if ip.toNat ≤ ((getNode r rp).child i).split_point P.kNodeValues ip
            then ((getNode r rp).child i).split_point P.kNodeValues ip + 1
            else ((getNode r rp).child i).split_point P.kNodeValues ip)
      ∧ ((split_then_insert P t rp i ip v).node ((i + 1) :: rp)).count
        = (if ip.toNat ≤ ((getNode r rp).child i).split_point P.kNodeValues ip
            then ((getNode r rp).child i).split_dest_count P.kNodeValues ip
            else ((getNode r rp).child i).split_dest_count P.kNodeValues ip + 1) := by
  have hr := root_node_of_root t r ht
  have hvt : ValidPath t.root_node rp := by rw [hr]; exact hv
  have hnode : t.node rp = getNode r rp := by show getNode t.root_node rp = _; rw [hr]
  obtain ⟨_, a2, a3, a4, _, a6⟩ :=
    Node.split_parts P.kNodeValues (getNode r rp) i ip hl hc hi hs (by omega) hcap
  have hd := Node.split_dest_count_lt P.kNodeValues ((getNode r rp).child i) ip (by omega)
  generalize hk : ((getNode r rp).child i).split_point P.kNodeValues ip = k at a2 a3 a4 ⊢
  generalize hdd : ((getNode r rp).child i).split_dest_count P.kNodeValues ip = d at hd ⊢
  have hkd : k = P.kNodeValues - d - 1 := by
    rw [← hk, ← hdd]; unfold Node.split_point; rw [hfull]
  have cl : (((getNode r rp).child i).cut_left k).count = k :=
    Node.count_cut_left _ _ (by rw [hfull]; omega)
  have cr : (((getNode r rp).child i).cut_right k).count = d := by
    rw [Node.count_cut_right, hfull]; omega
  have n1 : (t.set_node rp ((t.node rp).split P.kNodeValues i ip)).node (i :: rp)
      = ((getNode r rp).child i).cut_left k := by
    rw [node_set_node_child _ _ _ _ hvt, hnode, a3]
  have n2 : (t.set_node rp ((t.node rp).split P.kNodeValues i ip)).node ((i + 1) :: rp)
      = ((getNode r rp).child i).cut_right k := by
    rw [node_set_node_child _ _ _ _ hvt, hnode, a4]
  have hv2 : ValidPath (t.set_node rp ((t.node rp).split P.kNodeValues i ip)).root_node rp :=
    validPath_setNode _ _ _ hvt
  have nlen : ((t.set_node rp ((t.node rp).split P.kNodeValues i ip)).node rp).children.length
      = (getNode r rp).count + 2 := by
    show (getNode (setNode t.root_node rp _) rp).children.length = _
    rw [getNode_setNode _ _ _ hvt, hnode, a2]
    simp only [List.length_append, List.length_cons, List.length_take, List.length_drop]
    omega
  have nch : ∀ j, ((t.set_node rp ((t.node rp).split P.kNodeValues i ip)).node rp).child j
      = (t.set_node rp ((t.node rp).split P.kNodeValues i ip)).node (j :: rp) := fun j => rfl
  have hlt1 : i < ((t.set_node rp ((t.node rp).split P.kNodeValues i ip)).node rp).children.length := by
    rw [nlen]; omega
  have hlt2 : i + 1
      < ((t.set_node rp ((t.node rp).split P.kNodeValues i ip)).node rp).children.length := by
    rw [nlen]; omega
  by_cases hgt : ip > (k : Int)
  · have e : split_then_insert P t rp i ip v
        = (t.set_node rp ((t.node rp).split P.kNodeValues i ip)).set_node ((i + 1) :: rp)
            ((((getNode r rp).child i).cut_right k).insert_value (ip - k - 1).toNat v) := by
      unfold split_then_insert split_node
      simp only []
      rw [n1, cl, if_pos hgt]
      simp only []
      rw [n2]
    rw [e, node_set_node_sibling _ _ _ _ _ hv2 hlt2, node_set_node_sibling _ _ _ _ _ hv2 hlt2,
      if_neg (show ¬ (i = i + 1) by omega), if_pos rfl, nch, n1, cl,
      if_neg (show ¬ (ip.toNat ≤ k) by omega), if_neg (show ¬ (ip.toNat ≤ k) by omega),
      insert_value_count _ _ _ (by rw [cr]; omega), cr]
    exact ⟨rfl, rfl⟩
  · have e : split_then_insert P t rp i ip v
        = (t.set_node rp ((t.node rp).split P.kNodeValues i ip)).set_node (i :: rp)
            ((((getNode r rp).child i).cut_left k).insert_value ip.toNat v) := by
      unfold split_then_insert split_node
      simp only []
      rw [n1, cl, if_neg hgt]
      simp only []
      rw [n1]
    rw [e, node_set_node_sibling _ _ _ _ _ hv2 hlt1, node_set_node_sibling _ _ _ _ _ hv2 hlt1,
      if_pos rfl, if_neg (show ¬ (i + 1 = i) by omega), nch, n2, cr,
      if_pos (show ip.toNat ≤ k by omega), if_pos (show ip.toNat ≤ k by omega),
      insert_value_count _ _ _ (by rw [cl]; omega), cl]
    exact ⟨rfl, rfl⟩

end Btree

end CppBtree

namespace CppBtree

variable {K V : Type}

namespace Node

/-- What `rebalance_right_to_left` leaves in the parent and the two siblings. -/
theorem rebalance_right_to_left_facts [Inhabited V] (B : Nat) (p : Node V) (i k : Nat)
    (hl : p.leaf = false) (hc : p.children.length = p.count + 1) (hi : i < p.count)
    (hsL : shape_ok (p.child i)) (hsR : shape_ok (p.child (i + 1)))
    (hk : same_kind (p.child i) (p.child (i + 1))) (hk1 : 1 ≤ k)
    (hk2 : k ≤ (p.child (i + 1)).count) (hcap : (p.child i).count + k ≤ B) :
    ((p.rebalance_right_to_left i k).child i).count = (p.child i).count + k
      ∧ ((p.rebalance_right_to_left i k).child (i + 1)).count = (p.child (i + 1)).count - k
      ∧ (p.rebalance_right_to_left i k).count = p.count
      ∧ ((p.rebalance_right_to_left i k).child i).values
            ++ (p.rebalance_right_to_left i k).value i
            :: ((p.rebalance_right_to_left i k).child (i + 1)).values
          = (p.child i).values ++ p.value i :: (p.child (i + 1)).values
      ∧ ((p.rebalance_right_to_left i k).child i).values
          = (p.child i).values ++ p.value i :: (p.child (i + 1)).values.take (k - 1)
      ∧ ((p.rebalance_right_to_left i k).child i).value (p.child i).count = p.value i
      ∧ (p.rebalance_right_to_left i k).value i = (p.child (i + 1)).value (k - 1)
      ∧ ((p.rebalance_right_to_left i k).child (i + 1)).values
          = (p.child (i + 1)).values.drop k
      ∧ (p.rebalance_right_to_left i k).values
          = p.values.set i ((p.child (i + 1)).value (k - 1))
      ∧ (p.rebalance_right_to_left i k).children
          = p.children.take i ++ (p.rebalance_right_to_left i k).child i
              :: (p.rebalance_right_to_left i k).child (i + 1) :: p.children.drop (i + 2)
      ∧ ((p.rebalance_right_to_left i k).child i).children
          = (p.child i).children ++ (p.child (i + 1)).children.take k
      ∧ ((p.rebalance_right_to_left i k).child (i + 1)).children
          = (p.child (i + 1)).children.drop k := by
  obtain ⟨a, sep, z, A, L, R, Z, hp, ha, hA, hZ, hL, hR, hsep, c1, c2, c3, c4, c5, c6⟩ :=
    recut_parts p i ((p.child i).count + k) hl hc hi
  simp only [← hL, ← hR, ← hsep] at hsL hsR hk hk2 hcap c1 c2 c3 c4 c5 c6 ⊢
  have he : p.rebalance_right_to_left i k = cut_config a z A Z (glue L sep R) (L.count + k) := by
    rw [hp]
    exact rebalance_right_to_left_eq a z sep A Z L R i k ha.symm (by omega) hsL hsR hk hk1 hk2
  obtain ⟨r1, r2, r3, r4, r5, r6, r7⟩ := recut_right_to_left L R sep k hsL hk hk1 hk2
  rw [he, c3, c4, c5, c6, c1, c2, r1, r2, r3, r4, r5, r6, r7]
  refine ⟨rfl, rfl, rfl, ?_, rfl, ?_, rfl, rfl, rfl, rfl, rfl, rfl⟩
  · have hR2 : k - 1 < R.values.length := by
      have : R.values.length = R.count := rfl
      omega
    have e : R.value (k - 1) = R.values[k - 1] := by
      simp [value, List.getD_eq_getElem?_getD, List.getElem?_eq_getElem hR2]
    have e2 : R.values.drop k = R.values.drop (k - 1 + 1) := by
      rw [Nat.sub_add_cancel hk1]
    rw [e, e2]
    have := List.drop_eq_getElem_cons hR2
    rw [← this, List.append_assoc, List.cons_append, List.take_append_drop]
  · show (((glue L sep R).cut_left (L.count + k)).values.getD L.count default) = sep
    rw [r1]
    exact getD_app_len _ _ _ _ _ rfl

/-- What `rebalance_left_to_right` leaves in the parent and the two siblings. -/
theorem rebalance_left_to_right_facts [Inhabited V] (B : Nat) (p : Node V) (i k : Nat)
    (hl : p.leaf = false) (hc : p.children.length = p.count + 1) (hi : i < p.count)
    (hsL : shape_ok (p.child i)) (hk : same_kind (p.child i) (p.child (i + 1)))
    (hk1 : 1 ≤ k) (hk2 : k ≤ (p.child i).count) (hcap : (p.child (i + 1)).count + k ≤ B) :
    ((p.rebalance_left_to_right i k).child i).count = (p.child i).count - k
      ∧ ((p.rebalance_left_to_right i k).child (i + 1)).count = (p.child (i + 1)).count + k
      ∧ (p.rebalance_left_to_right i k).count = p.count
      ∧ ((p.rebalance_left_to_right i k).child i).values
            ++ (p.rebalance_left_to_right i k).value i
            :: ((p.rebalance_left_to_right i k).child (i + 1)).values
          = (p.child i).values ++ p.value i :: (p.child (i + 1)).values
      ∧ ((p.rebalance_left_to_right i k).child i).values
          = (p.child i).values.take ((p.child i).count - k)
      ∧ (p.rebalance_left_to_right i k).value i = (p.child i).value ((p.child i).count - k)
      ∧ ((p.rebalance_left_to_right i k).child (i + 1)).values
          = (p.child i).values.drop ((p.child i).count - k + 1)
              ++ p.value i :: (p.child (i + 1)).values
      ∧ (p.rebalance_left_to_right i k).values
          = p.values.set i ((p.child i).value ((p.child i).count - k))
      ∧ (p.rebalance_left_to_right i k).children
          = p.children.take i ++ (p.rebalance_left_to_right i k).child i
              :: (p.rebalance_left_to_right i k).child (i + 1) :: p.children.drop (i + 2)
      ∧ ((p.rebalance_left_to_right i k).child i).children
          = (p.child i).children.take ((p.child i).count - k + 1)
      ∧ ((p.rebalance_left_to_right i k).child (i + 1)).children
          = (p.child i).children.drop ((p.child i).count - k + 1)
              ++ (p.child (i + 1)).children
      ∧ ((p.child i).leaf = false →
          ((p.child i).children.drop ((p.child i).count - k + 1)).length = k) := by
  obtain ⟨a, sep, z, A, L, R, Z, hp, ha, hA, hZ, hL, hR, hsep, c1, c2, c3, c4, c5, c6⟩ :=
    recut_parts p i ((p.child i).count - k) hl hc hi
  simp only [← hL, ← hR, ← hsep] at hsL hk hk2 hcap c1 c2 c3 c4 c5 c6 ⊢
  have he : p.rebalance_left_to_right i k = cut_config a z A Z (glue L sep R) (L.count - k) := by
    rw [hp]
    exact rebalance_left_to_right_eq a z sep A Z L R i k ha.symm (by omega) hsL hk hk1 hk2
  obtain ⟨r1, r2, r3, r4, r5, r6, r7⟩ := recut_left_to_right L R sep k hsL hk hk1 hk2
  rw [he, c3, c4, c5, c6, c1, c2, r1, r2, r3, r4, r5, r6, r7]
  refine ⟨rfl, rfl, rfl, ?_, rfl, rfl, rfl, rfl, rfl, rfl, rfl, ?_⟩
  · have hL2 : L.count - k < L.values.length := by
      have : L.values.length = L.count := rfl
      omega
    have e : L.value (L.count - k) = L.values[L.count - k] := by
      simp [value, List.getD_eq_getElem?_getD, List.getElem?_eq_getElem hL2]
    rw [e]
    have := List.drop_eq_getElem_cons hL2
    rw [← List.cons_append, ← List.append_assoc]
    congr 1
    rw [← this, List.take_append_drop]
  · intro hlf
    have hlen := children_length_of_shape L hsL hlf
    rw [List.length_drop, hlen]
    omega

end Node

end CppBtree

namespace CppBtree

variable {K V : Type}

theorem Node.mid_part_eq (n : Node V) (g : Nat) :
    n.mid_part g = if n.leaf then [] else (n.child g).inorder := by
  cases n <;> rfl

/-- The in-order sequence of a tree read around a gap. -/
theorem gapAt_inorder (B h H : Nat) (r : Node V) (rp : List Nat) (g : Int) (cmax : Nat)
    (l1 l2 : List V) (c : Node V) (hg : GapAt B h H r rp g cmax l1 l2 c) :
    r.inorder = l1 ++ (if (getNode r rp).leaf then [] else c.inorder) ++ l2 := by
  obtain ⟨g1, g2, g3, g4, g5, g6, g7⟩ := hg
  rw [inorder_eq_pre_post B r rp h H g1,
    Node.inorder_parts (getNode r rp) g.toNat (Node.shape_ok_of_wfc _ _ _ _ _ g2) (by omega),
    Node.mid_part_eq, g7, ← g5, ← g6]
  simp only [List.append_assoc]

/-- A full node of a well shaped tree, with its surroundings. -/
theorem full_node_setup [Inhabited V] (B H : Nat) (r : Node V) (rp : List Nat)
    (hw : Node.wf_root B H r = true) (hv : ValidPath r rp)
    (hfull : (getNode r rp).count = B) (hmax : (getNode r rp).max_count B = B) :
    ∃ h, Ctx B r rp h H ∧ Node.wfc B h B B (getNode r rp) = true := by
  obtain ⟨h, n1, n2, n3, n4, n5⟩ := node_facts B H r rp hw hv
  refine ⟨h, n1, ?_⟩
  cases hl : (getNode r rp).leaf with
  | false =>
    exact Node.wfc_relax _ _ _ _ _ _ _ (n3 hl) (by omega) (by omega)
  | true =>
    have h0 := n5 hl
    subst h0
    cases hn : getNode r rp with
    | internal_node vs cs => rw [hn] at hl; cases hl
    | leaf_node m vs =>
      rw [hn] at hfull hmax
      have e1 : vs.length = B := hfull
      have e2 : m = B := hmax
      rw [Node.wfc_leaf_iff]
      exact ⟨rfl, e2, by omega, by omega⟩

namespace Btree

section Moves

variable [Inhabited V]

/-- When the first block of `rebalance_or_split` rebalances, it moves `m` values to the left
sibling with `m` at least one and at most the free slots of that sibling. -/
theorem rebalance_with_left_moves (P : Params K V) (t : Btree K V) (r : Node V)
    (hB : 3 ≤ P.kNodeValues) (ht : t.root = some r) (h H : Nat) (i : Nat) (prp : List Nat)
    (ip : Int) (hc : Ctx P.kNodeValues r (i :: prp) h H)
    (hN : Node.wfc P.kNodeValues h P.kNodeValues P.kNodeValues (getNode r (i :: prp)) = true)
    (res : Btree K V × List Nat × Int)
    (heq : rebalance_with_left P t i prp ip = some res) :
    ∃ m : Nat, 0 < i ∧ 1 ≤ m
      ∧ ((getNode r prp).child (i - 1)).count + m ≤ P.kNodeValues
      ∧ (m : Int) = max 1 (((P.kNodeValues : Int) - ((getNode r prp).child (i - 1)).count)
          / (1 + (if ip < (P.kNodeValues : Int) then 1 else 0)))
      ∧ (res.1.node ((i - 1) :: prp)).count = ((getNode r prp).child (i - 1)).count + m
      ∧ (res.1.node (i :: prp)).count = P.kNodeValues - m := by
  have hr := root_node_of_root t r ht
  obtain ⟨p1, p2, p3, p4, p5, p6, p7⟩ := ctx_parent_facts P.kNodeValues h H r i prp hc
    (Node.wfc_mono _ h _ _ 1 _ _ (by omega) (Nat.le_refl _) hN)
  have hvp : ValidPath t.root_node prp := by
    rw [hr]; exact validPath_of_ctx _ _ _ _ _ p7
  have hNc := Node.wfc_count _ h _ _ _ hN
  simp only [getNode] at hNc
  simp only [rebalance_with_left, node, hr] at heq
  by_cases c1 : i > 0
  · rw [if_pos c1] at heq
    have hLw : Node.wfc P.kNodeValues h 1 P.kNodeValues ((getNode r prp).child (i - 1)) = true :=
      p6 _ (Node.child_mem _ _ (by omega))
    have hmax := Node.max_count_of_wfc _ h 1 _ _ hLw
    have hLc := Node.wfc_count _ h 1 _ _ hLw
    rw [hmax] at heq
    by_cases c2 : ((getNode r prp).child (i - 1)).count < P.kNodeValues
    · rw [if_pos c2] at heq
      obtain ⟨tb1, tb2⟩ := to_move_bounds
        ((P.kNodeValues : Int) - ((getNode r prp).child (i - 1)).count)
        (ip < (P.kNodeValues : Int)) (by omega)
      generalize htm : max 1 (((P.kNodeValues : Int) - ((getNode r prp).child (i - 1)).count)
        / (1 + (if ip < (P.kNodeValues : Int) then 1 else 0))) = tm at heq tb1 tb2
      by_cases c3 : ip - tm ≥ 0 ∨ (((getNode r prp).child (i - 1)).count : Int) + tm
          < P.kNodeValues
      · rw [if_pos c3] at heq
        have etm : ((tm.toNat : Nat) : Int) = tm := by omega
        have hi1 : i - 1 + 1 = i := by omega
        have hR : (getNode r prp).child (i - 1 + 1) = getNode r (i :: prp) := by
          rw [hi1]; rfl
        have hNw : Node.wfc P.kNodeValues h P.kNodeValues P.kNodeValues
            ((getNode r prp).child (i - 1 + 1)) = true := by rw [hR]; exact hN
        obtain ⟨f1, f2, _⟩ := Node.rebalance_right_to_left_facts P.kNodeValues (getNode r prp)
          (i - 1) tm.toNat p1 p4 (by omega) (Node.shape_ok_of_wfc _ _ _ _ _ hLw)
          (Node.shape_ok_of_wfc _ _ _ _ _ hNw)
          (Node.same_kind_of_wfc _ _ _ _ _ _ _ _ hLw hNw) (by omega)
          (by rw [hR]; simp only [getNode]; omega) (by omega)
        rw [hi1] at f2
        have hres : res.1 = t.set_node prp
            ((getNode r prp).rebalance_right_to_left (i - 1) tm.toNat) := by
          by_cases c4 : ip - tm < 0
          · rw [if_pos c4] at heq
            simp only [Option.some.injEq] at heq
            rw [← heq]
          · rw [if_neg c4] at heq
            simp only [Option.some.injEq] at heq
            rw [← heq]
        refine ⟨tm.toNat, c1, by omega, by omega, by rw [etm], ?_, ?_⟩
        · rw [hres, node_set_node_child _ _ _ _ hvp, f1]
        · rw [hres, node_set_node_child _ _ _ _ hvp, f2]
          omega
      · rw [if_neg c3] at heq
        exact absurd heq (by simp)
    · rw [if_neg c2] at heq
      exact absurd heq (by simp)
  · rw [if_neg c1] at heq
    exact absurd heq (by simp)

/-- When the second block of `rebalance_or_split` rebalances, it moves `m` values to the right
sibling with `m` at least one and at most the free slots of that sibling. -/
theorem rebalance_with_right_moves (P : Params K V) (t : Btree K V) (r : Node V)
    (hB : 3 ≤ P.kNodeValues) (ht : t.root = some r) (h H : Nat) (i : Nat) (prp : List Nat)
    (ip : Int) (hc : Ctx P.kNodeValues r (i :: prp) h H)
    (hN : Node.wfc P.kNodeValues h P.kNodeValues P.kNodeValues (getNode r (i :: prp)) = true)
    (res : Btree K V × List Nat × Int)
    (heq : rebalance_with_right P t i prp ip = some res) :
    ∃ m : Nat, i < (getNode r prp).count ∧ 1 ≤ m
      ∧ ((getNode r prp).child (i + 1)).count + m ≤ P.kNodeValues
      ∧ (m : Int) = max 1 (((P.kNodeValues : Int) - ((getNode r prp).child (i + 1)).count)
          / (1 + (if ip > 0 then 1 else 0)))
      ∧ (res.1.node ((i + 1) :: prp)).count = ((getNode r prp).child (i + 1)).count + m
      ∧ (res.1.node (i :: prp)).count = P.kNodeValues - m := by
  have hr := root_node_of_root t r ht
  obtain ⟨p1, p2, p3, p4, p5, p6, p7⟩ := ctx_parent_facts P.kNodeValues h H r i prp hc
    (Node.wfc_mono _ h _ _ 1 _ _ (by omega) (Nat.le_refl _) hN)
  have hvp : ValidPath t.root_node prp := by
    rw [hr]; exact validPath_of_ctx _ _ _ _ _ p7
  have hNc := Node.wfc_count _ h _ _ _ hN
  simp only [getNode] at hNc
  simp only [rebalance_with_right, node, hr] at heq
  by_cases c1 : i < (getNode r prp).count
  · rw [if_pos c1] at heq
    have hRw : Node.wfc P.kNodeValues h 1 P.kNodeValues ((getNode r prp).child (i + 1)) = true :=
      p6 _ (Node.child_mem _ _ (by omega))
    have hmax := Node.max_count_of_wfc _ h 1 _ _ hRw
    have hRc := Node.wfc_count _ h 1 _ _ hRw
    rw [hmax] at heq
    by_cases c2 : ((getNode r prp).child (i + 1)).count < P.kNodeValues
    · rw [if_pos c2] at heq
      obtain ⟨tb1, tb2⟩ := to_move_bounds
        ((P.kNodeValues : Int) - ((getNode r prp).child (i + 1)).count)
        (ip > 0) (by omega)
      generalize htm : max 1 (((P.kNodeValues : Int) - ((getNode r prp).child (i + 1)).count)
        / (1 + (if ip > 0 then 1 else 0))) = tm at heq tb1 tb2
      by_cases c3 : ip ≤ (((getNode r prp).child i).count : Int) - tm
          ∨ (((getNode r prp).child (i + 1)).count : Int) + tm < P.kNodeValues
      · rw [if_pos c3] at heq
        have etm : ((tm.toNat : Nat) : Int) = tm := by omega
        have hNw : Node.wfc P.kNodeValues h P.kNodeValues P.kNodeValues
            ((getNode r prp).child i) = true := hN
        obtain ⟨f1, f2, _⟩ := Node.rebalance_left_to_right_facts P.kNodeValues (getNode r prp)
          i tm.toNat p1 p4 c1 (Node.shape_ok_of_wfc _ _ _ _ _ hNw)
          (Node.same_kind_of_wfc _ _ _ _ _ _ _ _ hNw hRw) (by omega) (by omega) (by omega)
        have hres : res.1 = t.set_node prp
            ((getNode r prp).rebalance_left_to_right i tm.toNat) := by
          simp only [set_node_root_node, hr] at heq
          by_cases c4 : ip > (((getNode (setNode r prp
              ((getNode r prp).rebalance_left_to_right i tm.toNat)) (i :: prp)).count : Nat) : Int)
          · rw [if_pos c4] at heq
            simp only [Option.some.injEq] at heq
            rw [← heq]
          · rw [if_neg c4] at heq
            simp only [Option.some.injEq] at heq
            rw [← heq]
        refine ⟨tm.toNat, c1, by omega, by omega, by rw [etm], ?_, ?_⟩
        · rw [hres, node_set_node_child _ _ _ _ hvp, f2]
        · rw [hres, node_set_node_child _ _ _ _ hvp, f1]
          omega
      · rw [if_neg c3] at heq
        exact absurd heq (by simp)
    · rw [if_neg c2] at heq
      exact absurd heq (by simp)
  · rw [if_neg c1] at heq
    exact absurd heq (by simp)

end Moves

end Btree

end CppBtree

namespace CppBtree

variable {K V : Type}

namespace Btree

section Donor

variable [Inhabited V]

/-- The siblings of a node hold between `1` and `B` values in a leaf or internal node of
capacity `B`. -/
theorem sibling_facts (B h H : Nat) (r : Node V) (i : Nat) (rp : List Nat)
    (hc : Ctx B r (i :: rp) h H) (k : Nat) (hk : k < (getNode r rp).children.length)
    (hki : k ≠ i) :
    Node.wfc B h 1 B ((getNode r rp).child k) = true
      ∧ ((getNode r rp).child k).max_count B = B
      ∧ 1 ≤ ((getNode r rp).child k).count ∧ ((getNode r rp).child k).count ≤ B := by
  obtain ⟨p1, p2, p3, p4, p5, p6, p7⟩ := hc
  have hw := p6 k hk hki
  exact ⟨hw, Node.max_count_of_wfc _ _ _ _ _ hw, Node.wfc_count _ _ _ _ _ hw⟩

/-- The outcome of `try_merge_or_rebalance`, with the capacities of the siblings read as
`B`: when it merges and with which sibling. -/
theorem try_merge_or_rebalance_merges (P : Params K V) (t : Btree K V) (r : Node V)
    (ht : t.root = some r) (i : Nat) (rp : List Nat) (h H : Nat) (position : Int)
    (hc : Ctx P.kNodeValues r (i :: rp) h H) :
    ((0 < i ∧ 1 + ((getNode r rp).child (i - 1)).count + ((getNode r rp).child i).count
          ≤ P.kNodeValues) →
        try_merge_or_rebalance P t (i :: rp) position
          = (merge_nodes t rp (i - 1), (i - 1) :: rp,
              position + (1 + ((getNode r rp).child (i - 1)).count), true))
      ∧ (¬ (0 < i ∧ 1 + ((getNode r rp).child (i - 1)).count + ((getNode r rp).child i).count
            ≤ P.kNodeValues) →
          (i < (getNode r rp).count
            ∧ 1 + ((getNode r rp).child i).count + ((getNode r rp).child (i + 1)).count
              ≤ P.kNodeValues) →
          try_merge_or_rebalance P t (i :: rp) position = (merge_nodes t rp i, i :: rp, position, true))
      ∧ (¬ (0 < i ∧ 1 + ((getNode r rp).child (i - 1)).count + ((getNode r rp).child i).count
            ≤ P.kNodeValues) →
          ¬ (i < (getNode r rp).count
            ∧ 1 + ((getNode r rp).child i).count + ((getNode r rp).child (i + 1)).count
              ≤ P.kNodeValues) →
          try_merge_or_rebalance P t (i :: rp) position
            = if i < (getNode r rp).count
                ∧ ((getNode r rp).child (i + 1)).count > kMinNodeValues P
                ∧ (((getNode r rp).child i).count = 0 ∨ position > 0) then
              (t.set_node rp ((getNode r rp).rebalance_right_to_left i
                (min (((((getNode r rp).child (i + 1)).count : Int)
                  - ((getNode r rp).child i).count) / 2)
                  ((((getNode r rp).child (i + 1)).count : Int) - 1)).toNat), i :: rp, position,
                false)
            else if i > 0 ∧ ((getNode r rp).child (i - 1)).count > kMinNodeValues P
                ∧ (((getNode r rp).child i).count = 0
                  ∨ position < (((getNode r rp).child i).count : Int)) then
              (t.set_node rp ((getNode r rp).rebalance_left_to_right (i - 1)
                (min (((((getNode r rp).child (i - 1)).count : Int)
                  - ((getNode r rp).child i).count) / 2)
                  ((((getNode r rp).child (i - 1)).count : Int) - 1)).toNat), i :: rp,
                position + (min (((((getNode r rp).child (i - 1)).count : Int)
                  - ((getNode r rp).child i).count) / 2)
                  ((((getNode r rp).child (i - 1)).count : Int) - 1)), false)
            else (t, i :: rp, position, false)) := by
  have hr := root_node_of_root t r ht
  have hlen : (getNode r rp).children.length = (getNode r rp).count + 1 := hc.2.2.2.1
  have hL : 0 < i → ((getNode r rp).child (i - 1)).max_count P.kNodeValues = P.kNodeValues :=
    fun h0 => (sibling_facts _ _ _ _ _ _ hc (i - 1) (by have := hc.2.2.2.2.1; omega)
      (by omega)).2.1
  have hR : i < (getNode r rp).count →
      ((getNode r rp).child (i + 1)).max_count P.kNodeValues = P.kNodeValues :=
    fun h0 => (sibling_facts _ _ _ _ _ _ hc (i + 1) (by omega) (by omega)).2.1
  rw [try_merge_or_rebalance_eq P t r hr]
  refine ⟨?_, ?_, ?_⟩
  · intro c1
    rw [if_pos ⟨c1.1, by rw [hL c1.1]; exact c1.2⟩]
    simp only [merge_nodes, node, hr]
  · intro c1 c2
    rw [if_neg (fun hh => c1 ⟨hh.1, by have := hh.2; rw [hL hh.1] at this; exact this⟩),
      if_pos ⟨c2.1, by rw [hR c2.1]; exact c2.2⟩]
    simp only [merge_nodes, node, hr]
  · intro c1 c2
    rw [if_neg (fun hh => c1 ⟨hh.1, by have := hh.2; rw [hL hh.1] at this; exact this⟩),
      if_neg (fun hh => c2 ⟨hh.1, by have := hh.2; rw [hR hh.1] at this; exact this⟩)]

/-- The number of values that the rebalance of `try_merge_or_rebalance` moves from a donor
with `s` values to a node with `n` values. -/
theorem donor_to_move (B n s : Nat) (hn : n < B / 2) (hs : s > B / 2) :
    min (((s : Int) - n) / 2) ((s : Int) - 1) = ((s : Int) - n) / 2
      ∧ (1 : Int) ≤ ((s : Int) - n) / 2 ∧ ((s : Int) - n) / 2 ≤ s
      ∧ (min (((s : Int) - n) / 2) ((s : Int) - 1)).toNat = (s - n) / 2
      ∧ 1 ≤ (s - n) / 2 ∧ (s - n) / 2 ≤ s := by
  have e : ((s : Int) - n) / 2 = (((s - n) / 2 : Nat) : Int) := by
    have : ((s : Int) - n) = ((s - n : Nat) : Int) := by omega
    rw [this]
    norm_cast
  rw [e]
  have h1 : 1 ≤ (s - n) / 2 := by omega
  have h2 : (s - n) / 2 ≤ s - 1 := by omega
  have hm : min (((s - n) / 2 : Nat) : Int) ((s : Int) - 1) = (((s - n) / 2 : Nat) : Int) := by
    apply min_eq_left
    omega
  refine ⟨hm, by omega, by omega, by rw [hm]; exact Int.toNat_ofNat _, h1, by omega⟩

/-- The rebalance of `try_merge_or_rebalance` from the right sibling. -/
theorem try_merge_or_rebalance_right_donor (P : Params K V) (t : Btree K V) (r : Node V)
    (hB : 3 ≤ P.kNodeValues) (ht : t.root = some r) (i : Nat) (rp : List Nat) (h H : Nat)
    (position : Int) (hc : Ctx P.kNodeValues r (i :: rp) h H)
    (hN : Node.wfc P.kNodeValues h 0 P.kNodeValues (getNode r (i :: rp)) = true)
    (hlow : (getNode r (i :: rp)).count < kMinNodeValues P)
    (c1 : ¬ (0 < i ∧ 1 + ((getNode r rp).child (i - 1)).count + ((getNode r rp).child i).count
            ≤ P.kNodeValues))
    (c2 : ¬ (i < (getNode r rp).count
            ∧ 1 + ((getNode r rp).child i).count + ((getNode r rp).child (i + 1)).count
              ≤ P.kNodeValues))
    (c3 : i < (getNode r rp).count ∧ ((getNode r rp).child (i + 1)).count > kMinNodeValues P
        ∧ (((getNode r rp).child i).count = 0 ∨ position > 0)) :
    try_merge_or_rebalance P t (i :: rp) position
        = (t.set_node rp ((getNode r rp).rebalance_right_to_left i
            ((((getNode r rp).child (i + 1)).count - ((getNode r rp).child i).count) / 2)),
            i :: rp, position, false)
      ∧ ((t.set_node rp ((getNode r rp).rebalance_right_to_left i
            ((((getNode r rp).child (i + 1)).count - ((getNode r rp).child i).count) / 2))).node
              (i :: rp)).count
          = ((getNode r rp).child i).count
            + (((getNode r rp).child (i + 1)).count - ((getNode r rp).child i).count) / 2
      ∧ ((t.set_node rp ((getNode r rp).rebalance_right_to_left i
            ((((getNode r rp).child (i + 1)).count - ((getNode r rp).child i).count) / 2))).node
              ((i + 1) :: rp)).count
          = ((getNode r rp).child (i + 1)).count
            - (((getNode r rp).child (i + 1)).count - ((getNode r rp).child i).count) / 2 := by
  have hr := root_node_of_root t r ht
  have hvp : ValidPath t.root_node rp := by
    rw [hr]; exact validPath_of_ctx _ _ _ _ _ hc.2.2.2.2.2.2
  obtain ⟨w, _, _, _⟩ := sibling_facts _ _ _ _ _ _ hc (i + 1)
    (by have := hc.2.2.2.1; omega) (by omega)
  simp only [getNode] at hN hlow
  simp only [kMinNodeValues] at hlow c3
  obtain ⟨d1, d2, d3, d4, d5, d6⟩ := donor_to_move P.kNodeValues ((getNode r rp).child i).count
    ((getNode r rp).child (i + 1)).count hlow c3.2.1
  obtain ⟨f1, f2, _⟩ := Node.rebalance_right_to_left_facts P.kNodeValues (getNode r rp) i
    ((((getNode r rp).child (i + 1)).count - ((getNode r rp).child i).count) / 2) hc.1
    hc.2.2.2.1 c3.1 (Node.shape_ok_of_wfc _ _ _ _ _ hN) (Node.shape_ok_of_wfc _ _ _ _ _ w)
    (Node.same_kind_of_wfc _ _ _ _ _ _ _ _ hN w) d5 d6
    (by have := (Node.wfc_count _ _ _ _ _ w).2; omega)
  refine ⟨?_, ?_, ?_⟩
  · rw [(try_merge_or_rebalance_merges P t r ht i rp h H position hc).2.2 c1 c2,
      if_pos (by simp only [kMinNodeValues]; exact c3), d4]
  · rw [node_set_node_child _ _ _ _ hvp, f1]
  · rw [node_set_node_child _ _ _ _ hvp, f2]

/-- The rebalance of `try_merge_or_rebalance` from the left sibling. -/
theorem try_merge_or_rebalance_left_donor (P : Params K V) (t : Btree K V) (r : Node V)
    (hB : 3 ≤ P.kNodeValues) (ht : t.root = some r) (i : Nat) (rp : List Nat) (h H : Nat)
    (position : Int) (hc : Ctx P.kNodeValues r (i :: rp) h H)
    (hN : Node.wfc P.kNodeValues h 0 P.kNodeValues (getNode r (i :: rp)) = true)
    (hlow : (getNode r (i :: rp)).count < kMinNodeValues P)
    (c1 : ¬ (0 < i ∧ 1 + ((getNode r rp).child (i - 1)).count + ((getNode r rp).child i).count
            ≤ P.kNodeValues))
    (c2 : ¬ (i < (getNode r rp).count
            ∧ 1 + ((getNode r rp).child i).count + ((getNode r rp).child (i + 1)).count
              ≤ P.kNodeValues))
    (c3 : ¬ (i < (getNode r rp).count ∧ ((getNode r rp).child (i + 1)).count > kMinNodeValues P
        ∧ (((getNode r rp).child i).count = 0 ∨ position > 0)))
    (c4 : i > 0 ∧ ((getNode r rp).child (i - 1)).count > kMinNodeValues P
        ∧ (((getNode r rp).child i).count = 0
          ∨ position < (((getNode r rp).child i).count : Int))) :
    try_merge_or_rebalance P t (i :: rp) position
        = (t.set_node rp ((getNode r rp).rebalance_left_to_right (i - 1)
            ((((getNode r rp).child (i - 1)).count - ((getNode r rp).child i).count) / 2)),
            i :: rp,
            position + (((((getNode r rp).child (i - 1)).count
              - ((getNode r rp).child i).count) / 2 : Nat) : Int), false)
      ∧ ((t.set_node rp ((getNode r rp).rebalance_left_to_right (i - 1)
            ((((getNode r rp).child (i - 1)).count - ((getNode r rp).child i).count) / 2))).node
              (i :: rp)).count
          = ((getNode r rp).child i).count
            + (((getNode r rp).child (i - 1)).count - ((getNode r rp).child i).count) / 2
      ∧ ((t.set_node rp ((getNode r rp).rebalance_left_to_right (i - 1)
            ((((getNode r rp).child (i - 1)).count - ((getNode r rp).child i).count) / 2))).node
              ((i - 1) :: rp)).count
          = ((getNode r rp).child (i - 1)).count
            - (((getNode r rp).child (i - 1)).count - ((getNode r rp).child i).count) / 2 := by
  have hr := root_node_of_root t r ht
  have hvp : ValidPath t.root_node rp := by
    rw [hr]; exact validPath_of_ctx _ _ _ _ _ hc.2.2.2.2.2.2
  obtain ⟨w, _, _, _⟩ := sibling_facts _ _ _ _ _ _ hc (i - 1)
    (by have := hc.2.2.2.2.1; omega) (by omega)
  simp only [getNode] at hN hlow
  simp only [kMinNodeValues] at hlow c4
  obtain ⟨d1, d2, d3, d4, d5, d6⟩ := donor_to_move P.kNodeValues ((getNode r rp).child i).count
    ((getNode r rp).child (i - 1)).count hlow c4.2.1
  have hi1 : i - 1 + 1 = i := by omega
  have hNw : Node.wfc P.kNodeValues h 0 P.kNodeValues ((getNode r rp).child (i - 1 + 1))
      = true := by rw [hi1]; exact hN
  obtain ⟨f1, f2, _⟩ := Node.rebalance_left_to_right_facts P.kNodeValues (getNode r rp) (i - 1)
    ((((getNode r rp).child (i - 1)).count - ((getNode r rp).child i).count) / 2) hc.1
    hc.2.2.2.1 (by have := hc.2.2.2.2.1; have := hc.2.2.2.1; omega)
    (Node.shape_ok_of_wfc _ _ _ _ _ w)
    (Node.same_kind_of_wfc _ _ _ _ _ _ _ _ w hNw) d5 d6
    (by rw [hi1]; have := (Node.wfc_count _ _ _ _ _ w).2; omega)
  rw [hi1] at f2
  refine ⟨?_, ?_, ?_⟩
  · rw [(try_merge_or_rebalance_merges P t r ht i rp h H position hc).2.2 c1 c2,
      if_neg c3, if_pos (by simp only [kMinNodeValues]; exact c4), d4, d1]
    have e : (((getNode r rp).child (i - 1)).count : Int) - ((getNode r rp).child i).count
        = ((((getNode r rp).child (i - 1)).count - ((getNode r rp).child i).count : Nat) : Int) := by
      omega
    rw [e]
    norm_cast
  · rw [node_set_node_child _ _ _ _ hvp, f2]
  · rw [node_set_node_child _ _ _ _ hvp, f1]

end Donor

end Btree

end CppBtree

namespace CppBtree

variable {K V : Type}

namespace Node

/-- C31 fails on the code for a full leaf split at the far right. The claim, and the comment
in `split` (when inserting at the end, bias the split to put more values on the left node),
call for no value sent to the new sibling. The far-right test of
`split` compares the insert position with `max_children_count() - 1`, and
`max_children_count()` is 0 on a leaf, so the test never holds there: with capacity 3 and
insert position 3 the full leaf `10, 20, 30` sends `count / 2 = 1` value, 30, to the new
sibling, promotes 20 and keeps 10. -/
theorem split_far_right_leaf_counterexample :
    (Example.over_full_leaf.child 0).leaf = true
      ∧ (Example.over_full_leaf.child 0).count = 3
      ∧ ((Example.over_full_leaf.split 3 0 3).child 1).count = 1
      ∧ ((Example.over_full_leaf.split 3 0 3).child 1).values = [30]
      ∧ ((Example.over_full_leaf.split 3 0 3).child 0).values = [10]
      ∧ (Example.over_full_leaf.split 3 0 3).values = [20] := by
  decide

/-- C31: what `split` does, for every full node with `B` values under a parent and every
pending insert position `p` from `0` on. For `p = 0` the new right sibling receives all but one
of the values (`B - 1`), as the claim says. For an internal node and `p = B` it receives none
and starts empty, as the claim says. In every other case it receives `B / 2` values; a leaf
with `p = B` is among these cases, because the far-right test of `split` compares `p` with
`max_children_count() - 1`, which is `-1` on a leaf; there the code departs from the claim and
from the comment of `split`, which call for an empty sibling. The node keeps the values that
were neither sent nor promoted. -/
theorem split_bias [Inhabited V] (B : Nat) (p : Node V) (i : Nat) (ip : Int)
    (hl : p.leaf = false) (hc : p.children.length = p.count + 1) (hi : i ≤ p.count)
    (hs : shape_ok (p.child i)) (hB : 1 ≤ B) (hfull : (p.child i).count = B)
    (hcap : (p.child i).leaf = true → (p.child i).max_count B = B) (h0 : 0 ≤ ip) :
    ((p.split B i ip).child (i + 1)).count
        = (if ip = 0 then B - 1
          else if (p.child i).leaf = false ∧ ip = B then 0
          else B / 2)
      ∧ ((p.split B i ip).child i).count
          = B - 1 - ((p.split B i ip).child (i + 1)).count := by
  obtain ⟨_, _, a3, a4, _, _⟩ := split_parts B p i ip hl hc hi hs (by omega) hcap
  have hd := split_dest_count_lt B (p.child i) ip (by omega)
  have hk : (p.child i).split_point B ip = B - (p.child i).split_dest_count B ip - 1 := by
    unfold split_point; rw [hfull]
  have e1 : ((p.split B i ip).child (i + 1)).count = (p.child i).split_dest_count B ip := by
    rw [a4, count_cut_right, hk, hfull]; omega
  have e2 : ((p.split B i ip).child i).count = B - 1 - (p.child i).split_dest_count B ip := by
    rw [a3, count_cut_left _ _ (by rw [hk, hfull]; omega), hk]; omega
  refine ⟨?_, by rw [e2, e1]⟩
  rw [e1]
  unfold split_dest_count
  rw [hfull]
  by_cases c0 : ip = 0
  · rw [if_pos c0, if_pos c0]
  · rw [if_neg c0, if_neg c0]
    cases hk2 : (p.child i).leaf with
    | true =>
      have : ¬ (ip = ((max_children_count B (p.child i) : Nat) : Int) - 1) := by
        simp only [max_children_count, hk2, if_true]
        omega
      rw [if_neg this, if_neg (by simp)]
    | false =>
      simp only [max_children_count, hk2, Bool.false_eq_true, if_false, true_and]
      by_cases c1 : ip = (B : Int)
      · rw [if_pos c1, if_pos (by rw [c1]; push_cast; omega)]
      · rw [if_neg c1, if_neg (by push_cast; omega)]

theorem split_bias_witness :
    ((Example.over_full_internal.split 3 0 3).child 1).count = 0
      ∧ ((Example.over_full_internal.split 3 0 0).child 1).count = 2
      ∧ ((Example.over_full_leaf.split 3 0 3).child 1).count = 1 :=
  ⟨(split_bias 3 Example.over_full_internal 0 3 rfl (by decide) (by decide)
      (by simp [shape_ok, Example.over_full_internal, child, children])
      (by decide) (by decide) (by decide) (by decide)).1.trans (by decide),
    (split_bias 3 Example.over_full_internal 0 0 rfl (by decide) (by decide)
      (by simp [shape_ok, Example.over_full_internal, child, children])
      (by decide) (by decide) (by decide) (by decide)).1.trans (by decide),
    (split_bias 3 Example.over_full_leaf 0 3 rfl (by decide) (by decide)
      (by simp [shape_ok, Example.over_full_leaf, child, children])
      (by decide) (by decide) (by decide) (by decide)).1.trans (by decide)⟩

/-- C32: for every full node that is child `i` of a parent with room and every insert position,
after `split` the values of the node followed by the separator now stored in the parent at
position `i` followed by the values of the new sibling are the original values of the node;
the node keeps the values before the split point and the separator is the value at the split
point, the last of those that had remained on the left; the new sibling is child `i + 1` of the
parent and holds the `m` values that were sent; the count of the parent grew by one, its other
values and children staying in place; and for an internal node the sibling holds the last
`m + 1` children of the node in order while the node keeps the others. -/
theorem split_preserves_content [Inhabited V] (B : Nat) (p : Node V) (i : Nat) (ip : Int)
    (hl : p.leaf = false) (hc : p.children.length = p.count + 1) (hi : i ≤ p.count)
    (hroom : p.count < B) (hs : shape_ok (p.child i)) (hB : 1 ≤ B)
    (hfull : (p.child i).count = B)
    (hcap : (p.child i).leaf = true → (p.child i).max_count B = B) :
    ((p.split B i ip).child i).values ++ (p.split B i ip).value i
          :: ((p.split B i ip).child (i + 1)).values = (p.child i).values
      ∧ ((p.split B i ip).child i).values
          = (p.child i).values.take (B - (p.child i).split_dest_count B ip - 1)
      ∧ (p.split B i ip).value i
          = (p.child i).value (B - (p.child i).split_dest_count B ip - 1)
      ∧ ((p.split B i ip).child (i + 1)).values
          = (p.child i).values.drop (B - (p.child i).split_dest_count B ip)
      ∧ ((p.split B i ip).child (i + 1)).count = (p.child i).split_dest_count B ip
      ∧ (p.split B i ip).count = p.count + 1
      ∧ (p.split B i ip).values
          = p.values.take i ++ (p.split B i ip).value i :: p.values.drop i
      ∧ (p.split B i ip).children
          = p.children.take i ++ (p.split B i ip).child i :: (p.split B i ip).child (i + 1)
              :: p.children.drop (i + 1)
      ∧ ((p.split B i ip).child i).leaf = (p.child i).leaf
      ∧ ((p.split B i ip).child (i + 1)).leaf = (p.child i).leaf
      ∧ ((p.child i).leaf = false →
          ((p.split B i ip).child (i + 1)).children
              = (p.child i).children.drop (B - (p.child i).split_dest_count B ip)
            ∧ ((p.split B i ip).child (i + 1)).children.length
              = (p.child i).split_dest_count B ip + 1
            ∧ ((p.split B i ip).child i).children
              = (p.child i).children.take (B - (p.child i).split_dest_count B ip)) := by
  obtain ⟨a1, a2, a3, a4, a5, a6⟩ := split_parts B p i ip hl hc hi hs (by omega) hcap
  have hd := split_dest_count_lt B (p.child i) ip (by omega)
  have hk : (p.child i).split_point B ip = B - (p.child i).split_dest_count B ip - 1 := by
    unfold split_point; rw [hfull]
  have hk1 : B - (p.child i).split_dest_count B ip - 1 + 1
      = B - (p.child i).split_dest_count B ip := by omega
  rw [hk] at a1 a2 a3 a4 a5
  obtain ⟨k1, k2⟩ := cut_leaf (p.child i) (B - (p.child i).split_dest_count B ip - 1)
  refine ⟨?_, by rw [a3, cut_left_values], a5, by rw [a4, cut_right_values, hk1], ?_, a6,
    by rw [a1, a5], by rw [a2, a3, a4], by rw [a3]; exact k1, by rw [a4]; exact k2, ?_⟩
  · rw [a3, a4, a5]
    exact cut_values_join _ _ (by rw [hfull]; omega)
  · rw [a4, count_cut_right, hfull]; omega
  · intro hk2
    have hlen : (p.child i).children.length = B + 1 := by
      cases hn : p.child i with
      | leaf_node m vs => rw [hn] at hk2; cases hk2
      | internal_node vs cs =>
        rw [hn] at hs hfull
        have h1 : cs.length = vs.length + 1 := hs
        have h2 : vs.length = B := hfull
        show cs.length = B + 1
        omega
    refine ⟨by rw [a4, cut_right_children, hk1], ?_, by rw [a3, cut_left_children, hk1]⟩
    rw [a4, cut_right_children, hk1, List.length_drop, hlen]
    omega

theorem split_preserves_content_witness :
    ((Example.over_full_internal.split 3 0 1).child 0).values
          ++ (Example.over_full_internal.split 3 0 1).value 0
          :: ((Example.over_full_internal.split 3 0 1).child 1).values = [10, 20, 30]
      ∧ (Example.over_full_internal.split 3 0 1).value 0 = 20
      ∧ ((Example.over_full_internal.split 3 0 1).child 1).values = [30]
      ∧ (Example.over_full_internal.split 3 0 1).count = 1 :=
  ⟨(split_preserves_content 3 Example.over_full_internal 0 1 rfl (by decide) (by decide)
      (by decide) (by simp [shape_ok, Example.over_full_internal, child, children])
      (by decide) (by decide) (by decide)).1.trans (by decide),
    by decide, by decide, by decide⟩

end Node

end CppBtree

namespace CppBtree

variable {K V : Type}

/-- C34: for adjacent siblings `left` (child `i`) and `right` (child `i + 1`) of one parent,
of the same kind, with `1 + left.count + right.count ≤ B`, after `left.merge(right)` the
values of `left` are its old values, then the old separator of the parent, then the old values
of `right`; its children are its old children followed by those of `right`; the parent loses
exactly that separator, its count going down by one with its other values in unchanged order,
and keeps its other children. In the model of the child array and the link fields the count of
`right` becomes 0, and on internal nodes every child of the merged node, its own and those
received from `right` in order, is linked to it with its position field equal to its index. -/
theorem merge_joins_siblings (V : Type) [Inhabited V] (B : Nat) :
    (∀ (p : Node V) (i : Nat), p.leaf = false → p.children.length = p.count + 1 →
        i < p.count → Node.same_kind (p.child i) (p.child (i + 1)) →
        1 + (p.child i).count + (p.child (i + 1)).count ≤ B →
        ((p.merge i).child i).values
            = (p.child i).values ++ p.value i :: (p.child (i + 1)).values
          ∧ ((p.merge i).child i).children
            = (p.child i).children ++ (p.child (i + 1)).children
          ∧ ((p.merge i).child i).count = 1 + (p.child i).count + (p.child (i + 1)).count
          ∧ ((p.merge i).child i).count ≤ B
          ∧ (p.merge i).count = p.count - 1
          ∧ (p.merge i).values = p.values.take i ++ p.values.drop (i + 1)
          ∧ (p.merge i).children
            = p.children.take i ++ (p.merge i).child i :: p.children.drop (i + 2))
    ∧ (∀ (q : LNode) (pos : Nat) (this src : LNode), q.Full B → pos + 1 ≤ q.count →
        q.slot pos = some this → q.slot (pos + 1) = some src →
        (this.is_leaf = false →
          this.Full B ∧ src.Full B ∧ this.LinkOk ∧ 1 + this.count + src.count ≤ B) →
        ∃ T S, LNode.merge q pos = ((q.put pos T).put (pos + 1) S).remove_value pos
          ∧ T.id = this.id ∧ S.id = src.id ∧ S.count = 0
          ∧ T.count = 1 + this.count + src.count
          ∧ (LNode.merge q pos).slot pos = some T
          ∧ (LNode.merge q pos).count = q.count - 1
          ∧ (this.is_leaf = false →
              T.LinkOk
                ∧ (∀ j, j ≤ this.count → T.slot j = this.slot j)
                ∧ (∀ j, j ≤ src.count → ∃ c, src.slot j = some c
                    ∧ T.slot (this.count + 1 + j)
                        = some (c.relink this.id (this.count + 1 + j))))) := by
  refine ⟨?_, ?_⟩
  · intro p i hl hc hi hk hcap
    obtain ⟨a1, a2, a3, a4⟩ := Node.merge_parts p i hl hc hi
    have e : ((p.merge i).child i).count = 1 + (p.child i).count + (p.child (i + 1)).count := by
      rw [a3, Node.count_glue]; omega
    refine ⟨by rw [a3, Node.glue_values], by rw [a3, Node.glue_children _ _ _ hk], e,
      by rw [e]; exact hcap, a4, a1, by rw [a2, a3]⟩
  · intro q pos this src hq hpos hs hs2 hi
    exact LNode.merge_detail B q pos this src hq hpos hs hs2 hi

theorem merge_joins_siblings_witness :
    ((Example.small_pair.merge 0).child 0).values = [10, 20, 30]
      ∧ (Example.small_pair.merge 0).count = 0
      ∧ (LNode.merge Example.linked 0).count = 1 :=
  ⟨((merge_joins_siblings Int 3).1 Example.small_pair 0 rfl (by decide) (by decide)
      (by simp [Node.same_kind, Example.small_pair, Node.child, Node.children])
      (by decide)).1.trans (by decide),
    by decide,
    by
      obtain ⟨T, S, _, _, _, _, _, _, h, _⟩ :=
        (merge_joins_siblings Int 3).2 Example.linked 0 (Example.linked_leaf 2 1 0 1)
          (Example.linked_leaf 3 1 1 0) Example.linked_full (by decide) rfl rfl
          (fun h => by cases h)
      exact h⟩

namespace Node

/-- C35: for adjacent siblings `left` (child `i`) and `right` (child `i + 1`) of one parent, of
the same kind, and every `k` with `1 ≤ k ≤ right.count` and `left.count + k ≤ B`,
`left.rebalance_right_to_left(right, k)` moves exactly `k` values: the count of `left` grows
by `k`, that of `right` shrinks by `k`, that of the parent is unchanged with only its value `i`
replaced; the sequence of the values of `left`, the separator and the values of `right` is the
same before and after; the old separator is the value of `left` at index old `left.count`,
followed by the first `k - 1` values of `right`, and the old value `k - 1` of `right` is the new
separator; the first `k` children of `right` become the last `k` children of `left` in order
and the remaining children of `right` come to the front. -/
theorem rebalance_right_to_left_correct [Inhabited V] (B : Nat) (p : Node V) (i k : Nat)
    (hl : p.leaf = false) (hc : p.children.length = p.count + 1) (hi : i < p.count)
    (hsL : shape_ok (p.child i)) (hsR : shape_ok (p.child (i + 1)))
    (hk : same_kind (p.child i) (p.child (i + 1))) (hk1 : 1 ≤ k)
    (hk2 : k ≤ (p.child (i + 1)).count) (hcap : (p.child i).count + k ≤ B) :
    ((p.rebalance_right_to_left i k).child i).count = (p.child i).count + k
      ∧ ((p.rebalance_right_to_left i k).child (i + 1)).count = (p.child (i + 1)).count - k
      ∧ (p.rebalance_right_to_left i k).count = p.count
      ∧ ((p.rebalance_right_to_left i k).child i).values
            ++ (p.rebalance_right_to_left i k).value i
            :: ((p.rebalance_right_to_left i k).child (i + 1)).values
          = (p.child i).values ++ p.value i :: (p.child (i + 1)).values
      ∧ ((p.rebalance_right_to_left i k).child i).values
          = (p.child i).values ++ p.value i :: (p.child (i + 1)).values.take (k - 1)
      ∧ ((p.rebalance_right_to_left i k).child i).value (p.child i).count = p.value i
      ∧ (p.rebalance_right_to_left i k).value i = (p.child (i + 1)).value (k - 1)
      ∧ ((p.rebalance_right_to_left i k).child (i + 1)).values
          = (p.child (i + 1)).values.drop k
      ∧ (p.rebalance_right_to_left i k).values
          = p.values.set i ((p.child (i + 1)).value (k - 1))
      ∧ (p.rebalance_right_to_left i k).children
          = p.children.take i ++ (p.rebalance_right_to_left i k).child i
              :: (p.rebalance_right_to_left i k).child (i + 1) :: p.children.drop (i + 2)
      ∧ ((p.rebalance_right_to_left i k).child i).children
          = (p.child i).children ++ (p.child (i + 1)).children.take k
      ∧ ((p.rebalance_right_to_left i k).child (i + 1)).children
          = (p.child (i + 1)).children.drop k :=
  rebalance_right_to_left_facts B p i k hl hc hi hsL hsR hk hk1 hk2 hcap

theorem rebalance_right_to_left_correct_witness :
    ((Example.leaf_pair.rebalance_right_to_left 0 1).child 0).values = [10, 20]
      ∧ (Example.leaf_pair.rebalance_right_to_left 0 1).value 0 = 30
      ∧ ((Example.leaf_pair.rebalance_right_to_left 0 1).child 1).values = [40, 50] :=
  ⟨(rebalance_right_to_left_correct 3 Example.leaf_pair 0 1 rfl (by decide) (by decide)
      (by simp [shape_ok, Example.leaf_pair, child, children])
      (by simp [shape_ok, Example.leaf_pair, child, children])
      (by simp [same_kind, Example.leaf_pair, child, children])
      (by decide) (by decide) (by decide)).2.2.2.2.1.trans (by decide),
    by decide, by decide⟩

/-- C36: for adjacent siblings `left` (child `i`) and `right` (child `i + 1`) of one parent, of
the same kind, and every `k` with `1 ≤ k ≤ left.count` and `right.count + k ≤ B`,
`left.rebalance_left_to_right(right, k)` mirrors `rebalance_right_to_left`: the count of `left`
shrinks by `k`, that of `right` grows by `k`, that of the parent is unchanged with only its
value `i` replaced; the sequence of the values of `left`, the separator and the values of
`right` is the same before and after; the old value `left.count - k` of `left` is the new
separator and the old separator follows the last `k - 1` values of `left` at the front of
`right`; the last `k` children of `left` become the first `k` children of `right` in order,
ahead of the old children of `right`. -/
theorem rebalance_left_to_right_correct [Inhabited V] (B : Nat) (p : Node V) (i k : Nat)
    (hl : p.leaf = false) (hc : p.children.length = p.count + 1) (hi : i < p.count)
    (hsL : shape_ok (p.child i)) (hk : same_kind (p.child i) (p.child (i + 1)))
    (hk1 : 1 ≤ k) (hk2 : k ≤ (p.child i).count) (hcap : (p.child (i + 1)).count + k ≤ B) :
    ((p.rebalance_left_to_right i k).child i).count = (p.child i).count - k
      ∧ ((p.rebalance_left_to_right i k).child (i + 1)).count = (p.child (i + 1)).count + k
      ∧ (p.rebalance_left_to_right i k).count = p.count
      ∧ ((p.rebalance_left_to_right i k).child i).values
            ++ (p.rebalance_left_to_right i k).value i
            :: ((p.rebalance_left_to_right i k).child (i + 1)).values
          = (p.child i).values ++ p.value i :: (p.child (i + 1)).values
      ∧ ((p.rebalance_left_to_right i k).child i).values
          = (p.child i).values.take ((p.child i).count - k)
      ∧ (p.rebalance_left_to_right i k).value i = (p.child i).value ((p.child i).count - k)
      ∧ ((p.rebalance_left_to_right i k).child (i + 1)).values
          = (p.child i).values.drop ((p.child i).count - k + 1)
              ++ p.value i :: (p.child (i + 1)).values
      ∧ (p.rebalance_left_to_right i k).values
          = p.values.set i ((p.child i).value ((p.child i).count - k))
      ∧ (p.rebalance_left_to_right i k).children
          = p.children.take i ++ (p.rebalance_left_to_right i k).child i
              :: (p.rebalance_left_to_right i k).child (i + 1) :: p.children.drop (i + 2)
      ∧ ((p.rebalance_left_to_right i k).child i).children
          = (p.child i).children.take ((p.child i).count - k + 1)
      ∧ ((p.rebalance_left_to_right i k).child (i + 1)).children
          = (p.child i).children.drop ((p.child i).count - k + 1)
              ++ (p.child (i + 1)).children
      ∧ ((p.child i).leaf = false →
          ((p.child i).children.drop ((p.child i).count - k + 1)).length = k) :=
  rebalance_left_to_right_facts B p i k hl hc hi hsL hk hk1 hk2 hcap

theorem rebalance_left_to_right_correct_witness :
    ((Example.internal_pair.rebalance_left_to_right 0 1).child 0).values = []
      ∧ (Example.internal_pair.rebalance_left_to_right 0 1).value 0 = 20
      ∧ ((Example.internal_pair.rebalance_left_to_right 0 1).child 1).values
          = [40, 60, 80] :=
  ⟨(rebalance_left_to_right_correct 3 Example.internal_pair 0 1 rfl (by decide) (by decide)
      (by simp [shape_ok, Example.internal_pair, child, children])
      (by simp [same_kind, Example.internal_pair, child, children])
      (by decide) (by decide) (by decide)).2.2.2.2.1.trans (by decide),
    by decide, by decide⟩

end Node

end CppBtree

namespace CppBtree

variable {K V : Type}

namespace Btree

/-- C33 as stated fails for node capacity 4: inserting 5 into the tree whose root is the full
leaf `10, 20, 30, 40` splits the root with insert position 0, which sends all but one value to
the new sibling and promotes the remaining one, so after the pending insert the split node
holds the single value 5, fewer than `kMinNodeValues = 2`. -/
theorem split_fill_counterexample :
    kMinNodeValues Example.params4 = 2
      ∧ Example.full_root4.root_node.count = Example.full_root4.root_node.max_count 4
      ∧ ((insert_unique Example.params4 Example.full_root4 5).1.node [0]).values = [5]
      ∧ ((insert_unique Example.params4 Example.full_root4 5).1.node [1]).values = [20, 30, 40]
      ∧ (insert_unique Example.params4 Example.full_root4 5).1.root_node.values = [10]
      ∧ ((split_then_insert Example.params4 Example.fresh_root4 [] 0 0 5).node [0]).count = 1
      ∧ ¬ (kMinNodeValues Example.params4
            ≤ ((split_then_insert Example.params4 Example.fresh_root4 [] 0 0 5).node [0]).count) := by
  decide

/-- C33 (amended): for node capacity `B` at least 3, every full node that is child `i` of a
node of the tree and every pending insert position between `0` and `B`, after the split
performed by `rebalance_or_split` followed by the pending `insert_value`, both the split node
and its new right sibling hold at least one value, and together they hold `B` values. -/
theorem split_then_insert_fill [Inhabited V] (P : Params K V) (t : Btree K V) (r : Node V)
    (ht : t.root = some r) (rp : List Nat) (hv : ValidPath r rp) (i : Nat) (ip : Int) (v : V)
    (hl : (getNode r rp).leaf = false)
    (hc : (getNode r rp).children.length = (getNode r rp).count + 1)
    (hi : i ≤ (getNode r rp).count) (hs : Node.shape_ok ((getNode r rp).child i))
    (hB : 3 ≤ P.kNodeValues) (hfull : ((getNode r rp).child i).count = P.kNodeValues)
    (hcap : ((getNode r rp).child i).leaf = true →
      ((getNode r rp).child i).max_count P.kNodeValues = P.kNodeValues)
    (h0 : 0 ≤ ip) (h1 : ip ≤ P.kNodeValues) :
    1 ≤ ((split_then_insert P t rp i ip v).node (i :: rp)).count
      ∧ 1 ≤ ((split_then_insert P t rp i ip v).node ((i + 1) :: rp)).count
      ∧ ((split_then_insert P t rp i ip v).node (i :: rp)).count
          + ((split_then_insert P t rp i ip v).node ((i + 1) :: rp)).count = P.kNodeValues := by
  obtain ⟨e1, e2⟩ := split_then_insert_counts P t r ht rp hv i ip v hl hc hi hs (by omega)
    hfull hcap h0 h1
  rw [e1, e2]
  have hk : ((getNode r rp).child i).split_point P.kNodeValues ip
      = P.kNodeValues - ((getNode r rp).child i).split_dest_count P.kNodeValues ip - 1 := by
    unfold Node.split_point; rw [hfull]
  have hd := Node.split_dest_count_lt P.kNodeValues ((getNode r rp).child i) ip (by omega)
  rw [hfull] at hd
  have hcases : ((getNode r rp).child i).split_dest_count P.kNodeValues ip = P.kNodeValues - 1
        ∧ ip = 0
      ∨ ((getNode r rp).child i).split_dest_count P.kNodeValues ip = 0 ∧ ip = P.kNodeValues
      ∨ ((getNode r rp).child i).split_dest_count P.kNodeValues ip = P.kNodeValues / 2 := by
    unfold Node.split_dest_count
    rw [hfull]
    by_cases c0 : ip = 0
    · left; rw [if_pos c0]; exact ⟨rfl, c0⟩
    · rw [if_neg c0]
      by_cases c1 : ip = ((((getNode r rp).child i).max_children_count P.kNodeValues : Nat) : Int) - 1
      · rw [if_pos c1]
        right; left
        refine ⟨rfl, ?_⟩
        rw [c1]
        unfold Node.max_children_count
        split
        · rename_i hlf
          rw [c1] at h0
          simp only [Node.max_children_count, hlf, if_true] at h0
          omega
        · push_cast; omega
      · rw [if_neg c1]; right; right; rfl
  rw [hk]
  generalize ((getNode r rp).child i).split_dest_count P.kNodeValues ip = d at hd hcases ⊢
  rcases hcases with ⟨h, h2⟩ | ⟨h, h2⟩ | h
  · subst h h2
    rw [if_pos (by simp), if_pos (by simp)]
    omega
  · subst h
    rw [if_neg (by omega), if_neg (by omega)]
    omega
  · subst h
    split <;> omega

theorem split_then_insert_fill_witness :
    1 ≤ ((split_then_insert Example.params Example.fresh_root3 [] 0 3 40).node [0]).count
      ∧ 1 ≤ ((split_then_insert Example.params Example.fresh_root3 [] 0 3 40).node [1]).count
      ∧ ((split_then_insert Example.params Example.fresh_root3 [] 0 3 40).node [0]).values = [10]
      ∧ ((split_then_insert Example.params Example.fresh_root3 [] 0 3 40).node [1]).values
          = [30, 40] :=
  ⟨(split_then_insert_fill Example.params Example.fresh_root3 Example.over_full_leaf rfl []
      trivial 0 3 40 rfl (by decide) (by decide)
      (by simp [Node.shape_ok, Example.over_full_leaf, getNode, Node.child, Node.children])
      (by decide) (by decide) (by decide) (by decide) (by decide)).1,
    (split_then_insert_fill Example.params Example.fresh_root3 Example.over_full_leaf rfl []
      trivial 0 3 40 rfl (by decide) (by decide)
      (by simp [Node.shape_ok, Example.over_full_leaf, getNode, Node.child, Node.children])
      (by decide) (by decide) (by decide) (by decide) (by decide)).2.1,
    by decide, by decide⟩

end Btree

end CppBtree

namespace CppBtree

variable {K V : Type}

namespace Btree

/-- C37: for node capacity at least 3, every well shaped tree and every iterator `(node, p)`
whose node is full with `B` values and `0 ≤ p ≤ B`, `rebalance_or_split` returns (the model
recurses on the path to the root, so it is total) a tree and an iterator whose node has
`count < max_count`, whose position lies in `[0, count]` and stands in the same gap of the
in-order sequence as before (the same values before it, the same values after it, the same
child in it), and the in-order sequence of the tree is unchanged. Whenever it rebalances with
the left or with the right sibling, the number of values moved is
`max(1, free_slots / (1 + bias))`, at least one and at most the free slots of the sibling, and
the node is left with `B` minus that many values, so the assertions
`node->count() < node->max_count()` after each rebalance hold. -/
theorem rebalance_or_split_correct [Inhabited V] (P : Params K V) (hB : 3 ≤ P.kNodeValues)
    (t : Btree K V) (r : Node V) (ht : t.root = some r) (hS : Shaped P t) (rp : List Nat)
    (hv : ValidPath r rp) (hfull : (getNode r rp).count = P.kNodeValues)
    (hmax : (getNode r rp).max_count P.kNodeValues = P.kNodeValues) (ip : Int) (h0 : 0 ≤ ip)
    (h1 : ip ≤ P.kNodeValues) :
    (∃ r1, (rebalance_or_split P t rp ip).1.root = some r1
      ∧ (rebalance_or_split P t rp ip).1.comp = t.comp
      ∧ ValidPath r1 (rebalance_or_split P t rp ip).2.1
      ∧ (getNode r1 (rebalance_or_split P t rp ip).2.1).count
          < (getNode r1 (rebalance_or_split P t rp ip).2.1).max_count P.kNodeValues
      ∧ 0 ≤ (rebalance_or_split P t rp ip).2.2
      ∧ (rebalance_or_split P t rp ip).2.2
          ≤ (getNode r1 (rebalance_or_split P t rp ip).2.1).count
      ∧ pre r1 (rebalance_or_split P t rp ip).2.1
            ++ (getNode r1 (rebalance_or_split P t rp ip).2.1).pre_part
                (rebalance_or_split P t rp ip).2.2.toNat
          = pre r rp ++ (getNode r rp).pre_part ip.toNat
      ∧ (getNode r1 (rebalance_or_split P t rp ip).2.1).post_part
              (rebalance_or_split P t rp ip).2.2.toNat
            ++ post r1 (rebalance_or_split P t rp ip).2.1
          = (getNode r rp).post_part ip.toNat ++ post r rp
      ∧ (getNode r1 (rebalance_or_split P t rp ip).2.1).child
            (rebalance_or_split P t rp ip).2.2.toNat = (getNode r rp).child ip.toNat
      ∧ (getNode r1 (rebalance_or_split P t rp ip).2.1).leaf = (getNode r rp).leaf
      ∧ r1.inorder = r.inorder)
    ∧ (∀ i prp res, rp = i :: prp → rebalance_with_left P t i prp ip = some res →
        rebalance_or_split P t rp ip = res
          ∧ ∃ m : Nat, 1 ≤ m ∧ ((getNode r prp).child (i - 1)).count + m ≤ P.kNodeValues
            ∧ (m : Int) = max 1 (((P.kNodeValues : Int) - ((getNode r prp).child (i - 1)).count)
                / (1 + (if ip < (P.kNodeValues : Int) then 1 else 0)))
            ∧ (res.1.node ((i - 1) :: prp)).count = ((getNode r prp).child (i - 1)).count + m
            ∧ (res.1.node (i :: prp)).count = P.kNodeValues - m)
    ∧ (∀ i prp res, rp = i :: prp → rebalance_with_left P t i prp ip = none →
        rebalance_with_right P t i prp ip = some res →
        rebalance_or_split P t rp ip = res
          ∧ ∃ m : Nat, 1 ≤ m ∧ ((getNode r prp).child (i + 1)).count + m ≤ P.kNodeValues
            ∧ (m : Int) = max 1 (((P.kNodeValues : Int) - ((getNode r prp).child (i + 1)).count)
                / (1 + (if ip > 0 then 1 else 0)))
            ∧ (res.1.node ((i + 1) :: prp)).count = ((getNode r prp).child (i + 1)).count + m
            ∧ (res.1.node (i :: prp)).count = P.kNodeValues - m) := by
  have hw : Node.wf_root P.kNodeValues (r.height - 1) r = true :=
    ((shaped_of_root P t r ht).mp hS).1
  obtain ⟨h, hc, hN⟩ := full_node_setup P.kNodeValues (r.height - 1) r rp hw hv hfull hmax
  refine ⟨?_, ?_, ?_⟩
  · obtain ⟨r1, H1, e1, e2, _, g⟩ := rebalance_or_split_spec P hB rp t r h (r.height - 1) ip ht
      hc hN h0 h1
    have hin := gapAt_inorder _ _ _ _ _ _ _ _ _ _ g
    obtain ⟨g1, g2, g3, g4, g5, g6, g7⟩ := g
    have hlf : (getNode r1 (rebalance_or_split P t rp ip).2.1).leaf = (getNode r rp).leaf := by
      have a := Node.wfc_leaf_zero _ _ _ _ _ g2
      have b := Node.wfc_leaf_zero _ _ _ _ _ hN
      cases h1 : (getNode r1 (rebalance_or_split P t rp ip).2.1).leaf <;>
        cases h2 : (getNode r rp).leaf <;> simp_all
    refine ⟨r1, e1, e2, validPath_of_ctx _ _ _ _ _ g1, ?_, g3, g4, g5, g6, g7, hlf, ?_⟩
    · rw [Node.max_count_of_wfc _ _ _ _ _ g2]
      have := (Node.wfc_count _ _ _ _ _ g2).2
      omega
    · rw [hin, hlf, inorder_eq_pre_post P.kNodeValues r rp h (r.height - 1) hc,
        Node.inorder_parts (getNode r rp) ip.toNat (Node.shape_ok_of_wfc _ _ _ _ _ hN)
          (by rw [hfull]; omega), Node.mid_part_eq]
      simp only [List.append_assoc]
  · intro i prp res hrp heq
    subst hrp
    refine ⟨by rw [rebalance_or_split, heq], ?_⟩
    obtain ⟨m, _, m1, m2, m3, m4, m5⟩ :=
      rebalance_with_left_moves P t r hB ht h (r.height - 1) i prp ip hc hN res heq
    exact ⟨m, m1, m2, m3, m4, m5⟩
  · intro i prp res hrp hnone heq
    subst hrp
    refine ⟨by rw [rebalance_or_split, hnone, heq], ?_⟩
    obtain ⟨m, _, m1, m2, m3, m4, m5⟩ :=
      rebalance_with_right_moves P t r hB ht h (r.height - 1) i prp ip hc hN res heq
    exact ⟨m, m1, m2, m3, m4, m5⟩

theorem rebalance_or_split_correct_witness :
    Shaped Example.params Example.pair_tree
      ∧ (getNode Example.leaf_pair [1]).count = Example.params.kNodeValues
      ∧ (rebalance_or_split Example.params Example.pair_tree [1] 3).2 = ([1], 1)
      ∧ ∃ r1, (rebalance_or_split Example.params Example.pair_tree [1] 3).1.root = some r1
          ∧ r1.inorder = [10, 20, 30, 40, 50] :=
  ⟨by decide, by decide, by decide,
    Exists.imp (fun _ h => ⟨h.1, h.2.2.2.2.2.2.2.2.2.2.trans (by decide)⟩)
      (rebalance_or_split_correct Example.params (by decide) Example.pair_tree
        Example.leaf_pair rfl (by decide) [1] ⟨trivial, by decide⟩ (by decide) (by decide) 3
        (by decide) (by decide)).1⟩

end Btree

end CppBtree

namespace CppBtree

variable {K V : Type}

namespace Btree

/-- C38: for node capacity at least 3 and every non-root node `i :: rp` of a well shaped
surrounding that holds fewer than `kMinNodeValues` values, whatever the position of the
iterator (the loop of `erase` passes the position of the leaf to the ancestors),
`try_merge_or_rebalance` returns true exactly when it merged the node with a sibling: with the
left sibling when there is one and `1 + left.count + node.count ≤ B` (tried first), or else
with the right sibling when there is one and `1 + node.count + right.count ≤ B`. Otherwise it
returns false, the iterator keeps its node, and the tree is unchanged or is the outcome of one
rebalance from a sibling that holds more than `kMinNodeValues` values. In every case the root,
the comparator and the counter of the tree are kept and the in-order sequence of the tree is
unchanged; the returned position is the old one plus a shift, and every gap `g` of the node
is the gap `g + shift` of the returned node, with the same values of the sequence before it
and after it and the same child in it, so an iterator that stood at a gap of the node denotes
the same place of the sequence afterwards. -/
theorem try_merge_or_rebalance_correct [Inhabited V] (P : Params K V)
    (hB : 3 ≤ P.kNodeValues) (t : Btree K V) (r : Node V) (ht : t.root = some r) (i : Nat)
    (rp : List Nat) (h H : Nat) (position : Int) (hc : Ctx P.kNodeValues r (i :: rp) h H)
    (hN : Node.wfc P.kNodeValues h 0 P.kNodeValues (getNode r (i :: rp)) = true)
    (hlow : (getNode r (i :: rp)).count < kMinNodeValues P) :
    ((try_merge_or_rebalance P t (i :: rp) position).2.2.2 = true ↔
        ((0 < i ∧ 1 + ((getNode r rp).child (i - 1)).count + ((getNode r rp).child i).count
            ≤ P.kNodeValues)
          ∨ (i < (getNode r rp).count
            ∧ 1 + ((getNode r rp).child i).count + ((getNode r rp).child (i + 1)).count
              ≤ P.kNodeValues)))
      ∧ ((0 < i ∧ 1 + ((getNode r rp).child (i - 1)).count + ((getNode r rp).child i).count
            ≤ P.kNodeValues) →
          try_merge_or_rebalance P t (i :: rp) position
            = (merge_nodes t rp (i - 1), (i - 1) :: rp,
                position + (1 + ((getNode r rp).child (i - 1)).count), true))
      ∧ (¬ (0 < i ∧ 1 + ((getNode r rp).child (i - 1)).count + ((getNode r rp).child i).count
            ≤ P.kNodeValues) →
          (i < (getNode r rp).count
            ∧ 1 + ((getNode r rp).child i).count + ((getNode r rp).child (i + 1)).count
              ≤ P.kNodeValues) →
          try_merge_or_rebalance P t (i :: rp) position
            = (merge_nodes t rp i, i :: rp, position, true))
      ∧ ((try_merge_or_rebalance P t (i :: rp) position).2.2.2 = false →
          (try_merge_or_rebalance P t (i :: rp) position).2.1 = i :: rp
            ∧ ((try_merge_or_rebalance P t (i :: rp) position).1 = t
              ∨ (i < (getNode r rp).count
                  ∧ ((getNode r rp).child (i + 1)).count > kMinNodeValues P
                  ∧ ∃ m, (try_merge_or_rebalance P t (i :: rp) position).1
                      = t.set_node rp ((getNode r rp).rebalance_right_to_left i m))
              ∨ (0 < i ∧ ((getNode r rp).child (i - 1)).count > kMinNodeValues P
                  ∧ ∃ m, (try_merge_or_rebalance P t (i :: rp) position).1
                      = t.set_node rp ((getNode r rp).rebalance_left_to_right (i - 1) m))))
      ∧ (∃ r1 : Node V,
          (try_merge_or_rebalance P t (i :: rp) position).1.root = some r1
            ∧ (try_merge_or_rebalance P t (i :: rp) position).1.comp = t.comp
            ∧ (try_merge_or_rebalance P t (i :: rp) position).1.size_field = t.size_field
            ∧ r1.inorder = r.inorder)
      ∧ ∀ g : Nat, g ≤ (getNode r (i :: rp)).count →
          ∃ (shift : Nat) (r1 : Node V) (i1 : Nat),
            (try_merge_or_rebalance P t (i :: rp) position).2.2.1 = position + shift
              ∧ (try_merge_or_rebalance P t (i :: rp) position).2.1 = i1 :: rp
              ∧ (try_merge_or_rebalance P t (i :: rp) position).1.root = some r1
              ∧ g + shift ≤ (getNode r1 (i1 :: rp)).count
              ∧ pre r1 (i1 :: rp) ++ (getNode r1 (i1 :: rp)).pre_part (g + shift)
                  = pre r (i :: rp) ++ (getNode r (i :: rp)).pre_part g
              ∧ (getNode r1 (i1 :: rp)).post_part (g + shift) ++ post r1 (i1 :: rp)
                  = (getNode r (i :: rp)).post_part g ++ post r (i :: rp)
              ∧ (getNode r1 (i1 :: rp)).child (g + shift) = (getNode r (i :: rp)).child g
              ∧ r1.inorder = r.inorder := by
  obtain ⟨m1, m2, m3⟩ := try_merge_or_rebalance_merges P t r ht i rp h H position hc
  refine ⟨?_, m1, m2, ?_, ?_, ?_⟩
  · by_cases c1 : 0 < i ∧ 1 + ((getNode r rp).child (i - 1)).count
        + ((getNode r rp).child i).count ≤ P.kNodeValues
    · rw [m1 c1]
      exact ⟨fun _ => Or.inl c1, fun _ => rfl⟩
    · by_cases c2 : i < (getNode r rp).count
          ∧ 1 + ((getNode r rp).child i).count + ((getNode r rp).child (i + 1)).count
            ≤ P.kNodeValues
      · rw [m2 c1 c2]
        exact ⟨fun _ => Or.inr c2, fun _ => rfl⟩
      · rw [m3 c1 c2]
        constructor
        · intro hh
          split at hh
          · cases hh
          · split at hh <;> cases hh
        · intro hh
          rcases hh with hh | hh
          · exact absurd hh c1
          · exact absurd hh c2
  · intro hf
    by_cases c1 : 0 < i ∧ 1 + ((getNode r rp).child (i - 1)).count
        + ((getNode r rp).child i).count ≤ P.kNodeValues
    · rw [m1 c1] at hf; cases hf
    · by_cases c2 : i < (getNode r rp).count
          ∧ 1 + ((getNode r rp).child i).count + ((getNode r rp).child (i + 1)).count
            ≤ P.kNodeValues
      · rw [m2 c1 c2] at hf; cases hf
      · rw [m3 c1 c2]
        split
        · rename_i c3
          exact ⟨rfl, Or.inr (Or.inl ⟨c3.1, c3.2.1, _, rfl⟩)⟩
        · split
          · rename_i c4
            exact ⟨rfl, Or.inr (Or.inr ⟨c4.1, c4.2.1, _, rfl⟩)⟩
          · exact ⟨rfl, Or.inl rfl⟩
  · obtain ⟨_, r1, _, _, s2, s3, s4, _, s6, _⟩ :=
      try_merge_or_rebalance_step P t r hB ht i rp h H position 0 hc hN hlow (Nat.zero_le _)
    exact ⟨r1, s2, s3, s4, s6.2.2.2.2.2.2.2.2⟩
  · intro g hg
    obtain ⟨shift, r1, i1, s1, s2, _, _, s5, s6, _⟩ :=
      try_merge_or_rebalance_step P t r hB ht i rp h H position g hc hN hlow hg
    obtain ⟨_, _, _, f4, f5, f6, f7, _, f9⟩ := s6
    exact ⟨shift, r1, i1, s1, s5, s2, f4, f5, f6, f7, f9⟩

theorem try_merge_or_rebalance_correct_witness :
    (try_merge_or_rebalance Example.params Example.underfull_tree [0] 2).2.2.2 = true
      ∧ ((try_merge_or_rebalance Example.params Example.underfull_tree [0] 2).1.node [0]).values
          = [40, 60]
      ∧ (try_merge_or_rebalance Example.params Example.underfull_tree [0] 2).1.inorder
          = [10, 20, 40, 50, 60, 70] :=
  ⟨(try_merge_or_rebalance_correct Example.params (by decide) Example.underfull_tree
      (Node.internal_node [40]
        [Node.internal_node [] [Node.leaf_node 3 [10, 20]],
          Node.internal_node [60] [Node.leaf_node 3 [50], Node.leaf_node 3 [70]]]) rfl 0 [] 1 2 2
      (by
        refine ⟨rfl, by decide, by decide, by decide, by decide, ?_, rfl⟩
        intro j hj hne
        have hj2 : j < 2 := hj
        interval_cases j
        · exact absurd rfl hne
        · rfl)
      (by decide) (by decide)).1.mpr (Or.inr (by decide)),
    by decide, by decide⟩

/-- C39: whenever `try_merge_or_rebalance` performs a rebalance, the node holding
`n < kMinNodeValues` values and the donor sibling `s > kMinNodeValues` values with
`1 + n + s > B` (no merge was possible), the computed `to_move = min((s - n) / 2, s - 1)`
satisfies `1 ≤ to_move ≤ s` and equals `(s - n) / 2`, so the cap `s - 1` never binds;
afterwards the node holds `n + to_move` and the donor `s - to_move` values, both at least
`kMinNodeValues`, and the donor holds as many values as the node or one more. The first part
is the rebalance from the right sibling, the second the rebalance from the left sibling. -/
theorem rebalance_to_move_balanced [Inhabited V] (P : Params K V) (hB : 3 ≤ P.kNodeValues)
    (t : Btree K V) (r : Node V) (ht : t.root = some r) (i : Nat) (rp : List Nat) (h H : Nat)
    (position : Int) (hc : Ctx P.kNodeValues r (i :: rp) h H)
    (hN : Node.wfc P.kNodeValues h 0 P.kNodeValues (getNode r (i :: rp)) = true)
    (hlow : (getNode r (i :: rp)).count < kMinNodeValues P)
    (c1 : ¬ (0 < i ∧ 1 + ((getNode r rp).child (i - 1)).count + ((getNode r rp).child i).count
            ≤ P.kNodeValues))
    (c2 : ¬ (i < (getNode r rp).count
            ∧ 1 + ((getNode r rp).child i).count + ((getNode r rp).child (i + 1)).count
              ≤ P.kNodeValues)) :
    ((i < (getNode r rp).count ∧ ((getNode r rp).child (i + 1)).count > kMinNodeValues P
        ∧ (((getNode r rp).child i).count = 0 ∨ position > 0)) →
      min (((((getNode r rp).child (i + 1)).count : Int) - ((getNode r rp).child i).count) / 2)
          ((((getNode r rp).child (i + 1)).count : Int) - 1)
        = ((((getNode r rp).child (i + 1)).count : Int) - ((getNode r rp).child i).count) / 2
      ∧ 1 ≤ ((((getNode r rp).child (i + 1)).count : Int) - ((getNode r rp).child i).count) / 2
      ∧ ((((getNode r rp).child (i + 1)).count : Int) - ((getNode r rp).child i).count) / 2
          ≤ ((getNode r rp).child (i + 1)).count
      ∧ (try_merge_or_rebalance P t (i :: rp) position).2 = (i :: rp, position, false)
      ∧ ((try_merge_or_rebalance P t (i :: rp) position).1.node (i :: rp)).count
          = ((getNode r rp).child i).count
            + (((getNode r rp).child (i + 1)).count - ((getNode r rp).child i).count) / 2
      ∧ ((try_merge_or_rebalance P t (i :: rp) position).1.node ((i + 1) :: rp)).count
          = ((getNode r rp).child (i + 1)).count
            - (((getNode r rp).child (i + 1)).count - ((getNode r rp).child i).count) / 2
      ∧ kMinNodeValues P
          ≤ ((try_merge_or_rebalance P t (i :: rp) position).1.node (i :: rp)).count
      ∧ kMinNodeValues P
          ≤ ((try_merge_or_rebalance P t (i :: rp) position).1.node ((i + 1) :: rp)).count
      ∧ ((try_merge_or_rebalance P t (i :: rp) position).1.node (i :: rp)).count
          ≤ ((try_merge_or_rebalance P t (i :: rp) position).1.node ((i + 1) :: rp)).count
      ∧ ((try_merge_or_rebalance P t (i :: rp) position).1.node ((i + 1) :: rp)).count
          ≤ ((try_merge_or_rebalance P t (i :: rp) position).1.node (i :: rp)).count + 1)
    ∧ (¬ (i < (getNode r rp).count ∧ ((getNode r rp).child (i + 1)).count > kMinNodeValues P
          ∧ (((getNode r rp).child i).count = 0 ∨ position > 0)) →
      (i > 0 ∧ ((getNode r rp).child (i - 1)).count > kMinNodeValues P
        ∧ (((getNode r rp).child i).count = 0
          ∨ position < (((getNode r rp).child i).count : Int))) →
      min (((((getNode r rp).child (i - 1)).count : Int) - ((getNode r rp).child i).count) / 2)
          ((((getNode r rp).child (i - 1)).count : Int) - 1)
        = ((((getNode r rp).child (i - 1)).count : Int) - ((getNode r rp).child i).count) / 2
      ∧ 1 ≤ ((((getNode r rp).child (i - 1)).count : Int) - ((getNode r rp).child i).count) / 2
      ∧ ((((getNode r rp).child (i - 1)).count : Int) - ((getNode r rp).child i).count) / 2
          ≤ ((getNode r rp).child (i - 1)).count
      ∧ (try_merge_or_rebalance P t (i :: rp) position).2.1 = i :: rp
      ∧ (try_merge_or_rebalance P t (i :: rp) position).2.2.2 = false
      ∧ ((try_merge_or_rebalance P t (i :: rp) position).1.node (i :: rp)).count
          = ((getNode r rp).child i).count
            + (((getNode r rp).child (i - 1)).count - ((getNode r rp).child i).count) / 2
      ∧ ((try_merge_or_rebalance P t (i :: rp) position).1.node ((i - 1) :: rp)).count
          = ((getNode r rp).child (i - 1)).count
            - (((getNode r rp).child (i - 1)).count - ((getNode r rp).child i).count) / 2
      ∧ kMinNodeValues P
          ≤ ((try_merge_or_rebalance P t (i :: rp) position).1.node (i :: rp)).count
      ∧ kMinNodeValues P
          ≤ ((try_merge_or_rebalance P t (i :: rp) position).1.node ((i - 1) :: rp)).count
      ∧ ((try_merge_or_rebalance P t (i :: rp) position).1.node (i :: rp)).count
          ≤ ((try_merge_or_rebalance P t (i :: rp) position).1.node ((i - 1) :: rp)).count
      ∧ ((try_merge_or_rebalance P t (i :: rp) position).1.node ((i - 1) :: rp)).count
          ≤ ((try_merge_or_rebalance P t (i :: rp) position).1.node (i :: rp)).count + 1) := by
  have hlow2 : ((getNode r rp).child i).count < P.kNodeValues / 2 := hlow
  refine ⟨?_, ?_⟩
  · intro c3
    obtain ⟨e1, e2, e3⟩ := try_merge_or_rebalance_right_donor P t r hB ht i rp h H position hc
      hN hlow c1 c2 c3
    have hs : ((getNode r rp).child (i + 1)).count > P.kNodeValues / 2 := c3.2.1
    obtain ⟨d1, d2, d3, _, _, _⟩ := donor_to_move P.kNodeValues ((getNode r rp).child i).count
      ((getNode r rp).child (i + 1)).count hlow2 hs
    have hsum : 1 + ((getNode r rp).child i).count + ((getNode r rp).child (i + 1)).count
        > P.kNodeValues := by
      by_contra hn
      exact c2 ⟨c3.1, by omega⟩
    rw [e1]
    dsimp only
    rw [e2, e3]
    refine ⟨d1, d2, d3, rfl, rfl, rfl, ?_, ?_, ?_, ?_⟩ <;>
      (try simp only [kMinNodeValues]) <;> omega
  · intro c3 c4
    obtain ⟨e1, e2, e3⟩ := try_merge_or_rebalance_left_donor P t r hB ht i rp h H position hc
      hN hlow c1 c2 c3 c4
    have hs : ((getNode r rp).child (i - 1)).count > P.kNodeValues / 2 := c4.2.1
    obtain ⟨d1, d2, d3, _, _, _⟩ := donor_to_move P.kNodeValues ((getNode r rp).child i).count
      ((getNode r rp).child (i - 1)).count hlow2 hs
    have hsum : 1 + ((getNode r rp).child (i - 1)).count + ((getNode r rp).child i).count
        > P.kNodeValues := by
      by_contra hn
      exact c1 ⟨c4.1, by omega⟩
    rw [e1]
    dsimp only
    rw [e2, e3]
    refine ⟨d1, d2, d3, rfl, rfl, rfl, rfl, ?_, ?_, ?_, ?_⟩ <;>
      (try simp only [kMinNodeValues]) <;> omega

theorem rebalance_to_move_balanced_witness :
    (try_merge_or_rebalance Example.params
        ⟨Example.int_compare, some (Node.internal_node [20]
          [Node.leaf_node 3 [], Node.leaf_node 3 [30, 40, 50]]), 3⟩ [0] 0).2 = ([0], 0, false)
      ∧ ((try_merge_or_rebalance Example.params
          ⟨Example.int_compare, some (Node.internal_node [20]
            [Node.leaf_node 3 [], Node.leaf_node 3 [30, 40, 50]]), 3⟩ [0] 0).1.node [0]).count
          = 1
      ∧ ((try_merge_or_rebalance Example.params
          ⟨Example.int_compare, some (Node.internal_node [20]
            [Node.leaf_node 3 [], Node.leaf_node 3 [30, 40, 50]]), 3⟩ [0] 0).1.node [1]).count
          = 2 :=
  (fun h => ⟨h.2.2.2.1, h.2.2.2.2.1.trans (by decide), h.2.2.2.2.2.1.trans (by decide)⟩)
    ((rebalance_to_move_balanced Example.params (by decide)
      ⟨Example.int_compare, some (Node.internal_node [20]
        [Node.leaf_node 3 [], Node.leaf_node 3 [30, 40, 50]]), 3⟩
      (Node.internal_node [20] [Node.leaf_node 3 [], Node.leaf_node 3 [30, 40, 50]]) rfl 0 []
      0 1 0
      (by
        refine ⟨rfl, by decide, by decide, by decide, by decide, ?_, rfl⟩
        intro j hj hne
        have hj2 : j < 2 := hj
        interval_cases j
        · exact absurd rfl hne
        · rfl)
      (by decide) (by decide) (by decide) (by decide)).1 ⟨by decide, by decide, Or.inl rfl⟩)

end Btree

end CppBtree

namespace CppBtree

variable {K V : Type}

namespace Btree

/-- C40: for every tree whose root `r` exists, `try_shrink` leaves the tree as it is when the
root holds at least one value; when the root is a leaf without values the tree becomes empty
(no root, `size()` 0); when the root is an internal node without values over its sole child
(one more child than values), the new root holds exactly the values and the children of that
child, `height()` decreases by exactly one, the in-order sequence is unchanged, and `size()`
is unchanged when the counter kept in the root fields is the number of stored values. A node
is named here by its path from the root, so the promoted leaf and the refilled root are both
the node at the empty path. -/
theorem try_shrink_correct [Inhabited V] (t : Btree K V) (r : Node V) (ht : t.root = some r) :
    (r.count > 0 → t.try_shrink = t)
      ∧ (r.count = 0 → r.leaf = true →
          t.try_shrink.root = none ∧ t.try_shrink.empty = true ∧ t.try_shrink.size = 0
            ∧ t.try_shrink.height = 0 ∧ t.try_shrink.inorder = [])
      ∧ (r.count = 0 → r.leaf = false → r.children.length = r.count + 1 →
          t.try_shrink.root = some (r.child 0)
            ∧ t.try_shrink.root_node.values = (r.child 0).values
            ∧ t.try_shrink.root_node.children = (r.child 0).children
            ∧ t.try_shrink.root_node.leaf = (r.child 0).leaf
            ∧ t.try_shrink.height + 1 = t.height
            ∧ t.try_shrink.inorder = t.inorder
            ∧ t.try_shrink.comp = t.comp
            ∧ (t.size_field = r.inorder.length → t.try_shrink.size = t.size)) := by
  have hr := root_node_of_root t r ht
  refine ⟨?_, ?_, ?_⟩
  · intro hc
    simp [try_shrink, hr, hc]
  · intro hc hl
    have e : t.try_shrink = t.with_root none := by
      simp [try_shrink, hr, hc, hl]
    rw [e]
    exact ⟨rfl, rfl, rfl, rfl, rfl⟩
  · intro hc hl hlen
    have e : t.try_shrink = t.with_root (some (r.child 0)) := by
      simp [try_shrink, hr, hc, hl]
    rw [e]
    cases r with
    | leaf_node m vs => cases hl
    | internal_node vs cs =>
      have hvs : vs = [] := by
        simpa [Node.count, Node.values] using hc
      subst hvs
      cases cs with
      | nil => simp [Node.children, Node.count, Node.values] at hlen
      | cons c cs =>
        cases cs with
        | cons c2 cs2 => simp [Node.children, Node.count, Node.values] at hlen
        | nil =>
          have hch : (Node.internal_node ([] : List V) [c]).child 0 = c := by
            simp [Node.child, Node.children]
          rw [hch]
          refine ⟨rfl, rfl, rfl, rfl, ?_, ?_, rfl, ?_⟩
          · simp [height, with_root, ht, Node.height]
          · simp [inorder, with_root, ht, Node.inorder, Node.inorder_children]
          · intro hsz
            simp only [Node.inorder, Node.inorder_children, List.append_nil] at hsz
            cases c with
            | leaf_node m ws =>
              simp [size, empty, with_root, ht, root_node, Node.leaf, Node.count, Node.values,
                hsz, Node.inorder]
            | internal_node ws ds =>
              simp [size, empty, with_root, ht, root_node, Node.leaf]

theorem try_shrink_correct_witness :
    (⟨Example.int_compare, some (Node.internal_node [] [Node.leaf_node 3 [10, 20]]), 2⟩
        : Btree Int Int).try_shrink.root = some (Node.leaf_node 3 [10, 20])
      ∧ (⟨Example.int_compare, some (Node.internal_node [] [Node.leaf_node 3 [10, 20]]), 2⟩
        : Btree Int Int).try_shrink.height + 1 = 2
      ∧ (⟨Example.int_compare, some (Node.internal_node [] [Node.leaf_node 3 [10, 20]]), 2⟩
        : Btree Int Int).try_shrink.size = 2 :=
  (fun h => ⟨h.1, h.2.2.2.2.1, h.2.2.2.2.2.2.2 rfl⟩)
    ((try_shrink_correct
      (⟨Example.int_compare, some (Node.internal_node [] [Node.leaf_node 3 [10, 20]]), 2⟩
        : Btree Int Int)
      (Node.internal_node [] [Node.leaf_node 3 [10, 20]]) rfl).2.2 rfl rfl rfl)

end Btree

end CppBtree

namespace CppBtree

namespace Btree

/-- `erase(begin(), end())` on a well shaped tree whose number of values is from `2^31` up to
`2^32 - 1`: the count kept in an `int` is negative, no single erase runs, and the negative
number is returned. -/
theorem erase_range_all_wrap {K V : Type} [Inhabited V] (P : Params K V) (t : Btree K V)
    (hS : Shaped P t) (h1 : 2147483648 ≤ t.inorder.length)
    (h2 : t.inorder.length < 4294967296) :
    erase_range P t t.begin_ t.end_ = (t, (t.inorder.length : Int) - 4294967296) := by
  have hb : IterTo t t.begin_ [] (t.inorder ++ []) := by
    rw [List.append_nil]
    exact iterTo_begin P t hS
  have he : IterTo t t.end_ ([] ++ t.inorder) [] := by
    rw [List.nil_append]
    exact iterTo_end t
  obtain ⟨w1, w2⟩ := to_int_wrap _ h1 h2
  rw [erase_range_unfold P t hS _ _ _ _ _ hb he, w2, w1]
  rfl

end Btree

/-- The tree built by `n` calls of `insert_multi(0)`: it is valid, holds `n` values, and all of
them have the key 0. -/
theorem Example.copies_spec (n : Nat) :
    Btree.Valid Example.params (Example.copies n)
      ∧ LawfulComp (Example.copies n).comp
      ∧ (Example.copies n).inorder.length = n
      ∧ ((Example.copies n).inorder.filter
          (fun x => decide ((Example.copies n).comp (Example.params.key x) 0 = 0))).length
          = n := by
  unfold Example.copies
  obtain ⟨d0, d1, d2, d3, _, d5⟩ := Btree.insert_copies_spec Example.params (by decide)
    (0 : Int) n (Btree.new Example.int_compare) Example.int_compare_lawful (by decide)
    (by decide)
  refine ⟨⟨by decide, d1, d2⟩, ?_, ?_, ?_⟩
  · rw [d0]
    exact Example.int_compare_lawful
  · rw [d5]
    rfl
  · rw [d0]
    exact d3.trans rfl

end CppBtree

namespace CppBtree

namespace Btree

/-- C13 fails on the code for a range of `2^31` values: in the valid tree that holds
`2147483648` values 0, `erase(begin(), end())` keeps the distance `2147483648` in an `int`,
where it is `-2147483648`; the loop of single erases does not run, `-2147483648` is returned
and the tree still holds every value, where the claim and the comment of `erase(begin, end)`
call for `2147483648` returned and every value of the range removed. -/
theorem erase_range_int_overflow :
    Valid Example.params (Example.copies 2147483648)
      ∧ (Example.copies 2147483648).inorder.length = 2147483648
      ∧ erase_range Example.params (Example.copies 2147483648)
          (Example.copies 2147483648).begin_ (Example.copies 2147483648).end_
        = (Example.copies 2147483648, -2147483648) := by
  obtain ⟨hv, _, hlen, _⟩ := Example.copies_spec 2147483648
  refine ⟨hv, hlen, ?_⟩
  have h := erase_range_all_wrap Example.params (Example.copies 2147483648) hv.2.1
    (by rw [hlen]) (by rw [hlen]; omega)
  rw [hlen] at h
  rw [h]
  norm_num

/-- C12 fails on the code for `2^31` equal keys: in the valid multi tree that holds
`2147483648` values 0, `erase_multi(0)` hands the range of the values of key 0 to
`erase(begin, end)`, which keeps its length `2147483648` in an `int`, where it is
`-2147483648`; no value is erased and `-2147483648` is returned, where the claim and the
comment of `erase_multi` call for `2147483648` returned and every value of key 0 removed. -/
theorem erase_multi_int_overflow :
    Valid Example.params (Example.copies 2147483648)
      ∧ ((Example.copies 2147483648).inorder.filter
          (fun x => decide ((Example.copies 2147483648).comp (Example.params.key x) 0 = 0))).length
          = 2147483648
      ∧ erase_multi Example.params (Example.copies 2147483648) 0
        = (Example.copies 2147483648, -2147483648) := by
  obtain ⟨hv, hc, _, hlen⟩ := Example.copies_spec 2147483648
  refine ⟨hv, hlen, ?_⟩
  have h := erase_multi_wrap Example.params hv.1 (Example.copies 2147483648) 0 hc hv.2.1
    hv.2.2 (by rw [hlen]) (by rw [hlen]; omega)
  rw [hlen] at h
  rw [h]
  norm_num

end Btree

end CppBtree

